import Mathlib

/-!
Polygon boolean operations: a verification development

Shallow embedding of the three engines of the repository

* `GeometryCore/Polygonutility.cpp`, `GeometryCore/BooleanOps.cpp`
  (ray casting, segment intersection, Sutherland-Hodgman clipping and the
  `ComputeBoolean` dispatcher),
* `BooleanNative/Polygon.cpp` (namespace `PolygonBoolean`: the circular
  doubly linked vertex ring and its boolean operations),
* `GeometryCore/PolygonUtilityExtension.cpp` (the Greiner-Hormann engine),

followed by the theorems that settle the claims of the specification.

Modelling conventions.

* A C++ `double` is a rational number. In the functions named after the
  source arithmetic is exact, and the constants `1e-9` and `1e-10` are the
  rationals `1/10^9` and `1/10^10`. Where a property depends on rounding, the
  function exists a second time with the suffix `F` and a first argument `fl`,
  the rounding applied to the result of every `+`, `-`, `*`, `/` and to every
  decimal literal, in the order in which the source evaluates them: `fl = id`
  gives the exact function back, `fl = Binary64.rnd` (round to nearest, ties to
  even, 53 bits) is the arithmetic of the program.
* A `std::vector` is a `List`; `v[i]` is `vget v i`.
* A pointer is an `Option Nat`: `none` is `nullptr`, `some a` is the address of
  cell `a` of a heap, which is the list of all cells allocated so far; `new`
  appends a cell, `delete` leaves the heap as it is.  Reading or writing through
  `nullptr` or through an address that was never allocated makes the operation
  return `none`.
* In `BooleanNative`, a loop that walks a ring without inserting into it gets
  as many iterations as the heap has cells: a walk that has not come back to
  its start by then has entered a cycle that does not contain the start and
  never comes back.  A loop whose body may allocate takes an explicit `fuel`;
  `none` then also stands for "did not finish within `fuel` iterations".  In
  the Greiner-Hormann engine every loop takes an explicit `fuel`.
* An uninitialised local `Point ip` holds an indeterminate value; it is the
  parameter `uninit` of the functions that read it.
-/

/-! ## GeometryCore: `Polygonutility.h` -/

namespace GeometryCore

/-- The `struct Point` of `Polygonutility.h`. -/
structure Point where
  x : ℚ
  y : ℚ
deriving DecidableEq

/-- The `struct Ring` of `Polygonutility.h`. -/
structure Ring where
  vertices : List Point
deriving DecidableEq

/-- The `struct Polygon` of `Polygonutility.h`: an outer ring and hole rings. -/
structure Polygon where
  outer : Ring
  holes : List Ring
deriving DecidableEq

/-- Indexing `v[i]` of a `std::vector<Point>`. -/
def vget (v : List Point) (i : Nat) : Point := v.getD i ⟨0, 0⟩

/-- The constant `1e-9`. -/
def eps9 : ℚ := 1 / 1000000000

namespace Polygonutility

/-- One iteration of the loop of `PointInRing`: the state is `(inside, j)`. -/
def PointInRingStep (p : Point) (v : List Point) (st : Bool × Nat) (i : Nat) : Bool × Nat :=
  let a := vget v i
  let b := vget v st.2
  if decide (a.y > p.y) != decide (b.y > p.y) then
    let x := (b.x - a.x) * (p.y - a.y) / (b.y - a.y) + a.x
    if p.x < x then (!st.1, i) else (st.1, i)
  else (st.1, i)

/-- Ray casting `Polygonutility::PointInRing`:
`for (int i = 0, j = n - 1; i < n; j = i++)`. -/
def PointInRing (p : Point) (r : Ring) : Bool :=
  let n := r.vertices.length
  ((List.range n).foldl (PointInRingStep p r.vertices) (false, n - 1)).1

/-- The loop over the holes of `PointInPolygon`. -/
def PointInPolygonHoles (p : Point) : List Ring → Bool
  | [] => true
  | hole :: rest => if PointInRing p hole then false else PointInPolygonHoles p rest

/-- Point in polygon with holes `Polygonutility::PointInPolygon`. -/
def PointInPolygon (p : Point) (poly : Polygon) : Bool :=
  if !PointInRing p poly.outer then false
  else PointInPolygonHoles p poly.holes

/-- Bounding box test `Polygonutility::OnSegment`. -/
def OnSegment (a b p : Point) : Bool :=
  decide (p.x ≥ min a.x b.x - eps9) &&
  decide (p.x ≤ max a.x b.x + eps9) &&
  decide (p.y ≥ min a.y b.y - eps9) &&
  decide (p.y ≤ max a.y b.y + eps9)

/-- Line intersection `Polygonutility::SegmentIntersect`; `ip` is the in/out
parameter, returned as second component. -/
def SegmentIntersect (p1 p2 q1 q2 : Point) (ip : Point) : Bool × Point :=
  let A1 := p2.y - p1.y
  let B1 := p1.x - p2.x
  let C1 := A1 * p1.x + B1 * p1.y
  let A2 := q2.y - q1.y
  let B2 := q1.x - q2.x
  let C2 := A2 * q1.x + B2 * q1.y
  let det := A1 * B2 - A2 * B1
  if |det| < eps9 then (false, ip)
  else
    let ip1 : Point := ⟨(B2 * C1 - B1 * C2) / det, (A1 * C2 - A2 * C1) / det⟩
    (OnSegment p1 p2 ip1 && OnSegment q1 q2 ip1, ip1)

/-- The edge-edge phase of `PolygonsOverlap`. -/
def EdgesIntersect (aV bV : List Point) (uninit : Point) : Bool :=
  (List.range aV.length).any fun i =>
    let a1 := vget aV i
    let a2 := vget aV ((i + 1) % aV.length)
    (List.range bV.length).any fun j =>
      let b1 := vget bV j
      let b2 := vget bV ((j + 1) % bV.length)
      (SegmentIntersect a1 a2 b1 b2 uninit).1

/-- Overlap test `Polygonutility::PolygonsOverlap`. -/
def PolygonsOverlap (A B : Polygon) (uninit : Point) : Bool :=
  if A.outer.vertices.any (fun p => PointInPolygon p B) then true
  else if B.outer.vertices.any (fun p => PointInPolygon p A) then true
  else EdgesIntersect A.outer.vertices B.outer.vertices uninit

/-- The free function `SignedArea` of `Polygonutility.cpp`. -/
def SignedArea (pts : List Point) : ℚ :=
  ((List.range pts.length).foldl (fun area i =>
    let p := vget pts i
    let q := vget pts ((i + 1) % pts.length)
    area + (p.x * q.y - q.x * p.y)) 0) * (1 / 2)

/-- The free function `IsCCW` of `Polygonutility.cpp`. -/
def IsCCW (pts : List Point) : Bool := decide (SignedArea pts > 0)

/-- Half-plane test `Polygonutility::Inside`. -/
def Inside (p a b : Point) (clipCCW : Bool) : Bool :=
  let cross := (b.x - a.x) * (p.y - a.y) - (b.y - a.y) * (p.x - a.x)
  if clipCCW then decide (cross ≥ 0) else decide (cross ≤ 0)

/-- The body of the inner loop of `ClipPolygon`: the state is `(S, output)`. -/
def ClipStep (A B : Point) (clipCCW : Bool) (uninit : Point)
    (st : Point × List Point) (E : Point) : Point × List Point :=
  let S := st.1
  let output := st.2
  let Ein := Inside E A B clipCCW
  let Sin := Inside S A B clipCCW
  if Ein then
    if !Sin then (E, (output ++ [(SegmentIntersect S E A B uninit).2]) ++ [E])
    else (E, output ++ [E])
  else if Sin then (E, output ++ [(SegmentIntersect S E A B uninit).2])
  else (E, output)

/-- The outer loop of `ClipPolygon` over the clip edges `i`, with its `break`. -/
def ClipLoop (clip : List Point) (clipCCW : Bool) (uninit : Point) :
    List Nat → List Point → List Point
  | [], output => output
  | i :: rest, output =>
    let A := vget clip i
    let B := vget clip ((i + 1) % clip.length)
    let input := output
    if input = [] then []
    else
      let S := input.getLastD uninit
      ClipLoop clip clipCCW uninit rest (input.foldl (ClipStep A B clipCCW uninit) (S, [])).2

/-- Sutherland-Hodgman clip `Polygonutility::ClipPolygon`. -/
def ClipPolygon (subject clip : List Point) (uninit : Point) : List Point :=
  ClipLoop clip (IsCCW clip) uninit (List.range clip.length) subject

/-- The body of the inner loop of `ClipPolygonOutside`. -/
def ClipOutsideStep (A B : Point) (clipCCW : Bool) (uninit : Point)
    (st : Point × List Point) (E : Point) : Point × List Point :=
  let S := st.1
  let output := st.2
  let Ein := Inside E A B clipCCW
  let Sin := Inside S A B clipCCW
  if !Ein then
    if Sin then (E, (output ++ [(SegmentIntersect S E A B uninit).2]) ++ [E])
    else (E, output ++ [E])
  else if !Sin then (E, output ++ [(SegmentIntersect S E A B uninit).2])
  else (E, output)

/-- The outer loop of `ClipPolygonOutside`, with its `break`. -/
def ClipOutsideLoop (clip : List Point) (clipCCW : Bool) (uninit : Point) :
    List Nat → List Point → List Point
  | [], output => output
  | i :: rest, output =>
    let A := vget clip i
    let B := vget clip ((i + 1) % clip.length)
    let input := output
    if input = [] then []
    else
      let S := input.getLastD uninit
      ClipOutsideLoop clip clipCCW uninit rest
        (input.foldl (ClipOutsideStep A B clipCCW uninit) (S, [])).2

/-- The keep-outside variant `Polygonutility::ClipPolygonOutside`. -/
def ClipPolygonOutside (subject clip : List Point) (uninit : Point) : List Point :=
  ClipOutsideLoop clip (IsCCW clip) uninit (List.range clip.length) subject

end Polygonutility

/-! ## GeometryCore: `BooleanOps.cpp` -/

/-- The `enum class BoolOp`. -/
inductive BoolOp
  | Union
  | Intersection
  | AminusB
  | BminusA
deriving DecidableEq

namespace BooleanOps

open Polygonutility

/-- The truth table `BooleanOps::KeepSegment`. -/
def KeepSegment (inA inB : Bool) : BoolOp → Bool
  | BoolOp.Union => inA || inB
  | BoolOp.Intersection => inA && inB
  | BoolOp.AminusB => inA && !inB
  | BoolOp.BminusA => inB && !inA

/-- The `allInside` loop: every vertex of `X` tests inside `Y`. -/
def AllInside (X Y : Polygon) : Bool :=
  X.outer.vertices.all fun p => PointInPolygon p Y

/-- The dispatcher `BooleanOps::ComputeBoolean`. -/
def ComputeBoolean (A B : Polygon) (operation : BoolOp) (uninit : Point) : List Polygon :=
  match operation with
  | BoolOp.Intersection =>
    if !PolygonsOverlap A B uninit then []
    else if AllInside A B then [A]
    else if AllInside B A then [B]
    else
      let clipped := ClipPolygon A.outer.vertices B.outer.vertices uninit
      if clipped.length < 3 then []
      else [{ outer := ⟨clipped⟩, holes := [] }]
  | BoolOp.Union =>
    if !PolygonsOverlap A B uninit then [A, B]
    else if AllInside A B then [B]
    else if AllInside B A then [A]
    else [A, B]
  | BoolOp.AminusB =>
    if !PolygonsOverlap A B uninit then [A]
    else if AllInside A B then []
    else
      let clipped := ClipPolygonOutside A.outer.vertices B.outer.vertices uninit
      if clipped.length < 3 then []
      else [{ outer := ⟨clipped⟩, holes := [] }]
  | BoolOp.BminusA =>
    if !PolygonsOverlap A B uninit then [B]
    else if AllInside B A then []
    else
      let clipped := ClipPolygonOutside B.outer.vertices A.outer.vertices uninit
      if clipped.length < 3 then []
      else [{ outer := ⟨clipped⟩, holes := [] }]

end BooleanOps

end GeometryCore

/-! ## IEEE 754 binary64 rounding -/

namespace Binary64

/-- Binary search for the bit length: `bitsAux j n` is `⌊log2 n⌋` for
`1 ≤ n < 2 ^ (2 ^ j)`. -/
def bitsAux : Nat → Nat → Nat
  | 0, _ => 0
  | j + 1, n =>
    if 2 ^ (2 ^ j) ≤ n then 2 ^ j + bitsAux j (n / 2 ^ (2 ^ j)) else bitsAux j n

/-- The integer `⌊log2 n⌋` for `1 ≤ n < 2 ^ 4096`. -/
def log2 (n : Nat) : Nat := bitsAux 12 n

/-- The integer `⌊log2 (n / d)⌋` for positive `n` and `d` below `2 ^ 4096`:
the difference of `⌊log2 n⌋` and `⌊log2 d⌋`, or one less. -/
def floorLog2 (n d : Nat) : Int :=
  let k : Int := (log2 n : Int) - (log2 d : Int)
  if 0 ≤ k then (if d * 2 ^ k.toNat ≤ n then k else k - 1)
  else (if d ≤ n * 2 ^ (-k).toNat then k else k - 1)

/-- The integer nearest to `n / d`, ties to the even one. -/
def roundHalfEven (n d : Nat) : Nat :=
  let m := n / d
  let r := n % d
  if 2 * r < d then m
  else if d < 2 * r then m + 1
  else if m % 2 = 0 then m else m + 1

/-- The value `m * 2 ^ e` as a rational number. -/
def scale2 (m : Int) (e : Int) : ℚ :=
  if 0 ≤ e then ((m * 2 ^ e.toNat : Int) : ℚ) else mkRat m (2 ^ (-e).toNat)

/-- The binary64 number nearest to the positive rational `n / d`, ties to
even: 53 significant bits, and the spacing `2 ^ (-1074)` of the subnormal
range below `2 ^ (-1022)`. (No overflow to infinity: the exponent has no upper
bound here.) -/
def roundPos (n d : Nat) : ℚ :=
  let e : Int := max (floorLog2 n d - 52) (-1074)
  let m : Nat := if 0 ≤ e then roundHalfEven n (d * 2 ^ e.toNat)
    else roundHalfEven (n * 2 ^ (-e).toNat) d
  scale2 m e

/-- Rounding to the nearest binary64 number, ties to even: the result of one
arithmetic operation on `double`s whose exact result is `q`, and the value of
a decimal literal `q`. -/
def rnd (q : ℚ) : ℚ :=
  if q = 0 then 0
  else if 0 < q then roundPos q.num.natAbs q.den
  else -roundPos q.num.natAbs q.den

/-- The rational `q` is an integer of absolute value at most `B`. -/
def IsInt (B : Nat) (q : ℚ) : Prop := ∃ z : Int, q = z ∧ z.natAbs ≤ B

end Binary64

/-! ### Predicates and example inputs for the GeometryCore claims -/

namespace GeometryCore

/-- The bounding boxes of the point lists `a` and `b` are more than `m` apart
along the x axis or along the y axis; for `m = 0` the boxes are disjoint. -/
def BoxesApart (m : ℚ) (a b : List Point) : Prop :=
  (∀ p ∈ a, ∀ q ∈ b, p.x + m < q.x) ∨ (∀ p ∈ a, ∀ q ∈ b, q.x + m < p.x) ∨
  (∀ p ∈ a, ∀ q ∈ b, p.y + m < q.y) ∨ (∀ p ∈ a, ∀ q ∈ b, q.y + m < p.y)

/-- The unit square `(0,0),(1,0),(1,1),(0,1)`. -/
def unitSquare : Polygon := ⟨⟨[⟨0, 0⟩, ⟨1, 0⟩, ⟨1, 1⟩, ⟨0, 1⟩]⟩, []⟩

/-- The unit square moved up by `1 + 5e-10`: its bounding box lies `5e-10`
above the one of `unitSquare`. -/
def liftedSquare : Polygon :=
  ⟨⟨[⟨0, 1 + eps9 / 2⟩, ⟨1, 1 + eps9 / 2⟩, ⟨1, 2 + eps9 / 2⟩, ⟨0, 2 + eps9 / 2⟩]⟩, []⟩

/-- The square `[0,3] x [0,3]`. -/
def bigSquare : Polygon := ⟨⟨[⟨0, 0⟩, ⟨3, 0⟩, ⟨3, 3⟩, ⟨0, 3⟩]⟩, []⟩

/-- The square `[1,2] x [1,2]`, inside `bigSquare`. -/
def innerSquare : Polygon := ⟨⟨[⟨1, 1⟩, ⟨2, 1⟩, ⟨2, 2⟩, ⟨1, 2⟩]⟩, []⟩

/-- The polygon without vertices. -/
def emptyPolygon : Polygon := ⟨⟨[]⟩, []⟩

/-- The square `[5,6] x [0,1]`, far to the right of `unitSquare`. -/
def farSquare : Polygon := ⟨⟨[⟨5, 0⟩, ⟨6, 0⟩, ⟨6, 1⟩, ⟨5, 1⟩]⟩, []⟩

end GeometryCore

/-! ### Further example inputs and run predicates for `ComputeBoolean` -/

namespace GeometryCore

/-- The square `[1/2,3/2] x [1/2,3/2]`, which overlaps `unitSquare` in the
square `[1/2,1] x [1/2,1]`. -/
def shiftedSquare : Polygon :=
  ⟨⟨[⟨1 / 2, 1 / 2⟩, ⟨3 / 2, 1 / 2⟩, ⟨3 / 2, 3 / 2⟩, ⟨1 / 2, 3 / 2⟩]⟩, []⟩

/-- A concave simple quadrilateral (an arrow head pointing up), counter
clockwise, with the reflex vertex `(2,1)`. -/
def dart : Polygon := ⟨⟨[⟨0, 0⟩, ⟨2, 1⟩, ⟨4, 0⟩, ⟨2, 4⟩]⟩, []⟩

/-- The rectangle `[1,3] x [0,3]`, which crosses `dart`. -/
def tallRect : Polygon := ⟨⟨[⟨1, 0⟩, ⟨3, 0⟩, ⟨3, 3⟩, ⟨1, 3⟩]⟩, []⟩

/-- A simple polygon in the shape of the letter C: the square `[0,10] x [0,10]`
without the rectangle `(1,10] x (1,9)`; its area is 28. -/
def cShape : Polygon :=
  ⟨⟨[⟨0, 0⟩, ⟨10, 0⟩, ⟨10, 1⟩, ⟨1, 1⟩, ⟨1, 9⟩, ⟨10, 9⟩, ⟨10, 10⟩, ⟨0, 10⟩]⟩, []⟩

/-- The rectangle `[2,9] x [1/2,19/2]` of area 63: its four corners lie in the
two arms of `cShape`, its middle lies in the opening of `cShape`. -/
def wideRect : Polygon := ⟨⟨[⟨2, 1 / 2⟩, ⟨9, 1 / 2⟩, ⟨9, 19 / 2⟩, ⟨2, 19 / 2⟩]⟩, []⟩

/-- The rectangle `[1,2] x [1, 1 + 2 ^ (-34)]`, counter clockwise, inside
`bigSquare`: its height is about `5.8e-11`, and all its coordinates are
binary64 numbers. -/
def thinRect : Polygon :=
  ⟨⟨[⟨1, 1⟩, ⟨2, 1⟩, ⟨2, 1 + 1 / 2 ^ 34⟩, ⟨1, 1 + 1 / 2 ^ 34⟩]⟩, []⟩

/-- The total absolute shoelace area of the outer rings of a list of
polygons. -/
def totalArea (ps : List Polygon) : ℚ :=
  (ps.map fun P => |Polygonutility.SignedArea P.outer.vertices|).sum

namespace Polygonutility

/-- The cross product that `Inside` computes for the point `p` and the directed
line from `a` to `b`. -/
def edgeCross (a b p : Point) : ℚ :=
  (b.x - a.x) * (p.y - a.y) - (b.y - a.y) * (p.x - a.x)

/-- The cross product seen from the inner side of a clip edge: `Inside` holds
exactly when `orient clipCCW cross` is not negative. -/
def orient (clipCCW : Bool) (cross : ℚ) : ℚ := if clipCCW then cross else -cross

/-- The call `SegmentIntersect(p1, p2, q1, q2, ip)` assigns `ip`: the
determinant is not below `1e-9` in absolute value. -/
def DetAssigned (p1 p2 q1 q2 : Point) : Bool :=
  decide (¬ |(p2.y - p1.y) * (q1.x - q2.x) - (q2.y - q1.y) * (p1.x - p2.x)| < eps9)

/-- Every intersection point pushed by one pass of the inner loop of
`ClipPolygon` or `ClipPolygonOutside` over `input`, started with the previous
point `S`, was assigned by `SegmentIntersect`. -/
def PassAssigned (A B : Point) (clipCCW : Bool) : Point → List Point → Bool
  | _, [] => true
  | S, E :: rest =>
    ((Inside E A B clipCCW == Inside S A B clipCCW) || DetAssigned S E A B) &&
      PassAssigned A B clipCCW E rest

/-- Every intersection point pushed by the run of `ClipLoop` was assigned by
`SegmentIntersect`. -/
def ClipLoopAssigned (clip : List Point) (clipCCW : Bool) : List Nat → List Point → Bool
  | [], _ => true
  | i :: rest, output =>
    if output = [] then true
    else
      PassAssigned (vget clip i) (vget clip ((i + 1) % clip.length)) clipCCW
          (output.getLastD ⟨0, 0⟩) output &&
        ClipLoopAssigned clip clipCCW rest
          (output.foldl
            (ClipStep (vget clip i) (vget clip ((i + 1) % clip.length)) clipCCW ⟨0, 0⟩)
            (output.getLastD ⟨0, 0⟩, [])).2

/-- Every intersection point pushed by the run of `ClipPolygon(subject, clip)`
was assigned by `SegmentIntersect`: the run reads no uninitialised `ip`. -/
def ClipAssigned (subject clip : List Point) : Bool :=
  ClipLoopAssigned clip (IsCCW clip) (List.range clip.length) subject

/-- Every intersection point pushed by the run of `ClipOutsideLoop` was
assigned by `SegmentIntersect`. -/
def ClipOutsideLoopAssigned (clip : List Point) (clipCCW : Bool) :
    List Nat → List Point → Bool
  | [], _ => true
  | i :: rest, output =>
    if output = [] then true
    else
      PassAssigned (vget clip i) (vget clip ((i + 1) % clip.length)) clipCCW
          (output.getLastD ⟨0, 0⟩) output &&
        ClipOutsideLoopAssigned clip clipCCW rest
          (output.foldl
            (ClipOutsideStep (vget clip i) (vget clip ((i + 1) % clip.length)) clipCCW ⟨0, 0⟩)
            (output.getLastD ⟨0, 0⟩, [])).2

/-- Every intersection point pushed by the run of
`ClipPolygonOutside(subject, clip)` was assigned by `SegmentIntersect`: the run
reads no uninitialised `ip`. -/
def ClipOutsideAssigned (subject clip : List Point) : Bool :=
  ClipOutsideLoopAssigned clip (IsCCW clip) (List.range clip.length) subject

/-- Every point of `subject` passes the test `Inside` against every edge of
`clip`. -/
def InsideAllEdges (subject clip : List Point) : Bool :=
  subject.all fun p =>
    (List.range clip.length).all fun i =>
      Inside p (vget clip i) (vget clip ((i + 1) % clip.length)) (IsCCW clip)

end Polygonutility

end GeometryCore

/-! ### The divisions of the ray casting test -/

namespace GeometryCore

namespace Polygonutility

/-- One iteration of the loop of `PointInRing`, recording the divisor of the
division it evaluates: the state is the divisors so far and `j`. -/
def PointInRingDivisorsStep (p : Point) (v : List Point) (st : List ℚ × Nat) (i : Nat) :
    List ℚ × Nat :=
  let a := vget v i
  let b := vget v st.2
  if decide (a.y > p.y) != decide (b.y > p.y) then (st.1 ++ [b.y - a.y], i)
  else (st.1, i)

/-- The divisors of all divisions that a call `PointInRing(p, r)` evaluates, in
the order of the loop. -/
def PointInRingDivisors (p : Point) (r : Ring) : List ℚ :=
  let n := r.vertices.length
  ((List.range n).foldl (PointInRingDivisorsStep p r.vertices) ([], n - 1)).1

end Polygonutility

end GeometryCore

/-! ### A subject ring that crosses a clip edge at a flat angle -/

namespace GeometryCore

/-- Example: a triangle of height `2e-10` across the bottom edge of
`bigSquare`; its vertices are `1e-10` below and above the line `y = 0`. -/
def flatTriangle : Polygon :=
  ⟨⟨[⟨1, -(1 / 10000000000)⟩, ⟨2, -(1 / 10000000000)⟩, ⟨3 / 2, 1 / 10000000000⟩]⟩, []⟩

end GeometryCore

/-! ## GeometryCore with rounded arithmetic

The functions of `Polygonutility.cpp` and `BooleanOps.cpp` once more, with the
result of every `+`, `-`, `*`, `/` on `double`s and every decimal literal passed
through a rounding function `fl`. With `fl = id` these are the functions above;
with `fl = Binary64.rnd` every operation rounds to the nearest binary64 number,
as the program does. Comparisons, `min`, `max` and `fabs` do not round. -/

namespace GeometryCore

namespace Polygonutility

/-- One iteration of the loop of `PointInRing`, with rounding. -/
def PointInRingStepF (fl : ℚ → ℚ) (p : Point) (v : List Point) (st : Bool × Nat) (i : Nat) :
    Bool × Nat :=
  let a := vget v i
  let b := vget v st.2
  if decide (a.y > p.y) != decide (b.y > p.y) then
    let x := fl (fl (fl (fl (b.x - a.x) * fl (p.y - a.y)) / fl (b.y - a.y)) + a.x)
    if p.x < x then (!st.1, i) else (st.1, i)
  else (st.1, i)

/-- Ray casting `Polygonutility::PointInRing`, with rounding. -/
def PointInRingF (fl : ℚ → ℚ) (p : Point) (r : Ring) : Bool :=
  let n := r.vertices.length
  ((List.range n).foldl (PointInRingStepF fl p r.vertices) (false, n - 1)).1

/-- The loop over the holes of `PointInPolygon`, with rounding. -/
def PointInPolygonHolesF (fl : ℚ → ℚ) (p : Point) : List Ring → Bool
  | [] => true
  | hole :: rest => if PointInRingF fl p hole then false else PointInPolygonHolesF fl p rest

/-- Point in polygon with holes `Polygonutility::PointInPolygon`, with rounding. -/
def PointInPolygonF (fl : ℚ → ℚ) (p : Point) (poly : Polygon) : Bool :=
  if !PointInRingF fl p poly.outer then false
  else PointInPolygonHolesF fl p poly.holes

/-- Bounding box test `Polygonutility::OnSegment`, with rounding. -/
def OnSegmentF (fl : ℚ → ℚ) (a b p : Point) : Bool :=
  decide (p.x ≥ fl (min a.x b.x - fl eps9)) &&
  decide (p.x ≤ fl (max a.x b.x + fl eps9)) &&
  decide (p.y ≥ fl (min a.y b.y - fl eps9)) &&
  decide (p.y ≤ fl (max a.y b.y + fl eps9))

/-- Line intersection `Polygonutility::SegmentIntersect`, with rounding. -/
def SegmentIntersectF (fl : ℚ → ℚ) (p1 p2 q1 q2 : Point) (ip : Point) : Bool × Point :=
  let A1 := fl (p2.y - p1.y)
  let B1 := fl (p1.x - p2.x)
  let C1 := fl (fl (A1 * p1.x) + fl (B1 * p1.y))
  let A2 := fl (q2.y - q1.y)
  let B2 := fl (q1.x - q2.x)
  let C2 := fl (fl (A2 * q1.x) + fl (B2 * q1.y))
  let det := fl (fl (A1 * B2) - fl (A2 * B1))
  if |det| < fl eps9 then (false, ip)
  else
    let ip1 : Point :=
      ⟨fl (fl (fl (B2 * C1) - fl (B1 * C2)) / det), fl (fl (fl (A1 * C2) - fl (A2 * C1)) / det)⟩
    (OnSegmentF fl p1 p2 ip1 && OnSegmentF fl q1 q2 ip1, ip1)

/-- The edge-edge phase of `PolygonsOverlap`, with rounding. -/
def EdgesIntersectF (fl : ℚ → ℚ) (aV bV : List Point) (uninit : Point) : Bool :=
  (List.range aV.length).any fun i =>
    let a1 := vget aV i
    let a2 := vget aV ((i + 1) % aV.length)
    (List.range bV.length).any fun j =>
      let b1 := vget bV j
      let b2 := vget bV ((j + 1) % bV.length)
      (SegmentIntersectF fl a1 a2 b1 b2 uninit).1

/-- Overlap test `Polygonutility::PolygonsOverlap`, with rounding. -/
def PolygonsOverlapF (fl : ℚ → ℚ) (A B : Polygon) (uninit : Point) : Bool :=
  if A.outer.vertices.any (fun p => PointInPolygonF fl p B) then true
  else if B.outer.vertices.any (fun p => PointInPolygonF fl p A) then true
  else EdgesIntersectF fl A.outer.vertices B.outer.vertices uninit

/-- The free function `SignedArea`, with rounding. -/
def SignedAreaF (fl : ℚ → ℚ) (pts : List Point) : ℚ :=
  fl (((List.range pts.length).foldl (fun area i =>
    let p := vget pts i
    let q := vget pts ((i + 1) % pts.length)
    fl (area + fl (fl (p.x * q.y) - fl (q.x * p.y)))) 0) * fl (1 / 2))

/-- The free function `IsCCW`, with rounding. -/
def IsCCWF (fl : ℚ → ℚ) (pts : List Point) : Bool := decide (SignedAreaF fl pts > 0)

/-- Half-plane test `Polygonutility::Inside`, with rounding. -/
def InsideF (fl : ℚ → ℚ) (p a b : Point) (clipCCW : Bool) : Bool :=
  let cross := fl (fl (fl (b.x - a.x) * fl (p.y - a.y)) - fl (fl (b.y - a.y) * fl (p.x - a.x)))
  if clipCCW then decide (cross ≥ 0) else decide (cross ≤ 0)

/-- The body of the inner loop of `ClipPolygon`, with rounding. -/
def ClipStepF (fl : ℚ → ℚ) (A B : Point) (clipCCW : Bool) (uninit : Point)
    (st : Point × List Point) (E : Point) : Point × List Point :=
  let S := st.1
  let output := st.2
  let Ein := InsideF fl E A B clipCCW
  let Sin := InsideF fl S A B clipCCW
  if Ein then
    if !Sin then (E, (output ++ [(SegmentIntersectF fl S E A B uninit).2]) ++ [E])
    else (E, output ++ [E])
  else if Sin then (E, output ++ [(SegmentIntersectF fl S E A B uninit).2])
  else (E, output)

/-- The outer loop of `ClipPolygon`, with rounding. -/
def ClipLoopF (fl : ℚ → ℚ) (clip : List Point) (clipCCW : Bool) (uninit : Point) :
    List Nat → List Point → List Point
  | [], output => output
  | i :: rest, output =>
    let A := vget clip i
    let B := vget clip ((i + 1) % clip.length)
    let input := output
    if input = [] then []
    else
      let S := input.getLastD uninit
      ClipLoopF fl clip clipCCW uninit rest
        (input.foldl (ClipStepF fl A B clipCCW uninit) (S, [])).2

/-- Sutherland-Hodgman clip `Polygonutility::ClipPolygon`, with rounding. -/
def ClipPolygonF (fl : ℚ → ℚ) (subject clip : List Point) (uninit : Point) : List Point :=
  ClipLoopF fl clip (IsCCWF fl clip) uninit (List.range clip.length) subject

/-- The body of the inner loop of `ClipPolygonOutside`, with rounding. -/
def ClipOutsideStepF (fl : ℚ → ℚ) (A B : Point) (clipCCW : Bool) (uninit : Point)
    (st : Point × List Point) (E : Point) : Point × List Point :=
  let S := st.1
  let output := st.2
  let Ein := InsideF fl E A B clipCCW
  let Sin := InsideF fl S A B clipCCW
  if !Ein then
    if Sin then (E, (output ++ [(SegmentIntersectF fl S E A B uninit).2]) ++ [E])
    else (E, output ++ [E])
  else if !Sin then (E, output ++ [(SegmentIntersectF fl S E A B uninit).2])
  else (E, output)

/-- The outer loop of `ClipPolygonOutside`, with rounding. -/
def ClipOutsideLoopF (fl : ℚ → ℚ) (clip : List Point) (clipCCW : Bool) (uninit : Point) :
    List Nat → List Point → List Point
  | [], output => output
  | i :: rest, output =>
    let A := vget clip i
    let B := vget clip ((i + 1) % clip.length)
    let input := output
    if input = [] then []
    else
      let S := input.getLastD uninit
      ClipOutsideLoopF fl clip clipCCW uninit rest
        (input.foldl (ClipOutsideStepF fl A B clipCCW uninit) (S, [])).2

/-- The keep-outside variant `Polygonutility::ClipPolygonOutside`, with
rounding. -/
def ClipPolygonOutsideF (fl : ℚ → ℚ) (subject clip : List Point) (uninit : Point) :
    List Point :=
  ClipOutsideLoopF fl clip (IsCCWF fl clip) uninit (List.range clip.length) subject

end Polygonutility

namespace BooleanOps

open Polygonutility

/-- The `allInside` loop, with rounding. -/
def AllInsideF (fl : ℚ → ℚ) (X Y : Polygon) : Bool :=
  X.outer.vertices.all fun p => PointInPolygonF fl p Y

/-- The dispatcher `BooleanOps::ComputeBoolean`, with rounding. -/
def ComputeBooleanF (fl : ℚ → ℚ) (A B : Polygon) (operation : BoolOp) (uninit : Point) :
    List Polygon :=
  match operation with
  | BoolOp.Intersection =>
    if !PolygonsOverlapF fl A B uninit then []
    else if AllInsideF fl A B then [A]
    else if AllInsideF fl B A then [B]
    else
      let clipped := ClipPolygonF fl A.outer.vertices B.outer.vertices uninit
      if clipped.length < 3 then []
      else [{ outer := ⟨clipped⟩, holes := [] }]
  | BoolOp.Union =>
    if !PolygonsOverlapF fl A B uninit then [A, B]
    else if AllInsideF fl A B then [B]
    else if AllInsideF fl B A then [A]
    else [A, B]
  | BoolOp.AminusB =>
    if !PolygonsOverlapF fl A B uninit then [A]
    else if AllInsideF fl A B then []
    else
      let clipped := ClipPolygonOutsideF fl A.outer.vertices B.outer.vertices uninit
      if clipped.length < 3 then []
      else [{ outer := ⟨clipped⟩, holes := [] }]
  | BoolOp.BminusA =>
    if !PolygonsOverlapF fl A B uninit then [B]
    else if AllInsideF fl B A then []
    else
      let clipped := ClipPolygonOutsideF fl B.outer.vertices A.outer.vertices uninit
      if clipped.length < 3 then []
      else [{ outer := ⟨clipped⟩, holes := [] }]

end BooleanOps

/-- The point list `a` lies below the point list `b`, and the rounded upper
bound `max + 1e-9` that `OnSegment` computes for any two points of `a` is
below the rounded lower bound `min - 1e-9` that it computes for any two points
of `b`. Without rounding this says that `b` starts more than `2e-9` above the
end of `a`. -/
def ApartYF (fl : ℚ → ℚ) (a b : List Point) : Prop :=
  (∀ p ∈ a, ∀ q ∈ b, p.y < q.y) ∧
  ∀ p1 ∈ a, ∀ p2 ∈ a, ∀ q1 ∈ b, ∀ q2 ∈ b,
    fl (max p1.y p2.y + fl eps9) < fl (min q1.y q2.y - fl eps9)

/-- Both coordinates of `p` are integers of absolute value at most `B`. -/
def IntPoint (B : Nat) (p : Point) : Prop := Binary64.IsInt B p.x ∧ Binary64.IsInt B p.y

/-- The point list `pts` as the program holds it: every coordinate rounded to
binary64. -/
def toDoubles (pts : List Point) : List Point :=
  pts.map fun p => ⟨Binary64.rnd p.x, Binary64.rnd p.y⟩

/-- Example: the square `[x0 - 1, x0] x [0, 1]` with `x0 = 10066334.359375`;
all coordinates are binary64 numbers. -/
def edgeSquare : Polygon :=
  ⟨⟨[⟨644245399 / 64 - 1, 0⟩, ⟨644245399 / 64, 0⟩, ⟨644245399 / 64, 1⟩,
    ⟨644245399 / 64 - 1, 1⟩]⟩, []⟩

/-- Example: a triangle to the right of `edgeSquare`, whose least abscissa is
`x0 + 2 ^ (-28)` (about `3.7e-9` beyond `x0`) and whose least ordinate is
`1 + 2 ^ (-30)`; all coordinates are binary64 numbers. -/
def edgeTriangle : Polygon :=
  ⟨⟨[⟨644245399 / 64 + 1 / 2 ^ 28, 1 + 1 / 2 ^ 30⟩,
    ⟨644245399 / 64 + 1 / 2 ^ 28 + 2, 1 + 1 / 2 ^ 30⟩,
    ⟨644245399 / 64 + 1 / 2 ^ 28 + 2, 2 + 1 / 2 ^ 30⟩]⟩, []⟩

/-- Example: the square `[0,1] x [3/2,5/2]`, half a unit above `unitSquare`. -/
def raisedSquare : Polygon := ⟨⟨[⟨0, 3 / 2⟩, ⟨1, 3 / 2⟩, ⟨1, 5 / 2⟩, ⟨0, 5 / 2⟩]⟩, []⟩

end GeometryCore

/-! ### Predicates and example inputs for the commutativity of the intersection -/

namespace GeometryCore

/-- The two point lists have the same points (as sets). -/
def SameVertexSet (l1 l2 : List Point) : Prop := (∀ p ∈ l1, p ∈ l2) ∧ (∀ p ∈ l2, p ∈ l1)

/-- The two results have the same number of polygons, and the polygons at the
same position have the same set of outer vertices. -/
def SameOuterVertices (r1 r2 : List Polygon) : Prop :=
  List.Forall₂ (fun P Q => SameVertexSet P.outer.vertices Q.outer.vertices) r1 r2

/-- The axis-aligned rectangle `[x1,x2] x [y1,y2]`, counter clockwise from its
lower left corner. -/
def rectangle (x1 x2 y1 y2 : ℚ) : Polygon :=
  ⟨⟨[⟨x1, y1⟩, ⟨x2, y1⟩, ⟨x2, y2⟩, ⟨x1, y2⟩]⟩, []⟩

/-- The interiors of the rectangles `[x1,x2] x [y1,y2]` and `[u1,u2] x [v1,v2]`
meet: the common rectangle has a positive width and a positive height. -/
def RectanglesMeet (x1 x2 y1 y2 u1 u2 v1 v2 : ℚ) : Prop :=
  max x1 u1 < min x2 u2 ∧ max y1 v1 < min y2 v2

/-- The extent of the common rectangle along each axis, times the side of
either rectangle along the other axis, is at least `1e-9`: no determinant that
`SegmentIntersect` computes while one rectangle clips the other is below its
guard. -/
def RectanglesGuard (x1 x2 y1 y2 u1 u2 v1 v2 : ℚ) : Prop :=
  eps9 ≤ (min y2 v2 - max y1 v1) * (u2 - u1) ∧ eps9 ≤ (min x2 u2 - max x1 u1) * (v2 - v1) ∧
  eps9 ≤ (min y2 v2 - max y1 v1) * (x2 - x1) ∧ eps9 ≤ (min x2 u2 - max x1 u1) * (y2 - y1)

/-- The rounding `fl` changes neither the half-plane test of `ClipPolygon` nor
the crossing point that it takes from `SegmentIntersect`, on points whose
coordinates satisfy `g` (where the crossing point has such coordinates too). -/
def ClipExactOn (fl : ℚ → ℚ) (g : ℚ → Prop) (u : Point) : Prop :=
  (∀ p a b : Point, g p.x → g p.y → g a.x → g a.y → g b.x → g b.y →
    Polygonutility.InsideF fl p a b true = Polygonutility.Inside p a b true) ∧
  (∀ S E a b : Point, g S.x → g S.y → g E.x → g E.y → g a.x → g a.y → g b.x → g b.y →
    g (Polygonutility.SegmentIntersect S E a b u).2.x →
    g (Polygonutility.SegmentIntersect S E a b u).2.y →
    (Polygonutility.SegmentIntersectF fl S E a b u).2 =
      (Polygonutility.SegmentIntersect S E a b u).2)

/-- Example: the triangle `(0,12), (4,1), (13,10)`, counter clockwise. -/
def leanTriangle : Polygon := ⟨⟨[⟨0, 12⟩, ⟨4, 1⟩, ⟨13, 10⟩]⟩, []⟩

/-- Example: the triangle `(1,0), (15,0), (14,11)`, counter clockwise. -/
def baseTriangle : Polygon := ⟨⟨[⟨1, 0⟩, ⟨15, 0⟩, ⟨14, 11⟩]⟩, []⟩

/-- Example: the rectangle `[1,8] x [0,3]` in units of `2 ^ (-17)`. -/
def smallRectA : Polygon := rectangle (1 / 131072) (8 / 131072) 0 (3 / 131072)

/-- Example: the rectangle `[3,6] x [2,4]` in units of `2 ^ (-17)`; it meets
`smallRectA` in a rectangle of `3` by `1` units. -/
def smallRectB : Polygon := rectangle (3 / 131072) (6 / 131072) (2 / 131072) (4 / 131072)

end GeometryCore

/-! ## BooleanNative: `Polygon.h`, `Polygon.cpp` -/

namespace PolygonBoolean

/-- The constant `EPSILON = 1e-10` of `Polygon.cpp`. -/
def EPSILON : ℚ := 1 / 10000000000

/-- The helper `isZero` of `Polygon.cpp`. -/
def isZero (value : ℚ) : Bool := decide (|value| < EPSILON)

/-- The `struct Point` of `Polygon.h`. -/
structure Point where
  x : ℚ
  y : ℚ
deriving DecidableEq

namespace Point

/-- The operator `Point::operator-`. -/
def sub (a other : Point) : Point := ⟨a.x - other.x, a.y - other.y⟩

/-- The operator `Point::operator+`. -/
def add (a other : Point) : Point := ⟨a.x + other.x, a.y + other.y⟩

/-- The method `Point::cross`. -/
def cross (a other : Point) : ℚ := a.x * other.y - a.y * other.x

/-- The method `Point::dot`. -/
def dot (a other : Point) : ℚ := a.x * other.x + a.y * other.y

end Point

/-- The `enum class VertexType`. -/
inductive VertexType
  | NORMAL
  | ENTRY
  | EXIT
  | UNKNOWN
deriving DecidableEq

/-- The `class Vertex`; the pointers `next`, `prev`, `neighbor` are addresses
of heap cells or `none` for `nullptr`. -/
structure Vertex where
  point : Point
  type : VertexType
  next : Option Nat
  prev : Option Nat
  neighbor : Option Nat
  intersect : Bool
  visited : Bool
  entryExitProcessed : Bool
  alpha : ℚ
deriving DecidableEq

namespace Vertex

/-- The constructor `Vertex::Vertex(const Point& p)`. -/
def ofPoint (p : Point) : Vertex :=
  { point := p, type := VertexType.NORMAL, next := none, prev := none, neighbor := none,
    intersect := false, visited := false, entryExitProcessed := false, alpha := 0 }

/-- The constructor `Vertex::Vertex(const Point& p, double alpha)`. -/
def ofPointAlpha (p : Point) (alpha : ℚ) : Vertex :=
  { point := p, type := VertexType.UNKNOWN, next := none, prev := none, neighbor := none,
    intersect := true, visited := false, entryExitProcessed := false, alpha := alpha }

/-- The copy constructor `Vertex::Vertex(const Vertex& other)`. -/
def copy (other : Vertex) : Vertex :=
  { point := other.point, type := other.type, next := none, prev := none, neighbor := none,
    intersect := other.intersect, visited := other.visited,
    entryExitProcessed := other.entryExitProcessed, alpha := other.alpha }

end Vertex

/-- The heap: every `Vertex` allocated so far, addressed by its index. -/
abbrev Heap := List Vertex

/-- Reading `*p`: fails on `nullptr` and on an address that was never allocated. -/
def load (h : Heap) : Option Nat → Option Vertex
  | none => none
  | some a => h[a]?

/-- Writing `*p = f(*p)`: fails on `nullptr` and on an address that was never allocated. -/
def store (h : Heap) (p : Option Nat) (f : Vertex → Vertex) : Option Heap :=
  match p with
  | none => none
  | some a =>
    match h[a]? with
    | none => none
    | some v => some (h.set a (f v))

/-- The expression `new Vertex(...)`: the new cell and its address. -/
def alloc (h : Heap) (v : Vertex) : Heap × Nat := (h ++ [v], h.length)

/-- The data members of `class Polygon`. -/
structure Polygon where
  head : Option Nat
  clockwise : Bool
  directionCalculated : Bool
deriving DecidableEq

namespace Polygon

/-- The default constructor `Polygon::Polygon()`. -/
def empty : Polygon := { head := none, clockwise := true, directionCalculated := false }

/-- The method `Polygon::addPoint(const Point& p)`. -/
def addPoint (h : Heap) (P : Polygon) (p : Point) : Option (Heap × Polygon) :=
  let h1 := (alloc h (Vertex.ofPoint p)).1
  let newVertex := (alloc h (Vertex.ofPoint p)).2
  match P.head with
  | none =>
    (store h1 (some newVertex) fun v => { v with next := some newVertex }).bind fun h2 =>
    (store h2 (some newVertex) fun v => { v with prev := some newVertex }).bind fun h3 =>
    some (h3, { P with head := some newVertex, directionCalculated := false })
  | some hd =>
    (load h1 (some hd)).bind fun hv =>
    let last := hv.prev
    (store h1 last fun v => { v with next := some newVertex }).bind fun h2 =>
    (store h2 (some newVertex) fun v => { v with prev := last }).bind fun h3 =>
    (store h3 (some newVertex) fun v => { v with next := some hd }).bind fun h4 =>
    (store h4 (some hd) fun v => { v with prev := some newVertex }).bind fun h5 =>
    some (h5, { P with directionCalculated := false })

/-- The constructor `Polygon::Polygon(const std::vector<Point>& points)`, run on
the polygon under construction. -/
def addPoints (h : Heap) (P : Polygon) : List Point → Option (Heap × Polygon)
  | [] => some (h, P)
  | p :: rest => (addPoint h P p).bind fun r => addPoints r.1 r.2 rest

/-- The constructor `Polygon::Polygon(const std::vector<Point>& points)`. -/
def ofPoints (h : Heap) (points : List Point) : Option (Heap × Polygon) :=
  addPoints h empty points

/-- The loop of `clearVertices`; `delete current` leaves the heap as it is. -/
def clearVerticesLoop (h : Heap) (head : Nat) : Nat → Option Nat → Option Unit
  | 0, _ => none
  | fuel + 1, current =>
    (load h current).bind fun v =>
    let next := v.next
    if next ≠ some head then clearVerticesLoop h head fuel next else some ()

/-- The method `Polygon::clearVertices`. -/
def clearVertices (h : Heap) (P : Polygon) : Option (Heap × Polygon) :=
  match P.head with
  | none => some (h, P)
  | some hd =>
    (clearVerticesLoop h hd h.length (some hd)).bind fun _ =>
    some (h, { P with head := none })

/-- The method `Polygon::clear`. -/
def clear (h : Heap) (P : Polygon) : Option (Heap × Polygon) :=
  (clearVertices h P).bind fun r =>
  some (r.1, { r.2 with head := none, directionCalculated := false })

/-- The loop of `vertexCount`. -/
def vertexCountLoop (h : Heap) (head : Nat) : Nat → Option Nat → Nat → Option Nat
  | 0, _, _ => none
  | fuel + 1, current, count =>
    (load h current).bind fun v =>
    if v.next ≠ some head then vertexCountLoop h head fuel v.next (count + 1)
    else some (count + 1)

/-- The method `Polygon::vertexCount`. -/
def vertexCount (h : Heap) (P : Polygon) : Option Nat :=
  match P.head with
  | none => some 0
  | some hd => vertexCountLoop h hd h.length (some hd) 0

/-- The loop of `getPoints`. -/
def getPointsLoop (h : Heap) (head : Nat) : Nat → Option Nat → List Point → Option (List Point)
  | 0, _, _ => none
  | fuel + 1, current, points =>
    (load h current).bind fun v =>
    if v.next ≠ some head then getPointsLoop h head fuel v.next (points ++ [v.point])
    else some (points ++ [v.point])

/-- The method `Polygon::getPoints`. -/
def getPoints (h : Heap) (P : Polygon) : Option (List Point) :=
  match P.head with
  | none => some []
  | some hd => getPointsLoop h hd h.length (some hd) []

/-- The loop of `area`. -/
def areaLoop (h : Heap) (head : Nat) : Nat → Option Nat → ℚ → Option ℚ
  | 0, _, _ => none
  | fuel + 1, current, area =>
    (load h current).bind fun v =>
    (load h v.next).bind fun n =>
    if v.next ≠ some head then areaLoop h head fuel v.next (area + v.point.cross n.point)
    else some (area + v.point.cross n.point)

/-- The method `Polygon::area`. -/
def area (h : Heap) (P : Polygon) : Option ℚ :=
  match P.head with
  | none => some 0
  | some hd =>
    (vertexCount h P).bind fun c =>
    if c < 3 then some 0
    else (areaLoop h hd h.length (some hd) 0).bind fun a => some (|a| / 2)

/-- The loop of `calculateDirection`. -/
def calculateDirectionLoop (h : Heap) (head : Nat) : Nat → Option Nat → ℚ → Option ℚ
  | 0, _, _ => none
  | fuel + 1, current, areaSum =>
    (load h current).bind fun v =>
    (load h v.next).bind fun n =>
    let s := areaSum + (n.point.x - v.point.x) * (n.point.y + v.point.y)
    if v.next ≠ some head then calculateDirectionLoop h head fuel v.next s
    else some s

/-- The method `Polygon::calculateDirection`; it writes the two `mutable` members. -/
def calculateDirection (h : Heap) (P : Polygon) : Option Polygon :=
  match P.head with
  | none => some { P with clockwise := true, directionCalculated := true }
  | some hd =>
    (vertexCount h P).bind fun c =>
    if c < 3 then some { P with clockwise := true, directionCalculated := true }
    else
      (calculateDirectionLoop h hd h.length (some hd) 0).bind fun areaSum =>
      some { P with clockwise := decide (areaSum > 0), directionCalculated := true }

/-- The method `Polygon::isClockwise`: the answer and the polygon with its cache. -/
def isClockwise (h : Heap) (P : Polygon) : Option (Bool × Polygon) :=
  if !P.directionCalculated then
    (calculateDirection h P).bind fun P1 => some (P1.clockwise, P1)
  else some (P.clockwise, P)

/-- The loop of `reverse`: `std::swap(current->next, current->prev)`, then
`current = current->prev`. -/
def reverseLoop (head : Nat) : Nat → Heap → Option Nat → Option Heap
  | 0, _, _ => none
  | fuel + 1, h, current =>
    (store h current fun v => { v with next := v.prev, prev := v.next }).bind fun h1 =>
    (load h1 current).bind fun v =>
    if v.prev ≠ some head then reverseLoop head fuel h1 v.prev else some h1

/-- The method `Polygon::reverse`. -/
def reverse (h : Heap) (P : Polygon) : Option (Heap × Polygon) :=
  match P.head with
  | none => some (h, P)
  | some hd =>
    (vertexCount h P).bind fun c =>
    if c < 2 then some (h, P)
    else
      (reverseLoop hd h.length h (some hd)).bind fun h1 =>
      (load h1 (some hd)).bind fun v =>
      some (h1, { P with head := v.next, clockwise := !P.clockwise })

/-- The loop of `translate`. -/
def translateLoop (head : Nat) (dx dy : ℚ) : Nat → Heap → Option Nat → Option Heap
  | 0, _, _ => none
  | fuel + 1, h, current =>
    (store h current fun v => { v with point := ⟨v.point.x + dx, v.point.y + dy⟩ }).bind fun h1 =>
    (load h1 current).bind fun v =>
    if v.next ≠ some head then translateLoop head dx dy fuel h1 v.next else some h1

/-- The method `Polygon::translate`. -/
def translate (h : Heap) (P : Polygon) (dx dy : ℚ) : Option (Heap × Polygon) :=
  match P.head with
  | none => some (h, P)
  | some hd => (translateLoop hd dx dy h.length h (some hd)).bind fun h1 => some (h1, P)

/-- The centroid loop of `scale` and `rotate`: the sums and the count. -/
def centroidLoop (h : Heap) (head : Nat) : Nat → Option Nat → Point → Nat → Option (Point × Nat)
  | 0, _, _, _ => none
  | fuel + 1, current, centroid, count =>
    (load h current).bind fun v =>
    let c : Point := ⟨centroid.x + v.point.x, centroid.y + v.point.y⟩
    if v.next ≠ some head then centroidLoop h head fuel v.next c (count + 1)
    else some (c, count + 1)

/-- The centroid computed by `scale` and `rotate`. -/
def centroidOf (h : Heap) (head : Nat) : Option Point :=
  (centroidLoop h head h.length (some head) ⟨0, 0⟩ 0).bind fun r =>
  if r.2 > 0 then some ⟨r.1.x / (r.2 : ℚ), r.1.y / (r.2 : ℚ)⟩ else some r.1

/-- The second loop of `scale`. -/
def scaleLoop (head : Nat) (centroid : Point) (sx sy : ℚ) : Nat → Heap → Option Nat → Option Heap
  | 0, _, _ => none
  | fuel + 1, h, current =>
    (store h current fun v => { v with point :=
        ⟨centroid.x + (v.point.x - centroid.x) * sx,
         centroid.y + (v.point.y - centroid.y) * sy⟩ }).bind fun h1 =>
    (load h1 current).bind fun v =>
    if v.next ≠ some head then scaleLoop head centroid sx sy fuel h1 v.next else some h1

/-- The method `Polygon::scale`. -/
def scale (h : Heap) (P : Polygon) (sx sy : ℚ) : Option (Heap × Polygon) :=
  match P.head with
  | none => some (h, P)
  | some hd =>
    (centroidOf h hd).bind fun centroid =>
    (scaleLoop hd centroid sx sy h.length h (some hd)).bind fun h1 => some (h1, P)

/-- The second loop of `rotate`; `cosA` and `sinA` are the values of `std::cos`
and `std::sin` at the angle. -/
def rotateLoop (head : Nat) (centroid : Point) (cosA sinA : ℚ) :
    Nat → Heap → Option Nat → Option Heap
  | 0, _, _ => none
  | fuel + 1, h, current =>
    (store h current fun v =>
      let dx := v.point.x - centroid.x
      let dy := v.point.y - centroid.y
      { v with point :=
        ⟨centroid.x + dx * cosA - dy * sinA, centroid.y + dx * sinA + dy * cosA⟩ }).bind fun h1 =>
    (load h1 current).bind fun v =>
    if v.next ≠ some head then rotateLoop head centroid cosA sinA fuel h1 v.next else some h1

/-- The method `Polygon::rotate`, given the cosine and the sine of the angle. -/
def rotate (h : Heap) (P : Polygon) (cosA sinA : ℚ) : Option (Heap × Polygon) :=
  match P.head with
  | none => some (h, P)
  | some hd =>
    (centroidOf h hd).bind fun centroid =>
    (rotateLoop hd centroid cosA sinA h.length h (some hd)).bind fun h1 => some (h1, P)

/-- The method `Polygon::crossProduct`. -/
def crossProduct (a b c : Point) : ℚ :=
  (b.x - a.x) * (c.y - a.y) - (c.x - a.x) * (b.y - a.y)

/-- The loop of the member `pointInPolygon`. -/
def pointInPolygonLoop (h : Heap) (head : Nat) (p : Point) : Nat → Option Nat → Int → Option Int
  | 0, _, _ => none
  | fuel + 1, current, windingNumber =>
    (load h current).bind fun v =>
    (load h v.next).bind fun next =>
    let w : Int :=
      if v.point.y ≤ p.y then
        if next.point.y > p.y then
          if crossProduct v.point next.point p > 0 then windingNumber + 1 else windingNumber
        else windingNumber
      else
        if next.point.y ≤ p.y then
          if crossProduct v.point next.point p < 0 then windingNumber - 1 else windingNumber
        else windingNumber
    if v.next ≠ some head then pointInPolygonLoop h head p fuel v.next w else some w

/-- The private member `Polygon::pointInPolygon(const Point& p)`. -/
def pointInPolygon (h : Heap) (P : Polygon) (p : Point) : Option Bool :=
  match P.head with
  | none => some false
  | some hd =>
    (vertexCount h P).bind fun c =>
    if c < 3 then some false
    else (pointInPolygonLoop h hd p h.length (some hd) 0).bind fun w => some (decide (w ≠ 0))

/-- The method `Polygon::contains(const Point& p)`. -/
def contains (h : Heap) (P : Polygon) (p : Point) : Option Bool := pointInPolygon h P p

/-- The method `Polygon::lineSegmentIntersection`: `none` when it returns
`false`, and `some (intersection, t1, t2)`, the values of its three output
parameters, when it returns `true` (the callers read them only then). -/
def lineSegmentIntersection (p1 p2 q1 q2 : Point) : Option (Point × ℚ × ℚ) :=
  let r := p2.sub p1
  let s := q2.sub q1
  let qp := q1.sub p1
  let rxs := r.cross s
  let qpxr := qp.cross r
  if isZero rxs then none
  else
    let t1 := qp.cross s / rxs
    let t2 := qpxr / rxs
    if t1 < -EPSILON ∨ t1 > 1 + EPSILON ∨ t2 < -EPSILON ∨ t2 > 1 + EPSILON then none
    else some (⟨p1.x + t1 * r.x, p1.y + t1 * r.y⟩, t1, t2)

/-- The inner loop of `intersects`: `some true` stands for `return true`. -/
def intersectsInner (h : Heap) (otherHead : Nat) (a an : Point) :
    Nat → Option Nat → Option Bool
  | 0, _ => none
  | fuel + 1, currentB =>
    (load h currentB).bind fun b =>
    (load h b.next).bind fun bn =>
    if (lineSegmentIntersection a an b.point bn.point).isSome then some true
    else if b.next ≠ some otherHead then intersectsInner h otherHead a an fuel b.next
    else some false

/-- The outer loop of `intersects`. -/
def intersectsOuter (h : Heap) (head otherHead : Nat) : Nat → Option Nat → Option Bool
  | 0, _ => none
  | fuel + 1, currentA =>
    (load h currentA).bind fun a =>
    (load h a.next).bind fun an =>
    (intersectsInner h otherHead a.point an.point h.length (some otherHead)).bind fun hit =>
    if hit then some true
    else if a.next ≠ some head then intersectsOuter h head otherHead fuel a.next
    else some false

/-- The method `Polygon::intersects`. -/
def intersects (h : Heap) (P other : Polygon) : Option Bool :=
  match P.head, other.head with
  | some hd, some ohd => intersectsOuter h hd ohd h.length (some hd)
  | _, _ => some false

/-- Outcome of `validate`: it returns, or throws one of its two errors. -/
inductive Validation
  | ok
  | brokenLinks
  | inconsistentLinks
deriving DecidableEq

/-- The loop of `validate`. -/
def validateLoop (h : Heap) (head : Nat) : Nat → Option Nat → Option Validation
  | 0, _ => none
  | fuel + 1, current =>
    (load h current).bind fun v =>
    if v.next = none ∨ v.prev = none then some Validation.brokenLinks
    else
      (load h v.next).bind fun n =>
      (load h v.prev).bind fun q =>
      if n.prev ≠ current ∨ q.next ≠ current then some Validation.inconsistentLinks
      else if v.next ≠ some head then validateLoop h head fuel v.next
      else some Validation.ok

/-- The method `Polygon::validate`. -/
def validate (h : Heap) (P : Polygon) : Option Validation :=
  match P.head with
  | none => some Validation.ok
  | some hd => validateLoop h hd h.length (some hd)

/-- The method `Polygon::insertVertexAfter`. -/
def insertVertexAfter (h : Heap) (position newVertex : Option Nat) : Option Heap :=
  if position = none ∨ newVertex = none then some h
  else
    (store h newVertex fun v => { v with prev := position }).bind fun h1 =>
    (load h1 position).bind fun pv =>
    (store h1 newVertex fun v => { v with next := pv.next }).bind fun h2 =>
    (load h2 position).bind fun pv2 =>
    (store h2 pv2.next fun v => { v with prev := newVertex }).bind fun h3 =>
    store h3 position fun v => { v with next := newVertex }

/-- The method `Polygon::removeVertex`; `delete vertex` leaves the heap as it is. -/
def removeVertex (h : Heap) (P : Polygon) (vertex : Option Nat) : Option (Heap × Polygon) :=
  if vertex = none then some (h, P)
  else
    (if vertex = P.head then
      (load h vertex).bind fun v =>
        if v.next = vertex then some { P with head := none }
        else some { P with head := v.next }
     else some P).bind fun P1 =>
    (load h vertex).bind fun v =>
    (store h v.prev fun w => { w with next := v.next }).bind fun h1 =>
    (load h1 vertex).bind fun v1 =>
    (store h1 v1.next fun w => { w with prev := v1.prev }).bind fun h2 =>
    some (h2, P1)

/-- The loop of `copyVertexList`: the state is `(newHead, lastCopied)`. -/
def copyVertexListLoop (head : Nat) :
    Nat → Heap → Option Nat → Option Nat → Option Nat → Option (Heap × Option Nat × Option Nat)
  | 0, _, _, _, _ => none
  | fuel + 1, h, current, newHead, lastCopied =>
    (load h current).bind fun cv =>
    let h1 := (alloc h (Vertex.copy cv)).1
    let newVertex := (alloc h (Vertex.copy cv)).2
    (if newHead = none then some (h1, some newVertex)
     else
      (store h1 lastCopied fun v => { v with next := some newVertex }).bind fun h2 =>
      (store h2 (some newVertex) fun v => { v with prev := lastCopied }).bind fun h3 =>
      some (h3, newHead)).bind fun r =>
    (load r.1 current).bind fun cv1 =>
    if cv1.next ≠ some head then copyVertexListLoop head fuel r.1 cv1.next r.2 (some newVertex)
    else some (r.1, r.2, some newVertex)

/-- The method `Polygon::copyVertexList`: the heap and the head of the copy. -/
def copyVertexList (h : Heap) (P : Polygon) : Option (Heap × Option Nat) :=
  match P.head with
  | none => some (h, none)
  | some hd =>
    (copyVertexListLoop hd h.length h (some hd) none none).bind fun r =>
    if r.2.1 ≠ none ∧ r.2.2 ≠ none then
      (store r.1 r.2.1 fun v => { v with prev := r.2.2 }).bind fun h1 =>
      (store h1 r.2.2 fun v => { v with next := r.2.1 }).bind fun h2 =>
      some (h2, r.2.1)
    else some (r.1, r.2.1)

/-- The copy constructor `Polygon::Polygon(const Polygon& other)`. -/
def copy (h : Heap) (other : Polygon) : Option (Heap × Polygon) :=
  match other.head with
  | none =>
    some (h, { head := none, clockwise := other.clockwise,
               directionCalculated := other.directionCalculated })
  | some _ =>
    (copyVertexList h other).bind fun r =>
    some (r.1, { head := r.2, clockwise := other.clockwise,
                 directionCalculated := other.directionCalculated })

/-- The copy assignment `Polygon::operator=(const Polygon& other)` for an
`other` that is not the object assigned to. -/
def assign (h : Heap) (P other : Polygon) : Option (Heap × Polygon) :=
  (clearVertices h P).bind fun r =>
  (match other.head with
   | none => some (r.1, r.2.head)
   | some _ => copyVertexList r.1 other).bind fun c =>
  some (c.1, { head := c.2, clockwise := other.clockwise,
               directionCalculated := other.directionCalculated })

/-- One pass through the body of the inner loop of `findIntersections`, with
its last statement `currentB = currentB->next`: the heap and `currentB` after
the pass. -/
def findIntersectionsBody (currentA currentB : Option Nat) (h : Heap) :
    Option (Heap × Option Nat) :=
  (load h currentA).bind fun a =>
  (load h a.next).bind fun an =>
  (load h currentB).bind fun b =>
  (load h b.next).bind fun bn =>
  (match lineSegmentIntersection a.point an.point b.point bn.point with
   | some (intersection, t1, t2) =>
     let intA := (alloc h (Vertex.ofPointAlpha intersection t1)).2
     let h1 := (alloc h (Vertex.ofPointAlpha intersection t1)).1
     let intB := (alloc h1 (Vertex.ofPointAlpha intersection t2)).2
     let h2 := (alloc h1 (Vertex.ofPointAlpha intersection t2)).1
     (store h2 (some intA) fun v => { v with neighbor := some intB }).bind fun h3 =>
     (store h3 (some intB) fun v => { v with neighbor := some intA }).bind fun h4 =>
     (insertVertexAfter h4 currentA (some intA)).bind fun h5 =>
     insertVertexAfter h5 currentB (some intB)
   | none => some h).bind fun h6 =>
  (load h6 currentB).bind fun b1 =>
  some (h6, b1.next)

/-- The inner loop of `findIntersections`, over the edges of `other`: the body
is run, and run again while `currentB != other.head`. -/
def findIntersectionsInner (otherHead : Nat) (currentA : Option Nat) :
    Nat → Heap → Option Nat → Option Heap
  | 0, _, _ => none
  | fuel + 1, h, currentB =>
    (findIntersectionsBody currentA currentB h).bind fun r =>
    if r.2 ≠ some otherHead then findIntersectionsInner otherHead currentA fuel r.1 r.2
    else some r.1

/-- The outer loop of `findIntersections`, over the edges of `this`; every run
of the inner loop gets `innerFuel` iterations. -/
def findIntersectionsOuter (head otherHead : Nat) (innerFuel : Nat) :
    Nat → Heap → Option Nat → Option Heap
  | 0, _, _ => none
  | fuel + 1, h, currentA =>
    (findIntersectionsInner otherHead currentA innerFuel h (some otherHead)).bind fun h1 =>
    (load h1 currentA).bind fun a =>
    if a.next ≠ some head then findIntersectionsOuter head otherHead innerFuel fuel h1 a.next
    else some h1

/-- The method `Polygon::findIntersections`; each run of each of its loops gets
`fuel` iterations. -/
def findIntersections (fuel : Nat) (h : Heap) (P other : Polygon) : Option Heap :=
  match P.head, other.head with
  | some hd, some ohd => findIntersectionsOuter hd ohd fuel fuel h (some hd)
  | _, _ => some h

/-- The loop of `classifyVertices`. -/
def classifyVerticesLoop (head : Nat) (other : Polygon) (operationType : Int) :
    Nat → Heap → Option Nat → Option Heap
  | 0, _, _ => none
  | fuel + 1, h, current =>
    (load h current).bind fun v =>
    (if !v.intersect then
      (pointInPolygon h other v.point).bind fun inside =>
        if operationType = 0 then
          store h current fun w =>
            { w with type := if inside then VertexType.EXIT else VertexType.ENTRY }
        else if operationType = 1 then
          store h current fun w =>
            { w with type := if inside then VertexType.ENTRY else VertexType.EXIT }
        else if operationType = 2 then
          store h current fun w =>
            { w with type := if inside then VertexType.EXIT else VertexType.ENTRY }
        else some h
     else some h).bind fun h1 =>
    (load h1 current).bind fun v1 =>
    if v1.next ≠ some head then classifyVerticesLoop head other operationType fuel h1 v1.next
    else some h1

/-- The method `Polygon::classifyVertices`. -/
def classifyVertices (h : Heap) (P other : Polygon) (operationType : Int) : Option Heap :=
  match P.head with
  | none => some h
  | some hd => classifyVerticesLoop hd other operationType h.length h (some hd)

/-- The search loop of `extractResultPolygons` for an unvisited intersection
vertex: the value of `start` after the loop. -/
def findStartLoop (h : Heap) (head : Option Nat) : Nat → Option Nat → Option (Option Nat)
  | 0, _ => none
  | fuel + 1, current =>
    (load h current).bind fun v =>
    if v.intersect && !v.visited then some current
    else if v.next ≠ head then findStartLoop h head fuel v.next
    else some none

/-- The method `Vertex::markAsProcessed`. -/
def markAsProcessed (h : Heap) (vertex : Option Nat) : Option Heap :=
  (store h vertex fun v => { v with visited := true }).bind fun h1 =>
  (load h1 vertex).bind fun v =>
  if v.neighbor ≠ none then store h1 v.neighbor fun w => { w with visited := true }
  else some h1

/-- The walk of `extractResultPolygons` that collects one result polygon. -/
def extractWalk (start : Option Nat) :
    Nat → Heap → Polygon → Option Nat → Bool → Option (Heap × Polygon)
  | 0, _, _, _, _ => none
  | fuel + 1, h, result, currentVertex, inCurrentPolygon =>
    (markAsProcessed h currentVertex).bind fun h1 =>
    (load h1 currentVertex).bind fun v =>
    (addPoint h1 result v.point).bind fun r =>
    (load r.1 currentVertex).bind fun v1 =>
    let cur1 := if v1.intersect then v1.neighbor else currentVertex
    let inCur := if v1.intersect then !inCurrentPolygon else inCurrentPolygon
    (load r.1 cur1).bind fun v2 =>
    let cur2 := if v2.type = VertexType.ENTRY then v2.next else v2.prev
    if cur2 ≠ start then extractWalk start fuel r.1 r.2 cur2 inCur
    else some (r.1, r.2)

/-- The loop `while (start)` of `extractResultPolygons`; every walk gets
`walkFuel` iterations. -/
def extractLoop (head : Option Nat) (walkFuel : Nat) :
    Nat → Heap → Option Nat → List Polygon → Option (Heap × List Polygon)
  | 0, _, _, _ => none
  | fuel + 1, h, start, results =>
    if start = none then some (h, results)
    else
      (extractWalk start walkFuel h empty start true).bind fun r =>
      (copy r.1 r.2).bind fun c =>
      (findStartLoop c.1 head c.1.length head).bind fun start1 =>
      extractLoop head walkFuel fuel c.1 start1 (results ++ [c.2])

/-- The method `Polygon::extractResultPolygons`; the loop `while (start)` and
each walk get `fuel` iterations. -/
def extractResultPolygons (fuel : Nat) (h : Heap) (P : Polygon) :
    Option (Heap × List Polygon) :=
  (findStartLoop h P.head h.length P.head).bind fun start =>
  if start = none then some (h, [])
  else extractLoop P.head fuel fuel h start []

/-- The common tail of `unionWith`, `intersectWith` and `subtract`: working
copies, intersections, classification and extraction. -/
def booleanPipeline (fuel : Nat) (h : Heap) (P other : Polygon) (operationType : Int) :
    Option (Heap × List Polygon) :=
  (copy h P).bind fun a =>
  (copy a.1 other).bind fun b =>
  (findIntersections fuel b.1 a.2 b.2).bind fun h1 =>
  (classifyVertices h1 a.2 b.2 operationType).bind fun h2 =>
  extractResultPolygons fuel h2 a.2

/-- The method `Polygon::unionWith`. -/
def unionWith (fuel : Nat) (h : Heap) (P other : Polygon) : Option (Heap × Polygon) :=
  if P.head = none then assign h P other
  else if other.head = none then some (h, P)
  else
    (booleanPipeline fuel h P other 0).bind fun r =>
    match r.2 with
    | first :: _ => assign r.1 P first
    | [] => some (r.1, P)

/-- The method `Polygon::intersectWith`. -/
def intersectWith (fuel : Nat) (h : Heap) (P other : Polygon) : Option (Heap × Polygon) :=
  if P.head = none ∨ other.head = none then clear h P
  else
    (booleanPipeline fuel h P other 1).bind fun r =>
    match r.2 with
    | first :: _ => assign r.1 P first
    | [] => clear r.1 P

/-- The method `Polygon::subtract`. -/
def subtract (fuel : Nat) (h : Heap) (P other : Polygon) : Option (Heap × Polygon) :=
  if P.head = none then some (h, P)
  else if other.head = none then some (h, P)
  else
    (booleanPipeline fuel h P other 2).bind fun r =>
    match r.2 with
    | first :: _ => assign r.1 P first
    | [] => clear r.1 P

/-- The static method `Polygon::unionPolygons`. -/
def unionPolygons (fuel : Nat) (h : Heap) (A B : Polygon) : Option (Heap × Polygon) :=
  (copy h A).bind fun r => unionWith fuel r.1 r.2 B

/-- The static method `Polygon::intersectionPolygons`. -/
def intersectionPolygons (fuel : Nat) (h : Heap) (A B : Polygon) : Option (Heap × Polygon) :=
  (copy h A).bind fun r => intersectWith fuel r.1 r.2 B

/-- The static method `Polygon::differencePolygons`. -/
def differencePolygons (fuel : Nat) (h : Heap) (A B : Polygon) : Option (Heap × Polygon) :=
  (copy h A).bind fun r => subtract fuel r.1 r.2 B

end Polygon

end PolygonBoolean

/-! ### The ring predicate and example inputs for the BooleanNative claims -/

namespace PolygonBoolean

/-- The `next` pointer stored in cell `a`, when the cell exists. -/
def nextOf (h : Heap) (a : Nat) : Option Nat := (h[a]?).bind Vertex.next

/-- The `prev` pointer stored in cell `a`, when the cell exists. -/
def prevOf (h : Heap) (a : Nat) : Option Nat := (h[a]?).bind Vertex.prev

/-- The point stored in cell `a`. -/
def pointOf (h : Heap) (a : Nat) : Point :=
  match h[a]? with
  | some v => v.point
  | none => ⟨0, 0⟩

/-- Cell `a` has `b` as its `next` and cell `b` has `a` as its `prev`. -/
def Link (h : Heap) (a b : Nat) : Prop := nextOf h a = some b ∧ prevOf h b = some a

/-- The distinct cells `hd :: rest` form a circular doubly linked ring, listed
in `next` order from `hd`. -/
def IsRing (h : Heap) (hd : Nat) (rest : List Nat) : Prop :=
  (hd :: rest).Nodup ∧ List.Chain (Link h) hd (rest ++ [hd])

/-- The polygon `P` is empty and `l = []`, or its head is the first cell of `l`
and the cells `l` form its ring. -/
def RingOf (h : Heap) (P : Polygon) : List Nat → Prop
  | [] => P.head = none
  | hd :: rest => P.head = some hd ∧ IsRing h hd rest

end PolygonBoolean
namespace PolygonBoolean
/-- The heap `h` with cell `a` replaced by `f` of its content; `h` itself when
there is no such cell. -/
def upd (h : Heap) (a : Nat) (f : Vertex → Vertex) : Heap :=
  match h[a]? with
  | some v => h.set a (f v)
  | none => h
end PolygonBoolean
namespace PolygonBoolean

/-- The cell reached from cell `a` by following `next` `k` times. -/
def iterNext (h : Heap) : Nat → Nat → Option Nat
  | 0, a => some a
  | k + 1, a => (nextOf h a).bind (iterNext h k)

/-- Cell `a` is a vertex of the ring of `P`: following `next` from the head
reaches it. -/
def OnRing (h : Heap) (P : Polygon) (a : Nat) : Prop :=
  ∃ hd k, P.head = some hd ∧ iterNext h k hd = some a

/-- The states `(heap, polygon)` reached from the empty polygon by `addPoint`,
by `insertVertexAfter` of a newly allocated vertex after a vertex of the ring,
by `removeVertex` of a vertex of the ring, and by `reverse`. -/
inductive Reachable : Heap → Polygon → Prop
  | empty (h : Heap) : Reachable h Polygon.empty
  | addPoint {h h' : Heap} {P P' : Polygon} (p : Point) :
      Reachable h P → Polygon.addPoint h P p = some (h', P') → Reachable h' P'
  | insertVertexAfter {h h' : Heap} {P : Polygon} (position : Nat) (v : Vertex) :
      Reachable h P → OnRing h P position →
      Polygon.insertVertexAfter (alloc h v).1 (some position) (some (alloc h v).2) = some h' →
      Reachable h' P
  | removeVertex {h h' : Heap} {P P' : Polygon} (vertex : Nat) :
      Reachable h P → OnRing h P vertex →
      Polygon.removeVertex h P (some vertex) = some (h', P') → Reachable h' P'
  | reverse {h h' : Heap} {P P' : Polygon} :
      Reachable h P → Polygon.reverse h P = some (h', P') → Reachable h' P'

end PolygonBoolean
namespace PolygonBoolean

/-- Example: the state after `addPoint(0,0)`, `addPoint(1,0)`, `addPoint(1,1)` on
the empty heap. -/
def triangleState : Heap × Polygon :=
  (Polygon.ofPoints [] [⟨0, 0⟩, ⟨1, 0⟩, ⟨1, 1⟩]).getD ([], Polygon.empty)

/-- Example: `triangleState` after `insertVertexAfter` of a new intersection
vertex after cell `0`. -/
def insertedState : Heap × Polygon :=
  ((Polygon.insertVertexAfter (alloc triangleState.1 (Vertex.ofPointAlpha ⟨1 / 2, 0⟩ (1 / 2))).1
      (some 0) (some (alloc triangleState.1 (Vertex.ofPointAlpha ⟨1 / 2, 0⟩ (1 / 2))).2)).getD [],
    triangleState.2)

/-- Example: `insertedState` after `removeVertex` of cell `1`. -/
def removedState : Heap × Polygon :=
  (Polygon.removeVertex insertedState.1 insertedState.2 (some 1)).getD ([], Polygon.empty)

/-- Example: `removedState` after `reverse`. -/
def reversedState : Heap × Polygon :=
  (Polygon.reverse removedState.1 removedState.2).getD ([], Polygon.empty)

end PolygonBoolean
namespace PolygonBoolean

/-- Example: the triangle `(0,0),(1,0),(1,1)` after the query `isClockwise()`,
which caches the direction. -/
def queriedTriangle : Heap × Polygon :=
  (triangleState.1,
   ((Polygon.isClockwise triangleState.1 triangleState.2).getD (true, Polygon.empty)).2)

/-- Example: `queriedTriangle` after `scale(-1, 1)`. -/
def mirroredTriangle : Heap × Polygon :=
  (Polygon.scale queriedTriangle.1 queriedTriangle.2 (-1) 1).getD ([], Polygon.empty)

/-- Example: the two point polygon `(0,0),(1,0)` after `isClockwise()`. -/
def queriedSegment : Heap × Polygon :=
  (((Polygon.ofPoints [] [⟨0, 0⟩, ⟨1, 0⟩]).getD ([], Polygon.empty)).1,
   ((Polygon.isClockwise ((Polygon.ofPoints [] [⟨0, 0⟩, ⟨1, 0⟩]).getD ([], Polygon.empty)).1
      ((Polygon.ofPoints [] [⟨0, 0⟩, ⟨1, 0⟩]).getD ([], Polygon.empty)).2).getD
        (true, Polygon.empty)).2)

end PolygonBoolean
namespace PolygonBoolean

instance Link.decidable (h : Heap) (a b : Nat) : Decidable (Link h a b) :=
  inferInstanceAs (Decidable (nextOf h a = some b ∧ prevOf h b = some a))

/-- Deciding a chain of links, link by link. -/
def Link.decidableChain (h : Heap) : (a : Nat) → (l : List Nat) →
    Decidable (List.Chain (Link h) a l)
  | _, [] => isTrue List.Chain.nil
  | a, b :: l =>
    match Link.decidable h a b, Link.decidableChain h b l with
    | isTrue h1, isTrue h2 => isTrue (List.Chain.cons h1 h2)
    | isFalse h1, _ => isFalse fun hc => h1 (List.chain_cons.1 hc).1
    | _, isFalse h2 => isFalse fun hc => h2 (List.chain_cons.1 hc).2

instance IsRing.decidable (h : Heap) (hd : Nat) (rest : List Nat) :
    Decidable (IsRing h hd rest) :=
  match List.nodupDecidable (hd :: rest), Link.decidableChain h hd (rest ++ [hd]) with
  | isTrue h1, isTrue h2 => isTrue ⟨h1, h2⟩
  | isFalse h1, _ => isFalse fun hc => h1 hc.1
  | _, isFalse h2 => isFalse fun hc => h2 hc.2

instance RingOf.decidable (h : Heap) (P : Polygon) : (l : List Nat) → Decidable (RingOf h P l)
  | [] => inferInstanceAs (Decidable (P.head = none))
  | hd :: rest => inferInstanceAs (Decidable (P.head = some hd ∧ IsRing h hd rest))

/-- The content of a cell of a clone against the content of the cell it was
copied from: same point, type, flags and alpha, and no neighbor. -/
def IsCopyOf (v v' : Vertex) : Prop :=
  v'.point = v.point ∧ v'.type = v.type ∧ v'.neighbor = none ∧ v'.intersect = v.intersect ∧
    v'.visited = v.visited ∧ v'.entryExitProcessed = v.entryExitProcessed ∧ v'.alpha = v.alpha

/-- Example: the triangle `(0,0),(1,0),(1,1)` with a vertex made by the
intersection constructor, linked to a neighbor, inserted after its first vertex. -/
def crossedState : Heap × Polygon :=
  ((Polygon.insertVertexAfter
      (alloc triangleState.1
        { Vertex.ofPointAlpha ⟨1 / 2, 0⟩ (1 / 2) with neighbor := some 2 }).1
      (some 0) (some 3)).getD [],
    triangleState.2)

end PolygonBoolean
namespace PolygonBoolean

/-- The first `n` passes through the body of the inner loop of
`findIntersections`, the loop test left aside: the heap and `currentB` after
them. -/
def findIntersectionsRun (currentA : Option Nat) :
    Nat → Heap → Option Nat → Option (Heap × Option Nat)
  | 0, h, currentB => some (h, currentB)
  | n + 1, h, currentB =>
    (Polygon.findIntersectionsBody currentA currentB h).bind fun r =>
    findIntersectionsRun currentA n r.1 r.2

/-- The state in which the inner loop of `findIntersections` stays when
`currentA` is cell `13`, the vertex `(1,0)`, and `currentB` is cell `cB`: the
edge out of `currentA` ends at `(1,1)` or at `(1,1/2)`, the edge out of
`currentB` starts at `(1/2,1/2)` or at `(1,1/2)` and ends at `(3/2,1/2)`. -/
def Stuck (h : Heap) (cB : Nat) : Prop :=
  ∃ an bn va vb van vbn, h[13]? = some va ∧ h[cB]? = some vb ∧ h[an]? = some van ∧
    h[bn]? = some vbn ∧ va.next = some an ∧ vb.next = some bn ∧ cB ≠ 13 ∧ 16 < h.length ∧
    va.point = ⟨1, 0⟩ ∧ vbn.point = ⟨3 / 2, 1 / 2⟩ ∧
    ((van.point = ⟨1, 1⟩ ∧ vb.point = ⟨1 / 2, 1 / 2⟩) ∨
     (van.point = ⟨1, 1 / 2⟩ ∧ vb.point = ⟨1, 1 / 2⟩))

/-- Example: the unit square `A` with corners `(0,0)` and `(1,1)` and the
square `B` with corners `(1/2,1/2)` and `(3/2,3/2)`, built on the empty heap. -/
def squaresState : Heap × Polygon × Polygon :=
  (((Polygon.ofPoints
      ((Polygon.ofPoints [] [⟨0, 0⟩, ⟨1, 0⟩, ⟨1, 1⟩, ⟨0, 1⟩]).getD ([], Polygon.empty)).1
      [⟨1 / 2, 1 / 2⟩, ⟨3 / 2, 1 / 2⟩, ⟨3 / 2, 3 / 2⟩, ⟨1 / 2, 3 / 2⟩]).getD
        ([], Polygon.empty)).1,
   ((Polygon.ofPoints [] [⟨0, 0⟩, ⟨1, 0⟩, ⟨1, 1⟩, ⟨0, 1⟩]).getD ([], Polygon.empty)).2,
   ((Polygon.ofPoints
      ((Polygon.ofPoints [] [⟨0, 0⟩, ⟨1, 0⟩, ⟨1, 1⟩, ⟨0, 1⟩]).getD ([], Polygon.empty)).1
      [⟨1 / 2, 1 / 2⟩, ⟨3 / 2, 1 / 2⟩, ⟨3 / 2, 3 / 2⟩, ⟨1 / 2, 3 / 2⟩]).getD
        ([], Polygon.empty)).2)

/-- Example: `squaresState` after `Polygon result = A`, the first statement of
`unionPolygons`, `intersectionPolygons` and `differencePolygons`. -/
def squaresResult : Heap × Polygon :=
  (Polygon.copy squaresState.1 squaresState.2.1).getD ([], Polygon.empty)

/-- Example: `squaresResult` after the working copies `polyA = *this` and
`polyB = other` of `unionWith`, `intersectWith` and `subtract`: the heap,
`polyA` and `polyB`. -/
def squaresWork : Heap × Polygon × Polygon :=
  (((Polygon.copy
      ((Polygon.copy squaresResult.1 squaresResult.2).getD ([], Polygon.empty)).1
      squaresState.2.2).getD ([], Polygon.empty)).1,
   ((Polygon.copy squaresResult.1 squaresResult.2).getD ([], Polygon.empty)).2,
   ((Polygon.copy
      ((Polygon.copy squaresResult.1 squaresResult.2).getD ([], Polygon.empty)).1
      squaresState.2.2).getD ([], Polygon.empty)).2)

end PolygonBoolean

/-! ### Link defects and polygons built by `addPoint`, `reverse` and `clear` -/

namespace PolygonBoolean

/-- No cell of the heap holds a dangling pointer: every `next` and every `prev`
that is not `nullptr` is the address of a cell. -/
def NoDangling (h : Heap) : Prop :=
  ∀ v ∈ h, (∀ n ∈ v.next, n < h.length) ∧ (∀ q ∈ v.prev, q < h.length)

/-- The vertex in cell `a` fails a test of `validate`: its `next` or its `prev`
is missing, or `next->prev` is not the vertex itself, or `prev->next` is not
the vertex itself. -/
def LinkDefect (h : Heap) (a : Nat) : Prop :=
  nextOf h a = none ∨ prevOf h a = none ∨
    (∃ n, nextOf h a = some n ∧ prevOf h n ≠ some a) ∨
    (∃ q, prevOf h a = some q ∧ nextOf h q ≠ some a)

/-- The states `(heap, polygon)` reached from the empty polygon by `addPoint`,
`reverse` and `clear` only. -/
inductive Built : Heap → Polygon → Prop
  | empty (h : Heap) : Built h Polygon.empty
  | addPoint {h h' : Heap} {P P' : Polygon} (p : Point) :
      Built h P → Polygon.addPoint h P p = some (h', P') → Built h' P'
  | reverse {h h' : Heap} {P P' : Polygon} :
      Built h P → Polygon.reverse h P = some (h', P') → Built h' P'
  | clear {h h' : Heap} {P P' : Polygon} :
      Built h P → Polygon.clear h P = some (h', P') → Built h' P'

/-- Example: `triangleState` with the `prev` pointer of cell `1` redirected to
cell `1` itself. -/
def brokenTriangle : Heap × Polygon :=
  (upd triangleState.1 1 (fun v => { v with prev := some 1 }), triangleState.2)

end PolygonBoolean

/-! ### `isConvex`, the static `pointInPolygon`, and the shoelace sum -/

namespace PolygonBoolean

namespace Polygon

/-- The loop of `isConvex`; the state is `hasPositive` and `hasNegative`. -/
def isConvexLoop (h : Heap) (head : Nat) : Nat → Option Nat → Bool → Bool → Option Bool
  | 0, _, _, _ => none
  | fuel + 1, current, hasPositive, hasNegative =>
    (load h current).bind fun v =>
    (load h v.prev).bind fun pv =>
    (load h v.next).bind fun nv =>
    let cross := crossProduct pv.point v.point nv.point
    let hasPositive1 := if cross > EPSILON then true else hasPositive
    let hasNegative1 := if cross < -EPSILON then true else hasNegative
    if hasPositive1 && hasNegative1 then some false
    else if v.next ≠ some head then isConvexLoop h head fuel v.next hasPositive1 hasNegative1
    else some true

/-- The method `Polygon::isConvex`. -/
def isConvex (h : Heap) (P : Polygon) : Option Bool :=
  (vertexCount h P).bind fun c =>
  if c < 3 then some true
  else
    match P.head with
    | none => none
    | some hd => isConvexLoop h hd h.length (some hd) false false

/-- The static method `Polygon::pointInPolygon(const Point& p, const
std::vector<Point>& polygon)`. -/
def pointInPolygonStatic (p : Point) (polygon : List Point) : Int :=
  if polygon.length < 3 then 0
  else
    let windingNumber : Int := (List.range polygon.length).foldl
      (fun (windingNumber : Int) i =>
        let j := (i + 1) % polygon.length
        if (polygon.getD i ⟨0, 0⟩).y ≤ p.y then
          if (polygon.getD j ⟨0, 0⟩).y > p.y then
            if crossProduct (polygon.getD i ⟨0, 0⟩) (polygon.getD j ⟨0, 0⟩) p > 0 then
              windingNumber + 1
            else windingNumber
          else windingNumber
        else
          if (polygon.getD j ⟨0, 0⟩).y ≤ p.y then
            if crossProduct (polygon.getD i ⟨0, 0⟩) (polygon.getD j ⟨0, 0⟩) p < 0 then
              windingNumber - 1
            else windingNumber
          else windingNumber) 0
    if windingNumber ≠ 0 then 1 else 0

end Polygon

/-- The change of the winding number at the edge from `a` to `b`, as both
`pointInPolygon` compute it. -/
def windingStep (p : Point) (w : Int) (a b : Point) : Int :=
  if a.y ≤ p.y then
    if b.y > p.y then
      if Polygon.crossProduct a b p > 0 then w + 1 else w
    else w
  else
    if b.y ≤ p.y then
      if Polygon.crossProduct a b p < 0 then w - 1 else w
    else w

/-- The shoelace sum of a point list: the sum of `x_i * y_(i+1) - x_(i+1) * y_i`
over the ring of the points. -/
def shoelaceSum (pts : List Point) : ℚ :=
  ((List.range pts.length).map fun i =>
    (pts.getD i ⟨0, 0⟩).x * (pts.getD ((i + 1) % pts.length) ⟨0, 0⟩).y -
      (pts.getD ((i + 1) % pts.length) ⟨0, 0⟩).x * (pts.getD i ⟨0, 0⟩).y).sum

/-- The signed shoelace area of a point list: half the shoelace sum. -/
def signedArea (pts : List Point) : ℚ := shoelaceSum pts / 2

end PolygonBoolean

/-! ### `area` and `isConvex` with rounded arithmetic

The two methods once more, with the result of every `+`, `-`, `*`, `/` on
`double`s and the literal `1e-10` passed through a rounding function `fl`:
`fl = id` gives the methods above, `fl = Binary64.rnd` the arithmetic of the
program. -/

namespace PolygonBoolean

namespace Point

/-- The method `Point::cross`, with rounding. -/
def crossF (fl : ℚ → ℚ) (a other : Point) : ℚ := fl (fl (a.x * other.y) - fl (a.y * other.x))

end Point

namespace Polygon

/-- The loop of `area`, with rounding. -/
def areaLoopF (fl : ℚ → ℚ) (h : Heap) (head : Nat) : Nat → Option Nat → ℚ → Option ℚ
  | 0, _, _ => none
  | fuel + 1, current, area =>
    (load h current).bind fun v =>
    (load h v.next).bind fun n =>
    if v.next ≠ some head then
      areaLoopF fl h head fuel v.next (fl (area + v.point.crossF fl n.point))
    else some (fl (area + v.point.crossF fl n.point))

/-- The method `Polygon::area`, with rounding. -/
def areaF (fl : ℚ → ℚ) (h : Heap) (P : Polygon) : Option ℚ :=
  match P.head with
  | none => some 0
  | some hd =>
    (vertexCount h P).bind fun c =>
    if c < 3 then some 0
    else (areaLoopF fl h hd h.length (some hd) 0).bind fun a => some (fl (|a| / 2))

/-- The method `Polygon::crossProduct`, with rounding. -/
def crossProductF (fl : ℚ → ℚ) (a b c : Point) : ℚ :=
  fl (fl (fl (b.x - a.x) * fl (c.y - a.y)) - fl (fl (c.x - a.x) * fl (b.y - a.y)))

/-- The loop of `isConvex`, with rounding. -/
def isConvexLoopF (fl : ℚ → ℚ) (h : Heap) (head : Nat) :
    Nat → Option Nat → Bool → Bool → Option Bool
  | 0, _, _, _ => none
  | fuel + 1, current, hasPositive, hasNegative =>
    (load h current).bind fun v =>
    (load h v.prev).bind fun pv =>
    (load h v.next).bind fun nv =>
    let cross := crossProductF fl pv.point v.point nv.point
    let hasPositive1 := if cross > fl EPSILON then true else hasPositive
    let hasNegative1 := if cross < -fl EPSILON then true else hasNegative
    if hasPositive1 && hasNegative1 then some false
    else if v.next ≠ some head then
      isConvexLoopF fl h head fuel v.next hasPositive1 hasNegative1
    else some true

/-- The method `Polygon::isConvex`, with rounding. -/
def isConvexF (fl : ℚ → ℚ) (h : Heap) (P : Polygon) : Option Bool :=
  (vertexCount h P).bind fun c =>
  if c < 3 then some true
  else
    match P.head with
    | none => none
    | some hd => isConvexLoopF fl h hd h.length (some hd) false false

end Polygon

/-- Both coordinates of `p` are integers of absolute value at most `B`. -/
def IntPoint (B : Nat) (p : Point) : Prop := Binary64.IsInt B p.x ∧ Binary64.IsInt B p.y

/-- The point list `pts` as the program holds it: every coordinate rounded to
binary64. -/
def toDoubles (pts : List Point) : List Point :=
  pts.map fun p => ⟨Binary64.rnd p.x, Binary64.rnd p.y⟩

/-- Example: the state after building the polygon
`(0.9,0.2), (100000.9,300000.2), (200001.0,600000.5)`, a triangle whose
vertices are nearly on one line. -/
def sliverState : Heap × Polygon :=
  (Polygon.ofPoints [] (toDoubles [⟨9 / 10, 1 / 5⟩, ⟨1000009 / 10, 1500001 / 5⟩,
    ⟨200001, 1200001 / 2⟩])).getD ([], Polygon.empty)

/-- Example: the state after building the polygon
`(0,0.1), (2.6,2.7), (3.8,9.9), (5.3,0.7)`. -/
def kiteState : Heap × Polygon :=
  (Polygon.ofPoints [] (toDoubles [⟨0, 1 / 10⟩, ⟨13 / 5, 27 / 10⟩, ⟨19 / 5, 99 / 10⟩,
    ⟨53 / 10, 7 / 10⟩])).getD ([], Polygon.empty)

/-- Example: `kiteState` after `reverse()`. -/
def kiteReversed : Heap × Polygon :=
  (Polygon.reverse kiteState.1 kiteState.2).getD ([], Polygon.empty)

end PolygonBoolean

/-! ## GeometryCore: `PolygonUtilityExtension.h`, `PolygonUtilityExtension.cpp`

Every loop of this engine takes its iterations from a `fuel` argument; `none`
stands for a read or write through `nullptr` and for "did not finish within
`fuel` iterations". -/

namespace GeometryCore

/-- The `enum class GHOp`. -/
inductive GHOp
  | Intersection
  | Union
  | DifferenceAB
  | DifferenceBA
deriving DecidableEq

/-- The `struct Node`, with its default member initialisers. -/
structure Node where
  p : Point := ⟨0, 0⟩
  isIntersection : Bool := false
  entry : Bool := false
  visited : Bool := false
  alpha : ℚ := 0
  next : Option Nat := none
  prev : Option Nat := none
  neighbor : Option Nat := none
deriving DecidableEq

/-- The heap of nodes: every `Node` allocated so far, addressed by its index. -/
abbrev NodeHeap := List Node

namespace PolygonUtilityExtension

/-- Reading `*p`. -/
def load (h : NodeHeap) : Option Nat → Option Node
  | none => none
  | some a => h[a]?

/-- Writing `*p = f(*p)`. -/
def store (h : NodeHeap) (p : Option Nat) (f : Node → Node) : Option NodeHeap :=
  match p with
  | none => none
  | some a =>
    match h[a]? with
    | none => none
    | some v => some (h.set a (f v))

/-- The expression `new Node()` followed by the assignments that initialise the
new node: the heap with the new cell, and its address. -/
def alloc (h : NodeHeap) (v : Node) : NodeHeap × Nat := (h ++ [v], h.length)

/-- The loop of `BuildPolygon`; the state is the heap, `first` and `prev`. -/
def BuildPolygonLoop :
    List Point → NodeHeap → Option Nat → Option Nat → Option (NodeHeap × Option Nat × Option Nat)
  | [], h, first, prev => some (h, first, prev)
  | p :: pts, h, first, prev =>
    let n := (alloc h { p := p, isIntersection := false, visited := false }).2
    let h1 := (alloc h { p := p, isIntersection := false, visited := false }).1
    let first1 := if first = none then some n else first
    (if prev ≠ none then
      (store h1 prev fun v => { v with next := some n }).bind fun h2 =>
      store h2 (some n) fun v => { v with prev := prev }
     else some h1).bind fun h3 =>
    BuildPolygonLoop pts h3 first1 (some n)

/-- The method `BuildPolygon`: the heap and the returned pointer. -/
def BuildPolygon (h : NodeHeap) (pts : List Point) : Option (NodeHeap × Option Nat) :=
  if pts = [] then some (h, none)
  else
    (BuildPolygonLoop pts h none none).bind fun r =>
    (store r.1 r.2.2 fun v => { v with next := r.2.1 }).bind fun h1 =>
    (store h1 r.2.1 fun v => { v with prev := r.2.2 }).bind fun h2 =>
    some (h2, r.2.1)

/-- The `while` loop of `InsertInOrder`: the value of `curr` after it. -/
def InsertInOrderWalk (h : NodeHeap) (alpha : ℚ) : Nat → Option Nat → Option (Option Nat)
  | 0, _ => none
  | fuel + 1, curr =>
    (load h curr).bind fun c =>
    (load h c.next).bind fun cn =>
    if cn.isIntersection && decide (cn.alpha < alpha) then InsertInOrderWalk h alpha fuel c.next
    else some curr

/-- The method `InsertInOrder`. -/
def InsertInOrder (fuel : Nat) (h : NodeHeap) (startNode newNode : Option Nat) :
    Option NodeHeap :=
  (load h newNode).bind fun nn =>
  (InsertInOrderWalk h nn.alpha fuel startNode).bind fun curr =>
  (load h curr).bind fun c =>
  (store h newNode fun v => { v with next := c.next }).bind fun h1 =>
  (store h1 newNode fun v => { v with prev := curr }).bind fun h2 =>
  (load h2 curr).bind fun c2 =>
  (store h2 c2.next fun v => { v with prev := newNode }).bind fun h3 =>
  store h3 curr fun v => { v with next := newNode }

/-- The method `SegmentIntersect`: `none` when it returns `false`, and
`some (ip, aP, aQ)`, the values of its output parameters, when it returns
`true`. -/
def SegmentIntersect (p1 p2 q1 q2 : Point) : Option (Point × ℚ × ℚ) :=
  let rdx := p2.x - p1.x
  let rdy := p2.y - p1.y
  let sdx := q2.x - q1.x
  let sdy := q2.y - q1.y
  let det := rdx * sdy - rdy * sdx
  if |det| < eps9 then none
  else
    let aP := ((q1.x - p1.x) * sdy - (q1.y - p1.y) * sdx) / det
    let aQ := ((q1.x - p1.x) * rdy - (q1.y - p1.y) * rdx) / det
    if aP > eps9 ∧ aP < 1 - eps9 ∧ aQ > eps9 ∧ aQ < 1 - eps9 then
      some (⟨p1.x + aP * rdx, p1.y + aP * rdy⟩, aP, aQ)
    else none

/-- The body of the inner loop of `FindIntersections` for a `b` that is not an
intersection node. -/
def FindIntersectionsPair (fuel : Nat) (h : NodeHeap) (a aNext b bNext : Option Nat) :
    Option NodeHeap :=
  (load h a).bind fun av =>
  (load h aNext).bind fun anv =>
  (load h b).bind fun bv =>
  (load h bNext).bind fun bnv =>
  match SegmentIntersect av.p anv.p bv.p bnv.p with
  | some (ip, ta, tb) =>
    let na := (alloc h { p := ip, isIntersection := true, alpha := ta }).2
    let h1 := (alloc h { p := ip, isIntersection := true, alpha := ta }).1
    let nb := (alloc h1 { p := ip, isIntersection := true, alpha := tb }).2
    let h2 := (alloc h1 { p := ip, isIntersection := true, alpha := tb }).1
    (store h2 (some na) fun v => { v with neighbor := some nb }).bind fun h3 =>
    (store h3 (some nb) fun v => { v with neighbor := some na }).bind fun h4 =>
    (InsertInOrder fuel h4 a (some na)).bind fun h5 =>
    InsertInOrder fuel h5 b (some nb)
  | none => some h

/-- The inner loop of `FindIntersections`, over the ring of `B`; `continue`
goes to the loop test with `b = bNext`, like the end of the body. -/
def FindIntersectionsInner (fuelI : Nat) (B a aNext : Option Nat) :
    Nat → NodeHeap → Option Nat → Option NodeHeap
  | 0, _, _ => none
  | fuel + 1, h, b =>
    (load h b).bind fun bv =>
    (if bv.isIntersection then some h
     else FindIntersectionsPair fuelI h a aNext b bv.next).bind fun h1 =>
    if bv.next ≠ B then FindIntersectionsInner fuelI B a aNext fuel h1 bv.next
    else some h1

/-- The outer loop of `FindIntersections`, over the ring of `A`. -/
def FindIntersectionsOuter (fuelI : Nat) (A B : Option Nat) :
    Nat → NodeHeap → Option Nat → Option NodeHeap
  | 0, _, _ => none
  | fuel + 1, h, a =>
    (load h a).bind fun av =>
    (if av.isIntersection then some h
     else FindIntersectionsInner fuelI B a av.next fuelI h B).bind fun h1 =>
    if av.next ≠ A then FindIntersectionsOuter fuelI A B fuel h1 av.next
    else some h1

/-- The method `FindIntersections`. -/
def FindIntersections (fuel : Nat) (h : NodeHeap) (A B : Option Nat) : Option NodeHeap :=
  FindIntersectionsOuter fuel A B fuel h A

/-- One iteration of the loop of `PointInsidePolygon`: the state is
`(inside, j)`. -/
def PointInsidePolygonStep (poly : List Point) (p : Point) (st : Bool × Nat) (i : Nat) :
    Bool × Nat :=
  let a := vget poly i
  let b := vget poly st.2
  if decide (a.y > p.y) != decide (b.y > p.y) then
    if p.x < (b.x - a.x) * (p.y - a.y) / (b.y - a.y) + a.x then (!st.1, i) else (st.1, i)
  else (st.1, i)

/-- The method `PointInsidePolygon`. -/
def PointInsidePolygon (poly : List Point) (p : Point) : Bool :=
  if poly = [] then false
  else ((List.range poly.length).foldl (PointInsidePolygonStep poly p)
    (false, poly.length - 1)).1

/-- A loop `do body; n = n->next; while (n != start)` over a ring; `body` works
on the heap, the current node and the local state. -/
def ringWalk {σ : Type} (body : NodeHeap → Option Nat → σ → Option (NodeHeap × σ))
    (start : Option Nat) : Nat → NodeHeap → Option Nat → σ → Option (NodeHeap × σ)
  | 0, _, _, _ => none
  | fuel + 1, h, n, s =>
    (body h n s).bind fun r =>
    (load r.1 n).bind fun v =>
    if v.next ≠ start then ringWalk body start fuel r.1 v.next r.2
    else some r

/-- The first loop of `MarkEntryExit`,
`while (startNode->isIntersection) startNode = startNode->next`. -/
def MarkEntryExitStart (h : NodeHeap) : Nat → Option Nat → Option (Option Nat)
  | 0, _ => none
  | fuel + 1, startNode =>
    (load h startNode).bind fun v =>
    if v.isIntersection then MarkEntryExitStart h fuel v.next else some startNode

/-- The body of the second loop of `MarkEntryExit`; the local state is
`inside`. -/
def MarkEntryExitBody (op : GHOp) (isA : Bool) (h : NodeHeap) (curr : Option Nat)
    (inside : Bool) : Option (NodeHeap × Bool) :=
  (load h curr).bind fun v =>
  if v.isIntersection then
    (store h curr fun w =>
      { w with entry :=
          if op = GHOp.Union then !inside
          else if op = GHOp.Intersection then inside
          else if isA then !inside else inside }).bind fun h1 =>
    some (h1, !inside)
  else some (h, inside)

/-- The method `MarkEntryExit`. -/
def MarkEntryExit (fuel : Nat) (h : NodeHeap) (poly : Option Nat) (other : List Point)
    (op : GHOp) (isA : Bool) : Option NodeHeap :=
  (MarkEntryExitStart h fuel poly).bind fun startNode =>
  (load h startNode).bind fun sv =>
  (ringWalk (MarkEntryExitBody op isA) startNode fuel h startNode
    (PointInsidePolygon other sv.p)).bind fun r =>
  some r.1

/-- The loop of `TraceResult`. The accumulator `result` holds, next to every
point pushed, the address of the node it was read from. -/
def TraceResultLoop (start : Option Nat) (op : GHOp) :
    Nat → NodeHeap → Option Nat → Bool → Bool → List (Nat × Point) →
      Option (NodeHeap × List (Nat × Point))
  | 0, _, _, _, _, _ => none
  | _ + 1, h, none, _, _, result => some (h, result)
  | fuel + 1, h, some c, onPolyA, forward, result =>
    (load h (some c)).bind fun v =>
    if v.visited then some (h, result)
    else
      (store h (some c) fun w => { w with visited := true }).bind fun h1 =>
      (load h1 (some c)).bind fun v1 =>
      (if v1.neighbor ≠ none then store h1 v1.neighbor fun w => { w with visited := true }
       else some h1).bind fun h2 =>
      (load h2 (some c)).bind fun v2 =>
      let result1 := result ++ [(c, v2.p)]
      let cur1 := if v2.isIntersection then v2.neighbor else some c
      let onPolyA1 := if v2.isIntersection then !onPolyA else onPolyA
      let forward1 :=
        if v2.isIntersection then
          (if op = GHOp.Intersection ∨ op = GHOp.Union then true else onPolyA1)
        else forward
      (load h2 cur1).bind fun w =>
      let cur2 := if forward1 then w.next else w.prev
      if cur2 = start then some (h2, result1)
      else TraceResultLoop start op fuel h2 cur2 onPolyA1 forward1 result1

/-- The method `TraceResult`: the heap, and the points pushed with the
addresses of their nodes. -/
def TraceResult (fuel : Nat) (h : NodeHeap) (start : Option Nat) (op : GHOp)
    (startOnA : Bool) : Option (NodeHeap × List (Nat × Point)) :=
  TraceResultLoop start op fuel h start startOnA true []

/-- The signed area sum of `EnsureCCW`. -/
def EnsureCCWArea (pts : List Point) : ℚ :=
  (List.range pts.length).foldl
    (fun area i =>
      area + ((vget pts i).x * (vget pts ((i + 1) % pts.length)).y -
        (vget pts ((i + 1) % pts.length)).x * (vget pts i).y)) 0

/-- The method `EnsureCCW`: the value of `pts` after the call. -/
def EnsureCCW (pts : List Point) : List Point :=
  if pts.length < 3 then pts
  else if EnsureCCWArea pts < 0 then pts.reverse else pts

/-- The body of the lambda `ResetVisited`. -/
def ResetVisitedBody (h : NodeHeap) (n : Option Nat) (s : Unit) : Option (NodeHeap × Unit) :=
  (store h n fun w => { w with visited := false }).bind fun h1 => some (h1, s)

/-- The lambda `ResetVisited` of `Compute`. -/
def ResetVisited (fuel : Nat) (h : NodeHeap) (poly : Option Nat) : Option NodeHeap :=
  if poly = none then some h
  else (ringWalk ResetVisitedBody poly fuel h poly ()).bind fun r => some r.1

/-- The body of the traversal loop of `Compute`. The local state is `result`
and the record of all walks of `TraceResult`, each with the addresses of the
nodes it pushed. -/
def ComputeTraverseBody (fuel : Nat) (op : GHOp) (startOnA : Bool) (h : NodeHeap)
    (n : Option Nat) (s : List (List Point) × List (List (Nat × Point))) :
    Option (NodeHeap × List (List Point) × List (List (Nat × Point))) :=
  (load h n).bind fun v =>
  if v.isIntersection && !v.visited && v.entry then
    (TraceResult fuel h n op startOnA).bind fun r =>
    some (r.1, if 3 ≤ r.2.length then s.1 ++ [r.2.map Prod.snd] else s.1, s.2 ++ [r.2])
  else some (h, s)

/-- The outcome of a run of `Compute`: the heap and the two rings at the end,
the returned `result`, and the record of all walks of `TraceResult`. -/
structure ComputeRun where
  heap : NodeHeap
  A : Option Nat
  B : Option Nat
  result : List (List Point)
  walks : List (List (Nat × Point))

/-- The method `Compute`, with the heap and the walks it made. -/
def ComputeTraced (fuel : Nat) (Apts Bpts : List Point) (operation : GHOp) :
    Option ComputeRun :=
  let A_fixed := EnsureCCW Apts
  let B_fixed := EnsureCCW Bpts
  (BuildPolygon [] A_fixed).bind fun ra =>
  (BuildPolygon ra.1 B_fixed).bind fun rb =>
  (FindIntersections fuel rb.1 ra.2 rb.2).bind fun h1 =>
  (MarkEntryExit fuel h1 ra.2 B_fixed operation true).bind fun h2 =>
  (MarkEntryExit fuel h2 rb.2 A_fixed operation false).bind fun h3 =>
  (ResetVisited fuel h3 ra.2).bind fun h4 =>
  (ResetVisited fuel h4 rb.2).bind fun h5 =>
  let startPoly := if operation = GHOp.DifferenceBA then rb.2 else ra.2
  let startOnA := decide (operation ≠ GHOp.DifferenceBA)
  (ringWalk (ComputeTraverseBody fuel operation startOnA) startPoly fuel h5 startPoly
    ([], [])).bind fun t =>
  (if t.2.1 = [] then
    (A_fixed[0]?).bind fun a0 => (B_fixed[0]?).bind fun b0 =>
      let _A_in_B := PointInsidePolygon B_fixed a0
      let _B_in_A := PointInsidePolygon A_fixed b0
      some ()
   else some ()).bind fun _ =>
  some { heap := t.1, A := ra.2, B := rb.2, result := t.2.1, walks := t.2.2 }

/-- The method `Compute`. -/
def Compute (fuel : Nat) (Apts Bpts : List Point) (operation : GHOp) :
    Option (List (List Point)) :=
  (ComputeTraced fuel Apts Bpts operation).map ComputeRun.result

end PolygonUtilityExtension

end GeometryCore

/-! ### Rings of nodes: the predicates of the termination proof -/

namespace GeometryCore

namespace PolygonUtilityExtension

/-- The heap `h` with cell `a` replaced by `f` of its content; `h` itself when
there is no such cell. -/
def upd (h : NodeHeap) (a : Nat) (f : Node → Node) : NodeHeap :=
  match h[a]? with
  | some v => h.set a (f v)
  | none => h

/-- The `next` pointer stored in cell `a`, when the cell exists. -/
def nodeNext (h : NodeHeap) (a : Nat) : Option Nat := (h[a]?).bind Node.next

/-- The `prev` pointer stored in cell `a`, when the cell exists. -/
def nodePrev (h : NodeHeap) (a : Nat) : Option Nat := (h[a]?).bind Node.prev

/-- The `neighbor` pointer stored in cell `a`, when the cell exists. -/
def nodeNeighbor (h : NodeHeap) (a : Nat) : Option Nat := (h[a]?).bind Node.neighbor

/-- The flag `isIntersection` of cell `a`; `false` when there is no such cell. -/
def isInt (h : NodeHeap) (a : Nat) : Bool :=
  match h[a]? with
  | some v => v.isIntersection
  | none => false

/-- The flag `visited` of cell `a`; `false` when there is no such cell. -/
def isVisited (h : NodeHeap) (a : Nat) : Bool :=
  match h[a]? with
  | some v => v.visited
  | none => false

/-- The distinct cells `L`, the first of which is `hd`, are linked by `nx` into
a cycle: each to the one after it in `L`, and the last one to `hd`. -/
def IsCycle (nx : Nat → Option Nat) (hd : Nat) (L : List Nat) : Prop :=
  L.Nodup ∧ L.head? = some hd ∧ List.Chain' (fun a b => nx a = some b) (L ++ [hd])

/-- Every cell has its `next` and `prev` in the heap, a `neighbor` in the heap
if it has one, and it has one if it is an intersection node. -/
def Closed (h : NodeHeap) : Prop :=
  ∀ a, a < h.length →
    (∃ x, nodeNext h a = some x ∧ x < h.length) ∧
    (∃ x, nodePrev h a = some x ∧ x < h.length) ∧
    (∀ x, nodeNeighbor h a = some x → x < h.length) ∧
    (isInt h a = true → (nodeNeighbor h a).isSome = true)

/-- The heaps `h` and `g` have the same cells up to the flags `entry` and
`visited` (and the points and alphas, which the predicates here do not read). -/
def SameLinks (h g : NodeHeap) : Prop :=
  g.length = h.length ∧ nodeNext g = nodeNext h ∧ nodePrev g = nodePrev h ∧
    nodeNeighbor g = nodeNeighbor h ∧ isInt g = isInt h

/-- The heap `g` is `h` with the cell `n` linked in between `curr` and `succ`. -/
def Spliced (h g : NodeHeap) (curr n succ : Nat) : Prop :=
  g.length = h.length ∧
    (∀ b, nodeNext g b = if b = curr then some n else if b = n then some succ
      else nodeNext h b) ∧
    (∀ b, nodePrev g b = if b = succ then some n else if b = n then some curr
      else nodePrev h b) ∧
    nodeNeighbor g = nodeNeighbor h ∧ isInt g = isInt h

/-- The state of the two rings: the cells `LA` from `A` and the cells `LB` from
`B` are two cycles of `next` that share no cell and hold all cells of the heap
between them; the two heads are not intersection nodes; the heap is closed. -/
structure TwoRings (h : NodeHeap) (A B : Nat) (LA LB : List Nat) : Prop where
  cycA : IsCycle (nodeNext h) A LA
  cycB : IsCycle (nodeNext h) B LB
  disj : ∀ x, x ∈ LA → x ∉ LB
  len : LA.length + LB.length = h.length
  lt : ∀ x, x ∈ LA ∨ x ∈ LB → x < h.length
  cover : ∀ x, x < h.length → x ∈ LA ∨ x ∈ LB
  headA : isInt h A = false
  headB : isInt h B = false
  closed : Closed h

/-- The measure of the inner loop of `FindIntersections`: `2` for every cell of
`l` that is not an intersection node, `1` for every cell that is one. -/
def weight (h : NodeHeap) (l : List Nat) : Nat :=
  (l.map fun c => if isInt h c then 1 else 2).sum

/-- A walk of `TraceResult` on a heap whose rings are `LA` and `LB`: no node is
pushed twice, every node pushed is a node of one of the rings, and the number
of nodes pushed is at most the number of nodes of the two rings. -/
def WalkOK (LA LB : List Nat) (w : List (Nat × Point)) : Prop :=
  (w.map Prod.fst).Nodup ∧ (∀ x, x ∈ w.map Prod.fst → x ∈ LA ∨ x ∈ LB) ∧
    w.length ≤ LA.length + LB.length

end PolygonUtilityExtension

end GeometryCore

namespace GeometryCore

/-- Example: the unit square, as a point list. -/
def crossingA : List Point := [⟨0, 0⟩, ⟨1, 0⟩, ⟨1, 1⟩, ⟨0, 1⟩]

/-- Example: the square with corners `(1/2,1/2)` and `(3/2,3/2)`, which crosses
the unit square. -/
def crossingB : List Point := [⟨1 / 2, 1 / 2⟩, ⟨3 / 2, 1 / 2⟩, ⟨3 / 2, 3 / 2⟩, ⟨1 / 2, 3 / 2⟩]

end GeometryCore

/-! ### Further example inputs and run states of the Greiner-Hormann engine -/

namespace GeometryCore

/-- Example: a triangle whose tip `(2,1)` pokes through the bottom edge of
`square4`, listed from its tip. -/
def spikeFromTip : List Point := [⟨2, 1⟩, ⟨1, -1⟩, ⟨3, -1⟩]

/-- Example: the triangle of `spikeFromTip`, listed from its vertex `(1,-1)`. -/
def spikeFromBase : List Point := [⟨1, -1⟩, ⟨3, -1⟩, ⟨2, 1⟩]

/-- Example: the square `[0,4] x [0,4]`, as a point list. -/
def square4 : List Point := [⟨0, 0⟩, ⟨4, 0⟩, ⟨4, 4⟩, ⟨0, 4⟩]

namespace PolygonUtilityExtension

/-- The state of `Compute` after its call of `FindIntersections`: the heap and
the two ring heads. -/
def ComputeCrossed (fuel : Nat) (Apts Bpts : List Point) :
    Option (NodeHeap × Option Nat × Option Nat) :=
  (BuildPolygon [] (EnsureCCW Apts)).bind fun ra =>
  (BuildPolygon ra.1 (EnsureCCW Bpts)).bind fun rb =>
  (FindIntersections fuel rb.1 ra.2 rb.2).bind fun h1 =>
  some (h1, ra.2, rb.2)

/-- The point stored in cell `a`; the origin when there is no such cell. -/
def nodePoint (h : NodeHeap) (a : Nat) : Point :=
  match h[a]? with
  | some v => v.p
  | none => ⟨0, 0⟩

/-- The `alpha` stored in cell `a`; `0` when there is no such cell. -/
def nodeAlpha (h : NodeHeap) (a : Nat) : ℚ :=
  match h[a]? with
  | some v => v.alpha
  | none => 0

/-- The flag `entry` of cell `a`; `false` when there is no such cell. -/
def nodeEntry (h : NodeHeap) (a : Nat) : Bool :=
  match h[a]? with
  | some v => v.entry
  | none => false

/-- The cells met by following `next` from cell `c`, up to `fuel` of them,
stopping before `start` comes up again. -/
def ringCells (h : NodeHeap) (start : Nat) : Nat → Nat → List Nat
  | 0, _ => []
  | fuel + 1, c =>
    c :: (match nodeNext h c with
      | some n => if n = start then [] else ringCells h start fuel n
      | none => [])

/-- Example: the heap of `Compute(spikeFromTip, square4, op)` after
`FindIntersections`. -/
def spikeTipCrossed : NodeHeap :=
  ((ComputeCrossed 5 spikeFromTip square4).map Prod.fst).getD []

/-- Example: the heap of `Compute(spikeFromBase, square4, op)` after
`FindIntersections`. -/
def spikeBaseCrossed : NodeHeap :=
  ((ComputeCrossed 5 spikeFromBase square4).map Prod.fst).getD []

end PolygonUtilityExtension

end GeometryCore

/-! ### The divisors of the three segment intersection routines -/

namespace PolygonBoolean

namespace Polygon

/-- The divisors of the divisions that a call of
`Polygon::lineSegmentIntersection` performs, in order: none when it returns at
the test `isZero(rxs)`, else `rxs` for `t1` and `rxs` for `t2`. -/
def lineSegmentIntersectionDivisors (p1 p2 q1 q2 : Point) : List ℚ :=
  let r := p2.sub p1
  let s := q2.sub q1
  let rxs := r.cross s
  if isZero rxs then [] else [rxs, rxs]

end Polygon

end PolygonBoolean

namespace GeometryCore

namespace Polygonutility

/-- The divisors of the divisions that a call of
`Polygonutility::SegmentIntersect` performs, in order: none when it returns at
the test `fabs(det) < 1e-9`, else `det` for `ip.x` and `det` for `ip.y`. -/
def SegmentIntersectDivisors (p1 p2 q1 q2 : Point) : List ℚ :=
  let A1 := p2.y - p1.y
  let B1 := p1.x - p2.x
  let A2 := q2.y - q1.y
  let B2 := q1.x - q2.x
  let det := A1 * B2 - A2 * B1
  if |det| < eps9 then [] else [det, det]

end Polygonutility

namespace PolygonUtilityExtension

/-- The divisors of the divisions that a call of
`PolygonUtilityExtension::SegmentIntersect` performs, in order: none when it
returns at the test `fabs(det) < EPS`, else `det` for `aP` and `det` for
`aQ`. -/
def SegmentIntersectDivisors (p1 p2 q1 q2 : Point) : List ℚ :=
  let rdx := p2.x - p1.x
  let rdy := p2.y - p1.y
  let sdx := q2.x - q1.x
  let sdy := q2.y - q1.y
  let det := rdx * sdy - rdy * sdx
  if |det| < eps9 then [] else [det, det]

end PolygonUtilityExtension

end GeometryCore

/-! ### The marking rule of `MarkEntryExit` -/

namespace GeometryCore

namespace PolygonUtilityExtension

/-- The flag `entry` that belongs to an intersection node met with the running
state `inside`: `!inside` for a union, `inside` for an intersection, and for a
difference `!inside` on ring `A` and `inside` on ring `B`. -/
def entryRule (op : GHOp) (isA inside : Bool) : Bool :=
  match op with
  | GHOp.Union => !inside
  | GHOp.Intersection => inside
  | GHOp.DifferenceAB => if isA then !inside else inside
  | GHOp.DifferenceBA => if isA then !inside else inside

/-- The node `v` with its flag `entry` set to `e` and nothing else changed. -/
def setEntry (v : Node) (e : Bool) : Node := { v with entry := e }

/-- The running state after the cells `l` have been passed from the state
`inside`: it is toggled once for every cell with the flag `fl`. -/
def insideAfter (fl : Nat → Bool) (inside : Bool) (l : List Nat) : Bool :=
  l.foldl (fun s x => if fl x then !s else s) inside

/-- The heap and the running state after the marking loop has passed the cells
`l`: a cell with the flag `fl` gets `entry := rule s` and toggles the state. -/
def markCells (fl : Nat → Bool) (rule : Bool → Bool) :
    List Nat → NodeHeap → Bool → NodeHeap × Bool
  | [], g, s => (g, s)
  | c :: t, g, s =>
    if fl c then markCells fl rule t (upd g c fun w => { w with entry := rule s }) (!s)
    else markCells fl rule t g s

/-- Example: the heap of `Compute(crossingA, crossingB, op)` after
`FindIntersections`. -/
def crossingCrossed : NodeHeap :=
  ((ComputeCrossed 6 crossingA crossingB).map Prod.fst).getD []

end PolygonUtilityExtension

end GeometryCore

/-! ### Invariants of the rings during `FindIntersections` -/

namespace GeometryCore

namespace PolygonUtilityExtension

/-- The pointers `next` and `prev` are inverse to each other: `x->next == y`
exactly when `y->prev == x`. -/
def MutualLinks (h : NodeHeap) : Prop :=
  (∀ x y, nodeNext h x = some y → nodePrev h y = some x) ∧
    (∀ x y, nodePrev h y = some x → nodeNext h x = some y)

/-- An intersection node whose `next` is an intersection node has an `alpha`
that is not greater than the one of its `next`. -/
def AlphaOrdered (h : NodeHeap) : Prop :=
  ∀ x y, nodeNext h x = some y → isInt h x = true → isInt h y = true →
    nodeAlpha h x ≤ nodeAlpha h y

/-- The ring a cell was allocated for, when ring `A` has `nA` points and both
rings together have `n0`: `true` for ring `A`. The cells from `n0` on are
allocated in pairs, the first of a pair for ring `A`. -/
def ringSide (nA n0 x : Nat) : Bool := decide (x < nA ∨ (n0 ≤ x ∧ (x - n0) % 2 = 0))

/-- The invariant of the loops of `FindIntersections`. -/
structure CrossInv (nA n0 : Nat) (h : NodeHeap) : Prop where
  nA_le : nA ≤ n0
  len_ge : n0 ≤ h.length
  len_even : (h.length - n0) % 2 = 0
  next_lt : ∀ x y, nodeNext h x = some y → y < h.length
  next_side : ∀ x y, nodeNext h x = some y → ringSide nA n0 y = ringSide nA n0 x
  links : MutualLinks h
  ordered : AlphaOrdered h
  nbr : ∀ x, isInt h x = true → ∃ y, nodeNeighbor h x = some y ∧ nodeNeighbor h y = some x ∧
    nodePoint h y = nodePoint h x ∧ isInt h y = true ∧ ringSide nA n0 y ≠ ringSide nA n0 x
  orig : ∀ x, isInt h x = false → nodeNeighbor h x = none

/-- Example: the heap of `Compute(crossingA, crossingB, op)` after the two
calls of `BuildPolygon`. -/
def crossingBuilt : NodeHeap :=
  ((BuildPolygon [] crossingA).bind fun ra => (BuildPolygon ra.1 crossingB).map Prod.fst).getD []

/-- Example: `crossingBuilt` with one new intersection node, not linked yet,
for the crossing `(1, 1/2)` of the edge from cell `1` to cell `2`. -/
def crossingAllocated : NodeHeap :=
  (alloc crossingBuilt { p := ⟨1, 1 / 2⟩, isIntersection := true, alpha := 1 / 2 }).1

end PolygonUtilityExtension

end GeometryCore

/-! ### The divisions of `PointInsidePolygon` -/

namespace GeometryCore

namespace PolygonUtilityExtension

/-- One iteration of the loop of `PointInsidePolygon`, recording the divisor of
the division it evaluates: the right operand of `&&` is evaluated only when
the left one is true. -/
def PointInsidePolygonDivisorsStep (poly : List Point) (p : Point) (st : List ℚ × Nat)
    (i : Nat) : List ℚ × Nat :=
  let a := vget poly i
  let b := vget poly st.2
  if decide (a.y > p.y) != decide (b.y > p.y) then (st.1 ++ [b.y - a.y], i)
  else (st.1, i)

/-- The divisors of all divisions that a call `PointInsidePolygon(poly, p)`
evaluates, in the order of the loop. -/
def PointInsidePolygonDivisors (poly : List Point) (p : Point) : List ℚ :=
  if poly = [] then []
  else ((List.range poly.length).foldl (PointInsidePolygonDivisorsStep poly p)
    ([], poly.length - 1)).1

end PolygonUtilityExtension

end GeometryCore

/-! ### The end of a walk of `TraceResult` -/

namespace GeometryCore

/-- Example: a triangle whose edge from `(2,2)` to `(-2,-2)` leaves `square4`
through its corner `(0,0)` and whose edge from `(2,-2)` to `(2,2)` crosses the
bottom edge of `square4` at `(2,0)`. -/
def cornerCutter : List Point := [⟨2, 2⟩, ⟨-2, -2⟩, ⟨2, -2⟩]

namespace PolygonUtilityExtension

/-- The loop of `TraceResult`, returning next to the heap and `result` the
values that the locals `cur` and `forward` hold when the loop ends. -/
def TraceResultLoopEnd (start : Option Nat) (op : GHOp) :
    Nat → NodeHeap → Option Nat → Bool → Bool → List (Nat × Point) →
      Option (NodeHeap × List (Nat × Point) × Option Nat × Bool)
  | 0, _, _, _, _, _ => none
  | _ + 1, h, none, _, forward, result => some (h, result, none, forward)
  | fuel + 1, h, some c, onPolyA, forward, result =>
    (load h (some c)).bind fun v =>
    if v.visited then some (h, result, some c, forward)
    else
      (store h (some c) fun w => { w with visited := true }).bind fun h1 =>
      (load h1 (some c)).bind fun v1 =>
      (if v1.neighbor ≠ none then store h1 v1.neighbor fun w => { w with visited := true }
       else some h1).bind fun h2 =>
      (load h2 (some c)).bind fun v2 =>
      let result1 := result ++ [(c, v2.p)]
      let cur1 := if v2.isIntersection then v2.neighbor else some c
      let onPolyA1 := if v2.isIntersection then !onPolyA else onPolyA
      let forward1 :=
        if v2.isIntersection then
          (if op = GHOp.Intersection ∨ op = GHOp.Union then true else onPolyA1)
        else forward
      (load h2 cur1).bind fun w =>
      let cur2 := if forward1 then w.next else w.prev
      if cur2 = start then some (h2, result1, cur2, forward1)
      else TraceResultLoopEnd start op fuel h2 cur2 onPolyA1 forward1 result1

/-- The method `TraceResult`, with the values of `cur` and `forward` at the
end of its loop. -/
def TraceResultEnd (fuel : Nat) (h : NodeHeap) (start : Option Nat) (op : GHOp)
    (startOnA : Bool) : Option (NodeHeap × List (Nat × Point) × Option Nat × Bool) :=
  TraceResultLoopEnd start op fuel h start startOnA true []

/-- The node that a walk of `TraceResult` goes to from the node `l`: from `l`
itself, or from its neighbor if `l` is an intersection node, along `next` if
`forward` and along `prev` if not. -/
def walkSucc (h : NodeHeap) (forward : Bool) (l : Nat) : Option Nat :=
  (if isInt h l then nodeNeighbor h l else some l).bind fun m =>
    if forward then nodeNext h m else nodePrev h m

/-- The heap of `Compute` when its traversal loop starts: after
`FindIntersections`, the two calls of `MarkEntryExit` and the two calls of
`ResetVisited`. -/
def ComputeMarked (fuel : Nat) (Apts Bpts : List Point) (operation : GHOp) :
    Option NodeHeap :=
  let A_fixed := EnsureCCW Apts
  let B_fixed := EnsureCCW Bpts
  (BuildPolygon [] A_fixed).bind fun ra =>
  (BuildPolygon ra.1 B_fixed).bind fun rb =>
  (FindIntersections fuel rb.1 ra.2 rb.2).bind fun h1 =>
  (MarkEntryExit fuel h1 ra.2 B_fixed operation true).bind fun h2 =>
  (MarkEntryExit fuel h2 rb.2 A_fixed operation false).bind fun h3 =>
  (ResetVisited fuel h3 ra.2).bind fun h4 =>
  ResetVisited fuel h4 rb.2

/-- Example: the heap of `Compute(cornerCutter, square4, Intersection)` when
the traversal loop starts. -/
def cornerMarked : NodeHeap :=
  (ComputeMarked 10 cornerCutter square4 GHOp.Intersection).getD []

/-- Example: the heap of `Compute(crossingA, crossingB, Intersection)` when
the traversal loop starts. -/
def crossingMarked : NodeHeap :=
  (ComputeMarked 10 crossingA crossingB GHOp.Intersection).getD []

end PolygonUtilityExtension

end GeometryCore

/-! ### `EnsureCCW` with rounded arithmetic -/

namespace GeometryCore

namespace PolygonUtilityExtension

/-- The signed area sum of `EnsureCCW`, with the result of every `+`, `-`, `*`
passed through the rounding function `fl`. -/
def EnsureCCWAreaF (fl : ℚ → ℚ) (pts : List Point) : ℚ :=
  (List.range pts.length).foldl
    (fun area i =>
      fl (area + fl (fl ((vget pts i).x * (vget pts ((i + 1) % pts.length)).y) -
        fl ((vget pts ((i + 1) % pts.length)).x * (vget pts i).y)))) 0

/-- The method `EnsureCCW` with rounding: the value of `pts` after the call. -/
def EnsureCCWF (fl : ℚ → ℚ) (pts : List Point) : List Point :=
  if pts.length < 3 then pts
  else if EnsureCCWAreaF fl pts < 0 then pts.reverse else pts

end PolygonUtilityExtension

/-- Example: a quadrilateral whose vertices are nearly on one line, as the
program holds it (every coordinate rounded to binary64). -/
def nearLineQuad : List Point :=
  toDoubles [⟨98355 / 10, -(43268 / 10)⟩, ⟨92669 / 10, -(21652 / 10)⟩,
    ⟨75611 / 10, 43196 / 10⟩, ⟨81297 / 10, 2158⟩]

end GeometryCore

/-! ## Theorems -/

/-! ### GeometryCore: ray casting, overlap test and the dispatcher -/

section GeometryCoreTheorems

open GeometryCore GeometryCore.Polygonutility GeometryCore.BooleanOps

/-- C6. `PointInPolygon(p, poly)` is true exactly when `p` is in the outer ring
and in none of the hole rings. -/
theorem C6_pointInPolygon_iff (p : Point) (poly : Polygon) :
    Polygonutility.PointInPolygon p poly = true ↔
      (Polygonutility.PointInRing p poly.outer = true ∧
        ∀ h ∈ poly.holes, Polygonutility.PointInRing p h = false) := by
  have hholes : ∀ hs : List Ring, Polygonutility.PointInPolygonHoles p hs = true ↔
      ∀ h ∈ hs, Polygonutility.PointInRing p h = false := by
    intro hs
    induction hs with
    | nil => simp [Polygonutility.PointInPolygonHoles]
    | cons r rest ih =>
      by_cases hr : Polygonutility.PointInRing p r = true
      · simp [Polygonutility.PointInPolygonHoles, hr]
      · simp [Polygonutility.PointInPolygonHoles, hr, ih]
  unfold Polygonutility.PointInPolygon
  by_cases ho : Polygonutility.PointInRing p poly.outer = true
  · simp [ho, hholes]
  · simp [ho]

theorem foldl_range_inv {σ : Type} (step : σ → Nat → σ) (init : σ) (n : Nat)
    (Inv : Nat → σ → Prop) (h0 : Inv 0 init)
    (hstep : ∀ k s, k < n → Inv k s → Inv (k + 1) (step s k)) :
    Inv n ((List.range n).foldl step init) := by
  suffices h : ∀ k, k ≤ n → Inv k ((List.range k).foldl step init) from h n le_rfl
  intro k
  induction k with
  | zero => intro _; simpa using h0
  | succ k ih =>
    intro hk
    rw [List.range_succ, List.foldl_append]
    simpa using hstep k _ (by omega) (ih (by omega))

theorem vget_mem {v : List Point} {i : Nat} (h : i < v.length) : vget v i ∈ v := by
  unfold vget
  rw [List.getD_eq_getElem _ _ h]
  exact List.getElem_mem h

/-- the abscissa computed by the ray casting loop lies between the abscissae of the edge -/
theorem crossing_x_bounds (a b p : Point)
    (hs : (decide (a.y > p.y) != decide (b.y > p.y)) = true) :
    min a.x b.x ≤ (b.x - a.x) * (p.y - a.y) / (b.y - a.y) + a.x ∧
      (b.x - a.x) * (p.y - a.y) / (b.y - a.y) + a.x ≤ max a.x b.x := by
  have key : ∃ t : ℚ, 0 ≤ t ∧ t ≤ 1 ∧ (p.y - a.y) / (b.y - a.y) = t := by
    refine ⟨_, ?_, ?_, rfl⟩
    · by_cases h1 : a.y > p.y
      · have h2 : ¬ b.y > p.y := by intro h2; simp [h1, h2] at hs
        exact div_nonneg_of_nonpos (by linarith) (by linarith)
      · have h2 : b.y > p.y := by by_contra h2; simp [h1, h2] at hs
        exact div_nonneg (by linarith) (by linarith)
    · by_cases h1 : a.y > p.y
      · have h2 : ¬ b.y > p.y := by intro h2; simp [h1, h2] at hs
        rw [div_le_one_of_neg (by linarith)]; linarith
      · have h2 : b.y > p.y := by by_contra h2; simp [h1, h2] at hs
        rw [div_le_one (by linarith)]; linarith
  obtain ⟨t, ht0, ht1, ht⟩ := key
  rw [mul_div_assoc, ht]
  rcases le_total a.x b.x with hab | hab
  · rw [min_eq_left hab, max_eq_right hab]
    constructor <;> nlinarith
  · rw [min_eq_right hab, max_eq_left hab]
    constructor <;> nlinarith

theorem PointInRingStep_snd (p : Point) (v : List Point) (st : Bool × Nat) (i : Nat) :
    (PointInRingStep p v st i).2 = i := by
  unfold PointInRingStep
  dsimp only
  split_ifs <;> rfl

theorem PointInRingStep_fst (p : Point) (v : List Point) (st : Bool × Nat) (i : Nat) :
    (PointInRingStep p v st i).1 =
      if (decide ((vget v i).y > p.y) != decide ((vget v st.2).y > p.y)) = true ∧
          p.x < ((vget v st.2).x - (vget v i).x) * (p.y - (vget v i).y) /
            ((vget v st.2).y - (vget v i).y) + (vget v i).x
      then !st.1 else st.1 := by
  unfold PointInRingStep
  dsimp only
  by_cases hs : (decide ((vget v i).y > p.y) != decide ((vget v st.2).y > p.y)) = true
  · by_cases hlt : p.x < ((vget v st.2).x - (vget v i).x) * (p.y - (vget v i).y) /
        ((vget v st.2).y - (vget v i).y) + (vget v i).x
    · rw [if_pos hs, if_pos hlt, if_pos ⟨hs, hlt⟩]
    · rw [if_pos hs, if_neg hlt, if_neg (fun hc => hlt hc.2)]
  · rw [if_neg hs, if_neg (fun hc => hs hc.1)]

theorem xor_chain (sa sb sl st1 : Bool) (h1 : st1 = (sb != sl)) :
    (if (sa != sb) = true then !st1 else st1) = (sa != sl) := by
  subst h1
  cases sa <;> cases sb <;> cases sl <;> rfl

/-- a ring none of whose edges lets the state toggle leaves the point outside -/
theorem PointInRing_false_of_no_toggle (p : Point) (r : Ring)
    (h : ∀ a ∈ r.vertices, ∀ b ∈ r.vertices,
      (decide (a.y > p.y) != decide (b.y > p.y)) = true →
        ¬ p.x < (b.x - a.x) * (p.y - a.y) / (b.y - a.y) + a.x) :
    PointInRing p r = false := by
  unfold PointInRing
  have inv := foldl_range_inv (PointInRingStep p r.vertices) (false, r.vertices.length - 1)
    r.vertices.length (fun _ st => st.1 = false ∧ (0 < r.vertices.length → st.2 < r.vertices.length))
    ⟨rfl, fun hn => by simp; omega⟩
    (by
      intro k st hk ⟨h1, h2⟩
      have ha := vget_mem hk
      have hb := vget_mem (h2 (by omega))
      rw [PointInRingStep_snd, PointInRingStep_fst]
      refine ⟨?_, fun _ => hk⟩
      rw [if_neg, h1]
      rintro ⟨hs, hlt⟩
      exact h _ ha _ hb hs hlt)
  exact inv.1

theorem PointInRing_false_of_below (p : Point) (r : Ring)
    (h : ∀ q ∈ r.vertices, p.y < q.y) : PointInRing p r = false := by
  apply PointInRing_false_of_no_toggle
  intro a ha b hb hs
  have h1 := h a ha
  have h2 := h b hb
  simp [h1, h2] at hs

theorem PointInRing_false_of_above (p : Point) (r : Ring)
    (h : ∀ q ∈ r.vertices, q.y < p.y) : PointInRing p r = false := by
  apply PointInRing_false_of_no_toggle
  intro a ha b hb hs
  have h1 := h a ha
  have h2 := h b hb
  simp [not_lt.mpr h1.le, not_lt.mpr h2.le] at hs

theorem PointInRing_false_of_right (p : Point) (r : Ring)
    (h : ∀ q ∈ r.vertices, q.x < p.x) : PointInRing p r = false := by
  apply PointInRing_false_of_no_toggle
  intro a ha b hb hs
  have h1 := h a ha
  have h2 := h b hb
  have hb := (crossing_x_bounds a b p hs).2
  have : max a.x b.x < p.x := max_lt h1 h2
  linarith

theorem PointInRing_false_of_left (p : Point) (r : Ring)
    (h : ∀ q ∈ r.vertices, p.x < q.x) : PointInRing p r = false := by
  unfold PointInRing
  have inv := foldl_range_inv (PointInRingStep p r.vertices) (false, r.vertices.length - 1)
    r.vertices.length
    (fun k st => st.1 = (decide ((vget r.vertices st.2).y > p.y)
        != decide ((vget r.vertices (r.vertices.length - 1)).y > p.y)) ∧
      (0 < r.vertices.length → st.2 < r.vertices.length) ∧ (0 < k → st.2 = k - 1))
    ⟨by simp, fun hn => by simp; omega, fun h0 => absurd h0 (lt_irrefl 0)⟩
    (by
      intro k st hk ⟨h1, h2, _⟩
      have ha := vget_mem hk
      have hb := vget_mem (h2 (by omega))
      rw [PointInRingStep_snd, PointInRingStep_fst]
      refine ⟨?_, fun _ => hk, fun _ => by simp⟩
      rw [← xor_chain _ _ _ _ h1]
      apply if_congr _ rfl rfl
      constructor
      · exact fun hc => hc.1
      · intro hs
        exact ⟨hs, lt_of_lt_of_le (lt_min (h _ ha) (h _ hb)) (crossing_x_bounds _ _ p hs).1⟩)
  obtain ⟨h1, _, h3⟩ := inv
  rcases Nat.eq_zero_or_pos r.vertices.length with h0 | hpos
  · rw [h0]; rfl
  · rw [h1, h3 hpos]; simp

theorem eps9_pos : (0 : ℚ) < eps9 := by unfold eps9; norm_num

theorem BoxesApart_symm {m : ℚ} {a b : List Point} (h : BoxesApart m a b) :
    BoxesApart m b a := by
  rcases h with h | h | h | h
  · exact Or.inr (Or.inl fun p hp q hq => h q hq p hp)
  · exact Or.inl fun p hp q hq => h q hq p hp
  · exact Or.inr (Or.inr (Or.inr fun p hp q hq => h q hq p hp))
  · exact Or.inr (Or.inr (Or.inl fun p hp q hq => h q hq p hp))

theorem PointInRing_false_of_apart {m : ℚ} (hm : 0 ≤ m) {a : List Point} {r : Ring}
    (h : BoxesApart m a r.vertices) {p : Point} (hp : p ∈ a) : PointInRing p r = false := by
  rcases h with h | h | h | h
  · exact PointInRing_false_of_left p r fun q hq => by have := h p hp q hq; linarith
  · exact PointInRing_false_of_right p r fun q hq => by have := h p hp q hq; linarith
  · exact PointInRing_false_of_below p r fun q hq => by have := h p hp q hq; linarith
  · exact PointInRing_false_of_above p r fun q hq => by have := h p hp q hq; linarith

theorem PointInPolygon_false_of_apart {m : ℚ} (hm : 0 ≤ m) {a : List Point} {B : Polygon}
    (h : BoxesApart m a B.outer.vertices) {p : Point} (hp : p ∈ a) :
    PointInPolygon p B = false := by
  unfold PointInPolygon
  rw [PointInRing_false_of_apart hm h hp]
  rfl

theorem OnSegment_bounds {a b p : Point} (h : OnSegment a b p = true) :
    (min a.x b.x - eps9 ≤ p.x ∧ p.x ≤ max a.x b.x + eps9) ∧
      (min a.y b.y - eps9 ≤ p.y ∧ p.y ≤ max a.y b.y + eps9) := by
  unfold OnSegment at h
  simp only [Bool.and_eq_true, decide_eq_true_eq, ge_iff_le] at h
  exact ⟨⟨h.1.1.1, h.1.1.2⟩, h.1.2, h.2⟩

theorem SegmentIntersect_false_of_apart (p1 p2 q1 q2 ip : Point)
    (h : BoxesApart (2 * eps9) [p1, p2] [q1, q2]) :
    (SegmentIntersect p1 p2 q1 q2 ip).1 = false := by
  unfold SegmentIntersect
  dsimp only
  split_ifs with hdet
  · rfl
  · rw [← Bool.not_eq_true]
    intro hc
    simp only [Bool.and_eq_true] at hc
    obtain ⟨⟨⟨hp1, hp2⟩, hp3, hp4⟩, ⟨hq1, hq2⟩, hq3, hq4⟩ :=
      And.intro (OnSegment_bounds hc.1) (OnSegment_bounds hc.2)
    have e := eps9_pos
    rcases h with h | h | h | h
    · have h11 := h p1 (by simp) q1 (by simp)
      have h12 := h p1 (by simp) q2 (by simp)
      have h21 := h p2 (by simp) q1 (by simp)
      have h22 := h p2 (by simp) q2 (by simp)
      have := max_lt h11 h21
      rcases le_total p1.x p2.x with hh | hh <;> rcases le_total q1.x q2.x with hh2 | hh2 <;>
        simp only [hh, hh2, min_eq_left, min_eq_right, max_eq_left, max_eq_right] at hp1 hp2 hq1 hq2 <;>
        linarith
    · have h11 := h p1 (by simp) q1 (by simp)
      have h12 := h p1 (by simp) q2 (by simp)
      have h21 := h p2 (by simp) q1 (by simp)
      have h22 := h p2 (by simp) q2 (by simp)
      rcases le_total p1.x p2.x with hh | hh <;> rcases le_total q1.x q2.x with hh2 | hh2 <;>
        simp only [hh, hh2, min_eq_left, min_eq_right, max_eq_left, max_eq_right] at hp1 hp2 hq1 hq2 <;>
        linarith
    · have h11 := h p1 (by simp) q1 (by simp)
      have h12 := h p1 (by simp) q2 (by simp)
      have h21 := h p2 (by simp) q1 (by simp)
      have h22 := h p2 (by simp) q2 (by simp)
      rcases le_total p1.y p2.y with hh | hh <;> rcases le_total q1.y q2.y with hh2 | hh2 <;>
        simp only [hh, hh2, min_eq_left, min_eq_right, max_eq_left, max_eq_right] at hp3 hp4 hq3 hq4 <;>
        linarith
    · have h11 := h p1 (by simp) q1 (by simp)
      have h12 := h p1 (by simp) q2 (by simp)
      have h21 := h p2 (by simp) q1 (by simp)
      have h22 := h p2 (by simp) q2 (by simp)
      rcases le_total p1.y p2.y with hh | hh <;> rcases le_total q1.y q2.y with hh2 | hh2 <;>
        simp only [hh, hh2, min_eq_left, min_eq_right, max_eq_left, max_eq_right] at hp3 hp4 hq3 hq4 <;>
        linarith

theorem BoxesApart_mono {m : ℚ} {a a1 b b1 : List Point} (h : BoxesApart m a b)
    (ha : ∀ p ∈ a1, p ∈ a) (hb : ∀ q ∈ b1, q ∈ b) : BoxesApart m a1 b1 := by
  rcases h with h | h | h | h
  · exact Or.inl fun p hp q hq => h p (ha p hp) q (hb q hq)
  · exact Or.inr (Or.inl fun p hp q hq => h p (ha p hp) q (hb q hq))
  · exact Or.inr (Or.inr (Or.inl fun p hp q hq => h p (ha p hp) q (hb q hq)))
  · exact Or.inr (Or.inr (Or.inr fun p hp q hq => h p (ha p hp) q (hb q hq)))

theorem EdgesIntersect_false_of_apart (aV bV : List Point) (uninit : Point)
    (h : BoxesApart (2 * eps9) aV bV) : EdgesIntersect aV bV uninit = false := by
  unfold EdgesIntersect
  rw [List.any_eq_false]
  intro i hi
  rw [List.mem_range] at hi
  rw [Bool.not_eq_true, List.any_eq_false]
  intro j hj
  rw [List.mem_range] at hj
  rw [Bool.not_eq_true]
  apply SegmentIntersect_false_of_apart
  apply BoxesApart_mono h
  · intro p hp
    simp only [List.mem_cons, List.mem_singleton, List.not_mem_nil, or_false] at hp
    rcases hp with rfl | rfl
    · exact vget_mem hi
    · exact vget_mem (Nat.mod_lt _ (by omega))
  · intro p hp
    simp only [List.mem_cons, List.mem_singleton, List.not_mem_nil, or_false] at hp
    rcases hp with rfl | rfl
    · exact vget_mem hj
    · exact vget_mem (Nat.mod_lt _ (by omega))

theorem PolygonsOverlap_false_of_apart (A B : Polygon) (uninit : Point)
    (h : BoxesApart (2 * eps9) A.outer.vertices B.outer.vertices) :
    PolygonsOverlap A B uninit = false := by
  have hm : (0 : ℚ) ≤ 2 * eps9 := by have := eps9_pos; linarith
  unfold PolygonsOverlap
  have h1 : (A.outer.vertices.any fun p => PointInPolygon p B) = false := by
    rw [List.any_eq_false]
    intro p hp
    rw [PointInPolygon_false_of_apart hm h hp]
    simp
  have h2 : (B.outer.vertices.any fun p => PointInPolygon p A) = false := by
    rw [List.any_eq_false]
    intro p hp
    rw [PointInPolygon_false_of_apart hm (BoxesApart_symm h) hp]
    simp
  rw [h1, h2, EdgesIntersect_false_of_apart _ _ _ h]
  simp

/-- the bounding boxes of `unitSquare` and `liftedSquare` are disjoint (they
are `5e-10` apart along y), yet `ComputeBoolean` returns the empty list for
`AminusB`, not `[unitSquare]` -/
theorem liftedSquare_difference :
    BoxesApart 0 unitSquare.outer.vertices liftedSquare.outer.vertices ∧
      ComputeBoolean unitSquare liftedSquare BoolOp.AminusB ⟨0, 0⟩ = [] ∧
      ComputeBoolean unitSquare liftedSquare BoolOp.AminusB ⟨0, 0⟩ ≠ [unitSquare] :=
  ⟨Or.inr (Or.inr (Or.inl (by decide!))), by decide!, by decide!⟩

/-- over exact arithmetic: for polygons whose bounding boxes are more than
`2e-9` apart along the x axis or along the y axis, `ComputeBoolean` returns
`[A, B]` for `Union`, the empty list for `Intersection` and `[A]` for
`AminusB` -/
theorem disjoint_boxes_exact (A B : Polygon) (uninit : Point)
    (h : BoxesApart (2 * eps9) A.outer.vertices B.outer.vertices) :
    ComputeBoolean A B BoolOp.Union uninit = [A, B] ∧
      ComputeBoolean A B BoolOp.Intersection uninit = [] ∧
      ComputeBoolean A B BoolOp.AminusB uninit = [A] := by
  have ho := PolygonsOverlap_false_of_apart A B uninit h
  simp [ComputeBoolean, ho]

/-- C10, as stated, fails when `B` has no vertex: every vertex of `B` is inside
`A`, no edges cross and a vertex of `A` is outside `B`, yet `Union` returns
`[A, B]` and `Intersection` returns the empty list. -/
theorem C10_counterexample :
    (∀ v ∈ emptyPolygon.outer.vertices, PointInPolygon v unitSquare = true) ∧
      (∃ a ∈ unitSquare.outer.vertices, PointInPolygon a emptyPolygon = false) ∧
      EdgesIntersect unitSquare.outer.vertices emptyPolygon.outer.vertices ⟨0, 0⟩ = false ∧
      ComputeBoolean unitSquare emptyPolygon BoolOp.Union ⟨0, 0⟩ ≠ [unitSquare] ∧
      ComputeBoolean unitSquare emptyPolygon BoolOp.Intersection ⟨0, 0⟩ ≠ [emptyPolygon] := by
  decide!

/-- C10, amended. When `B` has at least one vertex, every vertex of `B` tests
inside `A` and some vertex of `A` does not test inside `B`, `ComputeBoolean`
returns `[A]` for `Union` and `[B]` for `Intersection` (whether or not edges
cross). -/
theorem C10_containment (A B : Polygon) (uninit : Point)
    (hB : B.outer.vertices ≠ [])
    (hin : ∀ v ∈ B.outer.vertices, PointInPolygon v A = true)
    (hout : ∃ a ∈ A.outer.vertices, PointInPolygon a B = false) :
    ComputeBoolean A B BoolOp.Union uninit = [A] ∧
      ComputeBoolean A B BoolOp.Intersection uninit = [B] := by
  have hov : PolygonsOverlap A B uninit = true := by
    unfold PolygonsOverlap
    have : (B.outer.vertices.any fun p => PointInPolygon p A) = true := by
      rw [List.any_eq_true]
      obtain ⟨v, hv⟩ := List.exists_mem_of_ne_nil _ hB
      exact ⟨v, hv, hin v hv⟩
    rw [this]
    simp
  have hAB : AllInside A B = false := by
    unfold AllInside
    rw [List.all_eq_false]
    obtain ⟨a, ha, hf⟩ := hout
    exact ⟨a, ha, by simp [hf]⟩
  have hBA : AllInside B A = true := by
    unfold AllInside
    rw [List.all_eq_true]
    exact hin
  simp [ComputeBoolean, hov, hAB, hBA]

theorem C10_containment_witness :
    ComputeBoolean bigSquare innerSquare BoolOp.Union ⟨0, 0⟩ = [bigSquare] ∧
      ComputeBoolean bigSquare innerSquare BoolOp.Intersection ⟨0, 0⟩ = [innerSquare] :=
  C10_containment bigSquare innerSquare ⟨0, 0⟩ (List.cons_ne_nil _ _) (by decide!)
    ⟨⟨0, 0⟩, by decide!, by decide!⟩

end GeometryCoreTheorems

/-! ### GeometryCore: the clippers and the dispatcher on overlapping polygons -/

section ClipperTheorems

open GeometryCore GeometryCore.Polygonutility GeometryCore.BooleanOps

set_option maxRecDepth 100000

/-! #### The uninitialised intersection point -/

theorem SegmentIntersect_fst_indep (p1 p2 q1 q2 u v : Point) :
    (SegmentIntersect p1 p2 q1 q2 u).1 = (SegmentIntersect p1 p2 q1 q2 v).1 := by
  unfold SegmentIntersect
  simp only
  split_ifs <;> rfl

theorem SegmentIntersect_snd_indep {p1 p2 q1 q2 : Point} (h : DetAssigned p1 p2 q1 q2 = true)
    (u v : Point) :
    (SegmentIntersect p1 p2 q1 q2 u).2 = (SegmentIntersect p1 p2 q1 q2 v).2 := by
  unfold DetAssigned at h
  have h1 := of_decide_eq_true h
  unfold SegmentIntersect
  simp only
  rw [if_neg h1, if_neg h1]

theorem EdgesIntersect_indep (aV bV : List Point) (u v : Point) :
    EdgesIntersect aV bV u = EdgesIntersect aV bV v := by
  unfold EdgesIntersect
  simp only [SegmentIntersect_fst_indep _ _ _ _ u v]

theorem PolygonsOverlap_indep (A B : Polygon) (u v : Point) :
    PolygonsOverlap A B u = PolygonsOverlap A B v := by
  unfold PolygonsOverlap
  rw [EdgesIntersect_indep _ _ u v]

theorem ClipStep_fst (A B : Point) (c : Bool) (u : Point) (st : Point × List Point) (E : Point) :
    (ClipStep A B c u st E).1 = E := by
  unfold ClipStep
  simp only
  split_ifs <;> rfl

theorem ClipOutsideStep_fst (A B : Point) (c : Bool) (u : Point) (st : Point × List Point)
    (E : Point) : (ClipOutsideStep A B c u st E).1 = E := by
  unfold ClipOutsideStep
  simp only
  split_ifs <;> rfl

theorem ClipStep_indep {A B : Point} {c : Bool} {S E : Point}
    (h : ((Inside E A B c == Inside S A B c) || DetAssigned S E A B) = true)
    (u v : Point) (out : List Point) :
    ClipStep A B c u (S, out) E = ClipStep A B c v (S, out) E := by
  unfold ClipStep
  simp only
  rcases Bool.or_eq_true _ _ |>.mp h with h1 | h1
  · have h2 : Inside E A B c = Inside S A B c := by simpa using h1
    rw [h2]
    cases Inside S A B c <;> simp
  · rw [SegmentIntersect_snd_indep h1 u v]

theorem ClipOutsideStep_indep {A B : Point} {c : Bool} {S E : Point}
    (h : ((Inside E A B c == Inside S A B c) || DetAssigned S E A B) = true)
    (u v : Point) (out : List Point) :
    ClipOutsideStep A B c u (S, out) E = ClipOutsideStep A B c v (S, out) E := by
  unfold ClipOutsideStep
  simp only
  rcases Bool.or_eq_true _ _ |>.mp h with h1 | h1
  · have h2 : Inside E A B c = Inside S A B c := by simpa using h1
    rw [h2]
    cases Inside S A B c <;> simp
  · rw [SegmentIntersect_snd_indep h1 u v]

theorem ClipPass_indep (A B : Point) (c : Bool) (u v : Point) :
    ∀ (input : List Point) (S : Point) (out : List Point),
      PassAssigned A B c S input = true →
      input.foldl (ClipStep A B c u) (S, out) = input.foldl (ClipStep A B c v) (S, out) := by
  intro input
  induction input with
  | nil => intro S out _; rfl
  | cons E rest ih =>
    intro S out h
    unfold PassAssigned at h
    rw [Bool.and_eq_true] at h
    rw [List.foldl_cons, List.foldl_cons, ClipStep_indep h.1 u v]
    have e : ClipStep A B c v (S, out) E = (E, (ClipStep A B c v (S, out) E).2) := by
      exact Prod.ext (ClipStep_fst A B c v (S, out) E) rfl
    rw [e]
    exact ih E _ h.2

theorem ClipOutsidePass_indep (A B : Point) (c : Bool) (u v : Point) :
    ∀ (input : List Point) (S : Point) (out : List Point),
      PassAssigned A B c S input = true →
      input.foldl (ClipOutsideStep A B c u) (S, out) =
        input.foldl (ClipOutsideStep A B c v) (S, out) := by
  intro input
  induction input with
  | nil => intro S out _; rfl
  | cons E rest ih =>
    intro S out h
    unfold PassAssigned at h
    rw [Bool.and_eq_true] at h
    rw [List.foldl_cons, List.foldl_cons, ClipOutsideStep_indep h.1 u v]
    have e : ClipOutsideStep A B c v (S, out) E =
        (E, (ClipOutsideStep A B c v (S, out) E).2) := by
      exact Prod.ext (ClipOutsideStep_fst A B c v (S, out) E) rfl
    rw [e]
    exact ih E _ h.2

theorem getLastD_indep {l : List Point} (hl : l ≠ []) (u v : Point) :
    l.getLastD u = l.getLastD v := by
  cases l with
  | nil => exact absurd rfl hl
  | cons a t => rfl

theorem ClipLoop_indep (clip : List Point) (c : Bool) (u : Point) :
    ∀ (is : List Nat) (output : List Point), ClipLoopAssigned clip c is output = true →
      ClipLoop clip c u is output = ClipLoop clip c ⟨0, 0⟩ is output := by
  intro is
  induction is with
  | nil => intro output _; rfl
  | cons i rest ih =>
    intro output h
    unfold ClipLoopAssigned at h
    unfold ClipLoop
    simp only
    by_cases ho : output = []
    · rw [if_pos ho, if_pos ho]
    · rw [if_neg ho] at h
      rw [Bool.and_eq_true] at h
      rw [if_neg ho, if_neg ho, getLastD_indep ho u ⟨0, 0⟩, ClipPass_indep _ _ c u ⟨0, 0⟩ _ _ _ h.1]
      exact ih _ h.2

theorem ClipOutsideLoop_indep (clip : List Point) (c : Bool) (u : Point) :
    ∀ (is : List Nat) (output : List Point), ClipOutsideLoopAssigned clip c is output = true →
      ClipOutsideLoop clip c u is output = ClipOutsideLoop clip c ⟨0, 0⟩ is output := by
  intro is
  induction is with
  | nil => intro output _; rfl
  | cons i rest ih =>
    intro output h
    unfold ClipOutsideLoopAssigned at h
    unfold ClipOutsideLoop
    simp only
    by_cases ho : output = []
    · rw [if_pos ho, if_pos ho]
    · rw [if_neg ho] at h
      rw [Bool.and_eq_true] at h
      rw [if_neg ho, if_neg ho, getLastD_indep ho u ⟨0, 0⟩,
        ClipOutsidePass_indep _ _ c u ⟨0, 0⟩ _ _ _ h.1]
      exact ih _ h.2

/-- When the run of `ClipPolygon` reads no uninitialised `ip`, its result does
not depend on the indeterminate value. -/
theorem ClipPolygon_indep {subject clip : List Point} (h : ClipAssigned subject clip = true)
    (u : Point) : ClipPolygon subject clip u = ClipPolygon subject clip ⟨0, 0⟩ :=
  ClipLoop_indep clip _ u _ _ h

/-- When the run of `ClipPolygonOutside` reads no uninitialised `ip`, its
result does not depend on the indeterminate value. -/
theorem ClipPolygonOutside_indep {subject clip : List Point}
    (h : ClipOutsideAssigned subject clip = true) (u : Point) :
    ClipPolygonOutside subject clip u = ClipPolygonOutside subject clip ⟨0, 0⟩ :=
  ClipOutsideLoop_indep clip _ u _ _ h

/-- The intersection branch of `ComputeBoolean` does not depend on the
indeterminate value when the clipper reads no uninitialised `ip`. -/
theorem ComputeBoolean_intersection_indep {A B : Polygon}
    (h : ClipAssigned A.outer.vertices B.outer.vertices = true) (u : Point) :
    ComputeBoolean A B BoolOp.Intersection u = ComputeBoolean A B BoolOp.Intersection ⟨0, 0⟩ := by
  unfold ComputeBoolean
  simp only
  rw [PolygonsOverlap_indep A B u ⟨0, 0⟩, ClipPolygon_indep h u]

/-- The difference branch `AminusB` of `ComputeBoolean` does not depend on the
indeterminate value when the clipper reads no uninitialised `ip`. -/
theorem ComputeBoolean_AminusB_indep {A B : Polygon}
    (h : ClipOutsideAssigned A.outer.vertices B.outer.vertices = true) (u : Point) :
    ComputeBoolean A B BoolOp.AminusB u = ComputeBoolean A B BoolOp.AminusB ⟨0, 0⟩ := by
  unfold ComputeBoolean
  simp only
  rw [PolygonsOverlap_indep A B u ⟨0, 0⟩, ClipPolygonOutside_indep h u]

/-- C14. For the unit square `A` and the square `B = [1/2,3/2] x [1/2,3/2]`,
`ComputeBoolean(A, B, Intersection)` returns exactly one polygon, with the four
vertices `(1/2,1/2), (1,1/2), (1,1), (1/2,1)` in this order and no holes, and
its shoelace area is `1/4`; this holds whatever the value of the uninitialised
local `ip` is, which the run never reads. -/
theorem C14_intersection_of_squares (uninit : Point) :
    ComputeBoolean unitSquare shiftedSquare BoolOp.Intersection uninit =
        [⟨⟨[⟨1 / 2, 1 / 2⟩, ⟨1, 1 / 2⟩, ⟨1, 1⟩, ⟨1 / 2, 1⟩]⟩, []⟩] ∧
      SignedArea [⟨1 / 2, 1 / 2⟩, ⟨1, 1 / 2⟩, ⟨1, 1⟩, ⟨1 / 2, 1⟩] = 1 / 4 ∧
      totalArea (ComputeBoolean unitSquare shiftedSquare BoolOp.Intersection uninit) = 1 / 4 := by
  have e := @ComputeBoolean_intersection_indep unitSquare shiftedSquare (by decide!) uninit
  have r : ComputeBoolean unitSquare shiftedSquare BoolOp.Intersection ⟨0, 0⟩ =
      [⟨⟨[⟨1 / 2, 1 / 2⟩, ⟨1, 1 / 2⟩, ⟨1, 1⟩, ⟨1 / 2, 1⟩]⟩, []⟩] := by decide!
  rw [e, r]
  exact ⟨rfl, by decide!, by decide!⟩

/-! #### A polygon against itself: union -/

/-- a point that has no vertex of the ring strictly to its right tests outside -/
theorem PointInRing_false_of_right_le (p : Point) (r : Ring)
    (h : ∀ q ∈ r.vertices, q.x ≤ p.x) : PointInRing p r = false := by
  apply PointInRing_false_of_no_toggle
  intro a ha b hb hs
  have h1 := h a ha
  have h2 := h b hb
  have hb := (crossing_x_bounds a b p hs).2
  have : max a.x b.x ≤ p.x := max_le h1 h2
  linarith

theorem exists_max_x {l : List Point} (hl : l ≠ []) : ∃ p ∈ l, ∀ q ∈ l, q.x ≤ p.x := by
  induction l with
  | nil => exact absurd rfl hl
  | cons a t ih =>
    by_cases ht : t = []
    · subst ht
      exact ⟨a, by simp, fun q hq => by simp at hq; rw [hq]⟩
    · obtain ⟨p, hp, hmax⟩ := ih ht
      rcases le_total a.x p.x with hap | hpa
      · refine ⟨p, List.mem_cons_of_mem _ hp, fun q hq => ?_⟩
        rcases List.mem_cons.1 hq with rfl | hq
        · exact hap
        · exact hmax q hq
      · refine ⟨a, List.mem_cons_self _ _, fun q hq => ?_⟩
        rcases List.mem_cons.1 hq with rfl | hq
        · exact le_rfl
        · exact le_trans (hmax q hq) hpa

/-- a polygon with a vertex never has all its vertices test inside itself: a
vertex of greatest abscissa tests outside -/
theorem AllInside_self (A : Polygon) (hA : A.outer.vertices ≠ []) : AllInside A A = false := by
  obtain ⟨p, hp, hmax⟩ := exists_max_x hA
  unfold AllInside
  rw [List.all_eq_false]
  refine ⟨p, hp, ?_⟩
  unfold PointInPolygon
  rw [PointInRing_false_of_right_le p A.outer hmax]
  simp

theorem PolygonsOverlap_empty (A : Polygon) (u : Point) (hA : A.outer.vertices = []) :
    PolygonsOverlap A A u = false := by
  unfold PolygonsOverlap EdgesIntersect
  rw [hA]
  rfl

/-- over exact arithmetic, for every polygon `A`, `ComputeBoolean(A, A, Union)`
returns the two-element list `[A, A]`: either the overlap test rejects the
pair, or it accepts it and a vertex of `A` does not test inside `A`, and both
ways end in a branch that returns both operands -/
theorem ComputeBoolean_union_self (A : Polygon) (uninit : Point) :
    ComputeBoolean A A BoolOp.Union uninit = [A, A] := by
  unfold ComputeBoolean
  simp only
  by_cases hA : A.outer.vertices = []
  · rw [PolygonsOverlap_empty A uninit hA]
    rfl
  · rw [AllInside_self A hA]
    cases PolygonsOverlap A A uninit <;> rfl

/-- C12, the failing run. For the unit square `A` of the claim,
`ComputeBoolean(A, A, Union)` returns the two-element list `[A, A]`, not
`[A]`: the overlap test accepts the pair, but the vertex `(1,0)` of the square
does not test inside the square, so neither of the branches `A fully inside B`
and `B fully inside A` is taken and the last branch of the `Union` case
returns both operands. All values of the run are dyadic: it is the same in
binary64 arithmetic. -/
theorem C12_union_self_returns_both (uninit : Point) :
    ComputeBoolean unitSquare unitSquare BoolOp.Union uninit = [unitSquare, unitSquare] ∧
      ComputeBoolean unitSquare unitSquare BoolOp.Union uninit ≠ [unitSquare] ∧
      PolygonsOverlap unitSquare unitSquare ⟨0, 0⟩ = true ∧
      PointInPolygon ⟨1, 0⟩ unitSquare = false ∧
      AllInside unitSquare unitSquare = false ∧
      ComputeBooleanF Binary64.rnd unitSquare unitSquare BoolOp.Union ⟨0, 0⟩ =
        [unitSquare, unitSquare] := by
  rw [ComputeBoolean_union_self unitSquare uninit]
  exact ⟨rfl, by decide, by decide!, by decide!, by decide!, by decide!⟩

/-! #### A polygon against itself: intersection -/

theorem getLastD_eq_getLast : ∀ (l : List Point) (hl : l ≠ []) (u : Point),
    l.getLastD u = l.getLast hl
  | [], hl, _ => absurd rfl hl
  | [a], _, _ => rfl
  | a :: b :: t, _, u => by
    rw [List.getLastD_cons, List.getLast_cons (List.cons_ne_nil b t)]
    exact getLastD_eq_getLast (b :: t) _ a

theorem getLastD_mem {l : List Point} (hl : l ≠ []) (u : Point) : l.getLastD u ∈ l := by
  rw [getLastD_eq_getLast l hl u]
  exact List.getLast_mem hl

theorem ClipStep_inside {A B : Point} {c : Bool} {S E : Point} (u : Point) (out : List Point)
    (hS : Inside S A B c = true) (hE : Inside E A B c = true) :
    ClipStep A B c u (S, out) E = (E, out ++ [E]) := by
  unfold ClipStep
  simp only [hS, hE]
  rfl

theorem ClipPass_inside (A B : Point) (c : Bool) (u : Point) :
    ∀ (input : List Point) (S : Point) (out : List Point), Inside S A B c = true →
      (∀ p ∈ input, Inside p A B c = true) →
      (input.foldl (ClipStep A B c u) (S, out)).2 = out ++ input := by
  intro input
  induction input with
  | nil => intro S out _ _; simp
  | cons E rest ih =>
    intro S out hS hin
    have hE := hin E (List.mem_cons_self _ _)
    rw [List.foldl_cons, ClipStep_inside u out hS hE,
      ih E _ hE fun p hp => hin p (List.mem_cons_of_mem _ hp)]
    simp

theorem ClipLoop_inside (clip : List Point) (c : Bool) (u : Point) :
    ∀ (is : List Nat) (output : List Point),
      (∀ i ∈ is, ∀ p ∈ output,
        Inside p (vget clip i) (vget clip ((i + 1) % clip.length)) c = true) →
      ClipLoop clip c u is output = output := by
  intro is
  induction is with
  | nil => intro output _; rfl
  | cons i rest ih =>
    intro output h
    unfold ClipLoop
    simp only
    by_cases ho : output = []
    · rw [if_pos ho, ho]
    · rw [if_neg ho, ClipPass_inside _ _ c u output _ []
        (h i (List.mem_cons_self _ _) _ (getLastD_mem ho u)) (h i (List.mem_cons_self _ _))]
      exact ih output fun j hj => h j (List.mem_cons_of_mem _ hj)

/-- When every point of `subject` passes `Inside` against every edge of `clip`,
`ClipPolygon` returns `subject` unchanged. -/
theorem ClipPolygon_of_insideAllEdges {subject clip : List Point}
    (h : InsideAllEdges subject clip = true) (u : Point) :
    ClipPolygon subject clip u = subject := by
  unfold InsideAllEdges at h
  rw [List.all_eq_true] at h
  apply ClipLoop_inside
  intro i hi p hp
  have := h p hp
  rw [List.all_eq_true] at this
  exact this i hi

/-- the test `SegmentIntersect` answers the same for the two orders of the segments -/
theorem SegmentIntersect_fst_symm (p1 p2 q1 q2 u v : Point) :
    (SegmentIntersect p1 p2 q1 q2 u).1 = (SegmentIntersect q1 q2 p1 p2 v).1 := by
  unfold SegmentIntersect
  simp only
  have hd : (q2.y - q1.y) * (p1.x - p2.x) - (p2.y - p1.y) * (q1.x - q2.x) =
      -((p2.y - p1.y) * (q1.x - q2.x) - (q2.y - q1.y) * (p1.x - p2.x)) := by ring
  rw [hd, abs_neg]
  split_ifs with h
  · rfl
  · have e1 : ((p1.x - p2.x) * ((q2.y - q1.y) * q1.x + (q1.x - q2.x) * q1.y) -
          (q1.x - q2.x) * ((p2.y - p1.y) * p1.x + (p1.x - p2.x) * p1.y)) /
        -((p2.y - p1.y) * (q1.x - q2.x) - (q2.y - q1.y) * (p1.x - p2.x)) =
        ((q1.x - q2.x) * ((p2.y - p1.y) * p1.x + (p1.x - p2.x) * p1.y) -
          (p1.x - p2.x) * ((q2.y - q1.y) * q1.x + (q1.x - q2.x) * q1.y)) /
        ((p2.y - p1.y) * (q1.x - q2.x) - (q2.y - q1.y) * (p1.x - p2.x)) := by
      rw [div_neg, ← neg_div]; congr 1; ring
    have e2 : ((q2.y - q1.y) * ((p2.y - p1.y) * p1.x + (p1.x - p2.x) * p1.y) -
          (p2.y - p1.y) * ((q2.y - q1.y) * q1.x + (q1.x - q2.x) * q1.y)) /
        -((p2.y - p1.y) * (q1.x - q2.x) - (q2.y - q1.y) * (p1.x - p2.x)) =
        ((p2.y - p1.y) * ((q2.y - q1.y) * q1.x + (q1.x - q2.x) * q1.y) -
          (q2.y - q1.y) * ((p2.y - p1.y) * p1.x + (p1.x - p2.x) * p1.y)) /
        ((p2.y - p1.y) * (q1.x - q2.x) - (q2.y - q1.y) * (p1.x - p2.x)) := by
      rw [div_neg, ← neg_div]; congr 1; ring
    simp only [e1, e2]
    exact Bool.and_comm _ _

theorem any_any_comm {α β : Type} (l1 : List α) (l2 : List β) (f : α → β → Bool) :
    (l1.any fun a => l2.any fun b => f a b) = (l2.any fun b => l1.any fun a => f a b) := by
  rw [Bool.eq_iff_iff]
  simp only [List.any_eq_true]
  constructor
  · rintro ⟨a, ha, b, hb, h⟩
    exact ⟨b, hb, a, ha, h⟩
  · rintro ⟨b, hb, a, ha, h⟩
    exact ⟨a, ha, b, hb, h⟩

theorem EdgesIntersect_symm (aV bV : List Point) (u v : Point) :
    EdgesIntersect aV bV u = EdgesIntersect bV aV v := by
  unfold EdgesIntersect
  rw [any_any_comm]
  simp only [SegmentIntersect_fst_symm _ _ _ _ u v]

/-- the overlap test is symmetric in its operands -/
theorem PolygonsOverlap_symm (A B : Polygon) (u v : Point) :
    PolygonsOverlap A B u = PolygonsOverlap B A v := by
  unfold PolygonsOverlap
  rw [EdgesIntersect_symm _ _ u v]
  cases (A.outer.vertices.any fun p => PointInPolygon p B) <;>
    cases (B.outer.vertices.any fun p => PointInPolygon p A) <;> simp

/-! #### Runs on overlapping polygons -/

/-- C16, the failing run. For the unit square `A` and the square
`B = [1/2,3/2] x [1/2,3/2]`, `ComputeBoolean(A, B, AminusB)` returns the empty
list, whatever the value of the uninitialised `ip` is: the total area of the
result is `0`, while the area of `A` less the area of the intersection
returned for the same operands is `3/4`. -/
theorem C16_difference_of_squares_is_empty (uninit : Point) :
    ComputeBoolean unitSquare shiftedSquare BoolOp.AminusB uninit = [] ∧
      totalArea (ComputeBoolean unitSquare shiftedSquare BoolOp.AminusB uninit) = 0 ∧
      |SignedArea unitSquare.outer.vertices| -
        totalArea (ComputeBoolean unitSquare shiftedSquare BoolOp.Intersection uninit) = 3 / 4 := by
  have e := @ComputeBoolean_AminusB_indep unitSquare shiftedSquare (by decide!) uninit
  have r : ComputeBoolean unitSquare shiftedSquare BoolOp.AminusB ⟨0, 0⟩ = [] := by decide!
  have e2 := @ComputeBoolean_intersection_indep unitSquare shiftedSquare (by decide!) uninit
  rw [e, r, e2]
  exact ⟨rfl, by decide!, by decide!⟩

/-- `ComputeBoolean(A, B, Intersection)` and `ComputeBoolean(B, A,
Intersection)` return the same list of polygons whenever the operation is
resolved without the clipper: when the overlap test rejects the pair (both
results are empty), or when exactly one of the two polygons has all its
vertices test inside the other (both results are that polygon) -/
theorem intersection_comm_unclipped (A B : Polygon) (uninit : Point)
    (h : PolygonsOverlap A B uninit = false ∨ AllInside A B ≠ AllInside B A) :
    ComputeBoolean A B BoolOp.Intersection uninit =
      ComputeBoolean B A BoolOp.Intersection uninit := by
  have hs := PolygonsOverlap_symm B A uninit uninit
  have eAB : ∀ X Y : Polygon, PolygonsOverlap X Y uninit = false →
      ComputeBoolean X Y BoolOp.Intersection uninit = [] := by
    intro X Y hXY
    unfold ComputeBoolean
    simp only [hXY, Bool.not_false, if_true]
  have eIn : ∀ X Y : Polygon, PolygonsOverlap X Y uninit = true → AllInside X Y = true →
      ComputeBoolean X Y BoolOp.Intersection uninit = [X] := by
    intro X Y hXY hin
    unfold ComputeBoolean
    simp only [hXY, hin, Bool.not_true, Bool.false_eq_true, if_false, if_true]
  have eOut : ∀ X Y : Polygon, PolygonsOverlap X Y uninit = true → AllInside X Y = false →
      AllInside Y X = true → ComputeBoolean X Y BoolOp.Intersection uninit = [Y] := by
    intro X Y hXY hin hout
    unfold ComputeBoolean
    simp only [hXY, hin, hout, Bool.not_true, Bool.false_eq_true, if_false, if_true]
  rcases h with h | h
  · rw [eAB A B h, eAB B A (hs.trans h)]
  · cases hov : PolygonsOverlap A B uninit
    · rw [eAB A B hov, eAB B A (hs.trans hov)]
    · cases hab : AllInside A B <;> cases hba : AllInside B A
      · rw [hab, hba] at h
        exact absurd rfl h
      · rw [eOut A B hov hab hba, eIn B A (hs.trans hov) hba]
      · rw [eIn A B hov hab, eOut B A (hs.trans hov) hba hab]
      · rw [hab, hba] at h
        exact absurd rfl h

/-- C18, the failing run. Every vertex of the rectangle `wideRect` (area 63)
tests inside the C-shaped polygon `cShape` (area 28), while the point `(2,5)` of
the left edge of the rectangle tests outside it. `ComputeBoolean(wideRect,
cShape, Intersection)` returns `[wideRect]`, whatever the value of the
uninitialised `ip` is: the total area 63 of the result exceeds the area 28 of
`cShape`, which is the smaller of the two operand areas. -/
theorem C18_intersection_area_exceeds_operand (uninit : Point) :
    AllInside wideRect cShape = true ∧ PointInPolygon ⟨2, 5⟩ cShape = false ∧
      ComputeBoolean wideRect cShape BoolOp.Intersection uninit = [wideRect] ∧
      totalArea (ComputeBoolean wideRect cShape BoolOp.Intersection uninit) = 63 ∧
      min |SignedArea wideRect.outer.vertices| |SignedArea cShape.outer.vertices| = 28 ∧
      ¬ totalArea (ComputeBoolean wideRect cShape BoolOp.Intersection uninit) ≤
        min |SignedArea wideRect.outer.vertices| |SignedArea cShape.outer.vertices| := by
  have hov : PolygonsOverlap wideRect cShape uninit = true := by
    rw [PolygonsOverlap_indep _ _ uninit ⟨0, 0⟩]
    decide!
  have hall : AllInside wideRect cShape = true := by decide!
  have r : ComputeBoolean wideRect cShape BoolOp.Intersection uninit = [wideRect] := by
    unfold ComputeBoolean
    simp only [hov, hall]
    rfl
  rw [r]
  exact ⟨hall, by decide!, rfl, by decide!, by decide!, by decide!⟩

/-! #### Cross products against the edges of a ring -/

theorem Inside_iff_orient (p a b : Point) (c : Bool) :
    Inside p a b c = true ↔ 0 ≤ orient c (edgeCross a b p) := by
  unfold Inside orient edgeCross
  cases c <;> simp

theorem Inside_eq_false_iff_orient (p a b : Point) (c : Bool) :
    Inside p a b c = false ↔ orient c (edgeCross a b p) < 0 := by
  rw [← not_le, ← Inside_iff_orient]
  simp

theorem sum_range_eq_finset (f : Nat → ℚ) (n : Nat) :
    ((List.range n).map f).sum = ∑ i in Finset.range n, f i := by
  induction n with
  | zero => simp
  | succ n ih => rw [List.sum_range_succ, Finset.sum_range_succ, ih]

theorem foldl_add_eq_sum (g : Nat → ℚ) (l : List Nat) (a : ℚ) :
    l.foldl (fun area i => area + g i) a = a + (l.map g).sum := by
  induction l generalizing a with
  | nil => simp
  | cons i t ih => rw [List.foldl_cons, ih, List.map_cons, List.sum_cons, add_assoc]

theorem sum_cyclic_shift (g : Nat → ℚ) (n : Nat) :
    ∑ i in Finset.range n, g ((i + 1) % n) = ∑ i in Finset.range n, g i := by
  cases n with
  | zero => simp
  | succ m =>
    rw [Finset.sum_range_succ, Finset.sum_range_succ', Nat.mod_self]
    congr 1
    apply Finset.sum_congr rfl
    intro i hi
    rw [Nat.mod_eq_of_lt (by simpa using hi)]

/-- the cross products of a point against all edges of a ring add up to twice
the signed area of the ring -/
theorem sum_edgeCross (clip : List Point) (p : Point) :
    ∑ i in Finset.range clip.length,
      edgeCross (vget clip i) (vget clip ((i + 1) % clip.length)) p = 2 * SignedArea clip := by
  have hS : 2 * SignedArea clip = ∑ i in Finset.range clip.length,
      ((vget clip i).x * (vget clip ((i + 1) % clip.length)).y -
        (vget clip ((i + 1) % clip.length)).x * (vget clip i).y) := by
    unfold SignedArea
    simp only
    rw [foldl_add_eq_sum (fun i => (vget clip i).x * (vget clip ((i + 1) % clip.length)).y -
        (vget clip ((i + 1) % clip.length)).x * (vget clip i).y), sum_range_eq_finset]
    ring
  have hshift := sum_cyclic_shift (fun i => p.y * (vget clip i).x - p.x * (vget clip i).y)
    clip.length
  rw [hS, ← sub_eq_zero, ← Finset.sum_sub_distrib]
  have : ∀ i ∈ Finset.range clip.length,
      edgeCross (vget clip i) (vget clip ((i + 1) % clip.length)) p -
        ((vget clip i).x * (vget clip ((i + 1) % clip.length)).y -
          (vget clip ((i + 1) % clip.length)).x * (vget clip i).y) =
      (p.y * (vget clip ((i + 1) % clip.length)).x - p.x * (vget clip ((i + 1) % clip.length)).y) -
        (p.y * (vget clip i).x - p.x * (vget clip i).y) := by
    intro i _
    unfold edgeCross
    ring
  rw [Finset.sum_congr rfl this, Finset.sum_sub_distrib, hshift, sub_self]

/-- the point assigned by `SegmentIntersect` is the affine combination of the
end points `S` and `E` with weights proportional to their cross products
against the line through `A` and `B` -/
theorem edgeCross_ip {S E A B : Point} (h : DetAssigned S E A B = true) (u a b : Point) :
    edgeCross a b (SegmentIntersect S E A B u).2 * (edgeCross A B S - edgeCross A B E) =
      edgeCross a b S * (-edgeCross A B E) + edgeCross a b E * edgeCross A B S := by
  unfold DetAssigned at h
  have h1 := of_decide_eq_true h
  have hdet : (E.y - S.y) * (A.x - B.x) - (B.y - A.y) * (S.x - E.x) ≠ 0 := by
    intro e
    rw [e, abs_zero] at h1
    exact h1 eps9_pos
  unfold SegmentIntersect
  simp only
  rw [if_neg h1]
  unfold edgeCross
  simp only
  field_simp
  ring

/-! #### One pass of the keep-outside clipper -/

theorem combo_nonpos {x xs xe cs ce : ℚ} (hid : x * (cs - ce) = xs * (-ce) + xe * cs)
    (hs : xs ≤ 0) (he : xe ≤ 0) (h : (ce < 0 ∧ 0 ≤ cs) ∨ (cs < 0 ∧ 0 ≤ ce)) : x ≤ 0 := by
  rcases h with ⟨h1, h2⟩ | ⟨h1, h2⟩
  · by_contra hx
    push_neg at hx
    have : 0 < x * (cs - ce) := mul_pos hx (by linarith)
    have := mul_nonpos_of_nonpos_of_nonneg hs (show (0 : ℚ) ≤ -ce by linarith)
    have := mul_nonpos_of_nonpos_of_nonneg he h2
    linarith
  · by_contra hx
    push_neg at hx
    have : x * (cs - ce) < 0 := mul_neg_of_pos_of_neg hx (by linarith)
    have := mul_nonneg_of_nonpos_of_nonpos hs (show -ce ≤ (0 : ℚ) by linarith)
    have := mul_nonneg_of_nonpos_of_nonpos he h1.le
    linarith

theorem orient_ip {S E A B : Point} (h : DetAssigned S E A B = true) (u a b : Point) (c : Bool) :
    orient c (edgeCross a b (SegmentIntersect S E A B u).2) *
        (orient c (edgeCross A B S) - orient c (edgeCross A B E)) =
      orient c (edgeCross a b S) * (-orient c (edgeCross A B E)) +
        orient c (edgeCross a b E) * orient c (edgeCross A B S) := by
  have e := edgeCross_ip h u a b
  cases c
  · simp only [orient, Bool.false_eq_true, if_false]
    linarith
  · simp only [orient, if_true]
    exact e

/-- the point pushed for a pair `S`, `E` on different sides of the clip edge
lies on no inner side: it is on the line of the edge, and on the outer side of
every line that has `S` and `E` on its outer side -/
theorem orient_ip_nonpos {S E A B : Point} (h : DetAssigned S E A B = true) (u : Point) (c : Bool)
    (hne : Inside E A B c ≠ Inside S A B c) :
    orient c (edgeCross A B (SegmentIntersect S E A B u).2) ≤ 0 ∧
      ∀ a b : Point, orient c (edgeCross a b S) ≤ 0 → orient c (edgeCross a b E) ≤ 0 →
        orient c (edgeCross a b (SegmentIntersect S E A B u).2) ≤ 0 := by
  have hst : (orient c (edgeCross A B E) < 0 ∧ 0 ≤ orient c (edgeCross A B S)) ∨
      (orient c (edgeCross A B S) < 0 ∧ 0 ≤ orient c (edgeCross A B E)) := by
    cases hE : Inside E A B c <;> cases hS : Inside S A B c
    · rw [hE, hS] at hne; exact absurd rfl hne
    · exact Or.inl ⟨(Inside_eq_false_iff_orient _ _ _ _).1 hE, (Inside_iff_orient _ _ _ _).1 hS⟩
    · exact Or.inr ⟨(Inside_eq_false_iff_orient _ _ _ _).1 hS, (Inside_iff_orient _ _ _ _).1 hE⟩
    · rw [hE, hS] at hne; exact absurd rfl hne
  refine ⟨?_, fun a b hs he => combo_nonpos (orient_ip h u a b c) hs he hst⟩
  have e := orient_ip h u A B c
  have hz : orient c (edgeCross A B (SegmentIntersect S E A B u).2) *
      (orient c (edgeCross A B S) - orient c (edgeCross A B E)) = 0 := by
    rw [e]; ring
  rcases mul_eq_zero.1 hz with h0 | h0
  · exact h0.le
  · rcases hst with ⟨h1, h2⟩ | ⟨h1, h2⟩ <;> linarith

theorem assigned_of_ne {S E A B : Point} {c : Bool}
    (h : ((Inside E A B c == Inside S A B c) || DetAssigned S E A B) = true)
    (hne : Inside E A B c ≠ Inside S A B c) : DetAssigned S E A B = true := by
  rcases (Bool.or_eq_true _ _).mp h with h1 | h1
  · exact absurd (by simpa using h1) hne
  · exact h1

/-- one pass of the inner loop of `ClipPolygonOutside`: every point pushed is
on no inner side of the clip edge and keeps the property `Q` of the input
points, when `Q` passes to the intersection points; and a pass that pushes a
point has met a point on the outer side of the clip edge -/
theorem ClipOutsidePass_spec (A B : Point) (c : Bool) (u : Point) (Q : Point → Prop)
    (hQ : ∀ S E, Q S → Q E → DetAssigned S E A B = true →
      Inside E A B c ≠ Inside S A B c → Q (SegmentIntersect S E A B u).2) :
    ∀ (input : List Point) (S : Point) (out : List Point),
      PassAssigned A B c S input = true → Q S → (∀ p ∈ input, Q p) →
      (∀ p ∈ out, Q p ∧ orient c (edgeCross A B p) ≤ 0) →
      (∀ p ∈ (input.foldl (ClipOutsideStep A B c u) (S, out)).2,
          Q p ∧ orient c (edgeCross A B p) ≤ 0) ∧
        ((input.foldl (ClipOutsideStep A B c u) (S, out)).2 = out ∨
          ∃ p ∈ S :: input, Q p ∧ Inside p A B c = false) := by
  intro input
  induction input with
  | nil =>
    intro S out _ _ _ hout
    exact ⟨hout, Or.inl rfl⟩
  | cons E rest ih =>
    intro S out hA hS hin hout
    unfold PassAssigned at hA
    rw [Bool.and_eq_true] at hA
    have hE := hin E (List.mem_cons_self _ _)
    have hrest : ∀ p ∈ rest, Q p := fun p hp => hin p (List.mem_cons_of_mem _ hp)
    rw [List.foldl_cons]
    have key : ∃ out1, ClipOutsideStep A B c u (S, out) E = (E, out1) ∧
        (∀ p ∈ out1, Q p ∧ orient c (edgeCross A B p) ≤ 0) ∧
        (out1 = out ∨ ∃ p ∈ S :: E :: rest, Q p ∧ Inside p A B c = false) := by
      unfold ClipOutsideStep
      simp only
      cases hEi : Inside E A B c <;> cases hSi : Inside S A B c
      · refine ⟨out ++ [E], by simp, ?_, Or.inr ⟨E, by simp, hE, hEi⟩⟩
        intro p hp
        rcases List.mem_append.1 hp with hp | hp
        · exact hout p hp
        · rw [List.mem_singleton.1 hp]
          exact ⟨hE, ((Inside_eq_false_iff_orient _ _ _ _).1 hEi).le⟩
      · have hne : Inside E A B c ≠ Inside S A B c := by rw [hEi, hSi]; simp
        have hd := assigned_of_ne hA.1 hne
        refine ⟨(out ++ [(SegmentIntersect S E A B u).2]) ++ [E], by simp, ?_,
          Or.inr ⟨E, by simp, hE, hEi⟩⟩
        intro p hp
        rcases List.mem_append.1 hp with hp | hp
        · rcases List.mem_append.1 hp with hp | hp
          · exact hout p hp
          · rw [List.mem_singleton.1 hp]
            exact ⟨hQ S E hS hE hd hne, (orient_ip_nonpos hd u c hne).1⟩
        · rw [List.mem_singleton.1 hp]
          exact ⟨hE, ((Inside_eq_false_iff_orient _ _ _ _).1 hEi).le⟩
      · have hne : Inside E A B c ≠ Inside S A B c := by rw [hEi, hSi]; simp
        have hd := assigned_of_ne hA.1 hne
        refine ⟨out ++ [(SegmentIntersect S E A B u).2], by simp, ?_,
          Or.inr ⟨S, by simp, hS, hSi⟩⟩
        intro p hp
        rcases List.mem_append.1 hp with hp | hp
        · exact hout p hp
        · rw [List.mem_singleton.1 hp]
          exact ⟨hQ S E hS hE hd hne, (orient_ip_nonpos hd u c hne).1⟩
      · exact ⟨out, by simp, hout, Or.inl rfl⟩
    obtain ⟨out1, e1, hout1, hch⟩ := key
    rw [e1]
    obtain ⟨r1, r2⟩ := ih E out1 hA.2 hE hrest hout1
    refine ⟨r1, ?_⟩
    rcases r2 with r2 | ⟨p, hp, hq⟩
    · rcases hch with hch | hch
      · left; rw [r2, hch]
      · right; exact hch
    · right
      exact ⟨p, List.mem_cons_of_mem _ hp, hq⟩

/-! #### The keep-outside clipper returns no point -/

/-- the run of `ClipOutsideLoop` over the clip edges `pre ++ [l]`: a result
that is not empty needs a point on the outer side of the last edge `l` and on
no inner side of the edges before it -/
theorem ClipOutsideLoop_spec (clip : List Point) (c : Bool) :
    ∀ (pre : List Nat) (l : Nat) (K : List Nat) (output : List Point),
      ClipOutsideLoopAssigned clip c (pre ++ [l]) output = true →
      (∀ p ∈ output, ∀ j ∈ K,
        orient c (edgeCross (vget clip j) (vget clip ((j + 1) % clip.length)) p) ≤ 0) →
      ClipOutsideLoop clip c ⟨0, 0⟩ (pre ++ [l]) output = [] ∨
        ∃ p, (∀ j ∈ K ++ pre,
            orient c (edgeCross (vget clip j) (vget clip ((j + 1) % clip.length)) p) ≤ 0) ∧
          orient c (edgeCross (vget clip l) (vget clip ((l + 1) % clip.length)) p) < 0 := by
  intro pre
  induction pre with
  | nil =>
    intro l K output hA hK
    rw [List.nil_append] at hA ⊢
    unfold ClipOutsideLoopAssigned at hA
    unfold ClipOutsideLoop
    simp only
    by_cases ho : output = []
    · left; rw [if_pos ho]
    · rw [if_neg ho] at hA ⊢
      rw [Bool.and_eq_true] at hA
      have hS := getLastD_mem ho ⟨0, 0⟩
      obtain ⟨_, r2⟩ := ClipOutsidePass_spec (vget clip l) (vget clip ((l + 1) % clip.length)) c
        ⟨0, 0⟩ (fun p => ∀ j ∈ K,
          orient c (edgeCross (vget clip j) (vget clip ((j + 1) % clip.length)) p) ≤ 0)
        (fun S E hS hE hd hne j hj => (orient_ip_nonpos hd _ c hne).2 _ _ (hS j hj) (hE j hj))
        output (output.getLastD ⟨0, 0⟩) [] hA.1 (hK _ hS) hK (by simp)
      unfold ClipOutsideLoop
      rcases r2 with r2 | ⟨p, _, hq, hi⟩
      · left; exact r2
      · right
        exact ⟨p, by simpa using hq, (Inside_eq_false_iff_orient _ _ _ _).1 hi⟩
  | cons i pre ih =>
    intro l K output hA hK
    rw [List.cons_append] at hA ⊢
    unfold ClipOutsideLoopAssigned at hA
    unfold ClipOutsideLoop
    simp only
    by_cases ho : output = []
    · left; rw [if_pos ho]
    · rw [if_neg ho] at hA ⊢
      rw [Bool.and_eq_true] at hA
      have hS := getLastD_mem ho ⟨0, 0⟩
      obtain ⟨r1, _⟩ := ClipOutsidePass_spec (vget clip i) (vget clip ((i + 1) % clip.length)) c
        ⟨0, 0⟩ (fun p => ∀ j ∈ K,
          orient c (edgeCross (vget clip j) (vget clip ((j + 1) % clip.length)) p) ≤ 0)
        (fun S E hS hE hd hne j hj => (orient_ip_nonpos hd _ c hne).2 _ _ (hS j hj) (hE j hj))
        output (output.getLastD ⟨0, 0⟩) [] hA.1 (hK _ hS) hK (by simp)
      have hK1 : ∀ p ∈ (output.foldl (ClipOutsideStep (vget clip i)
          (vget clip ((i + 1) % clip.length)) c ⟨0, 0⟩) (output.getLastD ⟨0, 0⟩, [])).2,
          ∀ j ∈ K ++ [i],
            orient c (edgeCross (vget clip j) (vget clip ((j + 1) % clip.length)) p) ≤ 0 := by
        intro p hp j hj
        rcases List.mem_append.1 hj with hj | hj
        · exact (r1 p hp).1 j hj
        · rw [List.mem_singleton.1 hj]
          exact (r1 p hp).2
      rcases ih l (K ++ [i]) _ hA.2 hK1 with h | ⟨p, hp, hl⟩
      · left; exact h
      · right
        refine ⟨p, ?_, hl⟩
        intro j hj
        apply hp
        simpa using hj

theorem orient_sum (c : Bool) (f : Nat → ℚ) (n : Nat) :
    ∑ i in Finset.range n, orient c (f i) = orient c (∑ i in Finset.range n, f i) := by
  cases c
  · simp [orient]
  · simp [orient]

/-- the keep-outside clipper returns no point at all: when the clip list is
not empty and the run reads no uninitialised `ip`, `ClipPolygonOutside`
returns the empty list, for every subject -/
theorem ClipPolygonOutside_eq_nil {subject clip : List Point} (hclip : clip ≠ [])
    (hA : ClipOutsideAssigned subject clip = true) (u : Point) :
    ClipPolygonOutside subject clip u = [] := by
  rw [ClipPolygonOutside_indep hA u]
  unfold ClipOutsideAssigned at hA
  unfold ClipPolygonOutside
  obtain ⟨m, hm⟩ : ∃ m, clip.length = m + 1 :=
    ⟨clip.length - 1, by have := List.length_pos.2 hclip; omega⟩
  rw [hm, List.range_succ] at hA ⊢
  rcases ClipOutsideLoop_spec clip (IsCCW clip) (List.range m) m [] subject
    hA (by simp) with h | ⟨p, hp, hl⟩
  · exact h
  · exfalso
    have hsum : ∑ i in Finset.range (m + 1),
        orient (IsCCW clip) (edgeCross (vget clip i) (vget clip ((i + 1) % clip.length)) p) < 0 := by
      rw [Finset.sum_range_succ]
      have : ∑ i in Finset.range m,
          orient (IsCCW clip) (edgeCross (vget clip i) (vget clip ((i + 1) % clip.length)) p) ≤ 0 :=
        Finset.sum_nonpos fun i hi => hp i (by simpa using hi)
      linarith
    rw [orient_sum, ← hm, sum_edgeCross] at hsum
    unfold orient at hsum
    by_cases hc : IsCCW clip = true
    · rw [if_pos hc] at hsum
      unfold IsCCW at hc
      have := of_decide_eq_true hc
      linarith
    · rw [if_neg hc] at hsum
      unfold IsCCW at hc
      have : ¬ SignedArea clip > 0 := fun h => hc (decide_eq_true h)
      linarith

/-! #### Differences of a polygon and a polygon inside it -/

/-- the difference `AminusB` of `ComputeBoolean` is the empty list whenever the
overlap test accepts the pair, `B` has a vertex and the clipper reads no
uninitialised `ip`: either every vertex of `A` tests inside `B`, or
`ClipPolygonOutside` returns no point -/
theorem AminusB_of_overlap (A B : Polygon) (uninit : Point) (hB : B.outer.vertices ≠ [])
    (hov : PolygonsOverlap A B uninit = true)
    (hrun : ClipOutsideAssigned A.outer.vertices B.outer.vertices = true) :
    ComputeBoolean A B BoolOp.AminusB uninit = [] := by
  unfold ComputeBoolean
  simp only [hov, ClipPolygonOutside_eq_nil hB hrun uninit, Bool.not_true, Bool.false_eq_true,
    if_false, List.length_nil, Nat.ofNat_pos, if_true, ite_self]

/-- C11, the failing run. Every vertex of the rectangle `thinRect` tests inside
`bigSquare` and no edges cross, so `bigSquare` wholly contains `thinRect`.
`AminusB` goes through `ClipPolygonOutside`, where the segment from `(3,1)` to
`(0,1)` of the clipped square changes side at the short edge from `(2,1)` to
`(2, 1 + 2 ^ (-34))` of the rectangle with a determinant of `3 * 2 ^ (-34)`,
below `1e-9`: `SegmentIntersect` returns false without assigning `ip`, and the
clipper, which does not look at the returned flag, pushes the uninitialised
`ip`. With `(0,3)` in `ip` the result is a polygon made of four copies of
`(0,3)`, not the empty list; with `(0,0)` in `ip` it is the empty list. The
result is the same in binary64 arithmetic. -/
theorem C11_difference_pushes_unassigned_ip :
    (∀ v ∈ thinRect.outer.vertices, PointInPolygon v bigSquare = true) ∧
    EdgesIntersect bigSquare.outer.vertices thinRect.outer.vertices ⟨0, 3⟩ = false ∧
    ClipOutsideAssigned bigSquare.outer.vertices thinRect.outer.vertices = false ∧
    DetAssigned ⟨3, 1⟩ ⟨0, 1⟩ ⟨2, 1⟩ ⟨2, 1 + 1 / 2 ^ 34⟩ = false ∧
    ComputeBoolean bigSquare thinRect BoolOp.AminusB ⟨0, 3⟩ =
      [⟨⟨[⟨0, 3⟩, ⟨0, 3⟩, ⟨0, 3⟩, ⟨0, 3⟩]⟩, []⟩] ∧
    ComputeBoolean bigSquare thinRect BoolOp.AminusB ⟨0, 0⟩ = [] ∧
    ComputeBoolean bigSquare thinRect BoolOp.BminusA ⟨0, 3⟩ = [] ∧
    ComputeBooleanF Binary64.rnd bigSquare thinRect BoolOp.AminusB ⟨0, 3⟩ =
      [⟨⟨[⟨0, 3⟩, ⟨0, 3⟩, ⟨0, 3⟩, ⟨0, 3⟩]⟩, []⟩] :=
  ⟨by decide!, by decide!, by decide!, by decide!, by decide!, by decide!, by decide!,
    by decide!⟩

/-- over exact arithmetic: when `B` has at least one vertex and every vertex
of `B` tests inside `A`, `ComputeBoolean` returns the empty list for
`BminusA`; and it returns the empty list for `AminusB` when, moreover, the run
of `ClipPolygonOutside` reads no uninitialised `ip` (every intersection point
it pushes was assigned by `SegmentIntersect`) -/
theorem contained_differences_exact (A B : Polygon) (uninit : Point)
    (hB : B.outer.vertices ≠ [])
    (hin : ∀ v ∈ B.outer.vertices, PointInPolygon v A = true) :
    ComputeBoolean A B BoolOp.BminusA uninit = [] ∧
      (ClipOutsideAssigned A.outer.vertices B.outer.vertices = true →
        ComputeBoolean A B BoolOp.AminusB uninit = []) := by
  have hov : PolygonsOverlap A B uninit = true := by
    unfold PolygonsOverlap
    have : (B.outer.vertices.any fun p => PointInPolygon p A) = true := by
      rw [List.any_eq_true]
      obtain ⟨v, hv⟩ := List.exists_mem_of_ne_nil _ hB
      exact ⟨v, hv, hin v hv⟩
    rw [this]
    simp
  have hBA : AllInside B A = true := by
    unfold AllInside
    rw [List.all_eq_true]
    exact hin
  refine ⟨?_, AminusB_of_overlap A B uninit hB hov⟩
  unfold ComputeBoolean
  simp only [hov, hBA, Bool.not_true, Bool.false_eq_true, if_false, if_true]

theorem contained_differences_squares :
    ClipOutsideAssigned bigSquare.outer.vertices innerSquare.outer.vertices = true ∧
      ComputeBoolean bigSquare innerSquare BoolOp.BminusA ⟨0, 0⟩ = [] ∧
      ComputeBoolean bigSquare innerSquare BoolOp.AminusB ⟨0, 0⟩ = [] :=
  ⟨by decide!,
    (contained_differences_exact bigSquare innerSquare ⟨0, 0⟩ (List.cons_ne_nil _ _)
      (by decide!)).1,
    (contained_differences_exact bigSquare innerSquare ⟨0, 0⟩ (List.cons_ne_nil _ _)
      (by decide!)).2 (by decide!)⟩

end ClipperTheorems

/-! ### BooleanNative: the vertex ring -/

namespace PolygonBoolean

open Polygon

theorem lt_of_getElem?_some {h : Heap} {a : Nat} {v : Vertex} (hv : h[a]? = some v) :
    a < h.length := by
  rw [List.getElem?_eq_some] at hv
  exact hv.1

theorem store_eq_upd {h : Heap} {a : Nat} (f : Vertex → Vertex) (ha : a < h.length) :
    store h (some a) f = some (upd h a f) := by
  obtain ⟨v, hv⟩ : ∃ v, h[a]? = some v := ⟨h[a], List.getElem?_eq_getElem ha⟩
  simp [store, upd, hv]

@[simp] theorem length_upd (h : Heap) (a : Nat) (f : Vertex → Vertex) :
    (upd h a f).length = h.length := by
  unfold upd
  split <;> simp

theorem getElem?_upd (h : Heap) (a b : Nat) (f : Vertex → Vertex) :
    (upd h a f)[b]? = if b = a then (h[a]?).map f else h[b]? := by
  unfold upd
  split
  · next v hv =>
    have := lt_of_getElem?_some hv
    rw [List.getElem?_set]
    by_cases hab : a = b
    · subst hab; simp [this, hv]
    · simp [hab, Ne.symm hab]
  · next hv =>
    by_cases hab : b = a
    · subst hab; simp [hv]
    · simp [hab]

theorem getElem?_alloc (h : Heap) (v : Vertex) (b : Nat) :
    (alloc h v).1[b]? = if b = h.length then some v else h[b]? := by
  unfold alloc
  by_cases hb : b = h.length
  · subst hb; simp
  · simp only [hb, if_false]
    rcases Nat.lt_or_gt_of_ne hb with hlt | hgt
    · exact List.getElem?_append_left hlt
    · rw [List.getElem?_eq_none (by simp; omega), List.getElem?_eq_none (by omega)]

theorem addPoint_nonempty {h : Heap} {P : Polygon} (p : Point) {hd last : Nat} {hv lv : Vertex}
    (hP : P.head = some hd) (hhd : h[hd]? = some hv) (hprev : hv.prev = some last)
    (hlast : h[last]? = some lv) :
    ∃ h', addPoint h P p = some (h', { P with directionCalculated := false }) ∧
      h'.length = h.length + 1 ∧
      ∀ b, h'[b]? =
        if b = h.length then
          some { Vertex.ofPoint p with next := some hd, prev := some last }
        else (h[b]?).map fun v =>
          { v with next := if b = last then some h.length else v.next,
                   prev := if b = hd then some h.length else v.prev } := by
  have hhdlt := lt_of_getElem?_some hhd
  have hlastlt := lt_of_getElem?_some hlast
  have e1 : (h ++ [Vertex.ofPoint p])[hd]? = some hv := by
    rw [List.getElem?_append_left hhdlt]; exact hhd
  unfold addPoint
  simp only [hP, load, alloc, e1, Option.some_bind, hprev]
  rw [store_eq_upd _ (by simp; omega)]
  simp only [Option.some_bind]
  rw [store_eq_upd _ (by simp)]
  simp only [Option.some_bind]
  rw [store_eq_upd _ (by simp)]
  simp only [Option.some_bind]
  rw [store_eq_upd _ (by simp; omega)]
  simp only [Option.some_bind]
  refine ⟨_, rfl, by simp, fun b => ?_⟩
  have ha := getElem?_alloc h (Vertex.ofPoint p)
  simp only [alloc] at ha
  simp only [getElem?_upd, ha]
  by_cases hb1 : b = h.length
  · subst hb1
    have h1 : h.length ≠ hd := by omega
    have h2 : h.length ≠ last := by omega
    simp [h1, h2]
  · by_cases hb2 : b = hd
    · subst hb2
      by_cases hb3 : b = last
      · subst hb3
        simp [hb1, hhd]
      · simp [hb1, hb3, hhd]
    · by_cases hb3 : b = last
      · subst hb3
        simp [hb1, hb2, hlast]
      · simp [hb1, hb2, hb3]

theorem nextOf_eq_some {h : Heap} {a b : Nat} :
    nextOf h a = some b ↔ ∃ v, h[a]? = some v ∧ v.next = some b := by
  unfold nextOf
  cases h[a]? <;> simp

theorem prevOf_eq_some {h : Heap} {a b : Nat} :
    prevOf h a = some b ↔ ∃ v, h[a]? = some v ∧ v.prev = some b := by
  unfold prevOf
  cases h[a]? <;> simp

theorem pointOf_of_getElem? {h : Heap} {a : Nat} {v : Vertex} (hv : h[a]? = some v) :
    pointOf h a = v.point := by
  simp [pointOf, hv]

/-- a chain of links survives a change of heap that keeps the `next` of its
sources and the `prev` of its targets -/
theorem chain_link_frame {h h' : Heap} :
    ∀ (l : List Nat) (a b : Nat), List.Chain (Link h) a (l ++ [b]) →
      (∀ x ∈ a :: l, nextOf h' x = nextOf h x) →
      (∀ y ∈ l ++ [b], prevOf h' y = prevOf h y) →
      List.Chain (Link h') a (l ++ [b])
  | [], a, b, hc, hn, hp => by
    simp only [List.nil_append, List.chain_cons, List.Chain.nil, and_true] at hc ⊢
    exact ⟨by rw [hn a (by simp)]; exact hc.1, by rw [hp b (by simp)]; exact hc.2⟩
  | x :: l, a, b, hc, hn, hp => by
    simp only [List.cons_append, List.chain_cons] at hc ⊢
    refine ⟨⟨by rw [hn a (by simp)]; exact hc.1.1, by rw [hp x (by simp)]; exact hc.1.2⟩, ?_⟩
    exact chain_link_frame l x b hc.2 (fun y hy => hn y (List.mem_cons_of_mem _ hy))
      (fun y hy => hp y (by simp only [List.cons_append]; exact List.mem_cons_of_mem _ hy))

/-- the sources of a chain of links are allocated cells -/
theorem chain_link_valid {h : Heap} :
    ∀ (l : List Nat) (a b : Nat), List.Chain (Link h) a (l ++ [b]) →
      ∀ x ∈ a :: l, x < h.length
  | [], a, b, hc, x, hx => by
    simp only [List.nil_append, List.chain_cons, List.Chain.nil, and_true] at hc
    simp only [List.mem_cons, List.not_mem_nil, or_false] at hx
    subst hx
    obtain ⟨v, hv, _⟩ := nextOf_eq_some.1 hc.1
    exact lt_of_getElem?_some hv
  | y :: l, a, b, hc, x, hx => by
    simp only [List.cons_append, List.chain_cons] at hc
    rcases List.mem_cons.1 hx with rfl | hx
    · obtain ⟨v, hv, _⟩ := nextOf_eq_some.1 hc.1.1
      exact lt_of_getElem?_some hv
    · exact chain_link_valid l y b hc.2 x hx

theorem IsRing.valid {h : Heap} {hd : Nat} {rest : List Nat} (hr : IsRing h hd rest) :
    ∀ x ∈ hd :: rest, x < h.length :=
  chain_link_valid rest hd hd hr.2

theorem IsRing.length_le {h : Heap} {hd : Nat} {rest : List Nat} (hr : IsRing h hd rest) :
    (hd :: rest).length ≤ h.length := by
  have hs : hd :: rest ⊆ List.range h.length := fun a ha => List.mem_range.2 (hr.valid a ha)
  have := (List.subperm_of_subset hr.1 hs).length_le
  simpa using this

/-- the last cell of a ring is linked to the head -/
theorem IsRing.last_link {h : Heap} {hd : Nat} {rest : List Nat} (hr : IsRing h hd rest) :
    Link h (rest.getLastD hd) hd := by
  obtain ⟨_, hc⟩ := hr
  rcases List.eq_nil_or_concat' rest with rfl | ⟨init, last, rfl⟩
  · simpa using hc
  · rw [List.append_assoc, List.singleton_append, List.chain_split] at hc
    rw [List.getLastD_concat]
    simpa using hc.2

/-- appending a fresh cell `n` between the last cell and the head -/
theorem IsRing.snoc {h h' : Heap} {hd n : Nat} {rest : List Nat} (hr : IsRing h hd rest)
    (hn : n ∉ hd :: rest)
    (hnext : ∀ a, nextOf h' a =
      if a = rest.getLastD hd then some n else if a = n then some hd else nextOf h a)
    (hprev : ∀ a, prevOf h' a =
      if a = hd then some n else if a = n then some (rest.getLastD hd) else prevOf h a) :
    IsRing h' hd (rest ++ [n]) := by
  obtain ⟨hnd, hc⟩ := hr
  have hnd' : (hd :: (rest ++ [n])).Nodup := by
    rw [← List.cons_append]
    refine List.Nodup.append hnd (List.nodup_singleton n) ?_
    intro x hx hx'
    rw [List.mem_singleton] at hx'
    exact hn (hx' ▸ hx)
  refine ⟨hnd', ?_⟩
  rcases List.eq_nil_or_concat' rest with rfl | ⟨init, last, rfl⟩
  · simp only [List.getLastD_nil] at hnext hprev
    have hne : n ≠ hd := by simpa using hn
    simp only [List.nil_append, List.singleton_append, List.chain_cons, List.Chain.nil,
      and_true, Link]
    refine ⟨⟨?_, ?_⟩, ?_, ?_⟩
    · rw [hnext]; simp
    · rw [hprev]; simp [hne]
    · rw [hnext]; simp [hne]
    · rw [hprev]; simp
  · simp only [List.getLastD_concat] at hnext hprev
    rw [List.append_assoc, List.singleton_append, List.chain_split] at hc
    have hmem : n ∉ hd :: (init ++ [last]) := hn
    have hne1 : n ≠ hd := fun e => hmem (by simp [e])
    have hne2 : n ≠ last := fun e => hmem (by simp [e])
    have hlast_init : last ∉ hd :: init := by
      have := hnd
      rw [← List.cons_append] at this
      intro hm
      exact (List.nodup_append.1 this).2.2 hm (by simp)
    rw [show init ++ [last] ++ [n] ++ [hd] = init ++ last :: n :: [hd] by simp,
      List.chain_append_cons_cons]
    refine ⟨chain_link_frame init hd last hc.1 ?_ ?_, ⟨?_, ?_⟩, ?_⟩
    · intro x hx
      have h1 : x ≠ last := fun e => hlast_init (e ▸ hx)
      have h2 : x ≠ n := fun e => hmem (by
        rw [← e]; rcases List.mem_cons.1 hx with hx | hx
        · simp [hx]
        · simp [hx])
      rw [hnext]; simp [h1, h2]
    · intro y hy
      have h1 : y ≠ hd := fun e => (List.nodup_cons.1 hnd).1 (e ▸ hy)
      have h2 : y ≠ n := fun e => hmem (by rw [← e]; exact List.mem_cons_of_mem _ hy)
      rw [hprev]; simp [h1, h2]
    · rw [hnext]; simp
    · rw [hprev]; simp [hne1]
    · simp only [List.chain_cons, List.Chain.nil, and_true, Link]
      refine ⟨?_, ?_⟩
      · rw [hnext]; simp [hne2]
      · rw [hprev]; simp

theorem RingOf.cells_lt {h : Heap} {P : Polygon} {l : List Nat} (hr : RingOf h P l) :
    ∀ x ∈ l, x < h.length := by
  cases l with
  | nil => simp
  | cons hd rest => exact hr.2.valid

theorem RingOf.cells_nodup {h : Heap} {P : Polygon} {l : List Nat} (hr : RingOf h P l) :
    l.Nodup := by
  cases l with
  | nil => simp
  | cons hd rest => exact hr.2.1

theorem RingOf.cells_length_le {h : Heap} {P : Polygon} {l : List Nat} (hr : RingOf h P l) :
    l.length ≤ h.length := by
  cases l with
  | nil => simp
  | cons hd rest => exact hr.2.length_le

theorem addPoint_empty {h : Heap} {P : Polygon} (p : Point) (hP : P.head = none) :
    ∃ h', addPoint h P p =
        some (h', { P with head := some h.length, directionCalculated := false }) ∧
      h'.length = h.length + 1 ∧
      ∀ b, h'[b]? =
        if b = h.length then
          some { Vertex.ofPoint p with next := some h.length, prev := some h.length }
        else h[b]? := by
  unfold addPoint
  simp only [hP, alloc]
  rw [store_eq_upd _ (by simp)]
  simp only [Option.some_bind]
  rw [store_eq_upd _ (by simp)]
  simp only [Option.some_bind]
  refine ⟨_, rfl, by simp, fun b => ?_⟩
  have ha := getElem?_alloc h (Vertex.ofPoint p)
  simp only [alloc] at ha
  simp only [getElem?_upd, ha]
  by_cases hb1 : b = h.length
  · subst hb1; simp
  · simp [hb1]

/-- the function `addPoint` on a ring appends the new cell `h.length` to the ring -/
theorem addPoint_ring {h : Heap} {P : Polygon} {l : List Nat} (hr : RingOf h P l) (p : Point) :
    ∃ h' P', addPoint h P p = some (h', P') ∧ RingOf h' P' (l ++ [h.length]) ∧
      P'.directionCalculated = false ∧
      h'.length = h.length + 1 ∧ pointOf h' h.length = p ∧
      ∀ a, a < h.length → pointOf h' a = pointOf h a := by
  cases l with
  | nil =>
    obtain ⟨h', he, hlen, hcell⟩ := addPoint_empty (h := h) p hr
    refine ⟨h', _, he, ⟨rfl, ?_, ?_⟩, rfl, hlen, ?_, ?_⟩
    · simp
    · simp only [List.nil_append, List.chain_cons, List.Chain.nil, and_true, Link,
        nextOf, prevOf, hcell]
      simp
    · simp [pointOf, hcell, Vertex.ofPoint]
    · intro a ha
      have : a ≠ h.length := by omega
      simp [pointOf, hcell, this]
  | cons hd rest =>
    obtain ⟨hP, hring⟩ := hr
    have hlast := hring.last_link
    obtain ⟨hv, hhv, hprev⟩ := prevOf_eq_some.1 hlast.2
    obtain ⟨lv, hlv, _⟩ := nextOf_eq_some.1 hlast.1
    obtain ⟨h', he, hlen, hcell⟩ := addPoint_nonempty p hP hhv hprev hlv
    have hfresh : h.length ∉ hd :: rest := fun hm => lt_irrefl _ (hring.valid _ hm)
    have hsnoc := @IsRing.snoc h h' hd h.length rest hring hfresh
    have hlastlt := lt_of_getElem?_some hlv
    have hhdlt := lt_of_getElem?_some hhv
    generalize rest.getLastD hd = last at hsnoc hcell hlv hprev hlastlt
    refine ⟨h', _, he, ⟨hP, ?_⟩, rfl, hlen, ?_, ?_⟩
    · apply hsnoc
      · intro a
        simp only [nextOf, hcell]
        by_cases h1 : a = h.length
        · subst h1
          have : h.length ≠ last := by omega
          simp [this]
        · by_cases h2 : a = last
          · subst h2; simp [h1, hlv]
          · simp only [h1, h2, if_false]
            cases h[a]? <;> simp
      · intro a
        simp only [prevOf, hcell]
        by_cases h1 : a = h.length
        · subst h1
          have : h.length ≠ hd := by omega
          simp [this]
        · by_cases h2 : a = hd
          · subst h2; simp [h1, hhv]
          · simp only [h1, h2, if_false]
            cases h[a]? <;> simp
    · simp [pointOf, hcell, Vertex.ofPoint]
    · intro a ha
      have : a ≠ h.length := by omega
      simp only [pointOf, hcell, this, if_false]
      cases h[a]? <;> simp

/-- the constructor loop appends one cell per point -/
theorem addPoints_ring (pts : List Point) :
    ∀ {h : Heap} {P : Polygon} {l : List Nat}, RingOf h P l →
      ∃ h' P' l', Polygon.addPoints h P pts = some (h', P') ∧ RingOf h' P' (l ++ l') ∧
        (l ++ l').map (pointOf h') = l.map (pointOf h) ++ pts ∧ l'.length = pts.length := by
  induction pts with
  | nil =>
    intro h P l hr
    exact ⟨h, P, [], rfl, by simpa using hr, by simp, rfl⟩
  | cons p pts ih =>
    intro h P l hr
    obtain ⟨h1, P1, he, hr1, _, hlen, hp, hold⟩ := addPoint_ring hr p
    obtain ⟨h2, P2, l2, he2, hr2, hpts, hl2⟩ := ih hr1
    refine ⟨h2, P2, h.length :: l2, ?_, ?_, ?_, by simp [hl2]⟩
    · simp only [Polygon.addPoints, he, Option.some_bind]
      exact he2
    · simpa using hr2
    · have e : l ++ h.length :: l2 = l ++ [h.length] ++ l2 := by simp
      rw [e, hpts, List.map_append, List.append_assoc]
      congr 1
      · apply List.map_congr_left
        intro a ha
        exact hold a (hr.cells_lt a ha)
      · simp [hp]

/-- the loop of `getPoints` collects the points of the cells up to the head -/
theorem getPointsLoop_spec {h : Heap} {hd : Nat} :
    ∀ (post : List Nat) (cur fuel : Nat) (acc : List Point),
      List.Chain (Link h) cur (post ++ [hd]) → hd ∉ post → post.length < fuel →
      getPointsLoop h hd fuel (some cur) acc = some (acc ++ (cur :: post).map (pointOf h))
  | [], cur, fuel, acc, hc, _, hf => by
    obtain ⟨fuel, rfl⟩ : ∃ f, fuel = f + 1 := ⟨fuel - 1, by simp at hf; omega⟩
    simp only [List.nil_append, List.chain_cons, List.Chain.nil, and_true] at hc
    obtain ⟨v, hv, hnext⟩ := nextOf_eq_some.1 hc.1
    simp [getPointsLoop, load, hv, hnext, pointOf]
  | x :: post, cur, fuel, acc, hc, hnot, hf => by
    obtain ⟨fuel, rfl⟩ : ∃ f, fuel = f + 1 := ⟨fuel - 1, by simp at hf; omega⟩
    simp only [List.cons_append, List.chain_cons] at hc
    obtain ⟨v, hv, hnext⟩ := nextOf_eq_some.1 hc.1.1
    have hx : x ≠ hd := fun e => hnot (by simp [e])
    have ih := getPointsLoop_spec post x fuel (acc ++ [v.point]) hc.2
      (fun hm => hnot (List.mem_cons_of_mem _ hm)) (by simp at hf; omega)
    simp only [getPointsLoop, load, hv, hnext, Option.some_bind]
    rw [if_pos (by simpa using hx), ih]
    simp [pointOf, hv]

/-- the loop of `vertexCount` counts the cells up to the head -/
theorem vertexCountLoop_spec {h : Heap} {hd : Nat} :
    ∀ (post : List Nat) (cur fuel count : Nat),
      List.Chain (Link h) cur (post ++ [hd]) → hd ∉ post → post.length < fuel →
      vertexCountLoop h hd fuel (some cur) count = some (count + post.length + 1)
  | [], cur, fuel, count, hc, _, hf => by
    obtain ⟨fuel, rfl⟩ : ∃ f, fuel = f + 1 := ⟨fuel - 1, by simp at hf; omega⟩
    simp only [List.nil_append, List.chain_cons, List.Chain.nil, and_true] at hc
    obtain ⟨v, hv, hnext⟩ := nextOf_eq_some.1 hc.1
    simp [vertexCountLoop, load, hv, hnext]
  | x :: post, cur, fuel, count, hc, hnot, hf => by
    obtain ⟨fuel, rfl⟩ : ∃ f, fuel = f + 1 := ⟨fuel - 1, by simp at hf; omega⟩
    simp only [List.cons_append, List.chain_cons] at hc
    obtain ⟨v, hv, hnext⟩ := nextOf_eq_some.1 hc.1.1
    have hx : x ≠ hd := fun e => hnot (by simp [e])
    have ih := vertexCountLoop_spec post x fuel (count + 1) hc.2
      (fun hm => hnot (List.mem_cons_of_mem _ hm)) (by simp at hf; omega)
    simp only [vertexCountLoop, load, hv, hnext, Option.some_bind]
    rw [if_pos (by simpa using hx), ih]
    simp only [List.length_cons]
    congr 1
    omega

theorem getPoints_ring {h : Heap} {P : Polygon} {l : List Nat} (hr : RingOf h P l) :
    getPoints h P = some (l.map (pointOf h)) := by
  cases l with
  | nil => simp [getPoints, show P.head = none from hr]
  | cons hd rest =>
    obtain ⟨hP, hring⟩ := hr
    have hlen := hring.length_le
    simp only [getPoints, hP]
    rw [getPointsLoop_spec rest hd h.length [] hring.2 (List.nodup_cons.1 hring.1).1
      (by simpa using hlen)]
    simp

theorem vertexCount_ring {h : Heap} {P : Polygon} {l : List Nat} (hr : RingOf h P l) :
    vertexCount h P = some l.length := by
  cases l with
  | nil => simp [vertexCount, show P.head = none from hr]
  | cons hd rest =>
    obtain ⟨hP, hring⟩ := hr
    have hlen := hring.length_le
    simp only [vertexCount, hP]
    rw [vertexCountLoop_spec rest hd h.length 0 hring.2 (List.nodup_cons.1 hring.1).1
      (by simpa using hlen)]
    simp

/-- C1. Building a polygon from the point list `pts` (the constructor, which
is repeated `addPoint`) succeeds on every heap, and on the result `getPoints`
returns exactly `pts`, in the same order, and `vertexCount` returns the length
of `pts`. -/
theorem C1_build_then_getPoints (h : Heap) (pts : List Point) :
    ∃ h' P, Polygon.ofPoints h pts = some (h', P) ∧
      Polygon.getPoints h' P = some pts ∧ Polygon.vertexCount h' P = some pts.length := by
  obtain ⟨h', P', l', he, hr, hpts, hlen⟩ :=
    addPoints_ring pts (h := h) (P := Polygon.empty) (l := []) rfl
  refine ⟨h', P', he, ?_, ?_⟩
  · rw [getPoints_ring hr, hpts]; simp
  · rw [vertexCount_ring hr]; simp [hlen]

/-- a ring can be read from any of its cells -/
theorem IsRing.rotate {h : Heap} {a b : Nat} {l1 l2 : List Nat}
    (hr : IsRing h a (l1 ++ b :: l2)) : IsRing h b (l2 ++ a :: l1) := by
  obtain ⟨hnd, hc⟩ := hr
  constructor
  · have hp : (b :: (l2 ++ a :: l1)).Perm (a :: (l1 ++ b :: l2)) := by
      have e1 : b :: (l2 ++ a :: l1) = (b :: l2) ++ (a :: l1) := by simp
      have e2 : a :: (l1 ++ b :: l2) = (a :: l1) ++ (b :: l2) := by simp
      rw [e1, e2]
      exact List.perm_append_comm
    exact hp.nodup_iff.2 hnd
  · rw [List.append_assoc, List.cons_append, List.chain_split] at hc
    rw [List.append_assoc, List.cons_append, List.chain_split]
    exact ⟨hc.2, hc.1⟩

/-- a ring can be read from a given one of its cells -/
theorem IsRing.rotate_to {h : Heap} {a y : Nat} {l : List Nat} (hr : IsRing h a l)
    (hy : y ∈ a :: l) : ∃ l', IsRing h y l' ∧ (y :: l').Perm (a :: l) := by
  rcases List.mem_cons.1 hy with rfl | hy
  · exact ⟨l, hr, List.Perm.refl _⟩
  · obtain ⟨l1, l2, rfl⟩ := List.append_of_mem hy
    refine ⟨l2 ++ a :: l1, hr.rotate, ?_⟩
    have e1 : y :: (l2 ++ a :: l1) = (y :: l2) ++ (a :: l1) := by simp
    have e2 : a :: (l1 ++ y :: l2) = (a :: l1) ++ (y :: l2) := by simp
    rw [e1, e2]
    exact List.perm_append_comm

/-- a change of heap that keeps the links of the cells of a ring keeps the ring -/
theorem IsRing.frame {h h' : Heap} {hd : Nat} {rest : List Nat} (hr : IsRing h hd rest)
    (hn : ∀ x ∈ hd :: rest, nextOf h' x = nextOf h x)
    (hp : ∀ x ∈ hd :: rest, prevOf h' x = prevOf h x) : IsRing h' hd rest :=
  ⟨hr.1, chain_link_frame rest hd hd hr.2 hn (fun y hy => hp y (by
    rcases List.mem_append.1 hy with hy | hy
    · exact List.mem_cons_of_mem _ hy
    · simp only [List.mem_singleton] at hy; simp [hy]))⟩

/-- unlinking the last cell `x` of a ring that has other cells -/
theorem IsRing.unsnoc {h h' : Heap} {hd x : Nat} {rest : List Nat}
    (hr : IsRing h hd (rest ++ [x]))
    (hnext : ∀ a, a ≠ x → nextOf h' a = if a = rest.getLastD hd then some hd else nextOf h a)
    (hprev : ∀ a, a ≠ x → prevOf h' a = if a = hd then some (rest.getLastD hd) else prevOf h a) :
    IsRing h' hd rest := by
  obtain ⟨hnd, hc⟩ := hr
  have hnd' : (hd :: rest).Nodup := by
    rw [← List.cons_append] at hnd
    exact (List.nodup_append.1 hnd).1
  have hx : x ∉ hd :: rest := by
    rw [← List.cons_append] at hnd
    intro hm
    exact (List.nodup_append.1 hnd).2.2 hm (by simp)
  have hxhd : hd ≠ x := fun e => hx (by simp [e])
  refine ⟨hnd', ?_⟩
  rcases List.eq_nil_or_concat' rest with rfl | ⟨init, last, rfl⟩
  · simp only [List.getLastD_nil] at hnext hprev
    simp only [List.nil_append, List.chain_cons, List.Chain.nil, and_true, Link]
    exact ⟨by rw [hnext hd hxhd]; simp, by rw [hprev hd hxhd]; simp⟩
  · simp only [List.getLastD_concat] at hnext hprev
    rw [show init ++ [last] ++ [x] ++ [hd] = init ++ last :: x :: [hd] by simp,
      List.chain_append_cons_cons] at hc
    have hlast_init : last ∉ hd :: init := by
      rw [← List.cons_append] at hnd'
      intro hm
      exact (List.nodup_append.1 hnd').2.2 hm (by simp)
    have hlx : last ≠ x := fun e => hx (by simp [e])
    rw [List.append_assoc, List.singleton_append, List.chain_split]
    refine ⟨chain_link_frame init hd last hc.1 ?_ ?_, ?_⟩
    · intro a ha
      have h1 : a ≠ last := fun e => hlast_init (e ▸ ha)
      have h2 : a ≠ x := fun e => hx (by
        rw [← e]; rcases List.mem_cons.1 ha with ha | ha
        · simp [ha]
        · simp [ha])
      rw [hnext a h2]; simp [h1]
    · intro y hy
      have h1 : y ≠ hd := fun e => (List.nodup_cons.1 hnd').1 (e ▸ hy)
      have h2 : y ≠ x := fun e => hx (by rw [← e]; exact List.mem_cons_of_mem _ hy)
      rw [hprev y h2]; simp [h1]
    · simp only [List.chain_cons, List.Chain.nil, and_true, Link]
      exact ⟨by rw [hnext last hlx]; simp, by rw [hprev hd hxhd]; simp⟩

/-- exchanging `next` and `prev` in every cell of a ring reverses the ring -/
theorem IsRing.reversed {h h' : Heap} {hd : Nat} {rest : List Nat} (hr : IsRing h hd rest)
    (hnext : ∀ a ∈ hd :: rest, nextOf h' a = prevOf h a)
    (hprev : ∀ a ∈ hd :: rest, prevOf h' a = nextOf h a) :
    IsRing h' hd rest.reverse := by
  obtain ⟨hnd, hc⟩ := hr
  constructor
  · have hp : (hd :: rest.reverse).Perm (hd :: rest) :=
      List.Perm.cons _ (List.reverse_perm rest)
    exact hp.nodup_iff.2 hnd
  · have hc' : List.Chain' (Link h) (hd :: (rest ++ [hd])) := hc
    have hmem : ∀ y ∈ hd :: (rest ++ [hd]), y ∈ hd :: rest := by
      intro y hy
      rcases List.mem_cons.1 hy with rfl | hy
      · simp
      · rcases List.mem_append.1 hy with hy | hy
        · exact List.mem_cons_of_mem _ hy
        · simp only [List.mem_singleton] at hy; simp [hy]
    have hflip : List.Chain' (flip (Link h')) (hd :: (rest ++ [hd])) := by
      refine List.Chain'.imp ?_ (List.Chain'.iff_mem.1 hc')
      rintro a b ⟨ha, hb, hab⟩
      exact ⟨by rw [hnext b (hmem b hb)]; exact hab.2, by rw [hprev a (hmem a ha)]; exact hab.1⟩
    have := List.chain'_reverse.2 hflip
    simpa using this

theorem insertVertexAfter_spec {h : Heap} {pos nv succ : Nat} {pv nvv sv : Vertex}
    (hpos : h[pos]? = some pv) (hnv : h[nv]? = some nvv) (hsucc : h[succ]? = some sv)
    (hpn : pv.next = some succ) (hne1 : nv ≠ pos) (hne2 : nv ≠ succ) :
    ∃ h', insertVertexAfter h (some pos) (some nv) = some h' ∧ h'.length = h.length ∧
      ∀ b, h'[b]? = (h[b]?).map fun (v : Vertex) =>
        { v with next := if b = pos then some nv else if b = nv then some succ else v.next,
                 prev := if b = succ then some nv else if b = nv then some pos else v.prev } := by
  have l1 := lt_of_getElem?_some hpos
  have l2 := lt_of_getElem?_some hnv
  have l3 := lt_of_getElem?_some hsucc
  unfold insertVertexAfter
  simp only [reduceCtorEq, or_self, if_false]
  rw [store_eq_upd _ l2]
  simp only [Option.some_bind, load, getElem?_upd, Ne.symm hne1, if_false, hpos, hpn]
  rw [store_eq_upd _ (by simpa using l2)]
  simp only [Option.some_bind, load, getElem?_upd, Ne.symm hne1, if_false, hpos, hpn]
  rw [store_eq_upd _ (by simpa using l3)]
  simp only [Option.some_bind]
  rw [store_eq_upd _ (by simpa using l1)]
  refine ⟨_, rfl, by simp, fun b => ?_⟩
  simp only [getElem?_upd]
  by_cases hb1 : b = pos
  · subst hb1
    by_cases hb2 : b = succ
    · subst hb2
      simp [Ne.symm hne1, hpos]
    · simp [Ne.symm hne1, hb2, hpos]
  · by_cases hb2 : b = succ
    · subst hb2
      simp [hb1, Ne.symm hne2, hsucc]
    · by_cases hb3 : b = nv
      · subst hb3
        simp [hb1, hb2, hnv]
      · simp [hb1, hb2, hb3]

theorem removeVertex_spec {h : Heap} {P : Polygon} {x pred succ : Nat} {xv pv sv : Vertex}
    (hx : h[x]? = some xv) (hxp : xv.prev = some pred) (hxn : xv.next = some succ)
    (hpred : h[pred]? = some pv) (hsucc : h[succ]? = some sv) :
    ∃ h', removeVertex h P (some x) =
        some (h', if some x = P.head then
                    (if succ = x then { P with head := none } else { P with head := some succ })
                  else P) ∧
      h'.length = h.length ∧
      ∀ b, h'[b]? = (h[b]?).map fun (v : Vertex) =>
        { v with next := if b = pred then some succ else v.next,
                 prev := if b = succ then some pred else v.prev } := by
  have l1 := lt_of_getElem?_some hx
  have l2 := lt_of_getElem?_some hpred
  have l3 := lt_of_getElem?_some hsucc
  have hx1 : (upd h pred fun w => { w with next := some succ })[x]? =
      some { xv with next := if x = pred then some succ else xv.next } := by
    rw [getElem?_upd]
    by_cases e : x = pred
    · subst e; simp [hx]
    · simp [e, hx]
  unfold removeVertex
  simp only [reduceCtorEq, if_false, load, hx, Option.some_bind, hxn, hxp]
  rw [store_eq_upd _ l2]
  simp only [Option.some_bind, hx1]
  have e2 : (if x = pred then some succ else xv.next) = some succ := by
    split_ifs <;> simp [hxn]
  simp only [e2, hxp]
  rw [store_eq_upd _ (by simpa using l3)]
  have hcell : ∀ b, (upd (upd h pred fun w => { w with next := some succ }) succ
      fun w => { w with prev := some pred })[b]? = (h[b]?).map fun (v : Vertex) =>
        { v with next := if b = pred then some succ else v.next,
                 prev := if b = succ then some pred else v.prev } := by
    intro b
    simp only [getElem?_upd]
    by_cases hb1 : b = succ
    · subst hb1
      by_cases hb2 : b = pred
      · subst hb2; simp [hsucc]
      · simp [hb2, hsucc]
    · by_cases hb2 : b = pred
      · subst hb2; simp [hb1, hpred]
      · simp [hb1, hb2]
  by_cases e : some x = P.head
  · by_cases e3 : succ = x
    · refine ⟨_, ?_, by simp, hcell⟩
      simp [e, e3]
    · refine ⟨_, ?_, by simp, hcell⟩
      have hne : ¬ some succ = P.head := by rw [← e]; simpa using e3
      simp [e, e3, hne]
  · refine ⟨_, ?_, by simp, hcell⟩
    simp [e]

/-- the exchange of `next` and `prev` done by `std::swap` in `reverse` -/
theorem reverseLoop_spec {hd : Nat} :
    ∀ (post : List Nat) (cur fuel : Nat) (h : Heap),
      List.Chain (fun a b => nextOf h a = some b) cur (post ++ [hd]) → hd ∉ post →
      (cur :: post).Nodup → post.length < fuel →
      ∃ h', reverseLoop hd fuel h (some cur) = some h' ∧ h'.length = h.length ∧
        ∀ b, h'[b]? = if b ∈ cur :: post then
            (h[b]?).map fun (v : Vertex) => { v with next := v.prev, prev := v.next }
          else h[b]?
  | [], cur, fuel, h, hc, _, _, hf => by
    obtain ⟨fuel, rfl⟩ : ∃ f, fuel = f + 1 := ⟨fuel - 1, by simp at hf; omega⟩
    simp only [List.nil_append, List.chain_cons, List.Chain.nil, and_true] at hc
    obtain ⟨v, hv, hnext⟩ := nextOf_eq_some.1 hc
    have hlt := lt_of_getElem?_some hv
    unfold reverseLoop
    rw [store_eq_upd _ hlt]
    simp only [Option.some_bind, load, getElem?_upd, if_true, hv, Option.map_some', hnext,
      ne_eq, not_true_eq_false, if_false]
    refine ⟨_, rfl, by simp, fun b => ?_⟩
    by_cases hb : b = cur
    · subst hb; simp [getElem?_upd, hv]
    · simp [getElem?_upd, hb]
  | x :: post, cur, fuel, h, hc, hnot, hnd, hf => by
    obtain ⟨fuel, rfl⟩ : ∃ f, fuel = f + 1 := ⟨fuel - 1, by simp at hf; omega⟩
    simp only [List.cons_append, List.chain_cons] at hc
    obtain ⟨v, hv, hnext⟩ := nextOf_eq_some.1 hc.1
    have hlt := lt_of_getElem?_some hv
    have hx : x ≠ hd := fun e => hnot (by simp [e])
    have hcur : cur ∉ x :: post := (List.nodup_cons.1 hnd).1
    have hc1 : List.Chain (fun a b =>
        nextOf (upd h cur fun v => { v with next := v.prev, prev := v.next }) a = some b) x
        (post ++ [hd]) := by
      have hmem : List.Chain (fun a b => (a ∈ x :: post) ∧ nextOf h a = some b) x
          (post ++ [hd]) := by
        have := hc.2
        clear hc hv hnext hx hcur hnot hnd hf
        induction post generalizing x with
        | nil =>
          simp only [List.nil_append, List.chain_cons, List.Chain.nil, and_true] at this ⊢
          exact ⟨by simp, this⟩
        | cons y post ih =>
          simp only [List.cons_append, List.chain_cons] at this ⊢
          refine ⟨⟨by simp, this.1⟩, ?_⟩
          exact (ih y this.2).imp fun a b hab => ⟨List.mem_cons_of_mem _ hab.1, hab.2⟩
      refine hmem.imp ?_
      rintro a b ⟨ha, hab⟩
      have : a ≠ cur := fun e => hcur (e ▸ ha)
      simpa [nextOf, getElem?_upd, this] using hab
    obtain ⟨h', he, hlen, hcell⟩ := reverseLoop_spec post x fuel _ hc1
      (fun hm => hnot (List.mem_cons_of_mem _ hm)) (List.nodup_cons.1 hnd).2
      (by simp at hf; omega)
    unfold reverseLoop
    rw [store_eq_upd _ hlt]
    simp only [Option.some_bind, load, getElem?_upd, if_true, hv, Option.map_some', hnext]
    rw [if_pos (by simpa using hx), he]
    refine ⟨h', rfl, by simpa using hlen, fun b => ?_⟩
    rw [hcell b]
    by_cases hb : b = cur
    · subst hb
      simp [hcur, getElem?_upd]
    · by_cases hb2 : b ∈ x :: post
      · simp [hb, hb2, getElem?_upd]
      · simp [hb, hb2, getElem?_upd]

/-- the function `reverse` on a ring reverses the list of its cells and keeps every point -/
theorem reverse_ring {h : Heap} {P : Polygon} {l : List Nat} (hr : RingOf h P l) :
    ∃ h' P', reverse h P = some (h', P') ∧ RingOf h' P' l.reverse ∧
      h'.length = h.length ∧ ∀ a, pointOf h' a = pointOf h a := by
  have hcount := vertexCount_ring hr
  cases l with
  | nil =>
    exact ⟨h, P, by simp [reverse, show P.head = none from hr], by simpa using hr, rfl,
      fun _ => rfl⟩
  | cons hd rest =>
    obtain ⟨hP, hring⟩ := hr
    rcases List.eq_nil_or_concat' rest with rfl | ⟨init, last, rfl⟩
    · refine ⟨h, P, ?_, by simpa using ⟨hP, hring⟩, rfl, fun _ => rfl⟩
      simp [reverse, hP, hcount]
    · have hlen := hring.length_le
      obtain ⟨h', he, hlen', hcell⟩ := reverseLoop_spec (init ++ [last]) hd h.length h
        (hring.2.imp fun a b hab => hab.1) (List.nodup_cons.1 hring.1).1 hring.1
        (by simpa using hlen)
      have hlast := hring.last_link
      rw [List.getLastD_concat] at hlast
      obtain ⟨hv, hhv, hprev⟩ := prevOf_eq_some.1 hlast.2
      have hrev : IsRing h' hd (init ++ [last]).reverse := by
        apply hring.reversed
        · intro a ha
          simp only [nextOf, prevOf, hcell, ha, if_true]
          cases h[a]? <;> simp
        · intro a ha
          simp only [nextOf, prevOf, hcell, ha, if_true]
          cases h[a]? <;> simp
      refine ⟨h', { P with head := some last, clockwise := !P.clockwise }, ?_, ?_, hlen', ?_⟩
      · simp only [reverse, hP, hcount, Option.some_bind, he, load, hcell, List.mem_cons,
          true_or, if_true, hhv, Option.map_some', hprev]
        simp
      · have e : (hd :: (init ++ [last])).reverse = last :: (init.reverse ++ [hd]) := by simp
        rw [e]
        refine ⟨rfl, ?_⟩
        have e2 : (init ++ [last]).reverse = [] ++ last :: init.reverse := by simp
        rw [e2] at hrev
        simpa using hrev.rotate
      · intro a
        simp only [pointOf, hcell]
        split_ifs <;> cases h[a]? <;> simp

theorem chain_last_link {h : Heap} (l : List Nat) (a b : Nat)
    (hc : List.Chain (Link h) a (l ++ [b])) : Link h (l.getLastD a) b := by
  rcases List.eq_nil_or_concat' l with rfl | ⟨init, last, rfl⟩
  · simpa using hc
  · rw [List.append_assoc, List.singleton_append, List.chain_split] at hc
    rw [List.getLastD_concat]
    simpa using hc.2

theorem chain_first_link {h : Heap} (l : List Nat) (a b : Nat)
    (hc : List.Chain (Link h) a (l ++ [b])) : Link h a ((l ++ [b]).headD b) := by
  cases l with
  | nil => simpa using hc
  | cons x l =>
    simp only [List.cons_append, List.chain_cons] at hc
    simpa using hc.1

/-- every cell of a ring has its successor in the ring -/
theorem IsRing.succ_mem {h : Heap} {hd x : Nat} {rest : List Nat} (hr : IsRing h hd rest)
    (hx : x ∈ hd :: rest) : ∃ y ∈ hd :: rest, Link h x y := by
  obtain ⟨l', hr', hperm⟩ := hr.rotate_to hx
  have := chain_first_link l' x x hr'.2
  refine ⟨_, ?_, this⟩
  apply hperm.subset
  cases l' with
  | nil => simp
  | cons y l' => simp

/-- every cell of a ring has its predecessor in the ring -/
theorem IsRing.pred_mem {h : Heap} {hd x : Nat} {rest : List Nat} (hr : IsRing h hd rest)
    (hx : x ∈ hd :: rest) : ∃ c ∈ hd :: rest, Link h c x := by
  obtain ⟨l', hr', hperm⟩ := hr.rotate_to hx
  have := chain_last_link l' x x hr'.2
  refine ⟨_, ?_, this⟩
  apply hperm.subset
  rcases List.eq_nil_or_concat' l' with rfl | ⟨init, last, rfl⟩
  · simp
  · simp

theorem iterNext_add (h : Heap) (j k a : Nat) :
    iterNext h (j + k) a = (iterNext h j a).bind (iterNext h k) := by
  induction j generalizing a with
  | zero => simp [iterNext]
  | succ j ih =>
    rw [Nat.add_right_comm]
    simp only [iterNext]
    cases nextOf h a with
    | none => rfl
    | some b => simpa using ih b

/-- following `next` from a cell of a ring stays in the ring -/
theorem IsRing.iterNext_mem {h : Heap} {hd : Nat} {rest : List Nat} (hr : IsRing h hd rest) :
    ∀ (k x : Nat), x ∈ hd :: rest → ∃ y ∈ hd :: rest, iterNext h k x = some y
  | 0, x, hx => ⟨x, hx, rfl⟩
  | k + 1, x, hx => by
    obtain ⟨y, hy, hl⟩ := hr.succ_mem hx
    obtain ⟨z, hz, hk⟩ := hr.iterNext_mem k y hy
    exact ⟨z, hz, by simp [iterNext, hl.1, hk]⟩

/-- following `next` along a chain -/
theorem iterNext_chain {h : Heap} :
    ∀ (l : List Nat) (a b k : Nat), List.Chain (Link h) a (l ++ [b]) → k ≤ l.length + 1 →
      iterNext h k a = (a :: (l ++ [b]))[k]?
  | _, a, b, 0, _, _ => by simp [iterNext]
  | [], a, b, k + 1, hc, hk => by
    have : k = 0 := by simp at hk; omega
    subst this
    simp only [List.nil_append, List.chain_cons, List.Chain.nil, and_true] at hc
    simp [iterNext, hc.1]
  | x :: l, a, b, k + 1, hc, hk => by
    simp only [List.cons_append, List.chain_cons] at hc
    have ih := iterNext_chain l x b k hc.2 (by simp at hk; omega)
    simp [iterNext, hc.1.1, ih]

theorem RingOf.onRing_iff {h : Heap} {P : Polygon} {l : List Nat} (hr : RingOf h P l)
    (a : Nat) : OnRing h P a ↔ a ∈ l := by
  cases l with
  | nil =>
    have : P.head = none := hr
    simp [OnRing, this]
  | cons hd rest =>
    obtain ⟨hP, hring⟩ := hr
    constructor
    · rintro ⟨hd', k, hhd, hk⟩
      rw [hP] at hhd
      cases hhd
      obtain ⟨y, hy, hky⟩ := hring.iterNext_mem k hd (by simp)
      rw [hk] at hky
      cases hky
      exact hy
    · intro ha
      obtain ⟨k, hk, rfl⟩ := List.getElem_of_mem ha
      refine ⟨hd, k, hP, ?_⟩
      rw [iterNext_chain rest hd hd k hring.2 (by simp at hk; omega)]
      rw [← List.cons_append, List.getElem?_append_left hk]
      exact List.getElem?_eq_getElem hk

/-- a ring read so that a given cell `x` comes last; `s` is the successor of `x` -/
theorem IsRing.to_last {h : Heap} {x : Nat} {l : List Nat} (hr : IsRing h x l) :
    ∃ s m, IsRing h s m ∧ m.getLastD s = x ∧ Link h x s ∧ (s :: m).Perm (x :: l) := by
  cases l with
  | nil =>
    refine ⟨x, [], hr, rfl, ?_, List.Perm.refl _⟩
    simpa using hr.2
  | cons s l =>
    have h1 : IsRing h x ([] ++ s :: l) := hr
    refine ⟨s, l ++ [x], by simpa using h1.rotate, by simp, ?_, ?_⟩
    · have := hr.2
      simp only [List.cons_append, List.chain_cons] at this
      exact this.1
    · have e : s :: (l ++ [x]) = (s :: l) ++ [x] := by simp
      rw [e]
      exact List.perm_append_singleton x (s :: l)

theorem nextOf_alloc_of_lt {h : Heap} (v : Vertex) {a : Nat} (ha : a < h.length) :
    nextOf (alloc h v).1 a = nextOf h a := by
  simp [nextOf, getElem?_alloc, Nat.ne_of_lt ha]

theorem prevOf_alloc_of_lt {h : Heap} (v : Vertex) {a : Nat} (ha : a < h.length) :
    prevOf (alloc h v).1 a = prevOf h a := by
  simp [prevOf, getElem?_alloc, Nat.ne_of_lt ha]

theorem IsRing.alloc {h : Heap} {hd : Nat} {rest : List Nat} (hr : IsRing h hd rest)
    (v : Vertex) : IsRing (alloc h v).1 hd rest :=
  hr.frame (fun x hx => nextOf_alloc_of_lt v (hr.valid x hx))
    (fun x hx => prevOf_alloc_of_lt v (hr.valid x hx))

/-- the function `insertVertexAfter` of a newly allocated vertex after a cell of a ring gives a
ring with one more cell -/
theorem insertVertexAfter_ring {h : Heap} {P : Polygon} {l : List Nat} (hr : RingOf h P l)
    {pos : Nat} (hpos : pos ∈ l) (v : Vertex) :
    ∃ h' l', Polygon.insertVertexAfter (alloc h v).1 (some pos) (some (alloc h v).2) = some h' ∧
      RingOf h' P l' ∧ l'.length = l.length + 1 := by
  cases l with
  | nil => simp at hpos
  | cons hd rest =>
    obtain ⟨hP, hring⟩ := hr
    have hring1 := hring.alloc v
    obtain ⟨l1, hr1, hperm1⟩ := hring1.rotate_to hpos
    obtain ⟨s, m, hr2, hlast, hlink, hperm2⟩ := hr1.to_last
    have hperm : (s :: m).Perm (hd :: rest) := hperm2.trans hperm1
    have hvalid : ∀ a ∈ s :: m, a < h.length := fun a ha => hring.valid a (hperm.subset ha)
    obtain ⟨pv, hpv, hpn⟩ := nextOf_eq_some.1 hlink.1
    obtain ⟨sv, hsv, _⟩ := prevOf_eq_some.1 hlink.2
    have hposlt : pos < h.length := hring.valid pos hpos
    have hslt : s < h.length := hvalid s (by simp)
    have hnvv : (alloc h v).1[(alloc h v).2]? = some v := by simp [getElem?_alloc, alloc]
    have hnv : (alloc h v).2 = h.length := rfl
    obtain ⟨h', he, hlen, hcell⟩ := insertVertexAfter_spec hpv hnvv hsv hpn
      (by rw [hnv]; omega) (by rw [hnv]; omega)
    have hfresh : (alloc h v).2 ∉ s :: m := fun hm => by
      have := hvalid _ hm; rw [hnv] at this; omega
    have hr3 : IsRing h' s (m ++ [(alloc h v).2]) := by
      apply hr2.snoc hfresh
      · intro a
        rw [hlast]
        simp only [nextOf, hcell]
        by_cases h1 : a = pos
        · subst h1; simp [hpv]
        · by_cases h2 : a = (alloc h v).2
          · subst h2; simp [h1, hnvv]
          · simp only [h1, h2, if_false]
            cases (alloc h v).1[a]? <;> simp
      · intro a
        rw [hlast]
        simp only [prevOf, hcell]
        by_cases h1 : a = s
        · subst h1; simp [hsv]
        · by_cases h2 : a = (alloc h v).2
          · subst h2; simp [h1, hnvv]
          · simp only [h1, h2, if_false]
            cases (alloc h v).1[a]? <;> simp
    have hhd : hd ∈ s :: (m ++ [(alloc h v).2]) := by
      have : hd ∈ s :: m := hperm.symm.subset (by simp)
      rw [← List.cons_append]
      exact List.mem_append_left _ this
    obtain ⟨l3, hr4, hperm4⟩ := hr3.rotate_to hhd
    refine ⟨h', hd :: l3, he, ⟨hP, hr4⟩, ?_⟩
    have h4 := hperm4.length_eq
    have h5 := hperm.length_eq
    simp only [List.length_cons, List.length_append, List.length_singleton, List.length_nil] at h4 h5 ⊢
    omega

/-- the function `removeVertex` of a cell of a ring gives a ring with one cell less -/
theorem removeVertex_ring {h : Heap} {P : Polygon} {l : List Nat} (hr : RingOf h P l)
    {x : Nat} (hx : x ∈ l) :
    ∃ h' P' l', Polygon.removeVertex h P (some x) = some (h', P') ∧
      RingOf h' P' l' ∧ l'.length + 1 = l.length := by
  cases l with
  | nil => simp at hx
  | cons hd rest =>
    obtain ⟨hP, hring⟩ := hr
    obtain ⟨l1, hr1, hperm1⟩ := hring.rotate_to hx
    obtain ⟨s, m, hr2, hlast, hlink, hperm2⟩ := hr1.to_last
    have hperm : (s :: m).Perm (hd :: rest) := hperm2.trans hperm1
    rcases List.eq_nil_or_concat' m with rfl | ⟨m', x', rfl⟩
    · -- the ring is the single cell `x`
      simp only [List.getLastD_nil] at hlast
      subst hlast
      have hl : hd :: rest = [s] := (List.perm_singleton.1 hperm.symm)
      obtain ⟨rfl, rfl⟩ : hd = s ∧ rest = [] := by simpa using hl
      obtain ⟨xv, hxv, hxn⟩ := nextOf_eq_some.1 hlink.1
      obtain ⟨xv', hxv', hxp⟩ := prevOf_eq_some.1 hlink.2
      rw [hxv] at hxv'
      cases hxv'
      obtain ⟨h', he, _, _⟩ := removeVertex_spec (P := P) hxv hxp hxn hxv hxv
      refine ⟨h', _, [], he, ?_, rfl⟩
      simp [RingOf, hP]
    · rw [List.getLastD_concat] at hlast
      subst hlast
      -- the ring is `s :: m' ++ [x]`, the successor of `x` is `s`
      have hc := hr2.2
      rw [List.append_assoc, List.singleton_append, List.chain_split] at hc
      have hpl := chain_last_link m' s x' hc.1
      obtain ⟨xv, hxv, hxn⟩ := nextOf_eq_some.1 hlink.1
      obtain ⟨sv, hsv, _⟩ := prevOf_eq_some.1 hlink.2
      obtain ⟨pv, hpv, _⟩ := nextOf_eq_some.1 hpl.1
      obtain ⟨xv', hxv', hxp⟩ := prevOf_eq_some.1 hpl.2
      rw [hxv] at hxv'
      cases hxv'
      obtain ⟨h', he, hlen, hcell⟩ := removeVertex_spec (P := P) hxv hxp hxn hpv hsv
      have hr3 : IsRing h' s m' := by
        have hun := @IsRing.unsnoc h h' s _ m' hr2
        generalize m'.getLastD s = pred at hun hcell hpv
        apply hun
        · intro a _
          simp only [nextOf, hcell]
          by_cases h1 : a = pred
          · subst h1; simp [hpv]
          · simp only [h1, if_false]
            cases h[a]? <;> simp
        · intro a _
          simp only [prevOf, hcell]
          by_cases h1 : a = s
          · subst h1; simp [hsv]
          · simp only [h1, if_false]
            cases h[a]? <;> simp
      have hsx : s ≠ x' := by
        intro e
        have := hr2.1
        rw [e] at this
        exact (List.nodup_cons.1 this).1 (by simp)
      have hlen2 : (s :: m').length + 1 = (hd :: rest).length := by
        rw [← hperm.length_eq]; simp
      by_cases e : some x' = P.head
      · refine ⟨h', _, s :: m', he, ?_, hlen2⟩
        simp only [e, if_true, hsx, if_false]
        exact ⟨rfl, hr3⟩
      · have hne : hd ≠ x' := fun e' => e (by rw [hP, e'])
        have hhd : hd ∈ s :: m' := by
          have : hd ∈ s :: (m' ++ [x']) := hperm.symm.subset (by simp)
          rw [← List.cons_append, List.mem_append] at this
          rcases this with this | this
          · exact this
          · simp only [List.mem_singleton] at this; exact absurd this hne
        obtain ⟨l3, hr4, hperm4⟩ := hr3.rotate_to hhd
        refine ⟨h', _, hd :: l3, he, ?_, ?_⟩
        · simp only [e, if_false]
          exact ⟨hP, hr4⟩
        · rw [hperm4.length_eq]; exact hlen2

/-- every reachable polygon is empty or a ring -/
theorem Reachable.ringOf {h : Heap} {P : Polygon} (hr : Reachable h P) : ∃ l, RingOf h P l := by
  induction hr with
  | empty h => exact ⟨[], rfl⟩
  | addPoint p _ he ih =>
    obtain ⟨l, hl⟩ := ih
    obtain ⟨h1, P1, he1, hr1, _⟩ := addPoint_ring hl p
    rw [he] at he1
    cases he1
    exact ⟨_, hr1⟩
  | insertVertexAfter position v _ hon he ih =>
    obtain ⟨l, hl⟩ := ih
    obtain ⟨h1, l1, he1, hr1, _⟩ := insertVertexAfter_ring hl ((hl.onRing_iff _).1 hon) v
    rw [he] at he1
    cases he1
    exact ⟨_, hr1⟩
  | removeVertex vertex _ hon he ih =>
    obtain ⟨l, hl⟩ := ih
    obtain ⟨h1, P1, l1, he1, hr1, _⟩ := removeVertex_ring hl ((hl.onRing_iff _).1 hon)
    rw [he] at he1
    cases he1
    exact ⟨_, hr1⟩
  | reverse _ he ih =>
    obtain ⟨l, hl⟩ := ih
    obtain ⟨h1, P1, he1, hr1, _⟩ := reverse_ring hl
    rw [he] at he1
    cases he1
    exact ⟨_, hr1⟩

/-- C2. In every state reachable from the empty polygon by `addPoint`,
`insertVertexAfter`, `removeVertex` and `reverse`: `vertexCount()` returns a
number `n` (`0` when there is no head); following `next` from the head comes
back to the head after exactly `n` steps and not before; and every vertex `a`
of the ring satisfies `a.next.prev = a` and `a.prev.next = a`. -/
theorem C2_ring_invariant {h : Heap} {P : Polygon} (hr : Reachable h P) :
    ∃ n, Polygon.vertexCount h P = some n ∧ (P.head = none → n = 0) ∧
      ∀ hd, P.head = some hd →
        iterNext h n hd = some hd ∧
        (∀ k, 0 < k → k < n → iterNext h k hd ≠ some hd) ∧
        ∀ a, OnRing h P a →
          (∃ b, nextOf h a = some b ∧ prevOf h b = some a) ∧
          (∃ c, prevOf h a = some c ∧ nextOf h c = some a) := by
  obtain ⟨l, hl⟩ := hr.ringOf
  refine ⟨l.length, vertexCount_ring hl, ?_, ?_⟩
  · intro hnone
    cases l with
    | nil => rfl
    | cons hd rest => rw [hl.1] at hnone; cases hnone
  · intro hd hhd
    cases l with
    | nil =>
      have : P.head = none := hl
      rw [this] at hhd; cases hhd
    | cons hd' rest =>
      have hP := hl.1
      rw [hP] at hhd
      cases hhd
      have hring := hl.2
      refine ⟨?_, ?_, ?_⟩
      · rw [iterNext_chain rest hd hd _ hring.2 (by simp)]
        rw [← List.cons_append, List.getElem?_append_right (by simp)]
        simp
      · intro k hk0 hkn
        rw [iterNext_chain rest hd hd _ hring.2 (by simp at hkn; omega)]
        rw [← List.cons_append, List.getElem?_append_left hkn, List.getElem?_eq_getElem hkn]
        intro he
        have he' : (hd :: rest)[k] = (hd :: rest)[0] := by simpa using he
        have := (List.Nodup.getElem_inj_iff hring.1).1 he'
        omega
      · intro a ha
        have hmem := (RingOf.onRing_iff hl a).1 ha
        obtain ⟨b, _, hb⟩ := hring.succ_mem hmem
        obtain ⟨c, _, hc⟩ := hring.pred_mem hmem
        exact ⟨⟨b, hb.1, hb.2⟩, ⟨c, hc.2, hc.1⟩⟩

/-- on a reachable state the four ring operations are defined -/
theorem Reachable.operations_defined {h : Heap} {P : Polygon} (hr : Reachable h P) :
    (∀ p, (Polygon.addPoint h P p).isSome) ∧ (Polygon.reverse h P).isSome ∧
      ∀ a, OnRing h P a →
        (Polygon.removeVertex h P (some a)).isSome ∧
        ∀ v, (Polygon.insertVertexAfter (alloc h v).1 (some a) (some (alloc h v).2)).isSome := by
  obtain ⟨l, hl⟩ := hr.ringOf
  refine ⟨fun p => ?_, ?_, fun a ha => ⟨?_, fun v => ?_⟩⟩
  · obtain ⟨h1, P1, he, _⟩ := addPoint_ring hl p
    simp [he]
  · obtain ⟨h1, P1, he, _⟩ := reverse_ring hl
    simp [he]
  · obtain ⟨h1, P1, l1, he, _⟩ := removeVertex_ring hl ((hl.onRing_iff _).1 ha)
    simp [he]
  · obtain ⟨h1, l1, he, _⟩ := insertVertexAfter_ring hl ((hl.onRing_iff _).1 ha) v
    simp [he]

theorem triangleState_reachable : Reachable triangleState.1 triangleState.2 := by
  have h0 := Reachable.empty []
  have h1 := @Reachable.addPoint []
    [{ Vertex.ofPoint ⟨0, 0⟩ with next := some 0, prev := some 0 }]
    Polygon.empty { Polygon.empty with head := some 0 } ⟨0, 0⟩ h0 (by decide!)
  have h2 := @Reachable.addPoint _
    ((Polygon.ofPoints [] [⟨0, 0⟩, ⟨1, 0⟩]).getD ([], Polygon.empty)).1 _
    ((Polygon.ofPoints [] [⟨0, 0⟩, ⟨1, 0⟩]).getD ([], Polygon.empty)).2
    ⟨1, 0⟩ h1 (by decide!)
  exact Reachable.addPoint ⟨1, 1⟩ h2 (by decide!)

theorem reversedState_reachable : Reachable reversedState.1 reversedState.2 := by
  have h3 := triangleState_reachable
  have h4 : Reachable insertedState.1 insertedState.2 :=
    Reachable.insertVertexAfter 0 (Vertex.ofPointAlpha ⟨1 / 2, 0⟩ (1 / 2)) h3
      ⟨0, 0, by decide!, by decide!⟩ (by decide!)
  have h5 : Reachable removedState.1 removedState.2 :=
    Reachable.removeVertex 1 h4 ⟨0, 2, by decide!, by decide!⟩ (by decide!)
  exact Reachable.reverse h5 (by decide!)

theorem C2_ring_invariant_witness :
    Reachable reversedState.1 reversedState.2 ∧
    Polygon.getPoints reversedState.1 reversedState.2 = some [⟨1, 1⟩, ⟨1 / 2, 0⟩, ⟨0, 0⟩] ∧
    ∃ n, Polygon.vertexCount reversedState.1 reversedState.2 = some n ∧
      (reversedState.2.head = none → n = 0) ∧
      ∀ hd, reversedState.2.head = some hd →
        iterNext reversedState.1 n hd = some hd ∧
        (∀ k, 0 < k → k < n → iterNext reversedState.1 k hd ≠ some hd) ∧
        ∀ a, OnRing reversedState.1 reversedState.2 a →
          (∃ b, nextOf reversedState.1 a = some b ∧ prevOf reversedState.1 b = some a) ∧
          (∃ c, prevOf reversedState.1 a = some c ∧ nextOf reversedState.1 c = some a) :=
  ⟨reversedState_reachable, by decide!, C2_ring_invariant reversedState_reachable⟩

/-- C3. On a polygon without head, on any heap: `vertexCount()` is `0`,
`getPoints()` is empty, `area()` is `0`, `contains(p)` and `intersects(q)` are
false, `validate` returns without throwing, and `clear`, `reverse`,
`translate`, `scale`, `rotate` return with the heap unchanged and the polygon
still without head. None of them fails. -/
theorem C3_empty_polygon_neutral (h : Heap) (P Q : Polygon) (p : Point)
    (dx dy sx sy cosA sinA : ℚ) (hP : P.head = none) :
    Polygon.vertexCount h P = some 0 ∧ Polygon.getPoints h P = some [] ∧
      Polygon.area h P = some 0 ∧ Polygon.contains h P p = some false ∧
      Polygon.intersects h P Q = some false ∧
      Polygon.validate h P = some Validation.ok ∧
      Polygon.clear h P = some (h, { P with head := none, directionCalculated := false }) ∧
      Polygon.reverse h P = some (h, P) ∧ Polygon.translate h P dx dy = some (h, P) ∧
      Polygon.scale h P sx sy = some (h, P) ∧ Polygon.rotate h P cosA sinA = some (h, P) := by
  refine ⟨?_, ?_, ?_, ?_, ?_, ?_, ?_, ?_, ?_, ?_, ?_⟩
  · simp [vertexCount, hP]
  · simp [getPoints, hP]
  · simp [area, hP]
  · simp [contains, pointInPolygon, hP]
  · simp [intersects, hP]
  · simp [validate, hP]
  · simp [clear, clearVertices, hP]
  · simp [reverse, hP]
  · simp [Polygon.translate, hP]
  · simp [Polygon.scale, hP]
  · simp [Polygon.rotate, hP]

theorem C3_empty_polygon_neutral_witness :
    Polygon.vertexCount [] Polygon.empty = some 0 ∧ Polygon.getPoints [] Polygon.empty = some [] ∧
      Polygon.area [] Polygon.empty = some 0 ∧
      Polygon.contains [] Polygon.empty ⟨0, 0⟩ = some false ∧
      Polygon.intersects [] Polygon.empty Polygon.empty = some false ∧
      Polygon.validate [] Polygon.empty = some Validation.ok ∧
      Polygon.clear [] Polygon.empty =
        some ([], { Polygon.empty with head := none, directionCalculated := false }) ∧
      Polygon.reverse [] Polygon.empty = some ([], Polygon.empty) ∧
      Polygon.translate [] Polygon.empty 1 1 = some ([], Polygon.empty) ∧
      Polygon.scale [] Polygon.empty 2 2 = some ([], Polygon.empty) ∧
      Polygon.rotate [] Polygon.empty 0 1 = some ([], Polygon.empty) :=
  C3_empty_polygon_neutral [] Polygon.empty Polygon.empty ⟨0, 0⟩ 1 1 2 2 0 1 rfl

/-- C5, the failing run: on the triangle `(0,0),(1,0),(1,1)`, after
`isClockwise()` (which answers `false` and caches it) and `scale(-1, 1)`,
`isClockwise()` still answers `false`, while `calculateDirection` on the
mirrored ring computes `true`. -/
theorem C5_stale_after_scale :
    (Polygon.isClockwise triangleState.1 triangleState.2).map Prod.fst = some false ∧
    Polygon.getPoints mirroredTriangle.1 mirroredTriangle.2 =
      some [⟨4 / 3, 0⟩, ⟨1 / 3, 0⟩, ⟨1 / 3, 1⟩] ∧
    (Polygon.isClockwise mirroredTriangle.1 mirroredTriangle.2).map Prod.fst = some false ∧
    (Polygon.calculateDirection mirroredTriangle.1 mirroredTriangle.2).map Polygon.clockwise =
      some true := by
  decide!

/-- the same defect through `reverse`: on the two point polygon `(0,0),(1,0)`,
after `isClockwise()` (true) and `reverse()`, `isClockwise()` answers `false`
while `calculateDirection` computes `true` -/
theorem stale_after_reverse :
    (Polygon.isClockwise queriedSegment.1 queriedSegment.2).map Prod.fst = some true ∧
    ((Polygon.reverse queriedSegment.1 queriedSegment.2).bind fun r =>
      (Polygon.isClockwise r.1 r.2).map Prod.fst) = some false ∧
    ((Polygon.reverse queriedSegment.1 queriedSegment.2).bind fun r =>
      (Polygon.calculateDirection r.1 r.2).map Polygon.clockwise) = some true := by
  decide!

theorem getElem?_snoc (h : Heap) (v : Vertex) (b : Nat) :
    (h ++ [v])[b]? = if b = h.length then some v else h[b]? :=
  getElem?_alloc h v b

theorem chain_next_frame {h h' : Heap} :
    ∀ (l : List Nat) (a b : Nat), List.Chain (fun x y => nextOf h x = some y) a (l ++ [b]) →
      (∀ x ∈ a :: l, nextOf h' x = nextOf h x) →
      List.Chain (fun x y => nextOf h' x = some y) a (l ++ [b])
  | [], a, b, hc, hn => by
    simp only [List.nil_append, List.chain_cons, List.Chain.nil, and_true] at hc ⊢
    rw [hn a (by simp)]; exact hc
  | x :: l, a, b, hc, hn => by
    simp only [List.cons_append, List.chain_cons] at hc ⊢
    exact ⟨by rw [hn a (by simp)]; exact hc.1,
      chain_next_frame l x b hc.2 fun y hy => hn y (List.mem_cons_of_mem _ hy)⟩

theorem chain_next_valid {h : Heap} :
    ∀ (l : List Nat) (a b : Nat), List.Chain (fun x y => nextOf h x = some y) a (l ++ [b]) →
      ∀ x ∈ a :: l, x < h.length
  | [], a, b, hc, x, hx => by
    simp only [List.nil_append, List.chain_cons, List.Chain.nil, and_true] at hc
    simp only [List.mem_cons, List.not_mem_nil, or_false] at hx
    subst hx
    obtain ⟨v, hv, _⟩ := nextOf_eq_some.1 hc
    exact lt_of_getElem?_some hv
  | y :: l, a, b, hc, x, hx => by
    simp only [List.cons_append, List.chain_cons] at hc
    rcases List.mem_cons.1 hx with rfl | hx
    · obtain ⟨v, hv, _⟩ := nextOf_eq_some.1 hc.1
      exact lt_of_getElem?_some hv
    · exact chain_next_valid l y b hc.2 x hx

/-- the body of the loop of `copyVertexList` -/
theorem copyVertexList_body (h : Heap) (cv : Vertex) (newHead lastCopied : Option Nat)
    (hinv : newHead = none ∨ ∃ lc, lastCopied = some lc ∧ lc < h.length) :
    ∃ hr : Heap, hr.length = h.length + 1 ∧
      (∀ b, b < h.length → hr[b]? =
        if newHead ≠ none ∧ lastCopied = some b then
          (h[b]?).map fun (v : Vertex) => { v with next := some h.length }
        else h[b]?) ∧
      hr[h.length]? = some { Vertex.copy cv with
        prev := if newHead = none then none else lastCopied } ∧
      (if newHead = none then
          some ((alloc h (Vertex.copy cv)).1, some (alloc h (Vertex.copy cv)).2)
        else
          (store (alloc h (Vertex.copy cv)).1 lastCopied fun v =>
            { v with next := some (alloc h (Vertex.copy cv)).2 }).bind fun h2 =>
          (store h2 (some (alloc h (Vertex.copy cv)).2) fun v =>
            { v with prev := lastCopied }).bind fun h3 =>
          some (h3, newHead)) =
        some (hr, if newHead = none then some h.length else newHead) := by
  by_cases hnh : newHead = none
  · subst hnh
    refine ⟨(alloc h (Vertex.copy cv)).1, by simp [alloc], fun b hb => ?_, ?_, by simp [alloc]⟩
    · simp [getElem?_alloc, Nat.ne_of_lt hb]
    · simp [getElem?_alloc, Vertex.copy]
  · obtain ⟨lc, rfl, hlc⟩ := hinv.resolve_left hnh
    simp only [hnh, if_false]
    rw [store_eq_upd _ (by simp [alloc]; omega)]
    simp only [Option.some_bind]
    rw [store_eq_upd _ (by simp [alloc])]
    refine ⟨_, by simp [alloc], fun b hb => ?_, ?_, rfl⟩
    · simp only [getElem?_upd, alloc, getElem?_snoc, Nat.ne_of_lt hb, if_false]
      by_cases e : b = lc
      · subst e; simp [Nat.ne_of_lt hb, hnh]
      · have e' : ¬ (lc = b) := fun e' => e e'.symm
        simp [e, e']
    · simp only [alloc]
      rw [getElem?_upd, if_pos rfl, getElem?_upd, if_neg (Nat.ne_of_gt hlc), getElem?_snoc,
        if_pos rfl]
      simp [Vertex.copy, hnh]

/-- the loop of `copyVertexList`: the cells of the copy are appended to the
heap, linked in a row; of the old cells only `lastCopied` is written -/
theorem copyVertexListLoop_spec {hd : Nat} :
    ∀ (post : List Nat) (cur fuel : Nat) (h : Heap) (newHead lastCopied : Option Nat),
      List.Chain (fun a b => nextOf h a = some b) cur (post ++ [hd]) → hd ∉ post →
      post.length < fuel →
      (newHead = none ∨ ∃ lc, lastCopied = some lc ∧ lc < h.length ∧ lc ∉ cur :: post) →
      ∃ h', copyVertexListLoop hd fuel h (some cur) newHead lastCopied =
          some (h', (if newHead = none then some h.length else newHead),
            some (h.length + post.length)) ∧
        h'.length = h.length + post.length + 1 ∧
        (∀ b, b < h.length → h'[b]? =
          if newHead ≠ none ∧ lastCopied = some b then
            (h[b]?).map fun (v : Vertex) => { v with next := some h.length }
          else h[b]?) ∧
        ∀ i (hi : i < (cur :: post).length), ∃ v, h[(cur :: post)[i]]? = some v ∧
          h'[h.length + i]? = some { Vertex.copy v with
            prev := if i = 0 then (if newHead = none then none else lastCopied)
                    else some (h.length + i - 1),
            next := if i < post.length then some (h.length + i + 1) else none }
  | [], cur, fuel, h, newHead, lastCopied, hc, _, hf, hinv => by
    obtain ⟨fuel, rfl⟩ : ∃ f, fuel = f + 1 := ⟨fuel - 1, by simp at hf; omega⟩
    simp only [List.nil_append, List.chain_cons, List.Chain.nil, and_true] at hc
    obtain ⟨cv, hcv, hnext⟩ := nextOf_eq_some.1 hc
    have hcur := lt_of_getElem?_some hcv
    obtain ⟨hr, hrlen, hrold, hrnew, hbody⟩ := copyVertexList_body h cv newHead lastCopied
      (hinv.imp id fun ⟨lc, h1, h2, _⟩ => ⟨lc, h1, h2⟩)
    have hsrc : hr[cur]? = h[cur]? := by
      rw [hrold cur hcur]
      by_cases hnh : newHead = none
      · simp [hnh]
      · obtain ⟨lc, rfl, hlc, hlcn⟩ := hinv.resolve_left hnh
        have : lc ≠ cur := fun e => hlcn (by simp [e])
        simp [this]
    unfold copyVertexListLoop
    simp only [load, hcv, Option.some_bind]
    rw [hbody]
    simp only [Option.some_bind, load, hsrc, hcv, hnext, ne_eq, not_true_eq_false, if_false,
      alloc]
    refine ⟨hr, rfl, by simpa using hrlen, hrold, fun i hi => ?_⟩
    have : i = 0 := by simpa using hi
    subst this
    exact ⟨cv, hcv, by simpa using hrnew⟩
  | x :: post, cur, fuel, h, newHead, lastCopied, hc, hnot, hf, hinv => by
    obtain ⟨fuel, rfl⟩ : ∃ f, fuel = f + 1 := ⟨fuel - 1, by simp at hf; omega⟩
    have hvalid := chain_next_valid (x :: post) cur hd hc
    simp only [List.cons_append, List.chain_cons] at hc
    obtain ⟨cv, hcv, hnext⟩ := nextOf_eq_some.1 hc.1
    have hcur := lt_of_getElem?_some hcv
    have hx : x ≠ hd := fun e => hnot (by simp [e])
    obtain ⟨hr, hrlen, hrold, hrnew, hbody⟩ := copyVertexList_body h cv newHead lastCopied
      (hinv.imp id fun ⟨lc, h1, h2, _⟩ => ⟨lc, h1, h2⟩)
    -- the source cells are not written
    have hsrc : ∀ a ∈ cur :: x :: post, hr[a]? = h[a]? := by
      intro a ha
      rw [hrold a (hvalid a ha)]
      by_cases hnh : newHead = none
      · simp [hnh]
      · obtain ⟨lc, rfl, hlc, hlcn⟩ := hinv.resolve_left hnh
        have : lc ≠ a := fun e => hlcn (e ▸ ha)
        simp [this]
    have hc1 : List.Chain (fun a b => nextOf hr a = some b) x (post ++ [hd]) := by
      apply chain_next_frame _ _ _ hc.2
      intro a ha
      simp only [nextOf, hsrc a (List.mem_cons_of_mem _ ha)]
    have hnh2 : (if newHead = none then some h.length else newHead) ≠ none := by
      split_ifs with e
      · simp
      · exact e
    obtain ⟨h', he, hlen', hold', hnew'⟩ := copyVertexListLoop_spec post x fuel hr
      (if newHead = none then some h.length else newHead) (some h.length) hc1
      (fun hm => hnot (List.mem_cons_of_mem _ hm)) (by simp at hf; omega)
      (Or.inr ⟨h.length, rfl, by omega, fun hm =>
        absurd (hvalid _ (List.mem_cons_of_mem _ hm)) (lt_irrefl _)⟩)
    unfold copyVertexListLoop
    simp only [load, hcv, Option.some_bind]
    rw [hbody]
    simp only [Option.some_bind, load, hsrc cur (by simp), hcv, hnext, alloc]
    rw [if_pos (by simpa using hx), he]
    have elen : hr.length + post.length = h.length + (x :: post).length := by
      simp only [List.length_cons]; omega
    refine ⟨h', ?_, ?_, fun b hb => ?_, fun i hi => ?_⟩
    · rw [if_neg hnh2, elen]
    · rw [hlen']; simp only [List.length_cons]; omega
    · rw [hold' b (by omega), if_neg (by rintro ⟨_, e⟩; cases e; omega)]
      exact hrold b hb
    · cases i with
      | zero =>
        refine ⟨cv, hcv, ?_⟩
        rw [Nat.add_zero, hold' h.length (by omega), if_pos ⟨hnh2, rfl⟩, hrnew]
        simp [hrlen]
      | succ i =>
        have hi' : i < (x :: post).length := by simpa using hi
        obtain ⟨v, hv, hcell⟩ := hnew' i hi'
        refine ⟨v, ?_, ?_⟩
        · have hs := hsrc _ (List.mem_cons_of_mem _ (List.getElem_mem hi'))
          rw [hv] at hs
          simpa using hs.symm
        · have e1 : h.length + (i + 1) = hr.length + i := by omega
          have hp : (if i = 0 then
                (if (if newHead = none then some h.length else newHead) = none then none
                  else some h.length)
              else some (hr.length + i - 1)) =
              (if i + 1 = 0 then (if newHead = none then none else lastCopied)
                else some (h.length + (i + 1) - 1)) := by
            rw [if_neg (Nat.succ_ne_zero i), if_neg hnh2]
            split_ifs with e
            · subst e; rfl
            · congr 1; omega
          have hn : (if i < post.length then some (hr.length + i + 1) else none) =
              (if i + 1 < (x :: post).length then some (h.length + (i + 1) + 1) else none) := by
            by_cases e : i < post.length
            · rw [if_pos e, if_pos (by simpa using e)]; congr 1; omega
            · rw [if_neg e, if_neg (by simpa using e)]
          rw [hp, hn, ← e1] at hcell
          exact hcell

/-- cells `n, n+1, ..., n+m-1` linked in a circle form a ring -/
theorem isRing_of_range {h : Heap} {n m : Nat}
    (hnext : ∀ i, i < m → nextOf h (n + i) = some (n + (if i + 1 < m then i + 1 else 0)))
    (hprev : ∀ i, i < m → prevOf h (n + i) = some (n + (if i = 0 then m - 1 else i - 1))) :
    ∀ k j, j + k + 1 = m → List.Chain (Link h) (n + j) (List.range' (n + j + 1) k ++ [n])
  | 0, j, hj => by
    simp only [List.range'_zero, List.nil_append, List.chain_cons, List.Chain.nil, and_true, Link]
    constructor
    · rw [hnext j (by omega), if_neg (by omega)]; rfl
    · have := hprev 0 (by omega)
      simp only [Nat.add_zero, if_true] at this
      rw [this]; congr 1; omega
  | k + 1, j, hj => by
    rw [List.range'_succ]
    simp only [List.cons_append, List.chain_cons, Link]
    refine ⟨⟨?_, ?_⟩, ?_⟩
    · rw [hnext j (by omega), if_pos (by omega)]; rfl
    · have := hprev (j + 1) (by omega)
      rw [if_neg (by omega)] at this
      rw [show n + j + 1 = n + (j + 1) by omega, this]
      congr 1
    · have := isRing_of_range hnext hprev k (j + 1) (by omega)
      rw [show n + j + 1 = n + (j + 1) by omega]
      exact this

/-- the function `copyVertexList` on a ring: the copy is the row of new cells
`h.length, h.length + 1, ...`, closed into a ring; no old cell is changed -/
theorem copyVertexList_spec {h : Heap} {P : Polygon} {hd : Nat} {rest : List Nat}
    (hr : RingOf h P (hd :: rest)) :
    ∃ h', copyVertexList h P = some (h', some h.length) ∧
      h'.length = h.length + rest.length + 1 ∧
      (∀ b, b < h.length → h'[b]? = h[b]?) ∧
      ∀ i (hi : i < (hd :: rest).length), ∃ v, h[(hd :: rest)[i]]? = some v ∧
        h'[h.length + i]? = some { Vertex.copy v with
          prev := some (h.length + (if i = 0 then rest.length else i - 1)),
          next := some (h.length + (if i < rest.length then i + 1 else 0)) } := by
  obtain ⟨hP, hring⟩ := hr
  have hlen := hring.length_le
  obtain ⟨h1, he, hlen1, hold, hnew⟩ := copyVertexListLoop_spec rest hd h.length h none none
    (hring.2.imp fun a b hab => hab.1) (List.nodup_cons.1 hring.1).1 (by simpa using hlen)
    (Or.inl rfl)
  simp only [if_true, ne_eq, not_true_eq_false, false_and, if_false] at he hold hnew
  unfold copyVertexList
  simp only [hP, he, Option.some_bind, ne_eq, reduceCtorEq, not_false_eq_true, and_self, if_true]
  rw [store_eq_upd _ (by omega)]
  simp only [Option.some_bind]
  rw [store_eq_upd _ (by simp; omega)]
  refine ⟨_, rfl, by simp [hlen1], fun b hb => ?_, fun i hi => ?_⟩
  · rw [getElem?_upd, if_neg (by omega), getElem?_upd, if_neg (by omega)]
    exact hold b hb
  · obtain ⟨v, hv, hcell⟩ := hnew i hi
    refine ⟨v, hv, ?_⟩
    have hi' : i ≤ rest.length := by simpa [Nat.lt_succ_iff] using hi
    simp only [getElem?_upd]
    by_cases h0 : i = 0
    · subst h0
      simp only [Nat.add_zero] at hcell ⊢
      by_cases hl : rest.length = 0
      · simp [hl, hcell]
      · have hl' : ¬ (h.length = h.length + rest.length) := by omega
        have hl2 : 0 < rest.length := by omega
        simp [hl', hl2, hcell]
    · have h0' : ¬ (h.length + i = h.length) := by omega
      by_cases hl : i = rest.length
      · subst hl; simp [h0, h0', hcell]; omega
      · have hl' : ¬ (h.length + i = h.length + rest.length) := by omega
        have : i < rest.length := by omega
        simp [h0, h0', hl', this, hcell]; omega

theorem map_pointOf_of_forall₂ {h h' : Heap} {l l' : List Nat}
    (hf : List.Forall₂ (fun a a' => ∃ v v', h[a]? = some v ∧ h'[a']? = some v' ∧
      IsCopyOf v v') l l') : l'.map (pointOf h') = l.map (pointOf h) := by
  induction hf with
  | nil => rfl
  | cons hab _ ih =>
    obtain ⟨v, v', hv, hv', hc⟩ := hab
    simp only [List.map_cons, ih, pointOf, hv, hv', hc.1]

/-- the copy constructor on a ring: the clone is a ring of new cells, cell by
cell a copy of the source; no old cell is changed -/
theorem copy_ring {h : Heap} {P : Polygon} {l : List Nat} (hr : RingOf h P l) :
    ∃ h' P', Polygon.copy h P = some (h', P') ∧
      RingOf h' P' (List.range' h.length l.length) ∧
      h'.length = h.length + l.length ∧ (∀ b, b < h.length → h'[b]? = h[b]?) ∧
      List.Forall₂ (fun a a' => ∃ v v', h[a]? = some v ∧ h'[a']? = some v' ∧ IsCopyOf v v')
        l (List.range' h.length l.length) ∧
      P'.clockwise = P.clockwise ∧ P'.directionCalculated = P.directionCalculated := by
  cases l with
  | nil =>
    have hP : P.head = none := hr
    refine ⟨h, ⟨none, P.clockwise, P.directionCalculated⟩, by simp [Polygon.copy, hP], ?_, rfl,
      fun _ _ => rfl, ?_, rfl, rfl⟩
    · simp [RingOf]
    · simp
  | cons hd rest =>
    obtain ⟨h', he, hlen, hold, hnew⟩ := copyVertexList_spec hr
    have hP := hr.1
    refine ⟨h', ⟨some h.length, P.clockwise, P.directionCalculated⟩,
      by simp [Polygon.copy, hP, he], ?_, by simp [hlen]; omega, hold, ?_, rfl, rfl⟩
    · simp only [List.length_cons, List.range'_succ]
      refine ⟨rfl, ?_, ?_⟩
      · rw [← List.range'_succ]
        exact List.nodup_range' _ _
      · have := isRing_of_range (h := h') (n := h.length) (m := rest.length + 1) ?_ ?_
          rest.length 0 (by omega)
        · simpa using this
        · intro i hi
          obtain ⟨v, _, hcell⟩ := hnew i (by simpa using hi)
          simp only [nextOf, hcell, Option.some_bind, Nat.add_lt_add_iff_right]
        · intro i hi
          obtain ⟨v, _, hcell⟩ := hnew i (by simpa using hi)
          simp only [prevOf, hcell, Option.some_bind, Nat.add_sub_cancel]
    · rw [List.forall₂_iff_get]
      refine ⟨by simp, fun i hi hi' => ?_⟩
      obtain ⟨v, hv, hcell⟩ := hnew i hi
      have hidx : (List.range' h.length (hd :: rest).length).get ⟨i, hi'⟩ = h.length + i := by
        simp [List.getElem_range']
      refine ⟨v, _, by simpa using hv, by rw [hidx]; exact hcell, ?_⟩
      simp [IsCopyOf, Vertex.copy]

theorem getPoints_copy {h : Heap} {P : Polygon} {l : List Nat} (hr : RingOf h P l)
    {h' : Heap} {P' : Polygon} (he : Polygon.copy h P = some (h', P')) :
    Polygon.getPoints h' P' = Polygon.getPoints h P := by
  obtain ⟨h1, P1, he1, hr1, _, _, hf, _⟩ := copy_ring hr
  rw [he] at he1
  cases he1
  rw [getPoints_ring hr1, getPoints_ring hr, map_pointOf_of_forall₂ hf]

/-- the loop of `clearVertices` walks once around the ring -/
theorem clearVerticesLoop_spec {h : Heap} {hd : Nat} :
    ∀ (post : List Nat) (cur fuel : Nat),
      List.Chain (Link h) cur (post ++ [hd]) → hd ∉ post → post.length < fuel →
      clearVerticesLoop h hd fuel (some cur) = some ()
  | [], cur, fuel, hc, _, hf => by
    obtain ⟨fuel, rfl⟩ : ∃ f, fuel = f + 1 := ⟨fuel - 1, by simp at hf; omega⟩
    simp only [List.nil_append, List.chain_cons, List.Chain.nil, and_true] at hc
    obtain ⟨v, hv, hnext⟩ := nextOf_eq_some.1 hc.1
    simp [clearVerticesLoop, load, hv, hnext]
  | x :: post, cur, fuel, hc, hnot, hf => by
    obtain ⟨fuel, rfl⟩ : ∃ f, fuel = f + 1 := ⟨fuel - 1, by simp at hf; omega⟩
    simp only [List.cons_append, List.chain_cons] at hc
    obtain ⟨v, hv, hnext⟩ := nextOf_eq_some.1 hc.1.1
    have hx : x ≠ hd := fun e => hnot (by simp [e])
    have ih := clearVerticesLoop_spec post x fuel hc.2
      (fun hm => hnot (List.mem_cons_of_mem _ hm)) (by simp at hf; omega)
    simp only [clearVerticesLoop, load, hv, hnext, Option.some_bind]
    rw [if_pos (by simpa using hx), ih]

theorem clearVertices_ring {h : Heap} {P : Polygon} {l : List Nat} (hr : RingOf h P l) :
    Polygon.clearVertices h P = some (h, { P with head := none }) := by
  cases l with
  | nil =>
    have hP : P.head = none := hr
    simp only [clearVertices, hP]
    cases P
    simp_all
  | cons hd rest =>
    obtain ⟨hP, hring⟩ := hr
    have hlen := hring.length_le
    simp only [clearVertices, hP]
    rw [clearVerticesLoop_spec rest hd h.length hring.2 (List.nodup_cons.1 hring.1).1
      (by simpa using hlen)]
    rfl

/-- C4, amended. Cloning a ring, by the copy constructor or by the copy
assignment into a polygon `Q`, succeeds and yields a ring with the same point
sequence; every vertex of the clone has no neighbor link and has the
intersection flag of the vertex it was copied from. -/
theorem C4_clone_keeps_flags {h : Heap} {P Q : Polygon} {l lq : List Nat}
    (hr : RingOf h P l) (hq : RingOf h Q lq) :
    (∃ h' P' l', Polygon.copy h P = some (h', P') ∧ RingOf h' P' l' ∧
      Polygon.getPoints h' P' = Polygon.getPoints h P ∧
      List.Forall₂ (fun a a' => ∃ v v', h[a]? = some v ∧ h'[a']? = some v' ∧
        v'.neighbor = none ∧ v'.intersect = v.intersect) l l') ∧
    (∃ h' Q' l', Polygon.assign h Q P = some (h', Q') ∧ RingOf h' Q' l' ∧
      Polygon.getPoints h' Q' = Polygon.getPoints h P ∧
      List.Forall₂ (fun a a' => ∃ v v', h[a]? = some v ∧ h'[a']? = some v' ∧
        v'.neighbor = none ∧ v'.intersect = v.intersect) l l') := by
  obtain ⟨h', P', he, hr', _, _, hf, hcw, hdc⟩ := copy_ring hr
  have hf' : List.Forall₂ (fun a a' => ∃ v v', h[a]? = some v ∧ h'[a']? = some v' ∧
      v'.neighbor = none ∧ v'.intersect = v.intersect) l (List.range' h.length l.length) :=
    hf.imp fun a a' ⟨v, v', hv, hv', hc⟩ => ⟨v, v', hv, hv', hc.2.2.1, hc.2.2.2.1⟩
  refine ⟨⟨h', P', _, he, hr', getPoints_copy hr he, hf'⟩, ?_⟩
  refine ⟨h', P', _, ?_, hr', getPoints_copy hr he, hf'⟩
  simp only [assign, clearVertices_ring hq, Option.some_bind]
  cases l with
  | nil =>
    have hP : P.head = none := hr
    simp only [Polygon.copy, hP, Option.some.injEq, Prod.mk.injEq] at he
    obtain ⟨rfl, rfl⟩ := he
    simp [hP]
  | cons hd rest =>
    have hP := hr.1
    simp only [Polygon.copy, hP] at he
    simp only [hP]
    cases hc : copyVertexList h P with
    | none => simp [hc] at he
    | some r =>
      simp only [hc, Option.some_bind, Option.some.injEq, Prod.mk.injEq] at he ⊢
      obtain ⟨rfl, rfl⟩ := he
      simp

/-- C4, as stated, fails: in `crossedState` the ring `(0,0),(1/2,0),(1,0),(1,1)`
has an inserted intersection vertex as second vertex (cell `3`, with a neighbor
link); in its clone the second vertex (cell `5`) has no neighbor link but is
flagged as an intersection vertex. -/
theorem C4_counterexample :
    RingOf crossedState.1 crossedState.2 [0, 3, 1, 2] ∧
    (load crossedState.1 (some 3)).map (fun v => (v.intersect, v.neighbor)) =
      some (true, some 2) ∧
    (Polygon.copy crossedState.1 crossedState.2).map (fun r =>
      (r.2.head, iterNext r.1 1 4, (load r.1 (some 5)).map Vertex.intersect,
        (load r.1 (some 5)).map Vertex.neighbor)) =
      some (some 4, some 5, some true, some none) := by
  decide!

theorem C4_clone_keeps_flags_witness :
    RingOf crossedState.1 crossedState.2 [0, 3, 1, 2] ∧ RingOf crossedState.1 Polygon.empty [] ∧
    ((∃ h' P' l', Polygon.copy crossedState.1 crossedState.2 = some (h', P') ∧
      RingOf h' P' l' ∧
      Polygon.getPoints h' P' = Polygon.getPoints crossedState.1 crossedState.2 ∧
      List.Forall₂ (fun a a' => ∃ v v', crossedState.1[a]? = some v ∧ h'[a']? = some v' ∧
        v'.neighbor = none ∧ v'.intersect = v.intersect) [0, 3, 1, 2] l') ∧
    (∃ h' Q' l', Polygon.assign crossedState.1 Polygon.empty crossedState.2 = some (h', Q') ∧
      RingOf h' Q' l' ∧
      Polygon.getPoints h' Q' = Polygon.getPoints crossedState.1 crossedState.2 ∧
      List.Forall₂ (fun a a' => ∃ v v', crossedState.1[a]? = some v ∧ h'[a']? = some v' ∧
        v'.neighbor = none ∧ v'.intersect = v.intersect) [0, 3, 1, 2] l')) :=
  ⟨by decide!, by decide!,
    @C4_clone_keeps_flags crossedState.1 crossedState.2 Polygon.empty [0, 3, 1, 2] []
      (by decide!) (by decide!)⟩

end PolygonBoolean

/-! ### BooleanNative: the intersection search on two crossing squares -/

namespace PolygonBoolean
open Polygon

theorem lineSegmentIntersection_stuck :
    lineSegmentIntersection ⟨1, 0⟩ ⟨1, 1⟩ ⟨1 / 2, 1 / 2⟩ ⟨3 / 2, 1 / 2⟩ =
      some (⟨1, 1 / 2⟩, 1 / 2, 1 / 2) ∧
    lineSegmentIntersection ⟨1, 0⟩ ⟨1, 1 / 2⟩ ⟨1, 1 / 2⟩ ⟨3 / 2, 1 / 2⟩ =
      some (⟨1, 1 / 2⟩, 1, 0) := by
  decide!

theorem findIntersectionsBody_stuck {h : Heap} {cB : Nat} (hs : Stuck h cB) :
    ∃ h', findIntersectionsBody (some 13) (some cB) h = some (h', some (h.length + 1)) ∧
      h'.length = h.length + 2 ∧ Stuck h' (h.length + 1) := by
  obtain ⟨an, bn, va, vb, van, vbn, h13, hcB, han, hbn, hva, hvb, hne, hlen, hpa, hpbn, hcase⟩ := hs
  have hI : ∃ t1 t2, lineSegmentIntersection va.point van.point vb.point vbn.point =
      some (⟨1, 1 / 2⟩, t1, t2) := by
    rcases hcase with ⟨e1, e2⟩ | ⟨e1, e2⟩ <;> rw [hpa, e1, e2, hpbn]
    · exact ⟨_, _, lineSegmentIntersection_stuck.1⟩
    · exact ⟨_, _, lineSegmentIntersection_stuck.2⟩
  obtain ⟨t1, t2, hI⟩ := hI
  have l13 := lt_of_getElem?_some h13
  have lcB := lt_of_getElem?_some hcB
  have lan := lt_of_getElem?_some han
  have lbn := lt_of_getElem?_some hbn
  -- the heap after the two allocations and the two neighbor links
  have la : ∀ (g : Heap) (v : Vertex), (alloc g v).1.length = g.length + 1 := fun g v => by
    simp [alloc]
  have a1 : ∀ v, (alloc h v).2 = h.length := fun _ => rfl
  have a2 : ∀ v w, (alloc (alloc h v).1 w).2 = h.length + 1 := fun v w => by simp [alloc]
  have e3 := store_eq_upd (h := (alloc (alloc h (Vertex.ofPointAlpha ⟨1, 1 / 2⟩ t1)).1
      (Vertex.ofPointAlpha ⟨1, 1 / 2⟩ t2)).1) (a := h.length)
      (fun v => { v with neighbor := some (h.length + 1) }) (by rw [la, la]; omega)
  have e4 := store_eq_upd (h := upd (alloc (alloc h (Vertex.ofPointAlpha ⟨1, 1 / 2⟩ t1)).1
      (Vertex.ofPointAlpha ⟨1, 1 / 2⟩ t2)).1 h.length
        (fun v => { v with neighbor := some (h.length + 1) })) (a := h.length + 1)
      (fun v => { v with neighbor := some h.length }) (by rw [length_upd, la, la]; omega)
  generalize hh4 : upd (upd (alloc (alloc h (Vertex.ofPointAlpha ⟨1, 1 / 2⟩ t1)).1
      (Vertex.ofPointAlpha ⟨1, 1 / 2⟩ t2)).1 h.length
        (fun v => { v with neighbor := some (h.length + 1) })) (h.length + 1)
      (fun v => { v with neighbor := some h.length }) = h4 at e4
  have len4 : h4.length = h.length + 2 := by
    rw [← hh4, length_upd, length_upd, la, la]
  have hcell4 : ∀ b, h4[b]? =
      if b = h.length then
        some { Vertex.ofPointAlpha ⟨1, 1 / 2⟩ t1 with neighbor := some (h.length + 1) }
      else if b = h.length + 1 then
        some { Vertex.ofPointAlpha ⟨1, 1 / 2⟩ t2 with neighbor := some h.length }
      else h[b]? := by
    intro b
    rw [← hh4]
    simp only [getElem?_upd, getElem?_alloc, la]
    by_cases hb1 : b = h.length
    · subst hb1; simp
    · by_cases hb2 : b = h.length + 1
      · subst hb2; simp
      · simp [hb1, hb2]
  have c13 : h4[13]? = some va := by
    rw [hcell4, if_neg (by omega), if_neg (by omega)]; exact h13
  have cA : h4[h.length]? =
      some { Vertex.ofPointAlpha ⟨1, 1 / 2⟩ t1 with neighbor := some (h.length + 1) } := by
    rw [hcell4, if_pos rfl]
  have can : h4[an]? = some van := by
    rw [hcell4, if_neg (by omega), if_neg (by omega)]; exact han
  obtain ⟨h5, e5, len5, hcell5⟩ :=
    insertVertexAfter_spec c13 cA can hva (by omega) (by omega)
  have ccB : h5[cB]? = some { vb with prev := if cB = an then some h.length else vb.prev } := by
    rw [hcell5, hcell4, if_neg (by omega), if_neg (by omega), hcB]
    simp [hne, show cB ≠ h.length by omega]
  have cB' : h5[h.length + 1]? =
      some { Vertex.ofPointAlpha ⟨1, 1 / 2⟩ t2 with neighbor := some h.length } := by
    rw [hcell5, hcell4, if_neg (by omega), if_pos rfl]
    simp [show h.length + 1 ≠ an by omega, show h.length + 1 ≠ 13 by omega, Vertex.ofPointAlpha]
  obtain ⟨vbn5, cbn, hpbn5⟩ : ∃ v, h5[bn]? = some v ∧ v.point = ⟨3 / 2, 1 / 2⟩ := by
    rw [hcell5, hcell4, if_neg (by omega), if_neg (by omega), hbn]
    exact ⟨_, rfl, hpbn⟩
  obtain ⟨h6, e6, len6, hcell6⟩ :=
    insertVertexAfter_spec ccB cB' cbn hvb (by omega) (by omega)
  refine ⟨h6, ?_, by omega, ?_⟩
  · unfold findIntersectionsBody
    simp only [load, h13, hva, han, hcB, hvb, hbn, Option.some_bind, hI]
    simp only [a1, a2]
    rw [e3]
    simp only [Option.some_bind]
    rw [e4]
    simp only [Option.some_bind]
    rw [e5]
    simp only [Option.some_bind]
    rw [e6]
    simp only [Option.some_bind, hcell6, ccB, Option.map_some', if_pos]
  · have hold : ∀ b v, h[b]? = some v → ∃ w, h6[b]? = some w ∧ w.point = v.point ∧
        w.next = if b = cB then some (h.length + 1) else if b = 13 then some h.length
          else v.next := by
      intro b v hv
      have lb := lt_of_getElem?_some hv
      rw [hcell6, hcell5, hcell4, if_neg (by omega), if_neg (by omega), hv]
      refine ⟨_, rfl, rfl, ?_⟩
      simp only [show b ≠ h.length + 1 by omega, show b ≠ h.length by omega, if_false]
    obtain ⟨wa, hwa, hwap, hwan⟩ := hold 13 va h13
    obtain ⟨wbn, hwbn, hwbnp, _⟩ := hold bn vbn hbn
    have hnewA : ∃ w, h6[h.length]? = some w ∧ w.point = ⟨1, 1 / 2⟩ := by
      rw [hcell6, hcell5, hcell4, if_pos rfl]
      exact ⟨_, rfl, rfl⟩
    have hnewB : ∃ w, h6[h.length + 1]? = some w ∧ w.point = ⟨1, 1 / 2⟩ ∧ w.next = some bn := by
      rw [hcell6, cB']
      refine ⟨_, rfl, rfl, ?_⟩
      simp [show h.length + 1 ≠ cB by omega]
    obtain ⟨wA, hwA, hwAp⟩ := hnewA
    obtain ⟨wB, hwB, hwBp, hwBn⟩ := hnewB
    rw [if_neg (Ne.symm hne), if_pos rfl] at hwan
    exact ⟨h.length, bn, wa, wB, wA, wbn, hwa, hwB, hwA, hwbn, hwan, hwBn, by omega, by omega,
      hwap.trans hpa, hwbnp.trans hpbn, Or.inr ⟨hwAp, hwBp⟩⟩

theorem findIntersectionsInner_stuck :
    ∀ (fuel : Nat) (h : Heap) (cB : Nat), Stuck h cB →
      findIntersectionsInner 16 (some 13) fuel h (some cB) = none
  | 0, _, _, _ => rfl
  | fuel + 1, h, cB, hs => by
    obtain ⟨h', e, _, hs'⟩ := findIntersectionsBody_stuck hs
    have hl : 16 < h.length := by
      obtain ⟨_, _, _, _, _, _, _, _, _, _, _, _, _, hlen, _⟩ := hs
      exact hlen
    simp only [findIntersectionsInner, e, Option.some_bind]
    have hne : some (h.length + 1) ≠ some 16 := fun e' => by
      have := Option.some.inj e'
      omega
    rw [if_pos hne]
    exact findIntersectionsInner_stuck fuel h' _ hs'

theorem findIntersectionsRun_stuck :
    ∀ (n : Nat) (h : Heap) (cB : Nat), Stuck h cB →
      ∃ h' cB', findIntersectionsRun (some 13) (n + 1) h (some cB) = some (h', some cB') ∧
        cB' ≠ 16 ∧ h'.length = h.length + 2 * (n + 1)
  | 0, h, cB, hs => by
    obtain ⟨h', e, hlen, hs'⟩ := findIntersectionsBody_stuck hs
    have hl : 16 < h.length := by
      obtain ⟨_, _, _, _, _, _, _, _, _, _, _, _, _, hlen, _⟩ := hs
      exact hlen
    exact ⟨h', h.length + 1, by simp [findIntersectionsRun, e], by omega, by omega⟩
  | n + 1, h, cB, hs => by
    obtain ⟨h', e, hlen, hs'⟩ := findIntersectionsBody_stuck hs
    obtain ⟨h2, cB2, e2, hne, hlen2⟩ := findIntersectionsRun_stuck n h' _ hs'
    refine ⟨h2, cB2, ?_, hne, by omega⟩
    rw [findIntersectionsRun, e]
    exact e2

theorem findIntersectionsInner_mono (otherHead : Nat) (currentA : Option Nat) :
    ∀ (fuel : Nat) (h : Heap) (currentB : Option Nat) (r : Heap),
      findIntersectionsInner otherHead currentA fuel h currentB = some r →
      findIntersectionsInner otherHead currentA (fuel + 1) h currentB = some r
  | 0, _, _, _, e => by cases e
  | fuel + 1, h, currentB, r, e => by
    rw [findIntersectionsInner] at e ⊢
    cases hb : findIntersectionsBody currentA currentB h with
    | none => rw [hb] at e; cases e
    | some s =>
      rw [hb] at e
      simp only [Option.some_bind] at e ⊢
      by_cases hc : s.2 ≠ some otherHead
      · rw [if_pos hc] at e ⊢
        exact findIntersectionsInner_mono otherHead currentA fuel _ _ _ e
      · rw [if_neg hc] at e ⊢
        exact e

theorem findIntersectionsInner_mono_add (otherHead : Nat) (currentA : Option Nat)
    (fuel : Nat) (h : Heap) (currentB : Option Nat) (r : Heap)
    (e : findIntersectionsInner otherHead currentA fuel h currentB = some r) :
    ∀ k, findIntersectionsInner otherHead currentA (fuel + k) h currentB = some r
  | 0 => e
  | k + 1 => findIntersectionsInner_mono otherHead currentA (fuel + k) h currentB r
      (findIntersectionsInner_mono_add otherHead currentA fuel h currentB r e k)

theorem squaresWork_stuck : Stuck squaresWork.1 16 :=
  ⟨14, 17, (squaresWork.1[13]?).getD (Vertex.ofPoint ⟨0, 0⟩),
    (squaresWork.1[16]?).getD (Vertex.ofPoint ⟨0, 0⟩),
    (squaresWork.1[14]?).getD (Vertex.ofPoint ⟨0, 0⟩),
    (squaresWork.1[17]?).getD (Vertex.ofPoint ⟨0, 0⟩),
    by decide!, by decide!, by decide!, by decide!, by decide!, by decide!, by decide,
    by decide!, by decide!, by decide!, Or.inl ⟨by decide!, by decide!⟩⟩

theorem findIntersections_squares (fuel : Nat) :
    findIntersections fuel squaresWork.1 squaresWork.2.1 squaresWork.2.2 = none := by
  have hP : squaresWork.2.1.head = some 12 := by decide!
  have hQ : squaresWork.2.2.head = some 16 := by decide!
  have hfirst : ∀ f, findIntersectionsInner 16 (some 12) f squaresWork.1 (some 16) = none ∨
      findIntersectionsInner 16 (some 12) f squaresWork.1 (some 16) = some squaresWork.1 := by
    intro f
    have h4 : findIntersectionsInner 16 (some 12) 4 squaresWork.1 (some 16) =
        some squaresWork.1 := by decide!
    rcases Nat.lt_or_ge f 4 with hf | hf
    · left
      interval_cases f <;> decide!
    · right
      obtain ⟨k, rfl⟩ := Nat.exists_eq_add_of_le hf
      exact findIntersectionsInner_mono_add _ _ _ _ _ _ h4 k
  obtain ⟨a, ha, han⟩ : ∃ a, load squaresWork.1 (some 12) = some a ∧ a.next = some 13 :=
    ⟨(squaresWork.1[12]?).getD (Vertex.ofPoint ⟨0, 0⟩), by decide!, by decide!⟩
  simp only [findIntersections, hP, hQ]
  cases fuel with
  | zero => rfl
  | succ fuel =>
    rw [findIntersectionsOuter]
    rcases hfirst (fuel + 1) with e | e
    · rw [e]; rfl
    · rw [e]
      simp only [Option.some_bind, ha, han]
      rw [if_pos (by decide)]
      cases fuel with
      | zero => rfl
      | succ fuel =>
        rw [findIntersectionsOuter, findIntersectionsInner_stuck _ _ _ squaresWork_stuck]
        rfl

theorem booleanPipeline_squares (fuel : Nat) (operationType : Int) :
    booleanPipeline fuel squaresResult.1 squaresResult.2 squaresState.2.2 operationType = none := by
  have hc1 : Polygon.copy squaresResult.1 squaresResult.2 =
      some ((Polygon.copy squaresResult.1 squaresResult.2).getD ([], Polygon.empty)) := by
    decide!
  have hc2 : Polygon.copy
      ((Polygon.copy squaresResult.1 squaresResult.2).getD ([], Polygon.empty)).1
      squaresState.2.2 = some (squaresWork.1, squaresWork.2.2) := by
    decide!
  have hf := findIntersections_squares fuel
  unfold booleanPipeline
  rw [hc1]
  simp only [Option.some_bind]
  rw [hc2]
  simp only [Option.some_bind]
  have e : ((Polygon.copy squaresResult.1 squaresResult.2).getD ([], Polygon.empty)).2 =
    squaresWork.2.1 := rfl
  rw [e, hf]
  rfl

/-- C8, the failing run. On the unit square `A` and the square `B` with corners
`(1/2,1/2)` and `(3/2,3/2)`, `unionPolygons`, `intersectionPolygons` and
`differencePolygons` return for no amount of fuel. They are all in
`findIntersections`, in the inner loop for the edge of `polyA` from `(1,0)`
(cell `13`): after every number of passes through the body the loop is still
running, with two more vertices on the heap for each pass. -/
theorem C8_findIntersections_never_returns :
    Polygon.getPoints squaresState.1 squaresState.2.1 =
      some [⟨0, 0⟩, ⟨1, 0⟩, ⟨1, 1⟩, ⟨0, 1⟩] ∧
    Polygon.getPoints squaresState.1 squaresState.2.2 =
      some [⟨1 / 2, 1 / 2⟩, ⟨3 / 2, 1 / 2⟩, ⟨3 / 2, 3 / 2⟩, ⟨1 / 2, 3 / 2⟩] ∧
    (∀ fuel, Polygon.unionPolygons fuel squaresState.1 squaresState.2.1 squaresState.2.2 =
      none) ∧
    (∀ fuel, Polygon.intersectionPolygons fuel squaresState.1 squaresState.2.1
      squaresState.2.2 = none) ∧
    (∀ fuel, Polygon.differencePolygons fuel squaresState.1 squaresState.2.1
      squaresState.2.2 = none) ∧
    (∀ fuel, Polygon.findIntersections fuel squaresWork.1 squaresWork.2.1 squaresWork.2.2 =
      none) ∧
    pointOf squaresWork.1 13 = ⟨1, 0⟩ ∧ squaresWork.2.2.head = some 16 ∧
    squaresWork.1.length = 20 ∧
    ∀ n, ∃ h cB, findIntersectionsRun (some 13) (n + 1) squaresWork.1 (some 16) =
      some (h, some cB) ∧ cB ≠ 16 ∧ h.length = 20 + 2 * (n + 1) := by
  have hc : Polygon.copy squaresState.1 squaresState.2.1 = some squaresResult := by decide!
  have hA : squaresResult.2.head = some 8 := by decide!
  have hB : squaresState.2.2.head = some 4 := by decide!
  refine ⟨by decide!, by decide!, fun fuel => ?_, fun fuel => ?_, fun fuel => ?_,
    findIntersections_squares, by decide!, by decide!, by decide!, fun n => ?_⟩
  · simp [unionPolygons, hc, unionWith, hA, hB, booleanPipeline_squares]
  · simp [intersectionPolygons, hc, intersectWith, hA, hB, booleanPipeline_squares]
  · simp [differencePolygons, hc, subtract, hA, hB, booleanPipeline_squares]
  · have hl : squaresWork.1.length = 20 := by decide!
    obtain ⟨h, cB, e, hne, hlen⟩ := findIntersectionsRun_stuck n _ _ squaresWork_stuck
    exact ⟨h, cB, e, hne, by omega⟩

end PolygonBoolean

/-! ### BooleanNative: boolean operations with an empty operand -/

namespace PolygonBoolean

open Polygon

theorem copy_of_head_none (h : Heap) (E : Polygon) (hE : E.head = none) :
    Polygon.copy h E = some (h, ⟨none, E.clockwise, E.directionCalculated⟩) := by
  simp [Polygon.copy, hE]

theorem assign_of_head_none (h : Heap) (P other : Polygon) (hP : P.head = none) :
    Polygon.assign h P other = Polygon.copy h other := by
  unfold Polygon.assign Polygon.copy clearVertices
  cases ho : other.head <;> simp [hP]

theorem getPoints_of_head_none (h : Heap) (P : Polygon) (hP : P.head = none) :
    getPoints h P = some [] := by
  simp [getPoints, hP]

/-- C19. Let `X` be a polygon whose vertices form a ring (or which is empty)
and `E` a polygon without vertices. With any amount of fuel, each of the
static boolean operations with `E` as an operand returns, and the point
sequence of its result follows the trivial-case table: `unionPolygons(E, X)`
and `unionPolygons(X, E)` have the points of `X`, `intersectionPolygons(E, X)`
and `intersectionPolygons(X, E)` have no points, `differencePolygons(X, E)`
has the points of `X` and `differencePolygons(E, X)` has no points. -/
theorem C19_empty_operand (fuel : Nat) (h : Heap) (X E : Polygon) (l : List Nat)
    (hr : RingOf h X l) (hE : E.head = none) :
    getPoints h X = some (l.map (pointOf h)) ∧
    (∃ g R, unionPolygons fuel h E X = some (g, R) ∧ getPoints g R = getPoints h X) ∧
    (∃ g R, unionPolygons fuel h X E = some (g, R) ∧ getPoints g R = getPoints h X) ∧
    (∃ g R, intersectionPolygons fuel h E X = some (g, R) ∧ getPoints g R = some []) ∧
    (∃ g R, intersectionPolygons fuel h X E = some (g, R) ∧ getPoints g R = some []) ∧
    (∃ g R, differencePolygons fuel h X E = some (g, R) ∧ getPoints g R = getPoints h X) ∧
    (∃ g R, differencePolygons fuel h E X = some (g, R) ∧ getPoints g R = some []) := by
  obtain ⟨g, X', hc, hr', _, _, _, _, _⟩ := copy_ring hr
  have hgp := getPoints_copy hr hc
  have hcE := copy_of_head_none h E hE
  refine ⟨getPoints_ring hr, ⟨g, X', ?_, hgp⟩, ?_,
    ⟨h, ⟨none, E.clockwise, false⟩, ?_, getPoints_of_head_none _ _ rfl⟩,
    ⟨g, ⟨none, X'.clockwise, false⟩, ?_, getPoints_of_head_none _ _ rfl⟩,
    ⟨g, X', ?_, hgp⟩,
    ⟨h, ⟨none, E.clockwise, E.directionCalculated⟩, ?_, getPoints_of_head_none _ _ rfl⟩⟩
  · simp only [unionPolygons, hcE, Option.some_bind, unionWith, if_true]
    rw [assign_of_head_none _ _ _ rfl, hc]
  · by_cases hX : X'.head = none
    · refine ⟨g, ⟨none, E.clockwise, E.directionCalculated⟩, ?_, ?_⟩
      · simp only [unionPolygons, hc, Option.some_bind, unionWith, if_pos hX]
        rw [assign_of_head_none _ _ _ hX, copy_of_head_none g E hE]
      · rw [← hgp, getPoints_of_head_none g X' hX]
        rfl
    · refine ⟨g, X', ?_, hgp⟩
      simp only [unionPolygons, hc, Option.some_bind, unionWith, if_neg hX, if_pos hE]
  · simp only [intersectionPolygons, hcE, Option.some_bind, intersectWith, true_or, if_true,
      clear, clearVertices]
  · simp only [intersectionPolygons, hc, Option.some_bind, intersectWith, hE, or_true, if_true,
      clear, clearVertices_ring hr']
  · simp only [differencePolygons, hc, Option.some_bind, subtract, hE, if_true, ite_self]
  · simp only [differencePolygons, hcE, Option.some_bind, subtract, if_true]

theorem C19_empty_operand_witness :
    RingOf triangleState.1 triangleState.2 [0, 1, 2] ∧
    getPoints triangleState.1 triangleState.2 =
      some ([0, 1, 2].map (pointOf triangleState.1)) ∧
    (∃ g R, unionPolygons 0 triangleState.1 Polygon.empty triangleState.2 = some (g, R) ∧
      getPoints g R = getPoints triangleState.1 triangleState.2) ∧
    (∃ g R, unionPolygons 0 triangleState.1 triangleState.2 Polygon.empty = some (g, R) ∧
      getPoints g R = getPoints triangleState.1 triangleState.2) ∧
    (∃ g R, intersectionPolygons 0 triangleState.1 Polygon.empty triangleState.2 = some (g, R) ∧
      getPoints g R = some []) ∧
    (∃ g R, intersectionPolygons 0 triangleState.1 triangleState.2 Polygon.empty = some (g, R) ∧
      getPoints g R = some []) ∧
    (∃ g R, differencePolygons 0 triangleState.1 triangleState.2 Polygon.empty = some (g, R) ∧
      getPoints g R = getPoints triangleState.1 triangleState.2) ∧
    (∃ g R, differencePolygons 0 triangleState.1 Polygon.empty triangleState.2 = some (g, R) ∧
      getPoints g R = some []) :=
  ⟨by decide!, C19_empty_operand 0 triangleState.1 triangleState.2 Polygon.empty [0, 1, 2]
    (by decide!) rfl⟩

end PolygonBoolean

/-! ### BooleanNative: `validate` -/

namespace PolygonBoolean

set_option maxRecDepth 100000

open Polygon

theorem chain_snoc {h : Heap} :
    ∀ (l : List Nat) (a b : Nat), List.Chain (Link h) a l → Link h (l.getLastD a) b →
      List.Chain (Link h) a (l ++ [b])
  | [], a, b, _, hl => by simpa using hl
  | x :: l, a, b, hc, hl => by
    simp only [List.chain_cons] at hc
    simp only [List.cons_append, List.chain_cons]
    exact ⟨hc.1, chain_snoc l x b hc.2 (by rw [List.getLastD_cons] at hl; exact hl)⟩

theorem getLastD_mem_cons (l : List Nat) (a : Nat) : l.getLastD a ∈ a :: l := by
  rcases List.eq_nil_or_concat' l with rfl | ⟨init, last, rfl⟩
  · simp
  · rw [List.getLastD_concat]; simp

theorem noDangling_load {h : Heap} (hc : NoDangling h) {a : Nat} {v : Vertex}
    (hv : h[a]? = some v) :
    (∀ n, v.next = some n → n < h.length) ∧ (∀ q, v.prev = some q → q < h.length) := by
  have hm : v ∈ h := List.mem_iff_getElem?.2 ⟨a, hv⟩
  exact ⟨fun n hn => (hc v hm).1 n hn, fun q hq => (hc v hm).2 q hq⟩

theorem exists_vertex_of_lt {h : Heap} {a : Nat} (ha : a < h.length) : ∃ v, h[a]? = some v :=
  ⟨h[a], List.getElem?_eq_getElem ha⟩

/-- one pass through the body of the loop of `validate`, on a heap without
dangling pointers -/
theorem validateLoop_step {h : Heap} (hc : NoDangling h) (hd c : Nat) (hcl : c < h.length)
    (fuel : Nat) :
    (LinkDefect h c ∧ ∃ r, validateLoop h hd (fuel + 1) (some c) = some r ∧ r ≠ Validation.ok) ∨
    (¬ LinkDefect h c ∧ ∃ n, Link h c n ∧ n < h.length ∧
      validateLoop h hd (fuel + 1) (some c) =
        if n ≠ hd then validateLoop h hd fuel (some n) else some Validation.ok) := by
  obtain ⟨v, hv⟩ := exists_vertex_of_lt hcl
  have hnd := noDangling_load hc hv
  have hN : nextOf h c = v.next := by simp [nextOf, hv]
  have hP : prevOf h c = v.prev := by simp [prevOf, hv]
  rw [validateLoop]
  simp only [load, hv, Option.some_bind]
  cases hn : v.next with
  | none =>
    left
    exact ⟨Or.inl (by rw [hN, hn]), Validation.brokenLinks, by simp, by simp⟩
  | some n =>
    cases hq : v.prev with
    | none =>
      left
      exact ⟨Or.inr (Or.inl (by rw [hP, hq])), Validation.brokenLinks, by simp, by simp⟩
    | some q =>
      obtain ⟨nv, hnv⟩ := exists_vertex_of_lt (hnd.1 n hn)
      obtain ⟨qv, hqv⟩ := exists_vertex_of_lt (hnd.2 q hq)
      have hPn : prevOf h n = nv.prev := by simp [prevOf, hnv]
      have hNq : nextOf h q = qv.next := by simp [nextOf, hqv]
      simp only [load, hnv, hqv, Option.some_bind, reduceCtorEq, or_self, if_false]
      by_cases hbad : nv.prev ≠ some c ∨ qv.next ≠ some c
      · left
        rw [if_pos hbad]
        refine ⟨?_, Validation.inconsistentLinks, rfl, by simp⟩
        rcases hbad with hb | hb
        · exact Or.inr (Or.inr (Or.inl ⟨n, by rw [hN, hn], by rw [hPn]; exact hb⟩))
        · exact Or.inr (Or.inr (Or.inr ⟨q, by rw [hP, hq], by rw [hNq]; exact hb⟩))
      · right
        rw [if_neg hbad]
        push_neg at hbad
        refine ⟨?_, n, ⟨by rw [hN, hn], by rw [hPn, hbad.1]⟩, hnd.1 n hn, ?_⟩
        · rintro (hx | hx | ⟨n', hn', hx⟩ | ⟨q', hq', hx⟩)
          · rw [hN, hn] at hx; cases hx
          · rw [hP, hq] at hx; cases hx
          · rw [hN, hn] at hn'; cases hn'
            exact hx (by rw [hPn, hbad.1])
          · rw [hP, hq] at hq'; cases hq'
            exact hx (by rw [hNq, hbad.2])
        · by_cases hnh : n = hd
          · subst hnh; simp
          · simp [hnh]

theorem getLastD_append_cons (r2 : List Nat) (n : Nat) :
    ∀ (r1 : List Nat) (a : Nat), (r1 ++ n :: r2).getLastD a = r2.getLastD n
  | [], a => by rw [List.nil_append, List.getLastD_cons]
  | x :: r1, a => by
    rw [List.cons_append, List.getLastD_cons]
    exact getLastD_append_cons r2 n r1 x

/-- the successor of the last cell of a duplicate-free chain of links is the
first cell or a cell not yet on the chain -/
theorem link_fresh {h : Heap} {hd c n : Nat} {r : List Nat} (hnd : (hd :: r).Nodup)
    (hch : List.Chain (Link h) hd r) (hlast : r.getLastD hd = c) (hl : Link h c n)
    (hnh : n ≠ hd) : n ∉ hd :: r := by
  intro hmem
  rcases List.mem_cons.1 hmem with e | hmem
  · exact hnh e
  · obtain ⟨r1, r2, rfl⟩ := List.append_of_mem hmem
    have hsplit : List.Chain (Link h) hd (r1 ++ [n]) := (List.chain_split.1 hch).1
    have hpl := chain_last_link r1 hd n hsplit
    have hy : r1.getLastD hd = c := by
      have h1 := hpl.2
      have h2 := hl.2
      rw [h1] at h2
      exact Option.some.inj h2
    have hy1 : c ∈ hd :: r1 := hy ▸ getLastD_mem_cons r1 hd
    have hy2 : c ∈ n :: r2 := by
      rw [← hlast, getLastD_append_cons]
      exact getLastD_mem_cons r2 n
    have hnd2 : (hd :: r1 ++ n :: r2).Nodup := by simpa using hnd
    exact List.disjoint_of_nodup_append hnd2 hy1 hy2

theorem iterNext_succ_of_link {h : Heap} {hd c n k : Nat} (hk : iterNext h k hd = some c)
    (hl : nextOf h c = some n) : iterNext h (k + 1) hd = some n := by
  rw [iterNext_add, hk]
  simp [iterNext, hl]

/-- the loop of `validate` on a heap without dangling pointers: it returns, and
it either finds a defect at a vertex reached from the head or closes a ring -/
theorem validateLoop_spec {h : Heap} (hc : NoDangling h) (hd : Nat) :
    ∀ (m : Nat) (r : List Nat) (c fuel : Nat), h.length - (r.length + 1) = m →
      (hd :: r).Nodup → (∀ x ∈ hd :: r, x < h.length) → List.Chain (Link h) hd r →
      r.getLastD hd = c → (∃ k, iterNext h k hd = some c) → m + 1 ≤ fuel →
      (validateLoop h hd fuel (some c) = some Validation.ok ∧ ∃ rest, IsRing h hd rest) ∨
      (∃ res, validateLoop h hd fuel (some c) = some res ∧ res ≠ Validation.ok ∧
        ∃ a k, iterNext h k hd = some a ∧ LinkDefect h a) := by
  intro m
  induction m with
  | zero =>
    intro r c fuel hm hnd hlt hch hlast hreach hfuel
    obtain ⟨fuel, rfl⟩ : ∃ f, fuel = f + 1 := ⟨fuel - 1, by omega⟩
    have hcm : c ∈ hd :: r := hlast ▸ getLastD_mem_cons r hd
    have hlen : (hd :: r).length ≤ h.length := by
      have hs : hd :: r ⊆ List.range h.length := fun a ha => List.mem_range.2 (hlt a ha)
      simpa using (List.subperm_of_subset hnd hs).length_le
    rcases validateLoop_step hc hd c (hlt c hcm) fuel with ⟨hdef, res, hres, hne⟩ | ⟨_, n, hl, hn, hrun⟩
    · obtain ⟨k, hk⟩ := hreach
      exact Or.inr ⟨res, hres, hne, c, k, hk, hdef⟩
    · by_cases hnh : n = hd
      · subst hnh
        left
        rw [hrun]
        simp only [ne_eq, not_true_eq_false, if_false, true_and]
        exact ⟨r, hnd, chain_snoc r n n hch (hlast ▸ hl)⟩
      · exfalso
        -- the chain would have one more cell than the heap
        have hnew : n ∉ hd :: r := link_fresh hnd hch hlast hl hnh
        have hnd3 : (n :: hd :: r).Nodup := List.nodup_cons.2 ⟨hnew, hnd⟩
        have hs : n :: hd :: r ⊆ List.range h.length := by
          intro a ha
          rcases List.mem_cons.1 ha with rfl | ha
          · exact List.mem_range.2 hn
          · exact List.mem_range.2 (hlt a ha)
        have := (List.subperm_of_subset hnd3 hs).length_le
        simp at this hlen
        omega
  | succ m ih =>
    intro r c fuel hm hnd hlt hch hlast hreach hfuel
    obtain ⟨fuel, rfl⟩ : ∃ f, fuel = f + 1 := ⟨fuel - 1, by omega⟩
    have hcm : c ∈ hd :: r := hlast ▸ getLastD_mem_cons r hd
    rcases validateLoop_step hc hd c (hlt c hcm) fuel with ⟨hdef, res, hres, hne⟩ | ⟨_, n, hl, hn, hrun⟩
    · obtain ⟨k, hk⟩ := hreach
      exact Or.inr ⟨res, hres, hne, c, k, hk, hdef⟩
    · by_cases hnh : n = hd
      · subst hnh
        left
        rw [hrun]
        simp only [ne_eq, not_true_eq_false, if_false, true_and]
        exact ⟨r, hnd, chain_snoc r n n hch (hlast ▸ hl)⟩
      · have hnew : n ∉ hd :: r := link_fresh hnd hch hlast hl hnh
        rw [hrun, if_pos hnh]
        obtain ⟨k, hk⟩ := hreach
        apply ih (r ++ [n]) n fuel
        · simp; omega
        · rw [← List.cons_append]
          exact List.Nodup.append hnd (by simp) (by
            intro x hx1 hx2
            simp at hx2
            exact hnew (hx2 ▸ hx1))
        · intro x hx
          rw [← List.cons_append] at hx
          rcases List.mem_append.1 hx with hx | hx
          · exact hlt x hx
          · simp at hx; rw [hx]; exact hn
        · exact chain_snoc r hd n hch (hlast ▸ hl)
        · exact List.getLastD_concat _ _ _
        · exact ⟨k + 1, iterNext_succ_of_link hk hl.1⟩
        · omega

/-- on a ring the loop of `validate` meets no defect and returns at the head -/
theorem validateLoop_ring {h : Heap} {hd : Nat} :
    ∀ (post : List Nat) (cur fuel pre : Nat), Link h pre cur →
      List.Chain (Link h) cur (post ++ [hd]) → hd ∉ post → post.length < fuel →
      validateLoop h hd fuel (some cur) = some Validation.ok
  | [], cur, fuel, pre, hp, hc, _, hf => by
    obtain ⟨fuel, rfl⟩ : ∃ f, fuel = f + 1 := ⟨fuel - 1, by simp at hf; omega⟩
    simp only [List.nil_append, List.chain_cons, List.Chain.nil, and_true] at hc
    obtain ⟨v, hv, hnext⟩ := nextOf_eq_some.1 hc.1
    obtain ⟨v2, hv2, hprev⟩ := prevOf_eq_some.1 hp.2
    rw [hv] at hv2
    cases hv2
    obtain ⟨nv, hnv, hnprev⟩ := prevOf_eq_some.1 hc.2
    obtain ⟨qv, hqv, hqnext⟩ := nextOf_eq_some.1 hp.1
    simp [validateLoop, load, hv, hnext, hprev, hnv, hnprev, hqv, hqnext]
  | x :: post, cur, fuel, pre, hp, hc, hnot, hf => by
    obtain ⟨fuel, rfl⟩ : ∃ f, fuel = f + 1 := ⟨fuel - 1, by simp at hf; omega⟩
    simp only [List.cons_append, List.chain_cons] at hc
    obtain ⟨v, hv, hnext⟩ := nextOf_eq_some.1 hc.1.1
    obtain ⟨v2, hv2, hprev⟩ := prevOf_eq_some.1 hp.2
    rw [hv] at hv2
    cases hv2
    obtain ⟨nv, hnv, hnprev⟩ := prevOf_eq_some.1 hc.1.2
    obtain ⟨qv, hqv, hqnext⟩ := nextOf_eq_some.1 hp.1
    have hx : x ≠ hd := fun e => hnot (by simp [e])
    have ih := validateLoop_ring post x fuel cur hc.1 hc.2
      (fun hm => hnot (List.mem_cons_of_mem _ hm)) (by simp at hf; omega)
    simp [validateLoop, load, hv, hnext, hprev, hnv, hnprev, hqv, hqnext, hx, ih]

theorem validate_ring {h : Heap} {P : Polygon} {l : List Nat} (hr : RingOf h P l) :
    validate h P = some Validation.ok := by
  cases l with
  | nil => simp [validate, show P.head = none from hr]
  | cons hd rest =>
    obtain ⟨hP, hring⟩ := hr
    have hlen := hring.length_le
    simp only [validate, hP]
    exact validateLoop_ring rest hd h.length _ hring.last_link hring.2
      (List.nodup_cons.1 hring.1).1 (by simpa using hlen)

/-- no cell of a ring has a link defect -/
theorem IsRing.no_defect {h : Heap} {hd a : Nat} {rest : List Nat} (hr : IsRing h hd rest)
    (ha : a ∈ hd :: rest) : ¬ LinkDefect h a := by
  obtain ⟨y, _, hy⟩ := hr.succ_mem ha
  obtain ⟨q, _, hq⟩ := hr.pred_mem ha
  rintro (hx | hx | ⟨n, hn, hx⟩ | ⟨q', hq', hx⟩)
  · rw [hy.1] at hx; cases hx
  · rw [hq.2] at hx; cases hx
  · rw [hy.1] at hn; cases hn
    exact hx hy.2
  · rw [hq.2] at hq'; cases hq'
    exact hx hq.1

theorem Built.has_ring {h : Heap} {P : Polygon} (hb : Built h P) : ∃ l, RingOf h P l := by
  induction hb with
  | empty h => exact ⟨[], rfl⟩
  | addPoint p _ he ih =>
    obtain ⟨l, hr⟩ := ih
    obtain ⟨h1, P1, he1, hr1, _⟩ := addPoint_ring hr p
    rw [he] at he1
    cases he1
    exact ⟨_, hr1⟩
  | reverse _ he ih =>
    obtain ⟨l, hr⟩ := ih
    obtain ⟨h1, P1, he1, hr1, _⟩ := reverse_ring hr
    rw [he] at he1
    cases he1
    exact ⟨_, hr1⟩
  | clear _ he ih =>
    obtain ⟨l, hr⟩ := ih
    simp only [Polygon.clear, clearVertices_ring hr, Option.some_bind, Option.some.injEq,
      Prod.mk.injEq] at he
    refine ⟨[], ?_⟩
    rw [← he.2]
    rfl

/-- C21. On a heap without dangling pointers `validate` returns, and it raises
(returns a result other than `ok`) if and only if some vertex reached from the
head by `next` has a missing `next` or `prev` link, or `next->prev` or
`prev->next` is not the vertex itself; and `validate` does not raise on a
polygon built by `addPoint`, `reverse` and `clear` only. -/
theorem C21_validate_raises_iff_defect :
    (∀ (h : Heap) (P : Polygon), NoDangling h → (∀ hd, P.head = some hd → hd < h.length) →
      ∃ r, validate h P = some r ∧
        (r ≠ Validation.ok ↔ ∃ a, OnRing h P a ∧ LinkDefect h a)) ∧
    (∀ (h : Heap) (P : Polygon), Built h P → validate h P = some Validation.ok) := by
  refine ⟨?_, fun h P hb => ?_⟩
  · intro h P hc hhd
    cases hP : P.head with
    | none =>
      refine ⟨Validation.ok, by simp [validate, hP], ?_⟩
      simp [OnRing, hP]
    | some hd =>
      have hlt := hhd hd hP
      simp only [validate, hP]
      rcases validateLoop_spec hc hd (h.length - 1) [] hd h.length (by simp) (by simp)
        (by simpa using hlt) List.Chain.nil rfl ⟨0, rfl⟩ (by omega) with
        ⟨hok, rest, hring⟩ | ⟨res, hres, hne, a, k, hk, hdef⟩
      · refine ⟨Validation.ok, hok, ?_⟩
        constructor
        · intro hne; exact absurd rfl hne
        · rintro ⟨a, ⟨hd', k, hhd', hk⟩, hdef⟩
          rw [hP] at hhd'
          cases hhd'
          obtain ⟨y, hy, hky⟩ := hring.iterNext_mem k hd (by simp)
          rw [hk] at hky
          cases hky
          exact absurd hdef (hring.no_defect hy)
      · exact ⟨res, hres, fun _ => ⟨a, ⟨hd, k, hP, hk⟩, hdef⟩, fun _ => hne⟩
  · obtain ⟨l, hr⟩ := hb.has_ring
    exact validate_ring hr

theorem triangleState_built : Built triangleState.1 triangleState.2 := by
  have h0 : Built [] Polygon.empty := Built.empty []
  have h1 := @Built.addPoint [] [{ Vertex.ofPoint ⟨0, 0⟩ with next := some 0, prev := some 0 }]
    Polygon.empty { Polygon.empty with head := some 0 } ⟨0, 0⟩ h0 (by decide!)
  have h2 := @Built.addPoint _
    ((Polygon.ofPoints [] [⟨0, 0⟩, ⟨1, 0⟩]).getD ([], Polygon.empty)).1 _
    ((Polygon.ofPoints [] [⟨0, 0⟩, ⟨1, 0⟩]).getD ([], Polygon.empty)).2
    ⟨1, 0⟩ h1 (by decide!)
  exact Built.addPoint ⟨1, 1⟩ h2 (by decide!)

theorem brokenTriangle_noDangling : NoDangling brokenTriangle.1 := by
  have e : brokenTriangle.1 =
      [{ Vertex.ofPoint ⟨0, 0⟩ with next := some 1, prev := some 2 },
       { Vertex.ofPoint ⟨1, 0⟩ with next := some 2, prev := some 1 },
       { Vertex.ofPoint ⟨1, 1⟩ with next := some 0, prev := some 1 }] := by decide!
  rw [e]
  intro v hv
  simp only [List.mem_cons, List.mem_singleton, List.not_mem_nil, or_false] at hv
  rcases hv with rfl | rfl | rfl <;> simp

theorem C21_validate_raises_iff_defect_witness :
    NoDangling brokenTriangle.1 ∧
    (∃ r, validate brokenTriangle.1 brokenTriangle.2 = some r ∧
      (r ≠ Validation.ok ↔ ∃ a, OnRing brokenTriangle.1 brokenTriangle.2 a ∧
        LinkDefect brokenTriangle.1 a)) ∧
    validate brokenTriangle.1 brokenTriangle.2 = some Validation.inconsistentLinks ∧
    Built triangleState.1 triangleState.2 ∧
    validate triangleState.1 triangleState.2 = some Validation.ok :=
  ⟨brokenTriangle_noDangling,
    C21_validate_raises_iff_defect.1 _ _ brokenTriangle_noDangling (by decide!), by decide!,
    triangleState_built, C21_validate_raises_iff_defect.2 _ _ triangleState_built⟩

end PolygonBoolean

/-! ### GeometryCore: termination of the Greiner-Hormann engine -/

namespace GeometryCore

namespace PolygonUtilityExtension

theorem getElem?_lt {α : Type} {l : List α} {a : Nat} {v : α} (hv : l[a]? = some v) :
    a < l.length := by
  rw [List.getElem?_eq_some] at hv
  exact hv.1

theorem store_eq_nodeUpd {h : NodeHeap} {a : Nat} (f : Node → Node) (ha : a < h.length) :
    store h (some a) f = some (upd h a f) := by
  obtain ⟨v, hv⟩ : ∃ v, h[a]? = some v := ⟨h[a], List.getElem?_eq_getElem ha⟩
  simp [store, upd, hv]

@[simp] theorem length_nodeUpd (h : NodeHeap) (a : Nat) (f : Node → Node) :
    (upd h a f).length = h.length := by
  unfold upd
  split <;> simp

theorem getElem?_nodeUpd (h : NodeHeap) (a b : Nat) (f : Node → Node) :
    (upd h a f)[b]? = if b = a then (h[a]?).map f else h[b]? := by
  unfold upd
  split
  · next v hv =>
    have := getElem?_lt hv
    rw [List.getElem?_set]
    by_cases hab : a = b
    · subst hab; simp [this, hv]
    · simp [hab, Ne.symm hab]
  · next hv =>
    by_cases hab : b = a
    · subst hab; simp [hv]
    · simp [hab]

theorem getElem?_nodeAlloc (h : NodeHeap) (v : Node) (b : Nat) :
    (alloc h v).1[b]? = if b = h.length then some v else h[b]? := by
  unfold alloc
  by_cases hb : b = h.length
  · subst hb; simp
  · simp only [hb, if_false]
    rcases Nat.lt_or_gt_of_ne hb with hlt | hgt
    · exact List.getElem?_append_left hlt
    · rw [List.getElem?_eq_none (by simp; omega), List.getElem?_eq_none (by omega)]

theorem length_nodeAlloc (h : NodeHeap) (v : Node) : (alloc h v).1.length = h.length + 1 := by
  simp [alloc]

/-! accessors of an updated heap -/

theorem nodeNext_upd (h : NodeHeap) (a b : Nat) (f : Node → Node) :
    nodeNext (upd h a f) b =
      if b = a then (h[a]?).bind fun v => (f v).next else nodeNext h b := by
  unfold nodeNext
  rw [getElem?_nodeUpd]
  by_cases hb : b = a
  · simp only [hb, if_true]; cases h[a]? <;> rfl
  · simp only [hb, if_false]

theorem nodePrev_upd (h : NodeHeap) (a b : Nat) (f : Node → Node) :
    nodePrev (upd h a f) b =
      if b = a then (h[a]?).bind fun v => (f v).prev else nodePrev h b := by
  unfold nodePrev
  rw [getElem?_nodeUpd]
  by_cases hb : b = a
  · simp only [hb, if_true]; cases h[a]? <;> rfl
  · simp only [hb, if_false]

theorem nodeNeighbor_upd (h : NodeHeap) (a b : Nat) (f : Node → Node) :
    nodeNeighbor (upd h a f) b =
      if b = a then (h[a]?).bind fun v => (f v).neighbor else nodeNeighbor h b := by
  unfold nodeNeighbor
  rw [getElem?_nodeUpd]
  by_cases hb : b = a
  · simp only [hb, if_true]; cases h[a]? <;> rfl
  · simp only [hb, if_false]

theorem isInt_upd (h : NodeHeap) (a b : Nat) (f : Node → Node) :
    isInt (upd h a f) b =
      if b = a then (match h[a]? with
        | some v => (f v).isIntersection
        | none => false) else isInt h b := by
  unfold isInt
  rw [getElem?_nodeUpd]
  by_cases hb : b = a
  · simp only [hb, if_true]; cases h[a]? <;> rfl
  · simp only [hb, if_false]

theorem isVisited_upd (h : NodeHeap) (a b : Nat) (f : Node → Node) :
    isVisited (upd h a f) b =
      if b = a then (match h[a]? with
        | some v => (f v).visited
        | none => false) else isVisited h b := by
  unfold isVisited
  rw [getElem?_nodeUpd]
  by_cases hb : b = a
  · simp only [hb, if_true]; cases h[a]? <;> rfl
  · simp only [hb, if_false]

theorem nodeNext_eq_some {h : NodeHeap} {a b : Nat} :
    nodeNext h a = some b ↔ ∃ v, h[a]? = some v ∧ v.next = some b := by
  unfold nodeNext
  cases h[a]? <;> simp

theorem nodePrev_eq_some {h : NodeHeap} {a b : Nat} :
    nodePrev h a = some b ↔ ∃ v, h[a]? = some v ∧ v.prev = some b := by
  unfold nodePrev
  cases h[a]? <;> simp

theorem nodeNext_of_getElem? {h : NodeHeap} {a : Nat} {v : Node} (hv : h[a]? = some v) :
    nodeNext h a = v.next := by
  simp [nodeNext, hv]

theorem nodePrev_of_getElem? {h : NodeHeap} {a : Nat} {v : Node} (hv : h[a]? = some v) :
    nodePrev h a = v.prev := by
  simp [nodePrev, hv]

theorem nodeNeighbor_of_getElem? {h : NodeHeap} {a : Nat} {v : Node} (hv : h[a]? = some v) :
    nodeNeighbor h a = v.neighbor := by
  simp [nodeNeighbor, hv]

theorem isInt_of_getElem? {h : NodeHeap} {a : Nat} {v : Node} (hv : h[a]? = some v) :
    isInt h a = v.isIntersection := by
  simp [isInt, hv]

theorem isVisited_of_getElem? {h : NodeHeap} {a : Nat} {v : Node} (hv : h[a]? = some v) :
    isVisited h a = v.visited := by
  simp [isVisited, hv]

theorem exists_getElem?_of_lt {h : NodeHeap} {a : Nat} (ha : a < h.length) :
    ∃ v, h[a]? = some v :=
  ⟨h[a], List.getElem?_eq_getElem ha⟩

/-- a store that leaves the links and the intersection flag of the cell alone -/
theorem sameLinks_upd (h : NodeHeap) (a : Nat) (f : Node → Node)
    (hf : ∀ v, (f v).next = v.next ∧ (f v).prev = v.prev ∧ (f v).neighbor = v.neighbor ∧
      (f v).isIntersection = v.isIntersection) :
    SameLinks h (upd h a f) := by
  refine ⟨length_nodeUpd h a f, ?_, ?_, ?_, ?_⟩
  · funext b
    rw [nodeNext_upd]
    by_cases hb : b = a
    · subst hb
      simp only [if_true, nodeNext]
      cases h[b]? with
      | none => rfl
      | some v => simp [(hf v).1]
    · simp only [hb, if_false]
  · funext b
    rw [nodePrev_upd]
    by_cases hb : b = a
    · subst hb
      simp only [if_true, nodePrev]
      cases h[b]? with
      | none => rfl
      | some v => simp [(hf v).2.1]
    · simp only [hb, if_false]
  · funext b
    rw [nodeNeighbor_upd]
    by_cases hb : b = a
    · subst hb
      simp only [if_true, nodeNeighbor]
      cases h[b]? with
      | none => rfl
      | some v => simp [(hf v).2.2.1]
    · simp only [hb, if_false]
  · funext b
    rw [isInt_upd]
    by_cases hb : b = a
    · subst hb
      simp only [if_true, isInt]
      cases h[b]? with
      | none => rfl
      | some v => simp [(hf v).2.2.2]
    · simp only [hb, if_false]

theorem SameLinks.rfl' (h : NodeHeap) : SameLinks h h := ⟨rfl, rfl, rfl, rfl, rfl⟩

theorem SameLinks.trans' {h g k : NodeHeap} (h1 : SameLinks h g) (h2 : SameLinks g k) :
    SameLinks h k :=
  ⟨h2.1.trans h1.1, h2.2.1.trans h1.2.1, h2.2.2.1.trans h1.2.2.1,
    h2.2.2.2.1.trans h1.2.2.2.1, h2.2.2.2.2.trans h1.2.2.2.2⟩

theorem SameLinks.closed {h g : NodeHeap} (hs : SameLinks h g) (hc : Closed h) : Closed g := by
  obtain ⟨e0, e1, e2, e3, e4⟩ := hs
  unfold Closed
  rw [e0, e1, e2, e3, e4]
  exact hc

theorem SameLinks.twoRings {h g : NodeHeap} {A B : Nat} {LA LB : List Nat}
    (hs : SameLinks h g) (hr : TwoRings h A B LA LB) : TwoRings g A B LA LB := by
  have hc := hs.closed hr.closed
  obtain ⟨e0, e1, e2, e3, e4⟩ := hs
  exact ⟨e1 ▸ hr.cycA, e1 ▸ hr.cycB, hr.disj, e0 ▸ hr.len, e0 ▸ hr.lt, e0 ▸ hr.cover,
    e4 ▸ hr.headA, e4 ▸ hr.headB, hc⟩

theorem chain'_next_frame {nx nx' : Nat → Option Nat} :
    ∀ (l : List Nat) (b : Nat), List.Chain' (fun a b => nx a = some b) (l ++ [b]) →
      (∀ x, x ∈ l → nx' x = nx x) → List.Chain' (fun a b => nx' a = some b) (l ++ [b])
  | [], b, _, _ => by simp
  | [x], b, hc, hf => by
    simp only [List.singleton_append, List.chain'_cons, List.chain'_singleton, and_true] at hc ⊢
    rw [hf x (by simp)]; exact hc
  | x :: y :: l, b, hc, hf => by
    simp only [List.cons_append, List.chain'_cons] at hc ⊢
    refine ⟨by rw [hf x (by simp)]; exact hc.1, ?_⟩
    have := chain'_next_frame (y :: l) b (by simpa using hc.2)
      (fun z hz => hf z (List.mem_cons_of_mem _ hz))
    simpa using this

theorem IsCycle.congr_next {nx nx' : Nat → Option Nat} {hd : Nat} {L : List Nat}
    (hc : IsCycle nx hd L) (hf : ∀ x, x ∈ L → nx' x = nx x) : IsCycle nx' hd L :=
  ⟨hc.1, hc.2.1, chain'_next_frame L hd hc.2.2 hf⟩

theorem IsCycle.next_cons {nx : Nat → Option Nat} {hd c x : Nat} {pre t : List Nat}
    (hc : IsCycle nx hd (pre ++ c :: x :: t)) : nx c = some x := by
  have h := hc.2.2
  rw [List.append_assoc, List.cons_append, List.cons_append, List.chain'_split] at h
  exact (List.chain'_cons.1 h.2).1

theorem IsCycle.next_end {nx : Nat → Option Nat} {hd c : Nat} {pre : List Nat}
    (hc : IsCycle nx hd (pre ++ [c])) : nx c = some hd := by
  have h := hc.2.2
  rw [List.append_assoc, List.singleton_append, List.chain'_split] at h
  exact (List.chain'_cons.1 h.2).1

theorem IsCycle.hd_eq {nx : Nat → Option Nat} {hd c : Nat} {pre suf : List Nat}
    (hc : IsCycle nx hd (pre ++ c :: suf)) : (pre ++ [c]).head? = some hd := by
  have := hc.2.1
  cases pre with
  | nil => simpa using this
  | cons p pre => simpa using this

theorem IsCycle.hd_mem {nx : Nat → Option Nat} {hd : Nat} {L : List Nat}
    (hc : IsCycle nx hd L) : hd ∈ L := by
  have := hc.2.1
  cases L with
  | nil => simp at this
  | cons p L =>
    simp only [List.head?_cons, Option.some.injEq] at this
    simp [this]

theorem IsCycle.ne_hd {nx : Nat → Option Nat} {hd c x : Nat} {pre t : List Nat}
    (hc : IsCycle nx hd (pre ++ c :: x :: t)) : x ≠ hd := by
  have hh := hc.hd_eq
  have hnd := hc.1
  intro e
  subst e
  cases pre with
  | nil =>
    simp only [List.nil_append, List.head?_cons, Option.some.injEq] at hh
    subst hh
    simp at hnd
  | cons p pre =>
    simp only [List.cons_append, List.head?_cons, Option.some.injEq] at hh
    subst hh
    simp at hnd

theorem IsCycle.next_mem {nx : Nat → Option Nat} {hd : Nat} {L : List Nat}
    (hc : IsCycle nx hd L) {x : Nat} (hx : x ∈ L) : ∃ y, nx x = some y ∧ y ∈ L := by
  obtain ⟨pre, suf, rfl⟩ := List.append_of_mem hx
  cases suf with
  | nil => exact ⟨hd, hc.next_end, hc.hd_mem⟩
  | cons y t => exact ⟨y, hc.next_cons, by simp⟩

/-- linking a new cell `n` in after the cell `c` of a cycle -/
theorem IsCycle.insert_after {nx nx' : Nat → Option Nat} {hd c n : Nat} {pre suf : List Nat}
    (hc : IsCycle nx hd (pre ++ c :: suf)) (hn : n ∉ pre ++ c :: suf)
    (h1 : nx' c = some n) (h2 : nx' n = nx c)
    (h3 : ∀ x, x ≠ c → x ≠ n → nx' x = nx x) :
    IsCycle nx' hd (pre ++ c :: n :: suf) := by
  obtain ⟨hnd, hh, hch⟩ := hc
  have hnd' : (pre ++ c :: n :: suf).Nodup := by
    have hp : (pre ++ c :: n :: suf).Perm (n :: (pre ++ c :: suf)) := by
      have : (pre ++ c :: n :: suf) = (pre ++ [c]) ++ n :: suf := by simp
      rw [this]
      refine List.perm_middle.trans ?_
      simp
    exact hp.nodup_iff.2 (List.nodup_cons.2 ⟨hn, hnd⟩)
  have hh' : (pre ++ c :: n :: suf).head? = some hd := by
    cases pre with
    | nil => simpa using hh
    | cons p pre => simpa using hh
  refine ⟨hnd', hh', ?_⟩
  rw [List.append_assoc, List.cons_append, List.chain'_split] at hch
  rw [List.append_assoc, List.cons_append, List.cons_append, List.chain'_split]
  have hcpre : c ∉ pre := by
    intro hm
    have := (List.nodup_append.1 hnd).2.2 hm (List.mem_cons_self _ _)
    exact this
  have hcsuf : c ∉ suf := by
    have := (List.nodup_append.1 hnd).2.1
    exact (List.nodup_cons.1 this).1
  constructor
  · refine chain'_next_frame pre c hch.1 fun x hx => h3 x ?_ ?_
    · intro e; exact hcpre (e ▸ hx)
    · intro e; exact hn (by simp [← e, hx])
  · have hsuf : List.Chain' (fun a b => nx' a = some b) (suf ++ [hd]) := by
      have := (List.chain'_cons'.1 hch.2).2
      refine chain'_next_frame suf hd this fun x hx => h3 x ?_ ?_
      · intro e; exact hcsuf (e ▸ hx)
      · intro e; exact hn (by simp [← e, hx])
    have hnx : nx c = some ((suf ++ [hd]).head (by simp)) := by
      have := (List.chain'_cons'.1 hch.2).1
      apply this
      cases suf <;> simp
    rw [List.chain'_cons, List.chain'_cons']
    refine ⟨h1, ?_, hsuf⟩
    intro y hy
    rw [h2, hnx]
    cases suf with
    | nil => simpa using hy
    | cons s suf => simpa using hy

theorem chain'_range'_append {nx : Nat → Option Nat} :
    ∀ (k n m : Nat), (∀ i, i + 1 < k → nx (n + i) = some (n + i + 1)) →
      (0 < k → nx (n + k - 1) = some m) →
      List.Chain' (fun a b => nx a = some b) (List.range' n k ++ [m])
  | 0, _, _, _, _ => by simp
  | 1, n, m, _, h2 => by
    have := h2 (by omega)
    simpa [List.range'] using this
  | k + 2, n, m, h1, h2 => by
    have ih := chain'_range'_append (k + 1) (n + 1) m
      (fun i hi => by
        have := h1 (i + 1) (by omega)
        rw [show n + 1 + i = n + (i + 1) by omega]
        exact this)
      (fun _ => by
        have := h2 (by omega)
        rw [show n + 1 + (k + 1) - 1 = n + (k + 2) - 1 by omega]
        exact this)
    have e : List.range' n (k + 2) ++ [m] = n :: (n + 1) :: (List.range' (n + 2) k ++ [m]) := by
      simp [List.range']
    have e' : List.range' (n + 1) (k + 1) ++ [m] = (n + 1) :: (List.range' (n + 2) k ++ [m]) := by
      simp [List.range']
    rw [e, List.chain'_cons]
    rw [e'] at ih
    exact ⟨by simpa using h1 0 (by omega), ih⟩

theorem isCycle_range' {nx : Nat → Option Nat} (n k : Nat) (hk : 0 < k)
    (h1 : ∀ i, i + 1 < k → nx (n + i) = some (n + i + 1))
    (h2 : nx (n + k - 1) = some n) : IsCycle nx n (List.range' n k) := by
  refine ⟨List.nodup_range' n k, ?_, chain'_range'_append k n n h1 fun _ => h2⟩
  cases k with
  | zero => omega
  | succ k => simp [List.range']

/-- the cells of a duplicate free list of addresses below `n` are at most `n` -/
theorem length_le_of_nodup_lt {l : List Nat} {n : Nat} (hnd : l.Nodup) (hlt : ∀ x, x ∈ l → x < n) :
    l.length ≤ n := by
  have hs : l ⊆ List.range n := fun a ha => List.mem_range.2 (hlt a ha)
  have := (List.subperm_of_subset hnd hs).length_le
  simpa using this

theorem IsCycle.cell {h : NodeHeap} {hd : Nat} {L : List Nat}
    (hc : IsCycle (nodeNext h) hd L) {x : Nat} (hx : x ∈ L) :
    ∃ v y, h[x]? = some v ∧ v.next = some y ∧ y ∈ L := by
  obtain ⟨y, hy, hyL⟩ := hc.next_mem hx
  obtain ⟨v, hv, hvn⟩ := nodeNext_eq_some.1 hy
  exact ⟨v, y, hv, hvn, hyL⟩

theorem InsertInOrderWalk_spec (h : NodeHeap) (alpha : ℚ) (hd : Nat)
    (hhd : isInt h hd = false) :
    ∀ (suf pre : List Nat) (c : Nat), IsCycle (nodeNext h) hd (pre ++ c :: suf) →
      ∃ s1 s2 p curr, suf = s1 ++ s2 ∧ (∀ x, x ∈ s1 → isInt h x = true) ∧
        pre ++ c :: s1 = p ++ [curr] ∧
        ∀ f, suf.length + 1 ≤ f → InsertInOrderWalk h alpha f (some c) = some (some curr)
  | [], pre, c, hc => by
    have hn := hc.next_end
    obtain ⟨cv, hcv, hcn⟩ := nodeNext_eq_some.1 hn
    obtain ⟨hv, _, hhv, _, _⟩ := hc.cell hc.hd_mem
    have hi : hv.isIntersection = false := by rw [← isInt_of_getElem? hhv]; exact hhd
    refine ⟨[], [], pre, c, rfl, by simp, rfl, fun f hf => ?_⟩
    obtain ⟨f, rfl⟩ : ∃ g, f = g + 1 := ⟨f - 1, by simp at hf; omega⟩
    simp [InsertInOrderWalk, load, hcv, hcn, hhv, hi]
  | x :: t, pre, c, hc => by
    have hn := hc.next_cons
    obtain ⟨cv, hcv, hcn⟩ := nodeNext_eq_some.1 hn
    obtain ⟨xv, _, hxv, _, _⟩ := hc.cell (x := x) (by simp)
    by_cases hcond : (xv.isIntersection && decide (xv.alpha < alpha)) = true
    · have hc' : IsCycle (nodeNext h) hd ((pre ++ [c]) ++ x :: t) := by simpa using hc
      obtain ⟨s1, s2, p, curr, e1, e2, e3, e4⟩ := InsertInOrderWalk_spec h alpha hd hhd t _ x hc'
      refine ⟨x :: s1, s2, p, curr, by simp [e1], ?_, by simpa using e3, fun f hf => ?_⟩
      · intro y hy
        rcases List.mem_cons.1 hy with rfl | hy
        · rw [isInt_of_getElem? hxv]
          simp only [Bool.and_eq_true] at hcond
          exact hcond.1
        · exact e2 y hy
      · obtain ⟨f, rfl⟩ : ∃ g, f = g + 1 := ⟨f - 1, by simp at hf; omega⟩
        simp only [InsertInOrderWalk, load, hcv, hcn, hxv, Option.some_bind, hcond, if_true]
        exact e4 f (by simp at hf; omega)
    · refine ⟨[], x :: t, pre, c, rfl, by simp, rfl, fun f hf => ?_⟩
      obtain ⟨f, rfl⟩ : ∃ g, f = g + 1 := ⟨f - 1, by simp at hf; omega⟩
      simp only [InsertInOrderWalk, load, hcv, hcn, hxv, Option.some_bind, hcond]
      rfl

/-- the four stores of `InsertInOrder` -/
theorem splice_spec {h : NodeHeap} {curr n succ : Nat} {cv nv sv : Node}
    (hcurr : h[curr]? = some cv) (hnv : h[n]? = some nv) (hsucc : h[succ]? = some sv)
    (hcn : cv.next = some succ) (hne1 : n ≠ curr) (hne2 : n ≠ succ) :
    ∃ g, ((store h (some n) fun v => { v with next := cv.next }).bind fun h1 =>
        (store h1 (some n) fun v => { v with prev := some curr }).bind fun h2 =>
        (load h2 (some curr)).bind fun c2 =>
        (store h2 c2.next fun v => { v with prev := some n }).bind fun h3 =>
        store h3 (some curr) fun v => { v with next := some n }) = some g ∧
      Spliced h g curr n succ := by
  have l1 := getElem?_lt hcurr
  have l2 := getElem?_lt hnv
  have l3 := getElem?_lt hsucc
  rw [store_eq_nodeUpd _ l2]
  simp only [Option.some_bind]
  rw [store_eq_nodeUpd _ (by simpa using l2)]
  simp only [Option.some_bind, load, getElem?_nodeUpd, Ne.symm hne1, if_false, hcurr, hcn]
  rw [store_eq_nodeUpd _ (by simpa using l3)]
  simp only [Option.some_bind]
  rw [store_eq_nodeUpd _ (by simpa using l1)]
  refine ⟨_, rfl, by simp, fun b => ?_, fun b => ?_, ?_, ?_⟩
  · simp only [nodeNext_upd, getElem?_nodeUpd]
    by_cases hb1 : b = curr
    · subst hb1
      by_cases hb2 : b = succ
      · subst hb2; simp [Ne.symm hne1, hcurr]
      · simp [Ne.symm hne1, hb2, hcurr]
    · by_cases hb2 : b = succ
      · subst hb2
        simp [hb1, Ne.symm hne2, nodeNext]
      · by_cases hb3 : b = n
        · subst hb3
          simp [hb1, hb2, hnv, hcn]
        · simp [hb1, hb2, hb3]
  · simp only [nodePrev_upd, getElem?_nodeUpd]
    by_cases hb1 : b = curr
    · subst hb1
      by_cases hb2 : b = succ
      · subst hb2; simp [Ne.symm hne1, hcurr]
      · simp [Ne.symm hne1, hb2, hcurr, nodePrev]
    · by_cases hb2 : b = succ
      · subst hb2
        simp [hb1, Ne.symm hne2, hsucc]
      · by_cases hb3 : b = n
        · subst hb3
          simp [hb1, hb2, hnv]
        · simp [hb1, hb2, hb3]
  · funext b
    simp only [nodeNeighbor_upd, getElem?_nodeUpd]
    by_cases hb1 : b = curr
    · subst hb1
      by_cases hb2 : b = succ
      · subst hb2; simp [Ne.symm hne1, hcurr, nodeNeighbor]
      · simp [Ne.symm hne1, hb2, hcurr, nodeNeighbor]
    · by_cases hb2 : b = succ
      · subst hb2
        simp [hb1, Ne.symm hne2, hsucc, nodeNeighbor]
      · by_cases hb3 : b = n
        · subst hb3
          simp [hb1, hb2, hnv, nodeNeighbor]
        · simp [hb1, hb2, hb3]
  · funext b
    simp only [isInt_upd, getElem?_nodeUpd]
    by_cases hb1 : b = curr
    · subst hb1
      by_cases hb2 : b = succ
      · subst hb2; simp [Ne.symm hne1, hcurr, isInt]
      · simp [Ne.symm hne1, hb2, hcurr, isInt]
    · by_cases hb2 : b = succ
      · subst hb2
        simp [hb1, Ne.symm hne2, hsucc, isInt]
      · by_cases hb3 : b = n
        · subst hb3
          simp [hb1, hb2, hnv, isInt]
        · simp [hb1, hb2, hb3]

theorem InsertInOrder_spec {h : NodeHeap} {hd c n : Nat} {nv : Node} {pre suf : List Nat}
    (hc : IsCycle (nodeNext h) hd (pre ++ c :: suf)) (hhd : isInt h hd = false)
    (hn : n ∉ pre ++ c :: suf) (hnv : h[n]? = some nv) :
    ∃ s1 s2 g, suf = s1 ++ s2 ∧ (∀ x, x ∈ s1 → isInt h x = true) ∧
      (∀ f, suf.length + 1 ≤ f → InsertInOrder f h (some c) (some n) = some g) ∧
      IsCycle (nodeNext g) hd (pre ++ c :: (s1 ++ n :: s2)) ∧
      ∃ curr succ, curr ∈ pre ++ c :: suf ∧ succ ∈ pre ++ c :: suf ∧ Spliced h g curr n succ := by
  obtain ⟨s1, s2, p, curr, e1, e2, e3, e4⟩ := InsertInOrderWalk_spec h nv.alpha hd hhd suf pre c hc
  have eL : pre ++ c :: suf = p ++ curr :: s2 := by
    rw [e1]
    have : pre ++ c :: (s1 ++ s2) = (pre ++ c :: s1) ++ s2 := by simp
    rw [this, e3]
    simp
  have hc2 : IsCycle (nodeNext h) hd (p ++ curr :: s2) := eL ▸ hc
  have hcm : curr ∈ pre ++ c :: suf := by rw [eL]; simp
  obtain ⟨cv, succ, hcv, hcn, hsm⟩ := hc.cell hcm
  obtain ⟨sv, _, hsv, _, _⟩ := hc.cell hsm
  have hne1 : n ≠ curr := fun e => hn (e ▸ hcm)
  have hne2 : n ≠ succ := fun e => hn (e ▸ hsm)
  obtain ⟨g, hg, hsp⟩ := splice_spec hcv hnv hsv hcn hne1 hne2
  refine ⟨s1, s2, g, e1, e2, fun f hf => ?_, ?_, curr, succ, hcm, hsm, hsp⟩
  · simp only [InsertInOrder, load, hnv, Option.some_bind, e4 f hf, hcv]
    exact hg
  · have e' : pre ++ c :: (s1 ++ n :: s2) = p ++ curr :: n :: s2 := by
      have : pre ++ c :: (s1 ++ n :: s2) = (pre ++ c :: s1) ++ n :: s2 := by simp
      rw [this, e3]
      simp
    rw [e']
    obtain ⟨_, hnx, _, _, _⟩ := hsp
    refine hc2.insert_after (eL ▸ hn) ?_ ?_ ?_
    · rw [hnx, if_pos rfl]
    · rw [hnx, if_neg hne1, if_pos rfl, nodeNext_of_getElem? hcv, hcn]
    · intro x hx1 hx2
      rw [hnx, if_neg hx1, if_neg hx2]

/-- the two allocations of `FindIntersections` and the two stores that link the
new nodes as neighbors -/
theorem allocPair_spec (h : NodeHeap) (ip : Point) (ta tb : ℚ) :
    ∃ g3 g, (store (alloc (alloc h { p := ip, isIntersection := true, alpha := ta }).1
          { p := ip, isIntersection := true, alpha := tb }).1
          (some h.length) fun v => { v with neighbor := some (h.length + 1) }) = some g3 ∧
        (store g3 (some (h.length + 1)) fun v => { v with neighbor := some h.length }) = some g ∧
      g.length = h.length + 2 ∧ nodeNext g = nodeNext h ∧ nodePrev g = nodePrev h ∧
      (∀ b, nodeNeighbor g b = if b = h.length then some (h.length + 1)
        else if b = h.length + 1 then some h.length else nodeNeighbor h b) ∧
      (∀ b, isInt g b = if b = h.length ∨ b = h.length + 1 then true else isInt h b) := by
  rw [store_eq_nodeUpd _ (by rw [length_nodeAlloc, length_nodeAlloc]; omega)]
  have hcell : ∀ b, (upd (upd (alloc (alloc h { p := ip, isIntersection := true, alpha := ta }).1
      { p := ip, isIntersection := true, alpha := tb }).1 h.length
      fun v => { v with neighbor := some (h.length + 1) }) (h.length + 1)
      fun v => { v with neighbor := some h.length })[b]? =
      if b = h.length then
        some { p := ip, isIntersection := true, alpha := ta, neighbor := some (h.length + 1) }
      else if b = h.length + 1 then
        some { p := ip, isIntersection := true, alpha := tb, neighbor := some h.length }
      else h[b]? := by
    intro b
    simp only [getElem?_nodeUpd, getElem?_nodeAlloc, length_nodeAlloc]
    by_cases hb1 : b = h.length
    · subst hb1; simp
    · by_cases hb2 : b = h.length + 1
      · subst hb2; simp
      · simp [hb1, hb2]
  have hnone1 : h[h.length]? = none := List.getElem?_eq_none (le_refl _)
  have hnone2 : h[h.length + 1]? = none := List.getElem?_eq_none (by omega)
  refine ⟨_, _, rfl,
    store_eq_nodeUpd _ (by rw [length_nodeUpd, length_nodeAlloc, length_nodeAlloc]; omega),
    ?_, ?_, ?_, ?_, ?_⟩
  · rw [length_nodeUpd, length_nodeUpd, length_nodeAlloc, length_nodeAlloc]
  · funext b
    unfold nodeNext
    rw [hcell]
    by_cases hb1 : b = h.length
    · subst hb1; simp [hnone1]
    · by_cases hb2 : b = h.length + 1
      · subst hb2; simp [hnone2]
      · simp [hb1, hb2]
  · funext b
    unfold nodePrev
    rw [hcell]
    by_cases hb1 : b = h.length
    · subst hb1; simp [hnone1]
    · by_cases hb2 : b = h.length + 1
      · subst hb2; simp [hnone2]
      · simp [hb1, hb2]
  · intro b
    unfold nodeNeighbor
    rw [hcell]
    by_cases hb1 : b = h.length
    · subst hb1; simp
    · by_cases hb2 : b = h.length + 1
      · subst hb2; simp
      · simp [hb1, hb2]
  · intro b
    unfold isInt
    rw [hcell]
    by_cases hb1 : b = h.length
    · subst hb1; simp
    · by_cases hb2 : b = h.length + 1
      · subst hb2; simp
      · simp [hb1, hb2]

theorem mem_insert_mid {pre s1 s2 : List Nat} {c n x : Nat} :
    x ∈ pre ++ c :: (s1 ++ n :: s2) ↔ x ∈ pre ++ c :: (s1 ++ s2) ∨ x = n := by
  simp only [List.mem_append, List.mem_cons]
  tauto

theorem length_insert_mid {pre s1 s2 : List Nat} {c n : Nat} :
    (pre ++ c :: (s1 ++ n :: s2)).length = (pre ++ c :: (s1 ++ s2)).length + 1 := by
  simp only [List.length_append, List.length_cons]
  omega

/-- the body of the inner loop of `FindIntersections` on two rings: it returns,
with the heap as it was or with one new node linked into each ring, after the
current node and the intersection nodes that follow it -/
theorem FindIntersectionsPair_spec {h : NodeHeap} {A B a b an bn : Nat}
    {LA LB preA sa preB sb : List Nat}
    (hr : TwoRings h A B LA LB) (eA : LA = preA ++ a :: sa) (eB : LB = preB ++ b :: sb)
    (hanL : an ∈ LA) (hbnL : bn ∈ LB) :
    ∃ g, (∀ f, h.length + 1 ≤ f →
        FindIntersectionsPair f h (some a) (some an) (some b) (some bn) = some g) ∧
      (g = h ∨ ∃ s1 s2 t1 t2, sa = s1 ++ s2 ∧ sb = t1 ++ t2 ∧
        (∀ x, x ∈ s1 → isInt h x = true) ∧ (∀ x, x ∈ t1 → isInt h x = true) ∧
        TwoRings g A B (preA ++ a :: (s1 ++ h.length :: s2))
          (preB ++ b :: (t1 ++ (h.length + 1) :: t2)) ∧
        g.length = h.length + 2 ∧ (∀ x, x < h.length → isInt g x = isInt h x) ∧
        isInt g h.length = true ∧ isInt g (h.length + 1) = true) := by
  have haL : a ∈ LA := by rw [eA]; simp
  have hbL : b ∈ LB := by rw [eB]; simp
  obtain ⟨av, _, hav, _, _⟩ := hr.cycA.cell haL
  obtain ⟨bv, _, hbv, _, _⟩ := hr.cycB.cell hbL
  obtain ⟨anv, _, hanv, _, _⟩ := hr.cycA.cell hanL
  obtain ⟨bnv, _, hbnv, _, _⟩ := hr.cycB.cell hbnL
  cases hsi : SegmentIntersect av.p anv.p bv.p bnv.p with
  | none =>
    refine ⟨h, fun f _ => ?_, Or.inl rfl⟩
    simp [FindIntersectionsPair, load, hav, hanv, hbv, hbnv, hsi]
  | some r =>
    obtain ⟨ip, ta, tb⟩ := r
    obtain ⟨h3, h4, e3, e4, len4, N4, P4, Nb4, I4⟩ := allocPair_spec h ip ta tb
    have hlenA : LA.length ≤ h.length := by have := hr.len; omega
    have hlenB : LB.length ≤ h.length := by have := hr.len; omega
    have hsa : sa.length + 1 ≤ h.length + 1 := by
      rw [eA] at hlenA; simp at hlenA; omega
    have hsb : sb.length + 1 ≤ h.length + 1 := by
      rw [eB] at hlenB; simp at hlenB; omega
    -- the new node of ring `A`
    have cA4 : IsCycle (nodeNext h4) A (preA ++ a :: sa) := by rw [N4, ← eA]; exact hr.cycA
    have hA4 : isInt h4 A = false := by
      rw [I4, if_neg, hr.headA]
      have := hr.lt A (Or.inl hr.cycA.hd_mem)
      omega
    have hnA : h.length ∉ preA ++ a :: sa := fun hm => by
      have := hr.lt _ (Or.inl (eA ▸ hm))
      omega
    obtain ⟨nav, hnav⟩ := exists_getElem?_of_lt (h := h4) (a := h.length) (by omega)
    obtain ⟨s1, s2, h5, es, his, hrunA, cA5, currA, succA, hcurrA, hsuccA, hsp5⟩ :=
      InsertInOrder_spec cA4 hA4 hnA hnav
    rw [← eA] at hcurrA hsuccA
    have lcA := hr.lt _ (Or.inl hcurrA)
    have lsA := hr.lt _ (Or.inl hsuccA)
    obtain ⟨len5, N5, P5, Nb5, I5⟩ := hsp5
    -- the new node of ring `B`
    have cB5 : IsCycle (nodeNext h5) B (preB ++ b :: sb) := by
      rw [← eB]
      refine hr.cycB.congr_next fun x hx => ?_
      have hxlt := hr.lt _ (Or.inr hx)
      have hxne : x ≠ currA := fun e => hr.disj _ hcurrA (e ▸ hx)
      rw [N5, if_neg hxne, if_neg (by omega), N4]
    have hB5 : isInt h5 B = false := by
      rw [I5, I4, if_neg, hr.headB]
      have := hr.lt B (Or.inr hr.cycB.hd_mem)
      omega
    have hnB : h.length + 1 ∉ preB ++ b :: sb := fun hm => by
      have := hr.lt _ (Or.inr (eB ▸ hm))
      omega
    obtain ⟨nbv, hnbv⟩ := exists_getElem?_of_lt (h := h5) (a := h.length + 1) (by omega)
    obtain ⟨t1, t2, h6, et, hit, hrunB, cB6, currB, succB, hcurrB, hsuccB, hsp6⟩ :=
      InsertInOrder_spec cB5 hB5 hnB hnbv
    rw [← eB] at hcurrB hsuccB
    have lcB := hr.lt _ (Or.inr hcurrB)
    have lsB := hr.lt _ (Or.inr hsuccB)
    obtain ⟨len6, N6, P6, Nb6, I6⟩ := hsp6
    have hI : ∀ x, isInt h6 x = if x = h.length ∨ x = h.length + 1 then true else isInt h x := by
      intro x; rw [I6, I5, I4]
    have hmA : ∀ x, x ∈ preA ++ a :: (s1 ++ h.length :: s2) ↔ x ∈ LA ∨ x = h.length := by
      intro x; rw [mem_insert_mid, ← es, ← eA]
    have hmB : ∀ x, x ∈ preB ++ b :: (t1 ++ (h.length + 1) :: t2) ↔
        x ∈ LB ∨ x = h.length + 1 := by
      intro x; rw [mem_insert_mid, ← et, ← eB]
    refine ⟨h6, fun f hf => ?_, Or.inr ⟨s1, s2, t1, t2, es, et, ?_, ?_, ?_, by omega, ?_, ?_, ?_⟩⟩
    · simp only [FindIntersectionsPair, load, hav, hanv, hbv, hbnv, hsi, Option.some_bind]
      have a1 : ∀ v, (alloc h v).2 = h.length := fun _ => rfl
      have a2 : ∀ v w, (alloc (alloc h v).1 w).2 = h.length + 1 := fun v w => by simp [alloc]
      simp only [a1, a2]
      rw [e3]
      simp only [Option.some_bind]
      rw [e4]
      simp only [Option.some_bind]
      rw [hrunA f (by omega)]
      simp only [Option.some_bind]
      exact hrunB f (by omega)
    · intro x hx
      have := his x hx
      rw [I4] at this
      have hxlt : x < h.length := hr.lt _ (Or.inl (by rw [eA, es]; simp [hx]))
      rwa [if_neg (by omega)] at this
    · intro x hx
      have := hit x hx
      rw [I5, I4] at this
      have hxlt : x < h.length := hr.lt _ (Or.inr (by rw [eB, et]; simp [hx]))
      rwa [if_neg (by omega)] at this
    · refine ⟨?_, cB6, ?_, ?_, ?_, ?_, ?_, ?_, ?_⟩
      · refine cA5.congr_next fun x hx => ?_
        rw [N6]
        rcases (hmA x).1 hx with hx | hx
        · have := hr.lt _ (Or.inl hx)
          rw [if_neg (fun e : x = currB => hr.disj _ hx (e ▸ hcurrB)), if_neg (by omega)]
        · rw [if_neg (by omega), if_neg (by omega)]
      · intro x hx hx'
        rcases (hmA x).1 hx with hx | hx <;> rcases (hmB x).1 hx' with hx' | hx'
        · exact hr.disj x hx hx'
        · have := hr.lt _ (Or.inl hx); omega
        · have := hr.lt _ (Or.inr hx'); omega
        · omega
      · rw [length_insert_mid, length_insert_mid, ← es, ← et, ← eA, ← eB]
        have := hr.len
        omega
      · intro x hx
        rcases hx with hx | hx
        · rcases (hmA x).1 hx with hx | hx
          · have := hr.lt _ (Or.inl hx); omega
          · omega
        · rcases (hmB x).1 hx with hx | hx
          · have := hr.lt _ (Or.inr hx); omega
          · omega
      · intro x hx
        rw [hmA, hmB]
        by_cases hx1 : x < h.length
        · rcases hr.cover x hx1 with hc | hc
          · exact Or.inl (Or.inl hc)
          · exact Or.inr (Or.inl hc)
        · by_cases hx2 : x = h.length
          · exact Or.inl (Or.inr hx2)
          · exact Or.inr (Or.inr (by omega))
      · rw [hI, if_neg, hr.headA]
        have := hr.lt A (Or.inl hr.cycA.hd_mem)
        omega
      · rw [hI, if_neg, hr.headB]
        have := hr.lt B (Or.inr hr.cycB.hd_mem)
        omega
      · intro c hc
        rw [len6, len5, len4] at hc ⊢
        have hcl := hr.closed
        refine ⟨?_, ?_, ?_, ?_⟩
        · rw [N6, N5, N4]
          by_cases h1 : c = currB
          · rw [if_pos h1]; exact ⟨_, rfl, by omega⟩
          · rw [if_neg h1]
            by_cases h2 : c = h.length + 1
            · rw [if_pos h2]; exact ⟨_, rfl, by omega⟩
            · rw [if_neg h2]
              by_cases h3 : c = currA
              · rw [if_pos h3]; exact ⟨_, rfl, by omega⟩
              · rw [if_neg h3]
                by_cases h4' : c = h.length
                · rw [if_pos h4']; exact ⟨_, rfl, by omega⟩
                · rw [if_neg h4']
                  obtain ⟨x, hx, hxl⟩ := (hcl c (by omega)).1
                  exact ⟨x, hx, by omega⟩
        · rw [P6, P5, P4]
          by_cases h1 : c = succB
          · rw [if_pos h1]; exact ⟨_, rfl, by omega⟩
          · rw [if_neg h1]
            by_cases h2 : c = h.length + 1
            · rw [if_pos h2]; exact ⟨_, rfl, by omega⟩
            · rw [if_neg h2]
              by_cases h3 : c = succA
              · rw [if_pos h3]; exact ⟨_, rfl, by omega⟩
              · rw [if_neg h3]
                by_cases h4' : c = h.length
                · rw [if_pos h4']; exact ⟨_, rfl, by omega⟩
                · rw [if_neg h4']
                  obtain ⟨x, hx, hxl⟩ := (hcl c (by omega)).2.1
                  exact ⟨x, hx, by omega⟩
        · intro x hx
          rw [Nb6, Nb5, Nb4] at hx
          by_cases h1 : c = h.length
          · rw [if_pos h1] at hx; cases hx; omega
          · rw [if_neg h1] at hx
            by_cases h2 : c = h.length + 1
            · rw [if_pos h2] at hx; cases hx; omega
            · rw [if_neg h2] at hx
              have := (hcl c (by omega)).2.2.1 x hx
              omega
        · intro hi
          rw [Nb6, Nb5, Nb4]
          rw [hI] at hi
          by_cases h1 : c = h.length
          · rw [if_pos h1]; rfl
          · rw [if_neg h1]
            by_cases h2 : c = h.length + 1
            · rw [if_pos h2]; rfl
            · rw [if_neg h2]
              rw [if_neg (by omega)] at hi
              exact (hcl c (by omega)).2.2.2 hi
    · intro x hx
      rw [hI, if_neg (by omega)]
    · rw [hI, if_pos (Or.inl rfl)]
    · rw [hI, if_pos (Or.inr rfl)]

theorem weight_cons (h : NodeHeap) (c : Nat) (l : List Nat) :
    weight h (c :: l) = (if isInt h c then 1 else 2) + weight h l := by
  simp [weight]

theorem weight_append (h : NodeHeap) (l1 l2 : List Nat) :
    weight h (l1 ++ l2) = weight h l1 + weight h l2 := by
  simp [weight]

theorem weight_congr {h g : NodeHeap} {l : List Nat} (hf : ∀ x, x ∈ l → isInt g x = isInt h x) :
    weight g l = weight h l := by
  unfold weight
  congr 1
  apply List.map_congr_left
  intro x hx
  rw [hf x hx]

theorem weight_pos (h : NodeHeap) (c : Nat) (l : List Nat) : 0 < weight h (c :: l) := by
  rw [weight_cons]
  split <;> omega

/-- an all-intersection prefix of `ins ++ sufA` ends before `sufA`, whose cells
are not intersection nodes -/
theorem prefix_of_flags {h : NodeHeap} {ins sufA s1 s2 : List Nat}
    (e : ins ++ sufA = s1 ++ s2) (h1 : ∀ x, x ∈ s1 → isInt h x = true)
    (h2 : ∀ x, x ∈ sufA → isInt h x = false) :
    ∃ i2, ins = s1 ++ i2 ∧ s2 = i2 ++ sufA := by
  rcases List.append_eq_append_iff.1 e with ⟨a', e1, e2⟩ | ⟨c', e1, e2⟩
  · cases a' with
    | nil => exact ⟨[], by simpa using e1.symm, by simpa using e2.symm⟩
    | cons y a' =>
      have hy1 := h1 y (by rw [e1]; simp)
      have hy2 := h2 y (by rw [e2]; simp)
      rw [hy1] at hy2
      cases hy2
  · exact ⟨c', e1, e2⟩

/-- the first half of a pass of the inner loop of `FindIntersections` -/
theorem FindIntersectionsInner_step {A B a an b : Nat} {preA sufA : List Nat} {n : Nat}
    {h : NodeHeap} {LA LB ins preB sb : List Nat} {bv : Node}
    (hr : TwoRings h A B LA LB) (eA : LA = preA ++ a :: (ins ++ sufA))
    (hsuf : ∀ x, x ∈ sufA → isInt h x = false) (han : an ∈ preA ++ a :: sufA)
    (eB : LB = preB ++ b :: sb) (hbv : h[b]? = some bv) (hw : weight h (b :: sb) ≤ n + 1)
    {bn : Nat} (hbn : bn ∈ LB) :
    ∃ g LA1 LB1 ins1, TwoRings g A B LA1 LB1 ∧ LA1 = preA ++ a :: (ins1 ++ sufA) ∧
      (∀ x, x ∈ sufA → isInt g x = false) ∧
      (∀ fi, h.length + 1 ≤ fi →
        (if bv.isIntersection = true then some h
         else FindIntersectionsPair fi h (some a) (some an) (some b) (some bn)) = some g) ∧
      ∀ x t, sb = x :: t → ∃ preB1 sb1, LB1 = preB1 ++ x :: sb1 ∧ weight g (x :: sb1) ≤ n := by
  have hbi : isInt h b = bv.isIntersection := isInt_of_getElem? hbv
  rw [weight_cons, hbi] at hw
  by_cases hint : bv.isIntersection = true
  · refine ⟨h, LA, LB, ins, hr, eA, hsuf, fun fi _ => by rw [if_pos hint], fun x t e => ?_⟩
    refine ⟨preB ++ [b], t, by rw [eB, e]; simp, ?_⟩
    rw [if_pos hint, e] at hw
    omega
  · rw [if_neg hint] at hw
    have hanL : an ∈ LA := by
      rw [eA]
      simp only [List.mem_append, List.mem_cons] at han ⊢
      tauto
    obtain ⟨g, hrun, hg⟩ := FindIntersectionsPair_spec hr eA eB hanL hbn
    rcases hg with rfl | ⟨s1, s2, t1, t2, es, et, his, hit, hr', hlen, hold, _, hnb⟩
    · refine ⟨g, LA, LB, ins, hr, eA, hsuf, fun fi hfi => by rw [if_neg hint]; exact hrun fi hfi,
        fun x t e => ?_⟩
      refine ⟨preB ++ [b], t, by rw [eB, e]; simp, ?_⟩
      rw [e] at hw
      omega
    · obtain ⟨i2, ei, e2⟩ := prefix_of_flags es his hsuf
      have hsuflt : ∀ x, x ∈ sufA → x < h.length := fun x hx =>
        hr.lt x (Or.inl (by rw [eA]; simp [hx]))
      have hsblt : ∀ x, x ∈ sb → x < h.length := fun x hx =>
        hr.lt x (Or.inr (by rw [eB]; simp [hx]))
      refine ⟨g, _, _, s1 ++ h.length :: i2, hr', ?_, ?_,
        fun fi hfi => by rw [if_neg hint]; exact hrun fi hfi, fun x t e => ?_⟩
      · rw [e2]; simp
      · intro x hx
        rw [hold x (hsuflt x hx)]
        exact hsuf x hx
      · rw [e] at et hw
        cases t1 with
        | nil =>
          simp only [List.nil_append] at et
          subst et
          refine ⟨preB ++ [b, h.length + 1], t, by simp, ?_⟩
          rw [weight_congr (h := h) fun y hy => hold y (hsblt y (e ▸ hy))]
          omega
        | cons y t1 =>
          simp only [List.cons_append, List.cons.injEq] at et
          obtain ⟨rfl, rfl⟩ := et
          refine ⟨preB ++ [b], t1 ++ (h.length + 1) :: t2, by simp, ?_⟩
          have e1 : x :: (t1 ++ (h.length + 1) :: t2) = (x :: t1) ++ (h.length + 1) :: t2 := by simp
          have e2 : x :: (t1 ++ t2) = (x :: t1) ++ t2 := by simp
          have w1 : weight g (x :: t1) = weight h (x :: t1) :=
            weight_congr fun y hy => hold y (hsblt y (by rw [e]; simp at hy ⊢; tauto))
          have w2 : weight g t2 = weight h t2 :=
            weight_congr fun y hy => hold y (hsblt y (by rw [e]; simp; tauto))
          rw [e1, weight_append, weight_cons g (h.length + 1) t2, hnb, if_pos rfl, w1, w2]
          rw [e2, weight_append] at hw
          omega

theorem FindIntersectionsInner_spec {A B a an : Nat} {preA sufA : List Nat}
    (han : an ∈ preA ++ a :: sufA) :
    ∀ (n : Nat) (h : NodeHeap) (LA LB ins preB sb : List Nat) (b : Nat),
      TwoRings h A B LA LB → LA = preA ++ a :: (ins ++ sufA) →
      (∀ x, x ∈ sufA → isInt h x = false) → LB = preB ++ b :: sb → weight h (b :: sb) ≤ n →
      ∃ g LA1 LB1 ins1, TwoRings g A B LA1 LB1 ∧ LA1 = preA ++ a :: (ins1 ++ sufA) ∧
        (∀ x, x ∈ sufA → isInt g x = false) ∧
        ∃ N, ∀ fi f, N ≤ fi → N ≤ f →
          FindIntersectionsInner fi (some B) (some a) (some an) f h (some b) = some g
  | 0, h, _, _, _, _, sb, b, _, _, _, _, hw => by
    have := weight_pos h b sb
    omega
  | n + 1, h, LA, LB, ins, preB, sb, b, hr, eA, hsuf, eB, hw => by
    have hbL : b ∈ LB := by rw [eB]; simp
    obtain ⟨bv, bn, hbv, hbvn, hbnL⟩ := hr.cycB.cell hbL
    obtain ⟨g, LA1, LB1, ins1, hr1, eA1, hsuf1, hrun, hnext⟩ :=
      FindIntersectionsInner_step hr eA hsuf han eB hbv hw hbnL
    have hnx : nodeNext h b = some bn := by rw [nodeNext_of_getElem? hbv, hbvn]
    cases sb with
    | nil =>
      have hB : bn = B := by
        have := (eB ▸ hr.cycB).next_end
        rw [this] at hnx
        exact (Option.some.inj hnx).symm
      subst hB
      refine ⟨g, LA1, LB1, ins1, hr1, eA1, hsuf1, h.length + 1, fun fi f hfi hf => ?_⟩
      obtain ⟨f, rfl⟩ : ∃ k, f = k + 1 := ⟨f - 1, by omega⟩
      simp only [FindIntersectionsInner, load, hbv, Option.some_bind, hbvn, hrun fi hfi]
      simp
    | cons x t =>
      have hx : bn = x := by
        have := (eB ▸ hr.cycB).next_cons
        rw [this] at hnx
        exact (Option.some.inj hnx).symm
      subst hx
      have hxB : bn ≠ B := (eB ▸ hr.cycB).ne_hd
      obtain ⟨preB1, sb1, eB1, hw1⟩ := hnext bn t rfl
      obtain ⟨g2, LA2, LB2, ins2, hr2, eA2, hsuf2, N, hrun2⟩ :=
        FindIntersectionsInner_spec han n g LA1 LB1 ins1 preB1 sb1 bn hr1 eA1 hsuf1 eB1 hw1
      refine ⟨g2, LA2, LB2, ins2, hr2, eA2, hsuf2, max (h.length + 1) (N + 1),
        fun fi f hfi hf => ?_⟩
      obtain ⟨f, rfl⟩ : ∃ k, f = k + 1 := ⟨f - 1, by omega⟩
      have hne : some bn ≠ some B := fun e => hxB (Option.some.inj e)
      simp only [FindIntersectionsInner, load, hbv, Option.some_bind, hbvn,
        hrun fi (by omega), if_pos hne]
      exact hrun2 fi f (by omega) (by omega)

theorem IsCycle.eq_cons {nx : Nat → Option Nat} {hd : Nat} {L : List Nat}
    (hc : IsCycle nx hd L) : L = hd :: L.tail := by
  have := hc.2.1
  cases L with
  | nil => simp at this
  | cons p L =>
    simp only [List.head?_cons, Option.some.injEq] at this
    simp [this]

theorem FindIntersectionsOuter_spec {A B : Nat} :
    ∀ (sufA preA : List Nat) (a : Nat) (h : NodeHeap) (LA LB : List Nat),
      TwoRings h A B LA LB → LA = preA ++ a :: sufA →
      (∀ x, x ∈ a :: sufA → isInt h x = false) →
      ∃ g LA1 LB1, TwoRings g A B LA1 LB1 ∧
        ∃ N, ∀ fi f, N ≤ fi → N ≤ f →
          FindIntersectionsOuter fi (some A) (some B) f h (some a) = some g
  | sufA, preA, a, h, LA, LB, hr, eA, hflags => by
    have haL : a ∈ LA := by rw [eA]; simp
    obtain ⟨av, an, hav, havn, hanL⟩ := hr.cycA.cell haL
    have hai : av.isIntersection = false := by
      rw [← isInt_of_getElem? hav]; exact hflags a (by simp)
    have hnx : nodeNext h a = some an := by rw [nodeNext_of_getElem? hav, havn]
    have eB := hr.cycB.eq_cons
    obtain ⟨g, LA1, LB1, ins1, hr1, eA1, hsuf1, N1, hrun1⟩ :=
      FindIntersectionsInner_spec (show an ∈ preA ++ a :: sufA from eA ▸ hanL)
        (weight h LB) h LA LB [] [] LB.tail B hr (by simpa using eA)
        (fun x hx => hflags x (List.mem_cons_of_mem _ hx)) (by simpa using eB)
        (by rw [← eB])
    cases sufA with
    | nil =>
      have hA : an = A := by
        have := (eA ▸ hr.cycA).next_end
        rw [this] at hnx
        exact (Option.some.inj hnx).symm
      subst hA
      refine ⟨g, LA1, LB1, hr1, max N1 1, fun fi f hfi hf => ?_⟩
      obtain ⟨f, rfl⟩ : ∃ k, f = k + 1 := ⟨f - 1, by omega⟩
      simp only [FindIntersectionsOuter, load, hav, Option.some_bind, hai, havn,
        hrun1 fi fi (by omega) (by omega)]
      simp
    | cons x t =>
      have hx : an = x := by
        have := (eA ▸ hr.cycA).next_cons
        rw [this] at hnx
        exact (Option.some.inj hnx).symm
      subst hx
      have hxA : an ≠ A := (eA ▸ hr.cycA).ne_hd
      obtain ⟨g2, LA2, LB2, hr2, N2, hrun2⟩ :=
        FindIntersectionsOuter_spec t (preA ++ a :: ins1) an g LA1 LB1 hr1
          (by rw [eA1]; simp) hsuf1
      refine ⟨g2, LA2, LB2, hr2, max N1 (N2 + 1), fun fi f hfi hf => ?_⟩
      obtain ⟨f, rfl⟩ : ∃ k, f = k + 1 := ⟨f - 1, by omega⟩
      have hne : some an ≠ some A := fun e => hxA (Option.some.inj e)
      simp only [FindIntersectionsOuter, load, hav, Option.some_bind, hai, havn,
        hrun1 fi fi (by omega) (by omega), if_pos hne]
      simp only [Bool.false_eq_true, if_false, Option.some_bind]
      exact hrun2 fi f (by omega) (by omega)
termination_by sufA => sufA.length

theorem FindIntersections_spec {A B : Nat} {h : NodeHeap} {LA LB : List Nat}
    (hr : TwoRings h A B LA LB) (hflags : ∀ x, x ∈ LA → isInt h x = false) :
    ∃ g LA1 LB1, TwoRings g A B LA1 LB1 ∧
      ∃ N, ∀ f, N ≤ f → FindIntersections f h (some A) (some B) = some g := by
  have eA := hr.cycA.eq_cons
  obtain ⟨g, LA1, LB1, hr1, N, hrun⟩ :=
    FindIntersectionsOuter_spec LA.tail [] A h LA LB hr (by simpa using eA)
      (fun x hx => hflags x (by rw [eA]; exact hx))
  exact ⟨g, LA1, LB1, hr1, N, fun f hf => hrun f f hf hf⟩

/-- a loop over a ring whose body keeps an invariant that makes the ring a
cycle of `next` comes back to its start, with the invariant -/
theorem ringWalk_spec {σ : Type}
    (body : Nat → NodeHeap → Option Nat → σ → Option (NodeHeap × σ))
    (I : NodeHeap → σ → Prop) (N hd : Nat) (L : List Nat)
    (hI : ∀ h s, I h s → IsCycle (nodeNext h) hd L)
    (hbody : ∀ h s c, I h s → c ∈ L →
      ∃ r : NodeHeap × σ, I r.1 r.2 ∧ ∀ f, N ≤ f → body f h (some c) s = some r) :
    ∀ (suf pre : List Nat) (c : Nat) (h : NodeHeap) (s : σ), L = pre ++ c :: suf → I h s →
      ∃ r : NodeHeap × σ, I r.1 r.2 ∧
        ∀ f k, N ≤ f → suf.length + 1 ≤ k →
          ringWalk (body f) (some hd) k h (some c) s = some r
  | [], pre, c, h, s, eL, hi => by
    obtain ⟨r1, hi1, hrun1⟩ := hbody h s c hi (by rw [eL]; simp)
    have hc := hI _ _ hi1
    obtain ⟨v, y, hv, hvn, _⟩ := hc.cell (x := c) (by rw [eL]; simp)
    have hy : y = hd := by
      have := (eL ▸ hc).next_end
      rw [nodeNext_of_getElem? hv, hvn] at this
      exact Option.some.inj this
    subst hy
    refine ⟨r1, hi1, fun f k hf hk => ?_⟩
    obtain ⟨k, rfl⟩ : ∃ j, k = j + 1 := ⟨k - 1, by simp at hk; omega⟩
    simp [ringWalk, hrun1 f hf, load, hv, hvn]
  | x :: t, pre, c, h, s, eL, hi => by
    obtain ⟨r1, hi1, hrun1⟩ := hbody h s c hi (by rw [eL]; simp)
    have hc := hI _ _ hi1
    obtain ⟨v, y, hv, hvn, _⟩ := hc.cell (x := c) (by rw [eL]; simp)
    have hy : y = x := by
      have := (eL ▸ hc).next_cons
      rw [nodeNext_of_getElem? hv, hvn] at this
      exact Option.some.inj this
    subst hy
    have hne : y ≠ hd := (eL ▸ hc).ne_hd
    obtain ⟨r2, hi2, hrun2⟩ :=
      ringWalk_spec body I N hd L hI hbody t (pre ++ [c]) y r1.1 r1.2 (by rw [eL]; simp) hi1
    refine ⟨r2, hi2, fun f k hf hk => ?_⟩
    obtain ⟨k, rfl⟩ : ∃ j, k = j + 1 := ⟨k - 1, by simp at hk; omega⟩
    have hne' : some y ≠ some hd := fun e => hne (Option.some.inj e)
    simp only [ringWalk, hrun1 f hf, Option.some_bind, load, hv, hvn, if_pos hne']
    exact hrun2 f k hf (by simp at hk; omega)

/-- the form of `ringWalk_spec` for a walk from the head of the ring -/
theorem ringWalk_head {σ : Type}
    (body : Nat → NodeHeap → Option Nat → σ → Option (NodeHeap × σ))
    (I : NodeHeap → σ → Prop) (N hd : Nat) (L : List Nat)
    (hI : ∀ h s, I h s → IsCycle (nodeNext h) hd L)
    (hbody : ∀ h s c, I h s → c ∈ L →
      ∃ r : NodeHeap × σ, I r.1 r.2 ∧ ∀ f, N ≤ f → body f h (some c) s = some r)
    (h : NodeHeap) (s : σ) (hi : I h s) :
    ∃ r : NodeHeap × σ, I r.1 r.2 ∧
      ∀ f k, N ≤ f → L.length ≤ k → ringWalk (body f) (some hd) k h (some hd) s = some r := by
  have eL := (hI h s hi).eq_cons
  obtain ⟨r, hr, hrun⟩ := ringWalk_spec body I N hd L hI hbody L.tail [] hd h s (by simpa using eL) hi
  refine ⟨r, hr, fun f k hf hk => hrun f k hf ?_⟩
  rw [eL] at hk
  simpa using hk

theorem MarkEntryExit_spec {h : NodeHeap} {hd : Nat} {L : List Nat}
    (hc : IsCycle (nodeNext h) hd L) (hhd : isInt h hd = false) (other : List Point)
    (op : GHOp) (isA : Bool) :
    ∃ g, SameLinks h g ∧
      ∀ f, L.length + 1 ≤ f → MarkEntryExit f h (some hd) other op isA = some g := by
  obtain ⟨hv, _, hhv, _, _⟩ := hc.cell hc.hd_mem
  have hi : hv.isIntersection = false := by rw [← isInt_of_getElem? hhv]; exact hhd
  obtain ⟨r, hr, hrun⟩ := ringWalk_head (fun _ => MarkEntryExitBody op isA)
    (fun g _ => SameLinks h g) 0 hd L (fun g _ hs => by rw [hs.2.1]; exact hc)
    (fun g s c hs hcL => by
      have hcg : IsCycle (nodeNext g) hd L := by rw [hs.2.1]; exact hc
      obtain ⟨v, _, hv, _, _⟩ := hcg.cell hcL
      by_cases hvi : v.isIntersection = true
      · refine ⟨(upd g c fun w =>
          { w with entry :=
              if op = GHOp.Union then !s
              else if op = GHOp.Intersection then s
              else if isA then !s else s }, !s), ?_, fun f _ => ?_⟩
        · exact hs.trans' (sameLinks_upd g c _ fun w => ⟨rfl, rfl, rfl, rfl⟩)
        · simp only [MarkEntryExitBody, load, hv, Option.some_bind, hvi, if_true]
          rw [store_eq_nodeUpd _ (getElem?_lt hv)]
          rfl
      · refine ⟨(g, s), hs, fun f _ => ?_⟩
        simp only [MarkEntryExitBody, load, hv, Option.some_bind, hvi]
        rfl)
    h (PointInsidePolygon other hv.p) (SameLinks.rfl' h)
  refine ⟨r.1, hr, fun f hf => ?_⟩
  obtain ⟨k, rfl⟩ : ∃ j, f = j + 1 := ⟨f - 1, by omega⟩
  simp only [MarkEntryExit, MarkEntryExitStart, load, hhv, Option.some_bind, hi]
  simp only [Bool.false_eq_true, if_false, Option.some_bind, load, hhv]
  rw [hrun (k + 1) (k + 1) (by omega) (by omega)]
  rfl

theorem ResetVisited_spec {h : NodeHeap} {hd : Nat} {L : List Nat}
    (hc : IsCycle (nodeNext h) hd L) :
    ∃ g, SameLinks h g ∧ ∀ f, L.length ≤ f → ResetVisited f h (some hd) = some g := by
  obtain ⟨r, hr, hrun⟩ := ringWalk_head (fun _ => ResetVisitedBody)
    (fun g _ => SameLinks h g) 0 hd L (fun g _ hs => by rw [hs.2.1]; exact hc)
    (fun g s c hs hcL => by
      have hcg : IsCycle (nodeNext g) hd L := by rw [hs.2.1]; exact hc
      obtain ⟨v, _, hv, _, _⟩ := hcg.cell hcL
      refine ⟨(upd g c fun w => { w with visited := false }, s), ?_, fun f _ => ?_⟩
      · exact hs.trans' (sameLinks_upd g c _ fun w => ⟨rfl, rfl, rfl, rfl⟩)
      · simp only [ResetVisitedBody]
        rw [store_eq_nodeUpd _ (getElem?_lt hv)]
        rfl)
    h () (SameLinks.rfl' h)
  refine ⟨r.1, hr, fun f hf => ?_⟩
  simp only [ResetVisited, reduceCtorEq, if_false]
  rw [hrun f f (by omega) hf]
  rfl

theorem isVisited_mark (h : NodeHeap) (a x : Nat) (ha : a < h.length) :
    isVisited (upd h a fun w => { w with visited := true }) x =
      (decide (x = a) || isVisited h x) := by
  obtain ⟨v, hv⟩ := exists_getElem?_of_lt ha
  rw [isVisited_upd]
  by_cases hx : x = a
  · simp [hx, hv]
  · simp [hx]

theorem TraceResultLoop_spec (start : Option Nat) (op : GHOp) (h0 : NodeHeap)
    (hcl : Closed h0) :
    ∀ (k : Nat) (h : NodeHeap) (cur : Option Nat) (onPolyA forward : Bool)
      (acc : List (Nat × Point)),
      SameLinks h0 h → (∀ c, cur = some c → c < h.length) → (acc.map Prod.fst).Nodup →
      (∀ x, x ∈ acc.map Prod.fst → x < h.length ∧ isVisited h x = true) →
      h.length - acc.length ≤ k →
      ∃ r : NodeHeap × List (Nat × Point), SameLinks h0 r.1 ∧ (r.2.map Prod.fst).Nodup ∧
        (∀ x, x ∈ r.2.map Prod.fst → x < h.length) ∧
        ∀ f, k + 1 ≤ f → TraceResultLoop start op f h cur onPolyA forward acc = some r
  | k, h, none, onPolyA, forward, acc, hs, _, hnd, hacc, _ => by
    refine ⟨(h, acc), hs, hnd, fun x hx => (hacc x hx).1, fun f hf => ?_⟩
    obtain ⟨f, rfl⟩ : ∃ j, f = j + 1 := ⟨f - 1, by omega⟩
    rfl
  | k, h, some c, onPolyA, forward, acc, hs, hcur, hnd, hacc, hk => by
    have hc := hcur c rfl
    obtain ⟨v, hv⟩ := exists_getElem?_of_lt hc
    by_cases hvis : v.visited = true
    · refine ⟨(h, acc), hs, hnd, fun x hx => (hacc x hx).1, fun f hf => ?_⟩
      obtain ⟨f, rfl⟩ : ∃ j, f = j + 1 := ⟨f - 1, by omega⟩
      simp [TraceResultLoop, load, hv, hvis]
    · have hclh : Closed h := hs.closed hcl
      have hcacc : c ∉ acc.map Prod.fst := fun hm => by
        have := (hacc c hm).2
        rw [isVisited_of_getElem? hv] at this
        exact hvis this
      have hnd' : ((acc ++ [(c, v.p)]).map Prod.fst).Nodup := by
        rw [List.map_append]
        refine List.Nodup.append hnd (by simp) ?_
        intro x hx hx'
        simp only [List.map_cons, List.map_nil, List.mem_singleton] at hx'
        exact hcacc (hx' ▸ hx)
      have hlen' : acc.length + 1 ≤ h.length := by
        have := length_le_of_nodup_lt hnd' (n := h.length) (fun x hx => by
          rw [List.map_append, List.mem_append] at hx
          rcases hx with hx | hx
          · exact (hacc x hx).1
          · simp only [List.map_cons, List.map_nil, List.mem_singleton] at hx
            rw [hx]; exact hc)
        simpa using this
      obtain ⟨k, rfl⟩ : ∃ j, k = j + 1 := ⟨k - 1, by omega⟩
      -- the two stores to `visited`
      have hs1 : SameLinks h (upd h c fun w => { w with visited := true }) :=
        sameLinks_upd h c _ fun w => ⟨rfl, rfl, rfl, rfl⟩
      have hv1 : (upd h c fun w => { w with visited := true })[c]? =
          some { v with visited := true } := by
        rw [getElem?_nodeUpd, if_pos rfl, hv]; rfl
      obtain ⟨h2, hstore, hs2, hvis2⟩ : ∃ h2,
          (if v.neighbor ≠ none then
            store (upd h c fun w => { w with visited := true }) v.neighbor
              fun w => { w with visited := true }
           else some (upd h c fun w => { w with visited := true })) = some h2 ∧
          SameLinks h h2 ∧ ∀ x, isVisited h x = true ∨ x = c → isVisited h2 x = true := by
        cases hnb : v.neighbor with
        | none =>
          refine ⟨_, by simp, hs1, fun x hx => ?_⟩
          rw [isVisited_mark h c x hc]
          rcases hx with hx | hx
          · simp [hx]
          · simp [hx]
        | some d =>
          have hd : d < h.length :=
            (hclh c hc).2.2.1 d (by rw [nodeNeighbor_of_getElem? hv, hnb])
          refine ⟨upd (upd h c fun w => { w with visited := true }) d
            fun w => { w with visited := true }, ?_, ?_, fun x hx => ?_⟩
          · simp only [ne_eq, reduceCtorEq, not_false_eq_true, if_true]
            exact store_eq_nodeUpd _ (by simpa using hd)
          · exact hs1.trans' (sameLinks_upd _ d _ fun w => ⟨rfl, rfl, rfl, rfl⟩)
          · rw [isVisited_mark _ d x (by simpa using hd), isVisited_mark h c x hc]
            rcases hx with hx | hx
            · simp [hx]
            · simp [hx]
      have hlen2 : h2.length = h.length := hs2.1
      obtain ⟨v2, hv2⟩ := exists_getElem?_of_lt (h := h2) (a := c) (by omega)
      have hcl2 : Closed h2 := hs2.closed hclh
      have hi2 : v2.isIntersection = v.isIntersection := by
        rw [← isInt_of_getElem? hv2, ← isInt_of_getElem? hv, hs2.2.2.2.2]
      have hn2 : v2.neighbor = v.neighbor := by
        rw [← nodeNeighbor_of_getElem? hv2, ← nodeNeighbor_of_getElem? hv, hs2.2.2.2.1]
      -- the node the walk goes on from
      obtain ⟨c1, hc1, hcur1⟩ : ∃ c1, c1 < h2.length ∧
          (if v2.isIntersection = true then v2.neighbor else some c) = some c1 := by
        by_cases hi : v2.isIntersection = true
        · have h1 := (hcl2 c (by omega)).2.2.2 (by rw [isInt_of_getElem? hv2]; exact hi)
          rw [nodeNeighbor_of_getElem? hv2] at h1
          obtain ⟨d, hd⟩ := Option.isSome_iff_exists.1 h1
          refine ⟨d, (hcl2 c (by omega)).2.2.1 d (by rw [nodeNeighbor_of_getElem? hv2, hd]), ?_⟩
          rw [if_pos hi, hd]
        · exact ⟨c, by omega, by rw [if_neg hi]⟩
      obtain ⟨w, hw⟩ := exists_getElem?_of_lt hc1
      obtain ⟨c2, hc2, hcur2⟩ : ∃ c2, c2 < h2.length ∧
          ∀ fw : Bool, (if fw = true then w.next else w.prev) = some c2 ∨
            ∃ c3, c3 < h2.length ∧ (if fw = true then w.next else w.prev) = some c3 := by
        obtain ⟨x, hx, hxl⟩ := (hcl2 c1 hc1).1
        obtain ⟨y, hy, hyl⟩ := (hcl2 c1 hc1).2.1
        rw [nodeNext_of_getElem? hw] at hx
        rw [nodePrev_of_getElem? hw] at hy
        refine ⟨x, hxl, fun fw => ?_⟩
        cases fw
        · exact Or.inr ⟨y, hyl, by simp [hy]⟩
        · exact Or.inl (by simp [hx])
      have hnext : ∀ fw : Bool, ∃ c3, c3 < h2.length ∧
          (if fw = true then w.next else w.prev) = some c3 := fun fw => by
        rcases hcur2 fw with e | ⟨c3, h3, e⟩
        · exact ⟨c2, hc2, e⟩
        · exact ⟨c3, h3, e⟩
      have hnd2 : ((acc ++ [(c, v2.p)]).map Prod.fst).Nodup := by
        simpa using hnd'
      have hacc2 : ∀ x, x ∈ (acc ++ [(c, v2.p)]).map Prod.fst →
          x < h2.length ∧ isVisited h2 x = true := by
        intro x hx
        rw [List.map_append, List.mem_append] at hx
        rcases hx with hx | hx
        · exact ⟨by rw [hlen2]; exact (hacc x hx).1, hvis2 x (Or.inl (hacc x hx).2)⟩
        · simp only [List.map_cons, List.map_nil, List.mem_singleton] at hx
          exact ⟨by rw [hlen2, hx]; exact hc, hvis2 x (Or.inr hx)⟩
      obtain ⟨c3, hc3, hcur3⟩ := hnext
        (if v2.isIntersection = true then
          (if op = GHOp.Intersection ∨ op = GHOp.Union then true
           else if v2.isIntersection = true then !onPolyA else onPolyA)
         else forward)
      by_cases hstart : some c3 = start
      · refine ⟨(h2, acc ++ [(c, v2.p)]), hs.trans' hs2, hnd2,
          fun x hx => by rw [← hlen2]; exact (hacc2 x hx).1, fun f hf => ?_⟩
        obtain ⟨f, rfl⟩ : ∃ j, f = j + 1 := ⟨f - 1, by omega⟩
        simp only [TraceResultLoop, load, hv, Option.some_bind, hvis]
        rw [store_eq_nodeUpd _ hc]
        simp only [Option.some_bind, hv1, hstore, hv2, hcur1, hw, hcur3, hstart]
        simp
      · obtain ⟨r, hr1, hr2, hr3, hrun⟩ :=
          TraceResultLoop_spec start op h0 hcl k h2 (some c3)
            (if v2.isIntersection = true then !onPolyA else onPolyA)
            (if v2.isIntersection = true then
              (if op = GHOp.Intersection ∨ op = GHOp.Union then true
               else if v2.isIntersection = true then !onPolyA else onPolyA)
             else forward)
            (acc ++ [(c, v2.p)]) (hs.trans' hs2)
            (fun c' hc' => by cases hc'; exact hc3) hnd2 hacc2
            (by rw [hlen2]; simp; omega)
        refine ⟨r, hr1, hr2, fun x hx => by rw [← hlen2]; exact hr3 x hx, fun f hf => ?_⟩
        obtain ⟨f, rfl⟩ : ∃ j, f = j + 1 := ⟨f - 1, by omega⟩
        simp only [TraceResultLoop, load, hv, Option.some_bind, hvis]
        rw [store_eq_nodeUpd _ hc]
        simp only [Option.some_bind, hv1, hstore, hv2, hcur1, hw, hcur3, hstart]
        simp only [Bool.false_eq_true, if_false]
        exact hrun f (by omega)

theorem TraceResult_spec {h : NodeHeap} (hcl : Closed h) {c : Nat} (hc : c < h.length)
    (op : GHOp) (startOnA : Bool) :
    ∃ r : NodeHeap × List (Nat × Point), SameLinks h r.1 ∧ (r.2.map Prod.fst).Nodup ∧
      (∀ x, x ∈ r.2.map Prod.fst → x < h.length) ∧
      ∀ f, h.length + 1 ≤ f → TraceResult f h (some c) op startOnA = some r := by
  obtain ⟨r, h1, h2, h3, h4⟩ := TraceResultLoop_spec (some c) op h hcl h.length h (some c)
    startOnA true [] (SameLinks.rfl' h) (fun c' hc' => by cases hc'; exact hc) (by simp)
    (by simp) (by simp)
  exact ⟨r, h1, h2, h3, fun f hf => h4 f hf⟩

theorem nodeNext_upd_same (h : NodeHeap) (a : Nat) (f : Node → Node)
    (hf : ∀ v, (f v).next = v.next) : nodeNext (upd h a f) = nodeNext h := by
  funext b
  rw [nodeNext_upd]
  by_cases hb : b = a
  · subst hb
    simp only [if_true, nodeNext]
    cases h[b]? with
    | none => rfl
    | some v => simp [hf v]
  · simp only [hb, if_false]

theorem nodePrev_upd_same (h : NodeHeap) (a : Nat) (f : Node → Node)
    (hf : ∀ v, (f v).prev = v.prev) : nodePrev (upd h a f) = nodePrev h := by
  funext b
  rw [nodePrev_upd]
  by_cases hb : b = a
  · subst hb
    simp only [if_true, nodePrev]
    cases h[b]? with
    | none => rfl
    | some v => simp [hf v]
  · simp only [hb, if_false]

theorem nodeNeighbor_upd_same (h : NodeHeap) (a : Nat) (f : Node → Node)
    (hf : ∀ v, (f v).neighbor = v.neighbor) : nodeNeighbor (upd h a f) = nodeNeighbor h := by
  funext b
  rw [nodeNeighbor_upd]
  by_cases hb : b = a
  · subst hb
    simp only [if_true, nodeNeighbor]
    cases h[b]? with
    | none => rfl
    | some v => simp [hf v]
  · simp only [hb, if_false]

theorem isInt_upd_same (h : NodeHeap) (a : Nat) (f : Node → Node)
    (hf : ∀ v, (f v).isIntersection = v.isIntersection) : isInt (upd h a f) = isInt h := by
  funext b
  rw [isInt_upd]
  by_cases hb : b = a
  · subst hb
    simp only [if_true, isInt]
    cases h[b]? with
    | none => rfl
    | some v => simp [hf v]
  · simp only [hb, if_false]

theorem nodeNext_upd_set (h : NodeHeap) (a b : Nat) (x : Option Nat) (ha : a < h.length) :
    nodeNext (upd h a fun v => { v with next := x }) b = if b = a then x else nodeNext h b := by
  obtain ⟨v, hv⟩ := exists_getElem?_of_lt ha
  rw [nodeNext_upd, hv]
  rfl

theorem nodePrev_upd_set (h : NodeHeap) (a b : Nat) (x : Option Nat) (ha : a < h.length) :
    nodePrev (upd h a fun v => { v with prev := x }) b = if b = a then x else nodePrev h b := by
  obtain ⟨v, hv⟩ := exists_getElem?_of_lt ha
  rw [nodePrev_upd, hv]
  rfl

theorem nodeNext_alloc (h : NodeHeap) (v : Node) (hv : v.next = none) :
    nodeNext (alloc h v).1 = nodeNext h := by
  funext b
  unfold nodeNext
  rw [getElem?_nodeAlloc]
  by_cases hb : b = h.length
  · subst hb; simp [hv]
  · simp [hb]

theorem nodePrev_alloc (h : NodeHeap) (v : Node) (hv : v.prev = none) :
    nodePrev (alloc h v).1 = nodePrev h := by
  funext b
  unfold nodePrev
  rw [getElem?_nodeAlloc]
  by_cases hb : b = h.length
  · subst hb; simp [hv]
  · simp [hb]

theorem nodeNeighbor_alloc (h : NodeHeap) (v : Node) (hv : v.neighbor = none) :
    nodeNeighbor (alloc h v).1 = nodeNeighbor h := by
  funext b
  unfold nodeNeighbor
  rw [getElem?_nodeAlloc]
  by_cases hb : b = h.length
  · subst hb; simp [hv]
  · simp [hb]

theorem isInt_alloc (h : NodeHeap) (v : Node) (hv : v.isIntersection = false) :
    isInt (alloc h v).1 = isInt h := by
  funext b
  unfold isInt
  rw [getElem?_nodeAlloc]
  by_cases hb : b = h.length
  · subst hb; simp [hv]
  · simp [hb]

theorem nodeNext_upd_prev (h : NodeHeap) (a : Nat) (x : Option Nat) :
    nodeNext (upd h a fun v => { v with prev := x }) = nodeNext h :=
  nodeNext_upd_same h a _ fun _ => rfl

theorem nodePrev_upd_next (h : NodeHeap) (a : Nat) (x : Option Nat) :
    nodePrev (upd h a fun v => { v with next := x }) = nodePrev h :=
  nodePrev_upd_same h a _ fun _ => rfl

theorem nodeNeighbor_upd_next (h : NodeHeap) (a : Nat) (x : Option Nat) :
    nodeNeighbor (upd h a fun v => { v with next := x }) = nodeNeighbor h :=
  nodeNeighbor_upd_same h a _ fun _ => rfl

theorem nodeNeighbor_upd_prev (h : NodeHeap) (a : Nat) (x : Option Nat) :
    nodeNeighbor (upd h a fun v => { v with prev := x }) = nodeNeighbor h :=
  nodeNeighbor_upd_same h a _ fun _ => rfl

theorem isInt_upd_next (h : NodeHeap) (a : Nat) (x : Option Nat) :
    isInt (upd h a fun v => { v with next := x }) = isInt h :=
  isInt_upd_same h a _ fun _ => rfl

theorem isInt_upd_prev (h : NodeHeap) (a : Nat) (x : Option Nat) :
    isInt (upd h a fun v => { v with prev := x }) = isInt h :=
  isInt_upd_same h a _ fun _ => rfl

/-- one new node linked after the node `pa`, the last one built so far -/
theorem buildStep_spec (h : NodeHeap) (p : Point) (pa : Nat) (hpa : pa < h.length) :
    ∃ g, ((store (alloc h { p := p, isIntersection := false, visited := false }).1 (some pa)
          fun v => { v with next := some h.length }).bind fun h2 =>
        store h2 (some h.length) fun v => { v with prev := some pa }) = some g ∧
      g.length = h.length + 1 ∧
      (∀ b, nodeNext g b = if b = pa then some h.length else nodeNext h b) ∧
      (∀ b, nodePrev g b = if b = h.length then some pa else nodePrev h b) ∧
      nodeNeighbor g = nodeNeighbor h ∧ isInt g = isInt h := by
  have la := length_nodeAlloc h { p := p, isIntersection := false, visited := false }
  rw [store_eq_nodeUpd _ (by rw [la]; omega)]
  simp only [Option.some_bind]
  rw [store_eq_nodeUpd _ (by rw [length_nodeUpd, la]; omega)]
  refine ⟨_, rfl, by rw [length_nodeUpd, length_nodeUpd, la], fun b => ?_, fun b => ?_, ?_, ?_⟩
  · rw [nodeNext_upd_prev, nodeNext_upd_set _ _ _ _ (by rw [la]; omega),
      nodeNext_alloc _ _ rfl]
  · rw [nodePrev_upd_set _ _ _ _ (by rw [length_nodeUpd, la]; omega),
      nodePrev_upd_next, nodePrev_alloc _ _ rfl]
  · rw [nodeNeighbor_upd_prev, nodeNeighbor_upd_next,
      nodeNeighbor_alloc _ _ rfl]
  · rw [isInt_upd_prev, isInt_upd_next,
      isInt_alloc _ _ rfl]

/-- the loop of `BuildPolygon` from its second pass on -/
theorem BuildPolygonLoop_spec :
    ∀ (pts : List Point) (h : NodeHeap) (fa pa : Nat), pa < h.length →
      ∃ g, BuildPolygonLoop pts h (some fa) (some pa) =
          some (g, some fa, some (if pts.length = 0 then pa else h.length + pts.length - 1)) ∧
        g.length = h.length + pts.length ∧
        (∀ b, nodeNext g b =
          if b = pa ∧ 0 < pts.length then some h.length
          else if h.length ≤ b ∧ b + 1 < h.length + pts.length then some (b + 1)
          else nodeNext h b) ∧
        (∀ b, nodePrev g b =
          if h.length ≤ b ∧ b < h.length + pts.length then
            some (if b = h.length then pa else b - 1)
          else nodePrev h b) ∧
        nodeNeighbor g = nodeNeighbor h ∧ isInt g = isInt h
  | [], h, fa, pa, _ => by
    refine ⟨h, rfl, rfl, fun b => ?_, fun b => ?_, rfl, rfl⟩
    · simp only [List.length_nil]
      rw [if_neg (by omega), if_neg (by omega)]
    · simp only [List.length_nil]
      rw [if_neg (by omega)]
  | p :: pts, h, fa, pa, hpa => by
    obtain ⟨h3, e3, len3, N3, P3, Nb3, I3⟩ := buildStep_spec h p pa hpa
    obtain ⟨g, eg, leng, Ng, Pg, Nbg, Ig⟩ :=
      BuildPolygonLoop_spec pts h3 fa h.length (by omega)
    refine ⟨g, ?_, by rw [leng, len3, List.length_cons]; omega, fun b => ?_, fun b => ?_,
      Nbg.trans Nb3, Ig.trans I3⟩
    · have a1 : ∀ v, (alloc h v).2 = h.length := fun _ => rfl
      simp only [BuildPolygonLoop, a1, ne_eq, reduceCtorEq, not_false_eq_true, if_true, if_false]
      rw [e3]
      simp only [Option.some_bind]
      rw [eg, len3]
      have e1 : (if pts.length = 0 then h.length else h.length + 1 + pts.length - 1) =
          h.length + pts.length := by
        split_ifs <;> omega
      have e2 : (if (p :: pts).length = 0 then pa else h.length + (p :: pts).length - 1) =
          h.length + pts.length := by
        rw [if_neg (by simp)]
        simp
      rw [e1, e2]
    · rw [Ng, N3, len3]
      simp only [List.length_cons]
      split_ifs <;> first | rfl | (exfalso; omega) | (congr 1; omega)
    · rw [Pg, P3, len3]
      simp only [List.length_cons]
      split_ifs <;> first | rfl | (exfalso; omega) | (congr 1; omega)

/-- the function `BuildPolygon` on a point list that is not empty: the new cells are a
cycle, in the order of the points -/
theorem BuildPolygon_spec (h : NodeHeap) (pts : List Point) (hpts : pts ≠ []) :
    ∃ g, BuildPolygon h pts = some (g, some h.length) ∧
      g.length = h.length + pts.length ∧
      (∀ b, nodeNext g b =
        if h.length ≤ b ∧ b < h.length + pts.length then
          some (if b + 1 < h.length + pts.length then b + 1 else h.length)
        else nodeNext h b) ∧
      (∀ b, nodePrev g b =
        if h.length ≤ b ∧ b < h.length + pts.length then
          some (if b = h.length then h.length + pts.length - 1 else b - 1)
        else nodePrev h b) ∧
      nodeNeighbor g = nodeNeighbor h ∧ isInt g = isInt h := by
  obtain ⟨p, rest, rfl⟩ : ∃ p rest, pts = p :: rest := by
    cases pts with
    | nil => exact absurd rfl hpts
    | cons p rest => exact ⟨p, rest, rfl⟩
  have len1 := length_nodeAlloc h { p := p, isIntersection := false, visited := false }
  obtain ⟨g, eg, leng, Ng, Pg, Nbg, Ig⟩ := BuildPolygonLoop_spec rest
    (alloc h { p := p, isIntersection := false, visited := false }).1 h.length h.length
    (by omega)
  rw [len1] at eg leng Ng Pg
  rw [nodeNext_alloc _ _ rfl] at Ng
  rw [nodePrev_alloc _ _ rfl] at Pg
  rw [nodeNeighbor_alloc _ _ rfl] at Nbg
  rw [isInt_alloc _ _ rfl] at Ig
  have hlast : (if rest.length = 0 then h.length else h.length + 1 + rest.length - 1) =
      h.length + rest.length := by
    split <;> omega
  rw [hlast] at eg
  refine ⟨upd (upd g (h.length + rest.length) fun v => { v with next := some h.length })
    h.length fun v => { v with prev := some (h.length + rest.length) }, ?_, ?_, fun b => ?_,
    fun b => ?_, ?_, ?_⟩
  · have a1 : ∀ v, (alloc h v).2 = h.length := fun _ => rfl
    simp only [BuildPolygon, reduceCtorEq, if_false, BuildPolygonLoop, a1, ne_eq,
      not_true_eq_false, if_true, Option.some_bind]
    rw [eg]
    simp only [Option.some_bind]
    rw [store_eq_nodeUpd _ (by omega)]
    simp only [Option.some_bind]
    rw [store_eq_nodeUpd _ (by simp; omega)]
    rfl
  · simp [leng]; omega
  · rw [nodeNext_upd_prev, nodeNext_upd_set _ _ _ _ (by omega), Ng]
    simp only [List.length_cons]
    split_ifs <;> first | rfl | (exfalso; omega) | (congr 1; omega)
  · rw [nodePrev_upd_set _ _ _ _ (by rw [length_nodeUpd]; omega),
      nodePrev_upd_next, Pg]
    simp only [List.length_cons]
    split_ifs <;> first | rfl | (exfalso; omega) | (congr 1; omega)
  · rw [nodeNeighbor_upd_prev, nodeNeighbor_upd_next,
      Nbg]
  · rw [isInt_upd_prev, isInt_upd_next, Ig]

theorem EnsureCCW_ne_nil {pts : List Point} (hp : pts ≠ []) : EnsureCCW pts ≠ [] := by
  unfold EnsureCCW
  split_ifs
  · exact hp
  · simpa using hp
  · exact hp

/-- the two rings that `Compute` builds -/
theorem build_twoRings (Apts Bpts : List Point) (hA : Apts ≠ []) (hB : Bpts ≠ []) :
    ∃ g1 g, BuildPolygon [] Apts = some (g1, some 0) ∧
      BuildPolygon g1 Bpts = some (g, some Apts.length) ∧
      TwoRings g 0 Apts.length (List.range' 0 Apts.length)
        (List.range' Apts.length Bpts.length) ∧
      ∀ x, isInt g x = false := by
  obtain ⟨g1, e1, len1, N1, P1, Nb1, I1⟩ := BuildPolygon_spec [] Apts hA
  obtain ⟨g, e2, len2, N2, P2, Nb2, I2⟩ := BuildPolygon_spec g1 Bpts hB
  simp only [List.length_nil, Nat.zero_add, Nat.zero_le, true_and] at e1 len1 N1 P1
  rw [len1] at e2 len2 N2 P2
  have hkA : 0 < Apts.length := List.length_pos.2 hA
  have hkB : 0 < Bpts.length := List.length_pos.2 hB
  have hI : ∀ x, isInt g x = false := fun x => by
    rw [I2, I1]
    simp [isInt]
  have hNb : ∀ x, nodeNeighbor g x = none := fun x => by
    rw [Nb2, Nb1]
    simp [nodeNeighbor]
  refine ⟨g1, g, e1, e2, ⟨?_, ?_, ?_, ?_, ?_, ?_, hI _, hI _, ?_⟩, hI⟩
  · refine isCycle_range' 0 Apts.length hkA (fun i hi => ?_) ?_
    · rw [N2, if_neg (by omega), N1, if_pos (by omega), if_pos (by omega)]
    · rw [N2, if_neg (by omega), N1, if_pos (by omega), if_neg (by omega)]
  · refine isCycle_range' Apts.length Bpts.length hkB (fun i hi => ?_) ?_
    · rw [N2, if_pos (by omega), if_pos (by omega)]
    · rw [N2, if_pos (by omega), if_neg (by omega)]
  · intro x hx hx'
    rw [List.mem_range'_1] at hx hx'
    omega
  · simp [len2]
  · intro x hx
    rw [List.mem_range'_1, List.mem_range'_1] at hx
    omega
  · intro x hx
    rw [List.mem_range'_1, List.mem_range'_1]
    omega
  · intro c hc
    rw [len2] at hc ⊢
    refine ⟨?_, ?_, ?_, ?_⟩
    · rw [N2]
      by_cases h1 : Apts.length ≤ c ∧ c < Apts.length + Bpts.length
      · rw [if_pos h1]
        refine ⟨_, rfl, ?_⟩
        split_ifs <;> omega
      · rw [if_neg h1, N1, if_pos (by omega)]
        refine ⟨_, rfl, ?_⟩
        split_ifs <;> omega
    · rw [P2]
      by_cases h1 : Apts.length ≤ c ∧ c < Apts.length + Bpts.length
      · rw [if_pos h1]
        refine ⟨_, rfl, ?_⟩
        split_ifs <;> omega
      · rw [if_neg h1, P1, if_pos (by omega)]
        refine ⟨_, rfl, ?_⟩
        split_ifs <;> omega
    · intro x hx
      rw [hNb] at hx
      cases hx
    · intro hi
      rw [hI] at hi
      cases hi

/-- the body of the traversal loop of `Compute` on a closed heap -/
theorem ComputeTraverseBody_spec {h g : NodeHeap} {A B : Nat} {LA LB : List Nat}
    (hr : TwoRings h A B LA LB) (op : GHOp) (startOnA : Bool)
    (s : List (List Point) × List (List (Nat × Point))) (c : Nat) (hc : c < h.length)
    (hs : SameLinks h g ∧ (∀ w, w ∈ s.2 → WalkOK LA LB w) ∧
      ∀ loop, loop ∈ s.1 → loop.length ≤ LA.length + LB.length) :
    ∃ r : NodeHeap × List (List Point) × List (List (Nat × Point)),
      (SameLinks h r.1 ∧ (∀ w, w ∈ r.2.2 → WalkOK LA LB w) ∧
        ∀ loop, loop ∈ r.2.1 → loop.length ≤ LA.length + LB.length) ∧
      ∀ f, h.length + 1 ≤ f → ComputeTraverseBody f op startOnA g (some c) s = some r := by
  obtain ⟨hsl, hw, hl⟩ := hs
  have hlen : g.length = h.length := hsl.1
  obtain ⟨v, hv⟩ := exists_getElem?_of_lt (h := g) (a := c) (by omega)
  by_cases hcond : (v.isIntersection && !v.visited && v.entry) = true
  · obtain ⟨r, hr1, hr2, hr3, hrun⟩ :=
      TraceResult_spec (hsl.closed hr.closed) (c := c) (by omega) op startOnA
    have hwlen : r.2.length ≤ LA.length + LB.length := by
      have := length_le_of_nodup_lt hr2 hr3
      rw [hr.len, ← hlen]
      simpa using this
    refine ⟨(r.1, if 3 ≤ r.2.length then s.1 ++ [r.2.map Prod.snd] else s.1, s.2 ++ [r.2]),
      ⟨hsl.trans' hr1, ?_, ?_⟩, fun f hf => ?_⟩
    · intro w hw'
      rcases List.mem_append.1 hw' with hw' | hw'
      · exact hw w hw'
      · rw [List.mem_singleton] at hw'
        subst hw'
        exact ⟨hr2, fun x hx => hr.cover x (by rw [← hlen]; exact hr3 x hx), hwlen⟩
    · intro loop hloop
      dsimp only at hloop
      split_ifs at hloop
      · rcases List.mem_append.1 hloop with hloop | hloop
        · exact hl loop hloop
        · rw [List.mem_singleton] at hloop
          subst hloop
          simpa using hwlen
      · exact hl loop hloop
    · simp only [ComputeTraverseBody, load, hv, Option.some_bind, hcond, if_true]
      rw [hrun f (by omega)]
      rfl
  · refine ⟨(g, s), ⟨hsl, hw, hl⟩, fun f _ => ?_⟩
    simp only [ComputeTraverseBody, load, hv, Option.some_bind, hcond]
    rfl

/-- the traversal loop of `Compute` over one of the two rings -/
theorem ComputeTraverse_spec {h : NodeHeap} {A B : Nat} {LA LB : List Nat}
    (hr : TwoRings h A B LA LB) (op : GHOp) (startOnA : Bool) (hd : Nat) (L : List Nat)
    (hL : IsCycle (nodeNext h) hd L) (hLlt : ∀ x, x ∈ L → x < h.length) :
    ∃ r : NodeHeap × List (List Point) × List (List (Nat × Point)),
      (SameLinks h r.1 ∧ (∀ w, w ∈ r.2.2 → WalkOK LA LB w) ∧
        ∀ loop, loop ∈ r.2.1 → loop.length ≤ LA.length + LB.length) ∧
      ∀ f, h.length + 1 ≤ f →
        ringWalk (ComputeTraverseBody f op startOnA) (some hd) f h (some hd) ([], []) =
          some r := by
  obtain ⟨r, hr1, hrun⟩ := ringWalk_head (fun f => ComputeTraverseBody f op startOnA)
    (fun g s => SameLinks h g ∧ (∀ w, w ∈ s.2 → WalkOK LA LB w) ∧
        ∀ loop, loop ∈ s.1 → loop.length ≤ LA.length + LB.length)
    (h.length + 1) hd L (fun g _ hs => by rw [hs.1.2.1]; exact hL)
    (fun g s c hs hcL => ComputeTraverseBody_spec hr op startOnA s c (hLlt c hcL) hs)
    h ([], []) ⟨SameLinks.rfl' h, by simp, by simp⟩
  refine ⟨r, hr1, fun f hf => hrun f f hf ?_⟩
  have := length_le_of_nodup_lt hL.1 hLlt
  omega

/-- the function `Compute` on two point lists that are not empty -/
theorem ComputeTraced_spec (Apts Bpts : List Point) (operation : GHOp)
    (hA : Apts ≠ []) (hB : Bpts ≠ []) :
    ∃ N run a b LA LB, (∀ fuel, N ≤ fuel →
        ComputeTraced fuel Apts Bpts operation = some run) ∧
      run.A = some a ∧ run.B = some b ∧ TwoRings run.heap a b LA LB ∧
      (∀ w, w ∈ run.walks → WalkOK LA LB w) ∧
      ∀ loop, loop ∈ run.result → loop.length ≤ LA.length + LB.length := by
  have hA' := EnsureCCW_ne_nil hA
  have hB' := EnsureCCW_ne_nil hB
  obtain ⟨g1, g2, e1, e2, hr2, hflags⟩ := build_twoRings _ _ hA' hB'
  obtain ⟨h1, LA, LB, hr, Nf, hfind⟩ := FindIntersections_spec hr2 fun x _ => hflags x
  obtain ⟨h2, hs2, hm1⟩ := MarkEntryExit_spec hr.cycA hr.headA (EnsureCCW Bpts) operation true
  have hr' := hs2.twoRings hr
  obtain ⟨h3, hs3, hm2⟩ := MarkEntryExit_spec hr'.cycB hr'.headB (EnsureCCW Apts) operation false
  have hr'' := hs3.twoRings hr'
  obtain ⟨h4, hs4, hv1⟩ := ResetVisited_spec hr''.cycA
  have hr''' := hs4.twoRings hr''
  obtain ⟨h5, hs5, hv2⟩ := ResetVisited_spec hr'''.cycB
  have hr5 := hs5.twoRings hr'''
  have hlen5 : h5.length = h1.length := by
    rw [hs5.1, hs4.1, hs3.1, hs2.1]
  have hlenA : LA.length ≤ h1.length := by have := hr.len; omega
  have hlenB : LB.length ≤ h1.length := by have := hr.len; omega
  obtain ⟨a0, ha0⟩ : ∃ a0, (EnsureCCW Apts)[0]? = some a0 := by
    cases hh : EnsureCCW Apts with
    | nil => exact absurd hh hA'
    | cons x _ => exact ⟨x, by simp⟩
  obtain ⟨b0, hb0⟩ : ∃ b0, (EnsureCCW Bpts)[0]? = some b0 := by
    cases hh : EnsureCCW Bpts with
    | nil => exact absurd hh hB'
    | cons x _ => exact ⟨x, by simp⟩
  have hfb : ∀ l : List (List Point),
      ((if l = [] then
        ((EnsureCCW Apts)[0]?).bind fun a0 => ((EnsureCCW Bpts)[0]?).bind fun b0 =>
          let _A_in_B := PointInsidePolygon (EnsureCCW Bpts) a0
          let _B_in_A := PointInsidePolygon (EnsureCCW Apts) b0
          some ()
       else some ()) : Option Unit) = some () := fun l => by
    split_ifs
    · rw [ha0, hb0]; rfl
    · rfl
  by_cases hop : operation = GHOp.DifferenceBA
  · obtain ⟨r, ⟨hsr, hwalks, hloops⟩, hrun⟩ := ComputeTraverse_spec hr5 operation
      (decide (operation ≠ GHOp.DifferenceBA)) _ LB hr5.cycB
      fun x hx => hr5.lt x (Or.inr hx)
    refine ⟨max Nf (h1.length + 1),
      { heap := r.1, A := some 0, B := some (EnsureCCW Apts).length, result := r.2.1,
        walks := r.2.2 }, 0, (EnsureCCW Apts).length, LA, LB,
      fun fuel hfuel => ?_, rfl, rfl, hsr.twoRings hr5, hwalks, hloops⟩
    simp only [ComputeTraced, e1, Option.some_bind, e2, hfind fuel (by omega),
      hm1 fuel (by omega), hm2 fuel (by omega), hv1 fuel (by omega), hv2 fuel (by omega)]
    rw [if_pos hop, hrun fuel (by omega)]
    simp only [Option.some_bind, hfb]
  · obtain ⟨r, ⟨hsr, hwalks, hloops⟩, hrun⟩ := ComputeTraverse_spec hr5 operation
      (decide (operation ≠ GHOp.DifferenceBA)) _ LA hr5.cycA
      fun x hx => hr5.lt x (Or.inl hx)
    refine ⟨max Nf (h1.length + 1),
      { heap := r.1, A := some 0, B := some (EnsureCCW Apts).length, result := r.2.1,
        walks := r.2.2 }, 0, (EnsureCCW Apts).length, LA, LB,
      fun fuel hfuel => ?_, rfl, rfl, hsr.twoRings hr5, hwalks, hloops⟩
    simp only [ComputeTraced, e1, Option.some_bind, e2, hfind fuel (by omega),
      hm1 fuel (by omega), hm2 fuel (by omega), hv1 fuel (by omega), hv2 fuel (by omega)]
    rw [if_neg hop, hrun fuel (by omega)]
    simp only [Option.some_bind, hfb]

/-- C7. For point lists `Apts` and `Bpts` of at least three points and every
operation, `Compute` terminates: there is an amount of fuel from which on the
run returns, always with the same outcome. At the end the nodes reached from
`A` and the nodes reached from `B` by `next` are two rings `LA` and `LB`; every
walk of `TraceResult` made in the run pushes no node twice, pushes only nodes
of `LA` and `LB`, and pushes at most `|LA| + |LB|` points; so every loop of the
result has at most `|LA| + |LB|` points. -/
theorem C7_compute_terminates (Apts Bpts : List Point) (operation : GHOp)
    (hA : 3 ≤ Apts.length) (hB : 3 ≤ Bpts.length) :
    ∃ fuel0 run a b LA LB,
      (∀ fuel, fuel0 ≤ fuel →
        ComputeTraced fuel Apts Bpts operation = some run ∧
        Compute fuel Apts Bpts operation = some run.result) ∧
      run.A = some a ∧ run.B = some b ∧
      IsCycle (nodeNext run.heap) a LA ∧ IsCycle (nodeNext run.heap) b LB ∧
      (∀ w, w ∈ run.walks →
        (w.map Prod.fst).Nodup ∧ (∀ x, x ∈ w.map Prod.fst → x ∈ LA ∨ x ∈ LB) ∧
        w.length ≤ LA.length + LB.length) ∧
      ∀ loop, loop ∈ run.result → loop.length ≤ LA.length + LB.length := by
  obtain ⟨N, run, a, b, LA, LB, hrun, ha, hb, hr, hw, hl⟩ :=
    ComputeTraced_spec Apts Bpts operation
      (fun e => by rw [e] at hA; simp at hA) (fun e => by rw [e] at hB; simp at hB)
  refine ⟨N, run, a, b, LA, LB, fun fuel hf => ⟨hrun fuel hf, ?_⟩, ha, hb, hr.cycA, hr.cycB,
    hw, hl⟩
  simp [Compute, hrun fuel hf]

theorem C7_compute_terminates_witness :
    3 ≤ crossingA.length ∧ 3 ≤ crossingB.length ∧
    ∃ fuel0 run a b LA LB,
      (∀ fuel, fuel0 ≤ fuel →
        ComputeTraced fuel crossingA crossingB GHOp.DifferenceAB = some run ∧
        Compute fuel crossingA crossingB GHOp.DifferenceAB = some run.result) ∧
      run.A = some a ∧ run.B = some b ∧
      IsCycle (nodeNext run.heap) a LA ∧ IsCycle (nodeNext run.heap) b LB ∧
      (∀ w, w ∈ run.walks →
        (w.map Prod.fst).Nodup ∧ (∀ x, x ∈ w.map Prod.fst → x ∈ LA ∨ x ∈ LB) ∧
        w.length ≤ LA.length + LB.length) ∧
      ∀ loop, loop ∈ run.result → loop.length ≤ LA.length + LB.length :=
  ⟨by decide, by decide,
    C7_compute_terminates crossingA crossingB GHOp.DifferenceAB (by decide) (by decide)⟩

/-- the run of `Compute` on the two crossing squares: the rings have six nodes
each at the end, and the one walk pushes six of the twelve -/
theorem Compute_crossing_squares :
    Compute 6 crossingA crossingB GHOp.DifferenceAB =
      some [[⟨1, 1 / 2⟩, ⟨1 / 2, 1 / 2⟩, ⟨1 / 2, 1⟩, ⟨0, 1⟩, ⟨0, 0⟩, ⟨1, 0⟩]] ∧
    Compute 20 crossingA crossingB GHOp.DifferenceAB =
      some [[⟨1, 1 / 2⟩, ⟨1 / 2, 1 / 2⟩, ⟨1 / 2, 1⟩, ⟨0, 1⟩, ⟨0, 0⟩, ⟨1, 0⟩]] ∧
    (ComputeTraced 20 crossingA crossingB GHOp.DifferenceAB).map
        (fun r => (r.heap.length, r.walks.map (List.map Prod.fst))) =
      some (12, [[8, 4, 11, 3, 0, 1]]) := by
  decide!

end PolygonUtilityExtension

end GeometryCore

/-! ### Greiner-Hormann engine: fuel, the crossing squares and empty operands -/

namespace GeometryCore

namespace PolygonUtilityExtension

theorem bind_mono {α β : Type} {x : Option α} {f g : α → Option β} {r : β}
    (h : x.bind f = some r) (hfg : ∀ a, x = some a → f a = some r → g a = some r) :
    x.bind g = some r := by
  cases x with
  | none => simp at h
  | some a => exact hfg a rfl h

theorem ite_mono {β : Type} {c : Prop} [Decidable c] {a x y : Option β} {r : β}
    (h : (if c then a else x) = some r) (hxy : x = some r → y = some r) :
    (if c then a else y) = some r := by
  split_ifs at h ⊢
  · exact h
  · exact hxy h

theorem InsertInOrderWalk_mono (h : NodeHeap) (alpha : ℚ) :
    ∀ (fuel fuel1 : Nat), fuel ≤ fuel1 → ∀ (curr : Option Nat) (r : Option Nat),
      InsertInOrderWalk h alpha fuel curr = some r →
      InsertInOrderWalk h alpha fuel1 curr = some r := by
  intro fuel
  induction fuel with
  | zero => intro _ _ curr r hr; simp [InsertInOrderWalk] at hr
  | succ n ih =>
    intro fuel1 hle curr r hr
    obtain ⟨m, rfl⟩ : ∃ m, fuel1 = m + 1 := ⟨fuel1 - 1, by omega⟩
    unfold InsertInOrderWalk at hr ⊢
    refine bind_mono hr fun c _ hr => bind_mono hr fun cn _ hr => ?_
    split_ifs at hr ⊢ with hc
    · exact ih m (by omega) _ _ hr
    · exact hr

theorem InsertInOrder_mono {fuel fuel1 : Nat} (hle : fuel ≤ fuel1) {h : NodeHeap}
    {s n : Option Nat} {r : NodeHeap} (hr : InsertInOrder fuel h s n = some r) :
    InsertInOrder fuel1 h s n = some r := by
  unfold InsertInOrder at hr ⊢
  refine bind_mono hr fun nn _ hr => ?_
  cases hw : InsertInOrderWalk h nn.alpha fuel s with
  | none => rw [hw] at hr; simp at hr
  | some c =>
    rw [hw] at hr
    rw [InsertInOrderWalk_mono h nn.alpha fuel fuel1 hle s c hw]
    exact hr

theorem FindIntersectionsPair_mono {fuel fuel1 : Nat} (hle : fuel ≤ fuel1) {h : NodeHeap}
    {a an b bn : Option Nat} {r : NodeHeap} (hr : FindIntersectionsPair fuel h a an b bn = some r) :
    FindIntersectionsPair fuel1 h a an b bn = some r := by
  unfold FindIntersectionsPair at hr ⊢
  refine bind_mono hr fun av _ hr => bind_mono hr fun anv _ hr => bind_mono hr fun bv _ hr =>
    bind_mono hr fun bnv _ hr => ?_
  cases hs : SegmentIntersect av.p anv.p bv.p bnv.p with
  | none => rw [hs] at hr; exact hr
  | some t =>
    obtain ⟨ip, ta, tb⟩ := t
    rw [hs] at hr
    simp only at hr ⊢
    refine bind_mono hr fun h3 _ hr => bind_mono hr fun h4 _ hr => ?_
    cases h5 : InsertInOrder fuel h4 a
        (some (alloc h { p := ip, isIntersection := true, alpha := ta }).2) with
    | none => rw [h5] at hr; simp at hr
    | some g =>
      rw [h5] at hr
      rw [InsertInOrder_mono hle h5]
      exact InsertInOrder_mono hle hr

theorem FindIntersectionsInner_fuel_mono (B a aNext : Option Nat) :
    ∀ (fuel : Nat) (fuelI fuelI1 fuel1 : Nat), fuelI ≤ fuelI1 → fuel ≤ fuel1 →
      ∀ (h : NodeHeap) (b : Option Nat) (r : NodeHeap),
      FindIntersectionsInner fuelI B a aNext fuel h b = some r →
      FindIntersectionsInner fuelI1 B a aNext fuel1 h b = some r := by
  intro fuel
  induction fuel with
  | zero => intro _ _ _ _ _ h b r hr; simp [FindIntersectionsInner] at hr
  | succ n ih =>
    intro fuelI fuelI1 fuel1 hI hle h b r hr
    obtain ⟨m, rfl⟩ : ∃ m, fuel1 = m + 1 := ⟨fuel1 - 1, by omega⟩
    unfold FindIntersectionsInner at hr ⊢
    refine bind_mono hr fun bv _ hr => ?_
    have hstep : ∀ g, (if bv.isIntersection then some h
        else FindIntersectionsPair fuelI h a aNext b bv.next) = some g →
        (if bv.isIntersection then some h
        else FindIntersectionsPair fuelI1 h a aNext b bv.next) = some g := by
      intro g hg
      split_ifs at hg ⊢
      · exact hg
      · exact FindIntersectionsPair_mono hI hg
    cases hx : (if bv.isIntersection then some h
        else FindIntersectionsPair fuelI h a aNext b bv.next) with
    | none => rw [hx] at hr; simp at hr
    | some g =>
      rw [hx] at hr
      rw [hstep g hx]
      simp only [Option.some_bind] at hr ⊢
      split_ifs at hr ⊢
      · exact ih fuelI fuelI1 m hI (by omega) _ _ _ hr
      · exact hr

theorem FindIntersectionsOuter_fuel_mono (A B : Option Nat) :
    ∀ (fuel : Nat) (fuelI fuelI1 fuel1 : Nat), fuelI ≤ fuelI1 → fuel ≤ fuel1 →
      ∀ (h : NodeHeap) (a : Option Nat) (r : NodeHeap),
      FindIntersectionsOuter fuelI A B fuel h a = some r →
      FindIntersectionsOuter fuelI1 A B fuel1 h a = some r := by
  intro fuel
  induction fuel with
  | zero => intro _ _ _ _ _ h b r hr; simp [FindIntersectionsOuter] at hr
  | succ n ih =>
    intro fuelI fuelI1 fuel1 hI hle h a r hr
    obtain ⟨m, rfl⟩ : ∃ m, fuel1 = m + 1 := ⟨fuel1 - 1, by omega⟩
    unfold FindIntersectionsOuter at hr ⊢
    refine bind_mono hr fun av _ hr => ?_
    have hstep : ∀ g, (if av.isIntersection then some h
        else FindIntersectionsInner fuelI B a av.next fuelI h B) = some g →
        (if av.isIntersection then some h
        else FindIntersectionsInner fuelI1 B a av.next fuelI1 h B) = some g := by
      intro g hg
      split_ifs at hg ⊢
      · exact hg
      · exact FindIntersectionsInner_fuel_mono B a av.next fuelI fuelI fuelI1 fuelI1 hI hI _ _ _ hg
    cases hx : (if av.isIntersection then some h
        else FindIntersectionsInner fuelI B a av.next fuelI h B) with
    | none => rw [hx] at hr; simp at hr
    | some g =>
      rw [hx] at hr
      rw [hstep g hx]
      simp only [Option.some_bind] at hr ⊢
      split_ifs at hr ⊢
      · exact ih fuelI fuelI1 m hI (by omega) _ _ _ hr
      · exact hr

theorem FindIntersections_mono {fuel fuel1 : Nat} (hle : fuel ≤ fuel1) {h : NodeHeap}
    {A B : Option Nat} {r : NodeHeap} (hr : FindIntersections fuel h A B = some r) :
    FindIntersections fuel1 h A B = some r :=
  FindIntersectionsOuter_fuel_mono A B fuel fuel fuel1 fuel1 hle hle _ _ _ hr

theorem ringWalk_mono {σ : Type} {body body1 : NodeHeap → Option Nat → σ → Option (NodeHeap × σ)}
    (hb : ∀ h n s r, body h n s = some r → body1 h n s = some r) (start : Option Nat) :
    ∀ (fuel fuel1 : Nat), fuel ≤ fuel1 → ∀ (h : NodeHeap) (n : Option Nat) (s : σ)
      (r : NodeHeap × σ), ringWalk body start fuel h n s = some r →
      ringWalk body1 start fuel1 h n s = some r := by
  intro fuel
  induction fuel with
  | zero => intro _ _ h n s r hr; simp [ringWalk] at hr
  | succ k ih =>
    intro fuel1 hle h n s r hr
    obtain ⟨m, rfl⟩ : ∃ m, fuel1 = m + 1 := ⟨fuel1 - 1, by omega⟩
    unfold ringWalk at hr ⊢
    cases hx : body h n s with
    | none => rw [hx] at hr; simp at hr
    | some g =>
      rw [hx] at hr
      rw [hb _ _ _ _ hx]
      simp only [Option.some_bind] at hr ⊢
      refine bind_mono hr fun v _ hr => ?_
      split_ifs at hr ⊢
      · exact ih m (by omega) _ _ _ _ hr
      · exact hr

theorem MarkEntryExitStart_mono (h : NodeHeap) :
    ∀ (fuel fuel1 : Nat), fuel ≤ fuel1 → ∀ (s : Option Nat) (r : Option Nat),
      MarkEntryExitStart h fuel s = some r → MarkEntryExitStart h fuel1 s = some r := by
  intro fuel
  induction fuel with
  | zero => intro _ _ s r hr; simp [MarkEntryExitStart] at hr
  | succ k ih =>
    intro fuel1 hle s r hr
    obtain ⟨m, rfl⟩ : ∃ m, fuel1 = m + 1 := ⟨fuel1 - 1, by omega⟩
    unfold MarkEntryExitStart at hr ⊢
    refine bind_mono hr fun v _ hr => ?_
    split_ifs at hr ⊢
    · exact ih m (by omega) _ _ hr
    · exact hr

theorem MarkEntryExit_mono {fuel fuel1 : Nat} (hle : fuel ≤ fuel1) {h : NodeHeap}
    {poly : Option Nat} {other : List Point} {op : GHOp} {isA : Bool} {r : NodeHeap}
    (hr : MarkEntryExit fuel h poly other op isA = some r) :
    MarkEntryExit fuel1 h poly other op isA = some r := by
  unfold MarkEntryExit at hr ⊢
  cases hx : MarkEntryExitStart h fuel poly with
  | none => rw [hx] at hr; simp at hr
  | some s =>
    rw [hx] at hr
    rw [MarkEntryExitStart_mono h fuel fuel1 hle _ _ hx]
    simp only [Option.some_bind] at hr ⊢
    refine bind_mono hr fun sv _ hr => ?_
    cases hy : ringWalk (MarkEntryExitBody op isA) s fuel h s (PointInsidePolygon other sv.p) with
    | none => rw [hy] at hr; simp at hr
    | some t =>
      rw [hy] at hr
      rw [ringWalk_mono (fun _ _ _ _ e => e) s fuel fuel1 hle _ _ _ _ hy]
      exact hr

theorem TraceResultLoop_mono (start : Option Nat) (op : GHOp) :
    ∀ (fuel fuel1 : Nat), fuel ≤ fuel1 → ∀ (h : NodeHeap) (cur : Option Nat) (onA fwd : Bool)
      (res : List (Nat × Point)) (r : NodeHeap × List (Nat × Point)),
      TraceResultLoop start op fuel h cur onA fwd res = some r →
      TraceResultLoop start op fuel1 h cur onA fwd res = some r := by
  intro fuel
  induction fuel with
  | zero => intro _ _ h cur onA fwd res r hr; simp [TraceResultLoop] at hr
  | succ k ih =>
    intro fuel1 hle h cur onA fwd res r hr
    obtain ⟨m, rfl⟩ : ∃ m, fuel1 = m + 1 := ⟨fuel1 - 1, by omega⟩
    cases cur with
    | none =>
      unfold TraceResultLoop at hr ⊢
      exact hr
    | some c =>
      unfold TraceResultLoop at hr ⊢
      refine bind_mono hr fun v _ hr => ?_
      refine ite_mono hr fun hr => ?_
      refine bind_mono hr fun h1 _ hr => bind_mono hr fun v1 _ hr => bind_mono hr fun h2 _ hr =>
        bind_mono hr fun v2 _ hr => ?_
      simp only at hr ⊢
      exact bind_mono hr fun w _ hr => ite_mono hr fun hr => ih m (by omega) _ _ _ _ _ _ hr

theorem TraceResult_mono {fuel fuel1 : Nat} (hle : fuel ≤ fuel1) {h : NodeHeap}
    {start : Option Nat} {op : GHOp} {startOnA : Bool} {r : NodeHeap × List (Nat × Point)}
    (hr : TraceResult fuel h start op startOnA = some r) :
    TraceResult fuel1 h start op startOnA = some r :=
  TraceResultLoop_mono start op fuel fuel1 hle _ _ _ _ _ _ hr

theorem ResetVisited_mono {fuel fuel1 : Nat} (hle : fuel ≤ fuel1) {h : NodeHeap}
    {poly : Option Nat} {r : NodeHeap} (hr : ResetVisited fuel h poly = some r) :
    ResetVisited fuel1 h poly = some r := by
  unfold ResetVisited at hr ⊢
  split_ifs at hr ⊢
  · exact hr
  · cases hy : ringWalk ResetVisitedBody poly fuel h poly () with
    | none => rw [hy] at hr; simp at hr
    | some t =>
      rw [hy] at hr
      rw [ringWalk_mono (fun _ _ _ _ e => e) poly fuel fuel1 hle _ _ _ _ hy]
      exact hr

theorem ComputeTraverseBody_mono {fuel fuel1 : Nat} (hle : fuel ≤ fuel1) (op : GHOp)
    (startOnA : Bool) (h : NodeHeap) (n : Option Nat)
    (s : List (List Point) × List (List (Nat × Point)))
    (r : NodeHeap × List (List Point) × List (List (Nat × Point)))
    (hr : ComputeTraverseBody fuel op startOnA h n s = some r) :
    ComputeTraverseBody fuel1 op startOnA h n s = some r := by
  unfold ComputeTraverseBody at hr ⊢
  refine bind_mono hr fun v _ hr => ?_
  split_ifs at hr ⊢
  · cases hy : TraceResult fuel h n op startOnA with
    | none => rw [hy] at hr; simp at hr
    | some t =>
      rw [hy] at hr
      rw [TraceResult_mono hle hy]
      exact hr
  · exact hr

/-- more fuel does not change the outcome of a run of `Compute` that returns -/
theorem ComputeTraced_mono {fuel fuel1 : Nat} (hle : fuel ≤ fuel1) {Apts Bpts : List Point}
    {op : GHOp} {r : ComputeRun} (hr : ComputeTraced fuel Apts Bpts op = some r) :
    ComputeTraced fuel1 Apts Bpts op = some r := by
  unfold ComputeTraced at hr ⊢
  simp only at hr ⊢
  refine bind_mono hr fun ra _ hr => bind_mono hr fun rb _ hr => ?_
  cases h1 : FindIntersections fuel rb.1 ra.2 rb.2 with
  | none => rw [h1] at hr; simp at hr
  | some g1 =>
    rw [h1] at hr
    rw [FindIntersections_mono hle h1]
    simp only [Option.some_bind] at hr ⊢
    cases h2 : MarkEntryExit fuel g1 ra.2 (EnsureCCW Bpts) op true with
    | none => rw [h2] at hr; simp at hr
    | some g2 =>
      rw [h2] at hr
      rw [MarkEntryExit_mono hle h2]
      simp only [Option.some_bind] at hr ⊢
      cases h3 : MarkEntryExit fuel g2 rb.2 (EnsureCCW Apts) op false with
      | none => rw [h3] at hr; simp at hr
      | some g3 =>
        rw [h3] at hr
        rw [MarkEntryExit_mono hle h3]
        simp only [Option.some_bind] at hr ⊢
        cases h4 : ResetVisited fuel g3 ra.2 with
        | none => rw [h4] at hr; simp at hr
        | some g4 =>
          rw [h4] at hr
          rw [ResetVisited_mono hle h4]
          simp only [Option.some_bind] at hr ⊢
          cases h5 : ResetVisited fuel g4 rb.2 with
          | none => rw [h5] at hr; simp at hr
          | some g5 =>
            rw [h5] at hr
            rw [ResetVisited_mono hle h5]
            simp only [Option.some_bind] at hr ⊢
            cases h6 : ringWalk (ComputeTraverseBody fuel op (decide (op ≠ GHOp.DifferenceBA)))
                (if op = GHOp.DifferenceBA then rb.2 else ra.2) fuel g5
                (if op = GHOp.DifferenceBA then rb.2 else ra.2) ([], []) with
            | none => rw [h6] at hr; simp at hr
            | some t =>
              rw [h6] at hr
              rw [ringWalk_mono (ComputeTraverseBody_mono hle op _) _ fuel fuel1 hle _ _ _ _ h6]
              exact hr

/-- more fuel does not change a result that `Compute` returns -/
theorem Compute_mono {fuel fuel1 : Nat} (hle : fuel ≤ fuel1) {Apts Bpts : List Point}
    {op : GHOp} {r : List (List Point)} (hr : Compute fuel Apts Bpts op = some r) :
    Compute fuel1 Apts Bpts op = some r := by
  unfold Compute at hr ⊢
  cases hx : ComputeTraced fuel Apts Bpts op with
  | none => rw [hx] at hr; simp at hr
  | some t =>
    rw [hx] at hr
    rw [ComputeTraced_mono hle hx]
    exact hr

set_option maxRecDepth 100000

/-- C15. For the unit square `A` and the square `B = [1/2,3/2] x [1/2,3/2]`,
with any fuel of at least 8, `Compute(A, B, GHOp::Union)` returns exactly one
loop, the outline `(1,1/2), (3/2,1/2), (3/2,3/2), (1/2,3/2), (1/2,1), (0,1),
(0,0), (1,0)` whose absolute shoelace area is `7/4`, and `Compute(A, B,
GHOp::Intersection)` returns exactly one loop, `(1/2,1), (1/2,1/2), (1,1/2),
(1,1)`: the vertices `(1/2,1/2), (1,1/2), (1,1), (1/2,1)` in this cyclic
order, started at the last one. -/
theorem C15_compute_crossing_squares (fuel : Nat) (hf : 8 ≤ fuel) :
    Compute fuel crossingA crossingB GHOp.Union =
        some [[⟨1, 1 / 2⟩, ⟨3 / 2, 1 / 2⟩, ⟨3 / 2, 3 / 2⟩, ⟨1 / 2, 3 / 2⟩, ⟨1 / 2, 1⟩, ⟨0, 1⟩,
          ⟨0, 0⟩, ⟨1, 0⟩]] ∧
      |Polygonutility.SignedArea [⟨1, 1 / 2⟩, ⟨3 / 2, 1 / 2⟩, ⟨3 / 2, 3 / 2⟩, ⟨1 / 2, 3 / 2⟩,
          ⟨1 / 2, 1⟩, ⟨0, 1⟩, ⟨0, 0⟩, ⟨1, 0⟩]| = 7 / 4 ∧
      Compute fuel crossingA crossingB GHOp.Intersection =
        some [[⟨1 / 2, 1⟩, ⟨1 / 2, 1 / 2⟩, ⟨1, 1 / 2⟩, ⟨1, 1⟩]] ∧
      ([⟨1 / 2, 1⟩, ⟨1 / 2, 1 / 2⟩, ⟨1, 1 / 2⟩, ⟨1, 1⟩] : List Point).rotate 1 =
        [⟨1 / 2, 1 / 2⟩, ⟨1, 1 / 2⟩, ⟨1, 1⟩, ⟨1 / 2, 1⟩] :=
  ⟨Compute_mono hf (by decide!), by decide!, Compute_mono hf (by decide!), by decide!⟩

theorem C15_compute_crossing_squares_witness :
    Compute 8 crossingA crossingB GHOp.Union =
        some [[⟨1, 1 / 2⟩, ⟨3 / 2, 1 / 2⟩, ⟨3 / 2, 3 / 2⟩, ⟨1 / 2, 3 / 2⟩, ⟨1 / 2, 1⟩, ⟨0, 1⟩,
          ⟨0, 0⟩, ⟨1, 0⟩]] ∧
      |Polygonutility.SignedArea [⟨1, 1 / 2⟩, ⟨3 / 2, 1 / 2⟩, ⟨3 / 2, 3 / 2⟩, ⟨1 / 2, 3 / 2⟩,
          ⟨1 / 2, 1⟩, ⟨0, 1⟩, ⟨0, 0⟩, ⟨1, 0⟩]| = 7 / 4 ∧
      Compute 8 crossingA crossingB GHOp.Intersection =
        some [[⟨1 / 2, 1⟩, ⟨1 / 2, 1 / 2⟩, ⟨1, 1 / 2⟩, ⟨1, 1⟩]] ∧
      ([⟨1 / 2, 1⟩, ⟨1 / 2, 1 / 2⟩, ⟨1, 1 / 2⟩, ⟨1, 1⟩] : List Point).rotate 1 =
        [⟨1 / 2, 1 / 2⟩, ⟨1, 1 / 2⟩, ⟨1, 1⟩, ⟨1 / 2, 1⟩] :=
  C15_compute_crossing_squares 8 (le_refl 8)

theorem FindIntersections_null_A (fuel : Nat) (h : NodeHeap) (B : Option Nat) :
    FindIntersections fuel h none B = none := by
  unfold FindIntersections
  cases fuel <;> simp [FindIntersectionsOuter, load]

theorem FindIntersections_null_B (fuel : Nat) (h : NodeHeap) (a : Nat) (v : Node)
    (hv : h[a]? = some v) (hi : v.isIntersection = false) :
    FindIntersections fuel h (some a) none = none := by
  unfold FindIntersections
  cases fuel with
  | zero => simp [FindIntersectionsOuter]
  | succ n =>
    unfold FindIntersectionsOuter
    simp only [load, hv, Option.some_bind, hi, Bool.false_eq_true, if_false]
    unfold FindIntersectionsInner
    simp [load]

/-- C20, the failing runs. With an empty point list as first or as second
operand, `Compute` returns no result for any operation and any amount of fuel:
`BuildPolygon` returns `nullptr` for the empty list, and `FindIntersections`
reads `a->next` of the first ring, or `b->next` of the second ring, through
it. -/
theorem C20_compute_empty_operand (fuel : Nat) (pts : List Point) (op : GHOp) :
    BuildPolygon [] [] = some ([], none) ∧
      Compute fuel [] pts op = none ∧ Compute fuel pts [] op = none := by
  have hE : EnsureCCW [] = [] := rfl
  have hB : ∀ h : NodeHeap, BuildPolygon h [] = some (h, none) := fun h => by simp [BuildPolygon]
  have h1 : Compute fuel [] pts op = none := by
    unfold Compute ComputeTraced
    simp only [hE, hB, Option.some_bind]
    cases hb : BuildPolygon [] (EnsureCCW pts) with
    | none => simp
    | some rb => simp [FindIntersections_null_A]
  refine ⟨hB [], h1, ?_⟩
  by_cases hp : pts = []
  · rw [hp]
    rw [hp] at h1
    exact h1
  · obtain ⟨g, hg, hlen, _, _, _, hI⟩ := BuildPolygon_spec [] (EnsureCCW pts) (EnsureCCW_ne_nil hp)
    have hpos : 0 < g.length := by
      rw [hlen]
      have := List.length_pos.2 (EnsureCCW_ne_nil hp)
      simpa using this
    obtain ⟨v, hv⟩ := exists_getElem?_of_lt hpos
    have hi : v.isIntersection = false := by
      rw [← isInt_of_getElem? hv, hI]
      rfl
    unfold Compute ComputeTraced
    simp only [hE, hB, hg, Option.some_bind, List.length_nil]
    rw [FindIntersections_null_B fuel g 0 v hv hi]
    rfl

end PolygonUtilityExtension

end GeometryCore

/-! ### `Compute`: runs on the example inputs -/

namespace GeometryCore

namespace PolygonUtilityExtension

set_option maxRecDepth 100000

theorem ComputeCrossed_mono {fuel fuel1 : Nat} (hle : fuel ≤ fuel1) {Apts Bpts : List Point}
    {r : NodeHeap × Option Nat × Option Nat} (hr : ComputeCrossed fuel Apts Bpts = some r) :
    ComputeCrossed fuel1 Apts Bpts = some r := by
  unfold ComputeCrossed at hr ⊢
  refine bind_mono hr fun ra _ hr => bind_mono hr fun rb _ hr => ?_
  cases h1 : FindIntersections fuel rb.1 ra.2 rb.2 with
  | none => rw [h1] at hr; simp at hr
  | some g1 =>
    rw [h1] at hr
    rw [FindIntersections_mono hle h1]
    exact hr

/-- C22, the failing run. No edge of `innerSquare` crosses an edge of
`bigSquare` and every vertex of `innerSquare` tests inside `bigSquare`; with
any fuel of at least 4, `Compute(bigSquare, innerSquare, op)` returns the empty
result for `Union` and for `Intersection` (and for the two differences): no
intersection node exists, the traversal starts no walk, and the fallback block
computes its two containment flags and adds nothing to `result`. -/
theorem C22_no_crossing_gives_empty (fuel : Nat) (hf : 4 ≤ fuel) :
    (∀ i, i < 4 → ∀ j, j < 4 →
      SegmentIntersect (vget bigSquare.outer.vertices i) (vget bigSquare.outer.vertices ((i + 1) % 4))
        (vget innerSquare.outer.vertices j) (vget innerSquare.outer.vertices ((j + 1) % 4)) =
          none) ∧
      (∀ p, p ∈ innerSquare.outer.vertices →
        PointInsidePolygon bigSquare.outer.vertices p = true) ∧
      Compute fuel bigSquare.outer.vertices innerSquare.outer.vertices GHOp.Union = some [] ∧
      Compute fuel bigSquare.outer.vertices innerSquare.outer.vertices GHOp.Intersection =
        some [] ∧
      Compute fuel bigSquare.outer.vertices innerSquare.outer.vertices GHOp.DifferenceAB =
        some [] ∧
      Compute fuel bigSquare.outer.vertices innerSquare.outer.vertices GHOp.DifferenceBA =
        some [] :=
  ⟨by decide!, by decide!, Compute_mono hf (by decide!), Compute_mono hf (by decide!),
    Compute_mono hf (by decide!), Compute_mono hf (by decide!)⟩

theorem C22_no_crossing_gives_empty_witness :
    Compute 4 bigSquare.outer.vertices innerSquare.outer.vertices GHOp.Union = some [] ∧
      Compute 4 bigSquare.outer.vertices innerSquare.outer.vertices GHOp.Intersection =
        some [] :=
  ⟨(C22_no_crossing_gives_empty 4 (le_refl 4)).2.2.1,
    (C22_no_crossing_gives_empty 4 (le_refl 4)).2.2.2.1⟩

/-- C23, the failing run. The edges `(2,1)-(1,-1)` and `(3,-1)-(2,1)` of the
triangle `spikeFromTip` both cross the edge `(0,0)-(4,0)` of `square4` at
interior parameters, in `(3/2,0)` and in `(5/2,0)`. After `FindIntersections`
(any fuel of at least 5) the heap holds the seven original nodes and only two
intersection nodes, both at `(3/2,0)`: ring `A` is `0, 7, 1, 2`, ring `B` is
`3, 8, 4, 5, 6`, and no node was inserted for the crossing `(5/2,0)`. -/
theorem C23_second_crossing_missed (fuel : Nat) (hf : 5 ≤ fuel) :
    SegmentIntersect ⟨2, 1⟩ ⟨1, -1⟩ ⟨0, 0⟩ ⟨4, 0⟩ = some (⟨3 / 2, 0⟩, 1 / 2, 3 / 8) ∧
      SegmentIntersect ⟨3, -1⟩ ⟨2, 1⟩ ⟨0, 0⟩ ⟨4, 0⟩ = some (⟨5 / 2, 0⟩, 1 / 2, 5 / 8) ∧
      ComputeCrossed fuel spikeFromTip square4 = some (spikeTipCrossed, some 0, some 3) ∧
      (List.range 7).map (nodePoint spikeTipCrossed) = spikeFromTip ++ square4 ∧
      (List.range spikeTipCrossed.length).filter (isInt spikeTipCrossed) = [7, 8] ∧
      ringCells spikeTipCrossed 0 9 0 = [0, 7, 1, 2] ∧
      ringCells spikeTipCrossed 3 9 3 = [3, 8, 4, 5, 6] ∧
      nodePoint spikeTipCrossed 7 = ⟨3 / 2, 0⟩ ∧ nodePoint spikeTipCrossed 8 = ⟨3 / 2, 0⟩ :=
  ⟨by decide!, by decide!, ComputeCrossed_mono hf (by decide!), by decide!, by decide!,
    by decide!, by decide!, by decide!, by decide!⟩

theorem C23_second_crossing_missed_witness :
    ComputeCrossed 5 spikeFromTip square4 = some (spikeTipCrossed, some 0, some 3) ∧
      (List.range spikeTipCrossed.length).filter (isInt spikeTipCrossed) = [7, 8] :=
  ⟨(C23_second_crossing_missed 5 (le_refl 5)).2.2.1,
    (C23_second_crossing_missed 5 (le_refl 5)).2.2.2.2.1⟩

/-- C27, the failing run. For the triangle `spikeFromBase` and `square4`, after
`FindIntersections` (any fuel of at least 5) ring `B` is `3, 10, 8, 4, 5, 6`:
the intersection nodes `10` and `8` lie between the consecutive original
vertices `3 = (0,0)` and `4 = (4,0)`. Node `10` holds the point `(3/2,0)` and
`alpha = 3/5`, the parameter along the segment from `(0,0)` to the node `8`
inserted before it at `(5/2,0)`; along the original edge the point
`(0,0) + 3/5 * ((4,0) - (0,0))` is `(12/5,0)`. -/
theorem C27_alpha_along_subsegment (fuel : Nat) (hf : 5 ≤ fuel) :
    ComputeCrossed fuel spikeFromBase square4 = some (spikeBaseCrossed, some 0, some 3) ∧
      ringCells spikeBaseCrossed 3 11 3 = [3, 10, 8, 4, 5, 6] ∧
      [3, 10, 8, 4].map (isInt spikeBaseCrossed) = [false, true, true, false] ∧
      [3, 10, 8, 4].map (nodePoint spikeBaseCrossed) =
        [⟨0, 0⟩, ⟨3 / 2, 0⟩, ⟨5 / 2, 0⟩, ⟨4, 0⟩] ∧
      [10, 8].map (nodeAlpha spikeBaseCrossed) = [3 / 5, 5 / 8] ∧
      (nodePoint spikeBaseCrossed 3).x + nodeAlpha spikeBaseCrossed 10 *
        ((nodePoint spikeBaseCrossed 4).x - (nodePoint spikeBaseCrossed 3).x) = 12 / 5 ∧
      (nodePoint spikeBaseCrossed 10).x ≠ (nodePoint spikeBaseCrossed 3).x +
        nodeAlpha spikeBaseCrossed 10 *
          ((nodePoint spikeBaseCrossed 4).x - (nodePoint spikeBaseCrossed 3).x) :=
  ⟨ComputeCrossed_mono hf (by decide!), by decide!, by decide!, by decide!, by decide!,
    by decide!, by decide!⟩

theorem C27_alpha_along_subsegment_witness :
    ComputeCrossed 5 spikeFromBase square4 = some (spikeBaseCrossed, some 0, some 3) ∧
      [10, 8].map (nodeAlpha spikeBaseCrossed) = [3 / 5, 5 / 8] :=
  ⟨(C27_alpha_along_subsegment 5 (le_refl 5)).1,
    (C27_alpha_along_subsegment 5 (le_refl 5)).2.2.2.2.1⟩

/-- the entry marking does not tell the two differences apart -/
theorem MarkEntryExit_difference (fuel : Nat) (h : NodeHeap) (poly : Option Nat)
    (other : List Point) (isA : Bool) :
    MarkEntryExit fuel h poly other GHOp.DifferenceBA isA =
      MarkEntryExit fuel h poly other GHOp.DifferenceAB isA := by
  have hb : MarkEntryExitBody GHOp.DifferenceBA isA = MarkEntryExitBody GHOp.DifferenceAB isA := by
    funext g c i
    simp [MarkEntryExitBody]
  unfold MarkEntryExit
  rw [hb]

/-- the walk of `TraceResult` does not tell the two differences apart -/
theorem TraceResult_difference (fuel : Nat) (h : NodeHeap) (start : Option Nat)
    (startOnA : Bool) :
    TraceResult fuel h start GHOp.DifferenceBA startOnA =
      TraceResult fuel h start GHOp.DifferenceAB startOnA := by
  have hl : ∀ (f : Nat) (g : NodeHeap) (cur : Option Nat) (onA fwd : Bool)
      (res : List (Nat × Point)),
      TraceResultLoop start GHOp.DifferenceBA f g cur onA fwd res =
        TraceResultLoop start GHOp.DifferenceAB f g cur onA fwd res := by
    intro f
    induction f with
    | zero => intro g cur onA fwd res; simp [TraceResultLoop]
    | succ n ih =>
      intro g cur onA fwd res
      cases cur with
      | none => simp [TraceResultLoop]
      | some c =>
        unfold TraceResultLoop
        simp only [ih]
        simp
  exact hl _ _ _ _ _ _

/-- C30, the failing run. For the two crossing unit squares, with any fuel of
at least 6, `Compute(A, B, DifferenceBA)` returns the loop `(1,1/2), (1,1),
(1/2,1), (1/2,3/2), (3/2,3/2), (3/2,1/2)` and `Compute(B, A, DifferenceAB)`
returns the loop `(1/2,1), (1,1), (1,1/2), (3/2,1/2), (3/2,3/2), (1/2,3/2)`:
the first is no cyclic rotation of the second, it is the second walked the
other way round (its reversal, rotated by 3). -/
theorem C30_differenceBA_reversed (fuel : Nat) (hf : 6 ≤ fuel) :
    Compute fuel crossingA crossingB GHOp.DifferenceBA =
        some [[⟨1, 1 / 2⟩, ⟨1, 1⟩, ⟨1 / 2, 1⟩, ⟨1 / 2, 3 / 2⟩, ⟨3 / 2, 3 / 2⟩, ⟨3 / 2, 1 / 2⟩]] ∧
      Compute fuel crossingB crossingA GHOp.DifferenceAB =
        some [[⟨1 / 2, 1⟩, ⟨1, 1⟩, ⟨1, 1 / 2⟩, ⟨3 / 2, 1 / 2⟩, ⟨3 / 2, 3 / 2⟩, ⟨1 / 2, 3 / 2⟩]] ∧
      (∀ k, k < 6 →
        ([⟨1, 1 / 2⟩, ⟨1, 1⟩, ⟨1 / 2, 1⟩, ⟨1 / 2, 3 / 2⟩, ⟨3 / 2, 3 / 2⟩, ⟨3 / 2, 1 / 2⟩] :
          List Point).rotate k ≠
        [⟨1 / 2, 1⟩, ⟨1, 1⟩, ⟨1, 1 / 2⟩, ⟨3 / 2, 1 / 2⟩, ⟨3 / 2, 3 / 2⟩, ⟨1 / 2, 3 / 2⟩]) ∧
      ([⟨1, 1 / 2⟩, ⟨1, 1⟩, ⟨1 / 2, 1⟩, ⟨1 / 2, 3 / 2⟩, ⟨3 / 2, 3 / 2⟩, ⟨3 / 2, 1 / 2⟩] :
          List Point).rotate 3 =
        ([⟨1 / 2, 1⟩, ⟨1, 1⟩, ⟨1, 1 / 2⟩, ⟨3 / 2, 1 / 2⟩, ⟨3 / 2, 3 / 2⟩, ⟨1 / 2, 3 / 2⟩] :
          List Point).reverse ∧
      Polygonutility.SignedArea
        [⟨1, 1 / 2⟩, ⟨1, 1⟩, ⟨1 / 2, 1⟩, ⟨1 / 2, 3 / 2⟩, ⟨3 / 2, 3 / 2⟩, ⟨3 / 2, 1 / 2⟩] = -(3 / 4) ∧
      Polygonutility.SignedArea
        [⟨1 / 2, 1⟩, ⟨1, 1⟩, ⟨1, 1 / 2⟩, ⟨3 / 2, 1 / 2⟩, ⟨3 / 2, 3 / 2⟩, ⟨1 / 2, 3 / 2⟩] = 3 / 4 :=
  ⟨Compute_mono hf (by decide!), Compute_mono hf (by decide!), by decide!, by decide!,
    by decide!, by decide!⟩

theorem C30_differenceBA_reversed_witness :
    Compute 6 crossingA crossingB GHOp.DifferenceBA =
        some [[⟨1, 1 / 2⟩, ⟨1, 1⟩, ⟨1 / 2, 1⟩, ⟨1 / 2, 3 / 2⟩, ⟨3 / 2, 3 / 2⟩, ⟨3 / 2, 1 / 2⟩]] ∧
      Compute 6 crossingB crossingA GHOp.DifferenceAB =
        some [[⟨1 / 2, 1⟩, ⟨1, 1⟩, ⟨1, 1 / 2⟩, ⟨3 / 2, 1 / 2⟩, ⟨3 / 2, 3 / 2⟩, ⟨1 / 2, 3 / 2⟩]] :=
  ⟨(C30_differenceBA_reversed 6 (le_refl 6)).1, (C30_differenceBA_reversed 6 (le_refl 6)).2.1⟩

end PolygonUtilityExtension

end GeometryCore

/-! ### `MarkEntryExit`: the flags it writes -/

namespace GeometryCore

namespace PolygonUtilityExtension

set_option maxRecDepth 100000

/-- a cycle read from another of its cells -/
theorem IsCycle.rotate_at {nx : Nat → Option Nat} {hd s : Nat} {pre suf : List Nat}
    (hc : IsCycle nx hd (pre ++ s :: suf)) : IsCycle nx s (s :: suf ++ pre) := by
  obtain ⟨hnd, hh, hch⟩ := hc
  refine ⟨?_, rfl, ?_⟩
  · have hp : (s :: suf ++ pre).Perm (pre ++ s :: suf) := List.perm_append_comm
    exact hp.nodup_iff.2 hnd
  · cases pre with
    | nil =>
      simp only [List.nil_append, List.head?_cons, Option.some.injEq] at hh
      subst hh
      simpa using hch
    | cons x pre =>
      simp only [List.cons_append, List.head?_cons, Option.some.injEq] at hh
      subst hh
      have h1 : List.Chain' (fun a b => nx a = some b) ((x :: pre) ++ s :: (suf ++ [x])) := by
        simpa using hch
      rw [List.chain'_split] at h1
      have h2 : List.Chain' (fun a b => nx a = some b) ((s :: suf) ++ x :: (pre ++ [s])) := by
        rw [List.chain'_split]
        exact ⟨by simpa using h1.2, by simpa using h1.1⟩
      simpa using h2

/-- the first loop of `MarkEntryExit` skips the intersection nodes `l` -/
theorem MarkEntryExitStart_spec (h : NodeHeap) (s : Nat) (hs : isInt h s = false)
    (hsv : ∃ v, h[s]? = some v) :
    ∀ (l : List Nat) (c : Nat), (l ++ [s]).head? = some c →
      List.Chain' (fun a b => nodeNext h a = some b) (l ++ [s]) →
      (∀ x, x ∈ l → isInt h x = true) →
      ∀ f, l.length + 1 ≤ f → MarkEntryExitStart h f (some c) = some (some s)
  | [], c, hh, _, _, f, hf => by
    simp only [List.nil_append, List.head?_cons, Option.some.injEq] at hh
    subst hh
    obtain ⟨v, hv⟩ := hsv
    obtain ⟨f, rfl⟩ : ∃ g, f = g + 1 := ⟨f - 1, by simp at hf; omega⟩
    have hi : v.isIntersection = false := by rw [← isInt_of_getElem? hv]; exact hs
    simp [MarkEntryExitStart, load, hv, hi]
  | x :: l, c, hh, hch, hall, f, hf => by
    simp only [List.cons_append, List.head?_cons, Option.some.injEq] at hh
    subst hh
    obtain ⟨f, rfl⟩ : ∃ g, f = g + 1 := ⟨f - 1, by simp at hf; omega⟩
    obtain ⟨y, hy⟩ : ∃ y, (l ++ [s]).head? = some y := by
      cases l with
      | nil => exact ⟨s, rfl⟩
      | cons y l => exact ⟨y, rfl⟩
    have hxy : nodeNext h x = some y := by
      cases l with
      | nil =>
        simp only [List.nil_append, List.head?_cons, Option.some.injEq] at hy
        subst hy
        simpa using hch
      | cons z l =>
        simp only [List.cons_append, List.head?_cons, Option.some.injEq] at hy
        subst hy
        simp only [List.cons_append, List.chain'_cons] at hch
        exact hch.1
    obtain ⟨v, hv, hvn⟩ := nodeNext_eq_some.1 hxy
    have hi : v.isIntersection = true := by
      rw [← isInt_of_getElem? hv]; exact hall x (by simp)
    have ih := MarkEntryExitStart_spec h s hs hsv l y hy
      (by
        have : List.Chain' (fun a b => nodeNext h a = some b) (x :: (l ++ [s])) := by
          simpa using hch
        exact this.tail)
      (fun z hz => hall z (List.mem_cons_of_mem _ hz)) f (by simp at hf; omega)
    simp only [MarkEntryExitStart, load, hv, Option.some_bind, hi, if_true, hvn]
    exact ih

theorem markCells_cons_true (fl : Nat → Bool) (rule : Bool → Bool) (c : Nat) (t : List Nat)
    (g : NodeHeap) (s : Bool) (hc : fl c = true) :
    markCells fl rule (c :: t) g s =
      markCells fl rule t (upd g c fun w => { w with entry := rule s }) (!s) := by
  simp only [markCells, hc, if_true]

theorem markCells_cons_false (fl : Nat → Bool) (rule : Bool → Bool) (c : Nat) (t : List Nat)
    (g : NodeHeap) (s : Bool) (hc : ¬ fl c = true) :
    markCells fl rule (c :: t) g s = markCells fl rule t g s := by
  simp only [markCells, hc]
  rfl

theorem markCells_sameLinks (fl : Nat → Bool) (rule : Bool → Bool) :
    ∀ (l : List Nat) (g : NodeHeap) (s : Bool), SameLinks g (markCells fl rule l g s).1
  | [], g, s => SameLinks.rfl' g
  | c :: t, g, s => by
    by_cases hc : fl c = true
    · rw [markCells_cons_true fl rule c t g s hc]
      exact (sameLinks_upd g c (fun w => { w with entry := rule s })
        fun w => ⟨rfl, rfl, rfl, rfl⟩).trans' (markCells_sameLinks fl rule t _ _)
    · rw [markCells_cons_false fl rule c t g s hc]
      exact markCells_sameLinks fl rule t g s

theorem markCells_get_of_not_mem (fl : Nat → Bool) (rule : Bool → Bool) (a : Nat) :
    ∀ (l : List Nat) (g : NodeHeap) (s : Bool), a ∉ l → (markCells fl rule l g s).1[a]? = g[a]?
  | [], g, s, _ => rfl
  | c :: t, g, s, ha => by
    have hac : a ≠ c := fun e => ha (by simp [e])
    have hat : a ∉ t := fun hm => ha (List.mem_cons_of_mem _ hm)
    by_cases hc : fl c = true
    · rw [markCells_cons_true fl rule c t g s hc,
        markCells_get_of_not_mem fl rule a t _ _ hat, getElem?_nodeUpd, if_neg hac]
    · rw [markCells_cons_false fl rule c t g s hc]
      exact markCells_get_of_not_mem fl rule a t g s hat

theorem markCells_get_of_flag (fl : Nat → Bool) (rule : Bool → Bool) (a : Nat)
    (ha : fl a = false) :
    ∀ (l : List Nat) (g : NodeHeap) (s : Bool), (markCells fl rule l g s).1[a]? = g[a]?
  | [], g, s => rfl
  | c :: t, g, s => by
    by_cases hc : fl c = true
    · have hac : a ≠ c := fun e => by rw [e, hc] at ha; cases ha
      rw [markCells_cons_true fl rule c t g s hc,
        markCells_get_of_flag fl rule a ha t _ _, getElem?_nodeUpd, if_neg hac]
    · rw [markCells_cons_false fl rule c t g s hc]
      exact markCells_get_of_flag fl rule a ha t g s

/-- the flag written to the cell `c` is the rule applied to the running state
after the cells before `c` -/
theorem markCells_get_split (fl : Nat → Bool) (rule : Bool → Bool) (c : Nat) (q : List Nat)
    (hc : fl c = true) :
    ∀ (p : List Nat) (g : NodeHeap) (s : Bool), (p ++ c :: q).Nodup →
      (markCells fl rule (p ++ c :: q) g s).1[c]? =
        (g[c]?).map fun w => { w with entry := rule (insideAfter fl s p) }
  | [], g, s, hnd => by
    have hcq : c ∉ q := (List.nodup_cons.1 (by simpa using hnd)).1
    rw [List.nil_append, markCells_cons_true fl rule c q g s hc,
      markCells_get_of_not_mem fl rule c q _ _ hcq, getElem?_nodeUpd, if_pos rfl]
    rfl
  | x :: p, g, s, hnd => by
    have hnd2 : (x :: (p ++ c :: q)).Nodup := by simpa using hnd
    have hcx : c ≠ x := by
      intro e
      exact (List.nodup_cons.1 hnd2).1 (by simp [e])
    have ih := markCells_get_split fl rule c q hc p
    rw [List.cons_append]
    by_cases hx : fl x = true
    · rw [markCells_cons_true fl rule x _ g s hx, ih _ _ (List.nodup_cons.1 hnd2).2,
        getElem?_nodeUpd, if_neg hcx]
      simp [insideAfter, hx]
    · rw [markCells_cons_false fl rule x _ g s hx, ih _ _ (List.nodup_cons.1 hnd2).2]
      simp [insideAfter, hx]

/-- the expression that `MarkEntryExit` assigns to `entry` -/
theorem entryRule_eq (op : GHOp) (isA inside : Bool) :
    (if op = GHOp.Union then !inside
      else if op = GHOp.Intersection then inside
      else if isA then !inside else inside) = entryRule op isA inside := by
  cases op <;> simp [entryRule]

/-- the second loop of `MarkEntryExit` from the cell `c` to the end of the ring -/
theorem markWalk_spec (h : NodeHeap) (hd : Nat) (op : GHOp) (isA : Bool) :
    ∀ (suf pre : List Nat) (c : Nat) (g : NodeHeap) (s : Bool),
      IsCycle (nodeNext h) hd (pre ++ c :: suf) → SameLinks h g →
      ∀ k, suf.length + 1 ≤ k →
        ringWalk (MarkEntryExitBody op isA) (some hd) k g (some c) s =
          some (markCells (isInt h) (entryRule op isA) (c :: suf) g s)
  | [], pre, c, g, s, hc, hs, k, hk => by
    obtain ⟨k, rfl⟩ : ∃ j, k = j + 1 := ⟨k - 1, by simp at hk; omega⟩
    have hcg : IsCycle (nodeNext g) hd (pre ++ [c]) := by rw [hs.2.1]; exact hc
    obtain ⟨v, hv, hvn⟩ := nodeNext_eq_some.1 hcg.next_end
    have hfl : isInt h c = v.isIntersection := by
      rw [← hs.2.2.2.2, isInt_of_getElem? hv]
    by_cases hvi : v.isIntersection = true
    · have hrun : MarkEntryExitBody op isA g (some c) s =
          some (upd g c fun w => { w with entry := entryRule op isA s }, !s) := by
        simp only [MarkEntryExitBody, load, hv, Option.some_bind, hvi, if_true]
        rw [store_eq_nodeUpd _ (getElem?_lt hv), entryRule_eq]
        rfl
      have hv2 : (upd g c fun w => { w with entry := entryRule op isA s })[c]? =
          some { v with entry := entryRule op isA s } := by
        rw [getElem?_nodeUpd, if_pos rfl, hv]; rfl
      simp only [ringWalk, hrun, Option.some_bind, load, hv2, hvn, markCells, hfl, hvi,
        if_true, ne_eq, not_true_eq_false, if_false]
    · have hrun : MarkEntryExitBody op isA g (some c) s = some (g, s) := by
        simp only [MarkEntryExitBody, load, hv, Option.some_bind, hvi]
        rfl
      simp only [ringWalk, hrun, Option.some_bind, load, hv, hvn, markCells, hfl, hvi,
        ne_eq, not_true_eq_false, if_false]
      rfl
  | x :: t, pre, c, g, s, hc, hs, k, hk => by
    obtain ⟨k, rfl⟩ : ∃ j, k = j + 1 := ⟨k - 1, by simp at hk; omega⟩
    have hcg : IsCycle (nodeNext g) hd (pre ++ c :: x :: t) := by rw [hs.2.1]; exact hc
    obtain ⟨v, hv, hvn⟩ := nodeNext_eq_some.1 hcg.next_cons
    have hne : some x ≠ some hd := fun e => hcg.ne_hd (Option.some.inj e)
    have hfl : isInt h c = v.isIntersection := by
      rw [← hs.2.2.2.2, isInt_of_getElem? hv]
    have hc' : IsCycle (nodeNext h) hd ((pre ++ [c]) ++ x :: t) := by simpa using hc
    by_cases hvi : v.isIntersection = true
    · have hrun : MarkEntryExitBody op isA g (some c) s =
          some (upd g c fun w => { w with entry := entryRule op isA s }, !s) := by
        simp only [MarkEntryExitBody, load, hv, Option.some_bind, hvi, if_true]
        rw [store_eq_nodeUpd _ (getElem?_lt hv), entryRule_eq]
        rfl
      have hv2 : (upd g c fun w => { w with entry := entryRule op isA s })[c]? =
          some { v with entry := entryRule op isA s } := by
        rw [getElem?_nodeUpd, if_pos rfl, hv]; rfl
      have ih := markWalk_spec h hd op isA t (pre ++ [c]) x
        (upd g c fun w => { w with entry := entryRule op isA s }) (!s) hc'
        (hs.trans' (sameLinks_upd g c _ fun w => ⟨rfl, rfl, rfl, rfl⟩)) k
        (by simp at hk; omega)
      simp only [ringWalk, hrun, Option.some_bind, load, hv2, hvn, if_pos hne]
      rw [ih]
      simp only [markCells, hfl, hvi, if_true]
    · have hrun : MarkEntryExitBody op isA g (some c) s = some (g, s) := by
        simp only [MarkEntryExitBody, load, hv, Option.some_bind, hvi]
        rfl
      have ih := markWalk_spec h hd op isA t (pre ++ [c]) x g s hc' hs k
        (by simp at hk; omega)
      simp only [ringWalk, hrun, Option.some_bind, load, hv, hvn, if_pos hne]
      rw [ih]
      simp only [markCells, hfl, hvi]
      rfl

/-- C29. On a ring `pre ++ s :: suf` read from the pointer `hd` given to
`MarkEntryExit`, where the cells `pre` are intersection nodes and `s` is the
first node that is not one, the call returns for every fuel above the length of
the ring, and in the heap `g` it returns: every intersection node `c` of the
walk `s :: suf ++ pre` is the node it was with `entry` set by `entryRule`
(`!inside` for Union, `inside` for Intersection, for a difference `!inside` on
ring A and `inside` on ring B), where `inside` is the running state before
the toggle at `c`, which starts as `PointInsidePolygon(other, s->p)` and is
toggled once at every intersection node passed before `c`; every cell that is
not an intersection node, and every cell off the ring, is left as it was. -/
theorem C29_mark_entry_exit {h : NodeHeap} {hd s : Nat} {pre suf : List Nat}
    (hc : IsCycle (nodeNext h) hd (pre ++ s :: suf))
    (hpre : ∀ x, x ∈ pre → isInt h x = true) (hs : isInt h s = false)
    (other : List Point) (op : GHOp) (isA : Bool) :
    ∃ g, (∀ f, (pre ++ s :: suf).length + 1 ≤ f →
        MarkEntryExit f h (some hd) other op isA = some g) ∧
      g.length = h.length ∧
      (∀ p c q, s :: suf ++ pre = p ++ c :: q → isInt h c = true →
        g[c]? = (h[c]?).map fun v => setEntry v (entryRule op isA
          (insideAfter (isInt h) (PointInsidePolygon other (nodePoint h s)) p))) ∧
      (∀ a, isInt h a = false → g[a]? = h[a]?) ∧
      (∀ a, a ∉ pre ++ s :: suf → g[a]? = h[a]?) := by
  have hrot := hc.rotate_at
  obtain ⟨sv, _, hsv, _, _⟩ := hc.cell (x := s) (by simp)
  have hsi : sv.isIntersection = false := by rw [← isInt_of_getElem? hsv]; exact hs
  have hpt : nodePoint h s = sv.p := by simp [nodePoint, hsv]
  have hstart : ∀ f, pre.length + 1 ≤ f → MarkEntryExitStart h f (some hd) = some (some s) := by
    refine MarkEntryExitStart_spec h s hs ⟨sv, hsv⟩ pre hd hc.hd_eq ?_ hpre
    have h1 := hc.2.2
    rw [List.append_assoc, List.cons_append, List.chain'_split] at h1
    exact h1.1
  have hwalk := markWalk_spec h s op isA (suf ++ pre) [] s h
    (PointInsidePolygon other sv.p) (by simpa using hrot) (SameLinks.rfl' h)
  refine ⟨(markCells (isInt h) (entryRule op isA) (s :: (suf ++ pre)) h
    (PointInsidePolygon other sv.p)).1, fun f hf => ?_, ?_, ?_, ?_, ?_⟩
  · simp only [List.length_append, List.length_cons] at hf
    simp only [MarkEntryExit, hstart f (by omega), Option.some_bind, load, hsv]
    rw [hwalk f (by simp; omega)]
    rfl
  · exact (markCells_sameLinks _ _ _ _ _).1
  · intro p c q e hci
    have hnd : (p ++ c :: q).Nodup := by rw [← e]; exact hrot.1
    have e2 : s :: (suf ++ pre) = p ++ c :: q := by simpa using e
    rw [e2, markCells_get_split (isInt h) (entryRule op isA) c q hci p h _ hnd, hpt]
    rfl
  · intro a ha
    exact markCells_get_of_flag (isInt h) (entryRule op isA) a ha _ _ _
  · intro a ha
    refine markCells_get_of_not_mem (isInt h) (entryRule op isA) a _ _ _ ?_
    intro hm
    apply ha
    simp only [List.mem_cons, List.mem_append] at hm ⊢
    tauto

theorem crossingCrossed_cycle :
    IsCycle (nodeNext crossingCrossed) 8 ([8] ++ 2 :: [10, 3, 0, 1]) := by
  refine ⟨by decide, rfl, ?_⟩
  show List.Chain' _ [8, 2, 10, 3, 0, 1, 8]
  simp only [List.chain'_cons, List.chain'_singleton, and_true]
  decide!

theorem C29_mark_entry_exit_witness :
    IsCycle (nodeNext crossingCrossed) 8 ([8] ++ 2 :: [10, 3, 0, 1]) ∧
    (∀ x, x ∈ [8] → isInt crossingCrossed x = true) ∧ isInt crossingCrossed 2 = false ∧
    (∃ g, (∀ f, ([8] ++ 2 :: [10, 3, 0, 1]).length + 1 ≤ f →
        MarkEntryExit f crossingCrossed (some 8) crossingB GHOp.DifferenceAB true = some g) ∧
      g.length = crossingCrossed.length ∧
      (∀ p c q, 2 :: [10, 3, 0, 1] ++ [8] = p ++ c :: q → isInt crossingCrossed c = true →
        g[c]? = (crossingCrossed[c]?).map fun v => setEntry v (entryRule GHOp.DifferenceAB true
          (insideAfter (isInt crossingCrossed)
            (PointInsidePolygon crossingB (nodePoint crossingCrossed 2)) p))) ∧
      (∀ a, isInt crossingCrossed a = false → g[a]? = crossingCrossed[a]?) ∧
      (∀ a, a ∉ [8] ++ 2 :: [10, 3, 0, 1] → g[a]? = crossingCrossed[a]?)) ∧
    (MarkEntryExit 7 crossingCrossed (some 8) crossingB GHOp.DifferenceAB true).map
      (fun g => (nodeEntry g 10, nodeEntry g 8)) = some (false, true) :=
  ⟨crossingCrossed_cycle, by decide!, by decide!,
    C29_mark_entry_exit crossingCrossed_cycle (by decide!) (by decide!)
      crossingB GHOp.DifferenceAB true, by decide!⟩

end PolygonUtilityExtension

end GeometryCore

/-! ### `FindIntersections`: the order of the inserted nodes and their neighbors -/

namespace GeometryCore

namespace PolygonUtilityExtension

set_option maxRecDepth 100000

theorem nodePoint_of_getElem? {h : NodeHeap} {a : Nat} {v : Node} (hv : h[a]? = some v) :
    nodePoint h a = v.p := by
  simp [nodePoint, hv]

theorem nodeAlpha_of_getElem? {h : NodeHeap} {a : Nat} {v : Node} (hv : h[a]? = some v) :
    nodeAlpha h a = v.alpha := by
  simp [nodeAlpha, hv]

theorem nodePoint_upd_keep (h : NodeHeap) (a : Nat) (f : Node → Node)
    (hf : ∀ v, (f v).p = v.p) : nodePoint (upd h a f) = nodePoint h := by
  funext b
  unfold nodePoint
  rw [getElem?_nodeUpd]
  by_cases hb : b = a
  · subst hb
    cases hv : h[b]? with
    | none => simp
    | some v => simp [hf v]
  · simp [hb]

theorem nodeAlpha_upd_keep (h : NodeHeap) (a : Nat) (f : Node → Node)
    (hf : ∀ v, (f v).alpha = v.alpha) : nodeAlpha (upd h a f) = nodeAlpha h := by
  funext b
  unfold nodeAlpha
  rw [getElem?_nodeUpd]
  by_cases hb : b = a
  · subst hb
    cases hv : h[b]? with
    | none => simp
    | some v => simp [hf v]
  · simp [hb]

theorem nodePoint_upd_next (h : NodeHeap) (a : Nat) (x : Option Nat) :
    nodePoint (upd h a fun v => { v with next := x }) = nodePoint h :=
  nodePoint_upd_keep h a (fun v => { v with next := x }) fun _ => rfl

theorem nodePoint_upd_prev (h : NodeHeap) (a : Nat) (x : Option Nat) :
    nodePoint (upd h a fun v => { v with prev := x }) = nodePoint h :=
  nodePoint_upd_keep h a (fun v => { v with prev := x }) fun _ => rfl

theorem nodeAlpha_upd_next (h : NodeHeap) (a : Nat) (x : Option Nat) :
    nodeAlpha (upd h a fun v => { v with next := x }) = nodeAlpha h :=
  nodeAlpha_upd_keep h a (fun v => { v with next := x }) fun _ => rfl

theorem nodeAlpha_upd_prev (h : NodeHeap) (a : Nat) (x : Option Nat) :
    nodeAlpha (upd h a fun v => { v with prev := x }) = nodeAlpha h :=
  nodeAlpha_upd_keep h a (fun v => { v with prev := x }) fun _ => rfl

theorem nodeNext_eq_none_of_le {h : NodeHeap} {a : Nat} (ha : h.length ≤ a) :
    nodeNext h a = none := by
  simp [nodeNext, List.getElem?_eq_none ha]

theorem nodePrev_eq_none_of_le {h : NodeHeap} {a : Nat} (ha : h.length ≤ a) :
    nodePrev h a = none := by
  simp [nodePrev, List.getElem?_eq_none ha]

theorem lt_of_nodeNext {h : NodeHeap} {a b : Nat} (hn : nodeNext h a = some b) :
    a < h.length := by
  obtain ⟨v, hv, _⟩ := nodeNext_eq_some.1 hn
  exact getElem?_lt hv

theorem lt_of_isInt {h : NodeHeap} {a : Nat} (hi : isInt h a = true) : a < h.length := by
  by_contra hlt
  simp [isInt, List.getElem?_eq_none (Nat.le_of_not_lt hlt)] at hi

/-- the `while` loop of `InsertInOrder`, when it returns: the node it stops at
is the start node or an intersection node with a smaller `alpha`, the `next`
of that node is not an intersection node with a smaller `alpha`, and the node
is reached from the start node by `next` -/
theorem InsertInOrderWalk_sound (h : NodeHeap) (alpha : ℚ) :
    ∀ (f c : Nat) (r : Option Nat), InsertInOrderWalk h alpha f (some c) = some r →
      ∃ curr cv succ sv, r = some curr ∧ h[curr]? = some cv ∧ cv.next = some succ ∧
        h[succ]? = some sv ∧ (curr = c ∨ (cv.isIntersection = true ∧ cv.alpha < alpha)) ∧
        ¬ (sv.isIntersection = true ∧ sv.alpha < alpha) ∧
        ∀ P : Nat → Prop, P c → (∀ x y, P x → nodeNext h x = some y → P y) → P curr
  | 0, c, r, hrun => by simp [InsertInOrderWalk] at hrun
  | f + 1, c, r, hrun => by
    simp only [InsertInOrderWalk, load] at hrun
    cases hcv : h[c]? with
    | none => simp [hcv] at hrun
    | some cv =>
      simp only [hcv, Option.some_bind] at hrun
      cases hcn : cv.next with
      | none => simp [hcn] at hrun
      | some y =>
        simp only [hcn] at hrun
        cases hyv : h[y]? with
        | none => simp [hyv] at hrun
        | some yv =>
          simp only [hyv, Option.some_bind] at hrun
          by_cases hcond : (yv.isIntersection && decide (yv.alpha < alpha)) = true
          · rw [if_pos hcond] at hrun
            obtain ⟨curr, cv', succ, sv, e, h1, h2, h3, h4, h5, h6⟩ :=
              InsertInOrderWalk_sound h alpha f y r hrun
            refine ⟨curr, cv', succ, sv, e, h1, h2, h3, ?_, h5, fun P hP hstep => ?_⟩
            · right
              rcases h4 with rfl | h4
              · rw [hyv] at h1
                cases h1
                simpa using hcond
              · exact h4
            · exact h6 P (hstep c y hP (by rw [nodeNext_of_getElem? hcv, hcn])) hstep
          · rw [if_neg hcond] at hrun
            cases hrun
            refine ⟨c, cv, y, yv, rfl, hcv, hcn, hyv, Or.inl rfl, ?_, fun P hP _ => hP⟩
            simpa using hcond

/-- the four stores of `InsertInOrder` leave the points and the alphas alone -/
theorem splice_keeps {h g : NodeHeap} {curr n succ : Nat} {cv nv sv : Node}
    (hcurr : h[curr]? = some cv) (hnv : h[n]? = some nv) (hsucc : h[succ]? = some sv)
    (hcn : cv.next = some succ) (hne1 : n ≠ curr)
    (hg : ((store h (some n) fun v => { v with next := cv.next }).bind fun h1 =>
        (store h1 (some n) fun v => { v with prev := some curr }).bind fun h2 =>
        (load h2 (some curr)).bind fun c2 =>
        (store h2 c2.next fun v => { v with prev := some n }).bind fun h3 =>
        store h3 (some curr) fun v => { v with next := some n }) = some g) :
    nodePoint g = nodePoint h ∧ nodeAlpha g = nodeAlpha h := by
  have l1 := getElem?_lt hcurr
  have l2 := getElem?_lt hnv
  have l3 := getElem?_lt hsucc
  rw [store_eq_nodeUpd _ l2] at hg
  simp only [Option.some_bind] at hg
  rw [store_eq_nodeUpd _ (by simpa using l2)] at hg
  simp only [Option.some_bind, load, getElem?_nodeUpd, Ne.symm hne1, if_false, hcurr, hcn] at hg
  rw [store_eq_nodeUpd _ (by simpa using l3)] at hg
  simp only [Option.some_bind] at hg
  rw [store_eq_nodeUpd _ (by simpa using l1)] at hg
  cases hg
  constructor
  · rw [nodePoint_upd_next, nodePoint_upd_prev, nodePoint_upd_prev, nodePoint_upd_next]
  · rw [nodeAlpha_upd_next, nodeAlpha_upd_prev, nodeAlpha_upd_prev, nodeAlpha_upd_next]

/-- a call of `InsertInOrder` that returns, for a new node that is not linked
yet: the new node is linked in between a node `curr` and its `next` -/
theorem InsertInOrder_sound {f c n : Nat} {h g : NodeHeap}
    (hrun : InsertInOrder f h (some c) (some n) = some g) (hm : MutualLinks h)
    (hn1 : nodeNext h n = none) (hn2 : nodePrev h n = none) :
    ∃ curr succ, Spliced h g curr n succ ∧ nodeNext h curr = some succ ∧
      (curr = c ∨ (isInt h curr = true ∧ nodeAlpha h curr < nodeAlpha h n)) ∧
      ¬ (isInt h succ = true ∧ nodeAlpha h succ < nodeAlpha h n) ∧
      (∀ P : Nat → Prop, P c → (∀ x y, P x → nodeNext h x = some y → P y) → P curr) ∧
      nodePoint g = nodePoint h ∧ nodeAlpha g = nodeAlpha h ∧ n ≠ curr ∧ n ≠ succ := by
  simp only [InsertInOrder, load] at hrun
  cases hnv : h[n]? with
  | none => simp [hnv] at hrun
  | some nv =>
    simp only [hnv, Option.some_bind] at hrun
    cases hw : InsertInOrderWalk h nv.alpha f (some c) with
    | none => simp [hw] at hrun
    | some r =>
      obtain ⟨curr, cv, succ, sv, rfl, hcv, hcn, hsv, hstop1, hstop2, hreach⟩ :=
        InsertInOrderWalk_sound h nv.alpha f c r hw
      simp only [hw, Option.some_bind, load, hcv] at hrun
      have hcs : nodeNext h curr = some succ := by rw [nodeNext_of_getElem? hcv, hcn]
      have hne1 : n ≠ curr := by
        intro e
        rw [e, hcs] at hn1
        cases hn1
      have hne2 : n ≠ succ := by
        intro e
        have := hm.1 curr succ hcs
        rw [← e, hn2] at this
        cases this
      obtain ⟨g', hg', hsp⟩ := splice_spec hcv hnv hsv hcn hne1 hne2
      have hkeep := splice_keeps hcv hnv hsv hcn hne1 hg'
      have e : g' = g := Option.some.inj (hg'.symm.trans hrun)
      subst e
      refine ⟨curr, succ, hsp, hcs, ?_, ?_, hreach, hkeep.1, hkeep.2, hne1, hne2⟩
      · rw [isInt_of_getElem? hcv, nodeAlpha_of_getElem? hcv, nodeAlpha_of_getElem? hnv]
        exact hstop1
      · rw [isInt_of_getElem? hsv, nodeAlpha_of_getElem? hsv, nodeAlpha_of_getElem? hnv]
        exact hstop2

/-- linking an unlinked node in keeps `next` and `prev` inverse to each other -/
theorem Spliced.mutual {h g : NodeHeap} {curr n succ : Nat} (hs : Spliced h g curr n succ)
    (hm : MutualLinks h) (hcs : nodeNext h curr = some succ)
    (hn1 : nodeNext h n = none) (hn2 : nodePrev h n = none) : MutualLinks g := by
  obtain ⟨_, hnx, hpv, _, _⟩ := hs
  have hne1 : n ≠ curr := by
    intro e
    rw [e, hcs] at hn1
    cases hn1
  have hps : nodePrev h succ = some curr := hm.1 curr succ hcs
  have hne2 : n ≠ succ := by
    intro e
    rw [← e, hn2] at hps
    cases hps
  constructor
  · intro x y hxy
    rw [hnx] at hxy
    rw [hpv]
    by_cases h1 : x = curr
    · rw [if_pos h1] at hxy
      cases hxy
      rw [if_neg hne2, if_pos rfl, h1]
    · rw [if_neg h1] at hxy
      by_cases h2 : x = n
      · rw [if_pos h2] at hxy
        cases hxy
        rw [if_pos rfl, h2]
      · rw [if_neg h2] at hxy
        have hp := hm.1 x y hxy
        have hy1 : y ≠ succ := by
          intro e
          rw [e, hps] at hp
          exact h1 (Option.some.inj hp).symm
        have hy2 : y ≠ n := by
          intro e
          rw [e, hn2] at hp
          cases hp
        rw [if_neg hy1, if_neg hy2]
        exact hp
  · intro x y hxy
    rw [hpv] at hxy
    rw [hnx]
    by_cases h1 : y = succ
    · rw [if_pos h1] at hxy
      cases hxy
      rw [if_neg hne1, if_pos rfl, h1]
    · rw [if_neg h1] at hxy
      by_cases h2 : y = n
      · rw [if_pos h2] at hxy
        cases hxy
        rw [if_pos rfl, h2]
      · rw [if_neg h2] at hxy
        have hp := hm.2 x y hxy
        have hx1 : x ≠ curr := by
          intro e
          rw [e, hcs] at hp
          exact h1 (Option.some.inj hp).symm
        have hx2 : x ≠ n := by
          intro e
          rw [e, hn1] at hp
          cases hp
        rw [if_neg hx1, if_neg hx2]
        exact hp

/-- linking a node in between a node with a smaller `alpha` (or a node that
is no intersection node) and a node that has no smaller `alpha` keeps the
alphas in order -/
theorem Spliced.ordered {h g : NodeHeap} {curr n succ : Nat} (hs : Spliced h g curr n succ)
    (ho : AlphaOrdered h) (hal : nodeAlpha g = nodeAlpha h)
    (hcurr : isInt h curr = true → nodeAlpha h curr ≤ nodeAlpha h n)
    (hsucc : isInt h succ = true → nodeAlpha h n ≤ nodeAlpha h succ) : AlphaOrdered g := by
  obtain ⟨_, hnx, _, _, hI⟩ := hs
  intro x y hxy hx hy
  rw [hnx] at hxy
  rw [hI] at hx hy
  rw [hal]
  by_cases h1 : x = curr
  · rw [if_pos h1] at hxy
    cases hxy
    rw [h1]
    exact hcurr (h1 ▸ hx)
  · rw [if_neg h1] at hxy
    by_cases h2 : x = n
    · rw [if_pos h2] at hxy
      cases hxy
      rw [h2]
      exact hsucc hy
    · rw [if_neg h2] at hxy
      exact ho x y hxy hx hy

/-- the two allocations of `FindIntersections` and the two stores that link the
new nodes as neighbors, with the points and the alphas of the new nodes -/
theorem allocPair_full (h : NodeHeap) (ip : Point) (ta tb : ℚ) :
    ∃ g3 g, (store (alloc (alloc h { p := ip, isIntersection := true, alpha := ta }).1
          { p := ip, isIntersection := true, alpha := tb }).1
          (some h.length) fun v => { v with neighbor := some (h.length + 1) }) = some g3 ∧
        (store g3 (some (h.length + 1)) fun v => { v with neighbor := some h.length }) = some g ∧
      g.length = h.length + 2 ∧ nodeNext g = nodeNext h ∧ nodePrev g = nodePrev h ∧
      (∀ b, nodeNeighbor g b = if b = h.length then some (h.length + 1)
        else if b = h.length + 1 then some h.length else nodeNeighbor h b) ∧
      (∀ b, isInt g b = if b = h.length ∨ b = h.length + 1 then true else isInt h b) ∧
      (∀ b, nodePoint g b = if b = h.length ∨ b = h.length + 1 then ip else nodePoint h b) ∧
      (∀ b, nodeAlpha g b = if b = h.length then ta
        else if b = h.length + 1 then tb else nodeAlpha h b) := by
  rw [store_eq_nodeUpd _ (by rw [length_nodeAlloc, length_nodeAlloc]; omega)]
  have hcell : ∀ b, (upd (upd (alloc (alloc h { p := ip, isIntersection := true, alpha := ta }).1
      { p := ip, isIntersection := true, alpha := tb }).1 h.length
      fun v => { v with neighbor := some (h.length + 1) }) (h.length + 1)
      fun v => { v with neighbor := some h.length })[b]? =
      if b = h.length then
        some { p := ip, isIntersection := true, alpha := ta, neighbor := some (h.length + 1) }
      else if b = h.length + 1 then
        some { p := ip, isIntersection := true, alpha := tb, neighbor := some h.length }
      else h[b]? := by
    intro b
    simp only [getElem?_nodeUpd, getElem?_nodeAlloc, length_nodeAlloc]
    by_cases hb1 : b = h.length
    · subst hb1; simp
    · by_cases hb2 : b = h.length + 1
      · subst hb2; simp
      · simp [hb1, hb2]
  have hnone1 : h[h.length]? = none := List.getElem?_eq_none (le_refl _)
  have hnone2 : h[h.length + 1]? = none := List.getElem?_eq_none (by omega)
  refine ⟨_, _, rfl,
    store_eq_nodeUpd _ (by rw [length_nodeUpd, length_nodeAlloc, length_nodeAlloc]; omega),
    ?_, ?_, ?_, ?_, ?_, ?_, ?_⟩
  · rw [length_nodeUpd, length_nodeUpd, length_nodeAlloc, length_nodeAlloc]
  · funext b
    unfold nodeNext
    rw [hcell]
    by_cases hb1 : b = h.length
    · subst hb1; simp [hnone1]
    · by_cases hb2 : b = h.length + 1
      · subst hb2; simp [hnone2]
      · simp [hb1, hb2]
  · funext b
    unfold nodePrev
    rw [hcell]
    by_cases hb1 : b = h.length
    · subst hb1; simp [hnone1]
    · by_cases hb2 : b = h.length + 1
      · subst hb2; simp [hnone2]
      · simp [hb1, hb2]
  · intro b
    unfold nodeNeighbor
    rw [hcell]
    by_cases hb1 : b = h.length
    · subst hb1; simp
    · by_cases hb2 : b = h.length + 1
      · subst hb2; simp
      · simp [hb1, hb2]
  · intro b
    unfold isInt
    rw [hcell]
    by_cases hb1 : b = h.length
    · subst hb1; simp
    · by_cases hb2 : b = h.length + 1
      · subst hb2; simp
      · simp [hb1, hb2]
  · intro b
    unfold nodePoint
    rw [hcell]
    by_cases hb1 : b = h.length
    · subst hb1; simp
    · by_cases hb2 : b = h.length + 1
      · subst hb2; simp
      · simp [hb1, hb2]
  · intro b
    unfold nodeAlpha
    rw [hcell]
    by_cases hb1 : b = h.length
    · subst hb1; simp
    · by_cases hb2 : b = h.length + 1
      · subst hb2; simp
      · simp [hb1, hb2]

theorem lt_of_nodeNeighbor {h : NodeHeap} {a b : Nat} (hn : nodeNeighbor h a = some b) :
    a < h.length := by
  by_contra hlt
  simp [nodeNeighbor, List.getElem?_eq_none (Nat.le_of_not_lt hlt)] at hn

theorem ringSide_new_A {nA n0 m : Nat} (h1 : n0 ≤ m) (h2 : (m - n0) % 2 = 0) :
    ringSide nA n0 m = true := by
  simp only [ringSide, decide_eq_true_eq]
  exact Or.inr ⟨h1, h2⟩

theorem ringSide_new_B {nA n0 m : Nat} (h0 : nA ≤ n0) (h1 : n0 ≤ m) (h2 : (m - n0) % 2 = 0) :
    ringSide nA n0 (m + 1) = false := by
  simp only [ringSide, decide_eq_false_iff_not, not_or, not_and]
  exact ⟨by omega, fun _ => by omega⟩

/-- linking a new node in keeps every `next` pointer below the new bound -/
theorem Spliced.next_lt {h g : NodeHeap} {curr n succ m : Nat} (hs : Spliced h g curr n succ)
    (hcs : nodeNext h curr = some succ) (hlt : ∀ x y, nodeNext h x = some y → y < m)
    (hn : n < m + 1) : ∀ x y, nodeNext g x = some y → y < m + 1 := by
  obtain ⟨_, hnx, _, _, _⟩ := hs
  intro x y hxy
  rw [hnx] at hxy
  by_cases h1 : x = curr
  · rw [if_pos h1] at hxy
    rw [← Option.some.inj hxy]
    exact hn
  · rw [if_neg h1] at hxy
    by_cases h2 : x = n
    · rw [if_pos h2] at hxy
      rw [← Option.some.inj hxy]
      exact Nat.lt_succ_of_lt (hlt curr succ hcs)
    · rw [if_neg h2] at hxy
      exact Nat.lt_succ_of_lt (hlt x y hxy)

/-- linking a new node in after a node of its own ring keeps `next` inside the rings -/
theorem Spliced.next_side {h g : NodeHeap} {curr n succ : Nat} (s : Nat → Bool)
    (hs : Spliced h g curr n succ) (hcs : nodeNext h curr = some succ)
    (hside : ∀ x y, nodeNext h x = some y → s y = s x) (hn : s n = s curr) :
    ∀ x y, nodeNext g x = some y → s y = s x := by
  obtain ⟨_, hnx, _, _, _⟩ := hs
  intro x y hxy
  rw [hnx] at hxy
  by_cases h1 : x = curr
  · rw [if_pos h1] at hxy
    rw [← Option.some.inj hxy, h1]
    exact hn
  · rw [if_neg h1] at hxy
    by_cases h2 : x = n
    · rw [if_pos h2] at hxy
      rw [← Option.some.inj hxy, h2, hn]
      exact hside curr succ hcs
    · rw [if_neg h2] at hxy
      exact hside x y hxy

/-- the body of the inner loop of `FindIntersections`, when it returns, keeps
the invariant -/
theorem FindIntersectionsPair_inv {nA n0 f a b : Nat} {an bn : Option Nat} {h g : NodeHeap}
    (hi : CrossInv nA n0 h) (ha : isInt h a = false) (hb : isInt h b = false)
    (hsa : ringSide nA n0 a = true) (hsb : ringSide nA n0 b = false)
    (hrun : FindIntersectionsPair f h (some a) an (some b) bn = some g) :
    CrossInv nA n0 g ∧ h.length ≤ g.length ∧ ∀ x, x < h.length → isInt g x = isInt h x := by
  unfold FindIntersectionsPair at hrun
  obtain ⟨av, hav, hrun⟩ := Option.bind_eq_some.1 hrun
  obtain ⟨anv, hanv, hrun⟩ := Option.bind_eq_some.1 hrun
  obtain ⟨bv, hbv, hrun⟩ := Option.bind_eq_some.1 hrun
  obtain ⟨bnv, hbnv, hrun⟩ := Option.bind_eq_some.1 hrun
  have hal : a < h.length := getElem?_lt (show h[a]? = some av from hav)
  have hbl : b < h.length := getElem?_lt (show h[b]? = some bv from hbv)
  cases hsi : SegmentIntersect av.p anv.p bv.p bnv.p with
  | none =>
    rw [hsi] at hrun
    cases hrun
    exact ⟨hi, le_refl _, fun _ _ => rfl⟩
  | some r =>
    obtain ⟨ip, ta, tb⟩ := r
    rw [hsi] at hrun
    have a1 : ∀ v, (alloc h v).2 = h.length := fun _ => rfl
    have a2 : ∀ v w, (alloc (alloc h v).1 w).2 = h.length + 1 := fun v w => by simp [alloc]
    simp only [a1, a2] at hrun
    obtain ⟨h3, e3', hrun⟩ := Option.bind_eq_some.1 hrun
    obtain ⟨h4, e4', hrun⟩ := Option.bind_eq_some.1 hrun
    obtain ⟨h5, hA5, hB6⟩ := Option.bind_eq_some.1 hrun
    obtain ⟨g3, g4, e3, e4, len4, N4, P4, Nb4, I4, Pt4, Al4⟩ := allocPair_full h ip ta tb
    have e33 : h3 = g3 := Option.some.inj (e3'.symm.trans e3)
    subst e33
    have e44 : h4 = g4 := Option.some.inj (e4'.symm.trans e4)
    subst e44
    have hA5' : InsertInOrder f h4 (some a) (some h.length) = some h5 := hA5
    have hB6' : InsertInOrder f h5 (some b) (some (h.length + 1)) = some g := hB6
    have hge := hi.len_ge
    have hev := hi.len_even
    have sideA : ringSide nA n0 h.length = true := ringSide_new_A hge hev
    have sideB : ringSide nA n0 (h.length + 1) = false := ringSide_new_B hi.nA_le hge hev
    have hold4 : ∀ x, x < h.length → isInt h4 x = isInt h x := fun x hx => by
      rw [I4, if_neg (by omega)]
    have hal4 : ∀ x, x < h.length → nodeAlpha h4 x = nodeAlpha h x := fun x hx => by
      rw [Al4, if_neg (by omega), if_neg (by omega)]
    -- the heap after the allocations
    have hm4 : MutualLinks h4 := by
      unfold MutualLinks
      rw [N4, P4]
      exact hi.links
    have ho4 : AlphaOrdered h4 := by
      intro x y hxy hx hy
      rw [N4] at hxy
      have hxl := lt_of_nodeNext hxy
      have hyl := hi.next_lt x y hxy
      rw [hold4 x hxl] at hx
      rw [hold4 y hyl] at hy
      rw [hal4 x hxl, hal4 y hyl]
      exact hi.ordered x y hxy hx hy
    have n1 : nodeNext h4 h.length = none := by
      rw [N4]; exact nodeNext_eq_none_of_le (le_refl _)
    have n2 : nodePrev h4 h.length = none := by
      rw [P4]; exact nodePrev_eq_none_of_le (le_refl _)
    -- the new node of ring `A`
    obtain ⟨cA, sA, spA, hcsA, stopA1, stopA2, reachA, Pt5, Al5, _, _⟩ :=
      InsertInOrder_sound hA5' hm4 n1 n2
    have hcsA0 : nodeNext h cA = some sA := by rw [← N4]; exact hcsA
    have hcAl := lt_of_nodeNext hcsA0
    have hsAl := hi.next_lt cA sA hcsA0
    have sidecA : ringSide nA n0 cA = true :=
      reachA (fun x => ringSide nA n0 x = true) hsa fun x y hx hxy => by
        rw [N4] at hxy
        show ringSide nA n0 y = true
        rw [hi.next_side x y hxy]
        exact hx
    have hm5 : MutualLinks h5 := spA.mutual hm4 hcsA n1 n2
    have ho5 : AlphaOrdered h5 := by
      refine spA.ordered ho4 Al5 (fun hc => ?_) (fun hs => ?_)
      · rcases stopA1 with e | ⟨_, hlt⟩
        · rw [e, hold4 a hal, ha] at hc
          cases hc
        · exact le_of_lt hlt
      · by_contra hh
        exact stopA2 ⟨hs, lt_of_not_le hh⟩
    have nl5 : ∀ x y, nodeNext h5 x = some y → y < h.length + 1 :=
      spA.next_lt hcsA (fun x y hxy => hi.next_lt x y (N4 ▸ hxy)) (by omega)
    have ns5 : ∀ x y, nodeNext h5 x = some y → ringSide nA n0 y = ringSide nA n0 x :=
      spA.next_side (ringSide nA n0) hcsA (fun x y hxy => hi.next_side x y (N4 ▸ hxy))
        (by rw [sideA, sidecA])
    obtain ⟨len5, N5, P5, Nb5, I5⟩ := spA
    have n1' : nodeNext h5 (h.length + 1) = none := by
      rw [N5, if_neg (by omega), if_neg (by omega), N4]
      exact nodeNext_eq_none_of_le (by omega)
    have n2' : nodePrev h5 (h.length + 1) = none := by
      rw [P5, if_neg (by omega), if_neg (by omega), P4]
      exact nodePrev_eq_none_of_le (by omega)
    -- the new node of ring `B`
    obtain ⟨cB, sB, spB, hcsB, stopB1, stopB2, reachB, Pt6, Al6, _, _⟩ :=
      InsertInOrder_sound hB6' hm5 n1' n2'
    have sidecB : ringSide nA n0 cB = false :=
      reachB (fun x => ringSide nA n0 x = false) hsb fun x y hx hxy => by
        show ringSide nA n0 y = false
        rw [ns5 x y hxy]
        exact hx
    have hm6 : MutualLinks g := spB.mutual hm5 hcsB n1' n2'
    have ho6 : AlphaOrdered g := by
      refine spB.ordered ho5 Al6 (fun hc => ?_) (fun hs => ?_)
      · rcases stopB1 with e | ⟨_, hlt⟩
        · rw [e, I5, hold4 b hbl, hb] at hc
          cases hc
        · exact le_of_lt hlt
      · by_contra hh
        exact stopB2 ⟨hs, lt_of_not_le hh⟩
    have nl6 : ∀ x y, nodeNext g x = some y → y < h.length + 1 + 1 :=
      spB.next_lt hcsB nl5 (by omega)
    have ns6 : ∀ x y, nodeNext g x = some y → ringSide nA n0 y = ringSide nA n0 x :=
      spB.next_side (ringSide nA n0) hcsB ns5 (by rw [sideB, sidecB])
    obtain ⟨len6, N6, P6, Nb6, I6⟩ := spB
    have hlen : g.length = h.length + 2 := by rw [len6, len5, len4]
    refine ⟨⟨hi.nA_le, by omega, by omega, fun x y hxy => ?_, ns6, hm6, ho6, ?_, ?_⟩, by omega,
      fun x hx => by rw [I6, I5, hold4 x hx]⟩
    · have := nl6 x y hxy
      omega
    · intro x hx
      rw [I6, I5] at hx
      rw [Nb6, Nb5, Pt6, Pt5, I6, I5]
      by_cases h1 : x = h.length
      · subst h1
        refine ⟨h.length + 1, ?_, ?_, ?_, ?_, ?_⟩
        · rw [Nb4, if_pos rfl]
        · rw [Nb4, if_neg (by omega), if_pos rfl]
        · rw [Pt4, Pt4, if_pos (Or.inr rfl), if_pos (Or.inl rfl)]
        · rw [I4, if_pos (Or.inr rfl)]
        · rw [sideA, sideB]
          simp
      · by_cases h2 : x = h.length + 1
        · subst h2
          refine ⟨h.length, ?_, ?_, ?_, ?_, ?_⟩
          · rw [Nb4, if_neg (by omega), if_pos rfl]
          · rw [Nb4, if_pos rfl]
          · rw [Pt4, Pt4, if_pos (Or.inr rfl), if_pos (Or.inl rfl)]
          · rw [I4, if_pos (Or.inl rfl)]
          · rw [sideA, sideB]
            simp
        · rw [I4, if_neg (by omega)] at hx
          obtain ⟨y, hy1, hy2, hy3, hy4, hy5⟩ := hi.nbr x hx
          have hyl := lt_of_nodeNeighbor hy2
          refine ⟨y, ?_, ?_, ?_, ?_, hy5⟩
          · rw [Nb4, if_neg h1, if_neg h2]
            exact hy1
          · rw [Nb4, if_neg (by omega), if_neg (by omega)]
            exact hy2
          · rw [Pt4, Pt4, if_neg (by omega), if_neg (by omega)]
            exact hy3
          · rw [I4, if_neg (by omega)]
            exact hy4
    · intro x hx
      rw [I6, I5, I4] at hx
      rw [Nb6, Nb5, Nb4]
      by_cases h1 : x = h.length ∨ x = h.length + 1
      · rw [if_pos h1] at hx
        cases hx
      · rw [if_neg h1] at hx
        rw [if_neg (by omega), if_neg (by omega)]
        exact hi.orig x hx

theorem FindIntersectionsInner_none (fi : Nat) (B a an : Option Nat) (fuel : Nat)
    (h : NodeHeap) : FindIntersectionsInner fi B a an fuel h none = none := by
  cases fuel <;> simp [FindIntersectionsInner, load]

theorem FindIntersectionsOuter_none (fi : Nat) (A B : Option Nat) (fuel : Nat)
    (h : NodeHeap) : FindIntersectionsOuter fi A B fuel h none = none := by
  cases fuel <;> simp [FindIntersectionsOuter, load]

/-- the inner loop of `FindIntersections`, when it returns, keeps the invariant -/
theorem FindIntersectionsInner_inv {nA n0 fi a : Nat} {B an : Option Nat}
    (hsa : ringSide nA n0 a = true) :
    ∀ (fuel : Nat) (h : NodeHeap) (b : Nat) (g : NodeHeap), CrossInv nA n0 h →
      isInt h a = false → a < h.length → ringSide nA n0 b = false →
      FindIntersectionsInner fi B (some a) an fuel h (some b) = some g →
      CrossInv nA n0 g ∧ h.length ≤ g.length ∧ ∀ x, x < h.length → isInt g x = isInt h x
  | 0, h, b, g, _, _, _, _, hrun => by simp [FindIntersectionsInner] at hrun
  | fuel + 1, h, b, g, hi, ha, hal, hsb, hrun => by
    rw [FindIntersectionsInner] at hrun
    obtain ⟨bv, hbv, hrun⟩ := Option.bind_eq_some.1 hrun
    obtain ⟨h1, hstep, hrun⟩ := Option.bind_eq_some.1 hrun
    have hbv' : h[b]? = some bv := hbv
    have hstep' : CrossInv nA n0 h1 ∧ h.length ≤ h1.length ∧
        ∀ x, x < h.length → isInt h1 x = isInt h x := by
      by_cases hint : bv.isIntersection = true
      · rw [if_pos hint] at hstep
        cases hstep
        exact ⟨hi, le_refl _, fun _ _ => rfl⟩
      · rw [if_neg hint] at hstep
        have hb : isInt h b = false := by
          rw [isInt_of_getElem? hbv']
          simpa using hint
        exact FindIntersectionsPair_inv hi ha hb hsa hsb hstep
    obtain ⟨hi1, hle1, hold1⟩ := hstep'
    by_cases hnb : bv.next ≠ B
    · rw [if_pos hnb] at hrun
      cases hbn : bv.next with
      | none =>
        rw [hbn, FindIntersectionsInner_none] at hrun
        cases hrun
      | some b' =>
        rw [hbn] at hrun
        have hnx : nodeNext h b = some b' := by rw [nodeNext_of_getElem? hbv', hbn]
        obtain ⟨hi2, hle2, hold2⟩ := FindIntersectionsInner_inv hsa fuel h1 b' g hi1
          (by rw [hold1 a hal]; exact ha) (by omega)
          (by rw [hi.next_side b b' hnx]; exact hsb) hrun
        exact ⟨hi2, by omega, fun x hx => by rw [hold2 x (by omega), hold1 x hx]⟩
    · rw [if_neg hnb] at hrun
      cases hrun
      exact ⟨hi1, hle1, hold1⟩

/-- the outer loop of `FindIntersections`, when it returns, keeps the invariant -/
theorem FindIntersectionsOuter_inv {nA n0 fi B : Nat} {A : Option Nat}
    (hsB : ringSide nA n0 B = false) :
    ∀ (fuel : Nat) (h : NodeHeap) (a : Nat) (g : NodeHeap), CrossInv nA n0 h →
      ringSide nA n0 a = true →
      FindIntersectionsOuter fi A (some B) fuel h (some a) = some g → CrossInv nA n0 g
  | 0, h, a, g, _, _, hrun => by simp [FindIntersectionsOuter] at hrun
  | fuel + 1, h, a, g, hi, hsa, hrun => by
    rw [FindIntersectionsOuter] at hrun
    obtain ⟨av, hav, hrun⟩ := Option.bind_eq_some.1 hrun
    obtain ⟨h1, hstep, hrun⟩ := Option.bind_eq_some.1 hrun
    have hav' : h[a]? = some av := hav
    have hi1 : CrossInv nA n0 h1 := by
      by_cases hint : av.isIntersection = true
      · rw [if_pos hint] at hstep
        cases hstep
        exact hi
      · rw [if_neg hint] at hstep
        have ha : isInt h a = false := by
          rw [isInt_of_getElem? hav']
          simpa using hint
        exact (FindIntersectionsInner_inv hsa fi h B h1 hi ha (getElem?_lt hav') hsB hstep).1
    by_cases hna : av.next ≠ A
    · rw [if_pos hna] at hrun
      cases han : av.next with
      | none =>
        rw [han, FindIntersectionsOuter_none] at hrun
        cases hrun
      | some a' =>
        rw [han] at hrun
        have hnx : nodeNext h a = some a' := by rw [nodeNext_of_getElem? hav', han]
        exact FindIntersectionsOuter_inv hsB fuel h1 a' g hi1
          (by rw [hi.next_side a a' hnx]; exact hsa) hrun
    · rw [if_neg hna] at hrun
      cases hrun
      exact hi1

/-- the two rings that `Compute` builds satisfy the invariant -/
theorem build_crossInv (Apts Bpts : List Point) (hA : Apts ≠ []) (hB : Bpts ≠ []) :
    ∃ g1 g, BuildPolygon [] Apts = some (g1, some 0) ∧
      BuildPolygon g1 Bpts = some (g, some Apts.length) ∧
      CrossInv Apts.length (Apts.length + Bpts.length) g := by
  obtain ⟨g1, e1, len1, N1, P1, Nb1, I1⟩ := BuildPolygon_spec [] Apts hA
  obtain ⟨g, e2, len2, N2, P2, Nb2, I2⟩ := BuildPolygon_spec g1 Bpts hB
  simp only [List.length_nil, Nat.zero_add, Nat.zero_le, true_and] at e1 len1 N1 P1
  rw [len1] at e2 len2 N2 P2
  have hkA : 0 < Apts.length := List.length_pos.2 hA
  have hkB : 0 < Bpts.length := List.length_pos.2 hB
  have hI : ∀ x, isInt g x = false := fun x => by
    rw [I2, I1]
    simp [isInt]
  have hNb : ∀ x, nodeNeighbor g x = none := fun x => by
    rw [Nb2, Nb1]
    simp [nodeNeighbor]
  have hnone1 : ∀ x, nodeNext ([] : NodeHeap) x = none := fun x => by simp [nodeNext]
  have hnone2 : ∀ x, nodePrev ([] : NodeHeap) x = none := fun x => by simp [nodePrev]
  have hN : ∀ x y, nodeNext g x = some y →
      (x < Apts.length ∧ y < Apts.length ∧ (y = x + 1 ∨ (x + 1 = Apts.length ∧ y = 0))) ∨
      (Apts.length ≤ x ∧ x < Apts.length + Bpts.length ∧ Apts.length ≤ y ∧
        y < Apts.length + Bpts.length ∧
        (y = x + 1 ∨ (x + 1 = Apts.length + Bpts.length ∧ y = Apts.length))) := by
    intro x y hxy
    rw [N2] at hxy
    by_cases h1 : Apts.length ≤ x ∧ x < Apts.length + Bpts.length
    · rw [if_pos h1] at hxy
      have e := Option.some.inj hxy
      right
      split_ifs at e <;> omega
    · rw [if_neg h1, N1] at hxy
      by_cases h2 : x < Apts.length
      · rw [if_pos h2] at hxy
        have e := Option.some.inj hxy
        left
        split_ifs at e <;> omega
      · rw [if_neg h2, hnone1] at hxy
        cases hxy
  have hP : ∀ x y, nodePrev g y = some x →
      (x < Apts.length ∧ y < Apts.length ∧ (y = x + 1 ∨ (x + 1 = Apts.length ∧ y = 0))) ∨
      (Apts.length ≤ x ∧ x < Apts.length + Bpts.length ∧ Apts.length ≤ y ∧
        y < Apts.length + Bpts.length ∧
        (y = x + 1 ∨ (x + 1 = Apts.length + Bpts.length ∧ y = Apts.length))) := by
    intro x y hxy
    rw [P2] at hxy
    by_cases h1 : Apts.length ≤ y ∧ y < Apts.length + Bpts.length
    · rw [if_pos h1] at hxy
      have e := Option.some.inj hxy
      right
      split_ifs at e <;> omega
    · rw [if_neg h1, P1] at hxy
      by_cases h2 : y < Apts.length
      · rw [if_pos h2] at hxy
        have e := Option.some.inj hxy
        left
        split_ifs at e <;> omega
      · rw [if_neg h2, hnone2] at hxy
        cases hxy
  refine ⟨g1, g, e1, e2, ⟨by omega, by omega, by rw [len2]; simp, fun x y hxy => ?_,
    fun x y hxy => ?_, ⟨fun x y hxy => ?_, fun x y hxy => ?_⟩, fun x y _ hx _ => ?_,
    fun x hx => ?_, fun x _ => hNb x⟩⟩
  · rw [len2]
    rcases hN x y hxy with h1 | h1 <;> omega
  · simp only [ringSide]
    rcases hN x y hxy with h1 | h1
    · rw [decide_eq_true (Or.inl h1.1), decide_eq_true (Or.inl h1.2.1)]
    · rw [decide_eq_false (by omega), decide_eq_false (by omega)]
  · rw [P2]
    rcases hN x y hxy with h1 | h1
    · rw [if_neg (by omega), P1, if_pos h1.2.1]
      congr 1
      split_ifs <;> omega
    · rw [if_pos ⟨h1.2.2.1, h1.2.2.2.1⟩]
      congr 1
      split_ifs <;> omega
  · rw [N2]
    rcases hP x y hxy with h1 | h1
    · rw [if_neg (by omega), N1, if_pos h1.1]
      congr 1
      split_ifs <;> omega
    · rw [if_pos ⟨h1.1, h1.2.1⟩]
      congr 1
      split_ifs <;> omega
  · rw [hI] at hx
    cases hx
  · rw [hI] at hx
    cases hx

/-- `FindIntersections` on the two rings that `Compute` builds: it returns for
every fuel from some number on, the result holds two rings, and the
invariant holds in it -/
theorem FindIntersections_crossInv (Apts Bpts : List Point) (hA : Apts ≠ []) (hB : Bpts ≠ []) :
    ∃ h1 h0 g LA LB N, BuildPolygon [] Apts = some (h1, some 0) ∧
      BuildPolygon h1 Bpts = some (h0, some Apts.length) ∧
      (∀ f, N ≤ f → FindIntersections f h0 (some 0) (some Apts.length) = some g) ∧
      TwoRings g 0 Apts.length LA LB ∧ CrossInv Apts.length (Apts.length + Bpts.length) g := by
  obtain ⟨h1, h0, e1, e2, hr, hflags⟩ := build_twoRings Apts Bpts hA hB
  obtain ⟨h1', h0', e1', e2', hi⟩ := build_crossInv Apts Bpts hA hB
  rw [e1] at e1'
  cases e1'
  rw [e2] at e2'
  cases e2'
  obtain ⟨g, LA, LB, hr1, N, hrun⟩ := FindIntersections_spec hr (fun x _ => hflags x)
  refine ⟨h1, h0, g, LA, LB, N, e1, e2, hrun, hr1, ?_⟩
  have hkA : 0 < Apts.length := List.length_pos.2 hA
  have hkB : 0 < Bpts.length := List.length_pos.2 hB
  have hsB : ringSide Apts.length (Apts.length + Bpts.length) Apts.length = false := by
    simp only [ringSide, decide_eq_false_iff_not]
    omega
  refine FindIntersectionsOuter_inv hsB N h0 0 g hi ?_ (hrun N (le_refl _))
  simp [ringSide, hkA]

theorem lt_of_nodePrev {h : NodeHeap} {a b : Nat} (hn : nodePrev h a = some b) :
    a < h.length := by
  obtain ⟨v, hv, _⟩ := nodePrev_eq_some.1 hn
  exact getElem?_lt hv

/-- the links are mutual when they are so at every cell of the heap -/
theorem MutualLinks.of_cell_links {h : NodeHeap}
    (hc : ∀ x, x < h.length → (∀ y ∈ nodeNext h x, nodePrev h y = some x) ∧
      (∀ z ∈ nodePrev h x, nodeNext h z = some x)) : MutualLinks h :=
  ⟨fun x y hxy => (hc x (lt_of_nodeNext hxy)).1 y hxy,
    fun x y hxy => (hc y (lt_of_nodePrev hxy)).2 x hxy⟩

/-- the alphas are in order when they are so at every cell of the heap -/
theorem AlphaOrdered.of_cell_order {h : NodeHeap}
    (hc : ∀ x, x < h.length → ∀ y ∈ nodeNext h x, isInt h x = true → isInt h y = true →
      nodeAlpha h x ≤ nodeAlpha h y) : AlphaOrdered h :=
  fun x y hxy => hc x (lt_of_nodeNext hxy) y hxy

/-- a call of `InsertInOrder` from a node of a ring that is no intersection
node, for a new node that is not linked yet: it returns, the new node is in
the ring, `next` and `prev` stay inverse to each other and the alphas stay in
order -/
theorem InsertInOrder_keeps_order {h : NodeHeap} {hd c n : Nat} {nv : Node}
    {pre suf : List Nat} (hc : IsCycle (nodeNext h) hd (pre ++ c :: suf))
    (hhd : isInt h hd = false) (hci : isInt h c = false) (hnv : h[n]? = some nv)
    (hn1 : nv.next = none) (hn2 : nv.prev = none) (hm : MutualLinks h) (ho : AlphaOrdered h) :
    ∃ g s1 s2, (∀ f, suf.length + 1 ≤ f → InsertInOrder f h (some c) (some n) = some g) ∧
      suf = s1 ++ s2 ∧ IsCycle (nodeNext g) hd (pre ++ c :: (s1 ++ n :: s2)) ∧
      MutualLinks g ∧ AlphaOrdered g := by
  have n1 : nodeNext h n = none := by rw [nodeNext_of_getElem? hnv, hn1]
  have n2 : nodePrev h n = none := by rw [nodePrev_of_getElem? hnv, hn2]
  have hn : n ∉ pre ++ c :: suf := by
    intro hmem
    obtain ⟨y, hy, _⟩ := hc.next_mem hmem
    rw [n1] at hy
    cases hy
  obtain ⟨s1, s2, g, es, _, hrun, hcyc, _⟩ := InsertInOrder_spec hc hhd hn hnv
  obtain ⟨curr, succ, hsp, hcs, stop1, stop2, _, _, hal, _, _⟩ :=
    InsertInOrder_sound (hrun _ (le_refl _)) hm n1 n2
  refine ⟨g, s1, s2, hrun, es, hcyc, hsp.mutual hm hcs n1 n2,
    hsp.ordered ho hal (fun hcI => ?_) (fun hsI => ?_)⟩
  · rcases stop1 with e | ⟨_, hlt⟩
    · rw [e, hci] at hcI
      cases hcI
    · exact le_of_lt hlt
  · by_contra hh
    exact stop2 ⟨hsI, lt_of_not_le hh⟩

/-- in a ring whose alphas are in order every run of intersection nodes is
sorted by `alpha` -/
theorem runs_sorted {g : NodeHeap} {hd : Nat} {L : List Nat}
    (hc : IsCycle (nodeNext g) hd L) (ho : AlphaOrdered g) (run : List Nat)
    (hrun : run <:+: L) (hint : ∀ x, x ∈ run → isInt g x = true) :
    run.Pairwise fun x y => nodeAlpha g x ≤ nodeAlpha g y := by
  obtain ⟨s, t, e⟩ := hrun
  have h0 := hc.2.2
  rw [← e] at h0
  have h1 : List.Chain' (fun a b => nodeNext g a = some b) run :=
    h0.left_of_append.left_of_append.right_of_append
  have h2 : List.Chain' (fun x y => nodeAlpha g x ≤ nodeAlpha g y) run := by
    rw [List.Chain'.iff_mem] at h1
    exact h1.imp fun a b hab => ho a b hab.2.2 (hint a hab.1) (hint b hab.2.1)
  haveI : IsTrans Nat (fun x y => nodeAlpha g x ≤ nodeAlpha g y) :=
    ⟨fun _ _ _ hab hbc => le_trans hab hbc⟩
  exact List.chain'_iff_pairwise.1 h2

theorem crossingAllocated_cycle :
    IsCycle (nodeNext crossingAllocated) 0 ([0] ++ 1 :: [2, 3]) := by
  refine ⟨by decide, rfl, ?_⟩
  show List.Chain' _ [0, 1, 2, 3, 0]
  simp only [List.chain'_cons, List.chain'_singleton, and_true]
  decide!

/-- C26. (1) A call of `InsertInOrder` from a node `c` of a ring that is no
intersection node (the only calls `FindIntersections` makes), for a new node
`n` that is not linked yet, on a heap where `next` and `prev` are inverse to
each other and the alphas of adjacent intersection nodes are in order: it
returns, the new node is in the ring after `c`, and both properties hold in
the heap it returns. (2) On the two rings that `Compute` builds from point
lists that are not empty `FindIntersections` returns, for every fuel from
some number on, a heap with two rings in which `next` and `prev` are inverse
to each other and every run of intersection nodes of a ring (so the nodes
between two consecutive original vertices) is in non-decreasing order of the
stored `alpha`. -/
theorem C26_insert_keeps_alpha_order :
    (∀ (h : NodeHeap) (hd c n : Nat) (nv : Node) (pre suf : List Nat),
      IsCycle (nodeNext h) hd (pre ++ c :: suf) → isInt h hd = false → isInt h c = false →
      h[n]? = some nv → nv.next = none → nv.prev = none → MutualLinks h → AlphaOrdered h →
      ∃ g s1 s2, (∀ f, suf.length + 1 ≤ f → InsertInOrder f h (some c) (some n) = some g) ∧
        suf = s1 ++ s2 ∧ IsCycle (nodeNext g) hd (pre ++ c :: (s1 ++ n :: s2)) ∧
        MutualLinks g ∧ AlphaOrdered g) ∧
    (∀ (Apts Bpts : List Point), Apts ≠ [] → Bpts ≠ [] →
      ∃ h1 h0 g LA LB N, BuildPolygon [] Apts = some (h1, some 0) ∧
        BuildPolygon h1 Bpts = some (h0, some Apts.length) ∧
        (∀ f, N ≤ f → FindIntersections f h0 (some 0) (some Apts.length) = some g) ∧
        TwoRings g 0 Apts.length LA LB ∧ MutualLinks g ∧
        ∀ run, (run <:+: LA ∨ run <:+: LB) → (∀ x, x ∈ run → isInt g x = true) →
          run.Pairwise fun x y => nodeAlpha g x ≤ nodeAlpha g y) := by
  refine ⟨fun h hd c n nv pre suf hc hhd hci hnv hn1 hn2 hm ho =>
    InsertInOrder_keeps_order hc hhd hci hnv hn1 hn2 hm ho, fun Apts Bpts hA hB => ?_⟩
  obtain ⟨h1, h0, g, LA, LB, N, e1, e2, hrun, hr, hi⟩ :=
    FindIntersections_crossInv Apts Bpts hA hB
  refine ⟨h1, h0, g, LA, LB, N, e1, e2, hrun, hr, hi.links, fun run hin hint => ?_⟩
  rcases hin with hin | hin
  · exact runs_sorted hr.cycA hi.ordered run hin hint
  · exact runs_sorted hr.cycB hi.ordered run hin hint

theorem C26_insert_keeps_alpha_order_witness :
    (IsCycle (nodeNext crossingAllocated) 0 ([0] ++ 1 :: [2, 3]) ∧
      isInt crossingAllocated 0 = false ∧ isInt crossingAllocated 1 = false ∧
      MutualLinks crossingAllocated ∧ AlphaOrdered crossingAllocated ∧
      ∃ g s1 s2, (∀ f, [2, 3].length + 1 ≤ f →
          InsertInOrder f crossingAllocated (some 1) (some 8) = some g) ∧
        [2, 3] = s1 ++ s2 ∧ IsCycle (nodeNext g) 0 ([0] ++ 1 :: (s1 ++ 8 :: s2)) ∧
        MutualLinks g ∧ AlphaOrdered g) ∧
    (crossingA ≠ [] ∧ crossingB ≠ [] ∧
      ∃ h1 h0 g LA LB N, BuildPolygon [] crossingA = some (h1, some 0) ∧
        BuildPolygon h1 crossingB = some (h0, some crossingA.length) ∧
        (∀ f, N ≤ f → FindIntersections f h0 (some 0) (some crossingA.length) = some g) ∧
        TwoRings g 0 crossingA.length LA LB ∧ MutualLinks g ∧
        ∀ run, (run <:+: LA ∨ run <:+: LB) → (∀ x, x ∈ run → isInt g x = true) →
          run.Pairwise fun x y => nodeAlpha g x ≤ nodeAlpha g y) :=
  ⟨⟨crossingAllocated_cycle, by decide!, by decide!, MutualLinks.of_cell_links (by decide!),
      AlphaOrdered.of_cell_order (by decide!),
      C26_insert_keeps_alpha_order.1 crossingAllocated 0 1 8
        { p := ⟨1, 1 / 2⟩, isIntersection := true, alpha := 1 / 2 } [0] [2, 3]
        crossingAllocated_cycle (by decide!) (by decide!) (by decide!) rfl rfl
        (MutualLinks.of_cell_links (by decide!)) (AlphaOrdered.of_cell_order (by decide!))⟩,
    ⟨by decide, by decide, C26_insert_keeps_alpha_order.2 crossingA crossingB (by decide)
      (by decide)⟩⟩

/-- the cells of a cycle of `next` are all on the side of its head -/
theorem IsCycle.side_eq {g : NodeHeap} {hd : Nat} {L : List Nat} (s : Nat → Bool)
    (hc : IsCycle (nodeNext g) hd L) (hs : ∀ x y, nodeNext g x = some y → s y = s x) :
    ∀ x, x ∈ L → s x = s hd := by
  have key : ∀ (l : List Nat) (a : Nat), List.Chain (fun a b => nodeNext g a = some b) a l →
      ∀ x, x ∈ l → s x = s a := by
    intro l
    induction l with
    | nil => intro a _ x hx; cases hx
    | cons b l ih =>
      intro a hch x hx
      rw [List.chain_cons] at hch
      rcases List.mem_cons.1 hx with rfl | hx
      · exact hs a x hch.1
      · rw [ih b hch.2 x hx]
        exact hs a b hch.1
  have e := hc.eq_cons
  have hch := hc.2.2
  rw [e] at hch
  intro x hx
  rw [e] at hx
  rcases List.mem_cons.1 hx with rfl | hx
  · rfl
  · exact key _ hd hch x (List.mem_append_left _ hx)

/-- if `neighbor` maps the intersection nodes of `LA` to intersection nodes
of `LB` and back, `LB` has at least as many of them -/
theorem countP_le_of_neighbor {g : NodeHeap} {LA LB : List Nat} (hnd : LA.Nodup)
    (hAB : ∀ x, x ∈ LA → isInt g x = true → ∃ y, y ∈ LB ∧ nodeNeighbor g x = some y ∧
      nodeNeighbor g y = some x ∧ nodePoint g y = nodePoint g x ∧ isInt g y = true) :
    LA.countP (isInt g) ≤ LB.countP (isInt g) := by
  rw [List.countP_eq_length_filter, List.countP_eq_length_filter]
  have hnd1 : ((LA.filter (isInt g)).map fun x => (nodeNeighbor g x).getD 0).Nodup := by
    refine List.Nodup.map_on (fun x hx y hy hxy => ?_) (hnd.filter _)
    rw [List.mem_filter] at hx hy
    obtain ⟨x', _, hx1, hx2, _⟩ := hAB x hx.1 hx.2
    obtain ⟨y', _, hy1, hy2, _⟩ := hAB y hy.1 hy.2
    simp only [hx1, hy1, Option.getD_some] at hxy
    rw [hxy, hy2] at hx2
    exact (Option.some.inj hx2).symm
  have hsub : ((LA.filter (isInt g)).map fun x => (nodeNeighbor g x).getD 0) ⊆
      LB.filter (isInt g) := by
    intro y hy
    rw [List.mem_map] at hy
    obtain ⟨x, hx, rfl⟩ := hy
    rw [List.mem_filter] at hx
    obtain ⟨y', hy', hx1, _, _, hyi⟩ := hAB x hx.1 hx.2
    simp only [hx1, Option.getD_some]
    exact List.mem_filter.2 ⟨hy', hyi⟩
  have := (List.subperm_of_subset hnd1 hsub).length_le
  simpa using this

/-- C28. On the two rings that `Compute` builds from point lists that are not
empty `FindIntersections(A, B)` returns, for every fuel from some number on,
a heap with two rings `LA` and `LB` in which: every intersection node of a
ring has a `neighbor` on the other ring, whose `neighbor` is the node itself
and whose point is the point of the node; every node that is no intersection
node has no `neighbor`; and the two rings hold the same number of
intersection nodes. -/
theorem C28_neighbors_are_mutual (Apts Bpts : List Point) (hA : Apts ≠ []) (hB : Bpts ≠ []) :
    ∃ h1 h0 g LA LB N, BuildPolygon [] Apts = some (h1, some 0) ∧
      BuildPolygon h1 Bpts = some (h0, some Apts.length) ∧
      (∀ f, N ≤ f → FindIntersections f h0 (some 0) (some Apts.length) = some g) ∧
      TwoRings g 0 Apts.length LA LB ∧
      (∀ x, x ∈ LA → isInt g x = true → ∃ y, y ∈ LB ∧ nodeNeighbor g x = some y ∧
        nodeNeighbor g y = some x ∧ nodePoint g y = nodePoint g x ∧ isInt g y = true) ∧
      (∀ x, x ∈ LB → isInt g x = true → ∃ y, y ∈ LA ∧ nodeNeighbor g x = some y ∧
        nodeNeighbor g y = some x ∧ nodePoint g y = nodePoint g x ∧ isInt g y = true) ∧
      (∀ x, isInt g x = false → nodeNeighbor g x = none) ∧
      LA.countP (isInt g) = LB.countP (isInt g) := by
  obtain ⟨h1, h0, g, LA, LB, N, e1, e2, hrun, hr, hi⟩ :=
    FindIntersections_crossInv Apts Bpts hA hB
  have hkA : 0 < Apts.length := List.length_pos.2 hA
  have hkB : 0 < Bpts.length := List.length_pos.2 hB
  have hsA : ringSide Apts.length (Apts.length + Bpts.length) 0 = true := by
    simp [ringSide, hkA]
  have hsB : ringSide Apts.length (Apts.length + Bpts.length) Apts.length = false := by
    simp only [ringSide, decide_eq_false_iff_not]
    omega
  have sideA := hr.cycA.side_eq (ringSide Apts.length (Apts.length + Bpts.length)) hi.next_side
  have sideB := hr.cycB.side_eq (ringSide Apts.length (Apts.length + Bpts.length)) hi.next_side
  have hAB : ∀ x, x ∈ LA → isInt g x = true → ∃ y, y ∈ LB ∧ nodeNeighbor g x = some y ∧
      nodeNeighbor g y = some x ∧ nodePoint g y = nodePoint g x ∧ isInt g y = true := by
    intro x hx hxi
    obtain ⟨y, hy1, hy2, hy3, hy4, hy5⟩ := hi.nbr x hxi
    refine ⟨y, ?_, hy1, hy2, hy3, hy4⟩
    rcases hr.cover y (lt_of_nodeNeighbor hy2) with hy | hy
    · rw [sideA x hx, sideA y hy] at hy5
      exact absurd rfl hy5
    · exact hy
  have hBA : ∀ x, x ∈ LB → isInt g x = true → ∃ y, y ∈ LA ∧ nodeNeighbor g x = some y ∧
      nodeNeighbor g y = some x ∧ nodePoint g y = nodePoint g x ∧ isInt g y = true := by
    intro x hx hxi
    obtain ⟨y, hy1, hy2, hy3, hy4, hy5⟩ := hi.nbr x hxi
    refine ⟨y, ?_, hy1, hy2, hy3, hy4⟩
    rcases hr.cover y (lt_of_nodeNeighbor hy2) with hy | hy
    · exact hy
    · rw [sideB x hx, sideB y hy] at hy5
      exact absurd rfl hy5
  exact ⟨h1, h0, g, LA, LB, N, e1, e2, hrun, hr, hAB, hBA, hi.orig,
    le_antisymm (countP_le_of_neighbor hr.cycA.1 hAB) (countP_le_of_neighbor hr.cycB.1 hBA)⟩

theorem C28_neighbors_are_mutual_witness :
    crossingA ≠ [] ∧ crossingB ≠ [] ∧
    (∃ h1 h0 g LA LB N, BuildPolygon [] crossingA = some (h1, some 0) ∧
      BuildPolygon h1 crossingB = some (h0, some crossingA.length) ∧
      (∀ f, N ≤ f → FindIntersections f h0 (some 0) (some crossingA.length) = some g) ∧
      TwoRings g 0 crossingA.length LA LB ∧
      (∀ x, x ∈ LA → isInt g x = true → ∃ y, y ∈ LB ∧ nodeNeighbor g x = some y ∧
        nodeNeighbor g y = some x ∧ nodePoint g y = nodePoint g x ∧ isInt g y = true) ∧
      (∀ x, x ∈ LB → isInt g x = true → ∃ y, y ∈ LA ∧ nodeNeighbor g x = some y ∧
        nodeNeighbor g y = some x ∧ nodePoint g y = nodePoint g x ∧ isInt g y = true) ∧
      (∀ x, isInt g x = false → nodeNeighbor g x = none) ∧
      LA.countP (isInt g) = LB.countP (isInt g)) ∧
    ComputeCrossed 6 crossingA crossingB = some (crossingCrossed, some 0, some 4) ∧
    ringCells crossingCrossed 0 12 0 = [0, 1, 8, 2, 10, 3] ∧
    ringCells crossingCrossed 4 12 4 = [4, 9, 5, 6, 7, 11] ∧
    (List.range 12).map (nodeNeighbor crossingCrossed) =
      [none, none, none, none, none, none, none, none, some 9, some 8, some 11, some 10] :=
  ⟨by decide, by decide, C28_neighbors_are_mutual crossingA crossingB (by decide) (by decide),
    by decide!, by decide!, by decide!, by decide!⟩

end PolygonUtilityExtension

end GeometryCore
/-! ### The three segment intersection routines -/

section SegmentTheorems

theorem abs_ne_zero_of_not_lt {d e : ℚ} (he : 0 < e) (h : ¬ |d| < e) : d ≠ 0 := by
  intro hd
  rw [hd, abs_zero] at h
  exact h he

theorem EPSILON_pos : (0 : ℚ) < PolygonBoolean.EPSILON := by
  unfold PolygonBoolean.EPSILON; norm_num

/-- the parameters and the point returned by
`PolygonUtilityExtension::SegmentIntersect` solve the parametric equation,
strictly inside both segments -/
theorem ghSegmentIntersect_sound {p1 p2 q1 q2 ip : GeometryCore.Point} {aP aQ : ℚ}
    (h : GeometryCore.PolygonUtilityExtension.SegmentIntersect p1 p2 q1 q2 = some (ip, aP, aQ)) :
    ip.x = p1.x + aP * (p2.x - p1.x) ∧ ip.y = p1.y + aP * (p2.y - p1.y) ∧
      ip.x = q1.x + aQ * (q2.x - q1.x) ∧ ip.y = q1.y + aQ * (q2.y - q1.y) ∧
      0 < aP ∧ aP < 1 ∧ 0 < aQ ∧ aQ < 1 := by
  unfold GeometryCore.PolygonUtilityExtension.SegmentIntersect at h
  simp only at h
  split_ifs at h with hdet hin
  simp only [Option.some.injEq, Prod.mk.injEq] at h
  obtain ⟨rfl, rfl, rfl⟩ := h
  have hd := abs_ne_zero_of_not_lt eps9_pos hdet
  have e := eps9_pos
  refine ⟨rfl, rfl, ?_, ?_, by linarith [hin.1], by linarith [hin.2.1], by linarith [hin.2.2.1],
    by linarith [hin.2.2.2]⟩
  · simp only
    field_simp
    ring
  · simp only
    field_simp
    ring

/-- the parameters and the point returned by `Polygon::lineSegmentIntersection`
solve the parametric equation -/
theorem lineSegmentIntersection_sound {p1 p2 q1 q2 i : PolygonBoolean.Point} {t1 t2 : ℚ}
    (h : PolygonBoolean.Polygon.lineSegmentIntersection p1 p2 q1 q2 = some (i, t1, t2)) :
    i.x = p1.x + t1 * (p2.x - p1.x) ∧ i.y = p1.y + t1 * (p2.y - p1.y) ∧
      i.x = q1.x + t2 * (q2.x - q1.x) ∧ i.y = q1.y + t2 * (q2.y - q1.y) := by
  unfold PolygonBoolean.Polygon.lineSegmentIntersection at h
  simp only at h
  split_ifs at h with hz hout
  simp only [Option.some.injEq, Prod.mk.injEq] at h
  obtain ⟨rfl, rfl, rfl⟩ := h
  have hz1 : ¬ |(p2.sub p1).cross (q2.sub q1)| < PolygonBoolean.EPSILON := by
    intro hc
    exact hz (by simp [PolygonBoolean.isZero, hc])
  have hd := abs_ne_zero_of_not_lt EPSILON_pos hz1
  simp only [PolygonBoolean.Point.cross, PolygonBoolean.Point.sub] at hd
  refine ⟨rfl, rfl, ?_, ?_⟩
  · simp only [PolygonBoolean.Point.cross, PolygonBoolean.Point.sub]
    field_simp
    ring
  · simp only [PolygonBoolean.Point.cross, PolygonBoolean.Point.sub]
    field_simp
    ring

/-- C24. Whenever `PolygonUtilityExtension::SegmentIntersect(p1, p2, q1, q2)`
returns true, the returned values satisfy `ip = p1 + aP * (p2 - p1) = q1 + aQ *
(q2 - q1)` with `0 < aP < 1` and `0 < aQ < 1`; whenever
`Polygon::lineSegmentIntersection` returns true, the returned values satisfy
`intersection = p1 + t1 * (p2 - p1) = q1 + t2 * (q2 - q1)`. -/
theorem C24_parametric_solution :
    (∀ (p1 p2 q1 q2 ip : GeometryCore.Point) (aP aQ : ℚ),
      GeometryCore.PolygonUtilityExtension.SegmentIntersect p1 p2 q1 q2 = some (ip, aP, aQ) →
      ip.x = p1.x + aP * (p2.x - p1.x) ∧ ip.y = p1.y + aP * (p2.y - p1.y) ∧
        ip.x = q1.x + aQ * (q2.x - q1.x) ∧ ip.y = q1.y + aQ * (q2.y - q1.y) ∧
        0 < aP ∧ aP < 1 ∧ 0 < aQ ∧ aQ < 1) ∧
    (∀ (p1 p2 q1 q2 i : PolygonBoolean.Point) (t1 t2 : ℚ),
      PolygonBoolean.Polygon.lineSegmentIntersection p1 p2 q1 q2 = some (i, t1, t2) →
      i.x = p1.x + t1 * (p2.x - p1.x) ∧ i.y = p1.y + t1 * (p2.y - p1.y) ∧
        i.x = q1.x + t2 * (q2.x - q1.x) ∧ i.y = q1.y + t2 * (q2.y - q1.y)) :=
  ⟨fun _ _ _ _ _ _ _ h => ghSegmentIntersect_sound h,
    fun _ _ _ _ _ _ _ h => lineSegmentIntersection_sound h⟩

theorem C24_parametric_solution_witness :
    ((⟨1, 1⟩ : GeometryCore.Point).x = (0 : ℚ) + 1 / 2 * (2 - 0) ∧
      (⟨1, 1⟩ : GeometryCore.Point).y = (0 : ℚ) + 1 / 2 * (2 - 0) ∧
      (⟨1, 1⟩ : GeometryCore.Point).x = (0 : ℚ) + 1 / 2 * (2 - 0) ∧
      (⟨1, 1⟩ : GeometryCore.Point).y = (2 : ℚ) + 1 / 2 * (0 - 2) ∧
      (0 : ℚ) < 1 / 2 ∧ (1 / 2 : ℚ) < 1 ∧ (0 : ℚ) < 1 / 2 ∧ (1 / 2 : ℚ) < 1) ∧
    ((⟨2, 2⟩ : PolygonBoolean.Point).x = (0 : ℚ) + 1 * (2 - 0) ∧
      (⟨2, 2⟩ : PolygonBoolean.Point).y = (0 : ℚ) + 1 * (2 - 0) ∧
      (⟨2, 2⟩ : PolygonBoolean.Point).x = (2 : ℚ) + 0 * (3 - 2) ∧
      (⟨2, 2⟩ : PolygonBoolean.Point).y = (2 : ℚ) + 0 * (0 - 2)) :=
  ⟨C24_parametric_solution.1 ⟨0, 0⟩ ⟨2, 2⟩ ⟨0, 2⟩ ⟨2, 0⟩ ⟨1, 1⟩ (1 / 2) (1 / 2) (by decide!),
    C24_parametric_solution.2 ⟨0, 0⟩ ⟨2, 2⟩ ⟨2, 2⟩ ⟨3, 0⟩ ⟨2, 2⟩ 1 0 (by decide!)⟩

/-- C25. Each of the three segment intersection routines returns false when the
determinant of the two directions is below its epsilon in absolute value
(`1e-10` in `Polygon::lineSegmentIntersection`, `1e-9` in the two
`SegmentIntersect`), in particular for a segment of length zero, and every
division it performs has a divisor that is not zero. -/
theorem C25_degenerate_segments :
    (∀ p1 p2 q1 q2 : PolygonBoolean.Point,
      (|(p2.sub p1).cross (q2.sub q1)| < PolygonBoolean.EPSILON →
        PolygonBoolean.Polygon.lineSegmentIntersection p1 p2 q1 q2 = none) ∧
      PolygonBoolean.Polygon.lineSegmentIntersection p1 p1 q1 q2 = none ∧
      PolygonBoolean.Polygon.lineSegmentIntersection p1 p2 q1 q1 = none ∧
      ∀ d, d ∈ PolygonBoolean.Polygon.lineSegmentIntersectionDivisors p1 p2 q1 q2 → d ≠ 0) ∧
    (∀ p1 p2 q1 q2 : GeometryCore.Point,
      (|(p2.x - p1.x) * (q2.y - q1.y) - (p2.y - p1.y) * (q2.x - q1.x)| < GeometryCore.eps9 →
        GeometryCore.PolygonUtilityExtension.SegmentIntersect p1 p2 q1 q2 = none) ∧
      GeometryCore.PolygonUtilityExtension.SegmentIntersect p1 p1 q1 q2 = none ∧
      GeometryCore.PolygonUtilityExtension.SegmentIntersect p1 p2 q1 q1 = none ∧
      ∀ d, d ∈ GeometryCore.PolygonUtilityExtension.SegmentIntersectDivisors p1 p2 q1 q2 →
        d ≠ 0) ∧
    (∀ p1 p2 q1 q2 ip : GeometryCore.Point,
      (|(p2.y - p1.y) * (q1.x - q2.x) - (q2.y - q1.y) * (p1.x - p2.x)| < GeometryCore.eps9 →
        (GeometryCore.Polygonutility.SegmentIntersect p1 p2 q1 q2 ip).1 = false) ∧
      (GeometryCore.Polygonutility.SegmentIntersect p1 p1 q1 q2 ip).1 = false ∧
      (GeometryCore.Polygonutility.SegmentIntersect p1 p2 q1 q1 ip).1 = false ∧
      ∀ d, d ∈ GeometryCore.Polygonutility.SegmentIntersectDivisors p1 p2 q1 q2 → d ≠ 0) := by
  have e9 := eps9_pos
  have e10 := EPSILON_pos
  refine ⟨fun p1 p2 q1 q2 => ?_, fun p1 p2 q1 q2 => ?_, fun p1 p2 q1 q2 ip => ?_⟩
  · have key : ∀ a b c d : PolygonBoolean.Point,
        |(b.sub a).cross (d.sub c)| < PolygonBoolean.EPSILON →
        PolygonBoolean.Polygon.lineSegmentIntersection a b c d = none := by
      intro a b c d hlt
      unfold PolygonBoolean.Polygon.lineSegmentIntersection
      simp only
      rw [if_pos (by simp [PolygonBoolean.isZero, hlt])]
    refine ⟨key p1 p2 q1 q2, key p1 p1 q1 q2 ?_, key p1 p2 q1 q1 ?_, ?_⟩
    · simp [PolygonBoolean.Point.cross, PolygonBoolean.Point.sub, e10]
    · simp [PolygonBoolean.Point.cross, PolygonBoolean.Point.sub, e10]
    · intro d hd
      unfold PolygonBoolean.Polygon.lineSegmentIntersectionDivisors at hd
      simp only at hd
      split_ifs at hd with hz
      · simp at hd
      · have hz1 : ¬ |(p2.sub p1).cross (q2.sub q1)| < PolygonBoolean.EPSILON := by
          intro hc
          exact hz (by simp [PolygonBoolean.isZero, hc])
        have := abs_ne_zero_of_not_lt e10 hz1
        simp only [List.mem_cons, List.mem_singleton, or_self, List.not_mem_nil, or_false] at hd
        rw [hd]
        exact this
  · have key : ∀ a b c d : GeometryCore.Point,
        |(b.x - a.x) * (d.y - c.y) - (b.y - a.y) * (d.x - c.x)| < GeometryCore.eps9 →
        GeometryCore.PolygonUtilityExtension.SegmentIntersect a b c d = none := by
      intro a b c d hlt
      unfold GeometryCore.PolygonUtilityExtension.SegmentIntersect
      simp only
      rw [if_pos hlt]
    refine ⟨key p1 p2 q1 q2, key p1 p1 q1 q2 ?_, key p1 p2 q1 q1 ?_, ?_⟩
    · simp [e9]
    · simp [e9]
    · intro d hd
      unfold GeometryCore.PolygonUtilityExtension.SegmentIntersectDivisors at hd
      simp only at hd
      split_ifs at hd with hz
      · simp at hd
      · have := abs_ne_zero_of_not_lt e9 hz
        simp only [List.mem_cons, List.mem_singleton, or_self, List.not_mem_nil, or_false] at hd
        rw [hd]
        exact this
  · have key : ∀ a b c d : GeometryCore.Point,
        |(b.y - a.y) * (c.x - d.x) - (d.y - c.y) * (a.x - b.x)| < GeometryCore.eps9 →
        (GeometryCore.Polygonutility.SegmentIntersect a b c d ip).1 = false := by
      intro a b c d hlt
      unfold GeometryCore.Polygonutility.SegmentIntersect
      simp only
      rw [if_pos hlt]
    refine ⟨key p1 p2 q1 q2, key p1 p1 q1 q2 ?_, key p1 p2 q1 q1 ?_, ?_⟩
    · simp [e9]
    · simp [e9]
    · intro d hd
      unfold GeometryCore.Polygonutility.SegmentIntersectDivisors at hd
      simp only at hd
      split_ifs at hd with hz
      · simp at hd
      · have := abs_ne_zero_of_not_lt e9 hz
        simp only [List.mem_cons, List.mem_singleton, or_self, List.not_mem_nil, or_false] at hd
        rw [hd]
        exact this

theorem C25_degenerate_segments_witness :
    PolygonBoolean.Polygon.lineSegmentIntersection ⟨0, 0⟩ ⟨1, 1⟩ ⟨0, 1⟩ ⟨2, 3⟩ = none ∧
      GeometryCore.PolygonUtilityExtension.SegmentIntersect ⟨0, 0⟩ ⟨1, 1⟩ ⟨0, 1⟩ ⟨2, 3⟩ = none ∧
      (GeometryCore.Polygonutility.SegmentIntersect ⟨0, 0⟩ ⟨1, 1⟩ ⟨0, 1⟩ ⟨2, 3⟩ ⟨7, 7⟩).1 = false ∧
      (2 : ℚ) ≠ 0 :=
  ⟨(C25_degenerate_segments.1 ⟨0, 0⟩ ⟨1, 1⟩ ⟨0, 1⟩ ⟨2, 3⟩).1 (by decide!),
    (C25_degenerate_segments.2.1 ⟨0, 0⟩ ⟨1, 1⟩ ⟨0, 1⟩ ⟨2, 3⟩).1 (by decide!),
    (C25_degenerate_segments.2.2 ⟨0, 0⟩ ⟨1, 1⟩ ⟨0, 1⟩ ⟨2, 3⟩ ⟨7, 7⟩).1 (by decide!),
    (C25_degenerate_segments.2.1 ⟨0, 0⟩ ⟨2, 0⟩ ⟨0, 0⟩ ⟨0, 1⟩).2.2.2 2 (by decide!)⟩

end SegmentTheorems

/-! ### The ray casting tests and `EnsureCCW` -/

section RayCastingTheorems

open GeometryCore

theorem PointInRingDivisors_fold (p : Point) (v : List Point) :
    ∀ (l : List Nat) (st : List ℚ × Nat), (∀ d ∈ st.1, d ≠ 0) →
      ∀ d ∈ (l.foldl (Polygonutility.PointInRingDivisorsStep p v) st).1, d ≠ 0 := by
  intro l
  induction l with
  | nil => intro st h; simpa using h
  | cons i t ih =>
    intro st h
    rw [List.foldl_cons]
    apply ih
    unfold Polygonutility.PointInRingDivisorsStep
    simp only
    split
    · next hne =>
      intro d hd
      rcases List.mem_append.1 hd with hd | hd
      · exact h d hd
      · rw [List.mem_singleton] at hd
        subst hd
        intro e
        have e' : (vget v st.2).y = (vget v i).y := by linarith
        rw [e'] at hne
        simp at hne
    · exact h

theorem PointInsidePolygonDivisors_fold (poly : List Point) (p : Point) :
    ∀ (l : List Nat) (st : List ℚ × Nat), (∀ d ∈ st.1, d ≠ 0) →
      ∀ d ∈ (l.foldl (PolygonUtilityExtension.PointInsidePolygonDivisorsStep poly p) st).1,
        d ≠ 0 := by
  intro l
  induction l with
  | nil => intro st h; simpa using h
  | cons i t ih =>
    intro st h
    rw [List.foldl_cons]
    apply ih
    unfold PolygonUtilityExtension.PointInsidePolygonDivisorsStep
    simp only
    split
    · next hne =>
      intro d hd
      rcases List.mem_append.1 hd with hd | hd
      · exact h d hd
      · rw [List.mem_singleton] at hd
        subst hd
        intro e
        have e' : (vget poly st.2).y = (vget poly i).y := by linarith
        rw [e'] at hne
        simp at hne
    · exact h

/-- C39. For every ring and every point, every division that `PointInRing`
evaluates and every division that `PointInsidePolygon` evaluates has a divisor
different from zero: the division by `b.y - a.y` is reached only when exactly
one of `a.y > p.y` and `b.y > p.y` holds. -/
theorem C39_ray_casting_divisors_nonzero :
    (∀ (p : Point) (r : Ring), ∀ d ∈ Polygonutility.PointInRingDivisors p r, d ≠ 0) ∧
    (∀ (poly : List Point) (p : Point),
      ∀ d ∈ PolygonUtilityExtension.PointInsidePolygonDivisors poly p, d ≠ 0) := by
  constructor
  · intro p r
    exact PointInRingDivisors_fold p r.vertices _ _ (by simp)
  · intro poly p
    unfold PolygonUtilityExtension.PointInsidePolygonDivisors
    split
    · simp
    · exact PointInsidePolygonDivisors_fold poly p _ _ (by simp)

theorem PointInsidePolygonStep_eq (v : List Point) (p : Point) :
    PolygonUtilityExtension.PointInsidePolygonStep v p = Polygonutility.PointInRingStep p v := by
  funext st i
  unfold PolygonUtilityExtension.PointInsidePolygonStep Polygonutility.PointInRingStep
  rfl

/-- the two ray casting tests of `GeometryCore` agree -/
theorem PointInRing_eq_PointInsidePolygon (v : List Point) (p : Point) :
    Polygonutility.PointInRing p ⟨v⟩ = PolygonUtilityExtension.PointInsidePolygon v p := by
  unfold Polygonutility.PointInRing PolygonUtilityExtension.PointInsidePolygon
  by_cases hv : v = []
  · subst hv
    simp
  · rw [if_neg hv, PointInsidePolygonStep_eq]

theorem getD_reverse_lt {α : Type} (d : α) (l : List α) (i : Nat) (hi : i < l.length) :
    l.reverse.getD i d = l.getD (l.length - 1 - i) d := by
  rw [List.getD_eq_getElem?_getD, List.getD_eq_getElem?_getD, List.getElem?_reverse hi]

/-- the sum of a function of the cyclically adjacent pairs of a list, over the
reversed list: every pair comes up turned round -/
theorem cyclic_sum_reverse {α : Type} (d : α) (g : α → α → ℚ) (l : List α) :
    ∑ i in Finset.range l.length,
        g (l.reverse.getD i d) (l.reverse.getD ((i + 1) % l.length) d) =
      ∑ i in Finset.range l.length, g (l.getD ((i + 1) % l.length) d) (l.getD i d) := by
  cases hn : l.length with
  | zero => simp
  | succ m =>
    rw [Finset.sum_range_succ, Finset.sum_range_succ, Nat.mod_self]
    have hlast : l.reverse.getD m d = l.getD 0 d := by
      rw [getD_reverse_lt d l m (by omega), hn]
      congr 1
      omega
    have hfirst : l.reverse.getD 0 d = l.getD m d := by
      rw [getD_reverse_lt d l 0 (by omega), hn]
      congr 1
    rw [hlast, hfirst]
    congr 1
    rw [← Finset.sum_range_reflect (fun j => g (l.getD ((j + 1) % (m + 1)) d) (l.getD j d)) m]
    apply Finset.sum_congr rfl
    intro i hi
    have hi' : i < m := by simpa using hi
    rw [Nat.mod_eq_of_lt (by omega : i + 1 < m + 1),
      Nat.mod_eq_of_lt (by omega : m - 1 - i + 1 < m + 1),
      getD_reverse_lt d l i (by omega), getD_reverse_lt d l (i + 1) (by omega), hn]
    congr 2 <;> omega

theorem EnsureCCWArea_eq_sum (pts : List Point) :
    PolygonUtilityExtension.EnsureCCWArea pts =
      ∑ i in Finset.range pts.length,
        ((vget pts i).x * (vget pts ((i + 1) % pts.length)).y -
          (vget pts ((i + 1) % pts.length)).x * (vget pts i).y) := by
  unfold PolygonUtilityExtension.EnsureCCWArea
  rw [foldl_add_eq_sum, sum_range_eq_finset, zero_add]

/-- the shoelace sum of the reversed list is the negative of the shoelace sum -/
theorem EnsureCCWArea_reverse (pts : List Point) :
    PolygonUtilityExtension.EnsureCCWArea pts.reverse =
      -PolygonUtilityExtension.EnsureCCWArea pts := by
  rw [EnsureCCWArea_eq_sum, EnsureCCWArea_eq_sum, List.length_reverse]
  unfold vget
  rw [cyclic_sum_reverse ⟨0, 0⟩ (fun a b => a.x * b.y - b.x * a.y) pts, ← Finset.sum_neg_distrib]
  apply Finset.sum_congr rfl
  intro i _
  ring

/-- the shoelace sum of a list of fewer than three points is zero -/
theorem EnsureCCWArea_short (pts : List Point) (h : pts.length < 3) :
    PolygonUtilityExtension.EnsureCCWArea pts = 0 := by
  rw [EnsureCCWArea_eq_sum]
  match pts, h with
  | [], _ => simp
  | [a], _ => simp [vget]
  | [a, b], _ =>
    simp [vget, Finset.sum_range_succ]
    ring

/-- over exact arithmetic, for every point list `pts`: the shoelace sum of
`EnsureCCW(pts)` is not negative; `EnsureCCW(pts)` is `pts` or the reversal of
`pts`; and `EnsureCCW` applied to `EnsureCCW(pts)` changes nothing -/
theorem EnsureCCW_exact (pts : List Point) :
    0 ≤ PolygonUtilityExtension.EnsureCCWArea (PolygonUtilityExtension.EnsureCCW pts) ∧
    (PolygonUtilityExtension.EnsureCCW pts = pts ∨
      PolygonUtilityExtension.EnsureCCW pts = pts.reverse) ∧
    PolygonUtilityExtension.EnsureCCW (PolygonUtilityExtension.EnsureCCW pts) =
      PolygonUtilityExtension.EnsureCCW pts := by
  by_cases h3 : pts.length < 3
  · have e : PolygonUtilityExtension.EnsureCCW pts = pts := by
      unfold PolygonUtilityExtension.EnsureCCW
      rw [if_pos h3]
    rw [e, e]
    exact ⟨le_of_eq (EnsureCCWArea_short pts h3).symm, Or.inl rfl, rfl⟩
  · by_cases hneg : PolygonUtilityExtension.EnsureCCWArea pts < 0
    · have e : PolygonUtilityExtension.EnsureCCW pts = pts.reverse := by
        unfold PolygonUtilityExtension.EnsureCCW
        rw [if_neg h3, if_pos hneg]
      have hpos : ¬ PolygonUtilityExtension.EnsureCCWArea pts.reverse < 0 := by
        rw [EnsureCCWArea_reverse]
        linarith
      have e2 : PolygonUtilityExtension.EnsureCCW pts.reverse = pts.reverse := by
        unfold PolygonUtilityExtension.EnsureCCW
        rw [List.length_reverse, if_neg h3, if_neg hpos]
      rw [e, e2]
      exact ⟨le_of_not_lt hpos, Or.inr rfl, rfl⟩
    · have e : PolygonUtilityExtension.EnsureCCW pts = pts := by
        unfold PolygonUtilityExtension.EnsureCCW
        rw [if_neg h3, if_neg hneg]
      rw [e, e]
      exact ⟨le_of_not_lt hneg, Or.inl rfl, rfl⟩

end RayCastingTheorems

/-! ### BooleanNative: direction, convexity, `reverse` and the winding number -/

namespace PolygonBoolean

open Polygon

set_option maxRecDepth 100000

/-- the cyclically adjacent pairs of a list, by index -/
theorem zip_cyclic {α : Type} (d : α) (a : α) (m : List α) :
    List.zip (a :: m) (m ++ [a]) =
      (List.range (m.length + 1)).map fun i =>
        ((a :: m).getD i d, (a :: m).getD ((i + 1) % (m.length + 1)) d) := by
  apply List.ext_getElem
  · simp
  · intro i h1 h2
    have hi : i < m.length + 1 := by simpa using h2
    rw [List.getElem_zip, List.getElem_map, List.getElem_range]
    rw [List.getD_eq_getElem _ d (by simpa using hi)]
    congr 1
    by_cases hlast : i = m.length
    · subst hlast
      rw [Nat.mod_self]
      simp
    · have hlt : i < m.length := by omega
      rw [Nat.mod_eq_of_lt (by omega), List.getElem_append_left hlt,
        List.getD_eq_getElem _ d (by simp; omega)]
      simp

theorem foldl_add_map_sum {α : Type} (t : α → ℚ) :
    ∀ (l : List α) (acc : ℚ), l.foldl (fun a e => a + t e) acc = acc + (l.map t).sum
  | [], acc => by simp
  | e :: l, acc => by
    rw [List.foldl_cons, foldl_add_map_sum t l, List.map_cons, List.sum_cons, add_assoc]

/-- the loop of `area` adds up the cross products of the adjacent points -/
theorem areaLoop_spec {h : Heap} {hd : Nat} :
    ∀ (post : List Nat) (cur fuel : Nat) (acc : ℚ),
      List.Chain (Link h) cur (post ++ [hd]) → hd ∉ post → post.length < fuel →
      areaLoop h hd fuel (some cur) acc =
        some (acc + ((List.zip (cur :: post) (post ++ [hd])).map fun e =>
          (pointOf h e.1).cross (pointOf h e.2)).sum)
  | [], cur, fuel, acc, hc, _, hf => by
    obtain ⟨fuel, rfl⟩ : ∃ f, fuel = f + 1 := ⟨fuel - 1, by simp at hf; omega⟩
    simp only [List.nil_append, List.chain_cons, List.Chain.nil, and_true] at hc
    obtain ⟨v, hv, hnext⟩ := nextOf_eq_some.1 hc.1
    obtain ⟨nv, hnv, _⟩ := prevOf_eq_some.1 hc.2
    simp [areaLoop, load, hv, hnext, hnv, pointOf]
  | x :: post, cur, fuel, acc, hc, hnot, hf => by
    obtain ⟨fuel, rfl⟩ : ∃ f, fuel = f + 1 := ⟨fuel - 1, by simp at hf; omega⟩
    simp only [List.cons_append, List.chain_cons] at hc
    obtain ⟨v, hv, hnext⟩ := nextOf_eq_some.1 hc.1.1
    obtain ⟨nv, hnv, _⟩ := prevOf_eq_some.1 hc.1.2
    have hx : x ≠ hd := fun e => hnot (by simp [e])
    have ih := areaLoop_spec post x fuel (acc + v.point.cross nv.point) hc.2
      (fun hm => hnot (List.mem_cons_of_mem _ hm)) (by simp at hf; omega)
    simp only [areaLoop, load, hv, hnext, hnv, Option.some_bind]
    rw [if_pos (by simpa using hx), ih]
    simp [pointOf, hv, hnv, add_assoc]

/-- the loop of `calculateDirection` adds up `(x' - x) * (y' + y)` over the
adjacent points -/
theorem calculateDirectionLoop_spec {h : Heap} {hd : Nat} :
    ∀ (post : List Nat) (cur fuel : Nat) (acc : ℚ),
      List.Chain (Link h) cur (post ++ [hd]) → hd ∉ post → post.length < fuel →
      calculateDirectionLoop h hd fuel (some cur) acc =
        some (acc + ((List.zip (cur :: post) (post ++ [hd])).map fun e =>
          ((pointOf h e.2).x - (pointOf h e.1).x) * ((pointOf h e.2).y + (pointOf h e.1).y)).sum)
  | [], cur, fuel, acc, hc, _, hf => by
    obtain ⟨fuel, rfl⟩ : ∃ f, fuel = f + 1 := ⟨fuel - 1, by simp at hf; omega⟩
    simp only [List.nil_append, List.chain_cons, List.Chain.nil, and_true] at hc
    obtain ⟨v, hv, hnext⟩ := nextOf_eq_some.1 hc.1
    obtain ⟨nv, hnv, _⟩ := prevOf_eq_some.1 hc.2
    simp [calculateDirectionLoop, load, hv, hnext, hnv, pointOf]
  | x :: post, cur, fuel, acc, hc, hnot, hf => by
    obtain ⟨fuel, rfl⟩ : ∃ f, fuel = f + 1 := ⟨fuel - 1, by simp at hf; omega⟩
    simp only [List.cons_append, List.chain_cons] at hc
    obtain ⟨v, hv, hnext⟩ := nextOf_eq_some.1 hc.1.1
    obtain ⟨nv, hnv, _⟩ := prevOf_eq_some.1 hc.1.2
    have hx : x ≠ hd := fun e => hnot (by simp [e])
    have ih := calculateDirectionLoop_spec post x fuel
      (acc + (nv.point.x - v.point.x) * (nv.point.y + v.point.y)) hc.2
      (fun hm => hnot (List.mem_cons_of_mem _ hm)) (by simp at hf; omega)
    simp only [calculateDirectionLoop, load, hv, hnext, hnv, Option.some_bind]
    rw [if_pos (by simpa using hx), ih]
    simp [pointOf, hv, hnv, add_assoc]

/-- the loop of the member `pointInPolygon` folds `windingStep` over the
adjacent points -/
theorem pointInPolygonLoop_spec {h : Heap} {hd : Nat} (p : Point) :
    ∀ (post : List Nat) (cur fuel : Nat) (w : Int),
      List.Chain (Link h) cur (post ++ [hd]) → hd ∉ post → post.length < fuel →
      pointInPolygonLoop h hd p fuel (some cur) w =
        some ((List.zip (cur :: post) (post ++ [hd])).foldl
          (fun w e => windingStep p w (pointOf h e.1) (pointOf h e.2)) w)
  | [], cur, fuel, w, hc, _, hf => by
    obtain ⟨fuel, rfl⟩ : ∃ f, fuel = f + 1 := ⟨fuel - 1, by simp at hf; omega⟩
    simp only [List.nil_append, List.chain_cons, List.Chain.nil, and_true] at hc
    obtain ⟨v, hv, hnext⟩ := nextOf_eq_some.1 hc.1
    obtain ⟨nv, hnv, _⟩ := prevOf_eq_some.1 hc.2
    simp [pointInPolygonLoop, load, hv, hnext, hnv, pointOf, windingStep]
  | x :: post, cur, fuel, w, hc, hnot, hf => by
    obtain ⟨fuel, rfl⟩ : ∃ f, fuel = f + 1 := ⟨fuel - 1, by simp at hf; omega⟩
    simp only [List.cons_append, List.chain_cons] at hc
    obtain ⟨v, hv, hnext⟩ := nextOf_eq_some.1 hc.1.1
    obtain ⟨nv, hnv, _⟩ := prevOf_eq_some.1 hc.1.2
    have hx : x ≠ hd := fun e => hnot (by simp [e])
    have ih := pointInPolygonLoop_spec p post x fuel (windingStep p w v.point nv.point) hc.2
      (fun hm => hnot (List.mem_cons_of_mem _ hm)) (by simp at hf; omega)
    simp only [pointInPolygonLoop, load, hv, hnext, hnv, Option.some_bind]
    rw [if_pos (by simpa using hx)]
    refine Eq.trans ih ?_
    simp [pointOf, hv, hnv]

/-- a sum over the edges of a ring of cells is the sum over the cyclically
adjacent pairs of its point list, by index -/
theorem ring_sum_eq (h : Heap) (F : Point → Point → ℚ) (hd : Nat) (rest : List Nat) :
    ((List.zip (hd :: rest) (rest ++ [hd])).map fun e =>
        F (pointOf h e.1) (pointOf h e.2)).sum =
      ((List.range ((hd :: rest).map (pointOf h)).length).map fun i =>
        F (((hd :: rest).map (pointOf h)).getD i ⟨0, 0⟩)
          (((hd :: rest).map (pointOf h)).getD
            ((i + 1) % ((hd :: rest).map (pointOf h)).length) ⟨0, 0⟩)).sum := by
  have hz := zip_cyclic (⟨0, 0⟩ : Point) (pointOf h hd) (rest.map (pointOf h))
  have e1 : (List.zip (hd :: rest) (rest ++ [hd])).map
      (fun e => F (pointOf h e.1) (pointOf h e.2)) =
      (List.zip (pointOf h hd :: rest.map (pointOf h)) (rest.map (pointOf h) ++ [pointOf h hd])).map
        fun e => F e.1 e.2 := by
    have e2 : rest.map (pointOf h) ++ [pointOf h hd] = (rest ++ [hd]).map (pointOf h) := by simp
    rw [e2, ← List.map_cons, List.zip_map, List.map_map]
    rfl
  rw [e1, hz, List.map_map]
  simp only [List.map_cons, List.length_cons, List.length_map]
  rfl

theorem shoelaceSum_eq_finset (pts : List Point) :
    shoelaceSum pts = ∑ i in Finset.range pts.length,
      ((pts.getD i ⟨0, 0⟩).x * (pts.getD ((i + 1) % pts.length) ⟨0, 0⟩).y -
        (pts.getD ((i + 1) % pts.length) ⟨0, 0⟩).x * (pts.getD i ⟨0, 0⟩).y) := by
  unfold shoelaceSum
  rw [sum_range_eq_finset]

/-- the shoelace sum of the reversed list is the negative of the shoelace sum -/
theorem shoelaceSum_reverse (pts : List Point) :
    shoelaceSum pts.reverse = -shoelaceSum pts := by
  rw [shoelaceSum_eq_finset, shoelaceSum_eq_finset, List.length_reverse,
    cyclic_sum_reverse ⟨0, 0⟩ (fun a b => a.x * b.y - b.x * a.y) pts, ← Finset.sum_neg_distrib]
  apply Finset.sum_congr rfl
  intro i _
  ring

/-- the sum that `calculateDirection` forms is the negative of the shoelace sum -/
theorem direction_sum_eq (pts : List Point) :
    ((List.range pts.length).map fun i =>
      ((pts.getD ((i + 1) % pts.length) ⟨0, 0⟩).x - (pts.getD i ⟨0, 0⟩).x) *
        ((pts.getD ((i + 1) % pts.length) ⟨0, 0⟩).y + (pts.getD i ⟨0, 0⟩).y)).sum =
      -shoelaceSum pts := by
  rw [shoelaceSum_eq_finset, sum_range_eq_finset]
  have hshift := sum_cyclic_shift (fun i => (pts.getD i ⟨0, 0⟩).x * (pts.getD i ⟨0, 0⟩).y)
    pts.length
  have e : ∀ i, ((pts.getD ((i + 1) % pts.length) ⟨0, 0⟩).x - (pts.getD i ⟨0, 0⟩).x) *
      ((pts.getD ((i + 1) % pts.length) ⟨0, 0⟩).y + (pts.getD i ⟨0, 0⟩).y) =
      -((pts.getD i ⟨0, 0⟩).x * (pts.getD ((i + 1) % pts.length) ⟨0, 0⟩).y -
        (pts.getD ((i + 1) % pts.length) ⟨0, 0⟩).x * (pts.getD i ⟨0, 0⟩).y) +
      ((pts.getD ((i + 1) % pts.length) ⟨0, 0⟩).x * (pts.getD ((i + 1) % pts.length) ⟨0, 0⟩).y -
        (pts.getD i ⟨0, 0⟩).x * (pts.getD i ⟨0, 0⟩).y) := fun i => by ring
  simp only [e]
  rw [Finset.sum_add_distrib, Finset.sum_sub_distrib, hshift, sub_self, add_zero,
    Finset.sum_neg_distrib]

/-- the function `area` on a ring: zero below three vertices, else half the absolute
shoelace sum of the points -/
theorem area_ring {h : Heap} {P : Polygon} {l : List Nat} (hr : RingOf h P l) :
    area h P = some (if l.length < 3 then 0 else |shoelaceSum (l.map (pointOf h))| / 2) := by
  have hcount := vertexCount_ring hr
  cases l with
  | nil => simp [area, show P.head = none from hr]
  | cons hd rest =>
    obtain ⟨hP, hring⟩ := hr
    have hlen := hring.length_le
    simp only [area, hP, hcount, Option.some_bind]
    by_cases h3 : (hd :: rest).length < 3
    · rw [if_pos h3, if_pos h3]
    · rw [if_neg h3, if_neg h3,
        areaLoop_spec rest hd h.length 0 hring.2 (List.nodup_cons.1 hring.1).1
          (by simpa using hlen)]
      simp only [Option.some_bind, zero_add]
      rw [ring_sum_eq h (fun a b => a.cross b) hd rest]
      have e : ((List.range ((hd :: rest).map (pointOf h)).length).map fun i =>
          (((hd :: rest).map (pointOf h)).getD i ⟨0, 0⟩).cross
            (((hd :: rest).map (pointOf h)).getD
              ((i + 1) % ((hd :: rest).map (pointOf h)).length) ⟨0, 0⟩)).sum =
          shoelaceSum ((hd :: rest).map (pointOf h)) := by
        unfold shoelaceSum
        congr 1
        apply List.map_congr_left
        intro i _
        unfold Point.cross
        ring
      rw [e]

/-- the function `calculateDirection` on a ring of at least three vertices: the sum
is minus twice the signed area, `clockwise` is set when the area is negative -/
theorem calculateDirection_ring {h : Heap} {P : Polygon} {hd : Nat} {rest : List Nat}
    (hr : RingOf h P (hd :: rest)) (h3 : 3 ≤ (hd :: rest).length) :
    calculateDirectionLoop h hd h.length (some hd) 0 =
        some (-2 * signedArea ((hd :: rest).map (pointOf h))) ∧
      calculateDirection h P = some { P with
        clockwise := decide (signedArea ((hd :: rest).map (pointOf h)) < 0),
        directionCalculated := true } := by
  have hcount := vertexCount_ring hr
  obtain ⟨hP, hring⟩ := hr
  have hlen := hring.length_le
  have hloop : calculateDirectionLoop h hd h.length (some hd) 0 =
      some (-2 * signedArea ((hd :: rest).map (pointOf h))) := by
    rw [calculateDirectionLoop_spec rest hd h.length 0 hring.2 (List.nodup_cons.1 hring.1).1
      (by simpa using hlen), zero_add,
      ring_sum_eq h (fun a b => (b.x - a.x) * (b.y + a.y)) hd rest, direction_sum_eq]
    unfold signedArea
    congr 1
    ring
  refine ⟨hloop, ?_⟩
  simp only [calculateDirection, hP, hcount, Option.some_bind, if_neg (not_lt.2 h3), hloop]
  congr 2
  have : (-2 * signedArea ((hd :: rest).map (pointOf h)) > 0) ↔
      signedArea ((hd :: rest).map (pointOf h)) < 0 := by
    constructor <;> intro hh <;> linarith
  simp only [this]

/-- C34. On a ring of at least three vertices the sum of `(x' - x) * (y' + y)`
that `calculateDirection` forms is minus twice the signed shoelace area, so it
sets `clockwise` exactly when the area is negative, and `isClockwise()` on a
polygon whose direction is not cached answers so. The failing run: the
triangle `mirroredTriangle` (three vertices, after `isClockwise()` and
`scale(-1, 1)`) has the points `(4/3,0), (1/3,0), (1/3,1)` of signed area
`-1/2`, and `isClockwise()` answers `false` from the cache. -/
theorem C34_direction_is_sign_of_area :
    (∀ (h : Heap) (P : Polygon) (hd : Nat) (rest : List Nat), RingOf h P (hd :: rest) →
      3 ≤ (hd :: rest).length →
      calculateDirectionLoop h hd h.length (some hd) 0 =
          some (-2 * signedArea ((hd :: rest).map (pointOf h))) ∧
        (calculateDirection h P).map Polygon.clockwise =
          some (decide (signedArea ((hd :: rest).map (pointOf h)) < 0)) ∧
        (P.directionCalculated = false → (isClockwise h P).map Prod.fst =
          some (decide (signedArea ((hd :: rest).map (pointOf h)) < 0)))) ∧
    (Polygon.getPoints mirroredTriangle.1 mirroredTriangle.2 =
        some [⟨4 / 3, 0⟩, ⟨1 / 3, 0⟩, ⟨1 / 3, 1⟩] ∧
      signedArea [⟨4 / 3, 0⟩, ⟨1 / 3, 0⟩, ⟨1 / 3, 1⟩] = -(1 / 2) ∧
      (Polygon.isClockwise mirroredTriangle.1 mirroredTriangle.2).map Prod.fst = some false) := by
  refine ⟨fun h P hd rest hr h3 => ?_, by decide!, by decide!, by decide!⟩
  obtain ⟨hloop, hcalc⟩ := calculateDirection_ring hr h3
  refine ⟨hloop, by rw [hcalc]; rfl, fun hdc => ?_⟩
  simp only [isClockwise, hdc, Bool.not_false, if_true, hcalc, Option.some_bind]
  rfl

theorem C34_direction_is_sign_of_area_witness :
    RingOf triangleState.1 triangleState.2 [0, 1, 2] ∧
    (Polygon.isClockwise triangleState.1 triangleState.2).map Prod.fst =
      some (decide (signedArea ([0, 1, 2].map (pointOf triangleState.1)) < 0)) ∧
    signedArea ([0, 1, 2].map (pointOf triangleState.1)) = 1 / 2 :=
  ⟨by decide!,
    (C34_direction_is_sign_of_area.1 triangleState.1 triangleState.2 0 [1, 2] (by decide!)
      (by decide)).2.2 (by decide!), by decide!⟩

/-- on a ring, `reverse()` returns and `getPoints()` after it is the reversed
list of `getPoints()` before it; a second `reverse()` gives back the original
point sequence; and over exact arithmetic `area()` returns the same value
before and after `reverse()` -/
theorem reverse_points_and_area {h : Heap} {P : Polygon} {l : List Nat}
    (hr : RingOf h P l) :
    ∃ h1 P1 h2 P2 pts a, Polygon.getPoints h P = some pts ∧
      Polygon.reverse h P = some (h1, P1) ∧ Polygon.getPoints h1 P1 = some pts.reverse ∧
      Polygon.reverse h1 P1 = some (h2, P2) ∧ Polygon.getPoints h2 P2 = some pts ∧
      Polygon.area h P = some a ∧ Polygon.area h1 P1 = some a := by
  obtain ⟨h1, P1, e1, hr1, _, hp1⟩ := reverse_ring hr
  obtain ⟨h2, P2, e2, hr2, _, hp2⟩ := reverse_ring hr1
  have hpo1 : pointOf h1 = pointOf h := funext hp1
  have hpo2 : pointOf h2 = pointOf h := by
    funext a
    rw [hp2, hp1]
  refine ⟨h1, P1, h2, P2, l.map (pointOf h), _, getPoints_ring hr, e1, ?_, e2, ?_,
    area_ring hr, ?_⟩
  · rw [getPoints_ring hr1, hpo1, List.map_reverse]
  · rw [getPoints_ring hr2, hpo2, List.reverse_reverse]
  · rw [area_ring hr1, hpo1, List.map_reverse, shoelaceSum_reverse, abs_neg,
      List.length_reverse]

/-- the three cross products at the corners of a triangle are equal -/
theorem crossProduct_rotate (a b c : Point) :
    Polygon.crossProduct c a b = Polygon.crossProduct a b c ∧
      Polygon.crossProduct b c a = Polygon.crossProduct a b c := by
  unfold Polygon.crossProduct
  constructor <;> ring

/-- over exact arithmetic, on a ring of exactly three vertices `isConvex()`
returns true: the cross products computed at the three corners are equal, so
they cannot be above `EPSILON` at one corner and below `-EPSILON` at another -/
theorem isConvex_triangle {h : Heap} {P : Polygon} {a b c : Nat}
    (hr : RingOf h P [a, b, c]) : Polygon.isConvex h P = some true := by
  have hcount := vertexCount_ring hr
  obtain ⟨hP, hring⟩ := hr
  have hlen := hring.length_le
  obtain ⟨hnd, hch⟩ := hring
  simp only [List.cons_append, List.nil_append, List.chain_cons, List.Chain.nil, and_true] at hch
  obtain ⟨hab, hbc, hca⟩ := hch
  obtain ⟨va, hva, hvan⟩ := nextOf_eq_some.1 hab.1
  obtain ⟨vb, hvb, hvbn⟩ := nextOf_eq_some.1 hbc.1
  obtain ⟨vc, hvc, hvcn⟩ := nextOf_eq_some.1 hca.1
  obtain ⟨va', hva', hvap⟩ := prevOf_eq_some.1 hca.2
  obtain ⟨vb', hvb', hvbp⟩ := prevOf_eq_some.1 hab.2
  obtain ⟨vc', hvc', hvcp⟩ := prevOf_eq_some.1 hbc.2
  rw [hva] at hva'
  cases hva'
  rw [hvb] at hvb'
  cases hvb'
  rw [hvc] at hvc'
  cases hvc'
  have hba : b ≠ a := by
    intro e
    rw [e] at hnd
    simp at hnd
  have hcna : c ≠ a := by
    intro e
    rw [e] at hnd
    simp at hnd
  obtain ⟨k, hk⟩ : ∃ k, h.length = k + 3 := ⟨h.length - 3, by simp at hlen; omega⟩
  obtain ⟨e1, e3⟩ := crossProduct_rotate va.point vb.point vc.point
  have hpos : (0 : ℚ) < EPSILON := EPSILON_pos
  simp only [isConvex, hcount, hP, Option.some_bind, List.length_cons, List.length_nil]
  rw [if_neg (by omega), hk]
  simp only [isConvexLoop, load, hva, hvb, hvc, hvan, hvbn, hvcn, hvap, hvbp, hvcp,
    Option.some_bind, e1, e3]
  by_cases h1 : Polygon.crossProduct va.point vb.point vc.point > EPSILON
  · have h2 : ¬ Polygon.crossProduct va.point vb.point vc.point < -EPSILON := by
      intro hh
      linarith
    simp [h1, h2, hba, hcna]
  · simp [h1, hba, hcna]

/-- the loop of the static `pointInPolygon` folds `windingStep` over the
cyclically adjacent pairs of the point list -/
theorem pointInPolygonStatic_eq (p : Point) (a : Point) (m : List Point) :
    pointInPolygonStatic p (a :: m) =
      if (a :: m).length < 3 then 0
      else if (List.zip (a :: m) (m ++ [a])).foldl
          (fun w e => windingStep p w e.1 e.2) 0 ≠ 0 then 1 else 0 := by
  rw [zip_cyclic ⟨0, 0⟩ a m, List.foldl_map]
  unfold pointInPolygonStatic windingStep
  rfl

/-- the member `pointInPolygon` on a ring is the static `pointInPolygon` on its
point list -/
theorem pointInPolygon_ring {h : Heap} {P : Polygon} {l : List Nat} (hr : RingOf h P l)
    (p : Point) :
    Polygon.pointInPolygon h P p =
      some (decide (pointInPolygonStatic p (l.map (pointOf h)) = 1)) := by
  have hcount := vertexCount_ring hr
  cases l with
  | nil =>
    simp [pointInPolygon, show P.head = none from hr, pointInPolygonStatic]
  | cons hd rest =>
    obtain ⟨hP, hring⟩ := hr
    have hlen := hring.length_le
    simp only [pointInPolygon, hP, hcount, Option.some_bind]
    rw [List.map_cons, pointInPolygonStatic_eq]
    by_cases h3 : (hd :: rest).length < 3
    · rw [if_pos h3, if_pos (by simpa using h3)]
      simp
    · rw [if_neg h3, if_neg (by simpa using h3),
        pointInPolygonLoop_spec p rest hd h.length 0 hring.2 (List.nodup_cons.1 hring.1).1
          (by simpa using hlen)]
      simp only [Option.some_bind]
      have e : List.zip (pointOf h hd :: rest.map (pointOf h))
          (rest.map (pointOf h) ++ [pointOf h hd]) =
          (List.zip (hd :: rest) (rest ++ [hd])).map (Prod.map (pointOf h) (pointOf h)) := by
        have e2 : rest.map (pointOf h) ++ [pointOf h hd] = (rest ++ [hd]).map (pointOf h) := by
          simp
        rw [e2, ← List.map_cons, List.zip_map]
      rw [e, List.foldl_map]
      simp only [Prod.map_fst, Prod.map_snd]
      by_cases hw : (List.zip (hd :: rest) (rest ++ [hd])).foldl
          (fun w e => windingStep p w (pointOf h e.1) (pointOf h e.2)) 0 = 0
      · simp [hw]
      · simp [hw]

end PolygonBoolean

section RayCastingAgreement

open GeometryCore

/-- C40. For every point list `v` and point `p`, `Polygonutility::PointInRing(p,
Ring{v})` equals `PolygonUtilityExtension::PointInsidePolygon(v, p)`; and on
every ring of `PolygonBoolean::Polygon`, `contains(p)` returns, and returns
true exactly when the static `pointInPolygon(p, getPoints())` returns 1. -/
theorem C40_ray_casting_agree :
    (∀ (v : List Point) (p : Point),
      Polygonutility.PointInRing p ⟨v⟩ = PolygonUtilityExtension.PointInsidePolygon v p) ∧
    (∀ (h : PolygonBoolean.Heap) (P : PolygonBoolean.Polygon) (l : List Nat)
      (p : PolygonBoolean.Point), PolygonBoolean.RingOf h P l →
      ∃ pts b, PolygonBoolean.Polygon.getPoints h P = some pts ∧
        PolygonBoolean.Polygon.contains h P p = some b ∧
        (b = true ↔ PolygonBoolean.Polygon.pointInPolygonStatic p pts = 1)) := by
  refine ⟨PointInRing_eq_PointInsidePolygon, fun h P l p hr => ?_⟩
  refine ⟨_, _, PolygonBoolean.getPoints_ring hr, PolygonBoolean.pointInPolygon_ring hr p, ?_⟩
  simp

theorem C40_ray_casting_agree_witness :
    PolygonBoolean.RingOf PolygonBoolean.triangleState.1 PolygonBoolean.triangleState.2
      [0, 1, 2] ∧
    (∃ pts b, PolygonBoolean.Polygon.getPoints PolygonBoolean.triangleState.1
        PolygonBoolean.triangleState.2 = some pts ∧
      PolygonBoolean.Polygon.contains PolygonBoolean.triangleState.1
        PolygonBoolean.triangleState.2 ⟨3 / 4, 1 / 4⟩ = some b ∧
      (b = true ↔ PolygonBoolean.Polygon.pointInPolygonStatic ⟨3 / 4, 1 / 4⟩ pts = 1)) ∧
    PolygonBoolean.Polygon.contains PolygonBoolean.triangleState.1
      PolygonBoolean.triangleState.2 ⟨3 / 4, 1 / 4⟩ = some true ∧
    PolygonBoolean.Polygon.pointInPolygonStatic ⟨3 / 4, 1 / 4⟩
      [⟨0, 0⟩, ⟨1, 0⟩, ⟨1, 1⟩] = 1 :=
  ⟨by decide!, C40_ray_casting_agree.2 PolygonBoolean.triangleState.1
    PolygonBoolean.triangleState.2 [0, 1, 2] ⟨3 / 4, 1 / 4⟩ (by decide!), by decide!, by decide!⟩

end RayCastingAgreement

/-! ### GeometryCore: the points that `ClipPolygon` returns -/

section ClipInsideTheorems

open GeometryCore GeometryCore.Polygonutility

set_option maxRecDepth 100000

theorem combo_nonneg {x xs xe cs ce : ℚ} (hid : x * (cs - ce) = xs * (-ce) + xe * cs)
    (hs : 0 ≤ xs) (he : 0 ≤ xe) (h : (ce < 0 ∧ 0 ≤ cs) ∨ (cs < 0 ∧ 0 ≤ ce)) : 0 ≤ x := by
  have := @combo_nonpos (-x) (-xs) (-xe) cs ce
    (by linarith) (by linarith) (by linarith) h
  linarith

theorem sides_of_ne {S E A B : Point} {c : Bool} (hne : Inside E A B c ≠ Inside S A B c) :
    (orient c (edgeCross A B E) < 0 ∧ 0 ≤ orient c (edgeCross A B S)) ∨
      (orient c (edgeCross A B S) < 0 ∧ 0 ≤ orient c (edgeCross A B E)) := by
  cases hE : Inside E A B c <;> cases hS : Inside S A B c
  · rw [hE, hS] at hne; exact absurd rfl hne
  · exact Or.inl ⟨(Inside_eq_false_iff_orient _ _ _ _).1 hE, (Inside_iff_orient _ _ _ _).1 hS⟩
  · exact Or.inr ⟨(Inside_eq_false_iff_orient _ _ _ _).1 hS, (Inside_iff_orient _ _ _ _).1 hE⟩
  · rw [hE, hS] at hne; exact absurd rfl hne

/-- the point pushed for a pair `S`, `E` on different sides of the clip edge
lies on the line of the edge, and on the inner side of every line that has
`S` and `E` on its inner side -/
theorem orient_ip_nonneg {S E A B : Point} (h : DetAssigned S E A B = true) (u : Point) (c : Bool)
    (hne : Inside E A B c ≠ Inside S A B c) :
    edgeCross A B (SegmentIntersect S E A B u).2 = 0 ∧
      ∀ a b : Point, 0 ≤ orient c (edgeCross a b S) → 0 ≤ orient c (edgeCross a b E) →
        0 ≤ orient c (edgeCross a b (SegmentIntersect S E A B u).2) := by
  have hst := sides_of_ne hne
  refine ⟨?_, fun a b hs he => combo_nonneg (orient_ip h u a b c) hs he hst⟩
  have e := orient_ip h u A B c
  have hz : orient c (edgeCross A B (SegmentIntersect S E A B u).2) *
      (orient c (edgeCross A B S) - orient c (edgeCross A B E)) = 0 := by
    rw [e]; ring
  have h0 : orient c (edgeCross A B (SegmentIntersect S E A B u).2) = 0 := by
    rcases mul_eq_zero.1 hz with h0 | h0
    · exact h0
    · rcases hst with ⟨h1, h2⟩ | ⟨h1, h2⟩ <;> linarith
  cases c
  · simp only [orient, Bool.false_eq_true, if_false] at h0
    linarith
  · simpa [orient] using h0

/-- the point pushed for a pair `S`, `E` on different sides of the clip edge
lies on the segment from `S` to `E` -/
theorem ip_on_segment {S E A B : Point} (h : DetAssigned S E A B = true) (u : Point) (c : Bool)
    (hne : Inside E A B c ≠ Inside S A B c) :
    ∃ t : ℚ, 0 ≤ t ∧ t ≤ 1 ∧
      (SegmentIntersect S E A B u).2.x = S.x + t * (E.x - S.x) ∧
      (SegmentIntersect S E A B u).2.y = S.y + t * (E.y - S.y) := by
  have hst := sides_of_ne hne
  unfold DetAssigned at h
  have h1 := of_decide_eq_true h
  have hdet : (E.y - S.y) * (A.x - B.x) - (B.y - A.y) * (S.x - E.x) ≠ 0 := by
    intro e
    rw [e, abs_zero] at h1
    exact h1 eps9_pos
  have hcs : edgeCross A B S - edgeCross A B E =
      (E.y - S.y) * (A.x - B.x) - (B.y - A.y) * (S.x - E.x) := by
    unfold edgeCross
    ring
  have hne0 : edgeCross A B S - edgeCross A B E ≠ 0 := by rw [hcs]; exact hdet
  refine ⟨edgeCross A B S / (edgeCross A B S - edgeCross A B E), ?_, ?_, ?_, ?_⟩
  · cases c
    · simp only [orient, Bool.false_eq_true, if_false] at hst
      rcases hst with ⟨h2, h3⟩ | ⟨h2, h3⟩
      · exact div_nonneg_of_nonpos (by linarith) (by linarith)
      · exact div_nonneg (by linarith) (by linarith)
    · simp only [orient, if_true] at hst
      rcases hst with ⟨h2, h3⟩ | ⟨h2, h3⟩
      · exact div_nonneg h3 (by linarith)
      · exact div_nonneg_of_nonpos (by linarith) (by linarith)
  · cases c
    · simp only [orient, Bool.false_eq_true, if_false] at hst
      rcases hst with ⟨h2, h3⟩ | ⟨h2, h3⟩
      · rw [div_le_one_of_neg (by linarith)]
        linarith
      · rw [div_le_one (by linarith)]
        linarith
    · simp only [orient, if_true] at hst
      rcases hst with ⟨h2, h3⟩ | ⟨h2, h3⟩
      · rw [div_le_one (by linarith)]
        linarith
      · rw [div_le_one_of_neg (by linarith)]
        linarith
  · rw [hcs]
    unfold SegmentIntersect edgeCross
    simp only
    rw [if_neg h1]
    field_simp
    ring
  · rw [hcs]
    unfold SegmentIntersect edgeCross
    simp only
    rw [if_neg h1]
    field_simp
    ring

/-- one pass of the inner loop of `ClipPolygon`: every point pushed is on the
inner side of the clip edge and keeps the property `Q` of the input points,
when `Q` passes to the intersection points -/
theorem ClipPass_spec (A B : Point) (c : Bool) (u : Point) (Q : Point → Prop)
    (hQ : ∀ S E, Q S → Q E → DetAssigned S E A B = true →
      Inside E A B c ≠ Inside S A B c → Q (SegmentIntersect S E A B u).2) :
    ∀ (input : List Point) (S : Point) (out : List Point),
      PassAssigned A B c S input = true → Q S → (∀ p ∈ input, Q p) →
      (∀ p ∈ out, Q p ∧ Inside p A B c = true) →
      ∀ p ∈ (input.foldl (ClipStep A B c u) (S, out)).2, Q p ∧ Inside p A B c = true := by
  intro input
  induction input with
  | nil =>
    intro S out _ _ _ hout
    exact hout
  | cons E rest ih =>
    intro S out hA hS hin hout
    unfold PassAssigned at hA
    rw [Bool.and_eq_true] at hA
    have hE := hin E (List.mem_cons_self _ _)
    have hrest : ∀ p ∈ rest, Q p := fun p hp => hin p (List.mem_cons_of_mem _ hp)
    rw [List.foldl_cons]
    have key : ∃ out1, ClipStep A B c u (S, out) E = (E, out1) ∧
        (∀ p ∈ out1, Q p ∧ Inside p A B c = true) := by
      unfold ClipStep
      simp only
      cases hEi : Inside E A B c <;> cases hSi : Inside S A B c
      · exact ⟨out, by simp, hout⟩
      · have hne : Inside E A B c ≠ Inside S A B c := by rw [hEi, hSi]; simp
        have hd := assigned_of_ne hA.1 hne
        refine ⟨out ++ [(SegmentIntersect S E A B u).2], by simp, ?_⟩
        intro p hp
        rcases List.mem_append.1 hp with hp | hp
        · exact hout p hp
        · rw [List.mem_singleton.1 hp]
          refine ⟨hQ S E hS hE hd hne, ?_⟩
          rw [Inside_iff_orient]
          have := (orient_ip_nonneg hd u c hne).1
          unfold orient
          rw [this]
          simp
      · have hne : Inside E A B c ≠ Inside S A B c := by rw [hEi, hSi]; simp
        have hd := assigned_of_ne hA.1 hne
        refine ⟨(out ++ [(SegmentIntersect S E A B u).2]) ++ [E], by simp, ?_⟩
        intro p hp
        rcases List.mem_append.1 hp with hp | hp
        · rcases List.mem_append.1 hp with hp | hp
          · exact hout p hp
          · rw [List.mem_singleton.1 hp]
            refine ⟨hQ S E hS hE hd hne, ?_⟩
            rw [Inside_iff_orient]
            have := (orient_ip_nonneg hd u c hne).1
            unfold orient
            rw [this]
            simp
        · rw [List.mem_singleton.1 hp]
          exact ⟨hE, hEi⟩
      · refine ⟨out ++ [E], by simp, ?_⟩
        intro p hp
        rcases List.mem_append.1 hp with hp | hp
        · exact hout p hp
        · rw [List.mem_singleton.1 hp]
          exact ⟨hE, hEi⟩
    obtain ⟨out1, e1, hout1⟩ := key
    rw [e1]
    exact ih E out1 hA.2 hE hrest hout1

/-- the run of `ClipLoop` over the clip edges `is`: every point returned is on
the inner side of these edges and of the edges `K` that the input was on the
inner side of -/
theorem ClipLoop_spec (clip : List Point) (c : Bool) :
    ∀ (is K : List Nat) (output : List Point),
      ClipLoopAssigned clip c is output = true →
      (∀ p ∈ output, ∀ j ∈ K,
        0 ≤ orient c (edgeCross (vget clip j) (vget clip ((j + 1) % clip.length)) p)) →
      ∀ p ∈ ClipLoop clip c ⟨0, 0⟩ is output, ∀ j ∈ K ++ is,
        0 ≤ orient c (edgeCross (vget clip j) (vget clip ((j + 1) % clip.length)) p) := by
  intro is
  induction is with
  | nil =>
    intro K output _ hout p hp j hj
    exact hout p hp j (by simpa using hj)
  | cons i rest ih =>
    intro K output hA hout
    unfold ClipLoopAssigned at hA
    unfold ClipLoop
    simp only
    by_cases ho : output = []
    · rw [if_pos ho]
      intro p hp
      cases hp
    · rw [if_neg ho] at hA ⊢
      rw [Bool.and_eq_true] at hA
      have hpass := ClipPass_spec (vget clip i) (vget clip ((i + 1) % clip.length)) c ⟨0, 0⟩
        (fun p => ∀ j ∈ K,
          0 ≤ orient c (edgeCross (vget clip j) (vget clip ((j + 1) % clip.length)) p))
        (fun S E hS hE hd hne j hj =>
          (orient_ip_nonneg hd ⟨0, 0⟩ c hne).2 _ _ (hS j hj) (hE j hj))
        output (output.getLastD ⟨0, 0⟩) [] hA.1
        (hout _ (getLastD_mem ho ⟨0, 0⟩)) hout (by simp)
      have := ih (K ++ [i]) _ hA.2 (fun p hp j hj => by
        rcases List.mem_append.1 hj with hj | hj
        · exact (hpass p hp).1 j hj
        · rw [List.mem_singleton.1 hj]
          exact (Inside_iff_orient _ _ _ _).1 (hpass p hp).2)
      intro p hp j hj
      exact this p hp j (by simpa using hj)

/-- C32, the failing run. `bigSquare` is convex and counter clockwise, and
two edges of `flatTriangle` cross its bottom edge with a determinant of
`6e-10`, below `1e-9`: `SegmentIntersect` returns false without assigning
`ip`, and `ClipPolygon`, which does not look at the returned flag, pushes the
uninitialised `ip`. With `(1,-1)` in `ip` the result holds the point `(1,-1)`,
which is not on the inner side of the bottom edge and not on its line; with
`(2,-2)` in `ip` the result is another one. The run is the same in binary64
arithmetic. -/
theorem C32_clip_pushes_unassigned_ip :
    IsCCW bigSquare.outer.vertices = true ∧
    Inside ⟨2, -(1 / 10000000000)⟩ ⟨0, 0⟩ ⟨3, 0⟩ true = false ∧
    Inside ⟨3 / 2, 1 / 10000000000⟩ ⟨0, 0⟩ ⟨3, 0⟩ true = true ∧
    DetAssigned ⟨2, -(1 / 10000000000)⟩ ⟨3 / 2, 1 / 10000000000⟩ ⟨0, 0⟩ ⟨3, 0⟩ = false ∧
    ClipPolygon flatTriangle.outer.vertices bigSquare.outer.vertices ⟨1, -1⟩ =
      [⟨1, -1⟩, ⟨1, -1⟩, ⟨3 / 2, 1 / 10000000000⟩] ∧
    Inside ⟨1, -1⟩ ⟨0, 0⟩ ⟨3, 0⟩ (IsCCW bigSquare.outer.vertices) = false ∧
    edgeCross ⟨0, 0⟩ ⟨3, 0⟩ ⟨1, -1⟩ ≠ 0 ∧
    ClipPolygon flatTriangle.outer.vertices bigSquare.outer.vertices ⟨2, -2⟩ ≠
      ClipPolygon flatTriangle.outer.vertices bigSquare.outer.vertices ⟨1, -1⟩ ∧
    ClipAssigned flatTriangle.outer.vertices bigSquare.outer.vertices = false ∧
    ClipPolygonF Binary64.rnd (toDoubles flatTriangle.outer.vertices)
        bigSquare.outer.vertices ⟨1, -1⟩ =
      [⟨1, -1⟩, ⟨1, -1⟩, ⟨3 / 2, Binary64.rnd (1 / 10000000000)⟩] := by
  refine ⟨by decide!, by decide!, by decide!, by decide!, by decide!, by decide!, by decide!,
    by decide!, by decide!, by decide!⟩

/-- where `ip` is assigned, the clipper does what is asked of it (over exact
arithmetic): for every clip list and every subject, when the run of
`ClipPolygon` reads no uninitialised `ip`, every point of the result passes
`Inside` against every clip edge; and whenever the points `S` and `E` lie on
different sides of the clip edge from `A` to `B` and the determinant is at
least `1e-9`, the step of the inner loop pushes a point `ip` (followed by `E`
when `E` is inside) that lies on the line through `A` and `B` and on the
segment from `S` to `E` -/
theorem ClipPolygon_output_inside :
    (∀ (subject clip : List Point) (uninit : Point), ClipAssigned subject clip = true →
      ∀ p ∈ ClipPolygon subject clip uninit, ∀ i, i < clip.length →
        Inside p (vget clip i) (vget clip ((i + 1) % clip.length)) (IsCCW clip) = true) ∧
    (∀ (A B S E uninit : Point) (c : Bool) (out : List Point),
      Inside E A B c ≠ Inside S A B c → DetAssigned S E A B = true →
      ∃ (ip : Point) (t : ℚ),
        (ClipStep A B c uninit (S, out) E).2 =
          (if Inside E A B c then out ++ [ip, E] else out ++ [ip]) ∧
        edgeCross A B ip = 0 ∧ 0 ≤ t ∧ t ≤ 1 ∧
        ip.x = S.x + t * (E.x - S.x) ∧ ip.y = S.y + t * (E.y - S.y)) := by
  constructor
  · intro subject clip uninit hA p hp i hi
    rw [ClipPolygon_indep hA uninit] at hp
    rw [Inside_iff_orient]
    exact ClipLoop_spec clip (IsCCW clip) (List.range clip.length) [] subject hA
      (fun _ _ j hj => by cases hj) p hp i (by simpa using hi)
  · intro A B S E uninit c out hne hd
    obtain ⟨t, ht0, ht1, hx, hy⟩ := ip_on_segment hd uninit c hne
    refine ⟨(SegmentIntersect S E A B uninit).2, t, ?_, (orient_ip_nonneg hd uninit c hne).1,
      ht0, ht1, hx, hy⟩
    unfold ClipStep
    simp only
    cases hEi : Inside E A B c <;> cases hSi : Inside S A B c
    · rw [hEi, hSi] at hne; exact absurd rfl hne
    · simp
    · simp
    · rw [hEi, hSi] at hne; exact absurd rfl hne

theorem ClipPolygon_output_inside_squares :
    ClipAssigned unitSquare.outer.vertices shiftedSquare.outer.vertices = true ∧
    (∀ p ∈ ClipPolygon unitSquare.outer.vertices shiftedSquare.outer.vertices ⟨0, 0⟩,
      ∀ i, i < shiftedSquare.outer.vertices.length →
        Inside p (vget shiftedSquare.outer.vertices i)
          (vget shiftedSquare.outer.vertices ((i + 1) % shiftedSquare.outer.vertices.length))
          (IsCCW shiftedSquare.outer.vertices) = true) ∧
    (∃ (ip : Point) (t : ℚ),
      (ClipStep ⟨0, 0⟩ ⟨3, 0⟩ true ⟨0, 0⟩ (⟨1, -1⟩, []) ⟨2, 1⟩).2 =
        (if Inside ⟨2, 1⟩ ⟨0, 0⟩ ⟨3, 0⟩ true then [] ++ [ip, ⟨2, 1⟩] else [] ++ [ip]) ∧
      edgeCross ⟨0, 0⟩ ⟨3, 0⟩ ip = 0 ∧ 0 ≤ t ∧ t ≤ 1 ∧
      ip.x = (1 : ℚ) + t * (2 - 1) ∧ ip.y = (-1 : ℚ) + t * (1 - -1)) :=
  ⟨by decide!,
    ClipPolygon_output_inside.1 unitSquare.outer.vertices shiftedSquare.outer.vertices ⟨0, 0⟩
      (by decide!),
    ClipPolygon_output_inside.2 ⟨0, 0⟩ ⟨3, 0⟩ ⟨1, -1⟩ ⟨2, 1⟩ ⟨0, 0⟩ true [] (by decide!)
      (by decide!)⟩

/-- C33. When every point of `subject` passes `Inside` against every edge of
`clip`, `ClipPolygon(subject, clip)` returns `subject` unchanged; and
`ClipPolygon` with an empty clip list returns `subject` unchanged. -/
theorem C33_clip_returns_subject :
    (∀ (subject clip : List Point) (uninit : Point), InsideAllEdges subject clip = true →
      ClipPolygon subject clip uninit = subject) ∧
    (∀ (subject : List Point) (uninit : Point), ClipPolygon subject [] uninit = subject) :=
  ⟨fun _ _ uninit h => ClipPolygon_of_insideAllEdges h uninit, fun _ _ => rfl⟩

theorem C33_clip_returns_subject_witness :
    InsideAllEdges innerSquare.outer.vertices bigSquare.outer.vertices = true ∧
    ClipPolygon innerSquare.outer.vertices bigSquare.outer.vertices ⟨0, 0⟩ =
      innerSquare.outer.vertices :=
  ⟨by decide!, C33_clip_returns_subject.1 innerSquare.outer.vertices bigSquare.outer.vertices
    ⟨0, 0⟩ (by decide!)⟩

end ClipInsideTheorems

/-! ### `MarkEntryExit`: the flags of successive intersection nodes -/

namespace GeometryCore

namespace PolygonUtilityExtension

set_option maxRecDepth 100000

/-- the heap that `MarkEntryExit` returns, as the marking of the cells of the
ring in the order of the walk -/
theorem MarkEntryExit_marked {h : NodeHeap} {hd s : Nat} {pre suf : List Nat}
    (hc : IsCycle (nodeNext h) hd (pre ++ s :: suf))
    (hpre : ∀ x, x ∈ pre → isInt h x = true) (hs : isInt h s = false)
    (other : List Point) (op : GHOp) (isA : Bool) :
    ∀ f, (pre ++ s :: suf).length + 1 ≤ f →
      MarkEntryExit f h (some hd) other op isA =
        some (markCells (isInt h) (entryRule op isA) (s :: (suf ++ pre)) h
          (PointInsidePolygon other (nodePoint h s))).1 := by
  intro f hf
  have hrot := hc.rotate_at
  obtain ⟨sv, _, hsv, _, _⟩ := hc.cell (x := s) (by simp)
  have hpt : nodePoint h s = sv.p := by simp [nodePoint, hsv]
  have hstart : ∀ f, pre.length + 1 ≤ f → MarkEntryExitStart h f (some hd) = some (some s) := by
    refine MarkEntryExitStart_spec h s hs ⟨sv, hsv⟩ pre hd hc.hd_eq ?_ hpre
    have h1 := hc.2.2
    rw [List.append_assoc, List.cons_append, List.chain'_split] at h1
    exact h1.1
  have hwalk := markWalk_spec h s op isA (suf ++ pre) [] s h
    (PointInsidePolygon other sv.p) (by simpa using hrot) (SameLinks.rfl' h)
  simp only [List.length_append, List.length_cons] at hf
  simp only [MarkEntryExit, hstart f (by omega), Option.some_bind, load, hsv]
  rw [hwalk f (by simp; omega), hpt]
  rfl

theorem insideAfter_append (fl : Nat → Bool) (s : Bool) (l1 l2 : List Nat) :
    insideAfter fl s (l1 ++ l2) = insideAfter fl (insideAfter fl s l1) l2 := by
  unfold insideAfter
  rw [List.foldl_append]

theorem insideAfter_of_no_flag (fl : Nat → Bool) :
    ∀ (l : List Nat) (s : Bool), (∀ x, x ∈ l → fl x = false) → insideAfter fl s l = s
  | [], _, _ => rfl
  | c :: t, s, hl => by
    have hc := hl c (List.mem_cons_self _ _)
    have := insideAfter_of_no_flag fl t s fun x hx => hl x (List.mem_cons_of_mem _ hx)
    unfold insideAfter at this ⊢
    rw [List.foldl_cons, hc]
    exact this

theorem insideAfter_cons_flag (fl : Nat → Bool) (s : Bool) (c : Nat) (t : List Nat)
    (hc : fl c = true) : insideAfter fl s (c :: t) = insideAfter fl (!s) t := by
  unfold insideAfter
  rw [List.foldl_cons, hc]
  rfl

theorem entryRule_not (op : GHOp) (isA inside : Bool) :
    entryRule op isA (!inside) = !entryRule op isA inside := by
  cases op <;> cases isA <;> cases inside <;> rfl

/-- the flag `entry` of an intersection node of the ring after the marking -/
theorem nodeEntry_markCells (fl : Nat → Bool) (rule : Bool → Bool) (p q : List Nat) (c : Nat)
    (hc : fl c = true) (g : NodeHeap) (s : Bool) (hnd : (p ++ c :: q).Nodup)
    (hg : c < g.length) :
    nodeEntry (markCells fl rule (p ++ c :: q) g s).1 c = rule (insideAfter fl s p) := by
  obtain ⟨v, hv⟩ := exists_getElem?_of_lt hg
  unfold nodeEntry
  rw [markCells_get_split fl rule c q hc p g s hnd, hv]
  rfl

/-- C38. On a ring `pre ++ s :: suf` read from the pointer `hd` given to
`MarkEntryExit`, where the cells `pre` are intersection nodes and `s` is the
first node that is not one, the call returns for every fuel above the length
of the ring, and in the heap `g` it returns, for any two intersection nodes
`c1` and `c2` that follow each other in the walk `s :: suf ++ pre` (the cells
`mid` between them are no intersection nodes), the flag `entry` of `c2` is the
negation of the flag `entry` of `c1`. -/
theorem C38_entry_flags_alternate {h : NodeHeap} {hd s : Nat} {pre suf : List Nat}
    (hc : IsCycle (nodeNext h) hd (pre ++ s :: suf))
    (hpre : ∀ x, x ∈ pre → isInt h x = true) (hs : isInt h s = false)
    (other : List Point) (op : GHOp) (isA : Bool) :
    ∃ g, (∀ f, (pre ++ s :: suf).length + 1 ≤ f →
        MarkEntryExit f h (some hd) other op isA = some g) ∧
      ∀ p c1 mid c2 q, s :: suf ++ pre = p ++ c1 :: (mid ++ c2 :: q) →
        isInt h c1 = true → isInt h c2 = true → (∀ x, x ∈ mid → isInt h x = false) →
        nodeEntry g c2 = !nodeEntry g c1 := by
  refine ⟨_, MarkEntryExit_marked hc hpre hs other op isA, ?_⟩
  intro p c1 mid c2 q e h1 h2 hmid
  have hrot := hc.rotate_at
  have e1 : s :: (suf ++ pre) = p ++ c1 :: (mid ++ c2 :: q) := by simpa using e
  have e2 : s :: (suf ++ pre) = (p ++ c1 :: mid) ++ c2 :: q := by simpa using e
  have hmem : ∀ x, x ∈ s :: (suf ++ pre) → x < h.length := fun x hx => by
    obtain ⟨v, _, hv, _, _⟩ := hc.cell (x := x) (by
      simp only [List.mem_cons, List.mem_append] at hx ⊢
      tauto)
    exact getElem?_lt hv
  have hc1 : c1 < h.length := hmem c1 (by rw [e1]; simp)
  have hc2 : c2 < h.length := hmem c2 (by rw [e1]; simp)
  have hnd1 : (p ++ c1 :: (mid ++ c2 :: q)).Nodup := by
    rw [← e1]; simpa using hrot.1
  have hnd2 : ((p ++ c1 :: mid) ++ c2 :: q).Nodup := by
    rw [← e2]; simpa using hrot.1
  have r1 := nodeEntry_markCells (isInt h) (entryRule op isA) p (mid ++ c2 :: q) c1 h1 h
    (PointInsidePolygon other (nodePoint h s)) hnd1 hc1
  have r2 := nodeEntry_markCells (isInt h) (entryRule op isA) (p ++ c1 :: mid) q c2 h2 h
    (PointInsidePolygon other (nodePoint h s)) hnd2 hc2
  rw [← e1] at r1
  rw [← e2] at r2
  rw [r1, r2, insideAfter_append, insideAfter_cons_flag _ _ _ _ h1,
    insideAfter_of_no_flag _ _ _ hmid, entryRule_not]

theorem C38_entry_flags_alternate_witness :
    IsCycle (nodeNext crossingCrossed) 8 ([8] ++ 2 :: [10, 3, 0, 1]) ∧
    (∀ x, x ∈ [8] → isInt crossingCrossed x = true) ∧ isInt crossingCrossed 2 = false ∧
    (∃ g, (∀ f, ([8] ++ 2 :: [10, 3, 0, 1]).length + 1 ≤ f →
        MarkEntryExit f crossingCrossed (some 8) crossingB GHOp.Intersection true = some g) ∧
      ∀ p c1 mid c2 q, 2 :: [10, 3, 0, 1] ++ [8] = p ++ c1 :: (mid ++ c2 :: q) →
        isInt crossingCrossed c1 = true → isInt crossingCrossed c2 = true →
        (∀ x, x ∈ mid → isInt crossingCrossed x = false) →
        nodeEntry g c2 = !nodeEntry g c1) ∧
    (MarkEntryExit 7 crossingCrossed (some 8) crossingB GHOp.Intersection true).map
      (fun g => (nodeEntry g 10, nodeEntry g 8)) = some (true, false) :=
  ⟨crossingCrossed_cycle, by decide!, by decide!,
    C38_entry_flags_alternate crossingCrossed_cycle (by decide!) (by decide!)
      crossingB GHOp.Intersection true, by decide!⟩

end PolygonUtilityExtension

end GeometryCore

/-! ### `TraceResult`: how a walk ends -/

namespace GeometryCore

namespace PolygonUtilityExtension

set_option maxRecDepth 100000

/-- the instrumented loop returns the heap and the points of `TraceResultLoop` -/
theorem TraceResultLoopEnd_erase (start : Option Nat) (op : GHOp) :
    ∀ (f : Nat) (h : NodeHeap) (cur : Option Nat) (onPolyA forward : Bool)
      (acc : List (Nat × Point)),
      (TraceResultLoopEnd start op f h cur onPolyA forward acc).map (fun r => (r.1, r.2.1)) =
        TraceResultLoop start op f h cur onPolyA forward acc := by
  intro f
  induction f with
  | zero =>
    intro h cur onPolyA forward acc
    rfl
  | succ f ih =>
    intro h cur onPolyA forward acc
    cases cur with
    | none => rfl
    | some c =>
      rw [TraceResultLoopEnd, TraceResultLoop]
      cases load h (some c) with
      | none => rfl
      | some v =>
        simp only [Option.some_bind]
        by_cases hvis : v.visited = true
        · rw [if_pos hvis, if_pos hvis]; rfl
        · rw [if_neg hvis, if_neg hvis]
          cases store h (some c) (fun w => { w with visited := true }) with
          | none => rfl
          | some h1 =>
            simp only [Option.some_bind]
            cases load h1 (some c) with
            | none => rfl
            | some v1 =>
              simp only [Option.some_bind]
              cases (if v1.neighbor ≠ none then
                  store h1 v1.neighbor fun w => { w with visited := true }
                else some h1) with
              | none => rfl
              | some h2 =>
                simp only [Option.some_bind]
                cases load h2 (some c) with
                | none => rfl
                | some v2 =>
                  simp only [Option.some_bind]
                  cases load h2 (if v2.isIntersection = true then v2.neighbor else some c) with
                  | none => rfl
                  | some w =>
                    simp only [Option.some_bind]
                    split_ifs <;> first | rfl | exact ih _ _ _ _ _

/-- more fuel keeps the result of the instrumented loop -/
theorem TraceResultLoopEnd_mono (start : Option Nat) (op : GHOp) :
    ∀ (f : Nat) (h : NodeHeap) (cur : Option Nat) (onPolyA forward : Bool)
      (acc : List (Nat × Point)) (e : NodeHeap × List (Nat × Point) × Option Nat × Bool),
      TraceResultLoopEnd start op f h cur onPolyA forward acc = some e →
      ∀ f1, f ≤ f1 → TraceResultLoopEnd start op f1 h cur onPolyA forward acc = some e := by
  intro f
  induction f with
  | zero =>
    intro h cur onPolyA forward acc e hrun
    cases hrun
  | succ f ih =>
    intro h cur onPolyA forward acc e hrun f1 hf1
    obtain ⟨f1, rfl⟩ : ∃ j, f1 = j + 1 := ⟨f1 - 1, by omega⟩
    cases cur with
    | none => exact hrun
    | some c =>
      rw [TraceResultLoopEnd] at hrun ⊢
      revert hrun
      cases load h (some c) with
      | none => exact fun hh => by cases hh
      | some v =>
        simp only [Option.some_bind]
        by_cases hvis : v.visited = true
        · rw [if_pos hvis, if_pos hvis]; exact id
        · rw [if_neg hvis, if_neg hvis]
          cases store h (some c) (fun w => { w with visited := true }) with
          | none => exact fun hh => by cases hh
          | some h1 =>
            simp only [Option.some_bind]
            cases load h1 (some c) with
            | none => exact fun hh => by cases hh
            | some v1 =>
              simp only [Option.some_bind]
              cases (if v1.neighbor ≠ none then
                  store h1 v1.neighbor fun w => { w with visited := true }
                else some h1) with
              | none => exact fun hh => by cases hh
              | some h2 =>
                simp only [Option.some_bind]
                cases load h2 (some c) with
                | none => exact fun hh => by cases hh
                | some v2 =>
                  simp only [Option.some_bind]
                  cases load h2 (if v2.isIntersection = true then v2.neighbor else some c) with
                  | none => exact fun hh => by cases hh
                  | some w =>
                    simp only [Option.some_bind]
                    split_ifs <;>
                      first
                      | exact id
                      | exact fun hrun => ih _ _ _ _ _ _ hrun _ (by omega)

theorem TraceResultEnd_erase (f : Nat) (h : NodeHeap) (start : Option Nat) (op : GHOp)
    (startOnA : Bool) :
    (TraceResultEnd f h start op startOnA).map (fun r => (r.1, r.2.1)) =
      TraceResult f h start op startOnA :=
  TraceResultLoopEnd_erase start op f h start startOnA true []

theorem walkSucc_sameLinks {h g : NodeHeap} (hs : SameLinks h g) : walkSucc g = walkSucc h := by
  funext fw l
  unfold walkSucc
  rw [hs.2.1, hs.2.2.1, hs.2.2.2.1, hs.2.2.2.2]

theorem getLast?_map_append_singleton (acc : List (Nat × Point)) (c : Nat) (p : Point) :
    ((acc ++ [(c, p)]).map Prod.fst).getLast? = some c := by
  rw [List.map_append]
  simp

/-- what the locals hold when the loop of `TraceResult` ends on a closed heap:
`cur` is a node, the start node or a visited one, and it is the node that the
walk goes to from the last node pushed -/
theorem TraceResultLoopEnd_sound (start : Option Nat) (op : GHOp) :
    ∀ (f : Nat) (h : NodeHeap) (c : Nat) (onPolyA forward : Bool) (acc : List (Nat × Point))
      (e : NodeHeap × List (Nat × Point) × Option Nat × Bool),
      Closed h → c < h.length →
      (∀ l, (acc.map Prod.fst).getLast? = some l → walkSucc h forward l = some c) →
      (op = GHOp.Intersection ∨ op = GHOp.Union → forward = true) →
      TraceResultLoopEnd start op f h (some c) onPolyA forward acc = some e →
      SameLinks h e.1 ∧ ∃ x, e.2.2.1 = some x ∧ x < h.length ∧
        (some x = start ∨ isVisited e.1 x = true) ∧
        (∀ l, (e.2.1.map Prod.fst).getLast? = some l → walkSucc e.1 e.2.2.2 l = some x) ∧
        (op = GHOp.Intersection ∨ op = GHOp.Union → e.2.2.2 = true) ∧
        acc.length ≤ e.2.1.length ∧ (isVisited h c = false → acc.length < e.2.1.length) := by
  intro f
  induction f with
  | zero =>
    intro h c onPolyA forward acc e _ _ _ _ hrun
    cases hrun
  | succ f ih =>
    intro h c onPolyA forward acc e hclh hc hinv hfw hrun
    obtain ⟨v, hv⟩ := exists_getElem?_of_lt hc
    rw [TraceResultLoopEnd] at hrun
    simp only [load, hv, Option.some_bind] at hrun
    by_cases hvis : v.visited = true
    · rw [if_pos hvis] at hrun
      rw [← Option.some.inj hrun]
      refine ⟨SameLinks.rfl' h, c, rfl, hc, Or.inr ?_, hinv, hfw, le_refl _, fun hn => ?_⟩
      · rw [isVisited_of_getElem? hv]; exact hvis
      · rw [isVisited_of_getElem? hv, hvis] at hn
        cases hn
    · rw [if_neg hvis, store_eq_nodeUpd _ hc] at hrun
      have hs1 : SameLinks h (upd h c fun w => { w with visited := true }) :=
        sameLinks_upd h c _ fun w => ⟨rfl, rfl, rfl, rfl⟩
      have hv1 : (upd h c fun w => { w with visited := true })[c]? =
          some { v with visited := true } := by
        rw [getElem?_nodeUpd, if_pos rfl, hv]; rfl
      obtain ⟨h2, hstore, hs2, hvis2⟩ : ∃ h2,
          (if v.neighbor ≠ none then
            store (upd h c fun w => { w with visited := true }) v.neighbor
              fun w => { w with visited := true }
           else some (upd h c fun w => { w with visited := true })) = some h2 ∧
          SameLinks h h2 ∧ ∀ x, isVisited h x = true ∨ x = c → isVisited h2 x = true := by
        cases hnb : v.neighbor with
        | none =>
          refine ⟨_, by simp, hs1, fun x hx => ?_⟩
          rw [isVisited_mark h c x hc]
          rcases hx with hx | hx
          · simp [hx]
          · simp [hx]
        | some d =>
          have hd : d < h.length :=
            (hclh c hc).2.2.1 d (by rw [nodeNeighbor_of_getElem? hv, hnb])
          refine ⟨upd (upd h c fun w => { w with visited := true }) d
            fun w => { w with visited := true }, ?_, ?_, fun x hx => ?_⟩
          · simp only [ne_eq, reduceCtorEq, not_false_eq_true, if_true]
            exact store_eq_nodeUpd _ (by simpa using hd)
          · exact hs1.trans' (sameLinks_upd _ d _ fun w => ⟨rfl, rfl, rfl, rfl⟩)
          · rw [isVisited_mark _ d x (by simpa using hd), isVisited_mark h c x hc]
            rcases hx with hx | hx
            · simp [hx]
            · simp [hx]
      have hlen2 : h2.length = h.length := hs2.1
      obtain ⟨v2, hv2⟩ := exists_getElem?_of_lt (h := h2) (a := c) (by omega)
      have hcl2 : Closed h2 := hs2.closed hclh
      obtain ⟨c1, hc1, hcur1⟩ : ∃ c1, c1 < h2.length ∧
          (if v2.isIntersection = true then v2.neighbor else some c) = some c1 := by
        by_cases hi : v2.isIntersection = true
        · have h1 := (hcl2 c (by omega)).2.2.2 (by rw [isInt_of_getElem? hv2]; exact hi)
          rw [nodeNeighbor_of_getElem? hv2] at h1
          obtain ⟨d, hd⟩ := Option.isSome_iff_exists.1 h1
          refine ⟨d, (hcl2 c (by omega)).2.2.1 d (by rw [nodeNeighbor_of_getElem? hv2, hd]), ?_⟩
          rw [if_pos hi, hd]
        · exact ⟨c, by omega, by rw [if_neg hi]⟩
      obtain ⟨w, hw⟩ := exists_getElem?_of_lt hc1
      have hnext : ∀ fw : Bool, ∃ c3, c3 < h2.length ∧
          (if fw = true then w.next else w.prev) = some c3 := fun fw => by
        obtain ⟨x, hx, hxl⟩ := (hcl2 c1 hc1).1
        obtain ⟨y, hy, hyl⟩ := (hcl2 c1 hc1).2.1
        rw [nodeNext_of_getElem? hw] at hx
        rw [nodePrev_of_getElem? hw] at hy
        cases fw
        · exact ⟨y, hyl, by simp [hy]⟩
        · exact ⟨x, hxl, by simp [hx]⟩
      obtain ⟨c3, hc3, hcur3⟩ := hnext
        (if v2.isIntersection = true then
          (if op = GHOp.Intersection ∨ op = GHOp.Union then true
           else if v2.isIntersection = true then !onPolyA else onPolyA)
         else forward)
      -- the walk goes from `c` to `c3`
      have hsucc : walkSucc h2
          (if v2.isIntersection = true then
            (if op = GHOp.Intersection ∨ op = GHOp.Union then true
             else if v2.isIntersection = true then !onPolyA else onPolyA)
           else forward) c = some c3 := by
        unfold walkSucc
        rw [isInt_of_getElem? hv2, nodeNeighbor_of_getElem? hv2, hcur1, Option.some_bind,
          nodeNext_of_getElem? hw, nodePrev_of_getElem? hw]
        exact hcur3
      have hfw1 : op = GHOp.Intersection ∨ op = GHOp.Union →
          (if v2.isIntersection = true then
            (if op = GHOp.Intersection ∨ op = GHOp.Union then true
             else if v2.isIntersection = true then !onPolyA else onPolyA)
           else forward) = true := fun ho => by
        by_cases hi : v2.isIntersection = true
        · rw [if_pos hi, if_pos ho]
        · rw [if_neg hi]; exact hfw ho
      simp only [Option.some_bind, hv1, hstore, load, hv2, hcur1, hw, hcur3] at hrun
      by_cases hstart : some c3 = start
      · rw [if_pos hstart] at hrun
        rw [← Option.some.inj hrun]
        refine ⟨hs2, c3, rfl, by omega, Or.inl hstart, fun l hl => ?_, hfw1, by simp,
          fun _ => by simp⟩
        rw [getLast?_map_append_singleton] at hl
        rw [← Option.some.inj hl]
        exact hsucc
      · rw [if_neg hstart] at hrun
        obtain ⟨r1, x, r2, r3, r4, r5, r6, r7, _⟩ := ih h2 c3 _ _ _ e hcl2 hc3 (fun l hl => by
          rw [getLast?_map_append_singleton] at hl
          rw [← Option.some.inj hl]
          exact hsucc) hfw1 hrun
        have hlen : acc.length + 1 ≤ e.2.1.length := by simpa using r7
        exact ⟨hs2.trans' r1, x, r2, by omega, r4, r5, r6, by omega, fun _ => by omega⟩

/-- a heap whose links pass the bounded checks is closed -/
theorem closed_of_checks (h : NodeHeap)
    (hch : ∀ a, a < h.length →
      (nodeNext h a).any (fun x => decide (x < h.length)) = true ∧
      (nodePrev h a).any (fun x => decide (x < h.length)) = true ∧
      (nodeNeighbor h a).all (fun x => decide (x < h.length)) = true ∧
      (isInt h a = true → (nodeNeighbor h a).isSome = true)) : Closed h := by
  intro a ha
  obtain ⟨h1, h2, h3, h4⟩ := hch a ha
  refine ⟨?_, ?_, fun x hx => ?_, h4⟩
  · cases hn : nodeNext h a with
    | none => rw [hn] at h1; cases h1
    | some x => rw [hn] at h1; exact ⟨x, rfl, by simpa using h1⟩
  · cases hn : nodePrev h a with
    | none => rw [hn] at h2; cases h2
    | some x => rw [hn] at h2; exact ⟨x, rfl, by simpa using h2⟩
  · rw [hx] at h3
    simpa using h3

/-- C31, the failing run. For `cornerCutter` and `square4` the only crossing
that `FindIntersections` records is `(2,0)` (cells 7 and 8; the crossing in
the corner `(0,0)` has parameter `0` on one edge of the square and `1` on the
other, outside the bounds of the test). The walk that `Compute` starts for
`Intersection` begins at cell 7 and pushes the cells 7, 4, 5, 6, 3; the
successor of the last cell 3 is the cell 8, the neighbor of the start, which
was marked visited at the start: the loop ends on the test of `visited`, with
`cur` at cell 8 and not at the start, and `Compute` returns the whole square
with the extra point `(2,0)` as the intersection. All values are dyadic, so
the run is the same in binary64 arithmetic. -/
theorem C31_walk_stops_at_visited_neighbor :
    (ComputeTraced 10 cornerCutter square4 GHOp.Intersection).map
        (fun r => r.walks.map fun w => w.map Prod.fst) = some [[7, 4, 5, 6, 3]] ∧
    (Compute 10 cornerCutter square4 GHOp.Intersection) =
      some [[⟨2, 0⟩, ⟨4, 0⟩, ⟨4, 4⟩, ⟨0, 4⟩, ⟨0, 0⟩]] ∧
    ComputeMarked 10 cornerCutter square4 GHOp.Intersection = some cornerMarked ∧
    (isInt cornerMarked 7 = true ∧ isVisited cornerMarked 7 = false ∧
      nodeEntry cornerMarked 7 = true) ∧
    (TraceResultEnd 10 cornerMarked (some 7) GHOp.Intersection true).map
        (fun r => (r.2.1.map Prod.fst, r.2.2)) = some ([7, 4, 5, 6, 3], some 8, true) ∧
    (TraceResult 10 cornerMarked (some 7) GHOp.Intersection true).map
        (fun r => (r.2.map Prod.fst, isVisited r.1 8, walkSucc r.1 true 3,
          walkSucc r.1 false 3)) = some ([7, 4, 5, 6, 3], true, some 8, some 6) := by
  refine ⟨by decide!, by decide!, by decide!, ⟨by decide!, by decide!, by decide!⟩,
    by decide!, by decide!⟩

/-- the two ways in which a walk of `TraceResult` ends: on a heap in which
every node has its `next` and `prev`, and every intersection node its
neighbor, every walk from a node that is not yet visited ends, for every fuel
above the number of cells, with at least one node pushed and with `cur` at a
node `x` (never at a null pointer) that is either the start node or a node
already visited; `x` is the successor, in walk direction, of the last node
pushed -/
theorem TraceResultEnd_spec {h : NodeHeap} (hcl : Closed h) {c : Nat} (hc : c < h.length)
    (hv : isVisited h c = false) (op : GHOp) (startOnA : Bool) :
    ∃ (g : NodeHeap) (walk : List (Nat × Point)) (x l : Nat) (fw : Bool),
      (∀ f, h.length + 1 ≤ f →
        TraceResultEnd f h (some c) op startOnA = some (g, walk, some x, fw) ∧
        TraceResult f h (some c) op startOnA = some (g, walk)) ∧
      (walk.map Prod.fst).getLast? = some l ∧ x < g.length ∧
      (x = c ∨ (x ≠ c ∧ isVisited g x = true)) ∧
      walkSucc g fw l = some x ∧ (walkSucc g fw l = some c ↔ x = c) ∧
      (op = GHOp.Intersection ∨ op = GHOp.Union → fw = true) := by
  obtain ⟨r, hr1, _, _, hrun⟩ := TraceResult_spec hcl hc op startOnA
  have h0 := hrun (h.length + 1) (le_refl _)
  rw [← TraceResultEnd_erase] at h0
  obtain ⟨e, he, her⟩ := Option.map_eq_some'.1 h0
  obtain ⟨s1, x, s2, s3, s4, s5, s6, _, s8⟩ :=
    TraceResultLoopEnd_sound (some c) op (h.length + 1) h c startOnA true [] e hcl hc
      (fun l hl => by simp at hl) (fun _ => rfl) he
  have hne : e.2.1 ≠ [] := fun hn => by
    have := s8 hv
    rw [hn] at this
    simp at this
  obtain ⟨l, hl⟩ : ∃ l, (e.2.1.map Prod.fst).getLast? = some l := by
    cases hh : (e.2.1.map Prod.fst).getLast? with
    | none =>
      rw [List.getLast?_eq_none_iff, List.map_eq_nil_iff] at hh
      exact absurd hh hne
    | some l => exact ⟨l, rfl⟩
  refine ⟨e.1, e.2.1, x, l, e.2.2.2, fun f hf => ?_, hl, by rw [s1.1]; exact s3, ?_,
    s5 l hl, ?_, s6⟩
  · refine ⟨?_, ?_⟩
    · have hee : (e.1, e.2.1, some x, e.2.2.2) = e := by rw [← s2]
      rw [hee]
      exact TraceResultLoopEnd_mono (some c) op _ h (some c) startOnA true [] e he f hf
    · rw [hrun f hf, ← her]
  · by_cases hx : x = c
    · exact Or.inl hx
    · rcases s4 with s4 | s4
      · exact absurd (Option.some.inj s4) hx
      · exact Or.inr ⟨hx, s4⟩
  · rw [s5 l hl]
    exact ⟨fun hh => Option.some.inj hh, fun hh => by rw [hh]⟩

theorem TraceResultEnd_spec_crossing :
    Closed crossingMarked ∧ 10 < crossingMarked.length ∧ isVisited crossingMarked 10 = false ∧
    (TraceResultEnd 13 crossingMarked (some 10) GHOp.Intersection true).map
        (fun r => (r.2.1.map Prod.fst, r.2.2)) = some ([10, 4, 9, 2], some 10, true) ∧
    ∃ (g : NodeHeap) (walk : List (Nat × Point)) (x l : Nat) (fw : Bool),
      (∀ f, crossingMarked.length + 1 ≤ f →
        TraceResultEnd f crossingMarked (some 10) GHOp.Intersection true =
          some (g, walk, some x, fw) ∧
        TraceResult f crossingMarked (some 10) GHOp.Intersection true = some (g, walk)) ∧
      (walk.map Prod.fst).getLast? = some l ∧ x < g.length ∧
      (x = 10 ∨ (x ≠ 10 ∧ isVisited g x = true)) ∧
      walkSucc g fw l = some x ∧ (walkSucc g fw l = some 10 ↔ x = 10) ∧
      (GHOp.Intersection = GHOp.Intersection ∨ GHOp.Intersection = GHOp.Union → fw = true) :=
  ⟨closed_of_checks crossingMarked (by decide!), by decide!, by decide!, by decide!,
    TraceResultEnd_spec (closed_of_checks crossingMarked (by decide!)) (by decide!) (by decide!)
      GHOp.Intersection true⟩

end PolygonUtilityExtension

end GeometryCore

/-! ### Binary64 rounding: integers below `2 ^ 53` are not changed -/

namespace Binary64

theorem bitsAux_le : ∀ (j n : Nat), 1 ≤ n → 2 ^ bitsAux j n ≤ n
  | 0, n, hn => by simpa [bitsAux] using hn
  | j + 1, n, hn => by
    unfold bitsAux
    split_ifs with h
    · have hpos : 0 < 2 ^ 2 ^ j := pow_pos (by norm_num) _
      have h1 : 1 ≤ n / 2 ^ 2 ^ j := (Nat.one_le_div_iff hpos).2 h
      have ih := bitsAux_le j (n / 2 ^ 2 ^ j) h1
      calc 2 ^ (2 ^ j + bitsAux j (n / 2 ^ 2 ^ j))
          = 2 ^ 2 ^ j * 2 ^ bitsAux j (n / 2 ^ 2 ^ j) := by rw [pow_add]
        _ ≤ 2 ^ 2 ^ j * (n / 2 ^ 2 ^ j) := Nat.mul_le_mul_left _ ih
        _ ≤ n := Nat.mul_div_le n _
    · exact bitsAux_le j n hn

theorem roundHalfEven_one (x : Nat) : roundHalfEven x 1 = x := by
  unfold roundHalfEven
  simp [Nat.mod_one]

theorem bitsAux_one : ∀ j : Nat, bitsAux j 1 = 0
  | 0 => rfl
  | j + 1 => by
    unfold bitsAux
    have h : ¬ 2 ^ 2 ^ j ≤ 1 := by
      have : 2 ^ 1 ≤ 2 ^ 2 ^ j :=
        Nat.pow_le_pow_right (by norm_num) (Nat.one_le_two_pow)
      omega
    rw [if_neg h]
    exact bitsAux_one j

theorem roundPos_nat (n : Nat) (hn : 1 ≤ n) (hb : n < 2 ^ 53) : roundPos n 1 = n := by
  have hL : 2 ^ log2 n ≤ n := bitsAux_le 12 n hn
  have hL53 : log2 n < 53 := by
    by_contra hc
    have : 2 ^ 53 ≤ 2 ^ log2 n := Nat.pow_le_pow_right (by norm_num) (not_lt.1 hc)
    omega
  have h1 : log2 1 = 0 := bitsAux_one 12
  have hfl : floorLog2 n 1 = (log2 n : Int) := by
    unfold floorLog2
    simp only [h1, Nat.cast_zero, sub_zero]
    rw [if_pos (Int.ofNat_nonneg _), Int.toNat_ofNat, one_mul, if_pos hL]
  unfold roundPos
  simp only [hfl]
  have hmax : max ((log2 n : Int) - 52) (-1074) = (log2 n : Int) - 52 := by
    apply max_eq_left
    omega
  rw [hmax]
  by_cases h0 : log2 n = 52
  · rw [h0]
    simp [scale2, roundHalfEven_one]
  · have hneg : ¬ (0 : Int) ≤ (log2 n : Int) - 52 := by omega
    rw [if_neg hneg, roundHalfEven_one]
    unfold scale2
    rw [if_neg hneg, Rat.mkRat_eq_div]
    have hp : ((2 ^ (-((log2 n : Int) - 52)).toNat : Nat) : ℚ) ≠ 0 := by
      have : 0 < 2 ^ (-((log2 n : Int) - 52)).toNat := pow_pos (by norm_num) _
      exact_mod_cast this.ne'
    push_cast
    field_simp

/-- an integer of absolute value below `2 ^ 53` is a binary64 number -/
theorem rnd_intCast (z : Int) (hz : z.natAbs < 2 ^ 53) : rnd (z : ℚ) = z := by
  unfold rnd
  by_cases h0 : z = 0
  · simp [h0]
  · have hq : (z : ℚ) ≠ 0 := by exact_mod_cast h0
    rw [if_neg hq]
    have hn : 1 ≤ z.natAbs := Nat.one_le_iff_ne_zero.2 (Int.natAbs_ne_zero.2 h0)
    simp only [Rat.num_intCast, Rat.den_intCast]
    rw [roundPos_nat z.natAbs hn hz]
    by_cases hpos : (0 : ℚ) < z
    · rw [if_pos hpos]
      have : 0 < z := by exact_mod_cast hpos
      rw [Nat.cast_natAbs, abs_of_pos this]
    · rw [if_neg hpos]
      have : z < 0 := by
        have : ¬ 0 < z := by exact_mod_cast hpos
        omega
      rw [Nat.cast_natAbs, abs_of_neg this]
      push_cast
      ring

theorem IsInt.rnd_eq {B : Nat} {q : ℚ} (h : IsInt B q) (hB : B < 2 ^ 53) : rnd q = q := by
  obtain ⟨z, rfl, hz⟩ := h
  exact rnd_intCast z (by omega)

theorem IsInt.mono {B C : Nat} {q : ℚ} (h : IsInt B q) (hBC : B ≤ C) : IsInt C q := by
  obtain ⟨z, e, hz⟩ := h
  exact ⟨z, e, by omega⟩

theorem IsInt.zero (B : Nat) : IsInt B 0 := ⟨0, by simp, by simp⟩

theorem IsInt.add {B C : Nat} {p q : ℚ} (hp : IsInt B p) (hq : IsInt C q) :
    IsInt (B + C) (p + q) := by
  obtain ⟨a, rfl, ha⟩ := hp
  obtain ⟨b, rfl, hb⟩ := hq
  refine ⟨a + b, by push_cast; rfl, ?_⟩
  have := Int.natAbs_add_le a b
  omega

theorem IsInt.sub {B C : Nat} {p q : ℚ} (hp : IsInt B p) (hq : IsInt C q) :
    IsInt (B + C) (p - q) := by
  obtain ⟨a, rfl, ha⟩ := hp
  obtain ⟨b, rfl, hb⟩ := hq
  refine ⟨a - b, by push_cast; rfl, ?_⟩
  have := Int.natAbs_sub_le a b
  omega

theorem IsInt.mul {B C : Nat} {p q : ℚ} (hp : IsInt B p) (hq : IsInt C q) :
    IsInt (B * C) (p * q) := by
  obtain ⟨a, rfl, ha⟩ := hp
  obtain ⟨b, rfl, hb⟩ := hq
  refine ⟨a * b, by push_cast; rfl, ?_⟩
  rw [Int.natAbs_mul]
  exact Nat.mul_le_mul ha hb

end Binary64

/-! ### Binary64 rounding: it does not cross a binary64 number -/

namespace Binary64

theorem bitsAux_lt : ∀ (j n : Nat), n < 2 ^ 2 ^ j → n < 2 ^ (bitsAux j n + 1)
  | 0, n, hn => by simpa [bitsAux] using hn
  | j + 1, n, hn => by
    unfold bitsAux
    split_ifs with h
    · have hpos : 0 < 2 ^ 2 ^ j := pow_pos (by norm_num) _
      have h1 : n / 2 ^ 2 ^ j < 2 ^ 2 ^ j := by
        rw [Nat.div_lt_iff_lt_mul hpos, ← pow_add]
        have : 2 ^ j + 2 ^ j = 2 ^ (j + 1) := by ring
        rwa [this]
      have ih := bitsAux_lt j _ h1
      rw [Nat.div_lt_iff_lt_mul hpos] at ih
      calc n < 2 ^ (bitsAux j (n / 2 ^ 2 ^ j) + 1) * 2 ^ 2 ^ j := ih
        _ = 2 ^ (2 ^ j + bitsAux j (n / 2 ^ 2 ^ j) + 1) := by ring
    · exact bitsAux_lt j n (not_le.1 h)

/-- the power of two that `floorLog2` names is not above the quotient -/
theorem floorLog2_le (n d : Nat) (hn : 1 ≤ n) (hd : 1 ≤ d) (hd2 : d < 2 ^ 4096) :
    (2 : ℚ) ^ (floorLog2 n d) ≤ (n : ℚ) / d := by
  have hL : 2 ^ log2 n ≤ n := bitsAux_le 12 n hn
  have hU : d < 2 ^ (log2 d + 1) := bitsAux_lt 12 d hd2
  have hdq : (0 : ℚ) < d := by exact_mod_cast hd
  have hnq : (0 : ℚ) ≤ n := Nat.cast_nonneg _
  have hLq : (2 : ℚ) ^ (log2 n) ≤ n := by exact_mod_cast hL
  have hUq : (d : ℚ) ≤ 2 ^ (log2 d + 1) := by exact_mod_cast hU.le
  have hlow : (2 : ℚ) ^ ((log2 n : Int) - (log2 d : Int) - 1) ≤ (n : ℚ) / d := by
    have e : (2 : ℚ) ^ ((log2 n : Int) - (log2 d : Int) - 1)
        = 2 ^ (log2 n) / 2 ^ (log2 d + 1) := by
      rw [show (log2 n : Int) - (log2 d : Int) - 1 = (log2 n : Int) - ((log2 d + 1 : Nat) : Int)
        by push_cast; ring]
      rw [zpow_sub₀ (by norm_num), zpow_natCast, zpow_natCast]
    rw [e, div_le_div_iff₀ (pow_pos (by norm_num) _) hdq]
    exact mul_le_mul hLq hUq hdq.le hnq
  unfold floorLog2
  dsimp only
  split_ifs with h1 h2 h3
  · obtain ⟨K, hK⟩ := Int.eq_ofNat_of_zero_le h1
    rw [hK] at h2 ⊢
    rw [Int.toNat_ofNat] at h2
    rw [zpow_natCast, le_div_iff₀ hdq]
    have : ((d * 2 ^ K : Nat) : ℚ) ≤ n := by exact_mod_cast h2
    push_cast at this
    linarith
  · exact hlow
  · have hK : (log2 n : Int) - (log2 d : Int)
        = -(((-((log2 n : Int) - (log2 d : Int))).toNat : Nat) : Int) := by
      rw [Int.toNat_of_nonneg (by omega)]
      ring
    have h3q : ((d : Nat) : ℚ)
        ≤ ((n * 2 ^ (-((log2 n : Int) - (log2 d : Int))).toNat : Nat) : ℚ) := by
      exact_mod_cast h3
    push_cast at h3q
    rw [hK, zpow_neg, zpow_natCast, inv_eq_one_div,
      div_le_div_iff₀ (pow_pos (by norm_num) _) hdq]
    linarith
  · exact hlow

theorem scale2_eq (m : Int) (e : Int) : scale2 m e = (m : ℚ) * (2 : ℚ) ^ e := by
  unfold scale2
  split_ifs with h
  · obtain ⟨K, rfl⟩ := Int.eq_ofNat_of_zero_le h
    rw [Int.toNat_ofNat, zpow_natCast]
    push_cast
    rfl
  · have he : e = -(((-e).toNat : Nat) : Int) := by
      rw [Int.toNat_of_nonneg (by omega)]
      ring
    rw [Rat.mkRat_eq_div]
    conv_rhs => rw [he]
    rw [zpow_neg, zpow_natCast, div_eq_mul_inv]
    push_cast
    rfl

theorem roundHalfEven_ge (n d Z : Nat) (hd : 0 < d) (h : Z * d ≤ n) :
    Z ≤ roundHalfEven n d := by
  have h1 : Z ≤ n / d := (Nat.le_div_iff_mul_le hd).2 h
  unfold roundHalfEven
  dsimp only
  split_ifs <;> omega

theorem roundHalfEven_le (n d Z : Nat) (hd : 0 < d) (h : n ≤ Z * d) :
    roundHalfEven n d ≤ Z := by
  have h0 := Nat.div_add_mod n d
  have h1 : n / d ≤ Z := by
    by_contra hc
    have h2 : (Z + 1) * d ≤ n / d * d := Nat.mul_le_mul_right d (by omega)
    have h3 := Nat.div_mul_le_self n d
    have : Z * d + d ≤ n / d * d := by rw [← Nat.succ_mul]; exact h2
    omega
  have h2 : 0 < n % d → n / d < Z := by
    intro hr
    by_contra hc
    have hz : Z = n / d := by omega
    rw [hz, Nat.mul_comm] at h
    omega
  unfold roundHalfEven
  dsimp only
  split_ifs <;> omega

/-- the significand that `roundPos` takes at the exponent `e` is between the
integers on either side of the scaled quotient -/
theorem significand_bounds (n d : Nat) (hd : 0 < d) (e : Int) (Z : Nat) :
    ((Z : ℚ) * 2 ^ e ≤ (n : ℚ) / d →
      Z ≤ (if 0 ≤ e then roundHalfEven n (d * 2 ^ e.toNat)
        else roundHalfEven (n * 2 ^ (-e).toNat) d)) ∧
    ((n : ℚ) / d ≤ (Z : ℚ) * 2 ^ e →
      (if 0 ≤ e then roundHalfEven n (d * 2 ^ e.toNat)
        else roundHalfEven (n * 2 ^ (-e).toNat) d) ≤ Z) := by
  have hdq : (0 : ℚ) < d := by exact_mod_cast hd
  by_cases h : 0 ≤ e
  · obtain ⟨K, rfl⟩ := Int.eq_ofNat_of_zero_le h
    rw [if_pos h, Int.toNat_ofNat, zpow_natCast]
    have hp : 0 < d * 2 ^ K := Nat.mul_pos hd (pow_pos (by norm_num) _)
    constructor
    · intro hz
      apply roundHalfEven_ge _ _ _ hp
      rw [le_div_iff₀ hdq] at hz
      have : ((Z * (d * 2 ^ K) : Nat) : ℚ) ≤ n := by
        push_cast
        linarith
      exact_mod_cast this
    · intro hz
      apply roundHalfEven_le _ _ _ hp
      rw [div_le_iff₀ hdq] at hz
      have : ((n : Nat) : ℚ) ≤ ((Z * (d * 2 ^ K) : Nat) : ℚ) := by
        push_cast
        linarith
      exact_mod_cast this
  · have he : e = -(((-e).toNat : Nat) : Int) := by
      rw [Int.toNat_of_nonneg (by omega)]
      ring
    rw [if_neg h]
    generalize (-e).toNat = K at he
    subst he
    rw [zpow_neg, zpow_natCast]
    have hK : (0 : ℚ) < 2 ^ K := pow_pos (by norm_num) _
    constructor
    · intro hz
      apply roundHalfEven_ge _ _ _ hd
      rw [← div_eq_mul_inv, div_le_div_iff₀ hK hdq] at hz
      have : ((Z * d : Nat) : ℚ) ≤ ((n * 2 ^ K : Nat) : ℚ) := by
        push_cast
        linarith
      exact_mod_cast this
    · intro hz
      apply roundHalfEven_le _ _ _ hd
      rw [← div_eq_mul_inv, div_le_div_iff₀ hdq hK] at hz
      have : ((n * 2 ^ K : Nat) : ℚ) ≤ ((Z * d : Nat) : ℚ) := by
        push_cast
        linarith
      exact_mod_cast this

theorem roundPos_eq (n d : Nat) :
    roundPos n d =
      (((if 0 ≤ max (floorLog2 n d - 52) (-1074)
          then roundHalfEven n (d * 2 ^ (max (floorLog2 n d - 52) (-1074)).toNat)
          else roundHalfEven (n * 2 ^ (-(max (floorLog2 n d - 52) (-1074))).toNat) d : Nat) : ℚ))
        * (2 : ℚ) ^ (max (floorLog2 n d - 52) (-1074)) := by
  unfold roundPos
  dsimp only
  rw [scale2_eq]
  push_cast
  rfl

theorem roundPos_nonneg (n d : Nat) : 0 ≤ roundPos n d := by
  rw [roundPos_eq]
  exact mul_nonneg (Nat.cast_nonneg _) (zpow_nonneg (by norm_num) _)

theorem two_zpow_pos (e : Int) : (0 : ℚ) < 2 ^ e := zpow_pos (by norm_num) e

/-- the number `z / 2 ^ g` written with the exponent `e ≤ -g` -/
theorem dyadic_rescale (z g : Nat) (e : Int) (he : e ≤ -(g : Int)) :
    ((z * 2 ^ (-(g : Int) - e).toNat : Nat) : ℚ) * 2 ^ e = (z : ℚ) / 2 ^ g := by
  have h1 : ((2 : ℚ) ^ (-(g : Int) - e).toNat) = (2 : ℚ) ^ (-(g : Int) - e) := by
    rw [← zpow_natCast, Int.toNat_of_nonneg (by omega)]
  push_cast
  rw [h1, mul_assoc, ← zpow_add₀ (by norm_num)]
  rw [show -(g : Int) - e + e = -(g : Int) by ring, zpow_neg, zpow_natCast, div_eq_mul_inv]

/-- rounding a positive quotient that is at most the binary64 number
`z / 2 ^ g` gives at most that number -/
theorem roundPos_le (n d : Nat) (hn : 1 ≤ n) (hd : 1 ≤ d) (hd2 : d < 2 ^ 4096)
    (z g : Nat) (hz : z < 2 ^ 53) (hg : g ≤ 1074) (h : (n : ℚ) / d ≤ (z : ℚ) / 2 ^ g) :
    roundPos n d ≤ (z : ℚ) / 2 ^ g := by
  have hfl := floorLog2_le n d hn hd hd2
  have hlt : (2 : ℚ) ^ (floorLog2 n d) < 2 ^ ((53 : Int) - g) := by
    have h53 : (z : ℚ) < 2 ^ 53 := by exact_mod_cast hz
    calc (2 : ℚ) ^ (floorLog2 n d) ≤ (z : ℚ) / 2 ^ g := hfl.trans h
      _ < 2 ^ 53 / 2 ^ g := div_lt_div_of_pos_right h53 (pow_pos (by norm_num) _)
      _ = 2 ^ ((53 : Int) - g) := by
        rw [zpow_sub₀ (by norm_num), zpow_natCast]
        norm_num
  have hk : floorLog2 n d < 53 - g := (zpow_lt_zpow_iff_right₀ (by norm_num)).1 hlt
  have he : max (floorLog2 n d - 52) (-1074) ≤ -(g : Int) := max_le (by omega) (by omega)
  rw [roundPos_eq]
  generalize max (floorLog2 n d - 52) (-1074) = e at he ⊢
  have hm := (significand_bounds n d hd e (z * 2 ^ (-(g : Int) - e).toNat)).2
    (by rw [dyadic_rescale z g e he]; exact h)
  rw [← dyadic_rescale z g e he]
  exact mul_le_mul_of_nonneg_right (by exact_mod_cast hm) (two_zpow_pos e).le

/-- rounding a positive quotient that is at least the binary64 number
`z / 2 ^ g` gives at least that number -/
theorem roundPos_ge (n d : Nat) (hn : 1 ≤ n) (hd : 1 ≤ d) (hd2 : d < 2 ^ 4096)
    (z g : Nat) (hz : z < 2 ^ 53) (hg : g ≤ 1074) (h : (z : ℚ) / 2 ^ g ≤ (n : ℚ) / d) :
    (z : ℚ) / 2 ^ g ≤ roundPos n d := by
  have hfl := floorLog2_le n d hn hd hd2
  rw [roundPos_eq]
  by_cases he : max (floorLog2 n d - 52) (-1074) ≤ -(g : Int)
  · generalize max (floorLog2 n d - 52) (-1074) = e at he ⊢
    have hm := (significand_bounds n d hd e (z * 2 ^ (-(g : Int) - e).toNat)).1
      (by rw [dyadic_rescale z g e he]; exact h)
    rw [← dyadic_rescale z g e he]
    exact mul_le_mul_of_nonneg_right (by exact_mod_cast hm) (two_zpow_pos e).le
  · have hee : max (floorLog2 n d - 52) (-1074) = floorLog2 n d - 52 := by
      rcases max_choice (floorLog2 n d - 52) (-1074) with hc | hc
      · exact hc
      · rw [hc] at he
        omega
    rw [hee] at he ⊢
    have hm := (significand_bounds n d hd (floorLog2 n d - 52) (2 ^ 52)).1 (by
      have : ((2 ^ 52 : Nat) : ℚ) * 2 ^ (floorLog2 n d - 52) = 2 ^ (floorLog2 n d) := by
        rw [show ((2 ^ 52 : Nat) : ℚ) = (2 : ℚ) ^ (52 : Int) by norm_num,
          ← zpow_add₀ (by norm_num),
          show (52 : Int) + (floorLog2 n d - 52) = floorLog2 n d by ring]
      rw [this]
      exact hfl)
    have h53 : (z : ℚ) < 2 ^ 53 := by exact_mod_cast hz
    have hg1 : (2 : ℚ) ^ ((53 : Int) - g) ≤ 2 ^ 52 * 2 ^ (floorLog2 n d - 52) := by
      rw [show ((2 : ℚ) ^ 52) = 2 ^ (52 : Int) from (zpow_natCast 2 52).symm,
        ← zpow_add₀ (by norm_num)]
      exact zpow_le_zpow_right₀ (by norm_num) (by omega)
    calc (z : ℚ) / 2 ^ g ≤ 2 ^ 53 / 2 ^ g :=
        div_le_div_of_nonneg_right h53.le (pow_pos (by norm_num) _).le
      _ = 2 ^ ((53 : Int) - g) := by
        rw [zpow_sub₀ (by norm_num), zpow_natCast]
        norm_num
      _ ≤ 2 ^ 52 * 2 ^ (floorLog2 n d - 52) := hg1
      _ ≤ _ := mul_le_mul_of_nonneg_right (by exact_mod_cast hm) (two_zpow_pos _).le

theorem rnd_neg (q : ℚ) : rnd (-q) = -rnd q := by
  unfold rnd
  by_cases h0 : q = 0
  · simp [h0]
  · have h0n : -q ≠ 0 := neg_ne_zero.2 h0
    rw [if_neg h0, if_neg h0n, Rat.neg_num, Int.natAbs_neg, Rat.neg_den]
    rcases lt_or_gt_of_ne h0 with hq | hq
    · rw [if_pos (by linarith : 0 < -q), if_neg (by linarith : ¬ 0 < q), neg_neg]
    · rw [if_neg (by linarith : ¬ 0 < -q), if_pos hq]

theorem abs_eq_natAbs_div (q : ℚ) : |q| = (q.num.natAbs : ℚ) / q.den := by
  have h := Rat.num_div_den q
  have hd : (0 : ℚ) < q.den := by exact_mod_cast q.den_pos
  conv_lhs => rw [← h]
  rw [abs_div, abs_of_pos hd, Nat.cast_natAbs, Int.cast_abs]

theorem natAbs_pos_of_ne {q : ℚ} (h : q ≠ 0) : 1 ≤ q.num.natAbs :=
  Nat.one_le_iff_ne_zero.2 (Int.natAbs_ne_zero.2 (Rat.num_ne_zero.2 h))

/-- rounding does not cross a binary64 number from below: `q ≤ z / 2 ^ g`
gives `rnd q ≤ z / 2 ^ g` -/
theorem rnd_le (q : ℚ) (hq : q.den < 2 ^ 4096) (z : Int) (g : Nat) (hz : z.natAbs < 2 ^ 53)
    (hg : g ≤ 1074) (h : q ≤ (z : ℚ) / 2 ^ g) : rnd q ≤ (z : ℚ) / 2 ^ g := by
  have hP : (0 : ℚ) < 2 ^ g := pow_pos (by norm_num) _
  unfold rnd
  by_cases h0 : q = 0
  · rw [if_pos h0]
    rw [h0] at h
    exact h
  · rw [if_neg h0]
    have hn := natAbs_pos_of_ne h0
    have habs := abs_eq_natAbs_div q
    by_cases hpos : 0 < q
    · rw [if_pos hpos]
      have hzq : (0 : ℚ) < z := by
        by_contra hc
        have : (z : ℚ) / 2 ^ g ≤ 0 := div_nonpos_of_nonpos_of_nonneg (not_lt.1 hc) hP.le
        linarith
      have hz0 : 0 < z := by exact_mod_cast hzq
      have hzc : (z : ℚ) = (z.natAbs : ℚ) := by
        rw [Nat.cast_natAbs, abs_of_pos hz0]
      rw [hzc] at h ⊢
      apply roundPos_le _ _ hn q.den_pos hq _ _ hz hg
      rw [← habs, abs_of_pos hpos]
      exact h
    · rw [if_neg hpos]
      have hneg : q < 0 := lt_of_le_of_ne (not_lt.1 hpos) h0
      by_cases hz0 : 0 ≤ z
      · have : (0 : ℚ) ≤ (z : ℚ) / 2 ^ g := div_nonneg (by exact_mod_cast hz0) hP.le
        have := roundPos_nonneg q.num.natAbs q.den
        linarith
      · have hz1 : z < 0 := not_le.1 hz0
        have hzc : (z : ℚ) = -(z.natAbs : ℚ) := by
          rw [Nat.cast_natAbs, abs_of_neg hz1]
          push_cast
          ring
        rw [hzc, neg_div] at h ⊢
        apply neg_le_neg
        apply roundPos_ge _ _ hn q.den_pos hq _ _ hz hg
        rw [← habs, abs_of_neg hneg]
        linarith

/-- rounding does not cross a binary64 number from above -/
theorem le_rnd (q : ℚ) (hq : q.den < 2 ^ 4096) (z : Int) (g : Nat) (hz : z.natAbs < 2 ^ 53)
    (hg : g ≤ 1074) (h : (z : ℚ) / 2 ^ g ≤ q) : (z : ℚ) / 2 ^ g ≤ rnd q := by
  have h1 := rnd_le (-q) (by rw [Rat.neg_den]; exact hq) (-z) g (by rw [Int.natAbs_neg]; exact hz)
    hg (by push_cast; rw [neg_div]; linarith)
  rw [rnd_neg] at h1
  push_cast at h1
  rw [neg_div] at h1
  linarith

theorem scale2_den (m : Int) (e : Int) (he : -1074 ≤ e) : (scale2 m e).den ≤ 2 ^ 1074 := by
  unfold scale2
  split_ifs with h
  · rw [Rat.intCast_den]
    exact Nat.one_le_two_pow
  · have hne : (2 ^ (-e).toNat : Nat) ≠ 0 := (pow_pos (by norm_num) _).ne'
    have hdvd : (mkRat m (2 ^ (-e).toNat)).den ∣ 2 ^ (-e).toNat := by
      have := Rat.den_dvd m ((2 ^ (-e).toNat : Nat) : Int)
      rw [← Rat.mkRat_eq_divInt] at this
      exact_mod_cast this
    calc (mkRat m (2 ^ (-e).toNat)).den ≤ 2 ^ (-e).toNat :=
        Nat.le_of_dvd (pow_pos (by norm_num) _) hdvd
      _ ≤ 2 ^ 1074 := Nat.pow_le_pow_right (by norm_num) (by omega)

/-- a rounded number has a denominator of at most `2 ^ 1074` -/
theorem rnd_den (q : ℚ) : (rnd q).den ≤ 2 ^ 1074 := by
  have hr : (roundPos q.num.natAbs q.den).den ≤ 2 ^ 1074 := by
    unfold roundPos
    dsimp only
    exact scale2_den _ _ (le_max_right _ _)
  unfold rnd
  split_ifs
  · exact Nat.one_le_two_pow
  · exact hr
  · rw [Rat.neg_den]
    exact hr

theorem pow_1074_lt : (2 : Nat) ^ 1074 < 2 ^ 4096 :=
  Nat.pow_lt_pow_right (by norm_num) (by norm_num)

theorem lt_pow_4096 {n : Nat} (h : n < 2 ^ 53) : n < 2 ^ 4096 :=
  lt_of_lt_of_le h (Nat.pow_le_pow_right (by norm_num) (by norm_num))

theorem rnd_le_int (q : ℚ) (hq : q.den < 2 ^ 4096) (z : Int) (hz : z.natAbs < 2 ^ 53)
    (h : q ≤ z) : rnd q ≤ z := by
  have := rnd_le q hq z 0 hz (by norm_num) (by simpa using h)
  simpa using this

theorem int_le_rnd (q : ℚ) (hq : q.den < 2 ^ 4096) (z : Int) (hz : z.natAbs < 2 ^ 53)
    (h : (z : ℚ) ≤ q) : (z : ℚ) ≤ rnd q := by
  have := le_rnd q hq z 0 hz (by norm_num) (by simpa using h)
  simpa using this

theorem rnd_le_quarter (q : ℚ) (hq : q.den < 2 ^ 4096) (z : Int) (hz : z.natAbs < 2 ^ 50)
    (h : q ≤ z + 1 / 4) : rnd q ≤ z + 1 / 4 := by
  have e : (z : ℚ) + 1 / 4 = ((4 * z + 1 : Int) : ℚ) / 2 ^ 2 := by
    push_cast
    ring
  rw [e] at h ⊢
  exact rnd_le q hq _ 2 (by omega) (by norm_num) h

theorem quarter_le_rnd (q : ℚ) (hq : q.den < 2 ^ 4096) (z : Int) (hz : z.natAbs < 2 ^ 50)
    (h : (z : ℚ) - 1 / 4 ≤ q) : (z : ℚ) - 1 / 4 ≤ rnd q := by
  have e : (z : ℚ) - 1 / 4 = ((4 * z - 1 : Int) : ℚ) / 2 ^ 2 := by
    push_cast
    ring
  rw [e] at h ⊢
  exact le_rnd q hq _ 2 (by omega) (by norm_num) h

theorem den_div_int_lt (E D : Int) (hD : D.natAbs < 2 ^ 53) : ((E : ℚ) / D).den < 2 ^ 4096 := by
  by_cases h0 : D = 0
  · rw [h0, Int.cast_zero, div_zero]
    exact Nat.one_lt_two_pow (by norm_num)
  · have h := Rat.den_dvd E D
    rw [Rat.divInt_eq_div] at h
    have h2 : ((E : ℚ) / D).den ∣ D.natAbs := Int.natCast_dvd.1 h
    exact lt_pow_4096 (lt_of_le_of_lt (Nat.le_of_dvd (Int.natAbs_pos.2 h0) h2) hD)

theorem den_add_lt (p q : ℚ) (hp : p.den ≤ 2 ^ 1074) (hq : q.den ≤ 2 ^ 1074) :
    (p + q).den < 2 ^ 4096 := by
  have h := Nat.le_of_dvd (Nat.mul_pos p.den_pos q.den_pos) (Rat.add_den_dvd p q)
  calc (p + q).den ≤ p.den * q.den := h
    _ ≤ 2 ^ 1074 * 2 ^ 1074 := Nat.mul_le_mul hp hq
    _ = 2 ^ 2148 := by rw [← pow_add]
    _ < 2 ^ 4096 := Nat.pow_lt_pow_right (by norm_num) (by norm_num)

theorem den_sub_lt (p q : ℚ) (hp : p.den ≤ 2 ^ 1074) (hq : q.den ≤ 2 ^ 1074) :
    (p - q).den < 2 ^ 4096 := by
  rw [sub_eq_add_neg]
  exact den_add_lt p (-q) hp (by rw [Rat.neg_den]; exact hq)

theorem IsInt.den_le {B : Nat} {q : ℚ} (h : IsInt B q) : q.den ≤ 2 ^ 1074 := by
  obtain ⟨z, rfl, _⟩ := h
  rw [Rat.intCast_den]
  exact Nat.one_le_two_pow

theorem IsInt.max {B : Nat} {p q : ℚ} (hp : IsInt B p) (hq : IsInt B q) : IsInt B (max p q) := by
  rcases max_choice p q with h | h <;> rw [h]
  · exact hp
  · exact hq

theorem IsInt.min {B : Nat} {p q : ℚ} (hp : IsInt B p) (hq : IsInt B q) : IsInt B (min p q) := by
  rcases min_choice p q with h | h <;> rw [h]
  · exact hp
  · exact hq

/-- an integer plus a rounded number between `0` and `1 / 4`, rounded, stays
within `1 / 4` of the integer -/
theorem rnd_add_small {P r : ℚ} (hP : IsInt 1048576 P) (hr1 : r ≤ 1 / 4)
    (hrd : r.den ≤ 2 ^ 1074) : rnd (P + r) ≤ P + 1 / 4 ∧ P - 1 / 4 ≤ rnd (P - r) := by
  have hd := hP.den_le
  obtain ⟨z, rfl, hz⟩ := hP
  exact ⟨rnd_le_quarter _ (den_add_lt _ _ hd hrd) z (by omega) (by linarith),
    quarter_le_rnd _ (den_sub_lt _ _ hd hrd) z (by omega) (by linarith)⟩

end Binary64

/-! ### GeometryCore in binary64 arithmetic: polygons with disjoint boxes -/

section DisjointBoxesRounding

open GeometryCore GeometryCore.Polygonutility GeometryCore.BooleanOps

set_option maxRecDepth 100000

/-! Without rounding the functions with the suffix `F` are the exact ones. -/

theorem PointInRingF_id (p : Point) (r : Ring) : PointInRingF id p r = PointInRing p r := rfl

theorem PointInPolygonHolesF_id (p : Point) :
    ∀ holes : List Ring, PointInPolygonHolesF id p holes = PointInPolygonHoles p holes
  | [] => rfl
  | hole :: rest => by
    unfold PointInPolygonHolesF PointInPolygonHoles
    rw [PointInRingF_id, PointInPolygonHolesF_id p rest]

theorem PointInPolygonF_id (p : Point) (poly : Polygon) :
    PointInPolygonF id p poly = PointInPolygon p poly := by
  unfold PointInPolygonF PointInPolygon
  rw [PointInRingF_id, PointInPolygonHolesF_id]

theorem SegmentIntersectF_id (p1 p2 q1 q2 ip : Point) :
    SegmentIntersectF id p1 p2 q1 q2 ip = SegmentIntersect p1 p2 q1 q2 ip := rfl

theorem PolygonsOverlapF_id (A B : Polygon) (u : Point) :
    PolygonsOverlapF id A B u = PolygonsOverlap A B u := by
  unfold PolygonsOverlapF PolygonsOverlap EdgesIntersectF EdgesIntersect
  simp only [PointInPolygonF_id, SegmentIntersectF_id]

theorem IsCCWF_id (pts : List Point) : IsCCWF id pts = IsCCW pts := rfl

theorem InsideF_id (p a b : Point) (c : Bool) : InsideF id p a b c = Inside p a b c := rfl

theorem ClipStepF_id (A B : Point) (c : Bool) (u : Point) :
    ClipStepF id A B c u = ClipStep A B c u := rfl

theorem ClipOutsideStepF_id (A B : Point) (c : Bool) (u : Point) :
    ClipOutsideStepF id A B c u = ClipOutsideStep A B c u := rfl

theorem ClipLoopF_id (clip : List Point) (c : Bool) (u : Point) :
    ∀ (is : List Nat) (out : List Point), ClipLoopF id clip c u is out = ClipLoop clip c u is out
  | [], _ => rfl
  | i :: rest, out => by
    unfold ClipLoopF ClipLoop
    simp only [ClipStepF_id, ClipLoopF_id clip c u rest]

theorem ClipOutsideLoopF_id (clip : List Point) (c : Bool) (u : Point) :
    ∀ (is : List Nat) (out : List Point),
      ClipOutsideLoopF id clip c u is out = ClipOutsideLoop clip c u is out
  | [], _ => rfl
  | i :: rest, out => by
    unfold ClipOutsideLoopF ClipOutsideLoop
    simp only [ClipOutsideStepF_id, ClipOutsideLoopF_id clip c u rest]

theorem AllInsideF_id (X Y : Polygon) : AllInsideF id X Y = AllInside X Y := by
  unfold AllInsideF AllInside
  simp only [PointInPolygonF_id]

/-- without rounding `ComputeBooleanF` is `ComputeBoolean` -/
theorem ComputeBooleanF_id (A B : Polygon) (op : BoolOp) (u : Point) :
    ComputeBooleanF id A B op u = ComputeBoolean A B op u := by
  unfold ComputeBooleanF ComputeBoolean ClipPolygonF ClipPolygon ClipPolygonOutsideF
    ClipPolygonOutside
  cases op <;>
    simp only [PolygonsOverlapF_id, AllInsideF_id, ClipLoopF_id, ClipOutsideLoopF_id, IsCCWF_id]

/-! Rings apart along the y axis, for every rounding. -/

theorem PointInRingStepF_snd (fl : ℚ → ℚ) (p : Point) (v : List Point) (st : Bool × Nat)
    (i : Nat) : (PointInRingStepF fl p v st i).2 = i := by
  unfold PointInRingStepF
  dsimp only
  split_ifs <;> rfl

/-- a ring whose vertices are all on one side of the ray leaves the point
outside, whatever the rounding: no edge passes the test of the loop -/
theorem PointInRingF_false_of_same_side (fl : ℚ → ℚ) (p : Point) (r : Ring)
    (h : ∀ a ∈ r.vertices, ∀ b ∈ r.vertices,
      (decide (a.y > p.y) != decide (b.y > p.y)) = false) :
    PointInRingF fl p r = false := by
  unfold PointInRingF
  have inv := foldl_range_inv (PointInRingStepF fl p r.vertices)
    (false, r.vertices.length - 1) r.vertices.length
    (fun _ st => st.1 = false ∧ (0 < r.vertices.length → st.2 < r.vertices.length))
    ⟨rfl, fun hn => by simp; omega⟩
    (by
      intro k st hk ⟨h1, h2⟩
      have ha := vget_mem hk
      have hb := vget_mem (h2 (by omega))
      refine ⟨?_, fun _ => by rw [PointInRingStepF_snd]; exact hk⟩
      unfold PointInRingStepF
      dsimp only
      rw [h _ ha _ hb]
      simpa using h1)
  exact inv.1

theorem PointInPolygonF_false_of_below (fl : ℚ → ℚ) (p : Point) (poly : Polygon)
    (h : ∀ q ∈ poly.outer.vertices, p.y < q.y) : PointInPolygonF fl p poly = false := by
  unfold PointInPolygonF
  rw [PointInRingF_false_of_same_side fl p poly.outer fun a ha b hb => by
    simp [h a ha, h b hb]]
  rfl

theorem PointInPolygonF_false_of_above (fl : ℚ → ℚ) (p : Point) (poly : Polygon)
    (h : ∀ q ∈ poly.outer.vertices, q.y < p.y) : PointInPolygonF fl p poly = false := by
  unfold PointInPolygonF
  rw [PointInRingF_false_of_same_side fl p poly.outer fun a ha b hb => by
    simp [not_lt.2 (h a ha).le, not_lt.2 (h b hb).le]]
  rfl

/-- two segments whose rounded bounds along x or along y do not meet have no
intersection point that `OnSegment` accepts for both, whatever point was
computed -/
theorem SegmentIntersectF_false_of_apart (fl : ℚ → ℚ) (p1 p2 q1 q2 ip : Point)
    (h : fl (max p1.x p2.x + fl eps9) < fl (min q1.x q2.x - fl eps9) ∨
      fl (max q1.x q2.x + fl eps9) < fl (min p1.x p2.x - fl eps9) ∨
      fl (max p1.y p2.y + fl eps9) < fl (min q1.y q2.y - fl eps9) ∨
      fl (max q1.y q2.y + fl eps9) < fl (min p1.y p2.y - fl eps9)) :
    (SegmentIntersectF fl p1 p2 q1 q2 ip).1 = false := by
  unfold SegmentIntersectF
  dsimp only
  split_ifs
  · rfl
  · dsimp only
    rw [Bool.and_eq_false_iff]
    by_contra hc
    rw [not_or, Bool.not_eq_false, Bool.not_eq_false] at hc
    obtain ⟨hp, hq⟩ := hc
    unfold OnSegmentF at hp hq
    simp only [Bool.and_eq_true, decide_eq_true_eq] at hp hq
    rcases h with h | h | h | h
    · have := hp.1.1.2
      have := hq.1.1.1
      linarith
    · have := hq.1.1.2
      have := hp.1.1.1
      linarith
    · have := hp.2
      have := hq.1.2
      linarith
    · have := hq.2
      have := hp.1.2
      linarith

theorem EdgesIntersectF_false_of_apart (fl : ℚ → ℚ) (aV bV : List Point) (uninit : Point)
    (h : ∀ p1 ∈ aV, ∀ p2 ∈ aV, ∀ q1 ∈ bV, ∀ q2 ∈ bV,
      fl (max p1.x p2.x + fl eps9) < fl (min q1.x q2.x - fl eps9) ∨
      fl (max q1.x q2.x + fl eps9) < fl (min p1.x p2.x - fl eps9) ∨
      fl (max p1.y p2.y + fl eps9) < fl (min q1.y q2.y - fl eps9) ∨
      fl (max q1.y q2.y + fl eps9) < fl (min p1.y p2.y - fl eps9)) :
    EdgesIntersectF fl aV bV uninit = false := by
  unfold EdgesIntersectF
  rw [List.any_eq_false]
  intro i hi
  rw [List.mem_range] at hi
  rw [Bool.not_eq_true, List.any_eq_false]
  intro j hj
  rw [List.mem_range] at hj
  rw [Bool.not_eq_true]
  apply SegmentIntersectF_false_of_apart
  exact h _ (vget_mem hi) _ (vget_mem (Nat.mod_lt _ (by omega))) _ (vget_mem hj) _
    (vget_mem (Nat.mod_lt _ (by omega)))

/-- polygons apart along the y axis fail the overlap test, whatever the
rounding -/
theorem PolygonsOverlapF_false_of_apart (fl : ℚ → ℚ) (A B : Polygon) (uninit : Point)
    (h : ApartYF fl A.outer.vertices B.outer.vertices ∨
      ApartYF fl B.outer.vertices A.outer.vertices) :
    PolygonsOverlapF fl A B uninit = false := by
  unfold PolygonsOverlapF
  have h1 : (A.outer.vertices.any fun p => PointInPolygonF fl p B) = false := by
    rw [List.any_eq_false]
    intro p hp
    rw [Bool.not_eq_true]
    rcases h with h | h
    · exact PointInPolygonF_false_of_below fl p B fun q hq => h.1 p hp q hq
    · exact PointInPolygonF_false_of_above fl p B fun q hq => h.1 q hq p hp
  have h2 : (B.outer.vertices.any fun p => PointInPolygonF fl p A) = false := by
    rw [List.any_eq_false]
    intro p hp
    rw [Bool.not_eq_true]
    rcases h with h | h
    · exact PointInPolygonF_false_of_above fl p A fun q hq => h.1 q hq p hp
    · exact PointInPolygonF_false_of_below fl p A fun q hq => h.1 p hp q hq
  have h3 : EdgesIntersectF fl A.outer.vertices B.outer.vertices uninit = false := by
    apply EdgesIntersectF_false_of_apart
    intro p1 hp1 p2 hp2 q1 hq1 q2 hq2
    rcases h with h | h
    · exact Or.inr (Or.inr (Or.inl (h.2 p1 hp1 p2 hp2 q1 hq1 q2 hq2)))
    · exact Or.inr (Or.inr (Or.inr (h.2 q1 hq1 q2 hq2 p1 hp1 p2 hp2)))
  rw [h1, h2, h3]
  rfl

/-- when the overlap test fails the dispatcher returns `[A, B]`, `[]`, `[A]` -/
theorem ComputeBooleanF_of_no_overlap (fl : ℚ → ℚ) (A B : Polygon) (uninit : Point)
    (h : PolygonsOverlapF fl A B uninit = false) :
    ComputeBooleanF fl A B BoolOp.Union uninit = [A, B] ∧
      ComputeBooleanF fl A B BoolOp.Intersection uninit = [] ∧
      ComputeBooleanF fl A B BoolOp.AminusB uninit = [A] := by
  simp [ComputeBooleanF, h]

/-! Rings apart along the x axis: the abscissa that the ray casting loop
computes has to stay within the edge. -/

theorem PointInRingStepF_fst (fl : ℚ → ℚ) (p : Point) (v : List Point) (st : Bool × Nat)
    (i : Nat) :
    (PointInRingStepF fl p v st i).1 =
      if (decide ((vget v i).y > p.y) != decide ((vget v st.2).y > p.y)) = true ∧
          p.x < fl (fl (fl (fl ((vget v st.2).x - (vget v i).x) * fl (p.y - (vget v i).y)) /
            fl ((vget v st.2).y - (vget v i).y)) + (vget v i).x)
      then !st.1 else st.1 := by
  unfold PointInRingStepF
  dsimp only
  by_cases hs : (decide ((vget v i).y > p.y) != decide ((vget v st.2).y > p.y)) = true
  · by_cases hlt : p.x < fl (fl (fl (fl ((vget v st.2).x - (vget v i).x) *
        fl (p.y - (vget v i).y)) / fl ((vget v st.2).y - (vget v i).y)) + (vget v i).x)
    · rw [if_pos hs, if_pos hlt, if_pos ⟨hs, hlt⟩]
    · rw [if_pos hs, if_neg hlt, if_neg (fun hc => hlt hc.2)]
  · rw [if_neg hs, if_neg (fun hc => hs hc.1)]

/-- a ring none of whose edges lets the state toggle leaves the point outside -/
theorem PointInRingF_false_of_no_toggle (fl : ℚ → ℚ) (p : Point) (r : Ring)
    (h : ∀ a ∈ r.vertices, ∀ b ∈ r.vertices,
      (decide (a.y > p.y) != decide (b.y > p.y)) = true →
        ¬ p.x < fl (fl (fl (fl (b.x - a.x) * fl (p.y - a.y)) / fl (b.y - a.y)) + a.x)) :
    PointInRingF fl p r = false := by
  unfold PointInRingF
  have inv := foldl_range_inv (PointInRingStepF fl p r.vertices)
    (false, r.vertices.length - 1) r.vertices.length
    (fun _ st => st.1 = false ∧ (0 < r.vertices.length → st.2 < r.vertices.length))
    ⟨rfl, fun hn => by simp; omega⟩
    (by
      intro k st hk ⟨h1, h2⟩
      have ha := vget_mem hk
      have hb := vget_mem (h2 (by omega))
      rw [PointInRingStepF_snd, PointInRingStepF_fst]
      refine ⟨?_, fun _ => hk⟩
      rw [if_neg, h1]
      rintro ⟨hs, hlt⟩
      exact h _ ha _ hb hs hlt)
  exact inv.1

/-- a ring every edge of which toggles the state when its ends are on
different sides of the ray leaves the point outside: the ring is closed -/
theorem PointInRingF_false_of_all_toggle (fl : ℚ → ℚ) (p : Point) (r : Ring)
    (h : ∀ a ∈ r.vertices, ∀ b ∈ r.vertices,
      (decide (a.y > p.y) != decide (b.y > p.y)) = true →
        p.x < fl (fl (fl (fl (b.x - a.x) * fl (p.y - a.y)) / fl (b.y - a.y)) + a.x)) :
    PointInRingF fl p r = false := by
  unfold PointInRingF
  have inv := foldl_range_inv (PointInRingStepF fl p r.vertices)
    (false, r.vertices.length - 1) r.vertices.length
    (fun k st => st.1 = (decide ((vget r.vertices st.2).y > p.y)
        != decide ((vget r.vertices (r.vertices.length - 1)).y > p.y)) ∧
      (0 < r.vertices.length → st.2 < r.vertices.length) ∧ (0 < k → st.2 = k - 1))
    ⟨by simp, fun hn => by simp; omega, fun h0 => absurd h0 (lt_irrefl 0)⟩
    (by
      intro k st hk ⟨h1, h2, _⟩
      have ha := vget_mem hk
      have hb := vget_mem (h2 (by omega))
      rw [PointInRingStepF_snd, PointInRingStepF_fst]
      refine ⟨?_, fun _ => hk, fun _ => by simp⟩
      rw [← xor_chain _ _ _ _ h1]
      apply if_congr _ rfl rfl
      constructor
      · exact fun hc => hc.1
      · intro hs
        exact ⟨hs, h _ ha _ hb hs⟩)
  obtain ⟨h1, _, h3⟩ := inv
  rcases Nat.eq_zero_or_pos r.vertices.length with h0 | hpos
  · rw [h0]; rfl
  · rw [h1, h3 hpos]; simp

/-! Binary64 arithmetic on integer coordinates of absolute value up to
`2 ^ 20`. -/

/-- the abscissa that the ray casting loop computes in binary64 arithmetic lies
between the abscissae of the edge, for integer coordinates -/
theorem crossingF_x_bounds {a b p : Point} (ha : IntPoint 1048576 a)
    (hb : IntPoint 1048576 b) (hp : IntPoint 1048576 p)
    (hs : (decide (a.y > p.y) != decide (b.y > p.y)) = true) :
    min a.x b.x ≤ Binary64.rnd (Binary64.rnd (Binary64.rnd (Binary64.rnd (b.x - a.x) *
        Binary64.rnd (p.y - a.y)) / Binary64.rnd (b.y - a.y)) + a.x) ∧
      Binary64.rnd (Binary64.rnd (Binary64.rnd (Binary64.rnd (b.x - a.x) *
        Binary64.rnd (p.y - a.y)) / Binary64.rnd (b.y - a.y)) + a.x) ≤ max a.x b.x := by
  have hdx := hb.1.sub ha.1
  have hdy1 := hp.2.sub ha.2
  have hdy := hb.2.sub ha.2
  rw [hdx.rnd_eq (by norm_num), hdy1.rnd_eq (by norm_num),
    (hdx.mul hdy1).rnd_eq (by norm_num), hdy.rnd_eq (by norm_num)]
  have hb0 := crossing_x_bounds a b p hs
  have hQden : ((b.x - a.x) * (p.y - a.y) / (b.y - a.y)).den < 2 ^ 4096 := by
    obtain ⟨E, hE, _⟩ := hdx.mul hdy1
    obtain ⟨D, hD, hD2⟩ := hdy
    rw [hE, hD]
    exact Binary64.den_div_int_lt E D (lt_of_le_of_lt hD2 (by norm_num))
  have hmin := (ha.1.min hb.1).sub ha.1
  have hmax := (ha.1.max hb.1).sub ha.1
  obtain ⟨L, hL, hL2⟩ := hmin
  obtain ⟨U, hU, hU2⟩ := hmax
  have h1 := Binary64.int_le_rnd _ hQden L (lt_of_le_of_lt hL2 (by norm_num))
    (by rw [← hL]; linarith [hb0.1])
  have h2 := Binary64.rnd_le_int _ hQden U (lt_of_le_of_lt hU2 (by norm_num))
    (by rw [← hU]; linarith [hb0.2])
  rw [← hL] at h1
  rw [← hU] at h2
  have hSden := Binary64.den_add_lt _ _
    (Binary64.rnd_den ((b.x - a.x) * (p.y - a.y) / (b.y - a.y))) ha.1.den_le
  obtain ⟨m, hm, hm2⟩ := ha.1.min hb.1
  obtain ⟨M, hM, hM2⟩ := ha.1.max hb.1
  constructor
  · rw [hm]
    apply Binary64.int_le_rnd _ hSden m (lt_of_le_of_lt hm2 (by norm_num))
    rw [← hm]
    linarith
  · rw [hM]
    apply Binary64.rnd_le_int _ hSden M (lt_of_le_of_lt hM2 (by norm_num))
    rw [← hM]
    linarith

theorem PointInRingF_false_of_apart_x {p : Point} {r : Ring} (hp : IntPoint 1048576 p)
    (hr : ∀ q ∈ r.vertices, IntPoint 1048576 q)
    (h : (∀ q ∈ r.vertices, q.x < p.x) ∨ (∀ q ∈ r.vertices, p.x < q.x)) :
    PointInRingF Binary64.rnd p r = false := by
  rcases h with h | h
  · apply PointInRingF_false_of_no_toggle
    intro a ha b hb hs
    have := (crossingF_x_bounds (hr a ha) (hr b hb) hp hs).2
    have : max a.x b.x < p.x := max_lt (h a ha) (h b hb)
    linarith
  · apply PointInRingF_false_of_all_toggle
    intro a ha b hb hs
    have := (crossingF_x_bounds (hr a ha) (hr b hb) hp hs).1
    have : p.x < min a.x b.x := lt_min (h a ha) (h b hb)
    linarith

theorem rnd_eps9_le : Binary64.rnd eps9 ≤ 1 / 4 := by
  have h := Binary64.rnd_le eps9 (by decide!) 1 2 (by norm_num) (by norm_num)
    (by unfold eps9; norm_num)
  norm_num at h ⊢
  exact h

/-- the bounds that `OnSegment` computes in binary64 arithmetic around two
different integers keep their order -/
theorem rounded_bounds_apart {P Q : ℚ} (hP : Binary64.IsInt 1048576 P)
    (hQ : Binary64.IsInt 1048576 Q) (h : P < Q) :
    Binary64.rnd (P + Binary64.rnd eps9) < Binary64.rnd (Q - Binary64.rnd eps9) := by
  have h1 := (Binary64.rnd_add_small hP rnd_eps9_le (Binary64.rnd_den eps9)).1
  have h2 := (Binary64.rnd_add_small hQ rnd_eps9_le (Binary64.rnd_den eps9)).2
  obtain ⟨a, rfl, _⟩ := hP
  obtain ⟨b, rfl, _⟩ := hQ
  have hab : a + 1 ≤ b := by
    have : a < b := by exact_mod_cast h
    omega
  have : (a : ℚ) + 1 ≤ b := by exact_mod_cast hab
  linarith

/-- polygons with integer coordinates and disjoint bounding boxes fail the
overlap test in binary64 arithmetic -/
theorem PolygonsOverlapF_false_of_disjoint (A B : Polygon) (uninit : Point)
    (hA : ∀ p ∈ A.outer.vertices, IntPoint 1048576 p)
    (hB : ∀ p ∈ B.outer.vertices, IntPoint 1048576 p)
    (h : BoxesApart 0 A.outer.vertices B.outer.vertices) :
    PolygonsOverlapF Binary64.rnd A B uninit = false := by
  simp only [BoxesApart, add_zero] at h
  rcases h with h | h | h | h
  · unfold PolygonsOverlapF
    have h1 : (A.outer.vertices.any fun p => PointInPolygonF Binary64.rnd p B) = false := by
      rw [List.any_eq_false]
      intro p hp
      rw [Bool.not_eq_true]
      unfold PointInPolygonF
      rw [PointInRingF_false_of_apart_x (hA p hp) hB (Or.inr fun q hq => h p hp q hq)]
      rfl
    have h2 : (B.outer.vertices.any fun p => PointInPolygonF Binary64.rnd p A) = false := by
      rw [List.any_eq_false]
      intro p hp
      rw [Bool.not_eq_true]
      unfold PointInPolygonF
      rw [PointInRingF_false_of_apart_x (hB p hp) hA (Or.inl fun q hq => h q hq p hp)]
      rfl
    have h3 : EdgesIntersectF Binary64.rnd A.outer.vertices B.outer.vertices uninit
        = false := by
      apply EdgesIntersectF_false_of_apart
      intro p1 hp1 p2 hp2 q1 hq1 q2 hq2
      exact Or.inl (rounded_bounds_apart ((hA p1 hp1).1.max (hA p2 hp2).1)
        ((hB q1 hq1).1.min (hB q2 hq2).1) (max_lt_iff.2 ⟨lt_min (h p1 hp1 q1 hq1)
          (h p1 hp1 q2 hq2), lt_min (h p2 hp2 q1 hq1) (h p2 hp2 q2 hq2)⟩))
    rw [h1, h2, h3]
    rfl
  · unfold PolygonsOverlapF
    have h1 : (A.outer.vertices.any fun p => PointInPolygonF Binary64.rnd p B) = false := by
      rw [List.any_eq_false]
      intro p hp
      rw [Bool.not_eq_true]
      unfold PointInPolygonF
      rw [PointInRingF_false_of_apart_x (hA p hp) hB (Or.inl fun q hq => h p hp q hq)]
      rfl
    have h2 : (B.outer.vertices.any fun p => PointInPolygonF Binary64.rnd p A) = false := by
      rw [List.any_eq_false]
      intro p hp
      rw [Bool.not_eq_true]
      unfold PointInPolygonF
      rw [PointInRingF_false_of_apart_x (hB p hp) hA (Or.inr fun q hq => h q hq p hp)]
      rfl
    have h3 : EdgesIntersectF Binary64.rnd A.outer.vertices B.outer.vertices uninit
        = false := by
      apply EdgesIntersectF_false_of_apart
      intro p1 hp1 p2 hp2 q1 hq1 q2 hq2
      exact Or.inr (Or.inl (rounded_bounds_apart ((hB q1 hq1).1.max (hB q2 hq2).1)
        ((hA p1 hp1).1.min (hA p2 hp2).1) (max_lt_iff.2 ⟨lt_min (h p1 hp1 q1 hq1)
          (h p2 hp2 q1 hq1), lt_min (h p1 hp1 q2 hq2) (h p2 hp2 q2 hq2)⟩)))
    rw [h1, h2, h3]
    rfl
  · apply PolygonsOverlapF_false_of_apart
    refine Or.inl ⟨h, fun p1 hp1 p2 hp2 q1 hq1 q2 hq2 => ?_⟩
    exact rounded_bounds_apart ((hA p1 hp1).2.max (hA p2 hp2).2)
      ((hB q1 hq1).2.min (hB q2 hq2).2) (max_lt_iff.2 ⟨lt_min (h p1 hp1 q1 hq1)
        (h p1 hp1 q2 hq2), lt_min (h p2 hp2 q1 hq1) (h p2 hp2 q2 hq2)⟩)
  · apply PolygonsOverlapF_false_of_apart
    refine Or.inr ⟨fun p hp q hq => h q hq p hp, fun p1 hp1 p2 hp2 q1 hq1 q2 hq2 => ?_⟩
    exact rounded_bounds_apart ((hB p1 hp1).2.max (hB p2 hp2).2)
      ((hA q1 hq1).2.min (hA q2 hq2).2) (max_lt_iff.2 ⟨lt_min (h q1 hq1 p1 hp1)
        (h q2 hq2 p1 hp1), lt_min (h q1 hq1 p2 hp2) (h q2 hq2 p2 hp2)⟩)

/-- C9, as stated, fails. The bounding boxes of `unitSquare` and `liftedSquare`
are disjoint (`5e-10` apart along y), yet `AminusB` returns the empty list, not
`[unitSquare]`, over exact arithmetic and in binary64 arithmetic alike. In
binary64 arithmetic a gap above `2e-9` does not help either: the boxes of
`edgeSquare` and `edgeTriangle` are `2 ^ (-28)` (about `3.7e-9`) apart along x,
all their coordinates are binary64 numbers, the overlap test is true and
`AminusB` returns the empty list, where exact arithmetic returns
`[edgeSquare]`. -/
theorem C9_counterexample :
    (BoxesApart 0 unitSquare.outer.vertices liftedSquare.outer.vertices ∧
      ComputeBoolean unitSquare liftedSquare BoolOp.AminusB ⟨0, 0⟩ = [] ∧
      ComputeBoolean unitSquare liftedSquare BoolOp.AminusB ⟨0, 0⟩ ≠ [unitSquare] ∧
      ComputeBooleanF Binary64.rnd unitSquare
        ⟨⟨toDoubles liftedSquare.outer.vertices⟩, []⟩ BoolOp.AminusB ⟨0, 0⟩ = []) ∧
    (BoxesApart (2 * eps9) edgeSquare.outer.vertices edgeTriangle.outer.vertices ∧
      toDoubles edgeSquare.outer.vertices = edgeSquare.outer.vertices ∧
      toDoubles edgeTriangle.outer.vertices = edgeTriangle.outer.vertices ∧
      PolygonsOverlapF Binary64.rnd edgeSquare edgeTriangle ⟨0, 0⟩ = true ∧
      ComputeBooleanF Binary64.rnd edgeSquare edgeTriangle BoolOp.AminusB ⟨0, 0⟩ = [] ∧
      ComputeBooleanF Binary64.rnd edgeSquare edgeTriangle BoolOp.AminusB ⟨0, 0⟩
        ≠ [edgeSquare] ∧
      ComputeBoolean edgeSquare edgeTriangle BoolOp.AminusB ⟨0, 0⟩ = [edgeSquare]) :=
  ⟨⟨Or.inr (Or.inr (Or.inl (by decide!))), by decide!, by decide!, by decide!⟩,
    ⟨Or.inl (by decide!), by decide!, by decide!, by decide!, by decide!, by decide!,
      by decide!⟩⟩

/-- C9, amended. `ComputeBoolean` returns `[A, B]` for `Union`, the empty list
for `Intersection` and `[A]` for `AminusB`
(1) over exact arithmetic, when the bounding boxes are more than `2e-9` apart
along the x axis or along the y axis;
(2) with any rounding of the arithmetic, when one polygon lies below the other
and the rounded bound `max + 1e-9` of any two vertices of the lower one is
below the rounded bound `min - 1e-9` of any two vertices of the upper one;
(3) in binary64 arithmetic, when all coordinates are integers of absolute
value at most `2 ^ 20` and the bounding boxes are disjoint. -/
theorem C9_disjoint_boxes (A B : Polygon) (uninit : Point) :
    (BoxesApart (2 * eps9) A.outer.vertices B.outer.vertices →
      ComputeBoolean A B BoolOp.Union uninit = [A, B] ∧
        ComputeBoolean A B BoolOp.Intersection uninit = [] ∧
        ComputeBoolean A B BoolOp.AminusB uninit = [A]) ∧
    (∀ fl : ℚ → ℚ,
      (ApartYF fl A.outer.vertices B.outer.vertices ∨
        ApartYF fl B.outer.vertices A.outer.vertices) →
      ComputeBooleanF fl A B BoolOp.Union uninit = [A, B] ∧
        ComputeBooleanF fl A B BoolOp.Intersection uninit = [] ∧
        ComputeBooleanF fl A B BoolOp.AminusB uninit = [A]) ∧
    ((∀ p ∈ A.outer.vertices, IntPoint 1048576 p) →
      (∀ p ∈ B.outer.vertices, IntPoint 1048576 p) →
      BoxesApart 0 A.outer.vertices B.outer.vertices →
      ComputeBooleanF Binary64.rnd A B BoolOp.Union uninit = [A, B] ∧
        ComputeBooleanF Binary64.rnd A B BoolOp.Intersection uninit = [] ∧
        ComputeBooleanF Binary64.rnd A B BoolOp.AminusB uninit = [A]) :=
  ⟨disjoint_boxes_exact A B uninit,
    fun fl h => ComputeBooleanF_of_no_overlap fl A B uninit
      (PolygonsOverlapF_false_of_apart fl A B uninit h),
    fun hA hB h => ComputeBooleanF_of_no_overlap Binary64.rnd A B uninit
      (PolygonsOverlapF_false_of_disjoint A B uninit hA hB h)⟩

theorem C9_disjoint_boxes_witness :
    (BoxesApart (2 * eps9) unitSquare.outer.vertices farSquare.outer.vertices ∧
      ComputeBoolean unitSquare farSquare BoolOp.Union ⟨0, 0⟩ = [unitSquare, farSquare] ∧
      ComputeBoolean unitSquare farSquare BoolOp.Intersection ⟨0, 0⟩ = [] ∧
      ComputeBoolean unitSquare farSquare BoolOp.AminusB ⟨0, 0⟩ = [unitSquare]) ∧
    (ApartYF Binary64.rnd unitSquare.outer.vertices raisedSquare.outer.vertices ∧
      ComputeBooleanF Binary64.rnd unitSquare raisedSquare BoolOp.Union ⟨0, 0⟩
        = [unitSquare, raisedSquare] ∧
      ComputeBooleanF Binary64.rnd unitSquare raisedSquare BoolOp.Intersection ⟨0, 0⟩ = [] ∧
      ComputeBooleanF Binary64.rnd unitSquare raisedSquare BoolOp.AminusB ⟨0, 0⟩
        = [unitSquare]) ∧
    ((∀ p ∈ unitSquare.outer.vertices, IntPoint 1048576 p) ∧
      (∀ p ∈ farSquare.outer.vertices, IntPoint 1048576 p) ∧
      BoxesApart 0 unitSquare.outer.vertices farSquare.outer.vertices ∧
      ComputeBooleanF Binary64.rnd unitSquare farSquare BoolOp.Union ⟨0, 0⟩
        = [unitSquare, farSquare] ∧
      ComputeBooleanF Binary64.rnd unitSquare farSquare BoolOp.Intersection ⟨0, 0⟩ = [] ∧
      ComputeBooleanF Binary64.rnd unitSquare farSquare BoolOp.AminusB ⟨0, 0⟩
        = [unitSquare]) :=
  have hbox : BoxesApart (2 * eps9) unitSquare.outer.vertices farSquare.outer.vertices :=
    Or.inl (by decide!)
  have hbox0 : BoxesApart 0 unitSquare.outer.vertices farSquare.outer.vertices :=
    Or.inl (by decide!)
  have hy : ApartYF Binary64.rnd unitSquare.outer.vertices raisedSquare.outer.vertices :=
    ⟨by decide!, by decide!⟩
  have hA : ∀ p ∈ unitSquare.outer.vertices, IntPoint 1048576 p := by
    intro p hp
    have hp1 : p ∈ [(⟨0, 0⟩ : Point), ⟨1, 0⟩, ⟨1, 1⟩, ⟨0, 1⟩] := hp
    simp only [List.mem_cons, List.mem_singleton, List.not_mem_nil, or_false] at hp1
    rcases hp1 with rfl | rfl | rfl | rfl
    · exact ⟨⟨0, by simp, by decide⟩, ⟨0, by simp, by decide⟩⟩
    · exact ⟨⟨1, by simp, by decide⟩, ⟨0, by simp, by decide⟩⟩
    · exact ⟨⟨1, by simp, by decide⟩, ⟨1, by simp, by decide⟩⟩
    · exact ⟨⟨0, by simp, by decide⟩, ⟨1, by simp, by decide⟩⟩
  have hB : ∀ p ∈ farSquare.outer.vertices, IntPoint 1048576 p := by
    intro p hp
    have hp1 : p ∈ [(⟨5, 0⟩ : Point), ⟨6, 0⟩, ⟨6, 1⟩, ⟨5, 1⟩] := hp
    simp only [List.mem_cons, List.mem_singleton, List.not_mem_nil, or_false] at hp1
    rcases hp1 with rfl | rfl | rfl | rfl
    · exact ⟨⟨5, by simp, by decide⟩, ⟨0, by simp, by decide⟩⟩
    · exact ⟨⟨6, by simp, by decide⟩, ⟨0, by simp, by decide⟩⟩
    · exact ⟨⟨6, by simp, by decide⟩, ⟨1, by simp, by decide⟩⟩
    · exact ⟨⟨5, by simp, by decide⟩, ⟨1, by simp, by decide⟩⟩
  ⟨⟨hbox, (C9_disjoint_boxes unitSquare farSquare ⟨0, 0⟩).1 hbox⟩,
    ⟨hy, (C9_disjoint_boxes unitSquare raisedSquare ⟨0, 0⟩).2.1 Binary64.rnd (Or.inl hy)⟩,
    ⟨hA, hB, hbox0, (C9_disjoint_boxes unitSquare farSquare ⟨0, 0⟩).2.2 hA hB hbox0⟩⟩

end DisjointBoxesRounding

/-! ### BooleanNative: `isConvex` and `area` in binary64 arithmetic -/

namespace PolygonBoolean

open Polygon

set_option maxRecDepth 100000

theorem crossProductF_id (a b c : Point) :
    Polygon.crossProductF id a b c = Polygon.crossProduct a b c := rfl

/-- without rounding the loop of `isConvexF` is the loop of `isConvex` -/
theorem isConvexLoopF_id (h : Heap) (head : Nat) :
    ∀ (fuel : Nat) (cur : Option Nat) (hp hn : Bool),
      isConvexLoopF id h head fuel cur hp hn = isConvexLoop h head fuel cur hp hn
  | 0, _, _, _ => rfl
  | fuel + 1, cur, hp, hn => by
    unfold isConvexLoopF isConvexLoop
    simp only [crossProductF_id, id, isConvexLoopF_id h head fuel]

theorem isConvexF_id (h : Heap) (P : Polygon) : isConvexF id h P = isConvex h P := by
  unfold isConvexF isConvex
  simp only [isConvexLoopF_id]
  try (cases P.head <;> rfl)

theorem crossF_id (a b : Point) : a.crossF id b = a.cross b := rfl

/-- without rounding the loop of `areaF` is the loop of `area` -/
theorem areaLoopF_id (h : Heap) (head : Nat) :
    ∀ (fuel : Nat) (cur : Option Nat) (acc : ℚ),
      areaLoopF id h head fuel cur acc = areaLoop h head fuel cur acc
  | 0, _, _ => rfl
  | fuel + 1, cur, acc => by
    unfold areaLoopF areaLoop
    simp only [crossF_id, id, areaLoopF_id h head fuel]

theorem areaF_id (h : Heap) (P : Polygon) : areaF id h P = area h P := by
  unfold areaF area
  simp only [areaLoopF_id, id]
  try (cases P.head <;> rfl)

/-- on points with integer coordinates up to `2 ^ 24` the cross product is
computed without rounding error -/
theorem crossProductF_exact {a b c : Point} (ha : IntPoint 16777216 a)
    (hb : IntPoint 16777216 b) (hc : IntPoint 16777216 c) :
    Polygon.crossProductF Binary64.rnd a b c = Polygon.crossProduct a b c := by
  unfold Polygon.crossProductF Polygon.crossProduct
  have d1 := hb.1.sub ha.1
  have d2 := hc.2.sub ha.2
  have d3 := hc.1.sub ha.1
  have d4 := hb.2.sub ha.2
  rw [d1.rnd_eq (by norm_num), d2.rnd_eq (by norm_num), d3.rnd_eq (by norm_num),
    d4.rnd_eq (by norm_num), (d1.mul d2).rnd_eq (by norm_num), (d3.mul d4).rnd_eq (by norm_num),
    ((d1.mul d2).sub (d3.mul d4)).rnd_eq (by norm_num)]

/-- `isConvex` on a ring of three cells, for every rounding: the answer is
false exactly when one of the three computed cross products is above the
tolerance and one is below its negative -/
theorem isConvexF_triangle (fl : ℚ → ℚ) {h : Heap} {P : Polygon} {a b c : Nat}
    (hr : RingOf h P [a, b, c]) :
    Polygon.isConvexF fl h P = some
      (!((decide (Polygon.crossProductF fl (pointOf h c) (pointOf h a) (pointOf h b) >
            fl EPSILON) ||
          decide (Polygon.crossProductF fl (pointOf h a) (pointOf h b) (pointOf h c) >
            fl EPSILON) ||
          decide (Polygon.crossProductF fl (pointOf h b) (pointOf h c) (pointOf h a) >
            fl EPSILON)) &&
        (decide (Polygon.crossProductF fl (pointOf h c) (pointOf h a) (pointOf h b) <
            -fl EPSILON) ||
          decide (Polygon.crossProductF fl (pointOf h a) (pointOf h b) (pointOf h c) <
            -fl EPSILON) ||
          decide (Polygon.crossProductF fl (pointOf h b) (pointOf h c) (pointOf h a) <
            -fl EPSILON)))) := by
  have hcount := vertexCount_ring hr
  obtain ⟨hP, hring⟩ := hr
  have hlen := hring.length_le
  obtain ⟨hnd, hch⟩ := hring
  simp only [List.cons_append, List.nil_append, List.chain_cons, List.Chain.nil, and_true] at hch
  obtain ⟨hab, hbc, hca⟩ := hch
  obtain ⟨va, hva, hvan⟩ := nextOf_eq_some.1 hab.1
  obtain ⟨vb, hvb, hvbn⟩ := nextOf_eq_some.1 hbc.1
  obtain ⟨vc, hvc, hvcn⟩ := nextOf_eq_some.1 hca.1
  obtain ⟨va', hva', hvap⟩ := prevOf_eq_some.1 hca.2
  obtain ⟨vb', hvb', hvbp⟩ := prevOf_eq_some.1 hab.2
  obtain ⟨vc', hvc', hvcp⟩ := prevOf_eq_some.1 hbc.2
  rw [hva] at hva'
  cases hva'
  rw [hvb] at hvb'
  cases hvb'
  rw [hvc] at hvc'
  cases hvc'
  have hba : b ≠ a := by
    intro e
    rw [e] at hnd
    simp at hnd
  have hcna : c ≠ a := by
    intro e
    rw [e] at hnd
    simp at hnd
  obtain ⟨k, hk⟩ : ∃ k, h.length = k + 3 := ⟨h.length - 3, by simp at hlen; omega⟩
  simp only [isConvexF, hcount, hP, Option.some_bind, List.length_cons, List.length_nil]
  rw [if_neg (by omega), hk]
  rw [pointOf_of_getElem? hva, pointOf_of_getElem? hvb, pointOf_of_getElem? hvc]
  simp only [isConvexLoopF, load, hva, hvb, hvc, hvan, hvbn, hvcn, hvap, hvbp, hvcp,
    Option.some_bind]
  generalize Polygon.crossProductF fl vc.point va.point vb.point = c1
  generalize Polygon.crossProductF fl va.point vb.point vc.point = c2
  generalize Polygon.crossProductF fl vb.point vc.point va.point = c3
  generalize fl EPSILON = e
  by_cases p1 : c1 > e <;> by_cases p2 : c2 > e <;> by_cases p3 : c3 > e <;>
    by_cases n1 : c1 < -e <;> by_cases n2 : c2 < -e <;> by_cases n3 : c3 < -e <;>
    simp [p1, p2, p3, n1, n2, n3, hba, hcna]

/-- C35, as stated, fails. The polygon built from
`(0.9,0.2), (100000.9,300000.2), (200001.0,600000.5)` has exactly three
vertices (`sliverState`, a ring of the cells 0, 1, 2). In binary64 arithmetic
the cross products computed at its three corners are `-2 ^ (-17)`,
`2 ^ (-17)` and `0` (about `-7.6e-6`, `7.6e-6`, `0`): one is above `EPSILON`
and one below `-EPSILON`, and `isConvex()` returns false. Over exact
arithmetic the three cross products are the same number and the answer is
true. -/
theorem C35_counterexample :
    RingOf sliverState.1 sliverState.2 [0, 1, 2] ∧
    Polygon.isConvexF Binary64.rnd sliverState.1 sliverState.2 = some false ∧
    Polygon.crossProductF Binary64.rnd (pointOf sliverState.1 2) (pointOf sliverState.1 0)
      (pointOf sliverState.1 1) = -(1 / 131072) ∧
    Polygon.crossProductF Binary64.rnd (pointOf sliverState.1 0) (pointOf sliverState.1 1)
      (pointOf sliverState.1 2) = 1 / 131072 ∧
    Polygon.crossProductF Binary64.rnd (pointOf sliverState.1 1) (pointOf sliverState.1 2)
      (pointOf sliverState.1 0) = 0 ∧
    Polygon.isConvex sliverState.1 sliverState.2 = some true := by
  refine ⟨by decide!, by decide!, by decide!, by decide!, by decide!, by decide!⟩

/-- C35, amended. On a ring of exactly three vertices: over exact arithmetic
the cross products computed at the three corners are equal and `isConvex()`
returns true; for every rounding of the arithmetic `isConvex()` returns, and
its answer is false exactly when one of the three computed cross products is
above the tolerance and one is below its negative; and in binary64 arithmetic
`isConvex()` returns true whenever the coordinates of the three vertices are
integers of absolute value at most `2 ^ 24`, for which the cross products are
computed without rounding error. -/
theorem C35_triangle_is_convex {h : Heap} {P : Polygon} {a b c : Nat}
    (hr : RingOf h P [a, b, c]) :
    Polygon.isConvex h P = some true ∧
    (∀ fl : ℚ → ℚ, Polygon.isConvexF fl h P = some
      (!((decide (Polygon.crossProductF fl (pointOf h c) (pointOf h a) (pointOf h b) >
            fl EPSILON) ||
          decide (Polygon.crossProductF fl (pointOf h a) (pointOf h b) (pointOf h c) >
            fl EPSILON) ||
          decide (Polygon.crossProductF fl (pointOf h b) (pointOf h c) (pointOf h a) >
            fl EPSILON)) &&
        (decide (Polygon.crossProductF fl (pointOf h c) (pointOf h a) (pointOf h b) <
            -fl EPSILON) ||
          decide (Polygon.crossProductF fl (pointOf h a) (pointOf h b) (pointOf h c) <
            -fl EPSILON) ||
          decide (Polygon.crossProductF fl (pointOf h b) (pointOf h c) (pointOf h a) <
            -fl EPSILON))))) ∧
    ((∀ x ∈ [a, b, c], IntPoint 16777216 (pointOf h x)) →
      Polygon.isConvexF Binary64.rnd h P = some true) := by
  refine ⟨isConvex_triangle hr, fun fl => isConvexF_triangle fl hr, fun hint => ?_⟩
  have ha := hint a (by simp)
  have hb := hint b (by simp)
  have hc := hint c (by simp)
  rw [isConvexF_triangle Binary64.rnd hr, crossProductF_exact hc ha hb,
    crossProductF_exact ha hb hc, crossProductF_exact hb hc ha]
  obtain ⟨e1, e3⟩ := crossProduct_rotate (pointOf h a) (pointOf h b) (pointOf h c)
  rw [e1, e3]
  have hpos : (0 : ℚ) < Binary64.rnd EPSILON := by decide!
  congr 1
  by_cases h1 : Polygon.crossProduct (pointOf h a) (pointOf h b) (pointOf h c) >
      Binary64.rnd EPSILON
  · have h2 : ¬ Polygon.crossProduct (pointOf h a) (pointOf h b) (pointOf h c) <
        -Binary64.rnd EPSILON := by
      intro hh
      linarith
    simp [h1, h2]
  · simp [h1]

theorem C35_triangle_is_convex_witness :
    RingOf triangleState.1 triangleState.2 [0, 1, 2] ∧
    (∀ x ∈ [0, 1, 2], IntPoint 16777216 (pointOf triangleState.1 x)) ∧
    Polygon.isConvex triangleState.1 triangleState.2 = some true ∧
    Polygon.isConvexF Binary64.rnd triangleState.1 triangleState.2 = some true :=
  have hr : RingOf triangleState.1 triangleState.2 [0, 1, 2] := by decide!
  have hint : ∀ x ∈ [0, 1, 2], IntPoint 16777216 (pointOf triangleState.1 x) := by
    intro x hx
    simp only [List.mem_cons, List.mem_singleton, List.not_mem_nil, or_false] at hx
    rcases hx with rfl | rfl | rfl
    · exact ⟨⟨0, by decide!, by decide⟩, ⟨0, by decide!, by decide⟩⟩
    · exact ⟨⟨1, by decide!, by decide⟩, ⟨0, by decide!, by decide⟩⟩
    · exact ⟨⟨1, by decide!, by decide⟩, ⟨1, by decide!, by decide⟩⟩
  ⟨hr, hint, (C35_triangle_is_convex hr).1, (C35_triangle_is_convex hr).2.2 hint⟩

/-- on points with integer coordinates up to `2 ^ 20` the method `cross` is
computed without rounding error, and its value is an integer up to `2 ^ 41` -/
theorem crossF_exact {a b : Point} (ha : IntPoint 1048576 a) (hb : IntPoint 1048576 b) :
    a.crossF Binary64.rnd b = a.cross b ∧ Binary64.IsInt 2199023255552 (a.cross b) := by
  unfold Point.crossF Point.cross
  have d1 := ha.1.mul hb.2
  have d2 := ha.2.mul hb.1
  rw [d1.rnd_eq (by norm_num), d2.rnd_eq (by norm_num), (d1.sub d2).rnd_eq (by norm_num)]
  exact ⟨rfl, (d1.sub d2).mono (by norm_num)⟩

/-- on a ring whose points have integer coordinates up to `2 ^ 20` the loop of
`area` makes no rounding error, as long as the sum stays below `2 ^ 53` -/
theorem areaLoopF_exact {h : Heap} {hd : Nat} :
    ∀ (post : List Nat) (cur fuel : Nat) (acc : ℚ) (A : Nat),
      List.Chain (Link h) cur (post ++ [hd]) → hd ∉ post → post.length < fuel →
      (∀ x ∈ cur :: (post ++ [hd]), IntPoint 1048576 (pointOf h x)) →
      Binary64.IsInt A acc → A + (post.length + 1) * 2199023255552 < 9007199254740992 →
      areaLoopF Binary64.rnd h hd fuel (some cur) acc = areaLoop h hd fuel (some cur) acc
  | [], cur, fuel, acc, A, hc, _, hf, hint, hacc, hA => by
    obtain ⟨fuel, rfl⟩ : ∃ f, fuel = f + 1 := ⟨fuel - 1, by simp at hf; omega⟩
    simp only [List.nil_append, List.chain_cons, List.Chain.nil, and_true] at hc
    obtain ⟨v, hv, hnext⟩ := nextOf_eq_some.1 hc.1
    obtain ⟨nv, hnv, _⟩ := prevOf_eq_some.1 hc.2
    have h1 := hint cur (by simp)
    have h2 := hint hd (by simp)
    rw [pointOf_of_getElem? hv] at h1
    rw [pointOf_of_getElem? hnv] at h2
    obtain ⟨e, hi⟩ := crossF_exact h1 h2
    have e2 := (hacc.add hi).rnd_eq (by simp at hA; omega)
    simp [areaLoopF, areaLoop, load, hv, hnext, hnv, e, e2]
  | x :: post, cur, fuel, acc, A, hc, hnot, hf, hint, hacc, hA => by
    obtain ⟨fuel, rfl⟩ : ∃ f, fuel = f + 1 := ⟨fuel - 1, by simp at hf; omega⟩
    simp only [List.cons_append, List.chain_cons] at hc
    obtain ⟨v, hv, hnext⟩ := nextOf_eq_some.1 hc.1.1
    obtain ⟨nv, hnv, _⟩ := prevOf_eq_some.1 hc.1.2
    have hx : x ≠ hd := fun e => hnot (by simp [e])
    have h1 := hint cur (by simp)
    have h2 := hint x (by simp)
    rw [pointOf_of_getElem? hv] at h1
    rw [pointOf_of_getElem? hnv] at h2
    obtain ⟨e, hi⟩ := crossF_exact h1 h2
    have e2 := (hacc.add hi).rnd_eq (by simp at hA; omega)
    have ih := areaLoopF_exact post x fuel (acc + v.point.cross nv.point)
      (A + 2199023255552) hc.2
      (fun hm => hnot (List.mem_cons_of_mem _ hm)) (by simp at hf; omega)
      (fun y hy => hint y (List.mem_cons_of_mem _ (by simpa using hy))) (hacc.add hi)
      (by simp at hA; omega)
    simp only [areaLoopF, areaLoop, load, hv, hnext, hnv, Option.some_bind, e, e2]
    rw [if_pos (by simpa using hx), if_pos (by simpa using hx), ih]

/-- on a ring of at most 2048 vertices with integer coordinates up to `2 ^ 20`,
`area()` in binary64 arithmetic is the exact area, rounded once at the end -/
theorem areaF_eq_map {h : Heap} {P : Polygon} {l : List Nat} (hr : RingOf h P l)
    (hint : ∀ x ∈ l, IntPoint 1048576 (pointOf h x)) (hlen : l.length ≤ 2048) :
    areaF Binary64.rnd h P = (area h P).map Binary64.rnd := by
  have hcount := vertexCount_ring hr
  have h0 : Binary64.rnd 0 = 0 := by decide!
  cases l with
  | nil => simp [areaF, area, show P.head = none from hr, h0]
  | cons hd rest =>
    obtain ⟨hP, hring⟩ := hr
    have hl := hring.length_le
    simp only [areaF, area, hP, hcount, Option.some_bind]
    by_cases h3 : (hd :: rest).length < 3
    · rw [if_pos h3, if_pos h3]
      simp [h0]
    · rw [if_neg h3, if_neg h3,
        areaLoopF_exact rest hd h.length 0 0 hring.2 (List.nodup_cons.1 hring.1).1
          (by simpa using hl)
          (fun x hx => hint x (by
            simp only [List.mem_cons, List.mem_append, List.mem_singleton] at hx ⊢
            tauto))
          (Binary64.IsInt.zero 0) (by simp at hlen; omega),
        areaLoop_spec rest hd h.length 0 hring.2 (List.nodup_cons.1 hring.1).1
          (by simpa using hl)]
      simp

/-- C36, as stated, fails. For the polygon built from
`(0,0.1), (2.6,2.7), (3.8,9.9), (5.3,0.7)` (`kiteState`; `kiteReversed` is the
state after `reverse()`), `area()` in binary64 arithmetic is `17.03` before
`reverse()` and `17.029999999999998` after it: the terms of the sum are added
in the opposite order. Over exact arithmetic the two areas are equal. -/
theorem C36_counterexample :
    RingOf kiteState.1 kiteState.2 [0, 1, 2, 3] ∧
    Polygon.reverse kiteState.1 kiteState.2 = some kiteReversed ∧
    Polygon.areaF Binary64.rnd kiteState.1 kiteState.2 =
      some (Binary64.rnd (1703 / 100)) ∧
    Polygon.areaF Binary64.rnd kiteReversed.1 kiteReversed.2 =
      some (Binary64.rnd (1703 / 100) - 1 / 281474976710656) ∧
    Polygon.areaF Binary64.rnd kiteReversed.1 kiteReversed.2 ≠
      Polygon.areaF Binary64.rnd kiteState.1 kiteState.2 ∧
    Polygon.area kiteReversed.1 kiteReversed.2 = Polygon.area kiteState.1 kiteState.2 := by
  refine ⟨by decide!, by decide!, by decide!, by decide!, by decide!, by decide!⟩

/-- C36, amended. On a ring, `reverse()` returns and `getPoints()` after it is
the reversed list of `getPoints()` before it, and a second `reverse()` gives
back the original point sequence (no arithmetic is involved). Over exact
arithmetic `area()` returns the same value before and after `reverse()`; in
binary64 arithmetic it does so on every ring of at most 2048 vertices whose
coordinates are integers of absolute value at most `2 ^ 20`, for which the sum
is formed without rounding error. -/
theorem C36_reverse_points_and_area {h : Heap} {P : Polygon} {l : List Nat}
    (hr : RingOf h P l) :
    ∃ h1 P1 h2 P2 pts a, Polygon.getPoints h P = some pts ∧
      Polygon.reverse h P = some (h1, P1) ∧ Polygon.getPoints h1 P1 = some pts.reverse ∧
      Polygon.reverse h1 P1 = some (h2, P2) ∧ Polygon.getPoints h2 P2 = some pts ∧
      Polygon.area h P = some a ∧ Polygon.area h1 P1 = some a ∧
      ((∀ x ∈ l, IntPoint 1048576 (pointOf h x)) → l.length ≤ 2048 →
        Polygon.areaF Binary64.rnd h P = some (Binary64.rnd a) ∧
        Polygon.areaF Binary64.rnd h1 P1 = some (Binary64.rnd a)) := by
  obtain ⟨h1, P1, e1, hr1, _, hp1⟩ := reverse_ring hr
  obtain ⟨h1', P1', h2, P2, pts, a, r1, r2, r3, r4, r5, r6, r7⟩ := reverse_points_and_area hr
  rw [e1] at r2
  obtain ⟨rfl, rfl⟩ : h1 = h1' ∧ P1 = P1' := by
    have := Option.some.inj r2
    exact ⟨congrArg Prod.fst this, congrArg Prod.snd this⟩
  refine ⟨h1, P1, h2, P2, pts, a, r1, e1, r3, r4, r5, r6, r7, fun hint hlen => ?_⟩
  constructor
  · rw [areaF_eq_map hr hint hlen, r6]
    rfl
  · rw [areaF_eq_map hr1 (fun x hx => by rw [hp1]; exact hint x (List.mem_reverse.1 hx))
      (by simpa using hlen), r7]
    rfl

theorem C36_reverse_points_and_area_witness :
    RingOf triangleState.1 triangleState.2 [0, 1, 2] ∧
    (∃ h1 P1 h2 P2 pts a, Polygon.getPoints triangleState.1 triangleState.2 = some pts ∧
      Polygon.reverse triangleState.1 triangleState.2 = some (h1, P1) ∧
      Polygon.getPoints h1 P1 = some pts.reverse ∧
      Polygon.reverse h1 P1 = some (h2, P2) ∧ Polygon.getPoints h2 P2 = some pts ∧
      Polygon.area triangleState.1 triangleState.2 = some a ∧
      Polygon.area h1 P1 = some a ∧
      ((∀ x ∈ [0, 1, 2], IntPoint 1048576 (pointOf triangleState.1 x)) →
        [0, 1, 2].length ≤ 2048 →
        Polygon.areaF Binary64.rnd triangleState.1 triangleState.2 =
          some (Binary64.rnd a) ∧
        Polygon.areaF Binary64.rnd h1 P1 = some (Binary64.rnd a))) ∧
    Polygon.getPoints triangleState.1 triangleState.2 = some [⟨0, 0⟩, ⟨1, 0⟩, ⟨1, 1⟩] ∧
    Polygon.area triangleState.1 triangleState.2 = some (1 / 2) ∧
    Polygon.areaF Binary64.rnd triangleState.1 triangleState.2 = some (1 / 2) :=
  ⟨by decide!, C36_reverse_points_and_area (by decide! : RingOf triangleState.1 triangleState.2
    [0, 1, 2]), by decide!, by decide!, by decide!⟩

end PolygonBoolean

/-! ### `EnsureCCW` in binary64 arithmetic -/

section EnsureCCWRounding

open GeometryCore GeometryCore.PolygonUtilityExtension

set_option maxRecDepth 100000

theorem EnsureCCWAreaF_id (pts : List Point) : EnsureCCWAreaF id pts = EnsureCCWArea pts := rfl

theorem EnsureCCWF_id (pts : List Point) : EnsureCCWF id pts = EnsureCCW pts := rfl

theorem intPoint_vget {B : Nat} {pts : List Point} (h : ∀ p ∈ pts, IntPoint B p) (k : Nat) :
    IntPoint B (vget pts k) := by
  unfold vget
  by_cases hk : k < pts.length
  · rw [List.getD_eq_getElem _ _ hk]
    exact h _ (List.getElem_mem _)
  · rw [List.getD_eq_default _ _ (not_lt.1 hk)]
    exact ⟨Binary64.IsInt.zero B, Binary64.IsInt.zero B⟩

/-- one term of the shoelace sum on points with integer coordinates up to
`2 ^ 20` is computed without rounding error -/
theorem shoelace_term_exact {p q : Point} (hp : IntPoint 1048576 p) (hq : IntPoint 1048576 q) :
    Binary64.rnd (Binary64.rnd (p.x * q.y) - Binary64.rnd (q.x * p.y)) = p.x * q.y - q.x * p.y ∧
      Binary64.IsInt 2199023255552 (p.x * q.y - q.x * p.y) := by
  have d1 := hp.1.mul hq.2
  have d2 := hq.1.mul hp.2
  rw [d1.rnd_eq (by norm_num), d2.rnd_eq (by norm_num), (d1.sub d2).rnd_eq (by norm_num)]
  exact ⟨rfl, (d1.sub d2).mono (by norm_num)⟩

theorem shoelace_foldl_exact {pts : List Point} (h : ∀ p ∈ pts, IntPoint 1048576 p) :
    ∀ (l : List Nat) (acc : ℚ) (A : Nat), Binary64.IsInt A acc →
      A + l.length * 2199023255552 < 9007199254740992 →
      l.foldl (fun area i =>
        Binary64.rnd (area + Binary64.rnd
          (Binary64.rnd ((vget pts i).x * (vget pts ((i + 1) % pts.length)).y) -
            Binary64.rnd ((vget pts ((i + 1) % pts.length)).x * (vget pts i).y)))) acc =
      l.foldl (fun area i =>
        area + ((vget pts i).x * (vget pts ((i + 1) % pts.length)).y -
          (vget pts ((i + 1) % pts.length)).x * (vget pts i).y)) acc
  | [], _, _, _, _ => rfl
  | i :: l, acc, A, hacc, hA => by
    obtain ⟨e, hi⟩ := shoelace_term_exact (intPoint_vget h i)
      (intPoint_vget h ((i + 1) % pts.length))
    have e2 := (hacc.add hi).rnd_eq (by simp at hA; omega)
    rw [List.foldl_cons, List.foldl_cons, e, e2]
    exact shoelace_foldl_exact h l _ (A + 2199023255552) (hacc.add hi)
      (by simp at hA; omega)

/-- on at most 2048 points with integer coordinates up to `2 ^ 20` the sum of
`EnsureCCW` is formed without rounding error -/
theorem EnsureCCWAreaF_exact {pts : List Point} (h : ∀ p ∈ pts, IntPoint 1048576 p)
    (hlen : pts.length ≤ 2048) : EnsureCCWAreaF Binary64.rnd pts = EnsureCCWArea pts := by
  unfold EnsureCCWAreaF EnsureCCWArea
  exact shoelace_foldl_exact h _ 0 0 (Binary64.IsInt.zero 0) (by simp; omega)

theorem EnsureCCWF_exact {pts : List Point} (h : ∀ p ∈ pts, IntPoint 1048576 p)
    (hlen : pts.length ≤ 2048) : EnsureCCWF Binary64.rnd pts = EnsureCCW pts := by
  unfold EnsureCCWF EnsureCCW
  rw [EnsureCCWAreaF_exact h hlen]

/-- C37, as stated, fails. For the quadrilateral `nearLineQuad`, the points
`(9835.5,-4326.8), (9266.9,-2165.2), (7561.1,4319.6), (8129.7,2158.0)`, the
shoelace sum in binary64 arithmetic is `-2 ^ (-27)` (about `-7.45e-9`) in the
given order and in the reversed order: `EnsureCCW` reverses the list, the sum
of the result is still negative, and a second call reverses it again. Over
exact arithmetic the sum of the given list is positive. -/
theorem C37_counterexample :
    EnsureCCWAreaF Binary64.rnd nearLineQuad = -(1 / 134217728) ∧
    EnsureCCWF Binary64.rnd nearLineQuad = nearLineQuad.reverse ∧
    EnsureCCWAreaF Binary64.rnd (EnsureCCWF Binary64.rnd nearLineQuad) = -(1 / 134217728) ∧
    EnsureCCWF Binary64.rnd (EnsureCCWF Binary64.rnd nearLineQuad) = nearLineQuad ∧
    EnsureCCWF Binary64.rnd (EnsureCCWF Binary64.rnd nearLineQuad) ≠
      EnsureCCWF Binary64.rnd nearLineQuad ∧
    0 < EnsureCCWArea nearLineQuad := by
  refine ⟨by decide!, by decide!, by decide!, by decide!, by decide!, by decide!⟩

/-- C37, amended. For every point list `pts` and every rounding of the
arithmetic, `EnsureCCW(pts)` is `pts` or the reversal of `pts`. Over exact
arithmetic the shoelace sum of `EnsureCCW(pts)` is not negative and `EnsureCCW`
applied to `EnsureCCW(pts)` changes nothing; in binary64 arithmetic this holds
for every list of at most 2048 points whose coordinates are integers of
absolute value at most `2 ^ 20`, for which the sum is formed without rounding
error. -/
theorem C37_EnsureCCW (pts : List Point) :
    (∀ fl : ℚ → ℚ, EnsureCCWF fl pts = pts ∨ EnsureCCWF fl pts = pts.reverse) ∧
    (0 ≤ EnsureCCWArea (EnsureCCW pts) ∧ EnsureCCW (EnsureCCW pts) = EnsureCCW pts) ∧
    ((∀ p ∈ pts, IntPoint 1048576 p) → pts.length ≤ 2048 →
      0 ≤ EnsureCCWAreaF Binary64.rnd (EnsureCCWF Binary64.rnd pts) ∧
      EnsureCCWF Binary64.rnd (EnsureCCWF Binary64.rnd pts) = EnsureCCWF Binary64.rnd pts) := by
  obtain ⟨h1, h2, h3⟩ := EnsureCCW_exact pts
  refine ⟨fun fl => ?_, ⟨h1, h3⟩, fun hint hlen => ?_⟩
  · unfold EnsureCCWF
    split_ifs
    · exact Or.inl rfl
    · exact Or.inr rfl
    · exact Or.inl rfl
  · have e := EnsureCCWF_exact hint hlen
    have hint2 : ∀ p ∈ EnsureCCW pts, IntPoint 1048576 p := by
      rcases h2 with h2 | h2
      · rw [h2]; exact hint
      · rw [h2]; exact fun p hp => hint p (List.mem_reverse.1 hp)
    have hlen2 : (EnsureCCW pts).length ≤ 2048 := by
      rcases h2 with h2 | h2
      · rw [h2]; exact hlen
      · rw [h2, List.length_reverse]; exact hlen
    rw [e, EnsureCCWAreaF_exact hint2 hlen2, EnsureCCWF_exact hint2 hlen2]
    exact ⟨h1, h3⟩

theorem C37_EnsureCCW_witness :
    (∀ p ∈ square4.reverse, IntPoint 1048576 p) ∧ square4.reverse.length ≤ 2048 ∧
    EnsureCCWF Binary64.rnd square4.reverse = square4 ∧
    0 ≤ EnsureCCWAreaF Binary64.rnd (EnsureCCWF Binary64.rnd square4.reverse) ∧
    EnsureCCWF Binary64.rnd (EnsureCCWF Binary64.rnd square4.reverse) =
      EnsureCCWF Binary64.rnd square4.reverse :=
  have hint : ∀ p ∈ square4.reverse, IntPoint 1048576 p := by
    intro p hp
    have hp' : p ∈ [(⟨0, 4⟩ : Point), ⟨4, 4⟩, ⟨4, 0⟩, ⟨0, 0⟩] := hp
    simp only [List.mem_cons, List.mem_singleton, List.not_mem_nil, or_false] at hp'
    rcases hp' with rfl | rfl | rfl | rfl
    · exact ⟨⟨0, by simp, by decide⟩, ⟨4, by simp, by decide⟩⟩
    · exact ⟨⟨4, by simp, by decide⟩, ⟨4, by simp, by decide⟩⟩
    · exact ⟨⟨4, by simp, by decide⟩, ⟨0, by simp, by decide⟩⟩
    · exact ⟨⟨0, by simp, by decide⟩, ⟨0, by simp, by decide⟩⟩
  ⟨hint, by decide, by decide!,
    ((C37_EnsureCCW square4.reverse).2.2 hint (by decide)).1,
    ((C37_EnsureCCW square4.reverse).2.2 hint (by decide)).2⟩

end EnsureCCWRounding

/-! ### GeometryCore: the intersection in the two orders of its operands -/

section IntersectionOrder

open GeometryCore GeometryCore.Polygonutility GeometryCore.BooleanOps

set_option maxRecDepth 100000

/-! The branches of the dispatcher that do not clip. -/

/-- with a rounding that commutes with the sign, `SegmentIntersect` answers
the same for the two orders of the segments -/
theorem SegmentIntersectF_fst_symm (fl : ℚ → ℚ) (hodd : ∀ x, fl (-x) = -fl x)
    (p1 p2 q1 q2 u v : Point) :
    (SegmentIntersectF fl p1 p2 q1 q2 u).1 = (SegmentIntersectF fl q1 q2 p1 p2 v).1 := by
  unfold SegmentIntersectF
  simp only
  generalize fl (p2.y - p1.y) = A1
  generalize fl (p1.x - p2.x) = B1
  generalize fl (q2.y - q1.y) = A2
  generalize fl (q1.x - q2.x) = B2
  generalize fl (fl (A1 * p1.x) + fl (B1 * p1.y)) = C1
  generalize fl (fl (A2 * q1.x) + fl (B2 * q1.y)) = C2
  have hsub : ∀ a b : ℚ, fl (a - b) = -fl (b - a) := by
    intro a b
    rw [← hodd, neg_sub]
  rw [hsub (fl (A2 * B1)) (fl (A1 * B2)), hsub (fl (B1 * C2)) (fl (B2 * C1)),
    hsub (fl (A2 * C1)) (fl (A1 * C2)), abs_neg, neg_div_neg_eq, neg_div_neg_eq]
  split_ifs
  · rfl
  · exact Bool.and_comm _ _

theorem EdgesIntersectF_symm (fl : ℚ → ℚ) (hodd : ∀ x, fl (-x) = -fl x)
    (aV bV : List Point) (u v : Point) :
    EdgesIntersectF fl aV bV u = EdgesIntersectF fl bV aV v := by
  unfold EdgesIntersectF
  rw [any_any_comm]
  simp only [SegmentIntersectF_fst_symm fl hodd _ _ _ _ u v]

/-- with a rounding that commutes with the sign, the overlap test is
symmetric in its operands -/
theorem PolygonsOverlapF_symm (fl : ℚ → ℚ) (hodd : ∀ x, fl (-x) = -fl x)
    (A B : Polygon) (u v : Point) :
    PolygonsOverlapF fl A B u = PolygonsOverlapF fl B A v := by
  unfold PolygonsOverlapF
  rw [EdgesIntersectF_symm fl hodd _ _ u v]
  cases (A.outer.vertices.any fun p => PointInPolygonF fl p B) <;>
    cases (B.outer.vertices.any fun p => PointInPolygonF fl p A) <;> simp

theorem PointInRingF_nil (fl : ℚ → ℚ) (p : Point) (r : Ring) (h : r.vertices = []) :
    PointInRingF fl p r = false := by
  unfold PointInRingF
  rw [h]
  rfl

theorem PointInPolygonF_outer {fl : ℚ → ℚ} {p : Point} {X : Polygon}
    (h : PointInPolygonF fl p X = true) : PointInRingF fl p X.outer = true := by
  unfold PointInPolygonF at h
  by_contra hc
  rw [Bool.not_eq_true] at hc
  rw [hc] at h
  simp at h

/-- when no point with all of the other ring at its left or at its abscissa
tests inside that ring, the two polygons cannot both have all their vertices
test inside the other: compare their greatest abscissae -/
theorem AllInsideF_not_both (fl : ℚ → ℚ) (A B : Polygon) (hA : A.outer.vertices ≠ [])
    (hrB : ∀ p ∈ A.outer.vertices, (∀ q ∈ B.outer.vertices, q.x ≤ p.x) →
      PointInRingF fl p B.outer = false)
    (hrA : ∀ p ∈ B.outer.vertices, (∀ q ∈ A.outer.vertices, q.x ≤ p.x) →
      PointInRingF fl p A.outer = false)
    (hab : AllInsideF fl A B = true) (hba : AllInsideF fl B A = true) : False := by
  unfold AllInsideF at hab hba
  rw [List.all_eq_true] at hab hba
  obtain ⟨a, ha, hamax⟩ := exists_max_x hA
  have h1 := PointInPolygonF_outer (hab a ha)
  have hB : B.outer.vertices ≠ [] := by
    intro hB
    rw [PointInRingF_nil fl a B.outer hB] at h1
    exact Bool.false_ne_true h1
  obtain ⟨b, hb, hbmax⟩ := exists_max_x hB
  have h2 := PointInPolygonF_outer (hba b hb)
  have hlt : a.x < b.x := by
    by_contra hc
    rw [hrB a ha fun q hq => le_trans (hbmax q hq) (not_lt.1 hc)] at h1
    exact Bool.false_ne_true h1
  rw [hrA b hb fun q hq => le_trans (hamax q hq) hlt.le] at h2
  exact Bool.false_ne_true h2

theorem PolygonsOverlapF_nil (fl : ℚ → ℚ) (A B : Polygon) (u : Point)
    (hA : A.outer.vertices = []) : PolygonsOverlapF fl A B u = false := by
  have h2 : (B.outer.vertices.any fun p => PointInPolygonF fl p A) = false := by
    rw [List.any_eq_false]
    intro p _
    unfold PointInPolygonF
    rw [PointInRingF_nil fl p A.outer hA]
    simp
  unfold PolygonsOverlapF
  rw [h2]
  unfold EdgesIntersectF
  rw [hA]
  rfl

/-- the intersection branch of the dispatcher when the overlap test fails -/
theorem intersectionF_of_no_overlap (fl : ℚ → ℚ) (X Y : Polygon) (u : Point)
    (h : PolygonsOverlapF fl X Y u = false) :
    ComputeBooleanF fl X Y BoolOp.Intersection u = [] := by
  unfold ComputeBooleanF
  simp only [h, Bool.not_false, if_true]

theorem intersectionF_of_inside (fl : ℚ → ℚ) (X Y : Polygon) (u : Point)
    (h : PolygonsOverlapF fl X Y u = true) (hin : AllInsideF fl X Y = true) :
    ComputeBooleanF fl X Y BoolOp.Intersection u = [X] := by
  unfold ComputeBooleanF
  simp only [h, hin, Bool.not_true, Bool.false_eq_true, if_false, if_true]

theorem intersectionF_of_contains (fl : ℚ → ℚ) (X Y : Polygon) (u : Point)
    (h : PolygonsOverlapF fl X Y u = true) (hin : AllInsideF fl X Y = false)
    (hout : AllInsideF fl Y X = true) :
    ComputeBooleanF fl X Y BoolOp.Intersection u = [Y] := by
  unfold ComputeBooleanF
  simp only [h, hin, hout, Bool.not_true, Bool.false_eq_true, if_false, if_true]

/-- the intersection branch of the dispatcher when it clips -/
theorem intersectionF_of_clip (fl : ℚ → ℚ) (X Y : Polygon) (u : Point)
    (h : PolygonsOverlapF fl X Y u = true) (hin : AllInsideF fl X Y = false)
    (hout : AllInsideF fl Y X = false) :
    ComputeBooleanF fl X Y BoolOp.Intersection u =
      if (ClipPolygonF fl X.outer.vertices Y.outer.vertices u).length < 3 then []
      else [⟨⟨ClipPolygonF fl X.outer.vertices Y.outer.vertices u⟩, []⟩] := by
  unfold ComputeBooleanF
  simp only [h, hin, hout, Bool.not_true, Bool.false_eq_true, if_false]

/-- the two orders of the operands agree in every branch but the clipping one -/
theorem intersectionF_comm_unclipped (fl : ℚ → ℚ) (hodd : ∀ x, fl (-x) = -fl x)
    (A B : Polygon) (u v : Point)
    (hrB : ∀ p ∈ A.outer.vertices, (∀ q ∈ B.outer.vertices, q.x ≤ p.x) →
      PointInRingF fl p B.outer = false)
    (hrA : ∀ p ∈ B.outer.vertices, (∀ q ∈ A.outer.vertices, q.x ≤ p.x) →
      PointInRingF fl p A.outer = false)
    (h : PolygonsOverlapF fl A B u = false ∨ AllInsideF fl A B = true ∨
      AllInsideF fl B A = true) :
    ComputeBooleanF fl A B BoolOp.Intersection u =
      ComputeBooleanF fl B A BoolOp.Intersection v := by
  have hs := PolygonsOverlapF_symm fl hodd B A v u
  cases hov : PolygonsOverlapF fl A B u
  · rw [intersectionF_of_no_overlap fl A B u hov,
      intersectionF_of_no_overlap fl B A v (hs.trans hov)]
  · have hA : A.outer.vertices ≠ [] := by
      intro hA
      rw [PolygonsOverlapF_nil fl A B u hA] at hov
      exact Bool.false_ne_true hov
    have hnb := AllInsideF_not_both fl A B hA hrB hrA
    cases hab : AllInsideF fl A B <;> cases hba : AllInsideF fl B A
    · rcases h with h | h | h
      · rw [hov] at h
        exact absurd h (by simp)
      · rw [hab] at h
        exact absurd h (by simp)
      · rw [hba] at h
        exact absurd h (by simp)
    · rw [intersectionF_of_contains fl A B u hov hab hba,
        intersectionF_of_inside fl B A v (hs.trans hov) hba]
    · rw [intersectionF_of_inside fl A B u hov hab,
        intersectionF_of_contains fl B A v (hs.trans hov) hba hab]
    · exact absurd (hnb hab hba) id

theorem id_odd : ∀ x : ℚ, id (-x) = -id x := fun _ => rfl

/-- over exact arithmetic a point with no vertex of the ring strictly at its
right tests outside -/
theorem PointInRingF_id_false_of_right_le (p : Point) (r : Ring)
    (h : ∀ q ∈ r.vertices, q.x ≤ p.x) : PointInRingF id p r = false := by
  rw [PointInRingF_id]
  exact PointInRing_false_of_right_le p r h

/-- in binary64 arithmetic on integer coordinates a point with no vertex of
the ring strictly at its right tests outside -/
theorem PointInRingF_rnd_false_of_right_le {p : Point} {r : Ring}
    (hp : IntPoint 1048576 p) (hr : ∀ q ∈ r.vertices, IntPoint 1048576 q)
    (h : ∀ q ∈ r.vertices, q.x ≤ p.x) : PointInRingF Binary64.rnd p r = false := by
  apply PointInRingF_false_of_no_toggle
  intro a ha b hb hs
  have := (crossingF_x_bounds (hr a ha) (hr b hb) hp hs).2
  have : max a.x b.x ≤ p.x := max_le (h a ha) (h b hb)
  linarith

/-! The clipper on axis-aligned rectangles. -/

theorem Inside_bottom (p : Point) (u1 u2 v : ℚ) (h : u1 < u2) :
    Inside p ⟨u1, v⟩ ⟨u2, v⟩ true = decide (v ≤ p.y) := by
  unfold Inside
  simp only [if_true, sub_self, zero_mul, sub_zero, ge_iff_le]
  rw [decide_eq_decide]
  constructor
  · intro h0
    by_contra hc
    push_neg at hc
    nlinarith
  · intro h0
    exact mul_nonneg (by linarith) (by linarith)

theorem Inside_right (p : Point) (u v1 v2 : ℚ) (h : v1 < v2) :
    Inside p ⟨u, v1⟩ ⟨u, v2⟩ true = decide (p.x ≤ u) := by
  unfold Inside
  simp only [if_true, sub_self, zero_mul, zero_sub, ge_iff_le]
  rw [decide_eq_decide]
  constructor
  · intro h0
    by_contra hc
    push_neg at hc
    nlinarith
  · intro h0
    nlinarith

theorem Inside_top (p : Point) (u1 u2 v : ℚ) (h : u1 < u2) :
    Inside p ⟨u2, v⟩ ⟨u1, v⟩ true = decide (p.y ≤ v) := by
  unfold Inside
  simp only [if_true, sub_self, zero_mul, sub_zero, ge_iff_le]
  rw [decide_eq_decide]
  constructor
  · intro h0
    by_contra hc
    push_neg at hc
    nlinarith
  · intro h0
    nlinarith

theorem Inside_left (p : Point) (u v1 v2 : ℚ) (h : v1 < v2) :
    Inside p ⟨u, v2⟩ ⟨u, v1⟩ true = decide (u ≤ p.x) := by
  unfold Inside
  simp only [if_true, sub_self, zero_mul, zero_sub, ge_iff_le]
  rw [decide_eq_decide]
  constructor
  · intro h0
    by_contra hc
    push_neg at hc
    nlinarith
  · intro h0
    nlinarith

/-- the crossing of a vertical segment with a horizontal line -/
theorem SegmentIntersect_vertical (x ya yb ua ub v : ℚ) (u : Point)
    (h : eps9 ≤ |(yb - ya) * (ua - ub)|) :
    (SegmentIntersect ⟨x, ya⟩ ⟨x, yb⟩ ⟨ua, v⟩ ⟨ub, v⟩ u).2 = ⟨x, v⟩ := by
  have hd : (yb - ya) * (ua - ub) ≠ 0 := by
    intro h0
    rw [h0, abs_zero] at h
    exact absurd h (not_le.2 eps9_pos)
  unfold SegmentIntersect
  simp only [sub_self, zero_mul, add_zero, zero_add, sub_zero]
  rw [if_neg (not_lt.2 h)]
  simp only [Point.mk.injEq]
  constructor
  · field_simp
    ring
  · field_simp
    ring

/-- the crossing of a horizontal segment with a vertical line -/
theorem SegmentIntersect_horizontal (xa xb y uu va vb : ℚ) (u : Point)
    (h : eps9 ≤ |(xa - xb) * (vb - va)|) :
    (SegmentIntersect ⟨xa, y⟩ ⟨xb, y⟩ ⟨uu, va⟩ ⟨uu, vb⟩ u).2 = ⟨uu, y⟩ := by
  have hd : (xa - xb) * (vb - va) ≠ 0 := by
    intro h0
    rw [h0, abs_zero] at h
    exact absurd h (not_le.2 eps9_pos)
  have hd2 : (vb - va) * (xa - xb) ≠ 0 := by rwa [mul_comm]
  have habs : |(0 : ℚ) - (vb - va) * (xa - xb)| = |(xa - xb) * (vb - va)| := by
    rw [zero_sub, abs_neg, mul_comm]
  unfold SegmentIntersect
  simp only [sub_self, zero_mul, add_zero, zero_add, mul_zero]
  rw [habs, if_neg (not_lt.2 h)]
  simp only [Point.mk.injEq]
  constructor
  · field_simp
    ring
  · field_simp
    ring

theorem g_max {g : ℚ → Prop} {a b : ℚ} (ha : g a) (hb : g b) : g (max a b) := by
  rcases max_choice a b with h | h <;> rw [h]
  · exact ha
  · exact hb

theorem g_min {g : ℚ → Prop} {a b : ℚ} (ha : g a) (hb : g b) : g (min a b) := by
  rcases min_choice a b with h | h <;> rw [h]
  · exact ha
  · exact hb

/-- the pass of the clipper for the lower edge of the clip rectangle -/
theorem passF_bottom {fl : ℚ → ℚ} {g : ℚ → Prop} {u : Point} (hE : ClipExactOn fl g u)
    {x1 x2 y1 y2 u1 u2 v1 : ℚ} (gx1 : g x1) (gx2 : g x2) (gy1 : g y1) (gy2 : g y2)
    (gu1 : g u1) (gu2 : g u2) (gv1 : g v1) (hu : u1 < u2) (hv : v1 < y2)
    (hd : eps9 ≤ (y2 - y1) * (u2 - u1)) :
    ([(⟨x1, y1⟩ : Point), ⟨x2, y1⟩, ⟨x2, y2⟩, ⟨x1, y2⟩].foldl
        (ClipStepF fl ⟨u1, v1⟩ ⟨u2, v1⟩ true u) (⟨x1, y2⟩, [])).2 =
      [⟨x1, max y1 v1⟩, ⟨x2, max y1 v1⟩, ⟨x2, y2⟩, ⟨x1, y2⟩] := by
  have i1 : InsideF fl ⟨x1, y1⟩ ⟨u1, v1⟩ ⟨u2, v1⟩ true = decide (v1 ≤ y1) := by
    rw [hE.1 _ _ _ gx1 gy1 gu1 gv1 gu2 gv1, Inside_bottom _ _ _ _ hu]
  have i2 : InsideF fl ⟨x2, y1⟩ ⟨u1, v1⟩ ⟨u2, v1⟩ true = decide (v1 ≤ y1) := by
    rw [hE.1 _ _ _ gx2 gy1 gu1 gv1 gu2 gv1, Inside_bottom _ _ _ _ hu]
  have i3 : InsideF fl ⟨x2, y2⟩ ⟨u1, v1⟩ ⟨u2, v1⟩ true = true := by
    rw [hE.1 _ _ _ gx2 gy2 gu1 gv1 gu2 gv1, Inside_bottom _ _ _ _ hu]
    exact decide_eq_true hv.le
  have i4 : InsideF fl ⟨x1, y2⟩ ⟨u1, v1⟩ ⟨u2, v1⟩ true = true := by
    rw [hE.1 _ _ _ gx1 gy2 gu1 gv1 gu2 gv1, Inside_bottom _ _ _ _ hu]
    exact decide_eq_true hv.le
  by_cases hc : v1 ≤ y1
  · rw [max_eq_left hc]
    simp [ClipStepF, i1, i2, i3, i4, hc]
  · have hdet : eps9 ≤ |(y1 - y2) * (u1 - u2)| := by
      rw [show (y1 - y2) * (u1 - u2) = (y2 - y1) * (u2 - u1) by ring,
        abs_of_nonneg (le_trans eps9_pos.le hd)]
      exact hd
    have hdet2 : eps9 ≤ |(y2 - y1) * (u1 - u2)| := by
      rw [show (y2 - y1) * (u1 - u2) = -((y2 - y1) * (u2 - u1)) by ring, abs_neg,
        abs_of_nonneg (le_trans eps9_pos.le hd)]
      exact hd
    have e1 := SegmentIntersect_vertical x1 y2 y1 u1 u2 v1 u hdet
    have e2 := SegmentIntersect_vertical x2 y1 y2 u1 u2 v1 u hdet2
    have s1 : (SegmentIntersectF fl ⟨x1, y2⟩ ⟨x1, y1⟩ ⟨u1, v1⟩ ⟨u2, v1⟩ u).2 = ⟨x1, v1⟩ := by
      rw [hE.2 _ _ _ _ gx1 gy2 gx1 gy1 gu1 gv1 gu2 gv1 (by rw [e1]; exact gx1)
        (by rw [e1]; exact gv1), e1]
    have s2 : (SegmentIntersectF fl ⟨x2, y1⟩ ⟨x2, y2⟩ ⟨u1, v1⟩ ⟨u2, v1⟩ u).2 = ⟨x2, v1⟩ := by
      rw [hE.2 _ _ _ _ gx2 gy1 gx2 gy2 gu1 gv1 gu2 gv1 (by rw [e2]; exact gx2)
        (by rw [e2]; exact gv1), e2]
    rw [max_eq_right (le_of_not_le hc)]
    simp [ClipStepF, i1, i2, i3, i4, hc, s1, s2]

/-- the pass of the clipper for the right edge of the clip rectangle -/
theorem passF_right {fl : ℚ → ℚ} {g : ℚ → Prop} {u : Point} (hE : ClipExactOn fl g u)
    {x1 x2 y1 y2 u2 v1 v2 : ℚ} (gx1 : g x1) (gx2 : g x2) (gy1 : g y1) (gy2 : g y2)
    (gu2 : g u2) (gv1 : g v1) (gv2 : g v2) (hv : v1 < v2) (hx : x1 < u2)
    (hd : eps9 ≤ (x2 - x1) * (v2 - v1)) :
    ([(⟨x1, y1⟩ : Point), ⟨x2, y1⟩, ⟨x2, y2⟩, ⟨x1, y2⟩].foldl
        (ClipStepF fl ⟨u2, v1⟩ ⟨u2, v2⟩ true u) (⟨x1, y2⟩, [])).2 =
      [⟨x1, y1⟩, ⟨min x2 u2, y1⟩, ⟨min x2 u2, y2⟩, ⟨x1, y2⟩] := by
  have i1 : InsideF fl ⟨x1, y1⟩ ⟨u2, v1⟩ ⟨u2, v2⟩ true = true := by
    rw [hE.1 _ _ _ gx1 gy1 gu2 gv1 gu2 gv2, Inside_right _ _ _ _ hv]
    exact decide_eq_true hx.le
  have i2 : InsideF fl ⟨x2, y1⟩ ⟨u2, v1⟩ ⟨u2, v2⟩ true = decide (x2 ≤ u2) := by
    rw [hE.1 _ _ _ gx2 gy1 gu2 gv1 gu2 gv2, Inside_right _ _ _ _ hv]
  have i3 : InsideF fl ⟨x2, y2⟩ ⟨u2, v1⟩ ⟨u2, v2⟩ true = decide (x2 ≤ u2) := by
    rw [hE.1 _ _ _ gx2 gy2 gu2 gv1 gu2 gv2, Inside_right _ _ _ _ hv]
  have i4 : InsideF fl ⟨x1, y2⟩ ⟨u2, v1⟩ ⟨u2, v2⟩ true = true := by
    rw [hE.1 _ _ _ gx1 gy2 gu2 gv1 gu2 gv2, Inside_right _ _ _ _ hv]
    exact decide_eq_true hx.le
  by_cases hc : x2 ≤ u2
  · rw [min_eq_left hc]
    simp [ClipStepF, i1, i2, i3, i4, hc]
  · have hdet : eps9 ≤ |(x1 - x2) * (v2 - v1)| := by
      rw [show (x1 - x2) * (v2 - v1) = -((x2 - x1) * (v2 - v1)) by ring, abs_neg,
        abs_of_nonneg (le_trans eps9_pos.le hd)]
      exact hd
    have hdet2 : eps9 ≤ |(x2 - x1) * (v2 - v1)| := by
      rw [abs_of_nonneg (le_trans eps9_pos.le hd)]
      exact hd
    have e1 := SegmentIntersect_horizontal x1 x2 y1 u2 v1 v2 u hdet
    have e2 := SegmentIntersect_horizontal x2 x1 y2 u2 v1 v2 u hdet2
    have s1 : (SegmentIntersectF fl ⟨x1, y1⟩ ⟨x2, y1⟩ ⟨u2, v1⟩ ⟨u2, v2⟩ u).2 = ⟨u2, y1⟩ := by
      rw [hE.2 _ _ _ _ gx1 gy1 gx2 gy1 gu2 gv1 gu2 gv2 (by rw [e1]; exact gu2)
        (by rw [e1]; exact gy1), e1]
    have s2 : (SegmentIntersectF fl ⟨x2, y2⟩ ⟨x1, y2⟩ ⟨u2, v1⟩ ⟨u2, v2⟩ u).2 = ⟨u2, y2⟩ := by
      rw [hE.2 _ _ _ _ gx2 gy2 gx1 gy2 gu2 gv1 gu2 gv2 (by rw [e2]; exact gu2)
        (by rw [e2]; exact gy2), e2]
    rw [min_eq_right (le_of_not_le hc)]
    simp [ClipStepF, i1, i2, i3, i4, hc, s1, s2]

/-- the pass of the clipper for the upper edge of the clip rectangle: when it
cuts, the output starts at the upper left corner -/
theorem passF_top {fl : ℚ → ℚ} {g : ℚ → Prop} {u : Point} (hE : ClipExactOn fl g u)
    {x1 x2 y1 y2 u1 u2 v2 : ℚ} (gx1 : g x1) (gx2 : g x2) (gy1 : g y1) (gy2 : g y2)
    (gu1 : g u1) (gu2 : g u2) (gv2 : g v2) (hu : u1 < u2) (hy : y1 < v2)
    (hd : eps9 ≤ (y2 - y1) * (u2 - u1)) :
    ([(⟨x1, y1⟩ : Point), ⟨x2, y1⟩, ⟨x2, y2⟩, ⟨x1, y2⟩].foldl
        (ClipStepF fl ⟨u2, v2⟩ ⟨u1, v2⟩ true u) (⟨x1, y2⟩, [])).2 =
      if y2 ≤ v2 then [⟨x1, y1⟩, ⟨x2, y1⟩, ⟨x2, y2⟩, ⟨x1, y2⟩]
      else [⟨x1, v2⟩, ⟨x1, y1⟩, ⟨x2, y1⟩, ⟨x2, v2⟩] := by
  have i1 : InsideF fl ⟨x1, y1⟩ ⟨u2, v2⟩ ⟨u1, v2⟩ true = true := by
    rw [hE.1 _ _ _ gx1 gy1 gu2 gv2 gu1 gv2, Inside_top _ _ _ _ hu]
    exact decide_eq_true hy.le
  have i2 : InsideF fl ⟨x2, y1⟩ ⟨u2, v2⟩ ⟨u1, v2⟩ true = true := by
    rw [hE.1 _ _ _ gx2 gy1 gu2 gv2 gu1 gv2, Inside_top _ _ _ _ hu]
    exact decide_eq_true hy.le
  have i3 : InsideF fl ⟨x2, y2⟩ ⟨u2, v2⟩ ⟨u1, v2⟩ true = decide (y2 ≤ v2) := by
    rw [hE.1 _ _ _ gx2 gy2 gu2 gv2 gu1 gv2, Inside_top _ _ _ _ hu]
  have i4 : InsideF fl ⟨x1, y2⟩ ⟨u2, v2⟩ ⟨u1, v2⟩ true = decide (y2 ≤ v2) := by
    rw [hE.1 _ _ _ gx1 gy2 gu2 gv2 gu1 gv2, Inside_top _ _ _ _ hu]
  by_cases hc : y2 ≤ v2
  · rw [if_pos hc]
    simp [ClipStepF, i1, i2, i3, i4, hc]
  · have hdet : eps9 ≤ |(y1 - y2) * (u2 - u1)| := by
      rw [show (y1 - y2) * (u2 - u1) = -((y2 - y1) * (u2 - u1)) by ring, abs_neg,
        abs_of_nonneg (le_trans eps9_pos.le hd)]
      exact hd
    have hdet2 : eps9 ≤ |(y2 - y1) * (u2 - u1)| := by
      rw [abs_of_nonneg (le_trans eps9_pos.le hd)]
      exact hd
    have e1 := SegmentIntersect_vertical x1 y2 y1 u2 u1 v2 u hdet
    have e2 := SegmentIntersect_vertical x2 y1 y2 u2 u1 v2 u hdet2
    have s1 : (SegmentIntersectF fl ⟨x1, y2⟩ ⟨x1, y1⟩ ⟨u2, v2⟩ ⟨u1, v2⟩ u).2 = ⟨x1, v2⟩ := by
      rw [hE.2 _ _ _ _ gx1 gy2 gx1 gy1 gu2 gv2 gu1 gv2 (by rw [e1]; exact gx1)
        (by rw [e1]; exact gv2), e1]
    have s2 : (SegmentIntersectF fl ⟨x2, y1⟩ ⟨x2, y2⟩ ⟨u2, v2⟩ ⟨u1, v2⟩ u).2 = ⟨x2, v2⟩ := by
      rw [hE.2 _ _ _ _ gx2 gy1 gx2 gy2 gu2 gv2 gu1 gv2 (by rw [e2]; exact gx2)
        (by rw [e2]; exact gv2), e2]
    rw [if_neg hc]
    simp [ClipStepF, i1, i2, i3, i4, hc, s1, s2]

/-- the pass of the clipper for the left edge of the clip rectangle, on a list
that starts at the lower left corner -/
theorem passF_left {fl : ℚ → ℚ} {g : ℚ → Prop} {u : Point} (hE : ClipExactOn fl g u)
    {x1 x2 y1 y2 u1 v1 v2 : ℚ} (gx1 : g x1) (gx2 : g x2) (gy1 : g y1) (gy2 : g y2)
    (gu1 : g u1) (gv1 : g v1) (gv2 : g v2) (hv : v1 < v2) (hx : u1 < x2)
    (hd : eps9 ≤ (x2 - x1) * (v2 - v1)) :
    ([(⟨x1, y1⟩ : Point), ⟨x2, y1⟩, ⟨x2, y2⟩, ⟨x1, y2⟩].foldl
        (ClipStepF fl ⟨u1, v2⟩ ⟨u1, v1⟩ true u) (⟨x1, y2⟩, [])).2 =
      [⟨max x1 u1, y1⟩, ⟨x2, y1⟩, ⟨x2, y2⟩, ⟨max x1 u1, y2⟩] := by
  have i1 : InsideF fl ⟨x1, y1⟩ ⟨u1, v2⟩ ⟨u1, v1⟩ true = decide (u1 ≤ x1) := by
    rw [hE.1 _ _ _ gx1 gy1 gu1 gv2 gu1 gv1, Inside_left _ _ _ _ hv]
  have i2 : InsideF fl ⟨x2, y1⟩ ⟨u1, v2⟩ ⟨u1, v1⟩ true = true := by
    rw [hE.1 _ _ _ gx2 gy1 gu1 gv2 gu1 gv1, Inside_left _ _ _ _ hv]
    exact decide_eq_true hx.le
  have i3 : InsideF fl ⟨x2, y2⟩ ⟨u1, v2⟩ ⟨u1, v1⟩ true = true := by
    rw [hE.1 _ _ _ gx2 gy2 gu1 gv2 gu1 gv1, Inside_left _ _ _ _ hv]
    exact decide_eq_true hx.le
  have i4 : InsideF fl ⟨x1, y2⟩ ⟨u1, v2⟩ ⟨u1, v1⟩ true = decide (u1 ≤ x1) := by
    rw [hE.1 _ _ _ gx1 gy2 gu1 gv2 gu1 gv1, Inside_left _ _ _ _ hv]
  by_cases hc : u1 ≤ x1
  · rw [max_eq_left hc]
    simp [ClipStepF, i1, i2, i3, i4, hc]
  · have hdet : eps9 ≤ |(x1 - x2) * (v1 - v2)| := by
      rw [show (x1 - x2) * (v1 - v2) = (x2 - x1) * (v2 - v1) by ring,
        abs_of_nonneg (le_trans eps9_pos.le hd)]
      exact hd
    have hdet2 : eps9 ≤ |(x2 - x1) * (v1 - v2)| := by
      rw [show (x2 - x1) * (v1 - v2) = -((x2 - x1) * (v2 - v1)) by ring, abs_neg,
        abs_of_nonneg (le_trans eps9_pos.le hd)]
      exact hd
    have e1 := SegmentIntersect_horizontal x1 x2 y1 u1 v2 v1 u hdet
    have e2 := SegmentIntersect_horizontal x2 x1 y2 u1 v2 v1 u hdet2
    have s1 : (SegmentIntersectF fl ⟨x1, y1⟩ ⟨x2, y1⟩ ⟨u1, v2⟩ ⟨u1, v1⟩ u).2 = ⟨u1, y1⟩ := by
      rw [hE.2 _ _ _ _ gx1 gy1 gx2 gy1 gu1 gv2 gu1 gv1 (by rw [e1]; exact gu1)
        (by rw [e1]; exact gy1), e1]
    have s2 : (SegmentIntersectF fl ⟨x2, y2⟩ ⟨x1, y2⟩ ⟨u1, v2⟩ ⟨u1, v1⟩ u).2 = ⟨u1, y2⟩ := by
      rw [hE.2 _ _ _ _ gx2 gy2 gx1 gy2 gu1 gv2 gu1 gv1 (by rw [e2]; exact gu1)
        (by rw [e2]; exact gy2), e2]
    rw [max_eq_right (le_of_not_le hc)]
    simp [ClipStepF, i1, i2, i3, i4, hc, s1, s2]

/-- the pass of the clipper for the left edge of the clip rectangle, on a list
that starts at the upper left corner -/
theorem passF_left_rotated {fl : ℚ → ℚ} {g : ℚ → Prop} {u : Point}
    (hE : ClipExactOn fl g u)
    {x1 x2 y1 y2 u1 v1 v2 : ℚ} (gx1 : g x1) (gx2 : g x2) (gy1 : g y1) (gy2 : g y2)
    (gu1 : g u1) (gv1 : g v1) (gv2 : g v2) (hv : v1 < v2) (hx : u1 < x2)
    (hd : eps9 ≤ (x2 - x1) * (v2 - v1)) :
    ([(⟨x1, y2⟩ : Point), ⟨x1, y1⟩, ⟨x2, y1⟩, ⟨x2, y2⟩].foldl
        (ClipStepF fl ⟨u1, v2⟩ ⟨u1, v1⟩ true u) (⟨x2, y2⟩, [])).2 =
      [⟨max x1 u1, y2⟩, ⟨max x1 u1, y1⟩, ⟨x2, y1⟩, ⟨x2, y2⟩] := by
  have i1 : InsideF fl ⟨x1, y1⟩ ⟨u1, v2⟩ ⟨u1, v1⟩ true = decide (u1 ≤ x1) := by
    rw [hE.1 _ _ _ gx1 gy1 gu1 gv2 gu1 gv1, Inside_left _ _ _ _ hv]
  have i2 : InsideF fl ⟨x2, y1⟩ ⟨u1, v2⟩ ⟨u1, v1⟩ true = true := by
    rw [hE.1 _ _ _ gx2 gy1 gu1 gv2 gu1 gv1, Inside_left _ _ _ _ hv]
    exact decide_eq_true hx.le
  have i3 : InsideF fl ⟨x2, y2⟩ ⟨u1, v2⟩ ⟨u1, v1⟩ true = true := by
    rw [hE.1 _ _ _ gx2 gy2 gu1 gv2 gu1 gv1, Inside_left _ _ _ _ hv]
    exact decide_eq_true hx.le
  have i4 : InsideF fl ⟨x1, y2⟩ ⟨u1, v2⟩ ⟨u1, v1⟩ true = decide (u1 ≤ x1) := by
    rw [hE.1 _ _ _ gx1 gy2 gu1 gv2 gu1 gv1, Inside_left _ _ _ _ hv]
  by_cases hc : u1 ≤ x1
  · rw [max_eq_left hc]
    simp [ClipStepF, i1, i2, i3, i4, hc]
  · have hdet : eps9 ≤ |(x1 - x2) * (v1 - v2)| := by
      rw [show (x1 - x2) * (v1 - v2) = (x2 - x1) * (v2 - v1) by ring,
        abs_of_nonneg (le_trans eps9_pos.le hd)]
      exact hd
    have hdet2 : eps9 ≤ |(x2 - x1) * (v1 - v2)| := by
      rw [show (x2 - x1) * (v1 - v2) = -((x2 - x1) * (v2 - v1)) by ring, abs_neg,
        abs_of_nonneg (le_trans eps9_pos.le hd)]
      exact hd
    have e1 := SegmentIntersect_horizontal x1 x2 y1 u1 v2 v1 u hdet
    have e2 := SegmentIntersect_horizontal x2 x1 y2 u1 v2 v1 u hdet2
    have s1 : (SegmentIntersectF fl ⟨x1, y1⟩ ⟨x2, y1⟩ ⟨u1, v2⟩ ⟨u1, v1⟩ u).2 = ⟨u1, y1⟩ := by
      rw [hE.2 _ _ _ _ gx1 gy1 gx2 gy1 gu1 gv2 gu1 gv1 (by rw [e1]; exact gu1)
        (by rw [e1]; exact gy1), e1]
    have s2 : (SegmentIntersectF fl ⟨x2, y2⟩ ⟨x1, y2⟩ ⟨u1, v2⟩ ⟨u1, v1⟩ u).2 = ⟨u1, y2⟩ := by
      rw [hE.2 _ _ _ _ gx2 gy2 gx1 gy2 gu1 gv2 gu1 gv1 (by rw [e2]; exact gu1)
        (by rw [e2]; exact gy2), e2]
    rw [max_eq_right (le_of_not_le hc)]
    simp [ClipStepF, i1, i2, i3, i4, hc, s1, s2]

theorem ClipLoopF_cons (fl : ℚ → ℚ) (clip : List Point) (c : Bool) (u : Point) (i : Nat)
    (rest : List Nat) (out : List Point) :
    ClipLoopF fl clip c u (i :: rest) out =
      if out = [] then []
      else ClipLoopF fl clip c u rest
        (out.foldl (ClipStepF fl (vget clip i) (vget clip ((i + 1) % clip.length)) c u)
          (out.getLastD u, [])).2 := rfl

theorem ClipLoopF_nil (fl : ℚ → ℚ) (clip : List Point) (c : Bool) (u : Point)
    (out : List Point) : ClipLoopF fl clip c u [] out = out := rfl

/-- the clipper on two axis-aligned rectangles whose interiors meet returns the
four corners of the common rectangle, from the lower left corner on, or from
the upper left corner on when the upper edge of the clip rectangle cuts -/
theorem ClipPolygonF_rectangles {fl : ℚ → ℚ} {g : ℚ → Prop} {u : Point}
    (hE : ClipExactOn fl g u) {x1 x2 y1 y2 u1 u2 v1 v2 : ℚ}
    (gx1 : g x1) (gx2 : g x2) (gy1 : g y1) (gy2 : g y2)
    (gu1 : g u1) (gu2 : g u2) (gv1 : g v1) (gv2 : g v2)
    (hu : u1 < u2) (hv : v1 < v2)
    (hX : max x1 u1 < min x2 u2) (hY : max y1 v1 < min y2 v2)
    (hd1 : eps9 ≤ (min y2 v2 - max y1 v1) * (u2 - u1))
    (hd2 : eps9 ≤ (min x2 u2 - max x1 u1) * (v2 - v1))
    (hccw : IsCCWF fl [⟨u1, v1⟩, ⟨u2, v1⟩, ⟨u2, v2⟩, ⟨u1, v2⟩] = true) :
    ClipPolygonF fl [⟨x1, y1⟩, ⟨x2, y1⟩, ⟨x2, y2⟩, ⟨x1, y2⟩]
        [⟨u1, v1⟩, ⟨u2, v1⟩, ⟨u2, v2⟩, ⟨u1, v2⟩] u =
      if y2 ≤ v2 then
        [⟨max x1 u1, max y1 v1⟩, ⟨min x2 u2, max y1 v1⟩, ⟨min x2 u2, min y2 v2⟩,
          ⟨max x1 u1, min y2 v2⟩]
      else
        [⟨max x1 u1, min y2 v2⟩, ⟨max x1 u1, max y1 v1⟩, ⟨min x2 u2, max y1 v1⟩,
          ⟨min x2 u2, min y2 v2⟩] := by
  have hx1 : x1 ≤ max x1 u1 := le_max_left _ _
  have hu1 : u1 ≤ max x1 u1 := le_max_right _ _
  have hx2 : min x2 u2 ≤ x2 := min_le_left _ _
  have hu2 : min x2 u2 ≤ u2 := min_le_right _ _
  have hy1 : y1 ≤ max y1 v1 := le_max_left _ _
  have hv1 : v1 ≤ max y1 v1 := le_max_right _ _
  have hy2 : min y2 v2 ≤ y2 := min_le_left _ _
  have hv2 : min y2 v2 ≤ v2 := min_le_right _ _
  have hup : 0 < u2 - u1 := by linarith
  have hvp : 0 < v2 - v1 := by linarith
  have gY1 := g_max gy1 gv1
  have gX2 := g_min gx2 gu2
  -- the four passes
  have p1 := passF_bottom hE gx1 gx2 gy1 gy2 gu1 gu2 gv1 hu (by linarith : v1 < y2)
    (le_trans hd1 (mul_le_mul_of_nonneg_right (by linarith) hup.le))
  have p2 := @passF_right fl g u hE x1 x2 (max y1 v1) y2 u2 v1 v2 gx1 gx2 gY1 gy2 gu2 gv1 gv2
    hv (by linarith : x1 < u2)
    (le_trans hd2 (mul_le_mul_of_nonneg_right (by linarith) hvp.le))
  have p3 := @passF_top fl g u hE x1 (min x2 u2) (max y1 v1) y2 u1 u2 v2 gx1 gX2 gY1 gy2
    gu1 gu2 gv2 hu (by linarith : max y1 v1 < v2)
    (le_trans hd1 (mul_le_mul_of_nonneg_right (by linarith) hup.le))
  unfold ClipPolygonF
  rw [hccw]
  have hr : List.range [(⟨u1, v1⟩ : Point), ⟨u2, v1⟩, ⟨u2, v2⟩, ⟨u1, v2⟩].length
      = [0, 1, 2, 3] := rfl
  have hm : (3 + 1) % [(⟨u1, v1⟩ : Point), ⟨u2, v1⟩, ⟨u2, v2⟩, ⟨u1, v2⟩].length = 0 := by
    simp
  rw [hr, ClipLoopF_cons, if_neg (by simp)]
  change ClipLoopF fl _ true u [1, 2, 3]
    ([(⟨x1, y1⟩ : Point), ⟨x2, y1⟩, ⟨x2, y2⟩, ⟨x1, y2⟩].foldl
      (ClipStepF fl ⟨u1, v1⟩ ⟨u2, v1⟩ true u) (⟨x1, y2⟩, [])).2 = _
  rw [p1, ClipLoopF_cons, if_neg (by simp)]
  change ClipLoopF fl _ true u [2, 3]
    ([(⟨x1, max y1 v1⟩ : Point), ⟨x2, max y1 v1⟩, ⟨x2, y2⟩, ⟨x1, y2⟩].foldl
      (ClipStepF fl ⟨u2, v1⟩ ⟨u2, v2⟩ true u) (⟨x1, y2⟩, [])).2 = _
  rw [p2, ClipLoopF_cons, if_neg (by simp)]
  change ClipLoopF fl _ true u [3]
    ([(⟨x1, max y1 v1⟩ : Point), ⟨min x2 u2, max y1 v1⟩, ⟨min x2 u2, y2⟩, ⟨x1, y2⟩].foldl
      (ClipStepF fl ⟨u2, v2⟩ ⟨u1, v2⟩ true u) (⟨x1, y2⟩, [])).2 = _
  rw [p3]
  by_cases hc : y2 ≤ v2
  · have p4 := @passF_left fl g u hE x1 (min x2 u2) (max y1 v1) y2 u1 v1 v2 gx1 gX2 gY1 gy2
      gu1 gv1 gv2 hv (by linarith : u1 < min x2 u2)
      (le_trans hd2 (mul_le_mul_of_nonneg_right (by linarith) hvp.le))
    rw [if_pos hc, if_pos hc, ClipLoopF_cons, if_neg (by simp), ClipLoopF_nil, hm]
    change ([(⟨x1, max y1 v1⟩ : Point), ⟨min x2 u2, max y1 v1⟩, ⟨min x2 u2, y2⟩,
      ⟨x1, y2⟩].foldl (ClipStepF fl ⟨u1, v2⟩ ⟨u1, v1⟩ true u) (⟨x1, y2⟩, [])).2 = _
    rw [p4, min_eq_left hc]
  · have p4 := @passF_left_rotated fl g u hE x1 (min x2 u2) (max y1 v1) v2 u1 v1 v2 gx1 gX2
      gY1 gv2 gu1 gv1 gv2 hv (by linarith : u1 < min x2 u2)
      (le_trans hd2 (mul_le_mul_of_nonneg_right (by linarith) hvp.le))
    rw [if_neg hc, if_neg hc, ClipLoopF_cons, if_neg (by simp), ClipLoopF_nil, hm]
    change ([(⟨x1, v2⟩ : Point), ⟨x1, max y1 v1⟩, ⟨min x2 u2, max y1 v1⟩,
      ⟨min x2 u2, v2⟩].foldl (ClipStepF fl ⟨u1, v2⟩ ⟨u1, v1⟩ true u)
        (⟨min x2 u2, v2⟩, [])).2 = _
    rw [p4, min_eq_right (le_of_not_le hc)]

/-! Binary64 arithmetic on integer coordinates up to `2 ^ 16`. -/

theorem rnd_eps9_pos : 0 < Binary64.rnd eps9 := by
  have h := Binary64.le_rnd eps9 (by decide!) 1 30 (by norm_num) (by norm_num)
    (by unfold eps9; norm_num)
  have : (0 : ℚ) < ((1 : Int) : ℚ) / 2 ^ 30 := by norm_num
  linarith

/-- an integer is below `1e-9` in absolute value exactly when it is below the
binary64 number nearest to `1e-9` -/
theorem abs_lt_rnd_eps9_iff {q : ℚ} {B : Nat} (h : Binary64.IsInt B q) :
    |q| < Binary64.rnd eps9 ↔ |q| < eps9 := by
  obtain ⟨z, rfl, _⟩ := h
  have h1 := rnd_eps9_pos
  have h2 := rnd_eps9_le
  have h3 := eps9_pos
  have h4 : eps9 < 1 := by unfold eps9; norm_num
  by_cases hz : z = 0
  · subst hz
    simp [h1, h3]
  · have : (1 : ℚ) ≤ |(z : ℚ)| := by
      have : (1 : Int) ≤ |z| := Int.one_le_abs hz
      exact_mod_cast this
    constructor
    · intro h
      linarith
    · intro h
      linarith

/-- the half-plane test is computed without rounding error on integer
coordinates up to `2 ^ 16` -/
theorem InsideF_rnd_exact {p a b : Point} (hp : IntPoint 65536 p) (ha : IntPoint 65536 a)
    (hb : IntPoint 65536 b) (c : Bool) :
    InsideF Binary64.rnd p a b c = Inside p a b c := by
  have d1 := hb.1.sub ha.1
  have d2 := hp.2.sub ha.2
  have d3 := hb.2.sub ha.2
  have d4 := hp.1.sub ha.1
  unfold InsideF Inside
  simp only
  rw [d1.rnd_eq (by norm_num), d2.rnd_eq (by norm_num), d3.rnd_eq (by norm_num),
    d4.rnd_eq (by norm_num), (d1.mul d2).rnd_eq (by norm_num),
    (d3.mul d4).rnd_eq (by norm_num), ((d1.mul d2).sub (d3.mul d4)).rnd_eq (by norm_num)]

/-- the crossing point is computed without rounding error on integer
coordinates up to `2 ^ 16` when it has integer coordinates itself -/
theorem SegmentIntersectF_rnd_snd {p1 p2 q1 q2 : Point} (h1 : IntPoint 65536 p1)
    (h2 : IntPoint 65536 p2) (k1 : IntPoint 65536 q1) (k2 : IntPoint 65536 q2) (u : Point)
    (hip : IntPoint 65536 (SegmentIntersect p1 p2 q1 q2 u).2) :
    (SegmentIntersectF Binary64.rnd p1 p2 q1 q2 u).2 = (SegmentIntersect p1 p2 q1 q2 u).2 := by
  have a1 := h2.2.sub h1.2
  have b1 := h1.1.sub h2.1
  have a2 := k2.2.sub k1.2
  have b2 := k1.1.sub k2.1
  have c1 := (a1.mul h1.1).add (b1.mul h1.2)
  have c2 := (a2.mul k1.1).add (b2.mul k1.2)
  have dd := (a1.mul b2).sub (a2.mul b1)
  have nx := (b2.mul c1).sub (b1.mul c2)
  have ny := (a1.mul c2).sub (a2.mul c1)
  unfold SegmentIntersectF
  unfold SegmentIntersect at hip ⊢
  simp only at hip ⊢
  rw [a1.rnd_eq (by norm_num), b1.rnd_eq (by norm_num), a2.rnd_eq (by norm_num),
    b2.rnd_eq (by norm_num), (a1.mul h1.1).rnd_eq (by norm_num),
    (b1.mul h1.2).rnd_eq (by norm_num), c1.rnd_eq (by norm_num),
    (a2.mul k1.1).rnd_eq (by norm_num), (b2.mul k1.2).rnd_eq (by norm_num),
    c2.rnd_eq (by norm_num), (a1.mul b2).rnd_eq (by norm_num),
    (a2.mul b1).rnd_eq (by norm_num), dd.rnd_eq (by norm_num),
    (b2.mul c1).rnd_eq (by norm_num), (b1.mul c2).rnd_eq (by norm_num),
    nx.rnd_eq (by norm_num), (a1.mul c2).rnd_eq (by norm_num),
    (a2.mul c1).rnd_eq (by norm_num), ny.rnd_eq (by norm_num)]
  by_cases hdet : |(p2.y - p1.y) * (q1.x - q2.x) - (q2.y - q1.y) * (p1.x - p2.x)| < eps9
  · rw [if_pos ((abs_lt_rnd_eps9_iff dd).2 hdet), if_pos hdet]
  · rw [if_neg (fun h => hdet ((abs_lt_rnd_eps9_iff dd).1 h)), if_neg hdet]
    rw [if_neg hdet] at hip
    simp only at hip ⊢
    rw [hip.1.rnd_eq (by norm_num), hip.2.rnd_eq (by norm_num)]

theorem shoelace_foldl_isInt {pts : List Point} (h : ∀ p ∈ pts, IntPoint 1048576 p) :
    ∀ (l : List Nat) (acc : ℚ) (A : Nat), Binary64.IsInt A acc →
      Binary64.IsInt (A + l.length * 2199023255552)
        (l.foldl (fun area i =>
          area + ((vget pts i).x * (vget pts ((i + 1) % pts.length)).y -
            (vget pts ((i + 1) % pts.length)).x * (vget pts i).y)) acc)
  | [], _, _, hacc => by simpa using hacc
  | i :: l, acc, A, hacc => by
    obtain ⟨_, hi⟩ := shoelace_term_exact (intPoint_vget h i)
      (intPoint_vget h ((i + 1) % pts.length))
    have := shoelace_foldl_isInt h l _ (A + 2199023255552) (hacc.add hi)
    rw [List.foldl_cons]
    refine this.mono ?_
    simp only [List.length_cons]
    have : (l.length + 1) * 2199023255552 = l.length * 2199023255552 + 2199023255552 := by
      ring
    omega

/-- the orientation test is decided without rounding error on at most 2048
points with integer coordinates up to `2 ^ 20` -/
theorem IsCCWF_rnd_exact {pts : List Point} (h : ∀ p ∈ pts, IntPoint 1048576 p)
    (hlen : pts.length ≤ 2048) : IsCCWF Binary64.rnd pts = IsCCW pts := by
  unfold IsCCWF IsCCW SignedAreaF SignedArea
  simp only
  rw [shoelace_foldl_exact h _ 0 0 (Binary64.IsInt.zero 0) (by simp; omega)]
  have hS := shoelace_foldl_isInt h (List.range pts.length) 0 0 (Binary64.IsInt.zero 0)
  have hhalf : Binary64.rnd (1 / 2) = 1 / 2 := by decide!
  rw [hhalf]
  obtain ⟨z, hz, hzb⟩ := hS
  rw [hz]
  simp only [List.length_range] at hzb
  have hzb2 : z.natAbs < 2 ^ 53 := by
    have : pts.length * 2199023255552 ≤ 2048 * 2199023255552 :=
      Nat.mul_le_mul_right _ hlen
    norm_num at this ⊢
    omega
  have hden : ((z : ℚ) * (1 / 2)).den < 2 ^ 4096 := by
    have e : (z : ℚ) * (1 / 2) = (z : ℚ) / ((2 : Int) : ℚ) := by
      push_cast
      ring
    rw [e]
    exact Binary64.den_div_int_lt z 2 (by norm_num)
  rw [decide_eq_decide]
  constructor
  · intro hpos
    by_contra hc
    have := Binary64.rnd_le_int _ hden 0 (by norm_num) (by push_cast; linarith)
    push_cast at this
    linarith
  · intro hpos
    have hz1 : (1 : ℚ) ≤ z := by
      have : (0 : ℚ) < z := by linarith
      have : (0 : Int) < z := by exact_mod_cast this
      have : (1 : Int) ≤ z := this
      exact_mod_cast this
    have := Binary64.le_rnd _ hden 1 1 (by norm_num) (by norm_num)
      (by push_cast; linarith)
    have h2 : (0 : ℚ) < ((1 : Int) : ℚ) / 2 ^ 1 := by norm_num
    linarith

theorem IntPoint_mono {B C : Nat} {p : Point} (h : IntPoint B p) (hBC : B ≤ C) :
    IntPoint C p := ⟨h.1.mono hBC, h.2.mono hBC⟩

theorem SignedArea_rect (u1 u2 v1 v2 : ℚ) :
    SignedArea [⟨u1, v1⟩, ⟨u2, v1⟩, ⟨u2, v2⟩, ⟨u1, v2⟩] = (u2 - u1) * (v2 - v1) := by
  unfold SignedArea
  have hr : List.range [(⟨u1, v1⟩ : Point), ⟨u2, v1⟩, ⟨u2, v2⟩, ⟨u1, v2⟩].length
      = [0, 1, 2, 3] := rfl
  rw [hr]
  simp [vget]
  ring

theorem IsCCW_rect {u1 u2 v1 v2 : ℚ} (hu : u1 < u2) (hv : v1 < v2) :
    IsCCW [⟨u1, v1⟩, ⟨u2, v1⟩, ⟨u2, v2⟩, ⟨u1, v2⟩] = true := by
  unfold IsCCW
  rw [SignedArea_rect]
  exact decide_eq_true (mul_pos (by linarith) (by linarith))

/-- without rounding the clipper computes as it does -/
theorem ClipExactOn_id (u : Point) : ClipExactOn id (fun _ => True) u :=
  ⟨fun _ _ _ _ _ _ _ _ _ => rfl, fun _ _ _ _ _ _ _ _ _ _ _ _ _ _ => rfl⟩

/-- in binary64 arithmetic the clipper computes without rounding error on
integer coordinates up to `2 ^ 16` -/
theorem ClipExactOn_rnd (u : Point) : ClipExactOn Binary64.rnd (Binary64.IsInt 65536) u :=
  ⟨fun _ _ _ px py ax ay bx bY => InsideF_rnd_exact ⟨px, py⟩ ⟨ax, ay⟩ ⟨bx, bY⟩ true,
    fun _ _ _ _ sx sy ex ey ax ay bx bY ix iy =>
      SegmentIntersectF_rnd_snd ⟨sx, sy⟩ ⟨ex, ey⟩ ⟨ax, ay⟩ ⟨bx, bY⟩ u ⟨ix, iy⟩⟩

/-! The two orders of the operands on rectangles. -/

theorem SameOuterVertices_refl (r : List Polygon) : SameOuterVertices r r := by
  unfold SameOuterVertices
  induction r with
  | nil => exact List.Forall₂.nil
  | cons P r ih => exact List.Forall₂.cons ⟨fun _ h => h, fun _ h => h⟩ ih

/-- the four corners of a rectangle listed from the lower left corner and
from the upper left corner are the same points -/
theorem sameVertexSet_rotated (a b c d : ℚ) :
    SameVertexSet [(⟨a, c⟩ : Point), ⟨b, c⟩, ⟨b, d⟩, ⟨a, d⟩]
      [(⟨a, d⟩ : Point), ⟨a, c⟩, ⟨b, c⟩, ⟨b, d⟩] := by
  constructor <;> intro p hp <;>
    simp only [List.mem_cons, List.mem_singleton, List.not_mem_nil, or_false] at hp ⊢ <;>
    tauto

theorem SameVertexSet_symm {l1 l2 : List Point} (h : SameVertexSet l1 l2) :
    SameVertexSet l2 l1 := ⟨h.2, h.1⟩

theorem SameVertexSet_refl (l : List Point) : SameVertexSet l l :=
  ⟨fun _ h => h, fun _ h => h⟩

/-- for two axis-aligned rectangles whose interiors meet, with every
determinant above the guard, the two orders of the operands give results with
the same vertex sets, whenever the rounding leaves the half-plane test and the
crossing points exact on the grid of the rectangles -/
theorem intersectionF_rectangles {fl : ℚ → ℚ} {g : ℚ → Prop} {u v : Point}
    (hEu : ClipExactOn fl g u) (hEv : ClipExactOn fl g v) (hodd : ∀ x, fl (-x) = -fl x)
    {x1 x2 y1 y2 u1 u2 v1 v2 : ℚ}
    (gx1 : g x1) (gx2 : g x2) (gy1 : g y1) (gy2 : g y2)
    (gu1 : g u1) (gu2 : g u2) (gv1 : g v1) (gv2 : g v2)
    (hm : RectanglesMeet x1 x2 y1 y2 u1 u2 v1 v2)
    (hd : RectanglesGuard x1 x2 y1 y2 u1 u2 v1 v2)
    (hccwA : IsCCWF fl [⟨x1, y1⟩, ⟨x2, y1⟩, ⟨x2, y2⟩, ⟨x1, y2⟩] = true)
    (hccwB : IsCCWF fl [⟨u1, v1⟩, ⟨u2, v1⟩, ⟨u2, v2⟩, ⟨u1, v2⟩] = true)
    (hrB : ∀ p ∈ (rectangle x1 x2 y1 y2).outer.vertices,
      (∀ q ∈ (rectangle u1 u2 v1 v2).outer.vertices, q.x ≤ p.x) →
        PointInRingF fl p (rectangle u1 u2 v1 v2).outer = false)
    (hrA : ∀ p ∈ (rectangle u1 u2 v1 v2).outer.vertices,
      (∀ q ∈ (rectangle x1 x2 y1 y2).outer.vertices, q.x ≤ p.x) →
        PointInRingF fl p (rectangle x1 x2 y1 y2).outer = false) :
    SameOuterVertices
      (ComputeBooleanF fl (rectangle x1 x2 y1 y2) (rectangle u1 u2 v1 v2)
        BoolOp.Intersection u)
      (ComputeBooleanF fl (rectangle u1 u2 v1 v2) (rectangle x1 x2 y1 y2)
        BoolOp.Intersection v) := by
  obtain ⟨hX, hY⟩ := hm
  obtain ⟨hd1, hd2, hd3, hd4⟩ := hd
  have hx : x1 < x2 := lt_of_le_of_lt (le_max_left _ _) (lt_of_lt_of_le hX (min_le_left _ _))
  have hu : u1 < u2 := lt_of_le_of_lt (le_max_right _ _) (lt_of_lt_of_le hX (min_le_right _ _))
  have hy : y1 < y2 := lt_of_le_of_lt (le_max_left _ _) (lt_of_lt_of_le hY (min_le_left _ _))
  have hv : v1 < v2 := lt_of_le_of_lt (le_max_right _ _) (lt_of_lt_of_le hY (min_le_right _ _))
  by_cases h : PolygonsOverlapF fl (rectangle x1 x2 y1 y2) (rectangle u1 u2 v1 v2) u = false ∨
      AllInsideF fl (rectangle x1 x2 y1 y2) (rectangle u1 u2 v1 v2) = true ∨
      AllInsideF fl (rectangle u1 u2 v1 v2) (rectangle x1 x2 y1 y2) = true
  · rw [intersectionF_comm_unclipped fl hodd _ _ u v hrB hrA h]
    exact SameOuterVertices_refl _
  · rw [not_or, not_or, Bool.not_eq_false, Bool.not_eq_true, Bool.not_eq_true] at h
    obtain ⟨hov, hab, hba⟩ := h
    have hov2 := (PolygonsOverlapF_symm fl hodd (rectangle u1 u2 v1 v2)
      (rectangle x1 x2 y1 y2) v u).trans hov
    rw [intersectionF_of_clip fl _ _ u hov hab hba,
      intersectionF_of_clip fl _ _ v hov2 hba hab]
    have c1 := ClipPolygonF_rectangles hEu gx1 gx2 gy1 gy2 gu1 gu2 gv1 gv2 hu hv hX hY
      hd1 hd2 hccwB
    have c2 := ClipPolygonF_rectangles hEv gu1 gu2 gv1 gv2 gx1 gx2 gy1 gy2 hx hy
      (by rw [max_comm, min_comm]; exact hX) (by rw [max_comm, min_comm]; exact hY)
      (by rw [max_comm, min_comm]; exact hd3) (by rw [max_comm, min_comm]; exact hd4) hccwA
    rw [max_comm u1 x1, min_comm u2 x2, max_comm v1 y1, min_comm v2 y2] at c2
    change SameOuterVertices
      (if (ClipPolygonF fl [⟨x1, y1⟩, ⟨x2, y1⟩, ⟨x2, y2⟩, ⟨x1, y2⟩]
          [⟨u1, v1⟩, ⟨u2, v1⟩, ⟨u2, v2⟩, ⟨u1, v2⟩] u).length < 3 then []
        else [⟨⟨ClipPolygonF fl [⟨x1, y1⟩, ⟨x2, y1⟩, ⟨x2, y2⟩, ⟨x1, y2⟩]
          [⟨u1, v1⟩, ⟨u2, v1⟩, ⟨u2, v2⟩, ⟨u1, v2⟩] u⟩, []⟩])
      (if (ClipPolygonF fl [⟨u1, v1⟩, ⟨u2, v1⟩, ⟨u2, v2⟩, ⟨u1, v2⟩]
          [⟨x1, y1⟩, ⟨x2, y1⟩, ⟨x2, y2⟩, ⟨x1, y2⟩] v).length < 3 then []
        else [⟨⟨ClipPolygonF fl [⟨u1, v1⟩, ⟨u2, v1⟩, ⟨u2, v2⟩, ⟨u1, v2⟩]
          [⟨x1, y1⟩, ⟨x2, y1⟩, ⟨x2, y2⟩, ⟨x1, y2⟩] v⟩, []⟩])
    rw [c1, c2]
    unfold SameOuterVertices
    by_cases k1 : y2 ≤ v2 <;> by_cases k2 : v2 ≤ y2 <;>
      simp only [k1, k2, if_true, if_false, List.length_cons, List.length_nil,
        Nat.reduceAdd, Nat.reduceLT] <;>
      refine List.Forall₂.cons ?_ List.Forall₂.nil
    · exact SameVertexSet_refl _
    · exact sameVertexSet_rotated _ _ _ _
    · exact SameVertexSet_symm (sameVertexSet_rotated _ _ _ _)
    · exact SameVertexSet_refl _

theorem one_le_sub_of_int {a b : ℚ} {B C : Nat} (ha : Binary64.IsInt B a)
    (hb : Binary64.IsInt C b) (h : a < b) : 1 ≤ b - a := by
  obtain ⟨z, rfl, _⟩ := ha
  obtain ⟨w, rfl, _⟩ := hb
  have h1 : z < w := by exact_mod_cast h
  have h2 : z + 1 ≤ w := h1
  have h3 : (z : ℚ) + 1 ≤ w := by exact_mod_cast h2
  linarith

/-- rectangles with integer coordinates whose interiors meet pass the
determinant guard -/
theorem RectanglesGuard_of_int {x1 x2 y1 y2 u1 u2 v1 v2 : ℚ}
    (gx1 : Binary64.IsInt 65536 x1) (gx2 : Binary64.IsInt 65536 x2)
    (gy1 : Binary64.IsInt 65536 y1) (gy2 : Binary64.IsInt 65536 y2)
    (gu1 : Binary64.IsInt 65536 u1) (gu2 : Binary64.IsInt 65536 u2)
    (gv1 : Binary64.IsInt 65536 v1) (gv2 : Binary64.IsInt 65536 v2)
    (hm : RectanglesMeet x1 x2 y1 y2 u1 u2 v1 v2) :
    RectanglesGuard x1 x2 y1 y2 u1 u2 v1 v2 := by
  obtain ⟨hX, hY⟩ := hm
  have hx : x1 < x2 := lt_of_le_of_lt (le_max_left _ _) (lt_of_lt_of_le hX (min_le_left _ _))
  have hu : u1 < u2 := lt_of_le_of_lt (le_max_right _ _) (lt_of_lt_of_le hX (min_le_right _ _))
  have hy : y1 < y2 := lt_of_le_of_lt (le_max_left _ _) (lt_of_lt_of_le hY (min_le_left _ _))
  have hv : v1 < v2 := lt_of_le_of_lt (le_max_right _ _) (lt_of_lt_of_le hY (min_le_right _ _))
  have wX := one_le_sub_of_int (gx1.max gu1) (gx2.min gu2) hX
  have wY := one_le_sub_of_int (gy1.max gv1) (gy2.min gv2) hY
  have wx := one_le_sub_of_int gx1 gx2 hx
  have wu := one_le_sub_of_int gu1 gu2 hu
  have wy := one_le_sub_of_int gy1 gy2 hy
  have wv := one_le_sub_of_int gv1 gv2 hv
  have e : eps9 ≤ 1 := by unfold eps9; norm_num
  have key : ∀ a b : ℚ, 1 ≤ a → 1 ≤ b → eps9 ≤ a * b := by
    intro a b ha hb
    have : 1 * 1 ≤ a * b := mul_le_mul ha hb (by norm_num) (by linarith)
    linarith
  exact ⟨key _ _ wY wu, key _ _ wX wv, key _ _ wY wx, key _ _ wX wy⟩

theorem rnd_odd : ∀ x : ℚ, Binary64.rnd (-x) = -Binary64.rnd x := Binary64.rnd_neg

theorem rect_corners_int {x1 x2 y1 y2 : ℚ}
    (h : ∀ p ∈ (rectangle x1 x2 y1 y2).outer.vertices, IntPoint 65536 p) :
    Binary64.IsInt 65536 x1 ∧ Binary64.IsInt 65536 x2 ∧ Binary64.IsInt 65536 y1 ∧
      Binary64.IsInt 65536 y2 := by
  have h1 := h ⟨x1, y1⟩ (by simp [rectangle])
  have h2 := h ⟨x2, y2⟩ (by simp [rectangle])
  exact ⟨h1.1, h2.1, h1.2, h2.2⟩

/-- C17, as stated, fails, in three ways.
(1) A concave clip ring: for the concave quadrilateral `dart` and the rectangle
`tallRect`, both simple, the two orders of the operands give one polygon each,
but `(3,1/2)` is a vertex of `ComputeBoolean(dart, tallRect, Intersection)` and
not of `ComputeBoolean(tallRect, dart, Intersection)`; binary64 arithmetic gives
the same two results, and neither run reads an uninitialised `ip`.
(2) Rounding: for the triangles `leanTriangle` and `baseTriangle`, convex and
with small integer coordinates, exact arithmetic gives the same result in the
two orders, but in binary64 arithmetic the vertex `(4,1)` of the first result
is not a vertex of the second, which holds the rounded crossing
`(4 + 2 ^ (-50), 1 + 2 ^ (-52))` of two clip lines in its place.
(3) The determinant guard: the interiors of the rectangles `smallRectA` and
`smallRectB` meet, whose coordinates are binary64 numbers; one order returns no
polygon and the other order returns one, over exact arithmetic and in binary64
arithmetic alike. -/
theorem C17_counterexample :
    (ComputeBoolean dart tallRect BoolOp.Intersection ⟨0, 0⟩ =
        [⟨⟨[⟨3 / 2, 3⟩, ⟨1, 2⟩, ⟨1, 1 / 2⟩, ⟨2, 1⟩, ⟨3, 1 / 2⟩, ⟨3, 2⟩, ⟨5 / 2, 3⟩]⟩, []⟩] ∧
      ComputeBoolean tallRect dart BoolOp.Intersection ⟨0, 0⟩ =
        [⟨⟨[⟨1, 2⟩, ⟨1, 3 / 2⟩, ⟨2, 1⟩, ⟨3, 3 / 2⟩, ⟨3, 2⟩, ⟨5 / 2, 3⟩, ⟨3 / 2, 3⟩]⟩, []⟩] ∧
      (⟨3, 1 / 2⟩ : Point) ∈
        [(⟨3 / 2, 3⟩ : Point), ⟨1, 2⟩, ⟨1, 1 / 2⟩, ⟨2, 1⟩, ⟨3, 1 / 2⟩, ⟨3, 2⟩, ⟨5 / 2, 3⟩] ∧
      (⟨3, 1 / 2⟩ : Point) ∉
        [(⟨1, 2⟩ : Point), ⟨1, 3 / 2⟩, ⟨2, 1⟩, ⟨3, 3 / 2⟩, ⟨3, 2⟩, ⟨5 / 2, 3⟩, ⟨3 / 2, 3⟩] ∧
      ComputeBooleanF Binary64.rnd dart tallRect BoolOp.Intersection ⟨0, 0⟩ =
        ComputeBoolean dart tallRect BoolOp.Intersection ⟨0, 0⟩ ∧
      ComputeBooleanF Binary64.rnd tallRect dart BoolOp.Intersection ⟨0, 0⟩ =
        ComputeBoolean tallRect dart BoolOp.Intersection ⟨0, 0⟩ ∧
      ClipAssigned dart.outer.vertices tallRect.outer.vertices = true ∧
      ClipAssigned tallRect.outer.vertices dart.outer.vertices = true) ∧
    (ComputeBoolean leanTriangle baseTriangle BoolOp.Intersection ⟨0, 0⟩ =
        [⟨⟨[⟨167 / 13, 1694 / 169⟩, ⟨668 / 187, 37 / 17⟩, ⟨4, 1⟩, ⟨13, 10⟩]⟩, []⟩] ∧
      ComputeBoolean baseTriangle leanTriangle BoolOp.Intersection ⟨0, 0⟩ =
        [⟨⟨[⟨167 / 13, 1694 / 169⟩, ⟨668 / 187, 37 / 17⟩, ⟨4, 1⟩, ⟨13, 10⟩]⟩, []⟩] ∧
      ComputeBooleanF Binary64.rnd leanTriangle baseTriangle BoolOp.Intersection ⟨0, 0⟩ =
        [⟨⟨[⟨Binary64.rnd (167 / 13), 5642823793465695 / 562949953421312⟩,
          ⟨Binary64.rnd (668 / 187), Binary64.rnd (37 / 17)⟩, ⟨4, 1⟩, ⟨13, 10⟩]⟩, []⟩] ∧
      ComputeBooleanF Binary64.rnd baseTriangle leanTriangle BoolOp.Intersection ⟨0, 0⟩ =
        [⟨⟨[⟨Binary64.rnd (167 / 13), 5642823793465695 / 562949953421312⟩,
          ⟨Binary64.rnd (668 / 187), Binary64.rnd (37 / 17)⟩,
          ⟨4 + 1 / 2 ^ 50, 1 + 1 / 2 ^ 52⟩, ⟨13, 10⟩]⟩, []⟩] ∧
      ¬ SameOuterVertices
        (ComputeBooleanF Binary64.rnd leanTriangle baseTriangle BoolOp.Intersection ⟨0, 0⟩)
        (ComputeBooleanF Binary64.rnd baseTriangle leanTriangle BoolOp.Intersection ⟨0, 0⟩)) ∧
    (RectanglesMeet (1 / 131072) (8 / 131072) 0 (3 / 131072)
        (3 / 131072) (6 / 131072) (2 / 131072) (4 / 131072) ∧
      toDoubles smallRectA.outer.vertices = smallRectA.outer.vertices ∧
      toDoubles smallRectB.outer.vertices = smallRectB.outer.vertices ∧
      ComputeBoolean smallRectA smallRectB BoolOp.Intersection ⟨0, 0⟩ = [] ∧
      (ComputeBoolean smallRectB smallRectA BoolOp.Intersection ⟨0, 0⟩).length = 1 ∧
      ComputeBooleanF Binary64.rnd smallRectA smallRectB BoolOp.Intersection ⟨0, 0⟩ = [] ∧
      (ComputeBooleanF Binary64.rnd smallRectB smallRectA BoolOp.Intersection
        ⟨0, 0⟩).length = 1) := by
  have t1 : ComputeBooleanF Binary64.rnd leanTriangle baseTriangle BoolOp.Intersection ⟨0, 0⟩ =
      [⟨⟨[⟨Binary64.rnd (167 / 13), 5642823793465695 / 562949953421312⟩,
        ⟨Binary64.rnd (668 / 187), Binary64.rnd (37 / 17)⟩, ⟨4, 1⟩, ⟨13, 10⟩]⟩, []⟩] := by
    decide!
  have t2 : ComputeBooleanF Binary64.rnd baseTriangle leanTriangle BoolOp.Intersection ⟨0, 0⟩ =
      [⟨⟨[⟨Binary64.rnd (167 / 13), 5642823793465695 / 562949953421312⟩,
        ⟨Binary64.rnd (668 / 187), Binary64.rnd (37 / 17)⟩,
        ⟨4 + 1 / 2 ^ 50, 1 + 1 / 2 ^ 52⟩, ⟨13, 10⟩]⟩, []⟩] := by
    decide!
  refine ⟨⟨by decide!, by decide!, by decide!, by decide!, by decide!, by decide!, by decide!,
    by decide!⟩, ⟨by decide!, by decide!, t1, t2, ?_⟩,
    ⟨⟨by decide!, by decide!⟩, by decide!, by decide!, by decide!, by decide!, by decide!,
      by decide!⟩⟩
  rw [t1, t2]
  intro h
  cases h with
  | cons hh _ => exact absurd (hh.1 ⟨4, 1⟩ (by decide!)) (by decide!)

/-- C17, amended. Over exact arithmetic and whatever the uninitialised `ip`
holds in either run:
(1) for all polygons `A` and `B`, `ComputeBoolean(A, B, Intersection)` and
`ComputeBoolean(B, A, Intersection)` return the same list of polygons whenever
the dispatcher does not clip (the overlap test fails, or all vertices of one
polygon test inside the other);
(2) for axis-aligned rectangles whose interiors meet and whose determinants
pass the `1e-9` guard, the two orders return the same number of polygons with
the same sets of outer vertices, the clipping branch included.
In binary64 arithmetic (3) statement (1) holds for integer coordinates of
absolute value at most `2 ^ 20`, and (4) statement (2) holds for integer
coordinates of absolute value at most `2 ^ 16`. -/
theorem C17_intersection_comm (u v : Point) :
    (∀ A B : Polygon,
      (PolygonsOverlap A B u = false ∨ AllInside A B = true ∨ AllInside B A = true) →
      ComputeBoolean A B BoolOp.Intersection u = ComputeBoolean B A BoolOp.Intersection v) ∧
    (∀ x1 x2 y1 y2 u1 u2 v1 v2 : ℚ,
      RectanglesMeet x1 x2 y1 y2 u1 u2 v1 v2 → RectanglesGuard x1 x2 y1 y2 u1 u2 v1 v2 →
      SameOuterVertices
        (ComputeBoolean (rectangle x1 x2 y1 y2) (rectangle u1 u2 v1 v2)
          BoolOp.Intersection u)
        (ComputeBoolean (rectangle u1 u2 v1 v2) (rectangle x1 x2 y1 y2)
          BoolOp.Intersection v)) ∧
    (∀ A B : Polygon,
      (∀ p ∈ A.outer.vertices, IntPoint 1048576 p) →
      (∀ p ∈ B.outer.vertices, IntPoint 1048576 p) →
      (PolygonsOverlapF Binary64.rnd A B u = false ∨ AllInsideF Binary64.rnd A B = true ∨
        AllInsideF Binary64.rnd B A = true) →
      ComputeBooleanF Binary64.rnd A B BoolOp.Intersection u =
        ComputeBooleanF Binary64.rnd B A BoolOp.Intersection v) ∧
    (∀ x1 x2 y1 y2 u1 u2 v1 v2 : ℚ,
      (∀ p ∈ (rectangle x1 x2 y1 y2).outer.vertices, IntPoint 65536 p) →
      (∀ p ∈ (rectangle u1 u2 v1 v2).outer.vertices, IntPoint 65536 p) →
      RectanglesMeet x1 x2 y1 y2 u1 u2 v1 v2 →
      SameOuterVertices
        (ComputeBooleanF Binary64.rnd (rectangle x1 x2 y1 y2) (rectangle u1 u2 v1 v2)
          BoolOp.Intersection u)
        (ComputeBooleanF Binary64.rnd (rectangle u1 u2 v1 v2) (rectangle x1 x2 y1 y2)
          BoolOp.Intersection v)) := by
  refine ⟨?_, ?_, ?_, ?_⟩
  · intro A B h
    rw [← ComputeBooleanF_id, ← ComputeBooleanF_id]
    apply intersectionF_comm_unclipped id id_odd A B u v
      (fun p _ h => PointInRingF_id_false_of_right_le p _ h)
      (fun p _ h => PointInRingF_id_false_of_right_le p _ h)
    rw [PolygonsOverlapF_id, AllInsideF_id, AllInsideF_id]
    exact h
  · intro x1 x2 y1 y2 u1 u2 v1 v2 hm hd
    have hX := hm.1
    have hY := hm.2
    have hx : x1 < x2 := lt_of_le_of_lt (le_max_left _ _) (lt_of_lt_of_le hX (min_le_left _ _))
    have hu : u1 < u2 :=
      lt_of_le_of_lt (le_max_right _ _) (lt_of_lt_of_le hX (min_le_right _ _))
    have hy : y1 < y2 := lt_of_le_of_lt (le_max_left _ _) (lt_of_lt_of_le hY (min_le_left _ _))
    have hv : v1 < v2 :=
      lt_of_le_of_lt (le_max_right _ _) (lt_of_lt_of_le hY (min_le_right _ _))
    rw [← ComputeBooleanF_id, ← ComputeBooleanF_id]
    exact intersectionF_rectangles (ClipExactOn_id u) (ClipExactOn_id v) id_odd
      trivial trivial trivial trivial trivial trivial trivial trivial hm hd
      (by rw [IsCCWF_id]; exact IsCCW_rect hx hy) (by rw [IsCCWF_id]; exact IsCCW_rect hu hv)
      (fun p _ h => PointInRingF_id_false_of_right_le p _ h)
      (fun p _ h => PointInRingF_id_false_of_right_le p _ h)
  · intro A B hA hB h
    exact intersectionF_comm_unclipped Binary64.rnd rnd_odd A B u v
      (fun p hp h => PointInRingF_rnd_false_of_right_le (hA p hp) hB h)
      (fun p hp h => PointInRingF_rnd_false_of_right_le (hB p hp) hA h) h
  · intro x1 x2 y1 y2 u1 u2 v1 v2 hA hB hm
    obtain ⟨gx1, gx2, gy1, gy2⟩ := rect_corners_int hA
    obtain ⟨gu1, gu2, gv1, gv2⟩ := rect_corners_int hB
    have hX := hm.1
    have hY := hm.2
    have hx : x1 < x2 := lt_of_le_of_lt (le_max_left _ _) (lt_of_lt_of_le hX (min_le_left _ _))
    have hu : u1 < u2 :=
      lt_of_le_of_lt (le_max_right _ _) (lt_of_lt_of_le hX (min_le_right _ _))
    have hy : y1 < y2 := lt_of_le_of_lt (le_max_left _ _) (lt_of_lt_of_le hY (min_le_left _ _))
    have hv : v1 < v2 :=
      lt_of_le_of_lt (le_max_right _ _) (lt_of_lt_of_le hY (min_le_right _ _))
    have hA2 : ∀ p ∈ (rectangle x1 x2 y1 y2).outer.vertices, IntPoint 1048576 p :=
      fun p hp => IntPoint_mono (hA p hp) (by norm_num)
    have hB2 : ∀ p ∈ (rectangle u1 u2 v1 v2).outer.vertices, IntPoint 1048576 p :=
      fun p hp => IntPoint_mono (hB p hp) (by norm_num)
    exact intersectionF_rectangles (ClipExactOn_rnd u) (ClipExactOn_rnd v) rnd_odd
      gx1 gx2 gy1 gy2 gu1 gu2 gv1 gv2 hm
      (RectanglesGuard_of_int gx1 gx2 gy1 gy2 gu1 gu2 gv1 gv2 hm)
      ((IsCCWF_rnd_exact hA2 (by simp [rectangle])).trans (IsCCW_rect hx hy))
      ((IsCCWF_rnd_exact hB2 (by simp [rectangle])).trans (IsCCW_rect hu hv))
      (fun p hp h => PointInRingF_rnd_false_of_right_le (hA2 p hp) hB2 h)
      (fun p hp h => PointInRingF_rnd_false_of_right_le (hB2 p hp) hA2 h)

theorem C17_intersection_comm_witness :
    (AllInside innerSquare bigSquare = true ∧
      ComputeBoolean bigSquare innerSquare BoolOp.Intersection ⟨0, 0⟩ =
        ComputeBoolean innerSquare bigSquare BoolOp.Intersection ⟨7, 7⟩) ∧
    (RectanglesMeet 0 1 0 1 (1 / 2) (3 / 2) (1 / 2) (3 / 2) ∧
      RectanglesGuard 0 1 0 1 (1 / 2) (3 / 2) (1 / 2) (3 / 2) ∧
      ComputeBoolean (rectangle 0 1 0 1) (rectangle (1 / 2) (3 / 2) (1 / 2) (3 / 2))
          BoolOp.Intersection ⟨0, 0⟩ =
        [⟨⟨[⟨1 / 2, 1 / 2⟩, ⟨1, 1 / 2⟩, ⟨1, 1⟩, ⟨1 / 2, 1⟩]⟩, []⟩] ∧
      ComputeBoolean (rectangle (1 / 2) (3 / 2) (1 / 2) (3 / 2)) (rectangle 0 1 0 1)
          BoolOp.Intersection ⟨7, 7⟩ =
        [⟨⟨[⟨1 / 2, 1⟩, ⟨1 / 2, 1 / 2⟩, ⟨1, 1 / 2⟩, ⟨1, 1⟩]⟩, []⟩] ∧
      SameOuterVertices
        (ComputeBoolean (rectangle 0 1 0 1) (rectangle (1 / 2) (3 / 2) (1 / 2) (3 / 2))
          BoolOp.Intersection ⟨0, 0⟩)
        (ComputeBoolean (rectangle (1 / 2) (3 / 2) (1 / 2) (3 / 2)) (rectangle 0 1 0 1)
          BoolOp.Intersection ⟨7, 7⟩)) ∧
    ((∀ p ∈ bigSquare.outer.vertices, IntPoint 1048576 p) ∧
      (∀ p ∈ innerSquare.outer.vertices, IntPoint 1048576 p) ∧
      AllInsideF Binary64.rnd innerSquare bigSquare = true ∧
      ComputeBooleanF Binary64.rnd bigSquare innerSquare BoolOp.Intersection ⟨0, 0⟩ =
        ComputeBooleanF Binary64.rnd innerSquare bigSquare BoolOp.Intersection ⟨7, 7⟩) ∧
    ((∀ p ∈ (rectangle 0 2 0 2).outer.vertices, IntPoint 65536 p) ∧
      (∀ p ∈ (rectangle 1 3 1 3).outer.vertices, IntPoint 65536 p) ∧
      RectanglesMeet 0 2 0 2 1 3 1 3 ∧
      ComputeBooleanF Binary64.rnd (rectangle 0 2 0 2) (rectangle 1 3 1 3)
          BoolOp.Intersection ⟨0, 0⟩ =
        [⟨⟨[⟨1, 1⟩, ⟨2, 1⟩, ⟨2, 2⟩, ⟨1, 2⟩]⟩, []⟩] ∧
      ComputeBooleanF Binary64.rnd (rectangle 1 3 1 3) (rectangle 0 2 0 2)
          BoolOp.Intersection ⟨7, 7⟩ =
        [⟨⟨[⟨1, 2⟩, ⟨1, 1⟩, ⟨2, 1⟩, ⟨2, 2⟩]⟩, []⟩] ∧
      SameOuterVertices
        (ComputeBooleanF Binary64.rnd (rectangle 0 2 0 2) (rectangle 1 3 1 3)
          BoolOp.Intersection ⟨0, 0⟩)
        (ComputeBooleanF Binary64.rnd (rectangle 1 3 1 3) (rectangle 0 2 0 2)
          BoolOp.Intersection ⟨7, 7⟩)) :=
  have hin : AllInside innerSquare bigSquare = true := by decide!
  have hinF : AllInsideF Binary64.rnd innerSquare bigSquare = true := by decide!
  have hm : RectanglesMeet 0 1 0 1 (1 / 2) (3 / 2) (1 / 2) (3 / 2) :=
    show _ ∧ _ from ⟨by decide!, by decide!⟩
  have hd : RectanglesGuard 0 1 0 1 (1 / 2) (3 / 2) (1 / 2) (3 / 2) :=
    show _ ∧ _ ∧ _ ∧ _ from ⟨by decide!, by decide!, by decide!, by decide!⟩
  have hm2 : RectanglesMeet 0 2 0 2 1 3 1 3 := show _ ∧ _ from ⟨by decide!, by decide!⟩
  have four : ∀ (a b c d : Point) (B : Nat), IntPoint B a → IntPoint B b → IntPoint B c →
      IntPoint B d → ∀ p ∈ [a, b, c, d], IntPoint B p := by
    intro a b c d B ha hb hc hd p hp
    simp only [List.mem_cons, List.mem_singleton, List.not_mem_nil, or_false] at hp
    rcases hp with rfl | rfl | rfl | rfl
    · exact ha
    · exact hb
    · exact hc
    · exact hd
  have hbig : ∀ p ∈ bigSquare.outer.vertices, IntPoint 1048576 p :=
    four ⟨0, 0⟩ ⟨3, 0⟩ ⟨3, 3⟩ ⟨0, 3⟩ 1048576
      ⟨⟨0, by simp, by decide⟩, ⟨0, by simp, by decide⟩⟩
      ⟨⟨3, by simp, by decide⟩, ⟨0, by simp, by decide⟩⟩
      ⟨⟨3, by simp, by decide⟩, ⟨3, by simp, by decide⟩⟩
      ⟨⟨0, by simp, by decide⟩, ⟨3, by simp, by decide⟩⟩
  have hinner : ∀ p ∈ innerSquare.outer.vertices, IntPoint 1048576 p :=
    four ⟨1, 1⟩ ⟨2, 1⟩ ⟨2, 2⟩ ⟨1, 2⟩ 1048576
      ⟨⟨1, by simp, by decide⟩, ⟨1, by simp, by decide⟩⟩
      ⟨⟨2, by simp, by decide⟩, ⟨1, by simp, by decide⟩⟩
      ⟨⟨2, by simp, by decide⟩, ⟨2, by simp, by decide⟩⟩
      ⟨⟨1, by simp, by decide⟩, ⟨2, by simp, by decide⟩⟩
  have hr1 : ∀ p ∈ (rectangle 0 2 0 2).outer.vertices, IntPoint 65536 p :=
    four ⟨0, 0⟩ ⟨2, 0⟩ ⟨2, 2⟩ ⟨0, 2⟩ 65536
      ⟨⟨0, by simp, by decide⟩, ⟨0, by simp, by decide⟩⟩
      ⟨⟨2, by simp, by decide⟩, ⟨0, by simp, by decide⟩⟩
      ⟨⟨2, by simp, by decide⟩, ⟨2, by simp, by decide⟩⟩
      ⟨⟨0, by simp, by decide⟩, ⟨2, by simp, by decide⟩⟩
  have hr2 : ∀ p ∈ (rectangle 1 3 1 3).outer.vertices, IntPoint 65536 p :=
    four ⟨1, 1⟩ ⟨3, 1⟩ ⟨3, 3⟩ ⟨1, 3⟩ 65536
      ⟨⟨1, by simp, by decide⟩, ⟨1, by simp, by decide⟩⟩
      ⟨⟨3, by simp, by decide⟩, ⟨1, by simp, by decide⟩⟩
      ⟨⟨3, by simp, by decide⟩, ⟨3, by simp, by decide⟩⟩
      ⟨⟨1, by simp, by decide⟩, ⟨3, by simp, by decide⟩⟩
  ⟨⟨hin, (C17_intersection_comm ⟨0, 0⟩ ⟨7, 7⟩).1 bigSquare innerSquare (Or.inr (Or.inr hin))⟩,
    ⟨hm, hd, by decide!, by decide!,
      (C17_intersection_comm ⟨0, 0⟩ ⟨7, 7⟩).2.1 0 1 0 1 (1 / 2) (3 / 2) (1 / 2) (3 / 2) hm hd⟩,
    ⟨hbig, hinner, hinF,
      (C17_intersection_comm ⟨0, 0⟩ ⟨7, 7⟩).2.2.1 bigSquare innerSquare hbig hinner
        (Or.inr (Or.inr hinF))⟩,
    ⟨hr1, hr2, hm2, by decide!, by decide!,
      (C17_intersection_comm ⟨0, 0⟩ ⟨7, 7⟩).2.2.2 0 2 0 2 1 3 1 3 hr1 hr2 hm2⟩⟩

end IntersectionOrder
